import Mathlib

/-!
# sgfutils: the replay/capture engine (playgogame.c), the move extractor
(sgffileinput.c) and the SGF reader (readsgf.c)

Shallow embedding of the C sources and the properties proved about them.

Conventions of the embedding.
* C `int` values that the code only compares, adds to or subtracts from are `Int`
  (no value of the engine comes near the 32-bit limits); array indices are `Nat`.
* A `short int` log entry is kept as its 16-bit pattern, a `Nat` below `65536`;
  the sign bit is bit 15.  All uses of the entries in the sources are bit tests.
* An `unsigned char` is a `Nat` below `256`.
* `errexit` never returns: a function that may call it returns `Except Err _`.
* Global arrays are total functions `Nat → _`; a cell outside the C array is never
  read on the paths the theorems are about.
-/

namespace Playgogame

/-! ## Constants of playgogame.c and playgogame.h -/

/-- Source: `#define MAXSZ 31`. -/
def MAXSZ : Nat := 31
/-- Source: `#define SZ 19`. -/
def SZ : Nat := 19
/-- Source: `#define D (MAXSZ+1)`. -/
def D : Nat := MAXSZ + 1
/-- Source: `#define BOARDSIZE (D*(D+1))`. -/
def BOARDSIZE : Nat := D * (D + 1)
/-- Source: `#define POS(i,j) ((i)*D+(j))`. -/
def POS (i j : Int) : Int := i * (D : Int) + j
/-- Source: `#define X(pos) ((pos)/D)`. -/
def X (pos : Nat) : Nat := pos / D
/-- Source: `#define Y(pos) ((pos)%D)`. -/
def Y (pos : Nat) : Nat := pos % D
/-- Source: `static const int dirs[4] = { -1, 1, -D, D }`. -/
def dirs : List Int := [-1, 1, -(D : Int), (D : Int)]

def EMPTY : Nat := 0
def BLACK : Nat := 1
def WHITE : Nat := 2
def BORDER : Nat := 3

/-- Source: `#define CHAINMAX 500`. -/
def CHAINMAX : Nat := 500

def PG_PASS : Nat := 0x1000
def PG_PERMANENT : Nat := 0x2000
def PG_CAPTURE : Nat := 0x4000

/-- The calls of `errexit` in playgogame.c; the move number printed in the
message is kept. -/
inductive Err where
  | unsupported_board_size (size : Int)
  | played_game_array_overflow
  | bad_move_coordinates (movenr x y : Int)
  | play_on_nonempty_position (movenr : Int)
  | chainmax_overflow
  | illegal_ko_recapture (movenr : Int)
  | suicide (movenr : Int)
  | mass_suicide (movenr : Int)
  deriving DecidableEq, Repr

/-- Source: `struct chain`; `stones` is the array, `sz` the number of cells in use. -/
structure chain where
  liberties : Int
  sz : Nat
  stones : Nat → Nat

/-- The global tables of playgogame.c together with the fields of the
`struct played_game` that `pgg` points to.  `mvct` is `mv.length`: the log
`mv[0..mvct)` is kept as a list, the cells of the C array beyond `mvct` are never
read. -/
structure State where
  sz : Int
  sz1 : Int
  board : Nat → Nat
  last_change : Nat → Nat
  current_chain : Nat → Nat
  chains : Nat → chain
  chainct : Nat
  counts : Nat → Nat
  mv : List Nat
  mvlen : Nat

/-- The update `chains[c].liberties += k` (`++`, `--` and `+=` in the source). -/
def State.addLib (st : State) (c : Nat) (k : Int) : State :=
  { st with
    chains := Function.update st.chains c
      ({ st.chains c with liberties := (st.chains c).liberties + k }) }

/-- Conversion of a non-negative `int` to `short int`, as a 16-bit pattern. -/
def toShort (n : Nat) : Nat := n % 65536

/-- Index `s + d` of a neighbour cell (`s + dirs[i]`, `p[dirs[i]]`). -/
def nbr (s : Nat) (d : Int) : Nat := ((s : Int) + d).toNat

/-- The board that `init` builds.  Its five loops each write a constant to an index
set: `for (i=0; i<BOARDSIZE; i++) board[i] = EMPTY`, then `BORDER` for
`for (i=0; i<d; i++)`, `for (i=d; i<=D*d; i+=D)`, `for (i=D; i<=D*d; i+=D)` and
`for (i=1; i<d; i++) board[D*d+i]`.  An index outside the C array (there is no such
cell) gets the fill value `EMPTY`. -/
def init_board (d : Int) : Nat → Nat := fun i =>
  if (D : Int) * d + 1 ≤ (i : Int) ∧ (i : Int) < (D : Int) * d + d then BORDER
  else if (D : Int) ≤ (i : Int) ∧ (i : Int) ≤ (D : Int) * d ∧ i % D = 0 then BORDER
  else if d ≤ (i : Int) ∧ (i : Int) ≤ (D : Int) * d ∧ ((i : Int) - d) % (D : Int) = 0 then BORDER
  else if (i : Int) < d then BORDER
  else EMPTY

/-- Source: `init`.  `g` holds the contents of the globals on entry; `current_chain`
and `chains` are not reset.  `board`, `last_change` and `counts` are filled over
their whole length. -/
def init (g : State) (size : Int) : Except Err State :=
  if size > (MAXSZ : Int) ∨ size > (SZ : Int) then .error (.unsupported_board_size size)
  else
    .ok { g with
      sz := size
      sz1 := size + 1
      board := init_board (size + 1)
      last_change := fun _ => 0
      chainct := 0
      counts := fun _ => 0
      mv := [] }

/-- Source: `add_mv`. -/
def add_mv (st : State) (m : Nat) : Except Err State :=
  if st.mv.length = st.mvlen then .error .played_game_array_overflow
  else .ok { st with mv := st.mv ++ [m] }

/-- Source: `add_move`. -/
def add_move (st : State) (s : Nat) : Except Err State :=
  let color := st.board s
  let m := toShort (s ||| (color <<< 10))
  let st1 := { st with counts := Function.update st.counts 0 (st.counts 0 + 1) }
  let st2 := { st1 with last_change := Function.update st1.last_change s st1.mv.length }
  add_mv st2 m

/-- Source: `add_antimove`. -/
def add_antimove (st : State) (s : Nat) : Except Err State :=
  let color := st.board s
  let st1 := { st with board := Function.update st.board s EMPTY }
  let m := toShort (s ||| (color <<< 10) ||| PG_CAPTURE)
  let st2 := { st1 with counts := Function.update st1.counts color (st1.counts color + 1) }
  let st3 := { st2 with last_change := Function.update st2.last_change s st2.mv.length }
  add_mv st3 m

/-- Source: `add_pass`; `color` is an `int`, the entry keeps the low 16 bits of
`(color << 10) | PG_PASS`. -/
def add_pass (st : State) (color : Int) : Except Err State :=
  let m := ((color * 1024) % 65536).toNat ||| PG_PASS
  let st1 := { st with counts := Function.update st.counts 0 (st.counts 0 + 1) }
  add_mv st1 m

/-- One iteration of the loop of `merge_chains`:
`chp->stones[i++] = s = chp1->stones[j]; current_chain[s] = ch;`. -/
def merge_step (ch ch1 i : Nat) (st : State) (j : Nat) : State :=
  let s := (st.chains ch1).stones j
  { st with
    chains := Function.update st.chains ch
      ({ st.chains ch with stones := Function.update (st.chains ch).stones (i + j) s })
    current_chain := Function.update st.current_chain s ch }

/-- Source: `merge_chains` (merge `ch1` into `ch`); returns the state and `ch`. -/
def merge_chains (st : State) (ch ch1 : Nat) : State × Nat :=
  let st1 := st.addLib ch (st.chains ch1).liberties
  let i := (st1.chains ch).sz
  let n := (st1.chains ch1).sz
  let st2 := (List.range n).foldl (merge_step ch ch1 i) st1
  let st3 := { st2 with
    chains := Function.update st2.chains ch ({ st2.chains ch with sz := i + n }) }
  (st3, ch)

/-- The inner loop body of `remove_chain`:
`if (board[t] == WHITE || board[t] == BLACK) chains[current_chain[t]].liberties++`. -/
def remove_chain_nbr (st : State) (t : Nat) : State :=
  if st.board t = WHITE ∨ st.board t = BLACK then
    st.addLib (st.current_chain t) 1
  else st

/-- The outer loop body of `remove_chain` for the stone `s = chp->stones[j]`. -/
def remove_stone (st : State) (s : Nat) : Except Err State :=
  (add_antimove st s).map fun st1 => dirs.foldl (fun a d => remove_chain_nbr a (nbr s d)) st1

/-- Source: `remove_chain`.  The loop runs `j` from `0` while `j < chp->sz`; the
body never writes a `sz` field, so the bound is the value on entry. -/
def remove_chain (st : State) (ch : Nat) : Except Err State :=
  (List.range (st.chains ch).sz).foldlM
    (fun a j => remove_stone a ((a.chains ch).stones j)) st

/-- Source: `check_retake_in_ko`. -/
def check_retake_in_ko (st : State) (movenr : Int) : Except Err Unit :=
  if st.mv.length < 4 then .ok ()
  else
    let hist : Nat → Nat := fun i => st.mv.getD (st.mv.length - 4 + i) 0
    if hist 0 &&& PG_CAPTURE ≠ 0 ∨ hist 2 &&& PG_CAPTURE ≠ 0 ∨
        ¬ (hist 1 &&& PG_CAPTURE ≠ 0) ∨ ¬ (hist 3 &&& PG_CAPTURE ≠ 0) then .ok ()
    else if hist 0 &&& 0x3ff = hist 3 &&& 0x3ff ∧ hist 1 &&& 0x3ff = hist 2 &&& 0x3ff then
      .error (.illegal_ko_recapture movenr)
    else .ok ()

/-- The body of the neighbour loop of `do_move` for direction `d`; the pair is
the state and the local `ch` (`cp` is always `&chains[ch]`). -/
def do_move_nbr (color : Int) (xy : Nat) (movenr : Int) (a : State × Nat) (d : Int) :
    Except Err (State × Nat) :=
  let st := a.1
  let ch := a.2
  let other_color : Int := (BLACK : Int) + (WHITE : Int) - color
  let t := nbr xy d
  let nb := st.board t
  if nb = EMPTY then
    .ok (st.addLib ch 1, ch)
  else if nb ≠ BORDER then
    let ch2 := st.current_chain t
    let st1 := st.addLib ch2 (-1)
    let ll := (st1.chains ch2).liberties
    if (nb : Int) = other_color then
      (if ll = 0 then remove_chain st1 ch2 else .ok st1).bind fun st2 =>
        (check_retake_in_ko st2 movenr).map fun _ => (st2, ch)
    else if ch2 ≠ ch then .ok (merge_chains st1 ch2 ch)
    else .ok (st1, ch)
  else .ok (st, ch)

/-- Source: `do_move`, from `*p = color` on: the stone is put on the board, logged,
given a fresh chain, and the four neighbours are scanned; then the suicide test. -/
def do_place (st : State) (color : Int) (xy : Nat) (movenr : Int) : Except Err State :=
  let st1 := { st with board := Function.update st.board xy (color % 256).toNat }
  (add_move st1 xy).bind fun st2 =>
    if st2.chainct = CHAINMAX then .error .chainmax_overflow
    else
      let ch := st2.chainct
      let st3 := { st2 with
        current_chain := Function.update st2.current_chain xy ch
        chainct := ch + 1
        chains := Function.update st2.chains ch
          ({ liberties := 0, sz := 1, stones := Function.update (st2.chains ch).stones 0 xy }) }
      (dirs.foldlM (do_move_nbr color xy movenr) (st3, ch)).bind fun r =>
        if (r.1.chains r.2).liberties = 0 then
          if (r.1.chains r.2).sz = 1 then .error (.suicide movenr)
          else .error (.mass_suicide movenr)
        else .ok r.1

/-- Source: `do_move`. -/
def do_move (st : State) (color x y movenr : Int) : Except Err State :=
  if x = st.sz1 ∧ y = st.sz1 then add_pass st color
  else if x = 20 ∧ y = 20 ∧ st.sz1 < 20 then add_pass st color
  else if x < 1 ∨ x > st.sz ∨ y < 1 ∨ y > st.sz then
    .error (.bad_move_coordinates movenr x y)
  else
    let xy := (POS x y).toNat
    if st.board xy ≠ EMPTY then .error (.play_on_nonempty_position movenr)
    else do_place st color xy movenr

/-- The decoding of one input move in the loop of `playgogame`:
`color = (m >> 16)` as a `short`, `x = (m >> 8)` and `y = m` as `unsigned char`,
then `x -= 'a' - 1; y -= 'a' - 1` in `unsigned char` arithmetic. -/
def move_color (m : Int) : Int := (m / 65536 + 32768) % 65536 - 32768
def move_x (m : Int) : Int := ((m / 256) % 256 + 256 - 96) % 256
def move_y (m : Int) : Int := (m % 256 + 256 - 96) % 256

/-- The loop `for (i=0; i<mvct; i++)` of `playgogame`, from index `i` on. -/
def play_moves (initct : Int) : State → Nat → List Int → Except Err State
  | st, _, [] => .ok st
  | st, i, m :: ms =>
    (do_move st (move_color m) (move_x m) (move_y m)
        (if (i : Int) ≥ initct then (i : Int) - initct + 1 else 0)).bind
      fun st1 => play_moves initct st1 (i + 1) ms

/-- The second loop of `playgogame`: entry `i` gets `PG_PERMANENT` when
`last_change[m & 0x3ff] == i`.  Iteration `i` reads and writes `mv[i]` only. -/
def mark_permanent (st : State) : State :=
  { st with mv := st.mv.mapIdx fun i m =>
      if st.last_change (m &&& 0x3ff) = i then (m ||| PG_PERMANENT) else m }

/-- Source: `playgogame`; `g` holds the contents of the global tables and of `*pg`
on entry.  `check_for_cycles` only calls `warn` and writes nothing. -/
def playgogame (g : State) (size : Int) (moves : List Int) (initct : Int) :
    Except Err State :=
  (init g size).bind fun st0 =>
    (play_moves initct st0 0 moves).map mark_permanent

end Playgogame

namespace Playgogame

/-! ## Notions used to state the properties of the engine -/

/-- The four neighbour cells of `s`, in the order of `dirs`. -/
def nbrs (s : Nat) : List Nat := dirs.map (nbr s)

/-- A cell value that is a stone (`board[t] == WHITE || board[t] == BLACK`). -/
def isStone (v : Nat) : Prop := v = WHITE ∨ v = BLACK

instance instDecidableIsStone (v : Nat) : Decidable (isStone v) := by
  unfold isStone; infer_instance

/-- The stones of a chain as a list: `stones[0..sz)`. -/
def stonesOf (c : chain) : List Nat := (List.range c.sz).map c.stones

/-- Number of (stone, empty neighbour cell) pairs of a list of stones: the sum over
the stones of their empty neighbour cells, a cell counted once for each stone it
touches. -/
def libs (b : Nat → Nat) (l : List Nat) : Nat :=
  (l.map fun q => (nbrs q).countP fun t => b t = EMPTY).sum

/-- The state with `f c` added to the liberties field of every chain `c`. -/
def State.bump (st : State) (f : Nat → Int) : State :=
  { st with chains := fun c => { st.chains c with liberties := (st.chains c).liberties + f c } }

/-- The cell `p` is a point of the board of size `n`: both coordinates in `1..n`. -/
def onBoard (n : Int) (p : Nat) : Prop :=
  1 ≤ p / 32 ∧ ((p / 32 : Nat) : Int) ≤ n ∧ 1 ≤ p % 32 ∧ ((p % 32 : Nat) : Int) ≤ n

instance instDecidableOnBoard (n : Int) (p : Nat) : Decidable (onBoard n p) := by
  unfold onBoard; infer_instance

end Playgogame

namespace Playgogame

/-- The log entry of a stone of colour `col` put on `s`. -/
def placeRec (s col : Nat) : Nat := toShort (s ||| (col <<< 10))

/-- The log entry of a stone of colour `col` taken from `s`. -/
def captureRec (s col : Nat) : Nat := toShort (s ||| (col <<< 10) ||| PG_CAPTURE)

/-- The writes of `add_antimove` for the stone on `s`, when the log has room. -/
def State.cap (st : State) (s : Nat) : State :=
  { st with
    board := Function.update st.board s EMPTY
    counts := Function.update st.counts (st.board s) (st.counts (st.board s) + 1)
    last_change := Function.update st.last_change s st.mv.length
    mv := st.mv ++ [captureRec s (st.board s)] }

/-- The liberties that `remove_chain` hands to chain `c` while it takes the stones
`l` from the board one after the other. -/
def remF : State → List Nat → Nat → Int
  | _, [], _ => 0
  | st, s :: l, c =>
    (((nbrs s).countP fun t => isStone ((st.cap s).board t) ∧ st.current_chain t = c : Nat) : Int)
      + remF (st.cap s) l c

/-- The state that `merge_chains` leaves when chain `ch1` is merged into another
chain `ch`. -/
def State.merged (st : State) (ch ch1 : Nat) : State :=
  { st with
    chains := Function.update st.chains ch
      ({ liberties := (st.chains ch).liberties + (st.chains ch1).liberties
         sz := (st.chains ch).sz + (st.chains ch1).sz
         stones := fun x =>
           if (st.chains ch).sz ≤ x ∧ x < (st.chains ch).sz + (st.chains ch1).sz then
             (st.chains ch1).stones (x - (st.chains ch).sz)
           else (st.chains ch).stones x })
    current_chain := fun p =>
      if p ∈ stonesOf (st.chains ch1) then ch else st.current_chain p }

/-- The stones of the chain that owns cell `p`. -/
def chainAt (st : State) (p : Nat) : List Nat := stonesOf (st.chains (st.current_chain p))

/-- The board part of the invariant: the size is supported, the playable cells hold
`EMPTY` or a stone, and they are fenced by `BORDER` cells. -/
structure BoardOk (st : State) : Prop where
  sz_le : st.sz ≤ 19
  sz1_eq : st.sz1 = st.sz + 1
  border : ∀ p, onBoard st.sz p → ∀ t ∈ nbrs p, ¬ onBoard st.sz t → st.board t = BORDER
  stone_on : ∀ p, isStone (st.board p) → onBoard st.sz p
  cell : ∀ p, onBoard st.sz p → st.board p = EMPTY ∨ isStone (st.board p)

/-- The chain tables are consistent with the board: the chain that owns a stone has
been allocated, lists the stone, and lists only stones of that colour that it owns,
each once. -/
structure ChainOk (st : State) : Prop where
  cc_lt : ∀ p, isStone (st.board p) → st.current_chain p < st.chainct
  mem : ∀ p, isStone (st.board p) → p ∈ chainAt st p
  own : ∀ p, isStone (st.board p) → ∀ q ∈ chainAt st p,
    st.board q = st.board p ∧ st.current_chain q = st.current_chain p
  nodup : ∀ p, isStone (st.board p) → (chainAt st p).Nodup

/-- The liberty accounting while the neighbours `pending` of the new stone `xy` are
still to be scanned: a stone in `pending` still counts `xy` as a free slot, and the
chain of `xy` has not yet counted the empty cells in `pending`.  With no pending
neighbour the liberties field is the number of (stone, empty neighbour) pairs. -/
def LibOk (st : State) (xy : Nat) (pending : List Nat) : Prop :=
  ∀ p, isStone (st.board p) →
    (st.chains (st.current_chain p)).liberties
        + (if xy ∈ chainAt st p then
            ((pending.countP fun t => st.board t = EMPTY : Nat) : Int) else 0)
      = (libs st.board (chainAt st p) : Int)
        + ((pending.countP fun t => t ∈ chainAt st p : Nat) : Int)

/-- Adjacent stones of one colour are owned by one chain, except for the new stone
`xy` and its neighbours still to be scanned. -/
def AdjOk (st : State) (xy : Nat) (pending : List Nat) : Prop :=
  ∀ p, isStone (st.board p) → ∀ t ∈ nbrs p, st.board t = st.board p →
    st.current_chain t = st.current_chain p ∨ (p = xy ∧ t ∈ pending) ∨ (t = xy ∧ p ∈ pending)

/-- The invariant of the board and chain tables inside the neighbour loop of
`do_move`. -/
structure Wf (st : State) (xy : Nat) (pending : List Nat) : Prop where
  board : BoardOk st
  chain : ChainOk st
  lib : LibOk st xy pending
  adj : AdjOk st xy pending

/-- The invariant of the board and chain tables between two moves: the tables are
consistent, every liberties field is the number of (stone, empty neighbour) pairs of
its chain, and every chain on the board has a liberty. -/
structure Inv (st : State) : Prop where
  wf : Wf st 0 []
  pos : ∀ p, isStone (st.board p) → 1 ≤ (st.chains (st.current_chain p)).liberties

/-- The state after `remove_chain` has taken the chain that owns `t0` from the board,
its liberties field just decremented. -/
def State.captured (st : State) (t0 : Nat) : State :=
  ((chainAt st t0).foldl State.cap (st.addLib (st.current_chain t0) (-1))).bump
    (remF (st.addLib (st.current_chain t0) (-1)) (chainAt st t0))

/-- One iteration of the neighbour loop of `do_move` that does not call `errexit`:
`Scan xy movenr t0 st r` says that scanning the neighbour `t0` of the new stone `xy`
in state `st` leaves state `r`.  The six cases are the six paths through the loop
body. -/
inductive Scan (xy : Nat) (movenr : Int) (t0 : Nat) (st : State) : State → Prop where
  | empty : st.board t0 = EMPTY → Scan xy movenr t0 st (st.addLib (st.current_chain xy) 1)
  | border : st.board t0 ≠ EMPTY → ¬ isStone (st.board t0) → Scan xy movenr t0 st st
  | opp : isStone (st.board t0) → st.board t0 ≠ st.board xy →
      (st.chains (st.current_chain t0)).liberties - 1 ≠ 0 →
      check_retake_in_ko (st.addLib (st.current_chain t0) (-1)) movenr = .ok () →
      Scan xy movenr t0 st (st.addLib (st.current_chain t0) (-1))
  | capture : isStone (st.board t0) → st.board t0 ≠ st.board xy →
      (st.chains (st.current_chain t0)).liberties - 1 = 0 →
      ¬ (st.mv.length ≤ st.mvlen ∧ st.mvlen < st.mv.length + (chainAt st t0).length) →
      check_retake_in_ko (st.captured t0) movenr = .ok () →
      Scan xy movenr t0 st (st.captured t0)
  | merge : st.board t0 = st.board xy → st.current_chain t0 ≠ st.current_chain xy →
      Scan xy movenr t0 st
        ((st.addLib (st.current_chain t0) (-1)).merged (st.current_chain t0)
          (st.current_chain xy))
  | same : st.board t0 = st.board xy → st.current_chain t0 = st.current_chain xy →
      Scan xy movenr t0 st (st.addLib (st.current_chain t0) (-1))

/-- Inside the neighbour loop every chain on the board other than the chain of the
new stone `xy` has a positive liberties field. -/
def PosOk (st : State) (xy : Nat) : Prop :=
  ∀ p, isStone (st.board p) → st.current_chain p ≠ st.current_chain xy →
    1 ≤ (st.chains (st.current_chain p)).liberties

/-- The state in which `do_move` enters its neighbour loop: the stone of colour
`col` is on `xy`, logged, and owned by the fresh chain `chainct`. -/
def State.placed (st : State) (col xy : Nat) : State :=
  { st with
    board := Function.update st.board xy col
    counts := Function.update st.counts 0 (st.counts 0 + 1)
    last_change := Function.update st.last_change xy st.mv.length
    mv := st.mv ++ [placeRec xy col]
    current_chain := Function.update st.current_chain xy st.chainct
    chainct := st.chainct + 1
    chains := Function.update st.chains st.chainct
      ({ liberties := 0, sz := 1, stones := Function.update (st.chains st.chainct).stones 0 xy }) }

/-- The colour field of every move of the list is Black or White. -/
def ColoursOk (moves : List Int) : Prop := ∀ m ∈ moves, move_color m = 1 ∨ move_color m = 2

instance instDecidableColoursOk (moves : List Int) : Decidable (ColoursOk moves) := by
  unfold ColoursOk; infer_instance


/-- The state when the first loop of `playgogame` ends: the tables initialised for
`size` and the moves replayed in order. -/
def run (g : State) (size : Int) (moves : List Int) (initct : Int) : Except Err State :=
  (init g size).bind fun st0 => play_moves initct st0 0 moves

/-- The state of a run that did not fail (`d` otherwise). -/
def stateOf (r : Except Err State) (d : State) : State :=
  match r with
  | .ok s => s
  | .error _ => d

/-- The run did not fail. -/
def isOk (r : Except Err State) : Bool :=
  match r with
  | .ok _ => true
  | .error _ => false

/-- The error of a failed run. -/
def errOf (r : Except Err State) : Option Err :=
  match r with
  | .ok _ => none
  | .error e => some e

/-- Tables with nothing in them and room for `n` log entries, as a caller passes
them to `playgogame`. -/
def blank (n : Nat) : State :=
  { sz := 0, sz1 := 0, board := fun _ => 0, last_change := fun _ => 0,
    current_chain := fun _ => 0, chains := fun _ => ⟨0, 0, fun _ => 0⟩, chainct := 0,
    counts := fun _ => 0, mv := [], mvlen := n }

/-- The input move of colour `col` (1 Black, 2 White) on the point `(x, y)`,
coordinates from 1: `(col << 16) | (('a'-1+x) << 8) | ('a'-1+y)`. -/
def mkMove (col x y : Nat) : Int := ((col * 65536 + (96 + x) * 256 + (96 + y) : Nat) : Int)

/-- The stone on `p` is taken by a stone of colour `col` put on `xy`: it is a stone
of the other colour, its chain touches `xy`, and no stone of its chain has an empty
neighbour cell other than `xy`. -/
def capturedBy (st : State) (col xy p : Nat) : Prop :=
  isStone (st.board p) ∧ st.board p ≠ col ∧ (∃ t ∈ nbrs xy, t ∈ chainAt st p) ∧
    ∀ q ∈ chainAt st p, ∀ u ∈ nbrs q, u ≠ xy → st.board u ≠ EMPTY

instance instDecidableCapturedBy (st : State) (col xy p : Nat) :
    Decidable (capturedBy st col xy p) := by
  unfold capturedBy; infer_instance

/-- What the neighbour loop of `do_move` has done to the board and the log when the
neighbours `pending` are still to be scanned, in terms of the state `s0` before the
move: the stones `caps` have been taken and logged, they are the stones of the
capturable chains that have no stone in `pending`, and the chains of the other
opposing stones are as before. -/
structure CapOk (s0 : State) (col xy : Nat) (st : State) (pending caps : List Nat) :
    Prop where
  board : ∀ p, st.board p = if p = xy then col else if p ∈ caps then EMPTY else s0.board p
  mv : st.mv = s0.mv ++ placeRec xy col :: caps.map fun p => captureRec p (s0.board p)
  nodup : caps.Nodup
  cap : ∀ p, p ∈ caps ↔ capturedBy s0 col xy p ∧ ∀ t ∈ pending, t ∉ chainAt s0 p
  opp : ∀ p, isStone (s0.board p) → s0.board p ≠ col → p ∉ caps →
    st.current_chain p = s0.current_chain p ∧ chainAt st p = chainAt s0 p
  sub : ∀ t ∈ pending, t ∈ nbrs xy
  mvlen : st.mvlen = s0.mvlen

/-- The chains of the mover's colour inside the neighbour loop, in terms of the state
`s0` before the move: the chain of the new stone `xy` holds the new stone and the
stones of the chains of its colour that touch `xy` at a neighbour already scanned;
the other chains of that colour are as before; stones that one chain owned before the
move, and that are still on the board, are owned by one chain. -/
structure GrpOk (s0 : State) (col xy : Nat) (st : State) (pending : List Nat) : Prop where
  grp : ∀ q, q ∈ chainAt st xy ↔
    q = xy ∨ (s0.board q = col ∧ ∃ t ∈ nbrs xy, t ∉ pending ∧ t ∈ chainAt s0 q)
  own : ∀ p, s0.board p = col → st.current_chain p ≠ st.current_chain xy →
    st.current_chain p = s0.current_chain p ∧ chainAt st p = chainAt s0 p
  same : ∀ p q, isStone (st.board p) → isStone (st.board q) → p ≠ xy → q ≠ xy →
    s0.current_chain p = s0.current_chain q → st.current_chain p = st.current_chain q
  nd : pending.Nodup

/-- The invariant of the neighbour loop of `do_move` for a stone of colour `col` put
on the empty point `xy` in state `s0`, when the neighbours `pending` are still to be
scanned. -/
structure LoopOk (s0 : State) (col xy : Nat) (st : State) (pending : List Nat) : Prop where
  wf : Wf st xy pending
  pos : PosOk st xy
  onb : onBoard st.sz xy
  cap : ∃ caps, CapOk s0 col xy st pending caps
  grp : GrpOk s0 col xy st pending

/-- The iterations of the neighbour loop of `do_move` that call `errexit`:
`ScanErr xy movenr t0 st e` says that scanning the neighbour `t0` of the new stone
`xy` in state `st` fails with `e`.  The neighbour is an opposing stone; the failure is
the ko test after an opposing stone that is not taken, the log overflowing while a
chain is taken, or the ko test after a chain has been taken. -/
inductive ScanErr (xy : Nat) (movenr : Int) (t0 : Nat) (st : State) : Err → Prop where
  | ko_opp : isStone (st.board t0) → st.board t0 ≠ st.board xy →
      (st.chains (st.current_chain t0)).liberties - 1 ≠ 0 →
      check_retake_in_ko (st.addLib (st.current_chain t0) (-1)) movenr
        = .error (.illegal_ko_recapture movenr) →
      ScanErr xy movenr t0 st (.illegal_ko_recapture movenr)
  | overflow : isStone (st.board t0) → st.board t0 ≠ st.board xy →
      (st.chains (st.current_chain t0)).liberties - 1 = 0 →
      (st.mv.length ≤ st.mvlen ∧ st.mvlen < st.mv.length + (chainAt st t0).length) →
      ScanErr xy movenr t0 st .played_game_array_overflow
  | ko_capture : isStone (st.board t0) → st.board t0 ≠ st.board xy →
      (st.chains (st.current_chain t0)).liberties - 1 = 0 →
      ¬ (st.mv.length ≤ st.mvlen ∧ st.mvlen < st.mv.length + (chainAt st t0).length) →
      check_retake_in_ko (st.captured t0) movenr = .error (.illegal_ko_recapture movenr) →
      ScanErr xy movenr t0 st (.illegal_ko_recapture movenr)

/-- The position field of a log entry: `m & 0x3ff`. -/
def recPos (m : Nat) : Nat := m &&& 0x3ff

/-- The colour field of a log entry: bits 10 and 11. -/
def recColor (m : Nat) : Nat := (m >>> 10) &&& 3

/-- The entry has the `PG_CAPTURE` flag. -/
def isCapture (m : Nat) : Prop := m &&& PG_CAPTURE ≠ 0

/-- The entry has the `PG_PASS` flag. -/
def isPass (m : Nat) : Prop := m &&& PG_PASS ≠ 0

/-- The entry has the `PG_PERMANENT` flag. -/
def isPermanent (m : Nat) : Prop := m &&& PG_PERMANENT ≠ 0

instance instDecidableIsCapture (m : Nat) : Decidable (isCapture m) := by
  unfold isCapture; infer_instance

instance instDecidableIsPass (m : Nat) : Decidable (isPass m) := by
  unfold isPass; infer_instance

instance instDecidableIsPermanent (m : Nat) : Decidable (isPermanent m) := by
  unfold isPermanent; infer_instance

/-- The log entry of a pass by `color`. -/
def passRec (color : Int) : Nat := ((color * 1024) % 65536).toNat ||| PG_PASS

/-- The invariant that ties the log to the board and to `last_change`: for every
position with an entry, `last_change` is the index of its last entry; a stone on the
board is the colour of the last entry of its point, which is a placement; the entries
are passes, placements and captures of Black or White on points of the board. -/
structure LogOk (st : State) : Prop where
  lc_ge : ∀ (i m : Nat), st.mv[i]? = some m → ¬ isPass m → i ≤ st.last_change (recPos m)
  lc_rec : ∀ (i m : Nat), st.mv[i]? = some m → ¬ isPass m →
    ∃ m1 : Nat, st.mv[st.last_change (recPos m)]? = some m1 ∧ ¬ isPass m1 ∧ recPos m1 = recPos m
  stone_rec : ∀ p, isStone (st.board p) →
    st.mv[st.last_change p]? = some (placeRec p (st.board p))
  rec_stone : ∀ (i m : Nat), st.mv[i]? = some m → ¬ isPass m → ¬ isCapture m →
    st.last_change (recPos m) = i → st.board (recPos m) = recColor m
  form : ∀ m ∈ st.mv, (∃ c, isStone c ∧ m = passRec (Int.ofNat c)) ∨
    (∃ p c, 33 ≤ p ∧ p < 1024 ∧ isStone c ∧ (m = placeRec p c ∨ m = captureRec p c))
  len : st.mv.length ≤ st.mvlen

/-- A small game on the 19 by 19 board: Black on (2,2), then White on (1,2), (3,2)
and (2,1). -/
def demoMoves : List Int := [mkMove 1 2 2, mkMove 2 1 2, mkMove 2 3 2, mkMove 2 2 1]

/-- The state that the replay of `demoMoves` reaches. -/
def demoState : State := stateOf (run (blank 100) 19 demoMoves 0) (blank 0)

/-- The entry `m0` at index `i` after the second loop of `playgogame`. -/
def marked (st : State) (i m0 : Nat) : Nat :=
  if st.last_change (m0 &&& 0x3ff) = i then (m0 ||| PG_PERMANENT) else m0


/-- The game `demoMoves` followed by White on (2,3), which takes the Black stone. -/
def demoGame : List Int := demoMoves ++ [mkMove 2 2 3]

/-- The tables and the log that `playgogame` returns for `demoGame`. -/
def demoFinal : State := stateOf (playgogame (blank 100) 19 demoGame 0) (blank 0)

/-- The pass test of `do_move` on a board of size `size`. -/
def isPassXY (size x y : Int) : Prop :=
  (x = size + 1 ∧ y = size + 1) ∨ (x = 20 ∧ y = 20 ∧ size + 1 < 20)

instance instDecidableIsPassXY (size x y : Int) : Decidable (isPassXY size x y) := by
  unfold isPassXY; infer_instance

/-- The log entry that encodes an input move, as the header comment of playgogame.c
gives it: `(colour << 10) | PG_PASS` for a pass, `(32*x + y) | (colour << 10)`
otherwise, with `x`, `y` the coordinates from 1 (`letter - 'a' + 1`). -/
def encodeMove (size : Int) (m : Int) : Nat :=
  if isPassXY size (move_x m) (move_y m) then ((move_color m).toNat <<< 10) ||| PG_PASS
  else (32 * (move_x m).toNat + (move_y m).toNat) ||| ((move_color m).toNat <<< 10)

/-- The entry without its `PG_PERMANENT` flag. -/
def clearPermanent (m : Nat) : Nat := if isPermanent m then m - PG_PERMANENT else m

/-- The log made of one block for each move: the entry of the move, then the entries
`b` that follow it. -/
def blocksLog (size : Int) (moves : List Int) (blocks : List (List Nat)) : List Nat :=
  (List.zipWith (fun m b => encodeMove size m :: b) moves blocks).flatten

/-- The game `demoGame` followed by a pass of Black, written "tt". -/
def passGame : List Int := demoGame ++ [mkMove 1 20 20]

/-- The result of `playgogame` on `passGame`. -/
def passFinal : State := stateOf (playgogame (blank 100) 19 passGame 0) (blank 0)

/-- The errors that `do_move` raises after its tests of the coordinates and of the
target cell: the capacity guards, the ko test and the suicide tests. -/
def Err.late : Err → Prop
  | .played_game_array_overflow => True
  | .chainmax_overflow => True
  | .illegal_ko_recapture _ => True
  | .suicide _ => True
  | .mass_suicide _ => True
  | _ => False

/-- The pass condition as the specification words it: `x = y = s+1` or `x = y = 20`. -/
def passCoords (s x y : Int) : Prop := (x = s + 1 ∧ y = s + 1) ∨ (x = 20 ∧ y = 20)

instance instDecidablePassCoords (s x y : Int) : Decidable (passCoords s x y) := by
  unfold passCoords; infer_instance

/-- A coordinate outside `1..s`. -/
def offBoard (s x y : Int) : Prop := x < 1 ∨ x > s ∨ y < 1 ∨ y > s

instance instDecidableOffBoard (s x y : Int) : Decidable (offBoard s x y) := by
  unfold offBoard; infer_instance

/-- The input move `m` is on the point `a` of a board of size `size`: its coordinates
are in `1..size` and `a` is `POS(x,y)`. -/
def playedAt (size : Int) (m : Int) (a : Nat) : Prop :=
  1 ≤ move_x m ∧ move_x m ≤ size ∧ 1 ≤ move_y m ∧ move_y m ≤ size ∧
    a = (POS (move_x m) (move_y m)).toNat

instance instDecidablePlayedAt (size : Int) (m : Int) (a : Nat) :
    Decidable (playedAt size m a) := by
  unfold playedAt; infer_instance

/-- The move number that `playgogame` passes to `do_move` for the move of index `i`:
`(i >= initct) ? i-initct+1 : 0`. -/
def movenrOf (initct : Int) (i : Nat) : Int :=
  if (i : Int) ≥ initct then (i : Int) - initct + 1 else 0

/-- A ko on the 19 by 19 board: Black on (1,2), (2,1), (3,2) and White on (1,3), (2,4),
(3,3) surround the points (2,2) and (2,3); White plays (2,2), Black takes it by
playing (2,3). -/
def koGame : List Int :=
  [mkMove 1 1 2, mkMove 2 1 3, mkMove 1 2 1, mkMove 2 2 4, mkMove 1 3 2, mkMove 2 3 3,
    mkMove 1 5 5, mkMove 2 2 2, mkMove 1 2 3]

/-- White retakes at once on (2,2). -/
def koMove : Int := mkMove 2 2 2

/-- The state after `koGame` when the log has room for `n` entries. -/
def koState (n : Nat) : State := stateOf (run (blank n) 19 koGame 0) (blank 0)

/-- The state before the last move of `koGame` when the log has room for `n` entries. -/
def koBefore (n : Nat) : State := stateOf (run (blank n) 19 (koGame.take 8) 0) (blank 0)

/-- The board after a stone of colour `col` has been put on `xy` in state `st` and the
opposing chains it takes have been removed (in the words of the specification). -/
def afterCaptures (st : State) (col xy : Nat) (p : Nat) : Nat :=
  if p = xy then col else if capturedBy st col xy p then EMPTY else st.board p

/-- The chain of the new stone once its own-colour neighbours are merged: the stone
`xy` and the stones of the chains of colour `col` that touch `xy`. -/
def inNewChain (st : State) (col xy q : Nat) : Prop :=
  q = xy ∨ (st.board q = col ∧ ∃ t ∈ nbrs xy, t ∈ chainAt st q)

/-- The chain of the new stone has no empty neighbouring cell after the captures. -/
def noLiberty (st : State) (col xy : Nat) : Prop :=
  ∀ q, inNewChain st col xy q → ∀ u ∈ nbrs q, afterCaptures st col xy u ≠ EMPTY

/-- The chain of the new stone is the new stone alone. -/
def alone (st : State) (col xy : Nat) : Prop := ∀ q, inNewChain st col xy q → q = xy

/-- A position in which the corner (1,1) has no liberty: White on (1,2) and (2,1). -/
def cornerMoves : List Int := [mkMove 2 1 2, mkMove 2 2 1]

/-- The state after `cornerMoves`, the log having room for `n` entries. -/
def cornerState (n : Nat) : State := stateOf (run (blank n) 19 cornerMoves 0) (blank 0)

/-- The state after `demoMoves` when the log has room for four entries only: the log
is full. -/
def fullState : State := stateOf (run (blank 4) 19 demoMoves 0) (blank 0)

/-- The order of the entries of a log, position by position: an entry that is a CAPTURE
has an earlier entry for its position; and when `j` is the nearest earlier entry for the
position of entry `i`, one of the two is a CAPTURE and the other a placement, the CAPTURE
entry `i` having the colour of the placement `j`. -/
def AltLog (l : List Nat) : Prop :=
  ∀ (i mi : Nat), l[i]? = some mi → ¬ isPass mi →
    (isCapture mi → ∃ j mj, j < i ∧ l[j]? = some mj ∧ ¬ isPass mj ∧ recPos mj = recPos mi) ∧
    ∀ (j mj : Nat), j < i → l[j]? = some mj → ¬ isPass mj → recPos mj = recPos mi →
      (∀ (k mk : Nat), j < k → k < i → l[k]? = some mk → ¬ isPass mk → recPos mk ≠ recPos mi) →
      (isCapture mi ↔ ¬ isCapture mj) ∧ (isCapture mi → recColor mi = recColor mj)

/-- The cells `p` and `q` are joined by a path of cells of the list `l`, each next to the
one before (`nbrs`). -/
inductive JoinedIn (l : List Nat) (p : Nat) : Nat → Prop where
  | refl : p ∈ l → JoinedIn l p p
  | step (q r : Nat) : JoinedIn l p q → r ∈ l → r ∈ nbrs q → JoinedIn l p r

/-- The stones on `p` and `q` are joined by a path of orthogonally adjacent stones of
one colour on the board `b`. -/
inductive Joined (b : Nat → Nat) (p : Nat) : Nat → Prop where
  | refl : isStone (b p) → Joined b p p
  | step (q r : Nat) : Joined b p q → r ∈ nbrs q → b r = b q → Joined b p r

/-- Every chain on the board is connected: any two of its stones are joined by a path
of stones of the chain. -/
def ConnOk (st : State) : Prop :=
  ∀ p, isStone (st.board p) → ∀ q ∈ chainAt st p, JoinedIn (chainAt st p) p q

/-- Black on (2,2), White on (5,5), Black on (2,3). -/
def pairMoves : List Int := [mkMove 1 2 2, mkMove 2 5 5, mkMove 1 2 3]

/-- The state that the replay of `pairMoves` reaches. -/
def pairState : State := stateOf (run (blank 100) 19 pairMoves 0) (blank 0)

/-- Three Black stones: (2,2) and (2,4), then (2,3), which joins them. -/
def joinMoves : List Int := [mkMove 1 2 2, mkMove 1 2 4, mkMove 1 2 3]

/-- The same three Black stones played in a row: (2,2), (2,3), (2,4). -/
def rowMoves : List Int := [mkMove 1 2 2, mkMove 1 2 3, mkMove 1 2 4]

/-- The state that the replay of `joinMoves` reaches. -/
def joinState : State := stateOf (run (blank 100) 19 joinMoves 0) (blank 0)

/-- The state that the replay of `rowMoves` reaches. -/
def rowState : State := stateOf (run (blank 100) 19 rowMoves 0) (blank 0)

/-- Two states agree on everything that a later move can read: the size, the board,
`last_change`, `chainct`, the output structure, the owner of every cell that holds
something other than `EMPTY` or `BORDER`, and the fields and stones `stones[0..sz)` of
the chains below `chainct`.  The other cells of `current_chain` and `chains`, which
`init` leaves as they were, may differ. -/
structure Sim (a b : State) : Prop where
  sz : a.sz = b.sz
  sz1 : a.sz1 = b.sz1
  board : a.board = b.board
  lc : a.last_change = b.last_change
  chainct : a.chainct = b.chainct
  counts : a.counts = b.counts
  mv : a.mv = b.mv
  mvlen : a.mvlen = b.mvlen
  cc : ∀ p, a.board p ≠ EMPTY → a.board p ≠ BORDER →
    a.current_chain p = b.current_chain p ∧ a.current_chain p < a.chainct
  lib : ∀ c, c < a.chainct → (a.chains c).liberties = (b.chains c).liberties
  csz : ∀ c, c < a.chainct → (a.chains c).sz = (b.chains c).sz
  stones : ∀ c, c < a.chainct → ∀ j, j < (a.chains c).sz →
    (a.chains c).stones j = (b.chains c).stones j

/-- The error without the move number of its message (the number printed is the index
of the move less the setup count). -/
def Err.untag : Err → Err
  | .bad_move_coordinates _ x y => .bad_move_coordinates 0 x y
  | .play_on_nonempty_position _ => .play_on_nonempty_position 0
  | .illegal_ko_recapture _ => .illegal_ko_recapture 0
  | .suicide _ => .suicide 0
  | .mass_suicide _ => .mass_suicide 0
  | e => e

/-- Two results agree: both are values related by `R`, or both are the same error up to
the move number of the message. -/
def SimR {α : Type} (R : α → α → Prop) : Except Err α → Except Err α → Prop
  | .ok a, .ok b => R a b
  | .error e1, .error e2 => e1.untag = e2.untag
  | _, _ => False

/-- The number of entries of a log without the CAPTURE flag. -/
def moveCount (l : List Nat) : Nat := l.countP fun m => decide (¬ isCapture m)

/-- The number of CAPTURE entries of colour `c` in a log. -/
def captureCount (c : Nat) (l : List Nat) : Nat :=
  l.countP fun m => decide (isCapture m ∧ recColor m = c)

/-- The counters of `struct played_game` agree with the log: `counts[0]` is the number of
entries that are not CAPTURE entries, `counts[1]` and `counts[2]` the numbers of CAPTURE
entries of Black and of White stones. -/
structure CntOk (st : State) : Prop where
  moves : st.counts 0 = moveCount st.mv
  black : st.counts 1 = captureCount 1 st.mv
  white : st.counts 2 = captureCount 2 st.mv

/-- The input move puts a stone on a board of size `size`: its coordinates are not those
of a pass. -/
def isPlacement (size : Int) (m : Int) : Prop := ¬ passCoords size (move_x m) (move_y m)

instance instDecidableIsPlacement (size : Int) (m : Int) : Decidable (isPlacement size m) := by
  unfold isPlacement; infer_instance

/-- The number of stone placements among the moves: setup stones included, passes not. -/
def placements (size : Int) (moves : List Int) : Nat :=
  moves.countP fun m => decide (isPlacement size m)

/-- Source: sgfdbinput.c, the body of the loop of `do_bgin` for an entry `m` of the log
that is not a CAPTURE entry: the move stored in `moves[]`.  A PASS entry gives
`x = y = 't'`, another entry `x = mm/(MAXSZ+1) + 'a' - 1`, `y = mm%(MAXSZ+1) + 'a' - 1`
with `mm = m & 0x3ff`; the move is `((m & 0xc00) << 6) + (x << 8) + y`. -/
def bgin_move (m : Nat) : Nat :=
  let x := if m &&& PG_PASS ≠ 0 then 116 else (m &&& 0x3ff) / (MAXSZ + 1) + 97 - 1
  let y := if m &&& PG_PASS ≠ 0 then 116 else (m &&& 0x3ff) % (MAXSZ + 1) + 97 - 1
  ((m &&& 0xc00) <<< 6) + (x <<< 8) + y

/-- Source: the loop of `do_bgin` over the log `mv[0..mvct)`: the array `moves[]`, one
move for each entry without the CAPTURE flag. -/
def bgin_moves (mv : List Nat) : List Nat :=
  (mv.filter fun m => decide (m &&& PG_CAPTURE = 0)).map bgin_move

/-- Source: the test `(diff[k] & 0xfff) == (m & 0xfff)` of `check_for_cycles`: the index
of the first entry of `diff` with the position and colour of `m`. -/
def find_diff : List Nat → Nat → Option Nat
  | [], _ => none
  | d :: ds, m =>
    if d &&& 0xfff = m &&& 0xfff then some 0
    else (find_diff ds m).map fun k => k + 1

/-- Source: `diff[k] = diff[--diffct];`: the last entry takes the place of entry `k`. -/
def remove_diff (diff : List Nat) (k : Nat) : List Nat :=
  match diff.getLast? with
  | none => []
  | some d => (diff.set k d).dropLast

/-- The number of entries of the local array `diff` of `check_for_cycles`:
`2*SZ*SZ` with `SZ` 19. -/
def DIFFSZ : Nat := 2 * 19 * 19

/-- The outcomes of the loop over `j` of `check_for_cycles`: the warning is written with
the number `nrj`; the loop ends or is left by `break`; or `diff[diffct++] = m` is a write
past the end of `diff`, where the model stops. -/
inductive Found where
  | warning (nrj : Nat) : Found
  | nothing : Found
  | diff_overflow : Found
  deriving DecidableEq, Repr

/-- The outcomes of `check_for_cycles`: the warning `cycle: position after move n equals
that after move m`; no warning; or a write past the end of `diff`, where the model
stops. -/
inductive Cycles where
  | cycle (n m : Nat) : Cycles
  | silent : Cycles
  | diff_overflow : Cycles
  deriving DecidableEq, Repr

/-- Source: the test `j+1 < ct && (pgg->mv[j+1] & PG_CAPTURE)` of `check_for_cycles`,
on the entries after entry `j`. -/
def next_is_capture : List Nat → Bool
  | [] => false
  | m1 :: _ => decide (m1 &&& PG_CAPTURE ≠ 0)

/-- Source: the loop `for (j=i; j<ct; j++)` of `check_for_cycles` from the entry `m` on,
`rest` being the entries after it, `diff` the entries `diff[0..diffct-1]`. -/
def cycle_from : List Nat → List Nat → Nat → Found
  | [], _, _ => .nothing
  | m :: rest, diff, nrj =>
    match find_diff diff m with
    | some k =>
      if remove_diff diff k ≠ [] then
        cycle_from rest (remove_diff diff k) (if m &&& PG_CAPTURE = 0 then nrj + 1 else nrj)
      else if next_is_capture rest = true then
        cycle_from rest (remove_diff diff k) (if m &&& PG_CAPTURE = 0 then nrj + 1 else nrj)
      else .warning (if m &&& PG_CAPTURE = 0 then nrj + 1 else nrj)
    | none =>
      if m &&& PG_PERMANENT ≠ 0 then .nothing
      else if DIFFSZ ≤ diff.length then .diff_overflow
      else cycle_from rest (diff ++ [m]) (if m &&& PG_CAPTURE = 0 then nrj + 1 else nrj)

/-- Source: the loop `for (i = 0; i < ct; i++)` of `check_for_cycles` from the entry `m`
on; `nri` is the number of entries without the CAPTURE flag before it.  The warning
prints the numbers `nrj` and `nri-1` of the source, which are `nrj` and `nri` here. -/
def cycles_loop : List Nat → Nat → Cycles
  | [], _ => .silent
  | m :: rest, nri =>
    if m &&& PG_CAPTURE ≠ 0 then cycles_loop rest nri
    else
      match cycle_from (m :: rest) [] nri with
      | .warning nrj => .cycle nrj nri
      | .nothing => cycles_loop rest (nri + 1)
      | .diff_overflow => .diff_overflow

/-- Source: `check_for_cycles` on the log `mv`.  It reads the log and writes to its
local array `diff` only. -/
def check_for_cycles (mv : List Nat) : Cycles := cycles_loop mv 0

/-- Source: `playgogame` with its last statement `check_for_cycles()`: the state that
`playgogame` leaves and the outcome of `check_for_cycles` on its log.  `warn` returns:
`warnings_are_fatal` is 0 in the programs that call `playgogame`. -/
def playgogame_cycles (g : State) (size : Int) (moves : List Int) (initct : Int) :
    Except Err (State × Cycles) :=
  (playgogame g size moves initct).map fun r => (r, check_for_cycles r.mv)

/-- The effect of a log entry on a board: a pass leaves it, a CAPTURE entry empties its
cell, another entry puts a stone of its colour on its cell. -/
def applyRec (b : Nat → Nat) (m : Nat) : Nat → Nat :=
  if isPass m then b
  else if isCapture m then Function.update b (recPos m) EMPTY
  else Function.update b (recPos m) (recColor m)

/-- The cells after the entries of a log are applied in order to the empty board. -/
def replay (l : List Nat) : Nat → Nat := l.foldl applyRec fun _ => EMPTY

/-- The first `n` entries of the log without the CAPTURE flag, together with their
CAPTURE entries. -/
def takeMoves : Nat → List Nat → List Nat
  | _, [] => []
  | n, m :: rest =>
    if isCapture m then m :: takeMoves n rest
    else
      match n with
      | 0 => []
      | k + 1 => m :: takeMoves k rest

/-- The board after move `n` of the log. -/
def boardAfter (mv : List Nat) (n : Nat) : Nat → Nat := replay (takeMoves n mv)

/-- The ko of `koGame`, then a pass of each side, White retakes on (2,2), and a pass of
each side again. -/
def cycleGame : List Int :=
  koGame ++ [mkMove 2 20 20, mkMove 1 20 20, mkMove 2 2 2, mkMove 1 20 20, mkMove 2 20 20]

/-- The result of `playgogame` on `cycleGame`. -/
def cycleFinal : State := stateOf (playgogame (blank 100) 19 cycleGame 0) (blank 0)

/-- The entry `m` fits the board `b`: a pass has the position 0; another entry has a
position other than 0 and the colour 1 or 2, a CAPTURE entry takes a stone of its
colour from its cell, and a placement puts its stone on an empty cell. -/
structure LegalRec (b : Nat → Nat) (m : Nat) : Prop where
  pass : isPass m → recPos m = 0
  pos : ¬ isPass m → recPos m ≠ 0
  col : ¬ isPass m → recColor m = 1 ∨ recColor m = 2
  cap : ¬ isPass m → isCapture m → b (recPos m) = recColor m
  put : ¬ isPass m → ¬ isCapture m → b (recPos m) = EMPTY

/-- Every entry of the log fits the board that the entries before it give. -/
def LegalLog (l : List Nat) : Prop := ∀ a m b, l = a ++ m :: b → LegalRec (replay a) m

/-- The position and the colour of a log entry: `m & 0xfff`. -/
def recKey (m : Nat) : Nat := m &&& 0xfff

/-- The number of entries of `w` with the position and colour `x` is odd. -/
def oddKey (w : List Nat) (x : Nat) : Prop :=
  (w.countP fun m => decide (m &&& 0xfff = x)) % 2 = 1

/-- The array `diff` of `check_for_cycles` after the entries `w`: it holds one entry for
each position and colour that occurs an odd number of times in `w`. -/
def DiffInv (diff w : List Nat) : Prop :=
  (diff.map recKey).Nodup ∧ ∀ x, x ∈ diff.map recKey ↔ oddKey w x

/-- The fields of the entries of a log: a pass has the position 0, another entry has a
position other than 0 and the colour 1 or 2. -/
def FormOk (l : List Nat) : Prop :=
  ∀ m ∈ l, (isPass m → recPos m = 0) ∧
    (¬ isPass m → recPos m ≠ 0 ∧ (recColor m = 1 ∨ recColor m = 2))

/-- One round of the ko of `koGame`: White passes and takes on (2,2), Black passes and
takes on (2,3).  The board after it is the board before it. -/
def koRound : List Int := [mkMove 2 20 20, mkMove 2 2 2, mkMove 1 20 20, mkMove 1 2 3]

/-- The game `koGame` followed by `k` rounds of the ko. -/
def koRounds : Nat → List Int
  | 0 => koGame
  | k + 1 => koRounds k ++ koRound

/-- A game of 9508 moves with 500 stone placements and a log of 10000 entries:
`koGame`, 245 rounds of the ko, a pass and White taking on (2,2), and 8517 passes. -/
def fullLogGame : List Int :=
  (koRounds 245 ++ [mkMove 2 20 20, mkMove 2 2 2]) ++ List.replicate 8517 (mkMove 2 20 20)

/-- The state after the moves `ms` on the 19 by 19 board, with a log of 100 entries. -/
def koRef (ms : List Int) : State := stateOf (run (blank 100) 19 ms 0) (blank 0)

end Playgogame

/-! ## sgffileinput.c: the extraction of the moves

A property value is a C string; it is modelled by the list of its bytes (`0..255`),
read up to the first NUL.  `char` is signed on the platforms the program is built
for, so a byte is read through `schar`.  The array `moves[]` with its counter `mvct`
is the list `moves`; `mvct` is its length. -/

namespace Sgffileinput

/-- Source: `#define PASS (('t'<<8) | 't')`. -/
def PASS : Int := Int.lor (116 * 256) 116
def BLACK_MASK : Int := 0x10000
def WHITE_MASK : Int := 0x20000
def MAXMOVES : Nat := 10000

/-- The `errexit` calls of `put_move1` and `put_move`. -/
inductive MoveErr where
  | missing_move_value
  | too_many_moves
  | unexpected_range (s : List Nat)
  | unexpected_move (s : List Nat)
  | non_BW_move
  deriving DecidableEq, Repr

/-- The value of a byte read as a (signed) `char`. -/
def schar (b : Nat) : Int :=
  if b % 256 < 128 then ((b % 256 : Nat) : Int) else ((b % 256 : Nat) : Int) - 256

/-- The characters that `put_move1` strips: space, newline, carriage return. -/
def isBlank (b : Nat) : Bool := b = 32 || b = 10 || b = 13

/-- The bytes of a C string: those before the first NUL. -/
def cstring (l : List Nat) : List Nat := l.takeWhile fun b => b ≠ 0

/-- The two stripping loops of `put_move1`: leading blanks are skipped, trailing
blanks are overwritten with NUL. -/
def strip (l : List Nat) : List Nat :=
  ((l.dropWhile isBlank).reverse.dropWhile isBlank).reverse

/-- The statement pair `if (mvct == MAXMOVES) errexit("too many moves");
moves[mvct++] = m;`. -/
def put_code (moves : List Int) (m : Int) : Except MoveErr (List Int) :=
  if moves.length = MAXMOVES then .error .too_many_moves else .ok (moves ++ [m])

/-- The integers `lo, lo+1, ..., hi` (none when `lo > hi`). -/
def intRange (lo hi : Int) : List Int :=
  (List.range (hi - lo + 1).toNat).map fun (k : Nat) => lo + (k : Int)

/-- Source: `put_move1`.  `pv` is `none` for a null pointer.  `s[0]<<8` on the `int`
value of the character is `s[0] * 256`. -/
def put_move1 (pv : Option (List Nat)) (mask : Int) (moves : List Int) :
    Except MoveErr (List Int) :=
  match pv with
  | none => .error .missing_move_value
  | some v =>
    match strip (cstring v) with
    | [] => put_code moves (Int.lor PASS mask)
    | [a, b] => put_code moves (Int.lor (Int.lor (schar a * 256) (schar b)) mask)
    | [a, b, 58, c, d] =>
      if schar a > schar c ∨ schar b > schar d then
        .error (.unexpected_range [a, b, 58, c, d])
      else
        (intRange (schar a) (schar c)).foldlM
          (fun mv i => (intRange (schar b) (schar d)).foldlM
            (fun mv1 j => put_code mv1 (Int.lor (Int.lor (i * 256) j) mask)) mv) moves
    | s =>
      if s = [112, 97, 115, 115] then put_code moves (Int.lor PASS mask)
      else .error (.unexpected_move s)

/-- Source: `put_move`; the property is its identifier and the list of its values,
the state is `moves[]` and the counter `movect`. -/
def put_move (id : List Nat) (val : List (List Nat)) (a : List Int × Nat) :
    Except MoveErr (List Int × Nat) :=
  let mask : Except MoveErr Int :=
    if id.head? = some 66 then .ok BLACK_MASK
    else if id.head? = some 87 then .ok WHITE_MASK
    else .error .non_BW_move
  mask.bind fun k => (put_move1 val.head? k a.1).map fun mv => (mv, a.2 + 1)

/-- The points of the rectangle with corners `(a, b)` and `(c, d)`, row by row. -/
def rectPoints (a b c d : Int) : List (Int × Int) :=
  (intRange a c).flatMap fun i => (intRange b d).map fun j => (i, j)

/-- The entry that `put_move1` stores for the point `(i, j)`: `(i<<8) | j | mask`. -/
def pointCode (mask : Int) (p : Int × Int) : Int :=
  Int.lor (Int.lor (p.1 * 256) p.2) mask

/-- The value `pass`. -/
def passText : List Nat := [112, 97, 115, 115]

/-- The stripped values for which `put_move1` stores exactly one entry. -/
def oneEntry (s : List Nat) : Prop := s = [] ∨ s.length = 2 ∨ s = passText

instance (s : List Nat) : Decidable (oneEntry s) := by unfold oneEntry; infer_instance

/-- Row-major order: by the first coordinate, then by the second. -/
def rowMajor (p q : Int × Int) : Prop := p.1 < q.1 ∨ (p.1 = q.1 ∧ p.2 < q.2)

end Sgffileinput

/-! ## readsgf.c: the reader

The input file is the list of its bytes.  The buffer `inbuf` with `inbufp`, `inbufct`
and the pushback room is the list `buf` of the bytes not yet taken: the bytes pushed
back, then the rest of the file (`fread` refills the buffer until the file ends, and
the `PB` bytes of room make every `my_pushback` of the program valid).  The linked
lists of the result are lists; a `struct gametree *` is a `gametree`, `null` for
`NULL`.  The loops and the recursion of the reader take a bound `fuel` on the number of
iterations; the reader stops with `out_of_fuel` when it is used up.  Of the lines
written on `stderr` the warning `unescaped ]` is kept, as the count `warned` of these
lines, for a run with `readquietly` not set (the default; the option suppresses the
line and changes nothing else); the other messages and the line counter (used in
messages only) are left out. -/

namespace Readsgf

/-- Source: `struct property`: the identifier and the values (`struct propvalue`), each
a string of bytes. -/
structure property where
  id : List Nat
  val : List (List Nat)
  deriving DecidableEq, Repr

/-- Source: `struct node`: the properties of the node. -/
structure node where
  p : List property
  deriving DecidableEq, Repr

/-- Source: `struct gametree`. -/
inductive gametree where
  | null
  | tree (nodesequence : List node) (firstchild nextsibling : gametree)
  deriving DecidableEq, Repr

/-- The state of the input: the bytes not yet taken, the statics `peekc`, `eof`, and
the number of lines `warning: unescaped ]` written so far. -/
structure Input where
  buf : List Nat
  peekc : Nat
  eof : Bool
  warned : Nat
  deriving DecidableEq, Repr

/-- The `errexit` calls of readsgf.c, a null pointer dereference, and the end of the
fuel. -/
inductive ReadErr where
  | mygetchar_called_after_eof
  | propid_is_lower_case_only (fullpropid : List Nat)
  | propid_too_long
  | missing_propvalue (id : List Nat)
  | empty_node_sequence
  | empty_node_sequence_korean
  | gametree_does_not_end (c : Nat)
  | empty_gametree_sequence
  | no_game_found
  | null_dereference
  | out_of_fuel
  deriving DecidableEq, Repr

/-- Source: `my_pushback`. -/
def my_pushback (c : Nat) (inp : Input) : Input := { inp with buf := c :: inp.buf }

/-- Source: `iswhitespace`: space, tab, newline, carriage return, form feed, vertical
tab. -/
def iswhitespace (c : Nat) : Bool :=
  c = 32 || c = 9 || c = 10 || c = 13 || c = 12 || c = 11

/-- Source: `mygetchar`; at the end of the file it sets `eof` and returns 0. -/
def mygetchar (inp : Input) : Except ReadErr (Nat × Input) :=
  if inp.peekc ≠ 0 then .ok (inp.peekc, { inp with peekc := 0 })
  else if inp.eof then .error .mygetchar_called_after_eof
  else
    match inp.buf with
    | [] => .ok (0, { inp with eof := true })
    | c :: r => .ok (c, { inp with buf := r })

/-- The loop `while (iswhitespace(c)) c = mygetchar();` of `mygetsym` once `c` is a
white space character: `peekc` is 0 after the first call, so every further call takes
the next byte of the buffer. -/
def skip_whitespace (eof : Bool) (warned : Nat) : List Nat → Except ReadErr (Nat × Input)
  | [] =>
    if eof then .error .mygetchar_called_after_eof
    else .ok (0, { buf := [], peekc := 0, eof := true, warned := warned })
  | c :: r =>
    if eof then .error .mygetchar_called_after_eof
    else if iswhitespace c then skip_whitespace eof warned r
    else .ok (c, { buf := r, peekc := 0, eof := eof, warned := warned })

/-- Source: `mygetsym`. -/
def mygetsym (inp : Input) : Except ReadErr (Nat × Input) :=
  (mygetchar inp).bind fun a =>
    if iswhitespace a.1 then skip_whitespace a.2.eof a.2.warned a.2.buf else .ok a

/-- Source: `is_upper_case`. -/
def is_upper_case (c : Nat) : Bool := 65 ≤ c && c ≤ 90

/-- Source: `is_lower_case`. -/
def is_lower_case (c : Nat) : Bool := 97 ≤ c && c ≤ 122

/-- Source: `skip_initial_BOM`. -/
def skip_initial_BOM (inp : Input) : Except ReadErr Input :=
  if inp.eof then .ok inp
  else
    (mygetsym inp).bind fun a =>
      if a.1 ≠ 0xef ∨ a.2.eof then .ok (my_pushback a.1 a.2)
      else
        (mygetsym a.2).bind fun b =>
          if b.1 ≠ 0xbb ∨ b.2.eof then .ok (my_pushback 0xef (my_pushback b.1 b.2))
          else
            (mygetsym b.2).bind fun c =>
              if c.1 ≠ 0xbf then
                .ok (my_pushback 0xef (my_pushback 0xbb (my_pushback c.1 c.2)))
              else .ok c.2

/-- Source: `skip_initial_garbage`: skip until `(;` or `(T`, and push it back. -/
def skip_initial_garbage : Nat → Input → Except ReadErr Input
  | 0, _ => .error .out_of_fuel
  | n + 1, inp =>
    if inp.eof then .ok inp
    else
      (mygetsym inp).bind fun a =>
        if a.1 = 40 then
          (mygetsym a.2).bind fun b =>
            if b.1 = 59 then .ok (my_pushback 40 (my_pushback 59 b.2))
            else if b.1 = 84 then
              .ok (my_pushback 40 (my_pushback 59 (my_pushback 84 b.2)))
            else skip_initial_garbage n { b.2 with peekc := b.1 }
        else skip_initial_garbage n a.2

/-- The string that `ystrdup` copies from a buffer: the bytes before the first NUL. -/
def cstring (l : List Nat) : List Nat := l.takeWhile fun b => b ≠ 0

/-- The test of `read_propvalue_following_sq` on the symbol after a `]`. -/
def ends_value (d : Nat) : Bool :=
  d = 59 || d = 40 || d = 41 || d = 91 || is_upper_case d || is_lower_case d

/-- Source: `read_propvalue_following_sq`; `acc` is the content of `propvaluebuf` so
far (the buffer grows as needed).  A `]` ends the value when the next symbol is one of
`; ( ) [` or a letter; otherwise the warning is written and it is kept as data.  The
byte after a backslash is kept as it is. -/
def read_propvalue_following_sq : Nat → List Nat → Input → Except ReadErr (List Nat × Input)
  | 0, _, _ => .error .out_of_fuel
  | n + 1, acc, inp =>
    (mygetchar inp).bind fun a =>
      if a.1 = 93 then
        (mygetsym a.2).bind fun d =>
          if ends_value d.1 then .ok (cstring acc, { d.2 with peekc := d.1 })
          else read_propvalue_following_sq n (acc ++ [93])
            { d.2 with peekc := d.1, warned := d.2.warned + 1 }
      else if a.1 = 92 then
        (mygetchar a.2).bind fun b =>
          read_propvalue_following_sq n (acc ++ [92, b.1]) b.2
      else read_propvalue_following_sq n (acc ++ [a.1]) a.2

/-- Source: `read_propvalue_sequence`; the empty list is `NULL`. -/
def read_propvalue_sequence : Nat → Input → Except ReadErr (List (List Nat) × Input)
  | 0, _ => .error .out_of_fuel
  | n + 1, inp =>
    (mygetsym inp).bind fun a =>
      if a.1 = 91 then
        (read_propvalue_following_sq (n + 1) [] a.2).bind fun v =>
          (read_propvalue_sequence n v.2).bind fun vs => .ok (v.1 :: vs.1, vs.2)
      else .ok ([], { a.2 with peekc := a.1 })

/-- Source: `read_propid`; `p` and `q` are the contents of `propid` and `fullpropid`
so far, each with room for 103 characters. -/
def read_propid (fullprop : Bool) :
    Nat → List Nat → List Nat → Input → Except ReadErr (List Nat × Input)
  | 0, _, _, _ => .error .out_of_fuel
  | n + 1, p, q, inp =>
    (mygetsym inp).bind fun a =>
      if ¬ (is_upper_case a.1 || is_lower_case a.1) then
        if p = [] then .error (.propid_is_lower_case_only (cstring q))
        else if p.length ≥ 104 then .error .propid_too_long
        else .ok (cstring p, { a.2 with peekc := a.1 })
      else
        read_propid fullprop n
          (if p.length < 103 ∧ (is_upper_case a.1 ∨ fullprop) then p ++ [a.1] else p)
          (if q.length < 103 then q ++ [a.1] else q) a.2

/-- Source: `read_property`. -/
def read_property (fullprop : Bool) (fuel : Nat) (inp : Input) :
    Except ReadErr (property × Input) :=
  (read_propid fullprop fuel [] [] inp).bind fun i =>
    (read_propvalue_sequence fuel i.2).bind fun v =>
      if v.1 = [] then .error (.missing_propvalue i.1)
      else .ok ({ id := i.1, val := v.1 }, v.2)

/-- The loop of `read_property_sequence`: the properties of one node. -/
def read_properties (fullprop : Bool) : Nat → Input → Except ReadErr (List property × Input)
  | 0, _ => .error .out_of_fuel
  | n + 1, inp =>
    (mygetsym inp).bind fun a =>
      if ¬ (is_upper_case a.1 || is_lower_case a.1) then .ok ([], { a.2 with peekc := a.1 })
      else
        (read_property fullprop (n + 1) { a.2 with peekc := a.1 }).bind fun p =>
          (read_properties fullprop n p.2).bind fun ps => .ok (p.1 :: ps.1, ps.2)

/-- Source: `read_property_sequence`. -/
def read_property_sequence (fullprop : Bool) (fuel : Nat) (inp : Input) :
    Except ReadErr (node × Input) :=
  (read_properties fullprop fuel inp).bind fun ps => .ok ({ p := ps.1 }, ps.2)

/-- Source: `read_node_sequence`; the empty list is `NULL`. -/
def read_node_sequence (fullprop : Bool) : Nat → Input → Except ReadErr (List node × Input)
  | 0, _ => .error .out_of_fuel
  | n + 1, inp =>
    (mygetsym inp).bind fun a =>
      if a.1 = 59 then
        (read_property_sequence fullprop (n + 1) a.2).bind fun nd =>
          (read_node_sequence fullprop n nd.2).bind fun nds => .ok (nd.1 :: nds.1, nds.2)
      else .ok ([], { a.2 with peekc := a.1 })

/-- Source: `read_korean_node_sequence`: a first node without `;`, which must start
with `RN`, `RF`, `N` or `C`. -/
def read_korean_node_sequence (fullprop : Bool) (fuel : Nat) (inp : Input) :
    Except ReadErr (List node × Input) :=
  (read_property_sequence fullprop fuel inp).bind fun n =>
    match n.1.p with
    | [] => .error .empty_node_sequence_korean
    | p :: _ =>
      if p.id ≠ [82, 78] ∧ p.id ≠ [82, 70] ∧ p.id ≠ [78] ∧ p.id ≠ [67] then
        .error .empty_node_sequence_korean
      else
        (read_node_sequence fullprop fuel n.2).bind fun ns => .ok (n.1 :: ns.1, ns.2)

/-- Source: `read_sequence`.  The nodes read by `read_korean_node_sequence` are
dropped: the function returns `n`, which is `NULL` on that path. -/
def read_sequence (fullprop : Bool) (fuel : Nat) (inp : Input) :
    Except ReadErr (List node × Input) :=
  (read_node_sequence fullprop fuel inp).bind fun n =>
    if n.1 = [] then
      if n.2.peekc = 82 ∨ n.2.peekc = 78 ∨ n.2.peekc = 67 then
        (read_korean_node_sequence fullprop fuel n.2).bind fun k => .ok ([], k.2)
      else .error .empty_node_sequence
    else .ok n

/-- Source: `read_baretree`; `rgs` is the call of `read_gametree_sequence`. -/
def read_baretree (fullprop : Bool) (fuel : Nat)
    (rgs : Input → Except ReadErr (gametree × Input)) (inp : Input) :
    Except ReadErr (gametree × Input) :=
  (read_sequence fullprop fuel inp).bind fun s =>
    (rgs s.2).bind fun g => .ok (.tree s.1 g.1 .null, g.2)

/-- Source: `read_baretree_sequence`; `rgs` is the call of `read_gametree_sequence`.
On the second path `g->nextsibling = gh->firstchild; gh->firstchild = g;`. -/
def read_baretree_sequence (fullprop : Bool)
    (rgs : Input → Except ReadErr (gametree × Input)) :
    Nat → Input → Except ReadErr (gametree × Input)
  | 0, _ => .error .out_of_fuel
  | n + 1, inp =>
    (mygetsym inp).bind fun a =>
      if a.1 ≠ 59 ∧ a.1 ≠ 82 ∧ a.1 ≠ 78 ∧ a.1 ≠ 67 then
        .ok (.null, { a.2 with peekc := a.1 })
      else
        (read_baretree fullprop (n + 1) rgs { a.2 with peekc := a.1 }).bind fun gh =>
          (mygetsym gh.2).bind fun c =>
            if c.1 = 59 ∨ c.1 = 67 ∨ c.1 = 82 then
              (read_baretree_sequence fullprop rgs n { c.2 with peekc := c.1 }).bind fun g =>
                match g.1, gh.1 with
                | .tree ns fc _, .tree ns0 fc0 sib0 =>
                  .ok (.tree ns0 (.tree ns fc fc0) sib0, g.2)
                | _, _ => .error .null_dereference
            else .ok (gh.1, { c.2 with peekc := c.1 })

/-- The list update of the loop of `read_gametree_sequence`: the tree `g` just read is
put in front of the trees `rest` that the later iterations add behind it
(`gt->nextsibling = g`); a `NULL` tree is left out. -/
def link (g rest : gametree) : gametree :=
  match g with
  | .null => rest
  | .tree ns fc sib =>
    .tree ns fc (match rest with
      | .null => sib
      | r => r)

/-- Source: `read_gametree_sequence`; `NULL` when no `(` follows. -/
def read_gametree_sequence (fullprop : Bool) : Nat → Input → Except ReadErr (gametree × Input)
  | 0, _ => .error .out_of_fuel
  | n + 1, inp =>
    (mygetsym inp).bind fun a =>
      if a.1 = 40 then
        (read_baretree_sequence fullprop (read_gametree_sequence fullprop n) (n + 1)
            a.2).bind fun g =>
          (mygetsym g.2).bind fun c =>
            if c.1 ≠ 41 then .error (.gametree_does_not_end c.1)
            else
              (read_gametree_sequence fullprop n c.2).bind fun rest =>
                .ok (link g.1 rest.1, rest.2)
      else .ok (.null, { a.2 with peekc := a.1 })

/-- The loop of `read_collection` under `multiin`: after garbage, a further sequence of
game trees replaces the siblings of the tree `gh`, and the loop goes on from its first
tree. -/
def read_more (fullprop : Bool) : Nat → gametree → Input → Except ReadErr (gametree × Input)
  | 0, _, _ => .error .out_of_fuel
  | _ + 1, .null, inp => .ok (.null, inp)
  | n + 1, .tree ns fc sib, inp =>
    (skip_initial_garbage (n + 1) inp).bind fun i =>
      if i.eof then .ok (.tree ns fc sib, i)
      else
        (read_gametree_sequence fullprop (n + 1) i).bind fun gn =>
          (read_more fullprop n gn.1 gn.2).bind fun r => .ok (.tree ns fc r.1, r.2)

/-- Source: `read_collection`. -/
def read_collection (multiin fullprop : Bool) (fuel : Nat) (inp : Input) :
    Except ReadErr (gametree × Input) :=
  (read_gametree_sequence fullprop fuel inp).bind fun g =>
    if g.1 = .null then .error .empty_gametree_sequence
    else if multiin then read_more fullprop fuel g.1 g.2
    else .ok g

/-- Source: `readsgf` on a file with the bytes `text`; the result is `*gg`.  `multiin`
and `fullprop` are the option variables of that name. -/
def readsgf (multiin fullprop : Bool) (fuel : Nat) (text : List Nat) :
    Except ReadErr gametree :=
  (skip_initial_BOM { buf := text, peekc := 0, eof := false, warned := 0 }).bind fun i1 =>
    (skip_initial_garbage fuel i1).bind fun i2 =>
      if i2.eof then .error .no_game_found
      else (read_collection multiin fullprop fuel i2).bind fun g => .ok g.1

/-- The number of lines `warning: unescaped ]` that this call of `readsgf` has written
when it returns. -/
def readsgf_warnings (multiin fullprop : Bool) (fuel : Nat) (text : List Nat) :
    Except ReadErr Nat :=
  (skip_initial_BOM { buf := text, peekc := 0, eof := false, warned := 0 }).bind fun i1 =>
    (skip_initial_garbage fuel i1).bind fun i2 =>
      if i2.eof then .error .no_game_found
      else (read_collection multiin fullprop fuel i2).bind fun g => .ok g.2.warned

end Readsgf

/-! ## Strict FF[4] text and its derivation

The grammar of a strict collection, as relations between a text and what it derives.
White space may stand before every token: `(`, `)`, `;`, an identifier, a value. -/

namespace Readsgf

/-- A run of white space characters. -/
def Ws (w : List Nat) : Prop := ∀ c ∈ w, iswhitespace c = true

/-- The bytes between the brackets of a value: no NUL, and every `]` and every
backslash is escaped, that is, the text is made of bytes other than `]` and backslash
and of pairs of a backslash and a byte. -/
inductive ValBody : List Nat → Prop where
  | nil : ValBody []
  | plain (c : Nat) (b : List Nat) : c ≠ 93 → c ≠ 92 → c ≠ 0 → ValBody b → ValBody (c :: b)
  | esc (c : Nat) (b : List Nat) : c ≠ 0 → ValBody b → ValBody (92 :: c :: b)

/-- An identifier: 1 to 103 upper-case letters. -/
def IdText (id : List Nat) : Prop :=
  1 ≤ id.length ∧ id.length ≤ 103 ∧ ∀ c ∈ id, is_upper_case c = true

/-- The text of one or more values, and the values: the bytes between the brackets. -/
inductive ValuesText : List Nat → List (List Nat) → Prop where
  | one (w b : List Nat) : Ws w → ValBody b → ValuesText (w ++ 91 :: (b ++ [93])) [b]
  | cons (w b t : List Nat) (vs : List (List Nat)) : Ws w → ValBody b → ValuesText t vs →
      ValuesText (w ++ 91 :: (b ++ 93 :: t)) (b :: vs)

/-- The text of the properties of a node, and the properties. -/
inductive PropsText : List Nat → List property → Prop where
  | nil : PropsText [] []
  | cons (w id vt t : List Nat) (vs : List (List Nat)) (ps : List property) :
      Ws w → IdText id → ValuesText vt vs → PropsText t ps →
      PropsText (w ++ (id ++ (vt ++ t))) ({ id := id, val := vs } :: ps)

/-- The text of one or more nodes, and the nodes. -/
inductive NodesText : List Nat → List node → Prop where
  | one (w pt : List Nat) (ps : List property) : Ws w → PropsText pt ps →
      NodesText (w ++ 59 :: pt) [{ p := ps }]
  | cons (w pt t : List Nat) (ps : List property) (ns : List node) : Ws w →
      PropsText pt ps → NodesText t ns → NodesText (w ++ 59 :: (pt ++ t)) ({ p := ps } :: ns)

/-- The text of a sequence of game trees, and the trees as a chain of siblings: each
tree is `(`, its nodes, its children, `)`; `firstchild` is the chain of the children
and `nextsibling` the chain of the trees that follow. -/
inductive TreesText : List Nat → gametree → Prop where
  | nil : TreesText [] .null
  | cons (w nt ct w2 rt : List Nat) (nodes : List node) (children sibs : gametree) :
      Ws w → NodesText nt nodes → TreesText ct children → Ws w2 → TreesText rt sibs →
      TreesText (w ++ 40 :: (nt ++ (ct ++ (w2 ++ 41 :: rt)))) (.tree nodes children sibs)

/-- A strict FF[4] collection: one or more game trees, then white space. -/
def CollectionText (text : List Nat) (g : gametree) : Prop :=
  ∃ tt w, TreesText tt g ∧ g ≠ .null ∧ Ws w ∧ text = tt ++ w

/-- The input state stands before the text `t`: nothing is pending and the buffer is
`t`, or the next symbol of `t` has been taken into `peekc`, white space skipped. -/
def Rep (inp : Input) (t : List Nat) : Prop :=
  inp.eof = false ∧
    ((inp.peekc = 0 ∧ inp.buf = t) ∨
      (inp.peekc ≠ 0 ∧ iswhitespace inp.peekc = false ∧
        ∃ w, Ws w ∧ t = w ++ inp.peekc :: inp.buf))

/-- The input state after the reader has looked at what follows in `rest`: the next
symbol `d` is in `peekc`, or the file has ended. -/
def After (inp : Input) (rest : List Nat) : Prop :=
  (∃ w d r, Ws w ∧ iswhitespace d = false ∧ d ≠ 0 ∧ rest = w ++ d :: r ∧
      inp.buf = r ∧ inp.peekc = d ∧ inp.eof = false) ∨
    (Ws rest ∧ inp.buf = [] ∧ inp.peekc = 0 ∧ inp.eof = true)

/-- The bytes `t` between the brackets of a value in which a `]` may stand unescaped,
when the next symbol after it (white space skipped) is none of `; ( ) [`, is no letter
and no NUL, or is the closing bracket of the value.  With it: the text `s` in which
these `]` are escaped, the value `v` that the reader stores for `t` (the white space
after such a `]` is lost), and the number `k` of these `]`. -/
inductive LooseBody : List Nat → List Nat → List Nat → Nat → Prop where
  | nil : LooseBody [] [] [] 0
  | plain (c : Nat) (t s v : List Nat) (k : Nat) : c ≠ 93 → c ≠ 92 → c ≠ 0 →
      LooseBody t s v k → LooseBody (c :: t) (c :: s) (c :: v) k
  | esc (c : Nat) (t s v : List Nat) (k : Nat) : c ≠ 0 → LooseBody t s v k →
      LooseBody (92 :: c :: t) (92 :: c :: s) (92 :: c :: v) k
  | loose (w : List Nat) (d : Nat) (t s v : List Nat) (k : Nat) : Ws w →
      iswhitespace d = false → ends_value d = false → d ≠ 0 → LooseBody (d :: t) s v k →
      LooseBody (93 :: (w ++ d :: t)) (92 :: 93 :: (w ++ s)) (93 :: v) (k + 1)
  | loose_end (w : List Nat) : Ws w → LooseBody (93 :: w) (92 :: 93 :: w) [93] 1

/-- The text of one or more values with such bodies, the text with the `]` escaped,
the values stored for the one and for the other, and the number of unescaped `]`. -/
inductive ValuesLoose : List Nat → List Nat → List (List Nat) → List (List Nat) → Nat → Prop
    where
  | one (w t s v : List Nat) (k : Nat) : Ws w → LooseBody t s v k →
      ValuesLoose (w ++ 91 :: (t ++ [93])) (w ++ 91 :: (s ++ [93])) [v] [s] k
  | cons (w t s v rt rs : List Nat) (vs ss : List (List Nat)) (k k2 : Nat) : Ws w →
      LooseBody t s v k → ValuesLoose rt rs vs ss k2 →
      ValuesLoose (w ++ 91 :: (t ++ 93 :: rt)) (w ++ 91 :: (s ++ 93 :: rs)) (v :: vs) (s :: ss)
        (k + k2)

/-- The same for the properties of a node: both lists have the same identifiers. -/
inductive PropsLoose : List Nat → List Nat → List property → List property → Nat → Prop where
  | nil : PropsLoose [] [] [] [] 0
  | cons (w id vt vst t ts : List Nat) (vs vss : List (List Nat)) (ps pss : List property)
      (k k2 : Nat) : Ws w → IdText id → ValuesLoose vt vst vs vss k → PropsLoose t ts ps pss k2 →
      PropsLoose (w ++ (id ++ (vt ++ t))) (w ++ (id ++ (vst ++ ts)))
        ({ id := id, val := vs } :: ps) ({ id := id, val := vss } :: pss) (k + k2)

/-- The same for one or more nodes. -/
inductive NodesLoose : List Nat → List Nat → List node → List node → Nat → Prop where
  | one (w pt pst : List Nat) (ps pss : List property) (k : Nat) : Ws w →
      PropsLoose pt pst ps pss k →
      NodesLoose (w ++ 59 :: pt) (w ++ 59 :: pst) [{ p := ps }] [{ p := pss }] k
  | cons (w pt pst t ts : List Nat) (ps pss : List property) (ns nss : List node)
      (k k2 : Nat) : Ws w → PropsLoose pt pst ps pss k → NodesLoose t ts ns nss k2 →
      NodesLoose (w ++ 59 :: (pt ++ t)) (w ++ 59 :: (pst ++ ts)) ({ p := ps } :: ns)
        ({ p := pss } :: nss) (k + k2)

/-- The same for a sequence of game trees. -/
inductive TreesLoose : List Nat → List Nat → gametree → gametree → Nat → Prop where
  | nil : TreesLoose [] [] .null .null 0
  | cons (w nt nst ct cst w2 rt rst : List Nat) (nodes nodes2 : List node)
      (children children2 sibs sibs2 : gametree) (k k2 k3 : Nat) :
      Ws w → NodesLoose nt nst nodes nodes2 k → TreesLoose ct cst children children2 k2 →
      Ws w2 → TreesLoose rt rst sibs sibs2 k3 →
      TreesLoose (w ++ 40 :: (nt ++ (ct ++ (w2 ++ 41 :: rt))))
        (w ++ 40 :: (nst ++ (cst ++ (w2 ++ 41 :: rst))))
        (.tree nodes children sibs) (.tree nodes2 children2 sibs2) (k + (k2 + k3))

/-- A collection that is strict but for `k` unescaped `]` in its values: the text, the
text with these `]` escaped, and the forests of the two. -/
def CollectionLoose (text stext : List Nat) (g gs : gametree) (k : Nat) : Prop :=
  ∃ tt st w, TreesLoose tt st g gs k ∧ g ≠ .null ∧ Ws w ∧ text = tt ++ w ∧ stext = st ++ w

/-- The text starts, white space skipped, with a symbol that satisfies `P`. -/
def Starts (t : List Nat) (P : Nat → Prop) : Prop :=
  ∃ w d r, Ws w ∧ iswhitespace d = false ∧ d ≠ 0 ∧ P d ∧ t = w ++ d :: r

/-- The text `(;FF[4]GM[1]SZ[19];B[pd];W[dp])`. -/
def exampleText : List Nat :=
  [40, 59, 70, 70, 91, 52, 93, 71, 77, 91, 49, 93, 83, 90, 91, 49, 57, 93, 59, 66, 91, 112,
    100, 93, 59, 87, 91, 100, 112, 93, 41]

/-- The tree of `exampleText`: no child, no sibling, three nodes. -/
def exampleTree : gametree :=
  .tree
    [{ p := [{ id := [70, 70], val := [[52]] }, { id := [71, 77], val := [[49]] },
        { id := [83, 90], val := [[49, 57]] }] },
      { p := [{ id := [66], val := [[112, 100]] }] },
      { p := [{ id := [87], val := [[100, 112]] }] }]
    .null .null

/-- The tree of a successful call (`null` otherwise). -/
def treeOf (r : Except ReadErr gametree) : gametree :=
  match r with
  | .ok g => g
  | .error _ => .null

/-- The error of a failed call. -/
def errorOf (r : Except ReadErr gametree) : Option ReadErr :=
  match r with
  | .ok _ => none
  | .error e => some e

/-- The text `(;C[a]1];B[aa])`: the first `]` is unescaped and followed by a digit. -/
def bracketText : List Nat :=
  [40, 59, 67, 91, 97, 93, 49, 93, 59, 66, 91, 97, 97, 93, 41]

/-- The text `(;C[a\]1];B[aa])`: the same with the `]` escaped. -/
def bracketEscaped : List Nat :=
  [40, 59, 67, 91, 97, 92, 93, 49, 93, 59, 66, 91, 97, 97, 93, 41]

/-- The forest of `bracketText`: the comment is `a]1`. -/
def bracketTree : gametree :=
  .tree [{ p := [{ id := [67], val := [[97, 93, 49]] }] },
      { p := [{ id := [66], val := [[97, 97]] }] }] .null .null

/-- The forest of `bracketEscaped`: the comment is `a\]1`. -/
def bracketEscapedTree : gametree :=
  .tree [{ p := [{ id := [67], val := [[97, 92, 93, 49]] }] },
      { p := [{ id := [66], val := [[97, 97]] }] }] .null .null

/-- The text `(;C[a]b];B[aa])`: the first `]` is unescaped and followed by a lower-case
letter. -/
def letterText : List Nat :=
  [40, 59, 67, 91, 97, 93, 98, 93, 59, 66, 91, 97, 97, 93, 41]

/-- The text `(;C[a\]b];B[aa])`: the same with the `]` escaped. -/
def letterEscaped : List Nat :=
  [40, 59, 67, 91, 97, 92, 93, 98, 93, 59, 66, 91, 97, 97, 93, 41]

/-- The first symbol of a text, white space skipped, and the text after it; `none` when
the text is white space only. -/
def nextSym : List Nat → Option (Nat × List Nat)
  | [] => none
  | c :: t => if iswhitespace c then nextSym t else some (c, t)

/-- Spec side: the text from which the collection is parsed.  All input is left out up
to the first `(` whose next symbol, white space skipped, is `;` or `T`; the text goes on
with `(;` and what follows the `;`, or with `(;T` and what follows the `T`.  `none` when
there is no such `(`. -/
def gameStart : List Nat → Option (List Nat)
  | [] => none
  | c :: t =>
    if c = 40 then
      match nextSym t with
      | some (d, r) =>
        if d = 59 then some (40 :: 59 :: r)
        else if d = 84 then some (40 :: 59 :: 84 :: r)
        else gameStart t
      | none => none
    else gameStart t

/-- The input state at the start of a file with the bytes `t`, after `k` warnings. -/
def fresh (t : List Nat) (k : Nat) : Input := { buf := t, peekc := 0, eof := false, warned := k }

/-- The input state after the end of the file has been read. -/
def ended (k : Nat) : Input := { buf := [], peekc := 0, eof := true, warned := k }

/-- The text `(GM[1])(;B[aa])`. -/
def garbageText : List Nat :=
  [40, 71, 77, 91, 49, 93, 41, 40, 59, 66, 91, 97, 97, 93, 41]

/-- The text `(;B[aa])`. -/
def pointText : List Nat := [40, 59, 66, 91, 97, 97, 93, 41]

/-- The forest of `pointText`: one tree with the node `B[aa]`. -/
def pointTree : gametree := .tree [{ p := [{ id := [66], val := [[97, 97]] }] }] .null .null

/-- The rest of `readsgf` once the start of the collection is found: `no game found`
when there is none, and `read_collection` on the text from the start otherwise. -/
def parseFrom (multiin fullprop : Bool) (fuel : Nat) : Option (List Nat) → Except ReadErr gametree
  | none => .error .no_game_found
  | some s => (read_collection multiin fullprop fuel (fresh s 0)).bind fun g => .ok g.1

/-- What is left of the input: the bytes of the buffer, the pending symbol, and the end
of the file, which is read once. -/
def Input.size (inp : Input) : Nat :=
  inp.buf.length + (if inp.peekc = 0 then 0 else 1) + (if inp.eof then 0 else 1)

/-- The call did not stop for lack of fuel, and its value satisfies `Q`. -/
@[reducible]
def Post {α : Type} (Q : α → Prop) (r : Except ReadErr α) : Prop :=
  r ≠ .error .out_of_fuel ∧ ∀ a, r = .ok a → Q a

/-- The text `(;C[a \]\\` newline `b])`: a comment with a space, an escaped `]`, an
escaped backslash and a newline. -/
def escapeText : List Nat := [40, 59, 67, 91, 97, 32, 92, 93, 92, 92, 10, 98, 93, 41]

/-- The bytes between the brackets of the comment of `escapeText`. -/
def escapeBody : List Nat := [97, 32, 92, 93, 92, 92, 10, 98]

/-- The identifiers that may start a game tree without `;`: `RN`, `RF`, `N`, `C`. -/
def bareAllowed (id : List Nat) : Prop :=
  id = [82, 78] ∨ id = [82, 70] ∨ id = [78] ∨ id = [67]

instance instDecidableBareAllowed (id : List Nat) : Decidable (bareAllowed id) := by
  unfold bareAllowed; infer_instance

/-- The text of the nodes that follow the first node of a tree without `;`: nothing, or
one or more nodes. -/
inductive NodesOpt : List Nat → List node → Prop where
  | none : NodesOpt [] []
  | some (nt : List Nat) (ns : List node) : NodesText nt ns → NodesOpt nt ns

/-- The text of a sequence of game trees in which, besides the strict trees, a tree may
start with a property `RN`, `RF`, `N` or `C` instead of `;` (its nodes are then not
stored: the tree has an empty node sequence), and an empty pair `()` may stand (it adds
no tree). -/
inductive TreesK : List Nat → gametree → Prop where
  | nil : TreesK [] .null
  | cons (w nt ct w2 rt : List Nat) (nodes : List node) (children sibs : gametree) :
      Ws w → NodesText nt nodes → TreesK ct children → Ws w2 → TreesK rt sibs →
      TreesK (w ++ 40 :: (nt ++ (ct ++ (w2 ++ 41 :: rt)))) (.tree nodes children sibs)
  | korean (w pt nt ct w2 rt : List Nat) (p : property) (ps : List property)
      (nodes : List node) (children sibs : gametree) :
      Ws w → PropsText pt (p :: ps) → bareAllowed p.id → NodesOpt nt nodes →
      TreesK ct children → Ws w2 → TreesK rt sibs →
      TreesK (w ++ 40 :: (pt ++ (nt ++ (ct ++ (w2 ++ 41 :: rt))))) (.tree [] children sibs)
  | empty (w w2 rt : List Nat) (sibs : gametree) : Ws w → Ws w2 → TreesK rt sibs →
      TreesK (w ++ 40 :: (w2 ++ 41 :: rt)) sibs

/-- A collection whose first tree is strict and whose other trees are as in `TreesK`,
then white space. -/
def CollectionK (text : List Nat) (g : gametree) : Prop :=
  ∃ w nt ct w2 rt wend nodes children sibs, Ws w ∧ NodesText nt nodes ∧ TreesK ct children ∧
    Ws w2 ∧ TreesK rt sibs ∧ Ws wend ∧
    text = w ++ 40 :: (nt ++ (ct ++ (w2 ++ 41 :: rt))) ++ wend ∧ g = .tree nodes children sibs

/-- The input state with the symbol `d` pending in front of the bytes `r`. -/
def peeked (d : Nat) (r : List Nat) (k : Nat) : Input :=
  { buf := r, peekc := d, eof := false, warned := k }

/-- The sequence of game trees with the text `ct` is read as the chain `children`. -/
def SeqOk (fullprop : Bool) (ct : List Nat) (children : gametree) : Prop :=
  ∀ (fuel : Nat) (inp : Input) (rest : List Nat), Rep inp (ct ++ rest) →
    (Starts rest (fun d => d ≠ 40) ∨ Ws rest) → ct.length < fuel →
    ∃ inp1, read_gametree_sequence fullprop fuel inp = .ok (children, inp1) ∧ After inp1 rest

/-- The loop of `read_gametree_sequence` fails with `e` on the text `x`, whatever the
fuel above the length of `x`. -/
def GtsFails (fullprop : Bool) (e : ReadErr) (x : List Nat) : Prop :=
  ∀ (fuel : Nat) (inp : Input), Rep inp x → x.length + 1 < fuel →
    read_gametree_sequence fullprop fuel inp = .error e

/-- A `(` whose next symbol `d` is none of `;`, `)`, `R`, `N`, `C`. -/
def BadParen (d : Nat) (x : List Nat) : Prop :=
  ∃ w w3 r, Ws w ∧ Ws w3 ∧ iswhitespace d = false ∧ d ≠ 0 ∧ d ≠ 59 ∧ d ≠ 41 ∧ d ≠ 82 ∧
    d ≠ 78 ∧ d ≠ 67 ∧ x = w ++ 40 :: (w3 ++ d :: r)

/-- A `(` followed by a property that starts with `R`, `N` or `C` and whose identifier is
not one of `RN`, `RF`, `N`, `C` (then further properties, and `;`, `(` or `)`). -/
def BadBare (x : List Nat) : Prop :=
  ∃ w pt y p ps, Ws w ∧ PropsText pt (p :: ps) ∧ ¬ bareAllowed p.id ∧
    (∃ c r, p.id = c :: r ∧ (c = 82 ∨ c = 78 ∨ c = 67)) ∧
    Starts y (fun d => d = 59 ∨ d = 40 ∨ d = 41) ∧ x = w ++ 40 :: (pt ++ y)

/-- The texts on which the tree loop fails because of a part `B` further on: the part
itself, the part behind a sequence of complete trees, and the part inside an open tree
behind its nodes. -/
inductive Fails (B : List Nat → Prop) : List Nat → Prop where
  | base (x : List Nat) : B x → Fails B x
  | after (tt : List Nat) (g : gametree) (x : List Nat) : TreesK tt g → Fails B x →
      Fails B (tt ++ x)
  | inside (w nt : List Nat) (nodes : List node) (y : List Nat) : Ws w → NodesText nt nodes →
      Fails B y → Fails B (w ++ 40 :: (nt ++ y))

/-- The text `(C[x];B[aa])`: a first tree without `;`, with the property `C`. -/
def bareFirstText : List Nat := [40, 67, 91, 120, 93, 59, 66, 91, 97, 97, 93, 41]

/-- The text `(TE[x];B[aa])`: a first tree without `;`, with the property `TE`. -/
def sgf2Text : List Nat := [40, 84, 69, 91, 120, 93, 59, 66, 91, 97, 97, 93, 41]

/-- The forest of `sgf2Text`: one tree with the nodes `TE[x]` and `B[aa]`. -/
def sgf2Tree : gametree :=
  .tree [{ p := [{ id := [84, 69], val := [[120]] }] }, { p := [{ id := [66], val := [[97, 97]] }] }]
    .null .null

/-- The text `(TM[1];W[bb])`. -/
def timeText : List Nat := [40, 84, 77, 91, 49, 93, 59, 87, 91, 98, 98, 93, 41]

/-- The forest of `timeText`: one tree with the nodes `TM[1]` and `W[bb]`. -/
def timeTree : gametree :=
  .tree [{ p := [{ id := [84, 77], val := [[49]] }] }, { p := [{ id := [87], val := [[98, 98]] }] }]
    .null .null

/-- The text `(;B[aa](C[x]))`: a tree without `;` inside the first tree. -/
def bareChildText : List Nat := [40, 59, 66, 91, 97, 97, 93, 40, 67, 91, 120, 93, 41, 41]

/-- The forest of `bareChildText`: the child has an empty node sequence. -/
def bareChildTree : gametree :=
  .tree [{ p := [{ id := [66], val := [[97, 97]] }] }] (.tree [] .null .null) .null

/-- The properties of all nodes of all trees of a forest. -/
def propsOf : gametree → List property
  | .null => []
  | .tree ns fc sib => ns.flatMap (fun n => n.p) ++ (propsOf fc ++ propsOf sib)

/-- The value of a successful call satisfies `Q`. -/
def Holds {α : Type} (Q : α → Prop) (r : Except ReadErr α) : Prop := ∀ a, r = .ok a → Q a

/-- Every property of the forest has an identifier and a value. -/
def ForestOk (g : gametree) : Prop := ∀ p ∈ propsOf g, p.id ≠ [] ∧ p.val ≠ []

/-- The place of a byte of the input: outside the value bodies, inside a value body, or
inside a value body right after a backslash. -/
inductive Lex where
  | sym
  | body
  | esc
  deriving DecidableEq, Repr

/-- The test of the reader on a `]` inside a value body, as a test on the text `t` after
the `]`: the next symbol of `t`, white space skipped, is one of `; ( ) [` or a letter. -/
def closes (t : List Nat) : Bool :=
  match nextSym t with
  | some (d, _) => ends_value d
  | none => false

/-- Spec side: `Ins m t u` says that the text `u` is the text `t` with white space
characters inserted at places outside the value bodies, where both texts start at a
place of kind `m`.  A value body starts after a `[` that stands outside the value
bodies; it ends with the first `]` that does not follow a backslash and has one of
`; ( ) [` or a letter as its next symbol. -/
inductive Ins : Lex → List Nat → List Nat → Prop
  | done (m : Lex) : Ins m [] []
  | ws {c : Nat} {t u : List Nat} : iswhitespace c = true → Ins .sym t u → Ins .sym t (c :: u)
  | sym {c : Nat} {t u : List Nat} : c ≠ 91 → Ins .sym t u → Ins .sym (c :: t) (c :: u)
  | opens {t u : List Nat} : Ins .body t u → Ins .sym (91 :: t) (91 :: u)
  | plain {c : Nat} {t u : List Nat} :
      c ≠ 93 → c ≠ 92 → Ins .body t u → Ins .body (c :: t) (c :: u)
  | bslash {t u : List Nat} : Ins .esc t u → Ins .body (92 :: t) (92 :: u)
  | escaped {c : Nat} {t u : List Nat} : Ins .body t u → Ins .esc (c :: t) (c :: u)
  | close {t u : List Nat} : closes t = true → Ins .sym t u → Ins .body (93 :: t) (93 :: u)
  | unesc {t u : List Nat} : closes t = false → Ins .body t u → Ins .body (93 :: t) (93 :: u)

/-- The relation of the two rests of the input after the byte `c` of a value body. -/
def Next (c : Nat) (r s : List Nat) : Prop :=
  (c ≠ 93 ∧ c ≠ 92 ∧ Ins .body r s) ∨ (c = 92 ∧ Ins .esc r s) ∨
    (c = 93 ∧ closes r = true ∧ Ins .sym r s) ∨ (c = 93 ∧ closes r = false ∧ Ins .body r s)

/-- The two texts have the same next symbol, or both have none. -/
def NextRel (t u : List Nat) : Prop :=
  (nextSym t = none ∧ nextSym u = none) ∨
    ∃ c r s, nextSym t = some (c, r) ∧ nextSym u = some (c, s) ∧
      ∃ m, Ins m r s ∧ (c = 91 → m = .body) ∧ (m = .esc → c = 92)

/-- The two reader states are at the same place of the two texts, outside the value
readers. -/
def SRel (i j : Input) : Prop :=
  i.peekc = j.peekc ∧ i.eof = j.eof ∧ i.warned = j.warned ∧
    ∃ m, Ins m i.buf j.buf ∧ (i.peekc = 91 → m = .body) ∧
      (m = .esc → i.peekc = 92 ∨ i.peekc = 0)

/-- The two reader states after `mygetsym` has returned the symbol `c`. -/
def Out (c : Nat) (i j : Input) : Prop :=
  i.peekc = 0 ∧ j.peekc = 0 ∧ i.eof = j.eof ∧ i.warned = j.warned ∧
    ∃ m, Ins m i.buf j.buf ∧ (c = 91 → m = .body) ∧ (m = .esc → c = 92)

/-- The bytes that the reader takes next, the pending `peekc` first. -/
def unpeek (i : Input) : List Nat := if i.peekc = 0 then i.buf else i.peekc :: i.buf

/-- The two reader states are at the same place of the two texts, inside a value body. -/
def VRel (i j : Input) : Prop :=
  i.peekc = j.peekc ∧ i.eof = j.eof ∧ i.warned = j.warned ∧ Ins .body (unpeek i) (unpeek j)

/-- The two reader states after `mygetchar` has returned the byte `c` of a value body. -/
def Nx (c : Nat) (i j : Input) : Prop :=
  i.peekc = 0 ∧ j.peekc = 0 ∧ i.eof = j.eof ∧ i.warned = j.warned ∧ Next c i.buf j.buf

/-- Two calls have the same outcome: the same error, or values related by `R`. -/
def RelE {α : Type} (R : α → α → Prop) (x y : Except ReadErr α) : Prop :=
  match x, y with
  | .ok a, .ok b => R a b
  | .error e, .error f => e = f
  | _, _ => False

/-- The text `(;B[a b])`. -/
def spacedText : List Nat := [40, 59, 66, 91, 97, 32, 98, 93, 41]

/-- The text `( ;` newline `B [a b] )`. -/
def spacedWide : List Nat := [40, 32, 59, 10, 66, 32, 91, 97, 32, 98, 93, 32, 41]

/-- The forest of `spacedText`: one tree with the node `B[a b]`. -/
def spacedTree : gametree :=
  .tree [{ p := [{ id := [66], val := [[97, 32, 98]] }] }] .null .null

/-- Both calls fail with the same error, or both return the same symbol and states
related by `Q`. -/
def SymRel (Q : Nat → Input → Input → Prop) (x y : Except ReadErr (Nat × Input)) : Prop :=
  (∃ e, x = .error e ∧ y = .error e) ∨ ∃ c a b, x = .ok (c, a) ∧ y = .ok (c, b) ∧ Q c a b

/-- The same outcome of two calls that return a value and the input state: the same
error, or the same value and states related by `Q`. -/
def RelP {α : Type} (Q : Input → Input → Prop) (x y : Except ReadErr (α × Input)) : Prop :=
  RelE (fun a b => a.1 = b.1 ∧ Q a.2 b.2) x y

/-- The text `(;B[aa])(;B[bb])x(;B[cc])`: two games next to each other, junk, a third
game. -/
def threeGamesText : List Nat :=
  [40, 59, 66, 91, 97, 97, 93, 41, 40, 59, 66, 91, 98, 98, 93, 41, 120,
    40, 59, 66, 91, 99, 99, 93, 41]

/-- The text `(;B[aa])(;B[bb])(;B[cc])`: the same three games without the junk. -/
def threeAdjacentText : List Nat :=
  [40, 59, 66, 91, 97, 97, 93, 41, 40, 59, 66, 91, 98, 98, 93, 41,
    40, 59, 66, 91, 99, 99, 93, 41]

/-- The text `(;B[aa])x(;B[bb])x(;B[cc])`: the three games, each two separated by junk. -/
def threeApartText : List Nat :=
  [40, 59, 66, 91, 97, 97, 93, 41, 120, 40, 59, 66, 91, 98, 98, 93, 41, 120,
    40, 59, 66, 91, 99, 99, 93, 41]

/-- A game with the one node `B[v]` and the siblings `sib`. -/
def oneMove (v : List Nat) (sib : gametree) : gametree :=
  .tree [{ p := [{ id := [66], val := [v] }] }] .null sib

/-- The number of trees of a chain of siblings. -/
def siblings : gametree → Nat
  | .null => 0
  | .tree _ _ sib => siblings sib + 1

/-- The buffer of the input has no NUL byte. -/
def Clean (inp : Input) : Prop := ∀ c ∈ inp.buf, c ≠ 0

/-- A value as the reader stores it from a text without NUL bytes: written between
brackets, it is read as itself.  Every backslash is followed by a byte, and every `]`
without a backslash is followed by a byte that is no white space and none of `; ( ) [`
or a letter, or it is the last byte. -/
def Stored (v : List Nat) : Prop := ∃ s k, LooseBody v s v k

/-- A property as the reader stores it from a text without NUL bytes, with `fullprop`
unset: the identifier is 1 to 103 upper-case letters, and there are one or more
values. -/
def GoodProp (p : property) : Prop := IdText p.id ∧ p.val ≠ [] ∧ ∀ v ∈ p.val, Stored v

/-- Every property of the forest is as `GoodProp` says. -/
def GoodForest (g : gametree) : Prop := ∀ p ∈ propsOf g, GoodProp p

/-- Every game tree of the forest has a node. -/
def NodesNonempty : gametree → Prop
  | .null => True
  | .tree ns fc sib => ns ≠ [] ∧ NodesNonempty fc ∧ NodesNonempty sib

/-- The game `(;C[a` NUL `b])`: a comment with a NUL byte between `a` and `b`. -/
def nulBodyText : List Nat := [40, 59, 67, 91, 97, 0, 98, 93, 41]

/-- The text `(;C[a]bX[y];B[aa])`: the `]` of the comment is followed by the lower-case
letter `b` and the property `X[y]`. -/
def letterPropText : List Nat :=
  [40, 59, 67, 91, 97, 93, 98, 88, 91, 121, 93, 59, 66, 91, 97, 97, 93, 41]

/-- A forest in which every game tree carries the place where the reader met it: the
flag `paren` (the tree was read by the loop of `read_gametree_sequence` behind a `(`, not
as a tree without parentheses behind the game trees of another tree), the state `origin`
of the input before that `(` (for a tree without parentheses: the state behind the game
trees of the tree before it), and the state `start` in which `read_baretree` is called
for the tree, with the first symbol of the tree in `peekc`. -/
inductive mtree where
  | null
  | tree (paren : Bool) (origin start : Input) (nodesequence : List node)
      (firstchild nextsibling : mtree)
  deriving DecidableEq, Repr

/-- The forest without the places. -/
def erase : mtree → gametree
  | .null => .null
  | .tree _ _ _ ns fc sib => .tree ns (erase fc) (erase sib)

/-- The trees of a forest, each with its place and its node sequence. -/
def marks : mtree → List (Bool × Input × Input × List node)
  | .null => []
  | .tree p o s ns fc sib => (p, o, s, ns) :: (marks fc ++ marks sib)

/-- Source: `read_baretree`, with the place of the tree kept in the result. -/
def read_baretree_at (fullprop : Bool) (fuel : Nat)
    (rgs : Input → Except ReadErr (mtree × Input)) (paren : Bool) (origin inp : Input) :
    Except ReadErr (mtree × Input) :=
  (read_sequence fullprop fuel inp).bind fun s =>
    (rgs s.2).bind fun g => .ok (.tree paren origin inp s.1 g.1 .null, g.2)

/-- Source: `read_baretree_sequence`, with the places of the trees kept in the result;
the tree read on the second path has no parentheses of its own. -/
def read_baretree_sequence_at (fullprop : Bool)
    (rgs : Input → Except ReadErr (mtree × Input)) :
    Nat → Bool → Input → Input → Except ReadErr (mtree × Input)
  | 0, _, _, _ => .error .out_of_fuel
  | n + 1, paren, origin, inp =>
    (mygetsym inp).bind fun a =>
      if a.1 ≠ 59 ∧ a.1 ≠ 82 ∧ a.1 ≠ 78 ∧ a.1 ≠ 67 then
        .ok (.null, { a.2 with peekc := a.1 })
      else
        (read_baretree_at fullprop (n + 1) rgs paren origin { a.2 with peekc := a.1 }).bind
          fun gh =>
          (mygetsym gh.2).bind fun c =>
            if c.1 = 59 ∨ c.1 = 67 ∨ c.1 = 82 then
              (read_baretree_sequence_at fullprop rgs n false gh.2
                  { c.2 with peekc := c.1 }).bind fun g =>
                match g.1, gh.1 with
                | .tree p o s ns fc _, .tree p0 o0 s0 ns0 fc0 sib0 =>
                  .ok (.tree p0 o0 s0 ns0 (.tree p o s ns fc fc0) sib0, g.2)
                | _, _ => .error .null_dereference
            else .ok (gh.1, { c.2 with peekc := c.1 })

/-- The list update of `link` on forests with places. -/
def link_at (g rest : mtree) : mtree :=
  match g with
  | .null => rest
  | .tree p o s ns fc sib =>
    .tree p o s ns fc (match rest with
      | .null => sib
      | r => r)

/-- Source: `read_gametree_sequence`, with the places of the trees kept in the result. -/
def read_gametree_sequence_at (fullprop : Bool) : Nat → Input → Except ReadErr (mtree × Input)
  | 0, _ => .error .out_of_fuel
  | n + 1, inp =>
    (mygetsym inp).bind fun a =>
      if a.1 = 40 then
        (read_baretree_sequence_at fullprop (read_gametree_sequence_at fullprop n) (n + 1)
            true inp a.2).bind fun g =>
          (mygetsym g.2).bind fun c =>
            if c.1 ≠ 41 then .error (.gametree_does_not_end c.1)
            else
              (read_gametree_sequence_at fullprop n c.2).bind fun rest =>
                .ok (link_at g.1 rest.1, rest.2)
      else .ok (.null, { a.2 with peekc := a.1 })

/-- The loop of `read_collection` under `multiin`, with the places of the trees kept. -/
def read_more_at (fullprop : Bool) : Nat → mtree → Input → Except ReadErr (mtree × Input)
  | 0, _, _ => .error .out_of_fuel
  | _ + 1, .null, inp => .ok (.null, inp)
  | n + 1, .tree p o s ns fc sib, inp =>
    (skip_initial_garbage (n + 1) inp).bind fun i =>
      if i.eof then .ok (.tree p o s ns fc sib, i)
      else
        (read_gametree_sequence_at fullprop (n + 1) i).bind fun gn =>
          (read_more_at fullprop n gn.1 gn.2).bind fun r => .ok (.tree p o s ns fc r.1, r.2)

/-- Source: `read_collection`, with the places of the trees kept in the result. -/
def read_collection_at (multiin fullprop : Bool) (fuel : Nat) (inp : Input) :
    Except ReadErr (mtree × Input) :=
  (read_gametree_sequence_at fullprop fuel inp).bind fun g =>
    if g.1 = .null then .error .empty_gametree_sequence
    else if multiin then read_more_at fullprop fuel g.1 g.2
    else .ok g

/-- Source: `readsgf`, with the places of the trees kept in the result. -/
def readsgf_at (multiin fullprop : Bool) (fuel : Nat) (text : List Nat) :
    Except ReadErr mtree :=
  (skip_initial_BOM { buf := text, peekc := 0, eof := false, warned := 0 }).bind fun i1 =>
    (skip_initial_garbage fuel i1).bind fun i2 =>
      if i2.eof then .error .no_game_found
      else (read_collection_at multiin fullprop fuel i2).bind fun g => .ok g.1

/-- The outcome of a call without the places. -/
def forget (x : Except ReadErr (mtree × Input)) : Except ReadErr (gametree × Input) :=
  match x with
  | .ok a => .ok (erase a.1, a.2)
  | .error e => .error e

/-- What the place of a tree says.  Behind a `(`: in the state `origin` the next symbol
is `(`, and the next symbol behind it is the symbol `start.peekc` with which the tree
starts.  Without parentheses: the next symbol in the state `origin` is that symbol, one
of `;`, `C`, `R`.  The tree starts with `;` or with `R`, `N`, `C`.  Its node sequence is
empty if and only if it does not start with `;`.  When it starts with `;` its node
sequence is the one that `read_node_sequence` reads from there; otherwise
`read_korean_node_sequence` has read the nodes from there, the first of which starts
with a property `RN`, `RF`, `N` or `C`, and they are not kept. -/
def TreePlace (fullprop : Bool) (x : Bool × Input × Input × List node) : Prop :=
  (if x.1 = true then
      ∃ a b, mygetsym x.2.1 = .ok (40, a) ∧ mygetsym a = .ok (x.2.2.1.peekc, b) ∧
        x.2.2.1 = { b with peekc := x.2.2.1.peekc }
    else
      ∃ b, mygetsym x.2.1 = .ok (x.2.2.1.peekc, b) ∧
        x.2.2.1 = { b with peekc := x.2.2.1.peekc } ∧
        (x.2.2.1.peekc = 59 ∨ x.2.2.1.peekc = 67 ∨ x.2.2.1.peekc = 82)) ∧
  (x.2.2.1.peekc = 59 ∨ x.2.2.1.peekc = 82 ∨ x.2.2.1.peekc = 78 ∨ x.2.2.1.peekc = 67) ∧
  (x.2.2.2 = [] ↔ x.2.2.1.peekc ≠ 59) ∧
  (x.2.2.1.peekc = 59 →
    ∃ n j, read_node_sequence fullprop n x.2.2.1 = .ok (x.2.2.2, j)) ∧
  (x.2.2.1.peekc ≠ 59 →
    ∃ n k j nd rest p ps, read_korean_node_sequence fullprop n x.2.2.1 = .ok (k, j) ∧
      k = nd :: rest ∧ nd.p = p :: ps ∧ bareAllowed p.id)

/-- Every tree of the forest is at its place. -/
def Placed (fullprop : Bool) (m : mtree) : Prop := ∀ x ∈ marks m, TreePlace fullprop x

/-- The text `(;B[aa](;W[bb])C[x])`: behind the game tree of the first tree stands a
tree without parentheses that starts with the property `C`. -/
def bareTailText : List Nat :=
  [40, 59, 66, 91, 97, 97, 93, 40, 59, 87, 91, 98, 98, 93, 41, 67, 91, 120, 93, 41]

/-- The place of a tree for which `read_baretree` is called. -/
def AtStart (paren : Bool) (origin st : Input) : Prop :=
  (if paren = true then
      ∃ a b, mygetsym origin = .ok (40, a) ∧ mygetsym a = .ok (st.peekc, b) ∧
        st = { b with peekc := st.peekc }
    else
      ∃ b, mygetsym origin = .ok (st.peekc, b) ∧ st = { b with peekc := st.peekc } ∧
        (st.peekc = 59 ∨ st.peekc = 67 ∨ st.peekc = 82)) ∧
  (st.peekc = 59 ∨ st.peekc = 82 ∨ st.peekc = 78 ∨ st.peekc = 67)

/-- The call of `read_baretree_sequence` behind a `(` read in the state `origin`, or
for a tree without parentheses in a state with the symbol pending. -/
def AtCall (paren : Bool) (origin inp : Input) : Prop :=
  (paren = true → mygetsym origin = .ok (40, inp)) ∧
  (paren = false → ∃ c b, mygetsym origin = .ok (c, b) ∧ inp = { b with peekc := c } ∧
    (c = 59 ∨ c = 67 ∨ c = 82))

/-- The trees of a forest read with the places: for every tree the flag `paren`, its
first symbol and its node sequence; the empty list for a failed call. -/
def placesOf (r : Except ReadErr mtree) : List (Bool × Nat × List node) :=
  match r with
  | .ok m => (marks m).map fun x => (x.1, x.2.2.1.peekc, x.2.2.2)
  | .error _ => []

/-- The forest of `bareTailText`: the tree without parentheses is the first child, with
an empty node sequence. -/
def bareTailTree : gametree :=
  .tree [{ p := [{ id := [66], val := [[97, 97]] }] }]
    (.tree [] .null (.tree [{ p := [{ id := [87], val := [[98, 98]] }] }] .null .null)) .null

end Readsgf

/-! ## sgffileinput.c: from the forest to the array of moves

The globals of the file are the fields of `Extract`.  `report_on_single_game` (of
sgfinfo.c) is called once for every top-level game; what the model keeps of the call
is the content of the globals at that moment, appended to `reported`. -/

namespace Sgffileinput

open Readsgf (property node gametree)

def MAXSZ : Int := 31
def DEFAULTSZ : Int := 19

/-- The globals that `report_on_single_game` finds: the game number, the board size,
the array `moves[0..mvct)`, and the counters `movect`, `initct`, `handct`. -/
structure Game where
  gamenr : Nat
  size : Int
  moves : List Int
  movect : Nat
  initct : Nat
  handct : Nat
  deriving DecidableEq, Repr

/-- The globals of sgffileinput.c that the walk over the forest uses (`mvct` is the
length of `moves`), and the calls of `report_on_single_game` so far. -/
structure Extract where
  gamenr : Nat
  size : Int
  moves : List Int
  movect : Nat
  initct : Nat
  handct : Nat
  gtlevel : Int
  skipping : Bool
  reported : List Game
  deriving DecidableEq, Repr

/-- The errors of the walk: those of `put_move1` and `put_move`, those of `setsize`,
and the dereference of a null pointer (`p->val->next` on a property without a
value). -/
inductive WalkErr where
  | move (e : MoveErr)
  | strange_SZ_property
  | SZ_out_of_bounds (size : Int)
  | null_dereference
  deriving DecidableEq, Repr

/-- The call of a function that stops with an error of `put_move1` or `put_move`. -/
def liftMove {α : Type} (r : Except MoveErr α) : Except WalkErr α :=
  match r with
  | .ok a => .ok a
  | .error e => .error (.move e)

/-- Modelled from the C standard (the function is not part of the sources): `isspace`
in the C locale. -/
def isspace (c : Nat) : Bool := c = 32 || (9 ≤ c && c ≤ 13)

/-- Modelled from the C standard: the value of the longest run of decimal digits at the
head of the string. -/
def digits (s : List Nat) : Int :=
  (s.takeWhile fun c => 48 ≤ c && c ≤ 57).foldl (fun n c => n * 10 + ((c : Int) - 48)) 0

/-- Modelled from the C standard (the function is not part of the sources): `atoi`
skips white space, takes an optional sign and converts the digits that follow; the
behaviour is undefined when the value is no `int`, the model gives the number. -/
def atoi (s : List Nat) : Int :=
  match s.dropWhile isspace with
  | 45 :: r => - digits r
  | 43 :: r => digits r
  | r => digits r

/-- Source: `setsize`: the first property `SZ` of the node sets `size`. -/
def setsize : List property → Int → Except WalkErr Int
  | [], size => .ok size
  | p :: ps, size =>
    if cstring p.id = [83, 90] then
      match p.val with
      | [v] =>
        if atoi (cstring v) < 0 ∨ atoi (cstring v) > MAXSZ then
          .error (.SZ_out_of_bounds (atoi (cstring v)))
        else .ok (atoi (cstring v))
      | _ => .error .strange_SZ_property
    else setsize ps size

/-- The loop `while (pv) { ...ct++; put_move1(pv, mask); pv = pv->next; }` of
`get_setup_stones`. -/
def put_setup_values (mask : Int) (vals : List (List Nat)) (moves : List Int) :
    Except MoveErr (List Int) :=
  vals.foldlM (fun mv v => put_move1 (some v) mask mv) moves

/-- Source: `get_setup_stones`: the values of the properties `AB` and `AW` of the node,
in the order of the node; the result is `moves`, `abct` and `awct`. -/
def get_setup_stones : List property → List Int × Nat × Nat →
    Except MoveErr (List Int × Nat × Nat)
  | [], a => .ok a
  | p :: ps, (moves, abct, awct) =>
    if cstring p.id = [65, 66] then
      (put_setup_values BLACK_MASK p.val moves).bind fun mv =>
        get_setup_stones ps (mv, abct + p.val.length, awct)
    else if cstring p.id = [65, 87] then
      (put_setup_values WHITE_MASK p.val moves).bind fun mv =>
        get_setup_stones ps (mv, abct, awct + p.val.length)
    else get_setup_stones ps (moves, abct, awct)

/-- Source: `compar_int`: `(*a) - (*b)`; the entries of `moves` are small, the
difference is an `int`. -/
def compar_int (a b : Int) : Int := a - b

/-- Source: `sort_initial_stones`: `qsort` of the C library on `moves[0..mvct)` with
`compar_int`.  Modelled from the C standard: the result is the array in ascending order
of the comparison, here computed by insertion. -/
def sort_initial_stones (moves : List Int) : List Int :=
  moves.insertionSort fun a b => compar_int a b ≤ 0

/-- Source: `get_initial_stones`. -/
def get_initial_stones (root : node) (st : Extract) : Except WalkErr Extract :=
  (liftMove (get_setup_stones root.p (st.moves, 0, 0))).bind fun r =>
    .ok { st with
      moves := sort_initial_stones r.1
      initct := r.1.length
      handct := if r.2.2 ≠ 0 then 0 else r.2.1 }

/-- Source: `init_single_game`; `root` is `g->nodesequence`. -/
def init_single_game (root : node) (st : Extract) : Except WalkErr Extract :=
  (setsize root.p DEFAULTSZ).bind fun sz =>
    get_initial_stones root
      { st with gamenr := st.gamenr + 1, size := sz, movect := 0, moves := [], initct := 0,
                handct := 0 }

/-- Source: `is_move`, for a non-null `p`; `p->val->next` is read through a null pointer
when the property has no value. -/
def is_move (p : property) : Except WalkErr Bool :=
  match p.val with
  | [] => .error .null_dereference
  | [_] => .ok (cstring p.id = [66] || cstring p.id = [87])
  | _ => .ok false

/-- The inner loop of `put_nodesequence`: the properties of one node. -/
def put_properties : List property → Extract → Except WalkErr Extract
  | [], st => .ok st
  | p :: ps, st =>
    (is_move p).bind fun b =>
      if b then
        (liftMove (put_move p.id p.val (st.moves, st.movect))).bind fun r =>
          put_properties ps { st with moves := r.1, movect := r.2 }
      else put_properties ps st

/-- Source: `put_nodesequence`. -/
def put_nodesequence : List node → Extract → Except WalkErr Extract
  | [], st => .ok st
  | n :: ns, st => (put_properties n.p st).bind fun st1 => put_nodesequence ns st1

/-- The call `report_on_single_game()`: the globals it finds. -/
def report_on_single_game (st : Extract) : Extract :=
  { st with reported := st.reported ++
      [{ gamenr := st.gamenr, size := st.size, moves := st.moves, movect := st.movect,
         initct := st.initct, handct := st.handct }] }

/-- The statement `if (gtlevel == 1 && g->nodesequence) init_single_game(g);` of
`put_gametree`. -/
def init_if_top (ns : List node) (st : Extract) : Except WalkErr Extract :=
  match ns with
  | root :: _ => if st.gtlevel = 1 then init_single_game root st else .ok st
  | [] => .ok st

/-- Source: `put_gametree` on a tree with the nodes `ns`; `children` is the call
`put_gametree_sequence(g->firstchild)`. -/
def put_gametree_with (children : Extract → Except WalkErr Extract) (ns : List node)
    (st : Extract) : Except WalkErr Extract :=
  (init_if_top ns { st with gtlevel := st.gtlevel + 1 }).bind fun st2 =>
    (put_nodesequence ns st2).bind fun st3 =>
      (children st3).bind fun st4 =>
        let st5 := if st4.gtlevel = 1 then report_on_single_game st4 else st4
        .ok { st5 with gtlevel := st5.gtlevel - 1, skipping := decide (st5.gtlevel - 1 > 0) }

/-- Source: `put_gametree_sequence`: the trees of the chain of siblings, each unless
`skipping` is set. -/
def put_gametree_sequence : gametree → Extract → Except WalkErr Extract
  | .null, st => .ok st
  | .tree ns fc sib, st =>
    (if st.skipping then .ok st
      else put_gametree_with (put_gametree_sequence fc) ns st).bind fun st1 =>
      put_gametree_sequence sib st1

/-- Source: `put_gametree`; a null `g` is dereferenced. -/
def put_gametree (g : gametree) (st : Extract) : Except WalkErr Extract :=
  match g with
  | .null => .error .null_dereference
  | .tree ns fc _ => put_gametree_with (put_gametree_sequence fc) ns st

/-- The globals when `do_stdin` starts the walk: `gamenr = gtlevel = skipping = 0`. -/
def start : Extract :=
  { gamenr := 0, size := 0, moves := [], movect := 0, initct := 0, handct := 0, gtlevel := 0,
    skipping := false, reported := [] }

/-! ### What the walk is to produce -/

/-- The entries that a value stands for, whatever the room in the array: one entry for
an empty value, a point or `pass`, the points of the rectangle for `ab:cd`. -/
def valueCodes (mask : Int) (v : List Nat) : Except MoveErr (List Int) :=
  match strip (cstring v) with
  | [] => .ok [Int.lor PASS mask]
  | [a, b] => .ok [pointCode mask (schar a, schar b)]
  | [a, b, 58, c, d] =>
    if schar a > schar c ∨ schar b > schar d then .error (.unexpected_range [a, b, 58, c, d])
    else .ok ((rectPoints (schar a) (schar b) (schar c) (schar d)).map (pointCode mask))
  | s => if s = passText then .ok [Int.lor PASS mask] else .error (.unexpected_move s)

/-- The setup values of a node in its order: the values of `AB` with the mask of Black,
those of `AW` with the mask of White. -/
def setup_values : List property → List (Int × List Nat)
  | [] => []
  | p :: ps =>
    if cstring p.id = [65, 66] then p.val.map (fun v => (BLACK_MASK, v)) ++ setup_values ps
    else if cstring p.id = [65, 87] then p.val.map (fun v => (WHITE_MASK, v)) ++ setup_values ps
    else setup_values ps

/-- The entry of a value that is a point, an empty value or `pass`. -/
def valueCode (mask : Int) (v : List Nat) : Int :=
  match strip (cstring v) with
  | [a, b] => pointCode mask (schar a, schar b)
  | _ => Int.lor PASS mask

/-- The moves of a node: its properties `B` and `W` with a single value, in order, as
the mask of the colour and the value. -/
def move_values : List property → List (Int × List Nat)
  | [] => []
  | p :: ps =>
    match p.val with
    | [v] =>
      if cstring p.id = [66] then (BLACK_MASK, v) :: move_values ps
      else if cstring p.id = [87] then (WHITE_MASK, v) :: move_values ps
      else move_values ps
    | _ => move_values ps

/-- The main line of a tree: its nodes, then those of its first child, and so on; the
siblings of a child are left out. -/
def mainline : gametree → List node
  | .null => []
  | .tree ns fc _ => ns ++ mainline fc

/-- The colour tag of an entry: bits 16 and up. -/
def tag (m : Int) : Int := m / 65536

/-- The loop of `put_move1` calls over a list of values, each with its mask. -/
def put_values (l : List (Int × List Nat)) (moves : List Int) : Except MoveErr (List Int) :=
  l.foldlM (fun mv x => put_move1 (some x.2) x.1 mv) moves

/-- The entries of a list of values, when every value is well formed. -/
def allCodes : List (Int × List Nat) → Option (List Int)
  | [] => some []
  | x :: xs =>
    match valueCodes x.1 x.2, allCodes xs with
    | .ok c, some cs => some (c ++ cs)
    | _, _ => none

/-- The number of values with the given mask. -/
def maskCount (mask : Int) (l : List (Int × List Nat)) : Nat :=
  (l.filter fun x => decide (x.1 = mask)).length

/-- The value of `handct` after `get_setup_stones`: `awct ? 0 : abct`. -/
def handicap (l : List (Int × List Nat)) : Nat :=
  if maskCount WHITE_MASK l ≠ 0 then 0 else maskCount BLACK_MASK l

/-- The root node `AB[dd][pd]AW[dp]`. -/
def setupNode1 : node :=
  { p := [{ id := [65, 66], val := [[100, 100], [112, 100]] },
      { id := [65, 87], val := [[100, 112]] }] }

/-- The root node `AW[dp]AB[pd][dd]`: the same setup stones in another order. -/
def setupNode2 : node :=
  { p := [{ id := [65, 87], val := [[100, 112]] },
      { id := [65, 66], val := [[112, 100], [100, 100]] }] }

/-- The moves of a sequence of nodes, in order. -/
def line_moves (ns : List node) : List (Int × List Nat) := ns.flatMap fun n => move_values n.p

/-- The entries of a list of values that are points, empty or `pass`. -/
def codes (l : List (Int × List Nat)) : List Int := l.map fun x => valueCode x.1 x.2

/-- The root node `;SZ[19]AB[dd]AW[pp]B[aa]`. -/
def walkRoot : node :=
  { p := [{ id := [83, 90], val := [[49, 57]] }, { id := [65, 66], val := [[100, 100]] },
      { id := [65, 87], val := [[112, 112]] }, { id := [66], val := [[97, 97]] }] }

/-- The node `;W[bb]B[gg][hh]`, with a two-valued `B`. -/
def walkNode : node :=
  { p := [{ id := [87], val := [[98, 98]] }, { id := [66], val := [[103, 103], [104, 104]] }] }

/-- The children `(;B[cc](;W[ee])(;W[ff]))(;B[dd])`. -/
def walkChildren : gametree :=
  .tree [{ p := [{ id := [66], val := [[99, 99]] }] }]
    (.tree [{ p := [{ id := [87], val := [[101, 101]] }] }] .null
      (.tree [{ p := [{ id := [87], val := [[102, 102]] }] }] .null .null))
    (.tree [{ p := [{ id := [66], val := [[100, 100]] }] }] .null .null)

/-- The tree `(;SZ[19]AB[dd]AW[pp]B[aa];W[bb]B[gg][hh](;B[cc](;W[ee])(;W[ff]))(;B[dd]))`. -/
def walkTree : gametree := .tree [walkRoot, walkNode] walkChildren .null

/-- The values of the list with the mask of Black. -/
def blackValues (l : List (Int × List Nat)) : List (Int × List Nat) :=
  l.filter fun x => decide (x.1 = BLACK_MASK)

/-- The values of the list with the mask of White. -/
def whiteValues (l : List (Int × List Nat)) : List (Int × List Nat) :=
  l.filter fun x => decide (x.1 = WHITE_MASK)

/-- The root node `AB[` e4 b8 `]AW[` e4 b7 `]`: two points written with bytes above
127. -/
def highNode : node :=
  { p := [{ id := [65, 66], val := [[228, 184]] }, { id := [65, 87], val := [[228, 183]] }] }

end Sgffileinput

namespace Sgfcheck

open Readsgf


/-- Source: sgfcheck.c, the two calls of `errexit` in `check_node_seq`. -/
inductive CheckErr where
  | duplicated_tag (id : List Nat)
  | move_and_setup_properties_in_the_same_node
  deriving DecidableEq, Repr

def PT_MOVE : Nat := 1

def PT_SETUP : Nat := 2

def PT_ROOT : Nat := 4

def PT_GAMEINFO : Nat := 8

def PT_OTHER : Nat := 16

/-- Source: `move_props[]`: BL BM DO IT KO OB OW TE WL. -/
def move_props : List (List Nat) :=
  [[66, 76], [66, 77], [68, 79], [73, 84], [75, 79], [79, 66], [79, 87], [84, 69], [87, 76]]

/-- Source: `setup_props[]`: AB AW AE PL. -/
def setup_props : List (List Nat) := [[65, 66], [65, 87], [65, 69], [80, 76]]

/-- Source: `root_props[]`: AP CA FF GM ST SZ. -/
def root_props : List (List Nat) :=
  [[65, 80], [67, 65], [70, 70], [71, 77], [83, 84], [83, 90]]

/-- Source: `gameinfo_props[]`: AN BR BT CP DT EV GC GN MN ON OT PB PC PW RE RO RU SO TM
US WR WT HA KM. -/
def gameinfo_props : List (List Nat) :=
  [[65, 78], [66, 82], [66, 84], [67, 80], [68, 84], [69, 86], [71, 67], [71, 78], [77, 78],
   [79, 78], [79, 84], [80, 66], [80, 67], [80, 87], [82, 69], [82, 79], [82, 85], [83, 79],
   [84, 77], [85, 83], [87, 82], [87, 84], [72, 65], [75, 77]]

/-- Source: `get_prop_type`; the string `s` is the bytes before the first NUL, and
`strcmp` with an entry of a table is equality with it. -/
def get_prop_type (s : List Nat) : Nat :=
  if cstring s = [66] ∨ cstring s = [87] then PT_MOVE
  else if cstring s ∈ move_props then PT_MOVE
  else if cstring s ∈ setup_props then PT_SETUP
  else if cstring s ∈ root_props then PT_ROOT
  else if cstring s ∈ gameinfo_props then PT_GAMEINFO
  else PT_OTHER

/-- Source: the loop `while (q)` of `check_node_seq`: some property of the rest of the
node has the identifier `id` (`strcmp` gives 0). -/
def find_duplicate (id : List Nat) : List property → Bool
  | [] => false
  | q :: qs => if cstring id = cstring q.id then true else find_duplicate id qs

/-- Source: the loop `while (p)` of `check_node_seq`, from the property `p` on, with
the locals `types_seen` and `moveprop`. -/
def check_properties :
    List property → Nat → Option (List Nat) → Except CheckErr (Nat × Option (List Nat))
  | [], types_seen, moveprop => .ok (types_seen, moveprop)
  | p :: rest, types_seen, moveprop =>
    let type := get_prop_type p.id
    let types_seen := types_seen ||| type
    let moveprop := if type &&& PT_MOVE ≠ 0 ∧ moveprop = none then some p.id else moveprop
    if find_duplicate p.id rest then .error (.duplicated_tag p.id)
    else check_properties rest types_seen moveprop

/-- The static `nodenr`, the local `moveprop` of `check_node_seq`, and the number of
lines `bad style: move property .. in root node` written by `warn`. -/
structure CheckState where
  nodenr : Int
  moveprop : Option (List Nat)
  warned : Nat
  deriving DecidableEq, Repr

/-- Source: the body of the loop `while (node)` of `check_node_seq`. -/
def check_node (nd : node) (s : CheckState) : Except CheckErr CheckState :=
  let s := { s with nodenr := s.nodenr + 1 }
  if nd.p.length < 2 then .ok s
  else do
    let r ← check_properties nd.p 0 s.moveprop
    if r.1 &&& PT_MOVE ≠ 0 ∧ r.1 &&& PT_SETUP ≠ 0 then
      .error .move_and_setup_properties_in_the_same_node
    else if s.nodenr = 0 ∧ r.2 ≠ none then
      .ok { s with moveprop := r.2, warned := s.warned + 1 }
    else .ok { s with moveprop := r.2 }

/-- Source: the loop `while (node)` of `check_node_seq`. -/
def check_nodes : List node → CheckState → Except CheckErr CheckState
  | [], s => .ok s
  | nd :: rest, s => do
    let s1 ← check_node nd s
    check_nodes rest s1

/-- Source: `check_node_seq`, called with the static `nodenr` and the count of the
warnings written so far. -/
def check_node_seq (nodenr : Int) (warned : Nat) (nodes : List node) :
    Except CheckErr CheckState :=
  check_nodes nodes { nodenr := nodenr, moveprop := none, warned := warned }

/-- No two properties of the list have the same identifier. -/
def DistinctIds (ps : List property) : Prop :=
  ps.Pairwise fun p q => cstring p.id ≠ cstring q.id

/-- The list has a move-type property and a setup-type property. -/
def MoveAndSetup (ps : List property) : Prop :=
  (∃ p ∈ ps, get_prop_type p.id = PT_MOVE) ∧ ∃ q ∈ ps, get_prop_type q.id = PT_SETUP

/-- The text `(;B[aa]B[bb]AB[cc])`. -/
def repeatedText : List Nat :=
  [40, 59, 66, 91, 97, 97, 93, 66, 91, 98, 98, 93, 65, 66, 91, 99, 99, 93, 41]

/-- The text `(;B[aa]AB[cc])`. -/
def mixedText : List Nat := [40, 59, 66, 91, 97, 97, 93, 65, 66, 91, 99, 99, 93, 41]

/-- The node sequence of the first game tree. -/
def nodesOf : Except ReadErr gametree → List node
  | .ok (.tree ns _ _) => ns
  | _ => []

/-- Source: sgfcheck.c, the file comment on the node rules: `Move properties: B, BL, BM,
DO, IT, KO, MN, OB, OW, TE, W, WL`. -/
def documented_move_props : List (List Nat) :=
  [[66], [66, 76], [66, 77], [68, 79], [73, 84], [75, 79], [77, 78], [79, 66], [79, 87],
   [84, 69], [87], [87, 76]]

/-- The text `(;MN[1]AB[aa])`. -/
def mnText : List Nat := [40, 59, 77, 78, 91, 49, 93, 65, 66, 91, 97, 97, 93, 41]

end Sgfcheck

namespace Sgfdbinput


/-- Source: sgfdbinput.c, the calls of `errexit` in `do_dbin` on a file that was opened;
`read_outside_file off` is the read of the byte at offset `off` of the mapping when
the file has no such byte (the mapping then gives a byte of the rest of the last page,
or the process is killed); `out_of_fuel` is the end of the fuel of the loop. -/
inductive DbErr where
  | cannot_mmap
  | bad_magic
  | unsupported_version (version : Int)
  | bad_header
  | bad_database
  | read_outside_file (off : Nat)
  | out_of_fuel
  deriving DecidableEq, Repr

def DB_MAGIC : Int := 0x6a11

def DB_VERSION : Int := 2

/-- The value of `sizeof(struct sgfdb)`: an int and two shorts. -/
def SIZEOF_SGFDB : Nat := 8

/-- The value of `sizeof(struct bingame)`: `sz` at offset 0, `gamenr` 2, `movect` 4,
`size` 6, `abct` 7, `awct` 8, `bcapt` 9, `wcapt` 10, `mvct` 12, `filenamelen` 14. -/
def SIZEOF_BINGAME : Nat := 16

/-- The read of an `unsigned char` at offset `off` of the mapped file. -/
def rd_uchar (file : List Nat) (off : Nat) : Except DbErr Nat :=
  match file[off]? with
  | some b => .ok (b % 256)
  | none => .error (.read_outside_file off)

/-- The read of a `short int` at offset `off`: two bytes, low byte first. -/
def rd_short (file : List Nat) (off : Nat) : Except DbErr Int := do
  let lo ← rd_uchar file off
  let hi ← rd_uchar file (off + 1)
  if lo + 256 * hi < 32768 then .ok ((lo + 256 * hi : Nat) : Int)
  else .ok (((lo + 256 * hi : Nat) : Int) - 65536)

/-- The read of an `int` at offset `off`: four bytes, low byte first. -/
def rd_int (file : List Nat) (off : Nat) : Except DbErr Int := do
  let b0 ← rd_uchar file off
  let b1 ← rd_uchar file (off + 1)
  let b2 ← rd_uchar file (off + 2)
  let b3 ← rd_uchar file (off + 3)
  if b0 + 256 * b1 + 65536 * b2 + 16777216 * b3 < 2147483648 then
    .ok ((b0 + 256 * b1 + 65536 * b2 + 16777216 * b3 : Nat) : Int)
  else .ok (((b0 + 256 * b1 + 65536 * b2 + 16777216 * b3 : Nat) : Int) - 4294967296)

/-- The globals that `do_bgin` sets before it calls `report_on_single_game`. -/
structure Game where
  gamenr : Int
  number_of_games : Int
  size : Int
  movect : Int
  initct : Int
  mvct : Int
  handct : Int
  extmvct : Int
  bcaptct : Int
  wcaptct : Int
  extmoves : List Int
  moves : List Nat
  deriving DecidableEq, Repr

/-- Source: the reads `bgm[i]` of the loop of `do_bgin`, for `n` entries from index `i`
on; `bgm` is the offset of the array. -/
def read_entries (file : List Nat) (bgm : Nat) : Nat → Nat → Except DbErr (List Int)
  | 0, _ => .ok []
  | n + 1, i => do
    let m ← rd_short file (bgm + 2 * i)
    let rest ← read_entries file bgm n (i + 1)
    .ok (m :: rest)

/-- Source: `do_bgin` on the record at offset `bg`, up to the call of
`report_on_single_game`.  The masks of the loop are below `2^15`, so the move decoded
from the short `m` is the one decoded from its sixteen bits `m mod 2^16`. -/
def do_bgin (file : List Nat) (bg : Nat) : Except DbErr Game := do
  let gamenr ← rd_short file (bg + 2)
  let size ← rd_uchar file (bg + 6)
  let movect ← rd_short file (bg + 4)
  let abct ← rd_uchar file (bg + 7)
  let awct ← rd_uchar file (bg + 8)
  let extmvct ← rd_short file (bg + 12)
  let bcapt ← rd_uchar file (bg + 9)
  let wcapt ← rd_uchar file (bg + 10)
  let extmoves ← read_entries file (bg + SIZEOF_BINGAME) extmvct.toNat 0
  .ok { gamenr := if gamenr ≠ 0 then gamenr else 1
        number_of_games := if gamenr ≠ 0 then 2 else 1
        size := size
        movect := movect
        initct := abct + awct
        mvct := abct + awct + movect
        handct := if awct ≠ 0 then 0 else abct
        extmvct := extmvct
        bcaptct := bcapt
        wcaptct := wcapt
        extmoves := extmoves
        moves := Playgogame.bgin_moves (extmoves.map fun m => (m % 65536).toNat) }

/-- Source: the block `check database magic and version` of `do_dbin`. -/
def check_header (file : List Nat) : Except DbErr Unit := do
  let magic ← rd_short file 4
  if magic ≠ DB_MAGIC then .error .bad_magic
  else do
    let version ← rd_short file 6
    if version ≠ DB_VERSION then .error (.unsupported_version version)
    else do
      let headerlen ← rd_int file 0
      if headerlen ≠ SIZEOF_SGFDB then .error .bad_header
      else .ok ()

/-- Source: the test `check that entry looks ok - avoid segfaults` of `do_dbin` on the
record at offset `bg`, its operands read from left to right; the result is `bga->sz`. -/
def check_record (file : List Nat) (bg : Nat) : Except DbErr Int := do
  let sz ← rd_short file bg
  if sz < 0 ∨ (bg : Int) + sz > file.length then .error .bad_database
  else do
    let mvct ← rd_short file (bg + 12)
    if mvct < 0 then .error .bad_database
    else do
      let filenamelen ← rd_short file (bg + 14)
      if filenamelen < 0 ∨ (SIZEOF_BINGAME : Int) + 2 * mvct + filenamelen > sz then
        .error .bad_database
      else .ok sz

/-- Source: the loop `while (bg < mmend)` of `do_dbin`: the games handed to
`report_on_single_game` and the error that ends the program, if any. -/
def records (file : List Nat) : Nat → Nat → List Game → List Game × Option DbErr
  | 0, _, done => (done, some .out_of_fuel)
  | fuel + 1, bg, done =>
    if bg < file.length then
      match check_record file bg with
      | .error e => (done, some e)
      | .ok sz =>
        match do_bgin file bg with
        | .error e => (done, some e)
        | .ok g => records file fuel (bg + sz.toNat) (done ++ [g])
    else (done, none)

/-- Source: `do_dbin` on a file that was opened, with the bytes `file`: `mmap` fails
on an empty file. -/
def do_dbin (file : List Nat) : List Game × Option DbErr :=
  if file.length = 0 then ([], some .cannot_mmap)
  else
    match check_header file with
    | .error e => ([], some e)
    | .ok _ => records file (file.length + 1) SIZEOF_SGFDB []

/-- The header of a database: `headerlen` 8, `magic` 0x6a11, `version` 2. -/
def dbHeader : List Nat := [8, 0, 0, 0, 0x11, 0x6a, 2, 0]

/-- A database cut after the first byte of its first record. -/
def truncatedDb : List Nat := dbHeader ++ [20]

/-- A database cut in the middle of `magic`. -/
def shortDb : List Nat := [8, 0, 0, 0, 0x11]

/-- A database with one record of 20 bytes: board size 19, one move, the log entry
1090 (Black on (2,2)), the file name `a`. -/
def oneGameDb : List Nat :=
  dbHeader ++ [20, 0, 0, 0, 1, 0, 19, 0, 0, 0, 0, 0, 1, 0, 2, 0, 0x42, 0x04, 97, 0]

/-- A database whose last record has 15 bytes left in the file. -/
def cutRecordDb : List Nat :=
  dbHeader ++ [20, 0, 0, 0, 1, 0, 19, 0, 0, 0, 0, 0, 1, 0, 2, 0, 0x42, 0x04, 97, 0]
    ++ [15, 0, 0, 0, 0, 0, 19, 0, 0, 0, 0, 0, 0, 0, 0]

end Sgfdbinput

namespace Readsgf0

open Readsgf (property node gametree iswhitespace is_upper_case is_lower_case cstring
  ends_value link Input ReadErr fresh nextSym gameStart)


/-- The state of the strict reader of readsgf0.c: the bytes not yet taken, the statics
`peekc` and `eof`, the counter `mywarnct`, the static `nonff4` of
`read_baretree_sequence` (which is not reset between files), and the number of calls
of `warn` so far. -/
structure Input0 where
  buf : List Nat
  peekc : Nat
  eof : Bool
  mywarnct : Nat
  nonff4 : Nat
  warned : Nat
  deriving DecidableEq, Repr

/-- The `errexit` calls of readsgf0.c, a null pointer dereference, a write behind the
end of `propvaluebuf`, and the end of the fuel. -/
inductive Err0 where
  | premature_eof
  | propid_is_lower_case_only
  | propid_too_long
  | missing_propvalue (id : List Nat)
  | empty_node_sequence
  | paren_not_followed_by_semicolon
  | gametree_does_not_end (c : Nat)
  | no_gametree
  | gametree_must_start (c : Nat)
  | leading_junk
  | null_dereference
  | propvaluebuf_overflow
  | out_of_fuel
  deriving DecidableEq, Repr

/-- Source: readsgf0.c, `mygetchar`; at the end of the file it sets `eof` and returns
0. -/
def mygetchar (inp : Input0) : Except Err0 (Nat × Input0) :=
  if inp.peekc ≠ 0 then .ok (inp.peekc, { inp with peekc := 0 })
  else if inp.eof then .error .premature_eof
  else
    match inp.buf with
    | [] => .ok (0, { inp with eof := true })
    | c :: r => .ok (c, { inp with buf := r })

/-- The loop `while (iswhitespace(c)) c = mygetchar();` of `mygetsym` once `c` is a
white space character and `peekc` is 0: every further call takes the next byte of the
buffer of `inp`. -/
def skip_whitespace (inp : Input0) : List Nat → Except Err0 (Nat × Input0)
  | [] =>
    if inp.eof then .error .premature_eof
    else .ok (0, { inp with buf := [], peekc := 0, eof := true })
  | c :: r =>
    if inp.eof then .error .premature_eof
    else if iswhitespace c then skip_whitespace inp r
    else .ok (c, { inp with buf := r, peekc := 0 })

/-- Source: readsgf0.c, `mygetsym`. -/
def mygetsym (inp : Input0) : Except Err0 (Nat × Input0) :=
  (mygetchar inp).bind fun a =>
    if iswhitespace a.1 then skip_whitespace a.2 a.2.buf else .ok a

/-- Source: readsgf0.c, the statics `propvaluebufsz`, `propvalueroomleft` (0 at the
start) and `propvaluestep` (10000 at the start).  The test `propvalueroomleft < 2` of
`read_propvalue_following_sq` holds when the first byte of the first value is read:
`propvaluestep` is doubled to 20000 and `propvaluebuf` gets 20000 bytes.  Nothing
lowers `propvalueroomleft` afterwards, so the test never holds again and the buffer
keeps this size. -/
def propvaluebufsz : Nat := 20000

/-- Source: readsgf0.c, `read_propvalue_following_sq`; `acc` is the content of
`propvaluebuf` so far, so `p` points at the index `acc.length`.  A `]` ends the value
when the next symbol is one of `; ( ) [` or a letter; otherwise `warn("unescaped ]")`
is called and it is kept as data.  Every write `*p++ = c` and the final `*p = 0` is
at an index below `propvaluebufsz`, or it is a write behind the end of the buffer,
which is the result `propvaluebuf_overflow`. -/
def read_propvalue_following_sq : Nat → List Nat → Input0 → Except Err0 (List Nat × Input0)
  | 0, _, _ => .error .out_of_fuel
  | n + 1, acc, inp =>
    (mygetchar inp).bind fun a =>
      if a.1 = 93 then
        (mygetsym a.2).bind fun d =>
          if propvaluebufsz ≤ acc.length then .error .propvaluebuf_overflow
          else if ends_value d.1 then .ok (cstring acc, { d.2 with peekc := d.1 })
          else read_propvalue_following_sq n (acc ++ [93])
            { d.2 with peekc := d.1, warned := d.2.warned + 1 }
      else if propvaluebufsz ≤ acc.length then .error .propvaluebuf_overflow
      else if a.1 = 92 then
        (mygetchar a.2).bind fun b =>
          if propvaluebufsz ≤ acc.length + 1 then .error .propvaluebuf_overflow
          else read_propvalue_following_sq n (acc ++ [92, b.1]) b.2
      else read_propvalue_following_sq n (acc ++ [a.1]) a.2

/-- Source: readsgf0.c, `read_propvalue_sequence`; the empty list is `NULL`. -/
def read_propvalue_sequence : Nat → Input0 → Except Err0 (List (List Nat) × Input0)
  | 0, _ => .error .out_of_fuel
  | n + 1, inp =>
    (mygetsym inp).bind fun a =>
      if a.1 = 91 then
        (read_propvalue_following_sq (n + 1) [] a.2).bind fun v =>
          (read_propvalue_sequence n v.2).bind fun vs => .ok (v.1 :: vs.1, vs.2)
      else .ok ([], { a.2 with peekc := a.1 })

/-- Source: readsgf0.c, `read_propid`; `p` is the content of `propid` so far, which
has room for 80 characters: only upper-case letters are stored, and an identifier
that fills the buffer is an error. -/
def read_propid : Nat → List Nat → Input0 → Except Err0 (List Nat × Input0)
  | 0, _, _ => .error .out_of_fuel
  | n + 1, p, inp =>
    (mygetsym inp).bind fun a =>
      if ¬ (is_upper_case a.1 || is_lower_case a.1) then
        if p = [] then .error .propid_is_lower_case_only
        else if p.length ≥ 80 then .error .propid_too_long
        else .ok (cstring p, { a.2 with peekc := a.1 })
      else
        read_propid n (if is_upper_case a.1 ∧ p.length < 80 then p ++ [a.1] else p) a.2

/-- Source: readsgf0.c, `read_property`. -/
def read_property (fuel : Nat) (inp : Input0) : Except Err0 (property × Input0) :=
  (read_propid fuel [] inp).bind fun i =>
    (read_propvalue_sequence fuel i.2).bind fun v =>
      if v.1 = [] then .error (.missing_propvalue i.1)
      else .ok ({ id := i.1, val := v.1 }, v.2)

/-- Source: the test `if (is_lower_case(c) && !mywarnct++) warn(..)` of
`read_property_sequence`. -/
def lower_case_warning (c : Nat) (inp : Input0) : Input0 :=
  if is_lower_case c then
    if inp.mywarnct = 0 then
      { inp with mywarnct := inp.mywarnct + 1, warned := inp.warned + 1 }
    else { inp with mywarnct := inp.mywarnct + 1 }
  else inp

/-- The loop of `read_property_sequence` of readsgf0.c: the properties of one node. -/
def read_properties : Nat → Input0 → Except Err0 (List property × Input0)
  | 0, _ => .error .out_of_fuel
  | n + 1, inp =>
    (mygetsym inp).bind fun a =>
      if ¬ (is_upper_case a.1 || is_lower_case a.1) then .ok ([], { a.2 with peekc := a.1 })
      else
        (read_property (n + 1) (lower_case_warning a.1 { a.2 with peekc := a.1 })).bind fun p =>
          (read_properties n p.2).bind fun ps => .ok (p.1 :: ps.1, ps.2)

/-- Source: readsgf0.c, `read_property_sequence`. -/
def read_property_sequence (fuel : Nat) (inp : Input0) : Except Err0 (node × Input0) :=
  (read_properties fuel inp).bind fun ps => .ok ({ p := ps.1 }, ps.2)

/-- Source: readsgf0.c, `read_node_sequence`; the empty list is `NULL`. -/
def read_node_sequence : Nat → Input0 → Except Err0 (List node × Input0)
  | 0, _ => .error .out_of_fuel
  | n + 1, inp =>
    (mygetsym inp).bind fun a =>
      if a.1 = 59 then
        (read_property_sequence (n + 1) a.2).bind fun nd =>
          (read_node_sequence n nd.2).bind fun nds => .ok (nd.1 :: nds.1, nds.2)
      else .ok ([], { a.2 with peekc := a.1 })

/-- Source: readsgf0.c, `read_sequence`. -/
def read_sequence (fuel : Nat) (inp : Input0) : Except Err0 (List node × Input0) :=
  (read_node_sequence fuel inp).bind fun n =>
    if n.1 = [] then .error .empty_node_sequence else .ok n

/-- Source: readsgf0.c, `read_baretree`; `rgs` is the call of
`read_gametree_sequence`. -/
def read_baretree (fuel : Nat) (rgs : Input0 → Except Err0 (gametree × Input0))
    (inp : Input0) : Except Err0 (gametree × Input0) :=
  (read_sequence fuel inp).bind fun s =>
    (rgs s.2).bind fun g => .ok (.tree s.1 g.1 .null, g.2)

/-- Source: the lines `if (!nonff4++) warn("non-FF[4] variations");` of
`read_baretree_sequence`. -/
def nonff4_warning (inp : Input0) : Input0 :=
  if inp.nonff4 = 0 then { inp with nonff4 := inp.nonff4 + 1, warned := inp.warned + 1 }
  else { inp with nonff4 := inp.nonff4 + 1 }

/-- Source: readsgf0.c, `read_baretree_sequence`; `rgs` is the call of
`read_gametree_sequence`.  On the second path
`g->nextsibling = gh->firstchild; gh->firstchild = g;`. -/
def read_baretree_sequence (rgs : Input0 → Except Err0 (gametree × Input0)) :
    Nat → Input0 → Except Err0 (gametree × Input0)
  | 0, _ => .error .out_of_fuel
  | n + 1, inp =>
    (mygetsym inp).bind fun a =>
      if a.1 ≠ 59 then .ok (.null, { a.2 with peekc := a.1 })
      else
        (read_baretree (n + 1) rgs { a.2 with peekc := a.1 }).bind fun gh =>
          (mygetsym gh.2).bind fun c =>
            if c.1 = 59 then
              (read_baretree_sequence rgs n
                  (nonff4_warning { c.2 with peekc := c.1 })).bind fun g =>
                match g.1, gh.1 with
                | .tree ns fc _, .tree ns0 fc0 sib0 =>
                  .ok (.tree ns0 (.tree ns fc fc0) sib0, g.2)
                | _, _ => .error .null_dereference
            else .ok (gh.1, { c.2 with peekc := c.1 })

/-- Source: readsgf0.c, `read_gametree_sequence`; `NULL` when no `(` follows.  A `(`
without a tree is the warning `() should be (;)` when `)` follows and an error
otherwise. -/
def read_gametree_sequence : Nat → Input0 → Except Err0 (gametree × Input0)
  | 0, _ => .error .out_of_fuel
  | n + 1, inp =>
    (mygetsym inp).bind fun a =>
      if a.1 = 40 then
        (read_baretree_sequence (read_gametree_sequence n) (n + 1) a.2).bind fun g =>
          if g.1 = .null ∧ g.2.peekc ≠ 41 then .error .paren_not_followed_by_semicolon
          else
            (mygetsym (if g.1 = .null then { g.2 with warned := g.2.warned + 1 }
                else g.2)).bind fun c =>
              if c.1 ≠ 41 then .error (.gametree_does_not_end c.1)
              else
                (read_gametree_sequence n c.2).bind fun rest =>
                  .ok (link g.1 rest.1, rest.2)
      else .ok (.null, { a.2 with peekc := a.1 })

/-- Source: readsgf0.c, `read_collection`. -/
def read_collection (fuel : Nat) (inp : Input0) : Except Err0 (gametree × Input0) :=
  (read_gametree_sequence fuel inp).bind fun g =>
    if g.1 = .null then
      if g.2.peekc = 0 then .error .no_gametree
      else .error (.gametree_must_start g.2.peekc)
    else .ok g

/-- Source: readsgf0.c, `check_for_BOM`. -/
def check_for_BOM (inp : Input0) : Except Err0 Input0 :=
  (mygetchar inp).bind fun a =>
    if a.1 = 0xef then
      (mygetchar a.2).bind fun b =>
        if b.1 = 0xbb then
          (mygetchar b.2).bind fun c =>
            if c.1 = 0xbf then .ok { c.2 with warned := c.2.warned + 1 }
            else .error .leading_junk
        else .error .leading_junk
    else .ok { a.2 with peekc := a.1 }

/-- Source: readsgf0.c, `readsgf` on a file with the bytes `text`: the forest `*gg`
and the final state, whose field `warned` is the number of warnings of this call.
`nonff4` is the value of the static of that name when the call starts. -/
def readsgf (nonff4 fuel : Nat) (text : List Nat) : Except Err0 (gametree × Input0) :=
  (check_for_BOM (Input0.mk text 0 false 0 nonff4 0)).bind fun i => read_collection fuel i

/-- The part of the state that the reader of readsgf.c has as well. -/
def proj (s : Input0) : Readsgf.Input :=
  { buf := s.buf, peekc := s.peekc, eof := s.eof, warned := s.warned }

/-- The call `x` of the strict reader and the call `y` of the reader of readsgf.c, from
states with the same input and `w` warnings: when `x` returns, it has not taken a
warning back, and when it has written none and its final state satisfies `C`, `y`
returns the same value in the same state. -/
def Sim {α : Type} (C : Input0 → Prop) (w : Nat) (x : Except Err0 (α × Input0))
    (y : Except ReadErr (α × Input)) : Prop :=
  ∀ v s, x = .ok (v, s) → w ≤ s.warned ∧ (s.warned = w → C s → y = .ok (v, proj s))

/-- The next symbol of the two states is the same, and after it the states agree. -/
def SymSame (s : Input0) (t : Input) : Prop :=
  ∀ c s1, mygetsym s = .ok (c, s1) → Readsgf.mygetsym t = .ok (c, proj s1)

/-- The final state of `read_baretree_sequence` as the caller needs it: the pending
symbol is none of `C`, `R`, `N`. -/
def NotBare (s : Input0) : Prop := s.peekc ≠ 67 ∧ s.peekc ≠ 82 ∧ s.peekc ≠ 78

/-- The body of the loop of `read_gametree_sequence` of readsgf0.c after the `(`. -/
def after_paren (n : Nat) (s : Input0) : Except Err0 (gametree × Input0) :=
  (read_baretree_sequence (read_gametree_sequence n) (n + 1) s).bind fun g =>
    if g.1 = .null ∧ g.2.peekc ≠ 41 then .error .paren_not_followed_by_semicolon
    else
      (mygetsym (if g.1 = .null then { g.2 with warned := g.2.warned + 1 }
          else g.2)).bind fun c =>
        if c.1 ≠ 41 then .error (.gametree_does_not_end c.1)
        else
          (read_gametree_sequence n c.2).bind fun rest =>
            .ok (link g.1 rest.1, rest.2)

/-- The body of the loop of `read_gametree_sequence` of readsgf.c after the `(`. -/
def after_paren_tolerant (n : Nat) (t : Input) : Except ReadErr (gametree × Input) :=
  (Readsgf.read_baretree_sequence false (Readsgf.read_gametree_sequence false n) (n + 1)
      t).bind fun g =>
    (Readsgf.mygetsym g.2).bind fun c =>
      if c.1 ≠ 41 then .error (.gametree_does_not_end c.1)
      else
        (Readsgf.read_gametree_sequence false n c.2).bind fun rest =>
          .ok (link g.1 rest.1, rest.2)

/-- What is left of the input of the strict reader: the bytes of the buffer, the
pending symbol, and the end of the file, which is read once. -/
def Input0.size (inp : Input0) : Nat :=
  inp.buf.length + (if inp.peekc = 0 then 0 else 1) + (if inp.eof then 0 else 1)

/-- The call of the strict reader did not stop for lack of fuel, and its value satisfies
`Q`. -/
@[reducible] def Post0 {α : Type} (Q : α → Prop) (r : Except Err0 α) : Prop :=
  r ≠ .error .out_of_fuel ∧ ∀ a, r = .ok a → Q a

/-- The text `(;B[aa](;W[bb]);B[cc])`: a node after the variations of a tree. -/
def lateNodeText : List Nat :=
  [40, 59, 66, 91, 97, 97, 93, 40, 59, 87, 91, 98, 98, 93, 41, 59, 66, 91, 99, 99, 93, 41]

/-- The forest of `lateNodeText`: the tree of the late node is the first child. -/
def lateNodeTree : gametree :=
  .tree [{ p := [{ id := [66], val := [[97, 97]] }] }]
    (.tree [{ p := [{ id := [66], val := [[99, 99]] }] }] .null
      (.tree [{ p := [{ id := [87], val := [[98, 98]] }] }] .null .null))
    .null

end Readsgf0

namespace Writesgf

open Readsgf (property node gametree cstring Ws Stored GoodProp GoodForest NodesNonempty
  IdText ValuesLoose PropsLoose NodesLoose TreesLoose CollectionLoose LooseBody)


/-- Source: writesgf.c, `moveprops[]` of `write_property_sequence`, the identifiers
after which no newline is written: BL WL OB OW CR. -/
def moveprops : List (List Nat) := [[66, 76], [87, 76], [79, 66], [79, 87], [67, 82]]

/-- The value of `movesperline` after `write_init`. -/
def movesperline : Nat := 10

/-- Source: `write_propvalues`: each value between brackets, written with `%s`. -/
def write_propvalues : List (List Nat) → List Nat
  | [] => []
  | v :: vs => 91 :: (cstring v ++ 93 :: write_propvalues vs)

/-- Source: `write_property_sequence` from the property `p` on: the text written and
the value of `movesonthisline` at the end; `did_output` is the local of that name. -/
def write_property_sequence : List property → Bool → Nat → List Nat × Nat
  | [], _, movesonthisline => ([], movesonthisline)
  | p :: ps, did_output, _ =>
    if cstring p.id ∈ moveprops then
      let r := write_property_sequence ps did_output movesperline
      (cstring p.id ++ (write_propvalues p.val ++ r.1), r.2)
    else
      let r := write_property_sequence ps true 0
      ((if did_output then [] else [10]) ++
        (cstring p.id ++ (write_propvalues p.val ++ 10 :: r.1)), r.2)

/-- Source: `is_move`: the property list starts with a `B` or `W` of one value; `none`
is the dereference of `p->val` when the property has no value. -/
def is_move : List property → Option Bool
  | [] => some false
  | p :: _ =>
    match p.val with
    | [] => none
    | _ :: vs => some (decide (vs = [] ∧ (cstring p.id = [66] ∨ cstring p.id = [87])))

/-- Source: the loop `while (n)` of `write_nodesequence`; `root` says that the node is
`rootnode`, the first node of the game tree of level 1 that is being written. -/
def write_nodes : List node → Bool → Nat → Option (List Nat × Nat)
  | [], _, movesonthisline => some ([], movesonthisline)
  | n :: ns, root, movesonthisline =>
    match is_move n.p, n.p with
    | none, _ => none
    | some true, p :: rest =>
      match p.val with
      | [] => none
      | v :: _ =>
        let r := write_property_sequence rest false
          ((if movesonthisline = movesperline then 0 else movesonthisline) + 1)
        match write_nodes ns false r.2 with
        | none => none
        | some t =>
          some ((if movesonthisline = movesperline then [10] else []) ++
            (59 :: (cstring p.id ++ 91 :: (cstring v ++ 93 ::
              (r.1 ++ ((if root then [10] else []) ++ t.1))))), t.2)
    | some _, ps =>
      let r := write_property_sequence ps false movesonthisline
      match write_nodes ns false r.2 with
      | none => none
      | some t => some (59 :: (r.1 ++ ((if root then [10] else []) ++ t.1)), t.2)

/-- Source: `write_nodesequence`: a `;` for the empty sequence. -/
def write_nodesequence (ns : List node) (root : Bool) (movesonthisline : Nat) :
    Option (List Nat × Nat) :=
  if ns = [] then some ([59], movesonthisline) else write_nodes ns root movesonthisline

/-- Source: `write_gametree_sequence` with `write_gametree`; `gtlevel` is the level
before the tree is entered. -/
def write_gametree_sequence : gametree → Nat → Nat → Option (List Nat × Nat)
  | .null, _, movesonthisline => some ([], movesonthisline)
  | .tree ns fc sib, gtlevel, movesonthisline =>
    match write_nodesequence ns (decide (gtlevel + 1 = 1)) movesonthisline with
    | none => none
    | some a =>
      match write_gametree_sequence fc (gtlevel + 1) a.2 with
      | none => none
      | some b =>
        match write_gametree_sequence sib gtlevel 0 with
        | none => none
        | some c => some (40 :: (a.1 ++ (b.1 ++ 41 :: 10 :: c.1)), c.2)

/-- Source: `writesgf`: the text written for the forest `g`. -/
def writesgf (g : gametree) : Option (List Nat) :=
  (write_gametree_sequence g 0 0).map fun r => r.1

/-- The text `(;C[a\` NUL `])`: a comment that ends with a backslash and a NUL byte. -/
def nulText : List Nat := [40, 59, 67, 91, 97, 92, 0, 93, 41]

/-- The forest that `readsgf` returns for `nulText`: the comment is `a\`. -/
def nulTree : gametree := .tree [{ p := [{ id := [67], val := [[97, 92]] }] }] .null .null

/-- The text that `writesgf` writes for `nulTree`: `(;`, newline, `C[a\]`, two
newlines, `)`, newline. -/
def nulWritten : List Nat := [40, 59, 10, 67, 91, 97, 92, 93, 10, 10, 41, 10]

/-- The text `(;B[aa]BL[5]C[x];W[bb](;B[cc])(;B[dd]))`. -/
def gameText : List Nat :=
  [40, 59, 66, 91, 97, 97, 93, 66, 76, 91, 53, 93, 67, 91, 120, 93, 59, 87, 91, 98, 98, 93,
    40, 59, 66, 91, 99, 99, 93, 41, 40, 59, 66, 91, 100, 100, 93, 41, 41]

/-- The forest of `gameText`. -/
def gameTree : gametree :=
  .tree [{ p := [{ id := [66], val := [[97, 97]] }, { id := [66, 76], val := [[53]] },
                 { id := [67], val := [[120]] }] },
         { p := [{ id := [87], val := [[98, 98]] }] }]
    (.tree [{ p := [{ id := [66], val := [[99, 99]] }] }] .null
      (.tree [{ p := [{ id := [66], val := [[100, 100]] }] }] .null .null))
    .null

end Writesgf


namespace Playgogame

/-! ## Neighbour cells and the count of empty neighbour slots -/

theorem nbrs_eq (s : Nat) (h : 32 ≤ s) : nbrs s = [s - 1, s + 1, s - 32, s + 32] := by
  simp only [nbrs, dirs, nbr, D, MAXSZ, List.map]
  have e1 : ((s : Int) + -1).toNat = s - 1 := by omega
  have e2 : ((s : Int) + 1).toNat = s + 1 := by omega
  have e3 : ((s : Int) + -((31 + 1 : Nat) : Int)).toNat = s - 32 := by omega
  have e4 : ((s : Int) + ((31 + 1 : Nat) : Int)).toNat = s + 32 := by omega
  rw [e1, e2, e3, e4]

theorem mem_nbrs_symm {s t : Nat} (hs : 33 ≤ s) (ht : 33 ≤ t) : t ∈ nbrs s ↔ s ∈ nbrs t := by
  rw [nbrs_eq s (by omega), nbrs_eq t (by omega)]
  simp only [List.mem_cons, List.mem_singleton, List.mem_nil_iff, or_false]
  omega

theorem nbrs_nodup (s : Nat) (h : 32 ≤ s) : (nbrs s).Nodup := by
  rw [nbrs_eq s h]
  simp only [List.nodup_cons, List.mem_cons, List.mem_singleton, List.not_mem_nil,
    not_false_eq_true, List.nodup_nil, and_true, or_false, not_or]
  omega

theorem not_mem_nbrs_self (s : Nat) (h : 32 ≤ s) : s ∉ nbrs s := by
  rw [nbrs_eq s h]
  simp only [List.mem_cons, List.mem_singleton, List.mem_nil_iff, or_false]
  omega

theorem libs_nil (b : Nat → Nat) : libs b [] = 0 := rfl

theorem libs_cons (b : Nat → Nat) (q : Nat) (l : List Nat) :
    libs b (q :: l) = ((nbrs q).countP fun t => b t = EMPTY) + libs b l := by
  simp [libs]

theorem libs_append (b : Nat → Nat) (l1 l2 : List Nat) :
    libs b (l1 ++ l2) = libs b l1 + libs b l2 := by
  simp [libs]

theorem libs_congr {b b1 : Nat → Nat} {l : List Nat}
    (h : ∀ q ∈ l, ∀ t ∈ nbrs q, (b t = EMPTY ↔ b1 t = EMPTY)) : libs b l = libs b1 l := by
  induction l with
  | nil => rfl
  | cons q l ih =>
    rw [libs_cons, libs_cons, ih (fun q1 hq1 => h q1 (List.mem_cons_of_mem _ hq1))]
    congr 1
    apply List.countP_congr
    intro t ht
    simpa using h q (List.mem_cons_self _ _) t ht

/-- Counting a cell in a list without repetition. -/
theorem countP_eq_of_nodup {l : List Nat} (hl : l.Nodup) (s : Nat) :
    l.countP (fun t => t = s) = if s ∈ l then 1 else 0 := by
  induction l with
  | nil => simp
  | cons a l ih =>
    have hn := List.nodup_cons.mp hl
    rw [List.countP_cons, ih hn.2]
    by_cases h : a = s
    · subst h; simp [hn.1]
    · have : ¬ s = a := fun e => h e.symm
      simp [h, this]

theorem countP_update_fill {b : Nat → Nat} {s v : Nat} (hs : b s = EMPTY) (hv : v ≠ EMPTY)
    {l : List Nat} (hl : l.Nodup) :
    (l.countP fun t => Function.update b s v t = EMPTY) + (if s ∈ l then 1 else 0)
      = l.countP fun t => b t = EMPTY := by
  induction l with
  | nil => simp
  | cons a l ih =>
    have hn := List.nodup_cons.mp hl
    have ih1 := ih hn.2
    rw [List.countP_cons, List.countP_cons]
    by_cases h : a = s
    · subst h
      have : a ∉ l := hn.1
      simp only [this, if_false, Nat.add_zero] at ih1
      simp [hs, hv, ih1]
    · have h2 : ¬ s = a := fun e => h e.symm
      simp only [List.mem_cons, h2, false_or]
      simp only [Function.update_noteq h]
      omega

theorem countP_update_clear {b : Nat → Nat} {s : Nat} (hs : b s ≠ EMPTY)
    {l : List Nat} (hl : l.Nodup) :
    (l.countP fun t => Function.update b s EMPTY t = EMPTY)
      = (l.countP fun t => b t = EMPTY) + (if s ∈ l then 1 else 0) := by
  induction l with
  | nil => simp
  | cons a l ih =>
    have hn := List.nodup_cons.mp hl
    have ih1 := ih hn.2
    rw [List.countP_cons, List.countP_cons]
    by_cases h : a = s
    · subst h
      have : a ∉ l := hn.1
      simp only [this, if_false, Nat.add_zero] at ih1
      simp [hs, ih1]
    · have h2 : ¬ s = a := fun e => h e.symm
      simp only [List.mem_cons, h2, false_or]
      simp only [Function.update_noteq h]
      omega

theorem libs_update_fill {b : Nat → Nat} {s v : Nat} (hs : b s = EMPTY) (hv : v ≠ EMPTY)
    {l : List Nat} (hl : ∀ q ∈ l, 32 ≤ q) :
    libs (Function.update b s v) l + l.countP (fun q => s ∈ nbrs q) = libs b l := by
  induction l with
  | nil => simp [libs]
  | cons q l ih =>
    have ih1 := ih (fun q1 hq1 => hl q1 (List.mem_cons_of_mem _ hq1))
    have hq := hl q (List.mem_cons_self _ _)
    have := countP_update_fill hs hv (nbrs_nodup q hq)
    rw [libs_cons, libs_cons, List.countP_cons]
    simp only [decide_eq_true_eq]
    omega

theorem libs_update_clear {b : Nat → Nat} {s : Nat} (hs : b s ≠ EMPTY)
    {l : List Nat} (hl : ∀ q ∈ l, 32 ≤ q) :
    libs (Function.update b s EMPTY) l = libs b l + l.countP (fun q => s ∈ nbrs q) := by
  induction l with
  | nil => simp [libs]
  | cons q l ih =>
    have ih1 := ih (fun q1 hq1 => hl q1 (List.mem_cons_of_mem _ hq1))
    have hq := hl q (List.mem_cons_self _ _)
    have := countP_update_clear hs (nbrs_nodup q hq)
    rw [libs_cons, libs_cons, List.countP_cons]
    simp only [decide_eq_true_eq]
    omega

/-- Two lists without repetition have as many elements of the first in the second as of
the second in the first. -/
theorem countP_mem_comm {l1 l2 : List Nat} (h1 : l1.Nodup) (h2 : l2.Nodup) :
    l1.countP (fun q => q ∈ l2) = l2.countP (fun t => t ∈ l1) := by
  induction l1 generalizing l2 with
  | nil => simp
  | cons a l ih =>
    have hn := List.nodup_cons.mp h1
    rw [List.countP_cons]
    have e : l2.countP (fun t => t ∈ a :: l) = l2.countP (fun t => t ∈ l) + l2.countP (fun t => t = a) := by
      clear ih h2
      induction l2 with
      | nil => simp
      | cons x l2 ih2 =>
        rw [List.countP_cons, List.countP_cons, List.countP_cons, ih2]
        by_cases hx : x = a
        · subst hx; simp [hn.1]; omega
        · simp [hx]; omega
    rw [e, ih hn.2 h2, countP_eq_of_nodup h2 a]
    simp

theorem countP_nbrs_symm {l : List Nat} (hl : l.Nodup) (h33 : ∀ q ∈ l, 33 ≤ q) {s : Nat}
    (hs : 33 ≤ s) : l.countP (fun q => s ∈ nbrs q) = (nbrs s).countP (fun t => t ∈ l) := by
  rw [← countP_mem_comm hl (nbrs_nodup s (by omega))]
  apply List.countP_congr
  intro q hq
  simp only [decide_eq_true_eq]
  exact mem_nbrs_symm (h33 q hq) hs

end Playgogame

namespace Playgogame

/-! ## What the primitives of the engine write -/

@[simp] theorem bump_board (st : State) (f : Nat → Int) : (st.bump f).board = st.board := rfl
@[simp] theorem bump_mv (st : State) (f : Nat → Int) : (st.bump f).mv = st.mv := rfl
@[simp] theorem bump_cc (st : State) (f : Nat → Int) :
    (st.bump f).current_chain = st.current_chain := rfl
@[simp] theorem bump_lc (st : State) (f : Nat → Int) :
    (st.bump f).last_change = st.last_change := rfl
@[simp] theorem bump_counts (st : State) (f : Nat → Int) : (st.bump f).counts = st.counts := rfl
@[simp] theorem bump_chainct (st : State) (f : Nat → Int) :
    (st.bump f).chainct = st.chainct := rfl
@[simp] theorem bump_sz (st : State) (f : Nat → Int) : (st.bump f).sz = st.sz := rfl
@[simp] theorem bump_sz1 (st : State) (f : Nat → Int) : (st.bump f).sz1 = st.sz1 := rfl
@[simp] theorem bump_mvlen (st : State) (f : Nat → Int) : (st.bump f).mvlen = st.mvlen := rfl
@[simp] theorem bump_chain_sz (st : State) (f : Nat → Int) (c : Nat) :
    ((st.bump f).chains c).sz = (st.chains c).sz := rfl
@[simp] theorem bump_chain_stones (st : State) (f : Nat → Int) (c : Nat) :
    ((st.bump f).chains c).stones = (st.chains c).stones := rfl
@[simp] theorem bump_chain_lib (st : State) (f : Nat → Int) (c : Nat) :
    ((st.bump f).chains c).liberties = (st.chains c).liberties + f c := rfl
@[simp] theorem bump_stonesOf (st : State) (f : Nat → Int) (c : Nat) :
    stonesOf ((st.bump f).chains c) = stonesOf (st.chains c) := rfl

theorem bump_bump (st : State) (f g : Nat → Int) :
    (st.bump f).bump g = st.bump (fun c => f c + g c) := by
  simp only [State.bump, add_assoc]

theorem bump_zero (st : State) : st.bump (fun _ => 0) = st := by
  simp only [State.bump, add_zero]

theorem addLib_eq_bump (st : State) (c : Nat) (k : Int) :
    st.addLib c k = st.bump (fun c1 => if c1 = c then k else 0) := by
  simp only [State.addLib, State.bump]
  congr 1
  funext c1
  by_cases h : c1 = c
  · subst h; simp
  · simp [h]

theorem add_mv_ok {st r : State} {m : Nat} (h : add_mv st m = .ok r) :
    st.mv.length ≠ st.mvlen ∧ r = { st with mv := st.mv ++ [m] } := by
  unfold add_mv at h
  split at h
  · cases h
  · rename_i hne
    injection h with h
    exact ⟨hne, h.symm⟩

theorem foldl_remove_chain_nbr (l : List Nat) (st : State) :
    l.foldl remove_chain_nbr st =
      st.bump (fun c => ((l.countP fun t => isStone (st.board t) ∧ st.current_chain t = c : Nat) : Int)) := by
  induction l generalizing st with
  | nil => simp [bump_zero]
  | cons t l ih =>
    rw [List.foldl_cons, ih]
    unfold remove_chain_nbr
    by_cases h : st.board t = WHITE ∨ st.board t = BLACK
    · rw [if_pos h, addLib_eq_bump, bump_bump]
      congr 1
      funext c
      simp only [bump_board, bump_cc, List.countP_cons]
      have hs : isStone (st.board t) := h
      by_cases hc : st.current_chain t = c
      · simp [hs, hc]; omega
      · have : ¬ c = st.current_chain t := fun e => hc e.symm
        simp [hc, this]
    · rw [if_neg h]
      congr 1
      funext c
      have hs : ¬ isStone (st.board t) := h
      simp [List.countP_cons, hs]


theorem add_move_ok {st r : State} {s : Nat} (h : add_move st s = .ok r) :
    st.mv.length ≠ st.mvlen ∧
    r = { st with
          counts := Function.update st.counts 0 (st.counts 0 + 1)
          last_change := Function.update st.last_change s st.mv.length
          mv := st.mv ++ [placeRec s (st.board s)] } := by
  unfold add_move at h
  obtain ⟨h1, h2⟩ := add_mv_ok h
  exact ⟨h1, h2⟩

theorem add_antimove_ok {st r : State} {s : Nat} (h : add_antimove st s = .ok r) :
    st.mv.length ≠ st.mvlen ∧ r = st.cap s := by
  unfold add_antimove at h
  obtain ⟨h1, h2⟩ := add_mv_ok h
  exact ⟨h1, h2⟩

theorem add_antimove_eq (st : State) (s : Nat) :
    add_antimove st s =
      if st.mv.length = st.mvlen then .error .played_game_array_overflow else .ok (st.cap s) := by
  rfl

theorem add_pass_ok {st r : State} {color : Int} (h : add_pass st color = .ok r) :
    st.mv.length ≠ st.mvlen ∧
    r = { st with
          counts := Function.update st.counts 0 (st.counts 0 + 1)
          mv := st.mv ++ [((color * 1024) % 65536).toNat ||| PG_PASS] } := by
  unfold add_pass at h
  obtain ⟨h1, h2⟩ := add_mv_ok h
  exact ⟨h1, h2⟩

theorem remove_stone_eq (st : State) (s : Nat) :
    remove_stone st s =
      if st.mv.length = st.mvlen then .error .played_game_array_overflow
      else .ok ((st.cap s).bump (fun c =>
        (((nbrs s).countP fun t => isStone ((st.cap s).board t) ∧ st.current_chain t = c : Nat) : Int))) := by
  unfold remove_stone
  rw [add_antimove_eq]
  split
  · rfl
  · have : (dirs.foldl (fun a d => remove_chain_nbr a (nbr s d)) (st.cap s))
        = (nbrs s).foldl remove_chain_nbr (st.cap s) := by
      rw [nbrs, List.foldl_map]
    simp only [Except.map, this, foldl_remove_chain_nbr]
    rfl

@[simp] theorem cap_chains (st : State) (s : Nat) : (st.cap s).chains = st.chains := rfl
@[simp] theorem cap_cc (st : State) (s : Nat) : (st.cap s).current_chain = st.current_chain := rfl
@[simp] theorem cap_chainct (st : State) (s : Nat) : (st.cap s).chainct = st.chainct := rfl
@[simp] theorem cap_sz (st : State) (s : Nat) : (st.cap s).sz = st.sz := rfl
@[simp] theorem cap_sz1 (st : State) (s : Nat) : (st.cap s).sz1 = st.sz1 := rfl
@[simp] theorem cap_mvlen (st : State) (s : Nat) : (st.cap s).mvlen = st.mvlen := rfl
@[simp] theorem cap_board (st : State) (s : Nat) :
    (st.cap s).board = Function.update st.board s EMPTY := rfl
@[simp] theorem cap_mv (st : State) (s : Nat) :
    (st.cap s).mv = st.mv ++ [captureRec s (st.board s)] := rfl
@[simp] theorem cap_lc (st : State) (s : Nat) :
    (st.cap s).last_change = Function.update st.last_change s st.mv.length := rfl
@[simp] theorem cap_counts (st : State) (s : Nat) :
    (st.cap s).counts = Function.update st.counts (st.board s) (st.counts (st.board s) + 1) := rfl

theorem cap_bump (st : State) (f : Nat → Int) (s : Nat) :
    (st.bump f).cap s = (st.cap s).bump f := rfl

theorem remF_bump (st : State) (f : Nat → Int) (l : List Nat) (c : Nat) :
    remF (st.bump f) l c = remF st l c := by
  induction l generalizing st with
  | nil => rfl
  | cons s l ih =>
    simp only [remF, cap_bump, ih, bump_board, bump_cc]

theorem foldl_cap_bump (st : State) (f : Nat → Int) (l : List Nat) :
    l.foldl State.cap (st.bump f) = (l.foldl State.cap st).bump f := by
  induction l generalizing st with
  | nil => rfl
  | cons s l ih => simp only [List.foldl_cons, cap_bump, ih]

@[simp] theorem foldl_cap_mv_length (st : State) (l : List Nat) :
    (l.foldl State.cap st).mv.length = st.mv.length + l.length := by
  induction l generalizing st with
  | nil => rfl
  | cons s l ih => simp only [List.foldl_cons, ih, cap_mv, List.length_append, List.length_cons, List.length_nil]; omega

@[simp] theorem foldl_cap_mvlen (st : State) (l : List Nat) :
    (l.foldl State.cap st).mvlen = st.mvlen := by
  induction l generalizing st with
  | nil => rfl
  | cons s l ih => simp only [List.foldl_cons, ih, cap_mvlen]

/-- The loop of `remove_chain` over a list of stones: it fails exactly when the log
gets full, and otherwise clears the stones and hands out liberties. -/
theorem foldlM_remove_stone (l : List Nat) (st : State) :
    l.foldlM remove_stone st =
      if st.mv.length ≤ st.mvlen ∧ st.mvlen < st.mv.length + l.length then
        .error .played_game_array_overflow
      else .ok ((l.foldl State.cap st).bump (remF st l)) := by
  induction l generalizing st with
  | nil =>
    simp only [List.foldlM_nil, List.length_nil, Nat.add_zero, List.foldl_nil]
    rw [if_neg (by omega)]
    simp only [remF, bump_zero]
    rfl
  | cons s l ih =>
    rw [List.foldlM_cons, remove_stone_eq]
    by_cases h : st.mv.length = st.mvlen
    · rw [if_pos h, if_pos (by simp only [List.length_cons]; omega)]
      rfl
    · rw [if_neg h]
      show (l.foldlM remove_stone _) = _
      rw [ih]
      simp only [bump_mv, cap_mv, List.length_append, List.length_cons, List.length_nil,
        bump_mvlen, cap_mvlen]
      by_cases h2 : st.mv.length ≤ st.mvlen ∧ st.mvlen < st.mv.length + (l.length + 1)
      · rw [if_pos h2, if_pos (by omega)]
      · rw [if_neg h2, if_neg (by omega)]
        congr 1
        rw [foldl_cap_bump, bump_bump]
        congr 1
        funext c
        rw [remF_bump]
        rfl

theorem remove_chain_aux (ch : Nat) (f : Nat → Nat) (l : List Nat) (st : State)
    (hf : (st.chains ch).stones = f) :
    l.foldlM (fun a j => remove_stone a ((a.chains ch).stones j)) st
      = (l.map f).foldlM remove_stone st := by
  induction l generalizing st with
  | nil => rfl
  | cons j l ih =>
    rw [List.map_cons, List.foldlM_cons, List.foldlM_cons, hf, remove_stone_eq]
    split
    · rfl
    · exact ih _ (by simpa using hf)

/-- The loop of `remove_chain` visits the stones of the chain as they are on entry. -/
theorem remove_chain_eq (st : State) (ch : Nat) :
    remove_chain st ch = (stonesOf (st.chains ch)).foldlM remove_stone st :=
  remove_chain_aux ch _ _ st rfl

theorem remove_chain_eq_ite (st : State) (ch : Nat) :
    remove_chain st ch =
      if st.mv.length ≤ st.mvlen ∧ st.mvlen < st.mv.length + (st.chains ch).sz then
        .error .played_game_array_overflow
      else .ok (((stonesOf (st.chains ch)).foldl State.cap st).bump
                  (remF st (stonesOf (st.chains ch)))) := by
  rw [remove_chain_eq, foldlM_remove_stone]
  simp [stonesOf]

/-- The state after `k` iterations of the loop of `merge_chains`. -/
theorem merge_loop (ch ch1 i : Nat) (hne : ch ≠ ch1) (st : State) (k : Nat) :
    (List.range k).foldl (merge_step ch ch1 i) st =
      { st with
        chains := Function.update st.chains ch
          ({ st.chains ch with
             stones := fun x => if i ≤ x ∧ x < i + k then (st.chains ch1).stones (x - i)
                                else (st.chains ch).stones x })
        current_chain := fun p =>
          if p ∈ (List.range k).map (st.chains ch1).stones then ch else st.current_chain p } := by
  induction k with
  | zero =>
    simp only [List.range_zero, List.foldl_nil, List.map_nil, List.not_mem_nil, if_false]
    have : (fun x => if i ≤ x ∧ x < i + 0 then (st.chains ch1).stones (x - i)
                                else (st.chains ch).stones x) = (st.chains ch).stones := by
      funext x; rw [if_neg (by omega)]
    rw [this]
    simp
  | succ k ih =>
    rw [List.range_succ, List.foldl_append, ih]
    simp only [List.foldl_cons, List.foldl_nil, merge_step]
    have h1 : (Function.update st.chains ch
          ({ st.chains ch with
             stones := fun x => if i ≤ x ∧ x < i + k then (st.chains ch1).stones (x - i)
                                else (st.chains ch).stones x }) ch1) = st.chains ch1 :=
      Function.update_noteq (Ne.symm hne) _ _
    simp only [h1, Function.update_same, Function.update_idem]
    congr 1
    · funext p
      by_cases hp : p = (st.chains ch1).stones k
      · subst hp; simp
      · rw [Function.update_noteq hp]
        simp only [List.map_append, List.map_cons, List.map_nil, List.mem_append,
          List.mem_singleton, hp, or_false]
    · have hst : Function.update
            (fun x => if i ≤ x ∧ x < i + k then (st.chains ch1).stones (x - i)
                      else (st.chains ch).stones x) (i + k) ((st.chains ch1).stones k)
          = fun x => if i ≤ x ∧ x < i + (k + 1) then (st.chains ch1).stones (x - i)
                      else (st.chains ch).stones x := by
        funext x
        by_cases hx : x = i + k
        · subst hx; simp
        · rw [Function.update_noteq hx]
          by_cases h2 : i ≤ x ∧ x < i + k
          · rw [if_pos h2, if_pos (by omega)]
          · rw [if_neg h2, if_neg (by omega)]
      rw [hst]

theorem merge_chains_eq (st : State) (ch ch1 : Nat) (hne : ch ≠ ch1) :
    merge_chains st ch ch1 = (st.merged ch ch1, ch) := by
  unfold merge_chains
  simp only [addLib_eq_bump, bump_chain_sz]
  rw [merge_loop ch ch1 _ hne]
  simp only [State.merged, bump_chain_stones, bump_chain_sz, stonesOf]
  congr 1
  simp only [Function.update_same, Function.update_idem]
  simp only [State.bump]
  congr 1
  funext c
  by_cases hc : c = ch
  · subst hc; simp
  · simp [hc]

@[simp] theorem merged_board (st : State) (ch ch1 : Nat) : (st.merged ch ch1).board = st.board := rfl
@[simp] theorem merged_mv (st : State) (ch ch1 : Nat) : (st.merged ch ch1).mv = st.mv := rfl
@[simp] theorem merged_lc (st : State) (ch ch1 : Nat) :
    (st.merged ch ch1).last_change = st.last_change := rfl
@[simp] theorem merged_counts (st : State) (ch ch1 : Nat) :
    (st.merged ch ch1).counts = st.counts := rfl
@[simp] theorem merged_chainct (st : State) (ch ch1 : Nat) :
    (st.merged ch ch1).chainct = st.chainct := rfl
@[simp] theorem merged_sz (st : State) (ch ch1 : Nat) : (st.merged ch ch1).sz = st.sz := rfl
@[simp] theorem merged_sz1 (st : State) (ch ch1 : Nat) : (st.merged ch ch1).sz1 = st.sz1 := rfl
@[simp] theorem merged_mvlen (st : State) (ch ch1 : Nat) :
    (st.merged ch ch1).mvlen = st.mvlen := rfl
theorem merged_cc (st : State) (ch ch1 p : Nat) :
    (st.merged ch ch1).current_chain p =
      if p ∈ stonesOf (st.chains ch1) then ch else st.current_chain p := rfl
theorem merged_chain_ne (st : State) {ch ch1 c : Nat} (h : c ≠ ch) :
    (st.merged ch ch1).chains c = st.chains c := by
  simp [State.merged, h]
theorem merged_chain_lib (st : State) (ch ch1 : Nat) :
    ((st.merged ch ch1).chains ch).liberties
      = (st.chains ch).liberties + (st.chains ch1).liberties := by
  simp [State.merged]
theorem merged_chain_sz (st : State) (ch ch1 : Nat) :
    ((st.merged ch ch1).chains ch).sz = (st.chains ch).sz + (st.chains ch1).sz := by
  simp [State.merged]

theorem merged_stonesOf (st : State) (ch ch1 : Nat) :
    stonesOf ((st.merged ch ch1).chains ch)
      = stonesOf (st.chains ch) ++ stonesOf (st.chains ch1) := by
  simp only [State.merged, stonesOf, Function.update_same]
  rw [List.range_add, List.map_append, List.map_map]
  congr 1
  · apply List.map_congr_left
    intro x hx
    have := List.mem_range.mp hx
    rw [if_neg (by omega)]
  · apply List.map_congr_left
    intro x hx
    have := List.mem_range.mp hx
    simp only [Function.comp]
    rw [if_pos (by omega)]
    congr 1
    omega

end Playgogame

namespace Playgogame

/-! ## The invariant through the neighbour loop of `do_move` -/

theorem onBoard_ge {n : Int} {p : Nat} (h : onBoard n p) : 33 ≤ p := by
  unfold onBoard at h; omega

theorem onBoard_le {n : Int} {p : Nat} (h : onBoard n p) (hn : n ≤ 19) : p ≤ 627 := by
  unfold onBoard at h; omega

theorem isStone_ne_empty {v : Nat} (h : isStone v) : v ≠ EMPTY := by
  unfold isStone WHITE BLACK at h; unfold EMPTY; omega

theorem isStone_ne_border {v : Nat} (h : isStone v) : v ≠ BORDER := by
  unfold isStone WHITE BLACK at h; unfold BORDER; omega

theorem not_isStone_empty : ¬ isStone EMPTY := fun h => isStone_ne_empty h rfl

theorem not_isStone_border : ¬ isStone BORDER := fun h => isStone_ne_border h rfl

theorem BoardOk.ge {st : State} (h : BoardOk st) {p : Nat} (hp : isStone (st.board p)) :
    33 ≤ p := onBoard_ge (h.stone_on p hp)

/-- A neighbour of a point of the board holds `EMPTY`, a stone or `BORDER`. -/
theorem BoardOk.nbr_cases {st : State} (h : BoardOk st) {p t : Nat} (hp : onBoard st.sz p)
    (ht : t ∈ nbrs p) : st.board t = EMPTY ∨ isStone (st.board t) ∨ st.board t = BORDER := by
  by_cases hb : onBoard st.sz t
  · rcases h.cell t hb with h1 | h1
    · exact Or.inl h1
    · exact Or.inr (Or.inl h1)
  · exact Or.inr (Or.inr (h.border p hp t ht hb))

theorem ChainOk.stone {st : State} (h : ChainOk st) {p q : Nat} (hp : isStone (st.board p))
    (hq : q ∈ chainAt st p) : isStone (st.board q) := by
  rw [(h.own p hp q hq).1]; exact hp

theorem ChainOk.chainAt_eq {st : State} (h : ChainOk st) {p q : Nat}
    (hp : isStone (st.board p)) (hq : q ∈ chainAt st p) : chainAt st q = chainAt st p := by
  unfold chainAt; rw [(h.own p hp q hq).2]

/-- For stones, being listed in the chain of `p` is being owned by the same chain. -/
theorem ChainOk.mem_iff {st : State} (h : ChainOk st) {p q : Nat} (hp : isStone (st.board p))
    (hq : isStone (st.board q)) :
    q ∈ chainAt st p ↔ st.current_chain q = st.current_chain p := by
  constructor
  · intro hm; exact (h.own p hp q hm).2
  · intro he
    have := h.mem q hq
    unfold chainAt at this ⊢
    rwa [he] at this

theorem ChainOk.not_mem_of_not_stone {st : State} (h : ChainOk st) {p t : Nat}
    (hp : isStone (st.board p)) (ht : ¬ isStone (st.board t)) : t ∉ chainAt st p :=
  fun hm => ht (h.stone hp hm)

theorem BoardOk.board_of_eq {st r : State} (h : BoardOk st) (h1 : r.sz = st.sz) (h2 : r.sz1 = st.sz1)
    (h3 : r.board = st.board) : BoardOk r := by
  constructor
  · rw [h1]; exact h.sz_le
  · rw [h1, h2]; exact h.sz1_eq
  · rw [h1, h3]; exact h.border
  · rw [h1, h3]; exact h.stone_on
  · rw [h1, h3]; exact h.cell

theorem chainAt_bump (st : State) (f : Nat → Int) (p : Nat) :
    chainAt (st.bump f) p = chainAt st p := rfl

theorem ChainOk.chain_bump {st : State} (h : ChainOk st) (f : Nat → Int) : ChainOk (st.bump f) := by
  constructor
  · exact h.cc_lt
  · exact h.mem
  · exact h.own
  · exact h.nodup

theorem BoardOk.board_bump {st : State} (h : BoardOk st) (f : Nat → Int) : BoardOk (st.bump f) :=
  h.board_of_eq rfl rfl rfl

theorem AdjOk.mono {st : State} {xy t0 : Nat} {rest : List Nat} (h : AdjOk st xy (t0 :: rest))
    (h0 : isStone (st.board xy) → st.board t0 = st.board xy →
      st.current_chain t0 = st.current_chain xy) : AdjOk st xy rest := by
  intro p hp t ht hb
  rcases h p hp t ht hb with h1 | ⟨h1, h2⟩ | ⟨h1, h2⟩
  · exact Or.inl h1
  · rcases List.mem_cons.mp h2 with h3 | h3
    · subst h1; subst h3
      exact Or.inl (h0 hp hb)
    · exact Or.inr (Or.inl ⟨h1, h3⟩)
  · rcases List.mem_cons.mp h2 with h3 | h3
    · subst h1; subst h3
      have hx : isStone (st.board t) := by rw [hb]; exact hp
      exact Or.inl (h0 hx hb.symm).symm
    · exact Or.inr (Or.inr ⟨h1, h3⟩)

/-- Scanning an empty neighbour: `cp->liberties++`. -/
theorem Wf.step_empty {st : State} {xy t0 : Nat} {rest : List Nat}
    (h : Wf st xy (t0 :: rest)) (hxy : isStone (st.board xy)) (h0 : st.board t0 = EMPTY) :
    Wf (st.addLib (st.current_chain xy) 1) xy rest := by
  rw [addLib_eq_bump]
  refine ⟨h.board.board_bump _, h.chain.chain_bump _, ?_, ?_⟩
  · intro p hp
    have hl := h.lib p hp
    have hp' : isStone (st.board p) := hp
    have hmem : xy ∈ chainAt st p ↔ st.current_chain xy = st.current_chain p :=
      h.chain.mem_iff hp' hxy
    have ht0 : t0 ∉ chainAt st p :=
      h.chain.not_mem_of_not_stone hp' (by rw [h0]; exact not_isStone_empty)
    simp only [bump_chain_lib, bump_board, bump_cc, chainAt_bump]
    simp only [List.countP_cons, h0, ht0, decide_True, decide_False, if_true] at hl
    by_cases hc : st.current_chain xy = st.current_chain p
    · have hm := hmem.mpr hc
      simp only [hm, if_true] at hl ⊢
      rw [if_pos hc.symm]
      push_cast at hl ⊢
      omega
    · have hm : xy ∉ chainAt st p := fun hm => hc (hmem.mp hm)
      simp only [hm, if_false] at hl ⊢
      rw [if_neg (fun e => hc e.symm)]
      push_cast at hl ⊢
      omega
  · apply @AdjOk.mono _ _ t0
    · exact h.adj
    · intro hx hb
      exfalso
      have hx' : isStone (st.board xy) := hx
      have hb' : st.board t0 = st.board xy := hb
      rw [h0] at hb'
      rw [← hb'] at hx'
      exact not_isStone_empty hx'

theorem countP_cons_cast (P : Nat → Prop) [DecidablePred P] (a : Nat) (l : List Nat) :
    (((a :: l).countP fun t => P t : Nat) : Int)
      = ((l.countP fun t => P t : Nat) : Int) + (if P a then 1 else 0) := by
  rw [List.countP_cons]
  by_cases h : P a
  · simp [h]
  · simp [h]

/-- Scanning a neighbour that is neither empty nor a stone. -/
theorem Wf.step_border {st : State} {xy t0 : Nat} {rest : List Nat}
    (h : Wf st xy (t0 :: rest)) (h0 : st.board t0 ≠ EMPTY) (h1 : ¬ isStone (st.board t0)) :
    Wf st xy rest := by
  refine ⟨h.board, h.chain, ?_, ?_⟩
  · intro p hp
    have hl := h.lib p hp
    have ht0 : t0 ∉ chainAt st p := h.chain.not_mem_of_not_stone hp h1
    rw [countP_cons_cast, countP_cons_cast, if_neg h0, if_neg ht0] at hl
    simpa using hl
  · apply @AdjOk.mono _ _ t0
    · exact h.adj
    · intro hx hb
      exfalso
      rw [hb] at h1
      exact h1 hx

/-- Scanning a neighbour that holds a stone: `--(cp2->liberties)`. -/
theorem Wf.step_dec {st : State} {xy t0 : Nat} {rest : List Nat}
    (h : Wf st xy (t0 :: rest)) (h1 : isStone (st.board t0))
    (hs : st.board t0 = st.board xy → st.current_chain t0 = st.current_chain xy) :
    Wf (st.addLib (st.current_chain t0) (-1)) xy rest := by
  rw [addLib_eq_bump]
  refine ⟨h.board.board_bump _, h.chain.chain_bump _, ?_, ?_⟩
  · intro p hp
    have hp' : isStone (st.board p) := hp
    have hl := h.lib p hp'
    have hmem := h.chain.mem_iff hp' h1
    simp only [bump_chain_lib, bump_board, bump_cc, chainAt_bump]
    rw [countP_cons_cast, countP_cons_cast, if_neg (isStone_ne_empty h1)] at hl
    by_cases hc : st.current_chain t0 = st.current_chain p
    · rw [if_pos (hmem.mpr hc)] at hl
      rw [if_pos hc.symm]
      by_cases hx : xy ∈ chainAt st p <;> simp only [hx, if_true, if_false] at hl ⊢ <;> omega
    · rw [if_neg (fun hm => hc (hmem.mp hm))] at hl
      rw [if_neg (fun e => hc e.symm)]
      by_cases hx : xy ∈ chainAt st p <;> simp only [hx, if_true, if_false] at hl ⊢ <;> omega
  · apply @AdjOk.mono _ _ t0
    · exact h.adj
    · intro _ hb
      exact hs hb

theorem countP_mem_append_disjoint {l1 l2 : List Nat} (hd : ∀ q, q ∈ l1 → q ∉ l2)
    (l : List Nat) :
    l.countP (fun t => t ∈ l1 ++ l2) = l.countP (fun t => t ∈ l1) + l.countP (fun t => t ∈ l2) := by
  induction l with
  | nil => rfl
  | cons a l ih =>
    rw [List.countP_cons, List.countP_cons, List.countP_cons, ih]
    by_cases h1 : a ∈ l1
    · have h2 : a ∉ l2 := hd a h1
      simp [h1, h2]; omega
    · by_cases h2 : a ∈ l2
      · simp [h1, h2]; omega
      · simp [h1, h2]

/-- The ownership map after a merge, on stones. -/
theorem merged_cc_stone {st : State} (hc : ChainOk st) {xy : Nat} (hxy : isStone (st.board xy))
    (k : Int) (c2 : Nat) {p : Nat} (hp : isStone (st.board p)) :
    ((st.addLib c2 k).merged c2 (st.current_chain xy)).current_chain p
      = if st.current_chain p = st.current_chain xy then c2 else st.current_chain p := by
  rw [merged_cc, addLib_eq_bump, bump_stonesOf, bump_cc]
  have := hc.mem_iff hxy hp
  unfold chainAt at this
  by_cases h : st.current_chain p = st.current_chain xy
  · rw [if_pos (this.mpr h), if_pos h]
  · rw [if_neg (fun hm => h (this.mp hm)), if_neg h]

/-- Scanning a neighbour of the mover's colour owned by another chain: the chain of
the new stone is merged into it. -/
theorem Wf.wf_step_merge {st : State} {xy t0 : Nat} {rest : List Nat}
    (h : Wf st xy (t0 :: rest)) (hxy : isStone (st.board xy)) (hb : st.board t0 = st.board xy)
    (hne : st.current_chain t0 ≠ st.current_chain xy) :
    Wf ((st.addLib (st.current_chain t0) (-1)).merged (st.current_chain t0)
        (st.current_chain xy)) xy rest := by
  have ht0 : isStone (st.board t0) := by rw [hb]; exact hxy
  have hcc := fun {p : Nat} (hp : isStone (st.board p)) =>
    merged_cc_stone h.chain hxy (-1) (st.current_chain t0) hp
  -- the stones of the chain that owns `p` after the merge
  have hS : ∀ p, isStone (st.board p) →
      chainAt ((st.addLib (st.current_chain t0) (-1)).merged (st.current_chain t0)
        (st.current_chain xy)) p
      = if st.current_chain p = st.current_chain xy ∨ st.current_chain p = st.current_chain t0
        then chainAt st t0 ++ chainAt st xy else chainAt st p := by
    intro p hp
    unfold chainAt
    rw [hcc hp]
    by_cases h1 : st.current_chain p = st.current_chain xy
    · rw [if_pos h1, if_pos (Or.inl h1), merged_stonesOf, addLib_eq_bump]; rfl
    · rw [if_neg h1]
      by_cases h2 : st.current_chain p = st.current_chain t0
      · rw [if_pos (Or.inr h2), h2, merged_stonesOf, addLib_eq_bump]; rfl
      · rw [if_neg (by tauto), merged_chain_ne _ h2, addLib_eq_bump]; rfl
  have hdisj : ∀ q, q ∈ chainAt st t0 → q ∉ chainAt st xy := by
    intro q h1 h2
    have e1 := (h.chain.own t0 ht0 q h1).2
    have e2 := (h.chain.own xy hxy q h2).2
    exact hne (e1.symm.trans e2)
  refine ⟨h.board.board_of_eq rfl rfl rfl, ?_, ?_, ?_⟩
  · constructor
    · intro p hp
      have hp' : isStone (st.board p) := hp
      rw [hcc hp']
      split
      · exact h.chain.cc_lt t0 ht0
      · exact h.chain.cc_lt p hp'
    · intro p hp
      have hp' : isStone (st.board p) := hp
      rw [hS p hp']
      split
      · rename_i hc
        rcases hc with hc | hc
        · exact List.mem_append_right _ ((h.chain.mem_iff hxy hp').mpr hc)
        · exact List.mem_append_left _ ((h.chain.mem_iff ht0 hp').mpr hc)
      · exact h.chain.mem p hp'
    · intro p hp q hq
      have hp' : isStone (st.board p) := hp
      rw [hS p hp'] at hq
      simp only [merged_board]
      rw [addLib_eq_bump, bump_board]
      split at hq
      · rename_i hc
        have hq' : isStone (st.board q) := by
          rcases List.mem_append.mp hq with h1 | h1
          · exact h.chain.stone ht0 h1
          · exact h.chain.stone hxy h1
        have hbp : st.board p = st.board xy := by
          rcases hc with hc | hc
          · exact (h.chain.own xy hxy p ((h.chain.mem_iff hxy hp').mpr hc)).1
          · rw [← hb]; exact (h.chain.own t0 ht0 p ((h.chain.mem_iff ht0 hp').mpr hc)).1
        have hq2 : st.current_chain q = st.current_chain xy ∨
            st.current_chain q = st.current_chain t0 := by
          rcases List.mem_append.mp hq with h1 | h1
          · exact Or.inr (h.chain.own t0 ht0 q h1).2
          · exact Or.inl (h.chain.own xy hxy q h1).2
        have hbq : st.board q = st.board xy := by
          rcases List.mem_append.mp hq with h1 | h1
          · rw [← hb]; exact (h.chain.own t0 ht0 q h1).1
          · exact (h.chain.own xy hxy q h1).1
        refine ⟨hbq.trans hbp.symm, ?_⟩
        rw [← addLib_eq_bump, hcc hp', hcc hq']
        rcases hc with hc | hc <;> rcases hq2 with hq2 | hq2 <;>
          simp [hc, hq2, hne, Ne.symm hne]
      · rename_i hc
        have := h.chain.own p hp' q hq
        refine ⟨this.1, ?_⟩
        have hq' : isStone (st.board q) := h.chain.stone hp' hq
        rw [← addLib_eq_bump, hcc hp', hcc hq', this.2]
    · intro p hp
      have hp' : isStone (st.board p) := hp
      rw [hS p hp']
      split
      · exact List.Nodup.append (h.chain.nodup t0 ht0) (h.chain.nodup xy hxy)
          (fun q h1 h2 => hdisj q h1 h2)
      · exact h.chain.nodup p hp'
  · intro p hp
    have hp' : isStone (st.board p) := hp
    rw [hS p hp', hcc hp']
    simp only [merged_board]
    rw [addLib_eq_bump]
    simp only [bump_board]
    have hl2 := h.lib t0 ht0
    have hlx := h.lib xy hxy
    rw [countP_cons_cast, countP_cons_cast, if_neg (isStone_ne_empty ht0)] at hl2 hlx
    rw [if_pos (h.chain.mem t0 ht0), if_neg (fun hm => hdisj xy hm (h.chain.mem xy hxy))] at hl2
    rw [if_pos (h.chain.mem xy hxy), if_neg (hdisj t0 (h.chain.mem t0 ht0))] at hlx
    by_cases hc : st.current_chain p = st.current_chain xy ∨
        st.current_chain p = st.current_chain t0
    · rw [if_pos hc]
      have e : (if st.current_chain p = st.current_chain xy then st.current_chain t0
          else st.current_chain p) = st.current_chain t0 := by
        rcases hc with hc | hc
        · rw [if_pos hc]
        · by_cases h3 : st.current_chain p = st.current_chain xy
          · rw [if_pos h3]
          · rw [if_neg h3, hc]
      rw [e, merged_chain_lib, if_pos (List.mem_append_right _ (h.chain.mem xy hxy)),
        libs_append, countP_mem_append_disjoint hdisj]
      simp only [bump_chain_lib, if_true, if_neg (Ne.symm hne)]
      push_cast
      omega
    · rw [if_neg hc]
      have h1 : ¬ st.current_chain p = st.current_chain xy := fun e => hc (Or.inl e)
      have h2 : ¬ st.current_chain p = st.current_chain t0 := fun e => hc (Or.inr e)
      rw [if_neg h1, merged_chain_ne _ h2]
      simp only [bump_chain_lib, if_neg h2]
      have hl := h.lib p hp'
      rw [countP_cons_cast, countP_cons_cast, if_neg (isStone_ne_empty ht0)] at hl
      have hm0 : t0 ∉ chainAt st p := fun hm => h2 ((h.chain.mem_iff hp' ht0).mp hm).symm
      rw [if_neg hm0] at hl
      simpa using hl
  · intro p hp t ht hbt
    have hp' : isStone (st.board p) := hp
    have ht' : isStone (st.board t) := by
      have : st.board t = st.board p := hbt
      rw [this]; exact hp'
    rw [hcc hp', hcc ht']
    rcases h.adj p hp' t ht hbt with h1 | ⟨h1, h2⟩ | ⟨h1, h2⟩
    · left; rw [h1]
    · rcases List.mem_cons.mp h2 with h3 | h3
      · left; subst h1; subst h3
        simp [hne]
      · exact Or.inr (Or.inl ⟨h1, h3⟩)
    · rcases List.mem_cons.mp h2 with h3 | h3
      · left; subst h1; subst h3
        simp [hne]
      · exact Or.inr (Or.inr ⟨h1, h3⟩)

@[simp] theorem foldl_cap_chains (st : State) (l : List Nat) :
    (l.foldl State.cap st).chains = st.chains := by
  induction l generalizing st with
  | nil => rfl
  | cons s l ih => simp only [List.foldl_cons, ih, cap_chains]

@[simp] theorem foldl_cap_cc (st : State) (l : List Nat) :
    (l.foldl State.cap st).current_chain = st.current_chain := by
  induction l generalizing st with
  | nil => rfl
  | cons s l ih => simp only [List.foldl_cons, ih, cap_cc]

@[simp] theorem foldl_cap_chainct (st : State) (l : List Nat) :
    (l.foldl State.cap st).chainct = st.chainct := by
  induction l generalizing st with
  | nil => rfl
  | cons s l ih => simp only [List.foldl_cons, ih, cap_chainct]

@[simp] theorem foldl_cap_sz (st : State) (l : List Nat) :
    (l.foldl State.cap st).sz = st.sz := by
  induction l generalizing st with
  | nil => rfl
  | cons s l ih => simp only [List.foldl_cons, ih, cap_sz]

@[simp] theorem foldl_cap_sz1 (st : State) (l : List Nat) :
    (l.foldl State.cap st).sz1 = st.sz1 := by
  induction l generalizing st with
  | nil => rfl
  | cons s l ih => simp only [List.foldl_cons, ih, cap_sz1]

theorem foldl_cap_board (st : State) (l : List Nat) (p : Nat) :
    (l.foldl State.cap st).board p = if p ∈ l then EMPTY else st.board p := by
  induction l generalizing st with
  | nil => simp
  | cons s l ih =>
    rw [List.foldl_cons, ih, cap_board]
    by_cases h1 : p ∈ l
    · simp [h1]
    · by_cases h2 : p = s
      · subst h2; simp [h1]
      · simp [h1, h2, Function.update_noteq h2]

theorem libs_foldl_cap (L : List Nat) (hL : ∀ q ∈ L, 32 ≤ q) (l : List Nat) (st : State)
    (hn : l.Nodup) (hs : ∀ s ∈ l, st.board s ≠ EMPTY) :
    libs (l.foldl State.cap st).board L
      = libs st.board L + (l.map fun s => L.countP fun q => s ∈ nbrs q).sum := by
  induction l generalizing st with
  | nil => simp
  | cons s l ih =>
    have hn' := List.nodup_cons.mp hn
    rw [List.foldl_cons, ih _ hn'.2, cap_board,
      libs_update_clear (hs s (List.mem_cons_self _ _)) hL, List.map_cons, List.sum_cons]
    · omega
    · intro s1 hs1
      have : s1 ≠ s := fun e => hn'.1 (e ▸ hs1)
      rw [cap_board, Function.update_noteq this]
      exact hs s1 (List.mem_cons_of_mem _ hs1)

theorem remF_eq (c : Nat) (l : List Nat) (st : State) (hc : ∀ s ∈ l, st.current_chain s ≠ c) :
    remF st l c
      = (((l.map fun s => (nbrs s).countP fun t =>
          isStone (st.board t) ∧ st.current_chain t = c).sum : Nat) : Int) := by
  induction l generalizing st with
  | nil => simp [remF]
  | cons s l ih =>
    rw [remF, ih (st.cap s) (fun s1 hs1 => hc s1 (List.mem_cons_of_mem _ hs1)), List.map_cons,
      List.sum_cons]
    have hs := hc s (List.mem_cons_self _ _)
    have e : ∀ t, (isStone ((st.cap s).board t) ∧ st.current_chain t = c)
        ↔ (isStone (st.board t) ∧ st.current_chain t = c) := by
      intro t
      by_cases ht : t = s
      · subst ht
        constructor
        · intro h; exact absurd h.2 hs
        · intro h; exact absurd h.2 hs
      · rw [cap_board, Function.update_noteq ht]
    simp only [cap_cc, e]
    push_cast
    rfl

theorem captured_board (st : State) (t0 p : Nat) :
    (st.captured t0).board p = if p ∈ chainAt st t0 then EMPTY else st.board p := by
  unfold State.captured
  rw [bump_board, foldl_cap_board, addLib_eq_bump, bump_board]

@[simp] theorem captured_cc (st : State) (t0 : Nat) :
    (st.captured t0).current_chain = st.current_chain := by
  unfold State.captured
  rw [bump_cc, foldl_cap_cc, addLib_eq_bump, bump_cc]

@[simp] theorem captured_chainct (st : State) (t0 : Nat) :
    (st.captured t0).chainct = st.chainct := by
  unfold State.captured
  rw [bump_chainct, foldl_cap_chainct, addLib_eq_bump, bump_chainct]

@[simp] theorem captured_sz (st : State) (t0 : Nat) : (st.captured t0).sz = st.sz := by
  unfold State.captured
  rw [bump_sz, foldl_cap_sz, addLib_eq_bump, bump_sz]

@[simp] theorem captured_sz1 (st : State) (t0 : Nat) : (st.captured t0).sz1 = st.sz1 := by
  unfold State.captured
  rw [bump_sz1, foldl_cap_sz1, addLib_eq_bump, bump_sz1]

@[simp] theorem captured_stonesOf (st : State) (t0 c : Nat) :
    stonesOf ((st.captured t0).chains c) = stonesOf (st.chains c) := by
  unfold State.captured
  rw [bump_stonesOf, foldl_cap_chains, addLib_eq_bump, bump_stonesOf]

@[simp] theorem captured_chainAt (st : State) (t0 p : Nat) :
    chainAt (st.captured t0) p = chainAt st p := by
  unfold chainAt
  rw [captured_stonesOf, captured_cc]

theorem captured_lib (st : State) (t0 c : Nat) (hc : c ≠ st.current_chain t0)
    (h2 : ∀ s ∈ chainAt st t0, st.current_chain s = st.current_chain t0) :
    ((st.captured t0).chains c).liberties
      = (st.chains c).liberties
        + ((((chainAt st t0).map fun s => (nbrs s).countP fun t =>
            isStone (st.board t) ∧ st.current_chain t = c).sum : Nat) : Int) := by
  unfold State.captured
  rw [bump_chain_lib, foldl_cap_chains, remF_eq, addLib_eq_bump]
  · simp only [bump_chain_lib, bump_board, bump_cc, if_neg hc, add_zero]
  · intro s hs
    rw [addLib_eq_bump, bump_cc, h2 s hs]
    exact Ne.symm hc

/-- Scanning an opposing neighbour whose chain is left without liberties: the chain
is taken from the board. -/
theorem Wf.wf_step_capture {st : State} {xy t0 : Nat} {rest : List Nat}
    (h : Wf st xy (t0 :: rest)) (ht0 : isStone (st.board t0))
    (hb : st.board t0 ≠ st.board xy)
    (hll : (st.chains (st.current_chain t0)).liberties - 1 = 0) :
    Wf (st.captured t0) xy rest := by
  -- the chain has no empty neighbour and no stone in `rest`
  have hx2 : xy ∉ chainAt st t0 := fun hm => hb (h.chain.own t0 ht0 xy hm).1.symm
  have hl2 := h.lib t0 ht0
  rw [if_neg hx2, countP_cons_cast, if_pos (h.chain.mem t0 ht0)] at hl2
  have hrest0 : (rest.countP fun t => t ∈ chainAt st t0) = 0 := by omega
  have hrest : ∀ t ∈ rest, t ∉ chainAt st t0 := by
    intro t ht hm
    have : 0 < rest.countP fun t => t ∈ chainAt st t0 :=
      List.countP_pos_iff.mpr ⟨t, ht, decide_eq_true hm⟩
    omega
  have hown2 : ∀ s ∈ chainAt st t0, st.current_chain s = st.current_chain t0 :=
    fun s hs => (h.chain.own t0 ht0 s hs).2
  have hst : ∀ p, isStone ((st.captured t0).board p) →
      isStone (st.board p) ∧ p ∉ chainAt st t0 ∧ st.current_chain p ≠ st.current_chain t0 := by
    intro p hp
    rw [captured_board] at hp
    by_cases hm : p ∈ chainAt st t0
    · rw [if_pos hm] at hp; exact absurd hp not_isStone_empty
    · rw [if_neg hm] at hp
      exact ⟨hp, hm, fun e => hm ((h.chain.mem_iff ht0 hp).mpr e)⟩
  have hbq : ∀ p, isStone (st.board p) → st.current_chain p ≠ st.current_chain t0 →
      ∀ q ∈ chainAt st p, (st.captured t0).board q = st.board q := by
    intro p hp hc q hq
    rw [captured_board, if_neg]
    intro hm
    exact hc ((h.chain.own p hp q hq).2.symm.trans (hown2 q hm))
  refine ⟨?_, ?_, ?_, ?_⟩
  · constructor
    · rw [captured_sz]; exact h.board.sz_le
    · rw [captured_sz, captured_sz1]; exact h.board.sz1_eq
    · intro p hp t ht hnt
      rw [captured_sz] at hp hnt
      rw [captured_board, if_neg, h.board.border p hp t ht hnt]
      intro hm
      exact hnt (h.board.stone_on t (h.chain.stone ht0 hm))
    · intro p hp
      rw [captured_sz]
      exact h.board.stone_on p (hst p hp).1
    · intro p hp
      rw [captured_sz] at hp
      rw [captured_board]
      split
      · exact Or.inl rfl
      · exact h.board.cell p hp
  · constructor
    · intro p hp
      rw [captured_cc, captured_chainct]
      exact h.chain.cc_lt p (hst p hp).1
    · intro p hp
      rw [captured_chainAt]
      exact h.chain.mem p (hst p hp).1
    · intro p hp q hq
      rw [captured_chainAt] at hq
      obtain ⟨h1, h2, h3⟩ := hst p hp
      rw [captured_cc, hbq p h1 h3 q hq, hbq p h1 h3 p (h.chain.mem p h1)]
      exact h.chain.own p h1 q hq
    · intro p hp
      rw [captured_chainAt]
      exact h.chain.nodup p (hst p hp).1
  · intro p hp
    obtain ⟨h1, h2, h3⟩ := hst p hp
    have hl := h.lib p h1
    rw [countP_cons_cast, countP_cons_cast, if_neg (isStone_ne_empty ht0)] at hl
    have hm0 : t0 ∉ chainAt st p := fun hm => h3 ((h.chain.mem_iff h1 ht0).mp hm).symm
    rw [if_neg hm0] at hl
    rw [captured_chainAt, captured_cc, captured_lib st t0 _ h3 hown2]
    -- the empty cells of `rest` are the same
    have e1 : (rest.countP fun t => (st.captured t0).board t = EMPTY)
        = rest.countP fun t => st.board t = EMPTY := by
      apply List.countP_congr
      intro t ht
      rw [captured_board, if_neg (hrest t ht)]
    -- the free slots gained by the chain of `p`
    have h33 : ∀ q ∈ chainAt st p, 33 ≤ q := fun q hq => h.board.ge (h.chain.stone h1 hq)
    have e2 : libs (st.captured t0).board (chainAt st p)
        = libs st.board (chainAt st p)
          + ((chainAt st t0).map fun s => (chainAt st p).countP fun q => s ∈ nbrs q).sum := by
      have : (st.captured t0).board
          = ((chainAt st t0).foldl State.cap (st.addLib (st.current_chain t0) (-1))).board := by
        unfold State.captured; rw [bump_board]
      rw [this, libs_foldl_cap _ (fun q hq => by have := h33 q hq; omega) _ _ (h.chain.nodup t0 ht0)]
      · rw [addLib_eq_bump, bump_board]
      · intro s hs
        rw [addLib_eq_bump, bump_board]
        exact isStone_ne_empty (h.chain.stone ht0 hs)
    have e3 : ((chainAt st t0).map fun s => (nbrs s).countP fun t =>
          isStone (st.board t) ∧ st.current_chain t = st.current_chain p)
        = (chainAt st t0).map fun s => (chainAt st p).countP fun q => s ∈ nbrs q := by
      apply List.map_congr_left
      intro s hs
      rw [countP_nbrs_symm (h.chain.nodup p h1) h33 (h.board.ge (h.chain.stone ht0 hs))]
      apply List.countP_congr
      intro t _
      simp only [decide_eq_true_eq]
      constructor
      · intro ⟨a, b⟩; exact (h.chain.mem_iff h1 a).mpr b
      · intro hm; exact ⟨h.chain.stone h1 hm, (h.chain.own p h1 t hm).2⟩
    rw [e1, e2, e3]
    push_cast
    by_cases hx : xy ∈ chainAt st p <;> simp only [hx, if_true, if_false] at hl ⊢ <;> omega
  · intro p hp t ht hbt
    obtain ⟨h1, h2, h3⟩ := hst p hp
    have hpt : isStone ((st.captured t0).board t) := by rw [hbt]; exact hp
    obtain ⟨g1, g2, g3⟩ := hst t hpt
    rw [captured_board, captured_board, if_neg h2, if_neg g2] at hbt
    rw [captured_cc]
    rcases h.adj p h1 t ht hbt with a | ⟨a, b⟩ | ⟨a, b⟩
    · exact Or.inl a
    · rcases List.mem_cons.mp b with b | b
      · subst b; exact absurd (h.chain.mem t ht0) g2
      · exact Or.inr (Or.inl ⟨a, b⟩)
    · rcases List.mem_cons.mp b with b | b
      · subst b; exact absurd (h.chain.mem p ht0) h2
      · exact Or.inr (Or.inr ⟨a, b⟩)

theorem check_retake_in_ko_error {st : State} {movenr : Int} {e : Err}
    (h : check_retake_in_ko st movenr = .error e) : e = .illegal_ko_recapture movenr := by
  unfold check_retake_in_ko at h
  split at h
  · cases h
  · simp only at h
    split at h
    · cases h
    · split at h
      · injection h with h; exact h.symm
      · cases h

theorem check_retake_in_ko_cases (st : State) (movenr : Int) :
    check_retake_in_ko st movenr = .ok () ∨
    check_retake_in_ko st movenr = .error (.illegal_ko_recapture movenr) := by
  cases h : check_retake_in_ko st movenr with
  | ok u => exact Or.inl rfl
  | error e => rw [check_retake_in_ko_error h]; exact Or.inr rfl

/-- The colour test `nbr == other_color` of `do_move` on a stone. -/
theorem other_color_iff {color : Int} (hcol : color = 1 ∨ color = 2) {v : Nat}
    (hv : isStone v) :
    ((v : Int) = (BLACK : Int) + (WHITE : Int) - color) ↔ v ≠ color.toNat := by
  unfold isStone WHITE BLACK at hv
  unfold BLACK WHITE
  rcases hcol with h | h <;> rcases hv with h1 | h1 <;> subst h <;> subst h1 <;> simp

/-- What an iteration of the neighbour loop does when it does not fail. -/
theorem do_move_nbr_ok {color : Int} (hcol : color = 1 ∨ color = 2) {st : State} {xy : Nat}
    {pending : List Nat} (hw : Wf st xy pending) (hon : onBoard st.sz xy)
    (hxy : st.board xy = color.toNat) {d : Int} (hd : d ∈ dirs) {movenr : Int}
    {r : State × Nat}
    (h : do_move_nbr color xy movenr (st, st.current_chain xy) d = .ok r) :
    Scan xy movenr (nbr xy d) st r.1 ∧ r.2 = r.1.current_chain xy := by
  have hsx : isStone (st.board xy) := by
    rw [hxy]; unfold isStone WHITE BLACK
    rcases hcol with h | h <;> subst h <;> simp
  have ht : nbr xy d ∈ nbrs xy := List.mem_map_of_mem _ hd
  unfold do_move_nbr at h
  simp only at h
  by_cases h0 : st.board (nbr xy d) = EMPTY
  · rw [if_pos h0] at h
    injection h with h
    subst h
    exact ⟨Scan.empty h0, by rw [addLib_eq_bump]; rfl⟩
  · rw [if_neg h0] at h
    by_cases h1 : st.board (nbr xy d) = BORDER
    · rw [if_neg (by simpa using h1)] at h
      injection h with h
      subst h
      exact ⟨Scan.border h0 (by rw [h1]; exact not_isStone_border), rfl⟩
    · rw [if_pos h1] at h
      have hs : isStone (st.board (nbr xy d)) := by
        rcases hw.board.nbr_cases hon ht with a | a | a
        · exact absurd a h0
        · exact a
        · exact absurd a h1
      by_cases h2 : ((st.board (nbr xy d) : Nat) : Int) = (BLACK : Int) + (WHITE : Int) - color
      · rw [if_pos h2] at h
        have hne : st.board (nbr xy d) ≠ st.board xy := by
          rw [hxy]; exact (other_color_iff hcol hs).mp h2
        have hl : ((st.addLib (st.current_chain (nbr xy d)) (-1)).chains
            (st.current_chain (nbr xy d))).liberties
            = (st.chains (st.current_chain (nbr xy d))).liberties - 1 := by
          rw [addLib_eq_bump, bump_chain_lib, if_pos rfl]; rfl
        rw [hl] at h
        by_cases h3 : (st.chains (st.current_chain (nbr xy d))).liberties - 1 = 0
        · rw [if_pos h3, remove_chain_eq_ite] at h
          have e1 : (st.addLib (st.current_chain (nbr xy d)) (-1)).mv = st.mv := by
            rw [addLib_eq_bump]; rfl
          have e2 : (st.addLib (st.current_chain (nbr xy d)) (-1)).mvlen = st.mvlen := by
            rw [addLib_eq_bump]; rfl
          have e3 : ((st.addLib (st.current_chain (nbr xy d)) (-1)).chains
              (st.current_chain (nbr xy d))).sz = (chainAt st (nbr xy d)).length := by
            rw [addLib_eq_bump, bump_chain_sz]; simp [chainAt, stonesOf]
          have e4 : stonesOf ((st.addLib (st.current_chain (nbr xy d)) (-1)).chains
              (st.current_chain (nbr xy d))) = chainAt st (nbr xy d) := by
            rw [addLib_eq_bump]; rfl
          rw [e1, e2, e3, e4] at h
          by_cases h4 : st.mv.length ≤ st.mvlen ∧
              st.mvlen < st.mv.length + (chainAt st (nbr xy d)).length
          · rw [if_pos h4] at h; cases h
          · rw [if_neg h4] at h
            change (check_retake_in_ko (st.captured (nbr xy d)) movenr).map _ = _ at h
            rcases check_retake_in_ko_cases (st.captured (nbr xy d)) movenr with h5 | h5
            · rw [h5] at h
              injection h with h
              subst h
              refine ⟨Scan.capture hs hne h3 h4 h5, ?_⟩
              show st.current_chain xy = (st.captured (nbr xy d)).current_chain xy
              rw [captured_cc]
            · rw [h5] at h; cases h
        · rw [if_neg h3] at h
          change (check_retake_in_ko (st.addLib (st.current_chain (nbr xy d)) (-1)) movenr).map _
            = _ at h
          rcases check_retake_in_ko_cases (st.addLib (st.current_chain (nbr xy d)) (-1)) movenr
            with h5 | h5
          · rw [h5] at h
            injection h with h
            subst h
            exact ⟨Scan.opp hs hne h3 h5, by rw [addLib_eq_bump]; rfl⟩
          · rw [h5] at h; cases h
      · rw [if_neg h2] at h
        have hbe : st.board (nbr xy d) = st.board xy := by
          by_contra hne
          rw [hxy] at hne
          exact h2 ((other_color_iff hcol hs).mpr hne)
        by_cases h3 : st.current_chain (nbr xy d) = st.current_chain xy
        · rw [if_neg (by simpa using h3)] at h
          injection h with h
          subst h
          exact ⟨Scan.same hbe h3, by rw [addLib_eq_bump]; rfl⟩
        · rw [if_pos h3, merge_chains_eq _ _ _ h3] at h
          injection h with h
          subst h
          refine ⟨Scan.merge hbe h3, ?_⟩
          simp only
          rw [merged_cc_stone hw.chain hsx _ _ hsx, if_pos rfl]

theorem Wf.xy_not_mem_of_ne {st : State} {xy t0 : Nat} {pending : List Nat}
    (h : Wf st xy pending) (ht0 : isStone (st.board t0)) (hb : st.board t0 ≠ st.board xy) :
    xy ∉ chainAt st t0 := fun hm => hb (h.chain.own t0 ht0 xy hm).1.symm

/-- The invariant passes through an iteration of the neighbour loop. -/
theorem Wf.wf_scan {st r : State} {xy t0 : Nat} {rest : List Nat} {movenr : Int}
    (h : Wf st xy (t0 :: rest)) (hxy : isStone (st.board xy)) (hs : Scan xy movenr t0 st r) :
    Wf r xy rest ∧ r.board xy = st.board xy := by
  cases hs with
  | empty h0 => exact ⟨h.step_empty hxy h0, by rw [addLib_eq_bump]; rfl⟩
  | border h0 h1 => exact ⟨h.step_border h0 h1, rfl⟩
  | opp h1 h2 h3 h4 =>
    exact ⟨h.step_dec h1 (fun e => absurd e h2), by rw [addLib_eq_bump]; rfl⟩
  | capture h1 h2 h3 h4 h5 =>
    refine ⟨h.wf_step_capture h1 h2 h3, ?_⟩
    rw [captured_board, if_neg (h.xy_not_mem_of_ne h1 h2)]
  | merge h1 h2 => exact ⟨h.wf_step_merge hxy h1 h2, by rw [merged_board, addLib_eq_bump]; rfl⟩
  | same h1 h2 =>
    exact ⟨h.step_dec (by rw [h1]; exact hxy) (fun _ => h2), by rw [addLib_eq_bump]; rfl⟩

/-- The chains other than that of the new stone keep a positive liberties field
through an iteration of the neighbour loop. -/
theorem PosOk.pos_scan {st r : State} {xy t0 : Nat} {rest : List Nat} {movenr : Int}
    (hp : PosOk st xy) (h : Wf st xy (t0 :: rest)) (hxy : isStone (st.board xy))
    (hs : Scan xy movenr t0 st r) : PosOk r xy := by
  cases hs with
  | empty h0 =>
    intro p hp1 hne
    rw [addLib_eq_bump] at hp1 hne ⊢
    simp only [bump_board, bump_cc, bump_chain_lib] at hp1 hne ⊢
    rw [if_neg hne]
    have := hp p hp1 hne
    omega
  | border h0 h1 => exact hp
  | opp h1 h2 h3 h4 =>
    intro p hp1 hne
    rw [addLib_eq_bump] at hp1 hne ⊢
    simp only [bump_board, bump_cc, bump_chain_lib] at hp1 hne ⊢
    have := hp p hp1 hne
    by_cases hc : st.current_chain p = st.current_chain t0
    · rw [if_pos hc, hc]
      have := hp t0 h1 (by rw [← hc]; exact hne)
      omega
    · rw [if_neg hc]; omega
  | capture h1 h2 h3 h4 h5 =>
    intro p hp1 hne
    rw [captured_cc] at hne ⊢
    rw [captured_board] at hp1
    have hown2 : ∀ s ∈ chainAt st t0, st.current_chain s = st.current_chain t0 :=
      fun s hs => (h.chain.own t0 h1 s hs).2
    by_cases hm : p ∈ chainAt st t0
    · rw [if_pos hm] at hp1; exact absurd hp1 not_isStone_empty
    · rw [if_neg hm] at hp1
      have hc : st.current_chain p ≠ st.current_chain t0 :=
        fun e => hm ((h.chain.mem_iff h1 hp1).mpr e)
      rw [captured_lib st t0 _ hc hown2]
      have := hp p hp1 hne
      omega
  | merge h1 h2 =>
    intro p hp1 hne
    have hp2 : isStone (st.board p) := hp1
    rw [merged_cc_stone h.chain hxy _ _ hp2, merged_cc_stone h.chain hxy _ _ hxy,
      if_pos rfl] at hne
    rw [merged_cc_stone h.chain hxy _ _ hp2]
    by_cases hc : st.current_chain p = st.current_chain xy
    · rw [if_pos hc] at hne; exact absurd rfl hne
    · rw [if_neg hc] at hne ⊢
      rw [merged_chain_ne _ hne, addLib_eq_bump, bump_chain_lib, if_neg hne]
      have := hp p hp2 hc
      omega
  | same h1 h2 =>
    intro p hp1 hne
    rw [addLib_eq_bump] at hp1 hne ⊢
    simp only [bump_board, bump_cc, bump_chain_lib] at hp1 hne ⊢
    rw [if_neg (by rw [h2]; exact hne)]
    have := hp p hp1 hne
    omega

/-- Induction over the neighbour loop of `do_move`: a property of the state and the
neighbours still to be scanned that passes through every iteration holds at the end
of a loop that does not fail. -/
theorem scan_fold {color : Int} (hcol : color = 1 ∨ color = 2) {xy : Nat} {movenr : Int}
    (P : State → List Nat → Prop)
    (hP : ∀ st pending, P st pending →
      Wf st xy pending ∧ onBoard st.sz xy ∧ st.board xy = color.toNat)
    (hstep : ∀ st t0 rest r, P st (t0 :: rest) → Scan xy movenr t0 st r → P r rest) :
    ∀ (ds : List Int), (∀ d ∈ ds, d ∈ dirs) → ∀ st, P st (ds.map (nbr xy)) →
      ∀ r, ds.foldlM (do_move_nbr color xy movenr) (st, st.current_chain xy) = .ok r →
        P r.1 [] ∧ r.2 = r.1.current_chain xy := by
  intro ds
  induction ds with
  | nil =>
    intro _ st hst r hr
    injection hr with hr
    subst hr
    exact ⟨hst, rfl⟩
  | cons d ds ih =>
    intro hd st hst r hr
    rw [List.foldlM_cons] at hr
    obtain ⟨hw, hon, hxy⟩ := hP _ _ hst
    cases h1 : do_move_nbr color xy movenr (st, st.current_chain xy) d with
    | error e => rw [h1] at hr; cases hr
    | ok a =>
      rw [h1] at hr
      obtain ⟨hs, ha⟩ := do_move_nbr_ok hcol hw hon hxy (hd d (List.mem_cons_self _ _)) h1
      have hPa := hstep _ _ _ _ hst hs
      have : a = (a.1, a.1.current_chain xy) := by rw [← ha]
      rw [this] at hr
      exact ih (fun d1 hd1 => hd d1 (List.mem_cons_of_mem _ hd1)) a.1 hPa r hr

theorem do_place_eq (st : State) (color : Int) (xy : Nat) (movenr : Int) :
    do_place st color xy movenr =
      if st.mv.length = st.mvlen then .error .played_game_array_overflow
      else if st.chainct = CHAINMAX then .error .chainmax_overflow
      else
        (dirs.foldlM (do_move_nbr color xy movenr)
            (st.placed (color % 256).toNat xy, st.chainct)).bind fun r =>
          if (r.1.chains r.2).liberties = 0 then
            if (r.1.chains r.2).sz = 1 then .error (.suicide movenr)
            else .error (.mass_suicide movenr)
          else .ok r.1 := by
  unfold do_place add_move add_mv
  simp only
  by_cases h : st.mv.length = st.mvlen
  · rw [if_pos h, if_pos h]; rfl
  · rw [if_neg h, if_neg h]
    simp only [Except.bind]
    by_cases h2 : st.chainct = CHAINMAX
    · rw [if_pos h2, if_pos h2]
    · rw [if_neg h2, if_neg h2]
      simp only [State.placed, placeRec, Function.update_same]

@[simp] theorem placed_sz (st : State) (col xy : Nat) : (st.placed col xy).sz = st.sz := rfl
@[simp] theorem placed_sz1 (st : State) (col xy : Nat) : (st.placed col xy).sz1 = st.sz1 := rfl
@[simp] theorem placed_mvlen (st : State) (col xy : Nat) :
    (st.placed col xy).mvlen = st.mvlen := rfl
@[simp] theorem placed_chainct (st : State) (col xy : Nat) :
    (st.placed col xy).chainct = st.chainct + 1 := rfl
@[simp] theorem placed_mv (st : State) (col xy : Nat) :
    (st.placed col xy).mv = st.mv ++ [placeRec xy col] := rfl
@[simp] theorem placed_board (st : State) (col xy : Nat) :
    (st.placed col xy).board = Function.update st.board xy col := rfl
@[simp] theorem placed_cc (st : State) (col xy : Nat) :
    (st.placed col xy).current_chain = Function.update st.current_chain xy st.chainct := rfl
@[simp] theorem placed_lc (st : State) (col xy : Nat) :
    (st.placed col xy).last_change = Function.update st.last_change xy st.mv.length := rfl
theorem placed_chain_new (st : State) (col xy : Nat) :
    (st.placed col xy).chains st.chainct
      = { liberties := 0, sz := 1,
          stones := Function.update (st.chains st.chainct).stones 0 xy } := by
  simp [State.placed]
theorem placed_chain_old (st : State) (col xy : Nat) {c : Nat} (h : c ≠ st.chainct) :
    (st.placed col xy).chains c = st.chains c := by
  simp [State.placed, h]

theorem placed_chainAt_new (st : State) (col xy : Nat) :
    chainAt (st.placed col xy) xy = [xy] := by
  unfold chainAt
  rw [placed_cc, Function.update_same, placed_chain_new]
  simp [stonesOf, List.range_succ]

theorem placed_chainAt_old (st : State) (col xy : Nat) {p : Nat} (hp : p ≠ xy)
    (hc : st.current_chain p ≠ st.chainct) :
    chainAt (st.placed col xy) p = chainAt st p := by
  unfold chainAt
  rw [placed_cc, Function.update_noteq hp, placed_chain_old _ _ _ hc]

theorem Wf.nil_irrel {st : State} {xy : Nat} (h : Wf st xy []) (xy1 : Nat) : Wf st xy1 [] := by
  refine ⟨h.board, h.chain, ?_, ?_⟩
  · intro p hp
    have := h.lib p hp
    simpa using this
  · intro p hp t ht hb
    rcases h.adj p hp t ht hb with a | ⟨_, b⟩ | ⟨_, b⟩
    · exact Or.inl a
    · cases b
    · cases b

theorem Wf.lib_nil {st : State} {xy : Nat} (h : Wf st xy []) {p : Nat}
    (hp : isStone (st.board p)) :
    (st.chains (st.current_chain p)).liberties = (libs st.board (chainAt st p) : Int) := by
  have := h.lib p hp
  simpa using this

theorem Wf.adj_nil {st : State} {xy : Nat} (h : Wf st xy []) {p t : Nat}
    (hp : isStone (st.board p)) (ht : t ∈ nbrs p) (hb : st.board t = st.board p) :
    st.current_chain t = st.current_chain p := by
  rcases h.adj p hp t ht hb with a | ⟨_, b⟩ | ⟨_, b⟩
  · exact a
  · cases b
  · cases b

/-- Entering the neighbour loop: the invariant holds with all four neighbours pending. -/
theorem Inv.inv_placed {st : State} (h : Inv st) {col xy : Nat} (hcol : isStone col)
    (hon : onBoard st.sz xy) (he : st.board xy = EMPTY) :
    Wf (st.placed col xy) xy (nbrs xy) ∧ PosOk (st.placed col xy) xy := by
  have hw := h.wf
  have hxy33 := onBoard_ge hon
  have hold : ∀ p, isStone ((st.placed col xy).board p) → p ≠ xy →
      isStone (st.board p) ∧ st.current_chain p ≠ st.chainct := by
    intro p hp hne
    rw [placed_board, Function.update_noteq hne] at hp
    exact ⟨hp, Nat.ne_of_lt (hw.chain.cc_lt p hp)⟩
  have hnx : ∀ p, isStone (st.board p) → p ≠ xy := by
    intro p hp e; rw [e, he] at hp; exact not_isStone_empty hp
  have hnm : ∀ p, isStone (st.board p) → xy ∉ chainAt st p := by
    intro p hp hm
    exact hnx xy (hw.chain.stone hp hm) rfl
  refine ⟨⟨?_, ?_, ?_, ?_⟩, ?_⟩
  · constructor
    · exact hw.board.sz_le
    · exact hw.board.sz1_eq
    · intro p hp t ht hnt
      rw [placed_sz] at hp hnt
      have : t ≠ xy := fun e => hnt (e ▸ hon)
      rw [placed_board, Function.update_noteq this]
      exact hw.board.border p hp t ht hnt
    · intro p hp
      rw [placed_sz]
      by_cases e : p = xy
      · rw [e]; exact hon
      · exact hw.board.stone_on p (hold p hp e).1
    · intro p hp
      rw [placed_sz] at hp
      rw [placed_board]
      by_cases e : p = xy
      · rw [e, Function.update_same]; exact Or.inr hcol
      · rw [Function.update_noteq e]; exact hw.board.cell p hp
  · constructor
    · intro p hp
      by_cases e : p = xy
      · rw [e, placed_cc, Function.update_same, placed_chainct]; omega
      · rw [placed_cc, Function.update_noteq e, placed_chainct]
        have := hw.chain.cc_lt p (hold p hp e).1
        omega
    · intro p hp
      by_cases e : p = xy
      · rw [e, placed_chainAt_new]; exact List.mem_singleton_self _
      · rw [placed_chainAt_old _ _ _ e (hold p hp e).2]
        exact hw.chain.mem p (hold p hp e).1
    · intro p hp q hq
      by_cases e : p = xy
      · rw [e, placed_chainAt_new] at hq
        rw [List.mem_singleton.mp hq, e]
        exact ⟨rfl, rfl⟩
      · obtain ⟨h1, h2⟩ := hold p hp e
        rw [placed_chainAt_old _ _ _ e h2] at hq
        have hq1 := hw.chain.stone h1 hq
        have hqx := hnx q hq1
        rw [placed_board, placed_cc, Function.update_noteq hqx, Function.update_noteq e,
          Function.update_noteq hqx, Function.update_noteq e]
        exact hw.chain.own p h1 q hq
    · intro p hp
      by_cases e : p = xy
      · rw [e, placed_chainAt_new]; exact List.nodup_singleton _
      · rw [placed_chainAt_old _ _ _ e (hold p hp e).2]
        exact hw.chain.nodup p (hold p hp e).1
  · intro p hp
    by_cases e : p = xy
    · rw [e, placed_chainAt_new, placed_cc, Function.update_same, placed_chain_new]
      simp only [List.mem_singleton, if_true, libs_cons, libs_nil, List.mem_singleton]
      have : (nbrs xy).countP (fun t => t = xy) = 0 := by
        rw [countP_eq_of_nodup (nbrs_nodup xy (by omega)), if_neg (not_mem_nbrs_self xy (by omega))]
      simp only [this]
      push_cast
      omega
    · obtain ⟨h1, h2⟩ := hold p hp e
      rw [placed_chainAt_old _ _ _ e h2, placed_cc, Function.update_noteq e,
        placed_chain_old _ _ _ h2, if_neg (hnm p h1), placed_board]
      have h33 : ∀ q ∈ chainAt st p, 33 ≤ q := fun q hq => hw.board.ge (hw.chain.stone h1 hq)
      have e1 := libs_update_fill he (isStone_ne_empty hcol)
        (l := chainAt st p) (fun q hq => by have := h33 q hq; omega)
      have e2 := countP_nbrs_symm (hw.chain.nodup p h1) h33 hxy33
      have e3 := hw.lib_nil h1
      rw [e2] at e1
      omega
  · intro p hp t ht hb
    by_cases e : p = xy
    · subst e
      exact Or.inr (Or.inl ⟨rfl, ht⟩)
    · by_cases e2 : t = xy
      · subst e2
        have h33 := hw.board.ge (hold p hp e).1
        exact Or.inr (Or.inr ⟨rfl, (mem_nbrs_symm h33 hxy33).mp ht⟩)
      · left
        rw [placed_board, Function.update_noteq e, Function.update_noteq e2] at hb
        rw [placed_cc, Function.update_noteq e, Function.update_noteq e2]
        exact hw.adj_nil (hold p hp e).1 ht hb
  · intro p hp hne
    by_cases e : p = xy
    · subst e; exact absurd rfl hne
    · obtain ⟨h1, h2⟩ := hold p hp e
      rw [placed_cc, Function.update_noteq e, placed_chain_old _ _ _ h2]
      exact h.pos p h1

theorem isStone_toNat {color : Int} (hcol : color = 1 ∨ color = 2) :
    isStone (color % 256).toNat ∧ (color % 256).toNat = color.toNat := by
  unfold isStone WHITE BLACK
  rcases hcol with h | h <;> subst h <;> simp

/-- A stone put on an empty point of the board by `do_move` without error leaves the
tables consistent. -/
theorem do_place_inv {st r : State} (h : Inv st) {color : Int} (hcol : color = 1 ∨ color = 2)
    {xy : Nat} (hon : onBoard st.sz xy) (he : st.board xy = EMPTY) {movenr : Int}
    (hr : do_place st color xy movenr = .ok r) : Inv r := by
  rw [do_place_eq] at hr
  split at hr
  · cases hr
  split at hr
  · cases hr
  obtain ⟨hs, hc⟩ := isStone_toNat hcol
  obtain ⟨hw, hp⟩ := h.inv_placed hs hon he
  cases hf : dirs.foldlM (do_move_nbr color xy movenr)
      (st.placed (color % 256).toNat xy, st.chainct) with
  | error e => rw [hf] at hr; cases hr
  | ok a =>
    rw [hf] at hr
    have hch : st.chainct = (st.placed (color % 256).toNat xy).current_chain xy := by
      rw [placed_cc, Function.update_same]
    rw [hch] at hf
    have key := @scan_fold color hcol xy movenr
      (fun s pend => Wf s xy pend ∧ PosOk s xy ∧ onBoard s.sz xy ∧ s.board xy = color.toNat)
      (fun s pend hs => ⟨hs.1, hs.2.2.1, hs.2.2.2⟩)
      (by
        intro s t0 rest r1 ⟨h1, h2, h3, h4⟩ hsc
        have hsx : isStone (s.board xy) := by rw [h4, ← hc]; exact hs
        obtain ⟨g1, g2⟩ := h1.wf_scan hsx hsc
        exact ⟨g1, h2.pos_scan h1 hsx hsc, g1.board.stone_on xy (by rw [g2]; exact hsx),
          by rw [g2, h4]⟩)
      dirs (fun d hd => hd) _
      ⟨hw, hp, hon, by rw [placed_board, Function.update_same, hc]⟩ a hf
    obtain ⟨⟨k1, k2, k3, k4⟩, k5⟩ := key
    change (if (a.1.chains a.2).liberties = 0 then _ else _) = _ at hr
    split at hr
    · split at hr <;> cases hr
    · rename_i hl
      injection hr with hr
      subst hr
      have hsx : isStone (a.1.board xy) := by rw [k4, ← hc]; exact hs
      refine ⟨k1.nil_irrel 0, ?_⟩
      intro p hp1
      by_cases hcp : a.1.current_chain p = a.1.current_chain xy
      · have := k1.lib_nil hp1
        rw [hcp] at this ⊢
        rw [k5] at hl
        omega
      · exact k2 p hp1 hcp

theorem onBoard_POS {n x y : Int} (hx1 : 1 ≤ x) (hx2 : x ≤ n) (hy1 : 1 ≤ y) (hy2 : y ≤ n)
    (hn : n ≤ 19) : onBoard n (POS x y).toNat ∧ ((POS x y).toNat : Int) = 32 * x + y := by
  unfold onBoard POS D MAXSZ
  have e : (x * ((31 + 1 : Nat) : Int) + y).toNat = x.toNat * 32 + y.toNat := by omega
  rw [e]
  refine ⟨⟨?_, ?_, ?_, ?_⟩, ?_⟩ <;> omega

theorem Inv.inv_of_eq {st r : State} (h : Inv st) (h1 : r.sz = st.sz) (h2 : r.sz1 = st.sz1)
    (h3 : r.board = st.board) (h4 : r.current_chain = st.current_chain)
    (h5 : r.chains = st.chains) (h6 : r.chainct = st.chainct) : Inv r := by
  have hca : ∀ p, chainAt r p = chainAt st p := by
    intro p; unfold chainAt; rw [h4, h5]
  refine ⟨⟨h.wf.board.board_of_eq h1 h2 h3, ?_, ?_, ?_⟩, ?_⟩
  · constructor
    · intro p hp; rw [h3] at hp; rw [h4, h6]; exact h.wf.chain.cc_lt p hp
    · intro p hp; rw [h3] at hp; rw [hca]; exact h.wf.chain.mem p hp
    · intro p hp q hq
      rw [h3] at hp; rw [hca] at hq; rw [h3, h4]; exact h.wf.chain.own p hp q hq
    · intro p hp; rw [h3] at hp; rw [hca]; exact h.wf.chain.nodup p hp
  · intro p hp
    rw [h3] at hp
    have := h.wf.lib p hp
    rw [hca, h3, h4, h5]
    exact this
  · intro p hp t ht hb
    rw [h3] at hp hb
    rw [h4]
    exact h.wf.adj p hp t ht hb
  · intro p hp
    rw [h3] at hp
    rw [h4, h5]
    exact h.pos p hp

theorem add_pass_inv {st r : State} (h : Inv st) {color : Int} (hr : add_pass st color = .ok r) :
    Inv r := by
  obtain ⟨_, e⟩ := add_pass_ok hr
  subst e
  exact h.inv_of_eq rfl rfl rfl rfl rfl rfl

/-- Every move that `do_move` accepts leaves the tables consistent. -/
theorem do_move_inv {st r : State} (h : Inv st) {color : Int} (hcol : color = 1 ∨ color = 2)
    {x y movenr : Int} (hr : do_move st color x y movenr = .ok r) : Inv r := by
  unfold do_move at hr
  split at hr
  · exact add_pass_inv h hr
  split at hr
  · exact add_pass_inv h hr
  split at hr
  · cases hr
  rename_i hxy
  simp only at hr
  split at hr
  · cases hr
  rename_i he
  have hb := onBoard_POS (n := st.sz) (x := x) (y := y) (by omega) (by omega) (by omega)
    (by omega) h.wf.board.sz_le
  exact do_place_inv h hcol hb.1 (by simpa using he) hr

theorem init_board_not_stone (d : Int) (i : Nat) : ¬ isStone (init_board d i) := by
  unfold init_board
  split
  · exact not_isStone_border
  split
  · exact not_isStone_border
  split
  · exact not_isStone_border
  split
  · exact not_isStone_border
  · exact not_isStone_empty

theorem init_board_on {n : Int} (hn : n ≤ 19) {p : Nat} (hp : onBoard n p) :
    init_board (n + 1) p = EMPTY := by
  unfold onBoard at hp
  unfold init_board D MAXSZ
  rw [if_neg (by omega), if_neg (by omega), if_neg (by omega), if_neg (by omega)]

theorem init_board_border {n : Int} (hn : n ≤ 19) {p t : Nat} (hp : onBoard n p)
    (ht : t ∈ nbrs p) (hnt : ¬ onBoard n t) : init_board (n + 1) t = BORDER := by
  have h33 := onBoard_ge hp
  rw [nbrs_eq p (by omega)] at ht
  unfold onBoard at hp hnt
  unfold init_board D MAXSZ
  simp only [List.mem_cons, List.mem_singleton, List.mem_nil_iff, or_false] at ht
  by_cases c1 : (((31 + 1 : Nat) : Int)) * (n + 1) + 1 ≤ (t : Int) ∧
      (t : Int) < ((31 + 1 : Nat) : Int) * (n + 1) + (n + 1)
  · rw [if_pos c1]
  rw [if_neg c1]
  by_cases c2 : ((31 + 1 : Nat) : Int) ≤ (t : Int) ∧ (t : Int) ≤ ((31 + 1 : Nat) : Int) * (n + 1) ∧
      t % (31 + 1) = 0
  · rw [if_pos c2]
  rw [if_neg c2]
  by_cases c3 : n + 1 ≤ (t : Int) ∧ (t : Int) ≤ ((31 + 1 : Nat) : Int) * (n + 1) ∧
      ((t : Int) - (n + 1)) % ((31 + 1 : Nat) : Int) = 0
  · rw [if_pos c3]
  rw [if_neg c3]
  by_cases c4 : (t : Int) < n + 1
  · rw [if_pos c4]
  exfalso
  omega

/-- The tables that `init` leaves are consistent. -/
theorem init_inv {g st : State} {size : Int} (h : init g size = .ok st) : Inv st := by
  unfold init at h
  split at h
  · cases h
  rename_i hs
  injection h with h
  subst h
  have hn : size ≤ 19 := by unfold SZ at hs; omega
  have hns : ∀ p, ¬ isStone (init_board (size + 1) p) := init_board_not_stone _
  refine ⟨⟨⟨hn, rfl, ?_, ?_, ?_⟩, ⟨?_, ?_, ?_, ?_⟩, ?_, ?_⟩, ?_⟩
  · intro p hp t ht hnt; exact init_board_border hn hp ht hnt
  · intro p hp; exact absurd hp (hns p)
  · intro p hp; exact Or.inl (init_board_on hn hp)
  · intro p hp; exact absurd hp (hns p)
  · intro p hp; exact absurd hp (hns p)
  · intro p hp; exact absurd hp (hns p)
  · intro p hp; exact absurd hp (hns p)
  · intro p hp; exact absurd hp (hns p)
  · intro p hp; exact absurd hp (hns p)
  · intro p hp; exact absurd hp (hns p)

/-- The tables are consistent after every move that `playgogame` processes. -/
theorem play_moves_inv {initct : Int} {moves : List Int} (hc : ColoursOk moves) :
    ∀ {st r : State} {i : Nat}, Inv st → play_moves initct st i moves = .ok r → Inv r := by
  induction moves with
  | nil =>
    intro st r i h hr
    injection hr with hr
    subst hr
    exact h
  | cons m ms ih =>
    intro st r i h hr
    unfold play_moves at hr
    cases h1 : do_move st (move_color m) (move_x m) (move_y m)
        (if (i : Int) ≥ initct then (i : Int) - initct + 1 else 0) with
    | error e => rw [h1] at hr; cases hr
    | ok a =>
      rw [h1] at hr
      exact ih (fun m1 hm1 => hc m1 (List.mem_cons_of_mem _ hm1))
        (do_move_inv h (hc m (List.mem_cons_self _ _)) h1) hr

end Playgogame

namespace Playgogame

/-! ## What a move takes from the board -/

theorem libs_eq_zero_iff (b : Nat → Nat) (l : List Nat) :
    libs b l = 0 ↔ ∀ q ∈ l, ∀ u ∈ nbrs q, b u ≠ EMPTY := by
  induction l with
  | nil => simp [libs]
  | cons a l ih =>
    rw [libs_cons, Nat.add_eq_zero_iff, ih, List.countP_eq_zero]
    simp only [decide_eq_true_eq, List.forall_mem_cons]

theorem foldl_cap_mv (l : List Nat) (st : State) (hn : l.Nodup) :
    (l.foldl State.cap st).mv = st.mv ++ l.map fun s => captureRec s (st.board s) := by
  induction l generalizing st with
  | nil => simp
  | cons s l ih =>
    have hn' := List.nodup_cons.mp hn
    rw [List.foldl_cons, ih _ hn'.2, cap_mv, List.map_cons, List.append_assoc]
    congr 1
    rw [List.singleton_append]
    congr 1
    apply List.map_congr_left
    intro s1 hs1
    have : s1 ≠ s := fun e => hn'.1 (e ▸ hs1)
    rw [cap_board, Function.update_noteq this]

theorem captured_mv (st : State) (t0 : Nat) (hn : (chainAt st t0).Nodup) :
    (st.captured t0).mv
      = st.mv ++ (chainAt st t0).map fun s => captureRec s (st.board s) := by
  unfold State.captured
  rw [bump_mv, foldl_cap_mv _ _ hn, addLib_eq_bump]
  rfl

@[simp] theorem captured_mvlen (st : State) (t0 : Nat) : (st.captured t0).mvlen = st.mvlen := by
  unfold State.captured
  rw [bump_mvlen, foldl_cap_mvlen, addLib_eq_bump, bump_mvlen]

/-- What an opposing chain left without liberties looks like inside the loop: no
stone of it has an empty neighbour, and none of its stones is still to be scanned. -/
theorem Wf.capture_facts {st : State} {xy t0 : Nat} {rest : List Nat}
    (h : Wf st xy (t0 :: rest)) (ht0 : isStone (st.board t0)) (hb : st.board t0 ≠ st.board xy) :
    (st.chains (st.current_chain t0)).liberties - 1 = 0 ↔
      (libs st.board (chainAt st t0) = 0 ∧ ∀ t ∈ rest, t ∉ chainAt st t0) := by
  have hx2 : xy ∉ chainAt st t0 := h.xy_not_mem_of_ne ht0 hb
  have hl2 := h.lib t0 ht0
  rw [if_neg hx2, countP_cons_cast, if_pos (h.chain.mem t0 ht0)] at hl2
  constructor
  · intro hll
    have hrest0 : (rest.countP fun t => t ∈ chainAt st t0) = 0 := by omega
    refine ⟨by omega, ?_⟩
    intro t ht hm
    have : 0 < rest.countP fun t => t ∈ chainAt st t0 :=
      List.countP_pos_iff.mpr ⟨t, ht, decide_eq_true hm⟩
    omega
  · intro ⟨h1, h2⟩
    have : (rest.countP fun t => t ∈ chainAt st t0) = 0 := by
      rw [List.countP_eq_zero]
      intro t ht
      simpa using h2 t ht
    omega

/-- The two kinds of iteration of the neighbour loop: one that takes the chain of the
neighbour `t0` from the board, and one that leaves the board, the log and the chains
of the opposing colour as they are. -/
theorem Scan.effect {st r : State} {xy t0 : Nat} {pending : List Nat} {movenr : Int}
    (hw : Wf st xy pending) (hxy : isStone (st.board xy)) (hs : Scan xy movenr t0 st r) :
    (r = st.captured t0 ∧ isStone (st.board t0) ∧ st.board t0 ≠ st.board xy ∧
      (st.chains (st.current_chain t0)).liberties - 1 = 0 ∧
      check_retake_in_ko (st.captured t0) movenr = .ok ()) ∨
    (r.board = st.board ∧ r.mv = st.mv ∧ r.mvlen = st.mvlen ∧
      ¬ (isStone (st.board t0) ∧ st.board t0 ≠ st.board xy ∧
        (st.chains (st.current_chain t0)).liberties - 1 = 0) ∧
      ∀ p, isStone (st.board p) → st.board p ≠ st.board xy →
        r.current_chain p = st.current_chain p ∧ chainAt r p = chainAt st p) := by
  cases hs with
  | empty h0 =>
    right
    rw [addLib_eq_bump]
    refine ⟨rfl, rfl, rfl, ?_, fun p _ _ => ⟨rfl, rfl⟩⟩
    intro ⟨a, _, _⟩
    rw [h0] at a; exact not_isStone_empty a
  | border h0 h1 =>
    right
    exact ⟨rfl, rfl, rfl, fun ⟨a, _, _⟩ => h1 a, fun p _ _ => ⟨rfl, rfl⟩⟩
  | opp h1 h2 h3 h4 =>
    right
    rw [addLib_eq_bump]
    exact ⟨rfl, rfl, rfl, fun ⟨_, _, c⟩ => h3 c, fun p _ _ => ⟨rfl, rfl⟩⟩
  | capture h1 h2 h3 h4 h5 =>
    left
    exact ⟨rfl, h1, h2, h3, h5⟩
  | merge h1 h2 =>
    right
    refine ⟨by rw [merged_board, addLib_eq_bump]; rfl, by rw [merged_mv, addLib_eq_bump]; rfl,
      by rw [merged_mvlen, addLib_eq_bump]; rfl, fun ⟨_, b, _⟩ => b h1, ?_⟩
    intro p hp hne
    have hc : st.current_chain p ≠ st.current_chain xy := by
      intro e
      exact hne (hw.chain.own xy hxy p ((hw.chain.mem_iff hxy hp).mpr e)).1
    have hc2 : st.current_chain p ≠ st.current_chain t0 := by
      intro e
      have ht0 : isStone (st.board t0) := by rw [h1]; exact hxy
      exact hne ((hw.chain.own t0 ht0 p ((hw.chain.mem_iff ht0 hp).mpr e)).1.trans h1)
    have e1 := merged_cc_stone hw.chain hxy (-1) (st.current_chain t0) hp
    rw [if_neg hc] at e1
    refine ⟨e1, ?_⟩
    unfold chainAt
    rw [e1, merged_chain_ne _ hc2, addLib_eq_bump]
    rfl
  | same h1 h2 =>
    right
    rw [addLib_eq_bump]
    exact ⟨rfl, rfl, rfl, fun ⟨_, b, _⟩ => b h1, fun p _ _ => ⟨rfl, rfl⟩⟩

theorem isStone_eq_of_ne {a b col : Nat} (ha : isStone a) (hb : isStone b) (hc : isStone col)
    (h1 : a ≠ col) (h2 : b ≠ col) : a = b := by
  unfold isStone WHITE BLACK at ha hb hc
  omega

theorem capturedBy_of_mem {s0 : State} (hi : Inv s0) {col xy p q : Nat}
    (h : capturedBy s0 col xy p) (hq : q ∈ chainAt s0 p) : capturedBy s0 col xy q := by
  obtain ⟨h1, h2, h3, h4⟩ := h
  have ho := hi.wf.chain.own p h1 q hq
  have hc := hi.wf.chain.chainAt_eq h1 hq
  refine ⟨by rw [ho.1]; exact h1, by rw [ho.1]; exact h2, ?_, ?_⟩
  · rw [hc]; exact h3
  · rw [hc]; exact h4

section
variable {s0 st : State} {col xy t0 : Nat} {rest caps : List Nat}

theorem CapOk.cap_board_xy (hk : CapOk s0 col xy st (t0 :: rest) caps) : st.board xy = col := by
  rw [hk.board, if_pos rfl]

theorem CapOk.caps_opp (hk : CapOk s0 col xy st (t0 :: rest) caps)
    (he : s0.board xy = EMPTY) {p : Nat} (hp : p ∈ caps) :
    isStone (s0.board p) ∧ s0.board p ≠ col ∧ p ≠ xy := by
  obtain ⟨⟨h1, h2, _, _⟩, _⟩ := (hk.cap p).mp hp
  refine ⟨h1, h2, ?_⟩
  intro e
  rw [e, he] at h1
  exact not_isStone_empty h1

theorem CapOk.stone_old (hk : CapOk s0 col xy st (t0 :: rest) caps) {p : Nat}
    (hp : isStone (st.board p)) (hne : p ≠ xy) : p ∉ caps ∧ st.board p = s0.board p := by
  have := hk.board p
  rw [if_neg hne] at this
  by_cases hc : p ∈ caps
  · rw [if_pos hc] at this
    rw [this] at hp
    exact absurd hp not_isStone_empty
  · rw [if_neg hc] at this
    exact ⟨hc, this⟩

theorem CapOk.pending_stone (hk : CapOk s0 col xy st (t0 :: rest) caps) (hi : Inv s0)
    (he : s0.board xy = EMPTY) {p : Nat} (hp : capturedBy s0 col xy p)
    (ht : t0 ∈ chainAt s0 p) :
    isStone (st.board t0) ∧ st.board t0 ≠ col ∧ chainAt st t0 = chainAt s0 p := by
  have h0 := capturedBy_of_mem hi hp ht
  have hne : t0 ≠ xy := by
    intro e; have := h0.1; rw [e, he] at this; exact not_isStone_empty this
  have hnc : t0 ∉ caps := by
    intro hc
    exact ((hk.cap t0).mp hc).2 t0 (List.mem_cons_self _ _) (hi.wf.chain.mem t0 h0.1)
  have hb := hk.board t0
  rw [if_neg hne, if_neg hnc] at hb
  refine ⟨by rw [hb]; exact h0.1, by rw [hb]; exact h0.2.1, ?_⟩
  rw [(hk.opp t0 h0.1 h0.2.1 hnc).2]
  exact hi.wf.chain.chainAt_eq hp.1 ht

/-- In the board inside the loop no stone of a capturable chain that has a stone
still to be scanned has an empty neighbour. -/
theorem CapOk.libs_zero (hk : CapOk s0 col xy st (t0 :: rest) caps) (hi : Inv s0)
    (hcol : isStone col) {p : Nat} (hp : capturedBy s0 col xy p)
    (ht : t0 ∈ chainAt s0 p) : libs st.board (chainAt s0 p) = 0 := by
  rw [libs_eq_zero_iff]
  intro q hq u hu
  rw [hk.board u]
  by_cases hx : u = xy
  · rw [if_pos hx]; exact isStone_ne_empty hcol
  rw [if_neg hx]
  by_cases hc : u ∈ caps
  · exfalso
    obtain ⟨⟨g1, g2, _, _⟩, g3⟩ := (hk.cap u).mp hc
    have hq1 := capturedBy_of_mem hi hp hq
    have hbe : s0.board u = s0.board q := isStone_eq_of_ne g1 hq1.1 hcol g2 hq1.2.1
    have hcc := hi.wf.adj_nil hq1.1 hu hbe
    have hm : u ∈ chainAt s0 q := (hi.wf.chain.mem_iff hq1.1 g1).mpr hcc
    have e1 : chainAt s0 u = chainAt s0 q := hi.wf.chain.chainAt_eq hq1.1 hm
    have e2 : chainAt s0 q = chainAt s0 p := hi.wf.chain.chainAt_eq hp.1 hq
    apply g3 t0 (List.mem_cons_self _ _)
    rw [e1, e2]; exact ht
  · rw [if_neg hc]
    exact hp.2.2.2 q hq u hu hx

/-- An iteration of the neighbour loop that takes nothing from the board. -/
theorem CapOk.cap_step_keep {r : State} (hk : CapOk s0 col xy st (t0 :: rest) caps) (hi : Inv s0)
    (hcol : isStone col) (he : s0.board xy = EMPTY) (hw : Wf st xy (t0 :: rest))
    (h1 : r.board = st.board) (h2 : r.mv = st.mv) (h3 : r.mvlen = st.mvlen)
    (h4 : ¬ (isStone (st.board t0) ∧ st.board t0 ≠ st.board xy ∧
        (st.chains (st.current_chain t0)).liberties - 1 = 0))
    (h5 : ∀ p, isStone (st.board p) → st.board p ≠ st.board xy →
        r.current_chain p = st.current_chain p ∧ chainAt r p = chainAt st p) :
    CapOk s0 col xy r rest caps := by
  have hbx := hk.cap_board_xy
  refine ⟨by rw [h1]; exact hk.board, by rw [h2]; exact hk.mv, hk.nodup, ?_, ?_,
    fun t ht => hk.sub t (List.mem_cons_of_mem _ ht), by rw [h3]; exact hk.mvlen⟩
  · intro p
    constructor
    · intro hp
      obtain ⟨a, b⟩ := (hk.cap p).mp hp
      exact ⟨a, fun t ht => b t (List.mem_cons_of_mem _ ht)⟩
    · intro ⟨hp, hr⟩
      by_cases ht : t0 ∈ chainAt s0 p
      · exfalso
        obtain ⟨g1, g2, g3⟩ := hk.pending_stone hi he hp ht
        have hz := hk.libs_zero hi hcol hp ht
        have hne : st.board t0 ≠ st.board xy := by rw [hbx]; exact g2
        apply h4
        refine ⟨g1, hne, ?_⟩
        rw [hw.capture_facts g1 hne, g3]
        exact ⟨hz, hr⟩
      · apply (hk.cap p).mpr
        refine ⟨hp, ?_⟩
        intro t ht1
        rcases List.mem_cons.mp ht1 with e | e
        · rw [e]; exact ht
        · exact hr t e
  · intro p hp1 hp2 hp3
    obtain ⟨a, b⟩ := hk.opp p hp1 hp2 hp3
    have hne : p ≠ xy := by
      intro e; rw [e, he] at hp1; exact not_isStone_empty hp1
    have hb := hk.board p
    rw [if_neg hne, if_neg hp3] at hb
    obtain ⟨c, d⟩ := h5 p (by rw [hb]; exact hp1) (by rw [hb, hbx]; exact hp2)
    exact ⟨c.trans a, d.trans b⟩

/-- An iteration of the neighbour loop that takes the chain of `t0` from the board. -/
theorem CapOk.cap_step_capture (hk : CapOk s0 col xy st (t0 :: rest) caps) (hi : Inv s0)
    (he : s0.board xy = EMPTY) (hw : Wf st xy (t0 :: rest))
    (ht0 : isStone (st.board t0)) (hne : st.board t0 ≠ st.board xy)
    (hll : (st.chains (st.current_chain t0)).liberties - 1 = 0) :
    CapOk s0 col xy (st.captured t0) rest (caps ++ chainAt s0 t0) ∧
      chainAt st t0 = chainAt s0 t0 := by
  have hbx := hk.cap_board_xy
  have ht0x : t0 ≠ xy := by
    intro e; rw [e] at hne; exact hne rfl
  obtain ⟨hnc, hb0⟩ := hk.stone_old ht0 ht0x
  have hs0 : isStone (s0.board t0) := by rw [← hb0]; exact ht0
  have hc0 : s0.board t0 ≠ col := by rw [← hb0, ← hbx]; exact hne
  have hS : chainAt st t0 = chainAt s0 t0 := (hk.opp t0 hs0 hc0 hnc).2
  obtain ⟨hz, hr⟩ := (hw.capture_facts ht0 hne).mp hll
  rw [hS] at hz hr
  have hSx : xy ∉ chainAt s0 t0 := by
    intro hm
    have := hi.wf.chain.stone hs0 hm
    rw [he] at this
    exact not_isStone_empty this
  -- the stones of the chain are on the board as they were before the move
  have hSb : ∀ q ∈ chainAt s0 t0, q ∉ caps ∧ st.board q = s0.board q := by
    intro q hq
    have hq1 : isStone (st.board q) := by
      rw [← hS] at hq; exact hw.chain.stone ht0 hq
    have hqx : q ≠ xy := fun e => hSx (e ▸ hq)
    exact hk.stone_old hq1 hqx
  have hcb : capturedBy s0 col xy t0 := by
    refine ⟨hs0, hc0, ⟨t0, hk.sub t0 (List.mem_cons_self _ _), hi.wf.chain.mem t0 hs0⟩, ?_⟩
    intro q hq u hu hux
    have := (libs_eq_zero_iff _ _).mp hz q hq u hu
    rw [hk.board u, if_neg hux] at this
    by_cases hc : u ∈ caps
    · rw [if_pos hc] at this; exact absurd rfl this
    · rw [if_neg hc] at this; exact this
  refine ⟨⟨?_, ?_, ?_, ?_, ?_, fun t ht => hk.sub t (List.mem_cons_of_mem _ ht),
    by rw [captured_mvlen]; exact hk.mvlen⟩, hS⟩
  · intro p
    rw [captured_board, hS, hk.board p]
    by_cases hx : p = xy
    · rw [if_pos hx, if_pos hx, if_neg (by rw [hx]; exact hSx)]
    · rw [if_neg hx, if_neg hx]
      by_cases hm : p ∈ chainAt s0 t0
      · rw [if_pos hm, if_pos (List.mem_append_right _ hm)]
      · rw [if_neg hm]
        by_cases hc : p ∈ caps
        · rw [if_pos hc, if_pos (List.mem_append_left _ hc)]
        · rw [if_neg hc, if_neg (by simp [hc, hm])]
  · rw [captured_mv _ _ (hw.chain.nodup t0 ht0), hk.mv, hS, List.map_append,
      List.append_assoc, List.cons_append]
    congr 2
    congr 1
    apply List.map_congr_left
    intro q hq
    rw [(hSb q hq).2]
  · apply List.Nodup.append hk.nodup
    · rw [← hS]; exact hw.chain.nodup t0 ht0
    · intro q h1 h2
      exact (hSb q h2).1 h1
  · intro p
    constructor
    · intro hp
      rcases List.mem_append.mp hp with h1 | h1
      · obtain ⟨a, b⟩ := (hk.cap p).mp h1
        exact ⟨a, fun t ht => b t (List.mem_cons_of_mem _ ht)⟩
      · have e := hi.wf.chain.chainAt_eq hs0 h1
        refine ⟨capturedBy_of_mem hi hcb h1, ?_⟩
        rw [e]; exact hr
    · intro ⟨hp, hrp⟩
      by_cases ht : t0 ∈ chainAt s0 p
      · apply List.mem_append_right
        have := hi.wf.chain.chainAt_eq hp.1 ht
        rw [this]
        exact hi.wf.chain.mem p hp.1
      · apply List.mem_append_left
        apply (hk.cap p).mpr
        refine ⟨hp, ?_⟩
        intro t ht1
        rcases List.mem_cons.mp ht1 with e | e
        · rw [e]; exact ht
        · exact hrp t e
  · intro p hp1 hp2 hp3
    have hp4 : p ∉ caps := fun h => hp3 (List.mem_append_left _ h)
    obtain ⟨a, b⟩ := hk.opp p hp1 hp2 hp4
    rw [captured_cc, captured_chainAt]
    exact ⟨a, b⟩

end

/-- The iterations of the neighbour loop seen from the chains of the mover's colour:
one merges the chain of the new stone into the chain of `t0`, the others leave the
ownership map and the stone lists as they are. -/
theorem Scan.effect_own {st r : State} {xy t0 : Nat} {movenr : Int}
    (hxy : isStone (st.board xy)) (hs : Scan xy movenr t0 st r) :
    (r.current_chain = st.current_chain ∧
      (∀ c, stonesOf (r.chains c) = stonesOf (st.chains c)) ∧
      (∀ p, isStone (r.board p) → isStone (st.board p)) ∧
      (st.board t0 = st.board xy → st.current_chain t0 = st.current_chain xy)) ∨
    (r = (st.addLib (st.current_chain t0) (-1)).merged (st.current_chain t0)
          (st.current_chain xy) ∧
      st.board t0 = st.board xy ∧ st.current_chain t0 ≠ st.current_chain xy) := by
  cases hs with
  | empty h0 =>
    left; rw [addLib_eq_bump]
    refine ⟨rfl, fun _ => rfl, fun _ h => h, fun e => ?_⟩
    rw [← e, h0] at hxy
    exact absurd hxy not_isStone_empty
  | border h0 h1 =>
    left
    refine ⟨rfl, fun _ => rfl, fun _ h => h, fun e => ?_⟩
    rw [← e] at hxy
    exact absurd hxy h1
  | opp h1 h2 h3 h4 =>
    left; rw [addLib_eq_bump]
    exact ⟨rfl, fun _ => rfl, fun _ h => h, fun e => absurd e h2⟩
  | capture h1 h2 h3 h4 h5 =>
    left
    refine ⟨captured_cc _ _, fun c => captured_stonesOf _ _ c, ?_, fun e => absurd e h2⟩
    intro p hp
    rw [captured_board] at hp
    split at hp
    · exact absurd hp not_isStone_empty
    · exact hp
  | merge h1 h2 => exact Or.inr ⟨rfl, h1, h2⟩
  | same h1 h2 =>
    left; rw [addLib_eq_bump]
    exact ⟨rfl, fun _ => rfl, fun _ h => h, fun _ => h2⟩

section
variable {s0 st r : State} {col xy t0 : Nat} {rest caps : List Nat}

/-- A stone of the mover's colour that was on the board before the move is on the
board inside the loop. -/
theorem CapOk.own_stone (hk : CapOk s0 col xy st (t0 :: rest) caps) (hcol : isStone col)
    (he : s0.board xy = EMPTY) {p : Nat} (hp : s0.board p = col) :
    st.board p = col ∧ p ≠ xy := by
  have hne : p ≠ xy := by
    intro e; rw [e, he] at hp; rw [← hp] at hcol; exact not_isStone_empty hcol
  have hnc : p ∉ caps := fun hc => (hk.caps_opp he hc).2.1 hp
  have := hk.board p
  rw [if_neg hne, if_neg hnc] at this
  exact ⟨this.trans hp, hne⟩

theorem GrpOk.grp_step_keep (hg : GrpOk s0 col xy st (t0 :: rest))
    (hk : CapOk s0 col xy st (t0 :: rest) caps) (hi : Inv s0) (hcol : isStone col)
    (he : s0.board xy = EMPTY) (hw : Wf st xy (t0 :: rest))
    (h1 : r.current_chain = st.current_chain)
    (h2 : ∀ c, stonesOf (r.chains c) = stonesOf (st.chains c))
    (h3 : ∀ p, isStone (r.board p) → isStone (st.board p))
    (h4 : st.board t0 = st.board xy → st.current_chain t0 = st.current_chain xy) :
    GrpOk s0 col xy r rest := by
  have hbx := hk.cap_board_xy
  have hsx : isStone (st.board xy) := by rw [hbx]; exact hcol
  have hca : ∀ p, chainAt r p = chainAt st p := by
    intro p; unfold chainAt; rw [h1, h2]
  have hnd := List.nodup_cons.mp hg.nd
  refine ⟨?_, ?_, ?_, hnd.2⟩
  · intro q
    rw [hca, hg.grp q]
    constructor
    · rintro (a | ⟨a, t, b, c, d⟩)
      · exact Or.inl a
      · exact Or.inr ⟨a, t, b, fun h => c (List.mem_cons_of_mem _ h), d⟩
    · rintro (a | ⟨a, t, b, c, d⟩)
      · exact Or.inl a
      · by_cases e : t = t0
        · subst e
          have hq : isStone (s0.board q) := by rw [a]; exact hcol
          have ht : s0.board t = col := by rw [(hi.wf.chain.own q hq t d).1]; exact a
          obtain ⟨g1, g2⟩ := hk.own_stone hcol he ht
          have hcc := h4 (g1.trans hbx.symm)
          have hm : t ∈ chainAt st xy := (hw.chain.mem_iff hsx (by rw [g1]; exact hcol)).mpr hcc
          rcases (hg.grp t).mp hm with x | ⟨_, t1, y1, y2, y3⟩
          · exact absurd x g2
          · right
            refine ⟨a, t1, y1, y2, ?_⟩
            rw [hi.wf.chain.chainAt_eq hq d] at y3
            exact y3
        · exact Or.inr ⟨a, t, b, fun h => by
            rcases List.mem_cons.mp h with x | x
            · exact e x
            · exact c x, d⟩
  · intro p hp hne
    rw [h1] at hne ⊢
    rw [hca]
    exact hg.own p hp hne
  · intro p q hp hq hpx hqx hc
    rw [h1]
    exact hg.same p q (h3 p hp) (h3 q hq) hpx hqx hc

theorem GrpOk.grp_step_merge (hg : GrpOk s0 col xy st (t0 :: rest))
    (hk : CapOk s0 col xy st (t0 :: rest) caps) (hi : Inv s0) (hcol : isStone col)
    (he : s0.board xy = EMPTY) (hw : Wf st xy (t0 :: rest))
    (hb : st.board t0 = st.board xy) (hne : st.current_chain t0 ≠ st.current_chain xy) :
    GrpOk s0 col xy ((st.addLib (st.current_chain t0) (-1)).merged (st.current_chain t0)
        (st.current_chain xy)) rest := by
  have hbx := hk.cap_board_xy
  have hsx : isStone (st.board xy) := by rw [hbx]; exact hcol
  have ht0 : isStone (st.board t0) := by rw [hb]; exact hsx
  have ht0x : t0 ≠ xy := fun e => hne (by rw [e])
  obtain ⟨hnc, hb0⟩ := hk.stone_old ht0 ht0x
  have hs0 : s0.board t0 = col := by rw [← hb0, hb, hbx]
  have hs0' : isStone (s0.board t0) := by rw [hs0]; exact hcol
  obtain ⟨hc0, hS0⟩ := hg.own t0 hs0 hne
  have hnd := List.nodup_cons.mp hg.nd
  have hcc := fun {p : Nat} (hp : isStone (st.board p)) =>
    merged_cc_stone hw.chain hsx (-1) (st.current_chain t0) hp
  have hSxy : chainAt ((st.addLib (st.current_chain t0) (-1)).merged (st.current_chain t0)
        (st.current_chain xy)) xy = chainAt s0 t0 ++ chainAt st xy := by
    unfold chainAt
    rw [hcc hsx, if_pos rfl, merged_stonesOf, addLib_eq_bump, bump_stonesOf, bump_stonesOf]
    show chainAt st t0 ++ chainAt st xy = _
    rw [hS0]; rfl
  refine ⟨?_, ?_, ?_, hnd.2⟩
  · intro q
    rw [hSxy, List.mem_append, hg.grp q]
    constructor
    · rintro (a | a | ⟨a, t, b, c, d⟩)
      · right
        have hq := hi.wf.chain.own t0 hs0' q a
        refine ⟨hq.1.trans hs0, t0, hk.sub t0 (List.mem_cons_self _ _), hnd.1, ?_⟩
        rw [hi.wf.chain.chainAt_eq hs0' a]
        exact hi.wf.chain.mem t0 hs0'
      · exact Or.inl a
      · exact Or.inr ⟨a, t, b, fun h => c (List.mem_cons_of_mem _ h), d⟩
    · rintro (a | ⟨a, t, b, c, d⟩)
      · exact Or.inr (Or.inl a)
      · by_cases e : t = t0
        · subst e
          left
          have hq : isStone (s0.board q) := by rw [a]; exact hcol
          have := hi.wf.chain.chainAt_eq hq d
          rw [this]
          exact hi.wf.chain.mem q hq
        · exact Or.inr (Or.inr ⟨a, t, b, fun h => by
            rcases List.mem_cons.mp h with x | x
            · exact e x
            · exact c x, d⟩)
  · intro p hp hnp
    obtain ⟨g1, g2⟩ := hk.own_stone hcol he hp
    have hps : isStone (st.board p) := by rw [g1]; exact hcol
    rw [hcc hps, hcc hsx, if_pos rfl] at hnp
    by_cases hc : st.current_chain p = st.current_chain xy
    · rw [if_pos hc] at hnp; exact absurd rfl hnp
    · rw [if_neg hc] at hnp
      obtain ⟨a, b⟩ := hg.own p hp hc
      unfold chainAt
      rw [hcc hps, if_neg hc, merged_chain_ne _ hnp, addLib_eq_bump, bump_stonesOf]
      exact ⟨a, b⟩
  · intro p q hp hq hpx hqx hc
    have hp' : isStone (st.board p) := hp
    have hq' : isStone (st.board q) := hq
    rw [hcc hp', hcc hq', hg.same p q hp' hq' hpx hqx hc]

end

section
variable {s0 st r : State} {col xy t0 : Nat} {rest : List Nat} {movenr : Int}

theorem LoopOk.loop_board_xy (h : LoopOk s0 col xy st (t0 :: rest)) : st.board xy = col := by
  obtain ⟨caps, hk⟩ := h.cap
  exact hk.cap_board_xy

/-- The loop invariant passes through an iteration of the neighbour loop. -/
theorem LoopOk.loop_scan (h : LoopOk s0 col xy st (t0 :: rest)) (hi : Inv s0) (hcol : isStone col)
    (he : s0.board xy = EMPTY) (hs : Scan xy movenr t0 st r) : LoopOk s0 col xy r rest := by
  obtain ⟨caps, hk⟩ := h.cap
  have hbx := hk.cap_board_xy
  have hsx : isStone (st.board xy) := by rw [hbx]; exact hcol
  obtain ⟨w1, w2⟩ := h.wf.wf_scan hsx hs
  refine ⟨w1, h.pos.pos_scan h.wf hsx hs, w1.board.stone_on xy (by rw [w2]; exact hsx), ?_, ?_⟩
  · rcases hs.effect h.wf hsx with ⟨e, a, b, c, _⟩ | ⟨a, b, c, d, e⟩
    · subst e
      exact ⟨_, (hk.cap_step_capture hi he h.wf a b c).1⟩
    · exact ⟨_, hk.cap_step_keep hi hcol he h.wf a b c d e⟩
  · rcases hs.effect_own hsx with ⟨a, b, c, d⟩ | ⟨e, a, b⟩
    · exact h.grp.grp_step_keep hk hi hcol he h.wf a b c d
    · subst e
      exact h.grp.grp_step_merge hk hi hcol he h.wf a b

end

/-- Entering the neighbour loop: the loop invariant holds with all four neighbours
pending. -/
theorem Inv.loop_start {s0 : State} (hi : Inv s0) {col xy : Nat} (hcol : isStone col)
    (hon : onBoard s0.sz xy) (he : s0.board xy = EMPTY) :
    LoopOk s0 col xy (s0.placed col xy) (nbrs xy) := by
  obtain ⟨hw, hp⟩ := hi.inv_placed hcol hon he
  have hold : ∀ p, isStone (s0.board p) → p ≠ xy ∧ s0.current_chain p ≠ s0.chainct := by
    intro p hp
    refine ⟨?_, Nat.ne_of_lt (hi.wf.chain.cc_lt p hp)⟩
    intro e; rw [e, he] at hp; exact not_isStone_empty hp
  refine ⟨hw, hp, hon, ⟨[], ?_⟩, ?_⟩
  · refine ⟨?_, rfl, List.nodup_nil, ?_, ?_, fun t ht => ht, rfl⟩
    · intro p
      rw [placed_board]
      by_cases e : p = xy
      · rw [e, Function.update_same, if_pos rfl]
      · rw [Function.update_noteq e, if_neg e, if_neg (List.not_mem_nil _)]
    · intro p
      constructor
      · intro h; cases h
      · intro ⟨⟨_, _, ⟨t, a, b⟩, _⟩, c⟩
        exact absurd b (c t a)
    · intro p h1 _ _
      obtain ⟨a, b⟩ := hold p h1
      exact ⟨by rw [placed_cc, Function.update_noteq a], placed_chainAt_old _ _ _ a b⟩
  · refine ⟨?_, ?_, ?_, nbrs_nodup xy (by have := onBoard_ge hon; omega)⟩
    · intro q
      rw [placed_chainAt_new, List.mem_singleton]
      constructor
      · intro h; exact Or.inl h
      · rintro (h | ⟨_, t, a, b, _⟩)
        · exact h
        · exact absurd a b
    · intro p h1 _
      obtain ⟨a, b⟩ := hold p (by rw [h1]; exact hcol)
      exact ⟨by rw [placed_cc, Function.update_noteq a], placed_chainAt_old _ _ _ a b⟩
    · intro p q _ _ hpx hqx hc
      rw [placed_cc, Function.update_noteq hpx, Function.update_noteq hqx]
      exact hc

/-- The loop of `do_move` seen from the state before the move: when the loop does not
fail, the loop invariant holds with no neighbour pending. -/
theorem loop_ok {s0 : State} (hi : Inv s0) {color : Int} (hcol : color = 1 ∨ color = 2)
    {xy : Nat} (hon : onBoard s0.sz xy) (he : s0.board xy = EMPTY) {movenr : Int}
    {a : State × Nat}
    (hf : dirs.foldlM (do_move_nbr color xy movenr)
      (s0.placed (color % 256).toNat xy, s0.chainct) = .ok a) :
    LoopOk s0 color.toNat xy a.1 [] ∧ a.2 = a.1.current_chain xy := by
  obtain ⟨hs, hc⟩ := isStone_toNat hcol
  rw [hc] at hs hf
  have hch : s0.chainct = (s0.placed color.toNat xy).current_chain xy := by
    rw [placed_cc, Function.update_same]
  rw [hch] at hf
  have hstart := hi.loop_start hs hon he
  apply @scan_fold color hcol xy movenr
    (fun s pend => LoopOk s0 color.toNat xy s pend ∧ s.board xy = color.toNat)
    (fun s pend h => ⟨h.1.wf, h.1.onb, h.2⟩)
    (by
      intro s t0 rest r1 ⟨h1, h2⟩ hsc
      have h3 := h1.loop_scan hi hs he hsc
      refine ⟨h3, ?_⟩
      rw [(h1.wf.wf_scan (by rw [h2]; exact hs) hsc).2, h2])
    dirs (fun d hd => hd) _ ⟨hstart, by rw [placed_board, Function.update_same]⟩ a hf |>.imp
      (fun h => h.1) (fun h => h)

/-- What an iteration of the neighbour loop does when it fails. -/
theorem do_move_nbr_error {color : Int} (hcol : color = 1 ∨ color = 2) {st : State} {xy : Nat}
    {pending : List Nat} (hw : Wf st xy pending) (hon : onBoard st.sz xy)
    (hxy : st.board xy = color.toNat) {d : Int} (hd : d ∈ dirs) {movenr : Int} {e : Err}
    (h : do_move_nbr color xy movenr (st, st.current_chain xy) d = .error e) :
    ScanErr xy movenr (nbr xy d) st e := by
  have ht : nbr xy d ∈ nbrs xy := List.mem_map_of_mem _ hd
  unfold do_move_nbr at h
  simp only at h
  by_cases h0 : st.board (nbr xy d) = EMPTY
  · rw [if_pos h0] at h; cases h
  · rw [if_neg h0] at h
    by_cases h1 : st.board (nbr xy d) = BORDER
    · rw [if_neg (by simpa using h1)] at h; cases h
    · rw [if_pos h1] at h
      have hs : isStone (st.board (nbr xy d)) := by
        rcases hw.board.nbr_cases hon ht with a | a | a
        · exact absurd a h0
        · exact a
        · exact absurd a h1
      by_cases h2 : ((st.board (nbr xy d) : Nat) : Int) = (BLACK : Int) + (WHITE : Int) - color
      · rw [if_pos h2] at h
        have hne : st.board (nbr xy d) ≠ st.board xy := by
          rw [hxy]; exact (other_color_iff hcol hs).mp h2
        have hl : ((st.addLib (st.current_chain (nbr xy d)) (-1)).chains
            (st.current_chain (nbr xy d))).liberties
            = (st.chains (st.current_chain (nbr xy d))).liberties - 1 := by
          rw [addLib_eq_bump, bump_chain_lib, if_pos rfl]; rfl
        rw [hl] at h
        by_cases h3 : (st.chains (st.current_chain (nbr xy d))).liberties - 1 = 0
        · rw [if_pos h3, remove_chain_eq_ite] at h
          have e1 : (st.addLib (st.current_chain (nbr xy d)) (-1)).mv = st.mv := by
            rw [addLib_eq_bump]; rfl
          have e2 : (st.addLib (st.current_chain (nbr xy d)) (-1)).mvlen = st.mvlen := by
            rw [addLib_eq_bump]; rfl
          have e3 : ((st.addLib (st.current_chain (nbr xy d)) (-1)).chains
              (st.current_chain (nbr xy d))).sz = (chainAt st (nbr xy d)).length := by
            rw [addLib_eq_bump, bump_chain_sz]; simp [chainAt, stonesOf]
          have e4 : stonesOf ((st.addLib (st.current_chain (nbr xy d)) (-1)).chains
              (st.current_chain (nbr xy d))) = chainAt st (nbr xy d) := by
            rw [addLib_eq_bump]; rfl
          rw [e1, e2, e3, e4] at h
          by_cases h4 : st.mv.length ≤ st.mvlen ∧
              st.mvlen < st.mv.length + (chainAt st (nbr xy d)).length
          · rw [if_pos h4] at h
            injection h with h
            subst h
            exact ScanErr.overflow hs hne h3 h4
          · rw [if_neg h4] at h
            change (check_retake_in_ko (st.captured (nbr xy d)) movenr).map _ = _ at h
            rcases check_retake_in_ko_cases (st.captured (nbr xy d)) movenr with h5 | h5
            · rw [h5] at h; cases h
            · rw [h5] at h
              injection h with h
              subst h
              exact ScanErr.ko_capture hs hne h3 h4 h5
        · rw [if_neg h3] at h
          change (check_retake_in_ko (st.addLib (st.current_chain (nbr xy d)) (-1)) movenr).map _
            = _ at h
          rcases check_retake_in_ko_cases (st.addLib (st.current_chain (nbr xy d)) (-1)) movenr
            with h5 | h5
          · rw [h5] at h; cases h
          · rw [h5] at h
            injection h with h
            subst h
            exact ScanErr.ko_opp hs hne h3 h5
      · rw [if_neg h2] at h
        by_cases h3 : st.current_chain (nbr xy d) = st.current_chain xy
        · rw [if_neg (by simpa using h3)] at h; cases h
        · rw [if_pos h3] at h; cases h

/-- A failing neighbour loop fails at some neighbour, in a state in which the property
carried through the loop holds. -/
theorem scan_fold_error {color : Int} (hcol : color = 1 ∨ color = 2) {xy : Nat} {movenr : Int}
    (P : State → List Nat → Prop)
    (hP : ∀ st pending, P st pending →
      Wf st xy pending ∧ onBoard st.sz xy ∧ st.board xy = color.toNat)
    (hstep : ∀ st t0 rest r, P st (t0 :: rest) → Scan xy movenr t0 st r → P r rest) :
    ∀ (ds : List Int), (∀ d ∈ ds, d ∈ dirs) → ∀ st, P st (ds.map (nbr xy)) →
      ∀ e, ds.foldlM (do_move_nbr color xy movenr) (st, st.current_chain xy) = .error e →
        ∃ st1 t0 rest, P st1 (t0 :: rest) ∧ ScanErr xy movenr t0 st1 e := by
  intro ds
  induction ds with
  | nil =>
    intro _ st hst e hr
    cases hr
  | cons d ds ih =>
    intro hd st hst e hr
    rw [List.foldlM_cons] at hr
    obtain ⟨hw, hon, hxy⟩ := hP _ _ hst
    cases h1 : do_move_nbr color xy movenr (st, st.current_chain xy) d with
    | error e1 =>
      rw [h1] at hr
      injection hr with hr
      subst hr
      exact ⟨st, nbr xy d, ds.map (nbr xy), hst,
        do_move_nbr_error hcol hw hon hxy (hd d (List.mem_cons_self _ _)) h1⟩
    | ok a =>
      rw [h1] at hr
      obtain ⟨hs, ha⟩ := do_move_nbr_ok hcol hw hon hxy (hd d (List.mem_cons_self _ _)) h1
      have hPa := hstep _ _ _ _ hst hs
      have : a = (a.1, a.1.current_chain xy) := by rw [← ha]
      rw [this] at hr
      exact ih (fun d1 hd1 => hd d1 (List.mem_cons_of_mem _ hd1)) a.1 hPa e hr

end Playgogame

namespace Playgogame

/-! ## The log -/

theorem placeRec_facts_all : ∀ p < 1024, ∀ c < 3, 0 < c →
    recPos (placeRec p c) = p ∧ recColor (placeRec p c) = c ∧ ¬ isCapture (placeRec p c) ∧
    ¬ isPass (placeRec p c) ∧ ¬ isPermanent (placeRec p c) ∧ placeRec p c = p + 1024 * c := by
  decide!

theorem captureRec_facts_all : ∀ p < 1024, ∀ c < 3, 0 < c →
    recPos (captureRec p c) = p ∧ recColor (captureRec p c) = c ∧ isCapture (captureRec p c) ∧
    ¬ isPass (captureRec p c) ∧ ¬ isPermanent (captureRec p c) ∧
    captureRec p c = p + 1024 * c + 16384 := by
  decide!

theorem passRec_facts_all : ∀ c < 3, 0 < c →
    recPos (passRec (Int.ofNat c)) = 0 ∧ recColor (passRec (Int.ofNat c)) = c ∧
    ¬ isCapture (passRec (Int.ofNat c)) ∧ isPass (passRec (Int.ofNat c)) ∧
    ¬ isPermanent (passRec (Int.ofNat c)) ∧ passRec (Int.ofNat c) = 1024 * c + 4096 := by
  decide!

theorem placeRec_permanent_all : ∀ p < 1024, ∀ c < 3, 0 < c →
    recPos (placeRec p c ||| PG_PERMANENT) = p ∧ recColor (placeRec p c ||| PG_PERMANENT) = c ∧
    ¬ isCapture (placeRec p c ||| PG_PERMANENT) ∧ ¬ isPass (placeRec p c ||| PG_PERMANENT) ∧
    isPermanent (placeRec p c ||| PG_PERMANENT) ∧
    placeRec p c ||| PG_PERMANENT = p + 1024 * c + 8192 := by
  decide!

theorem captureRec_permanent_all : ∀ p < 1024, ∀ c < 3, 0 < c →
    recPos (captureRec p c ||| PG_PERMANENT) = p ∧
    recColor (captureRec p c ||| PG_PERMANENT) = c ∧
    isCapture (captureRec p c ||| PG_PERMANENT) ∧ ¬ isPass (captureRec p c ||| PG_PERMANENT) ∧
    isPermanent (captureRec p c ||| PG_PERMANENT) ∧
    captureRec p c ||| PG_PERMANENT = p + 1024 * c + 16384 + 8192 := by
  decide!

theorem passRec_permanent_all : ∀ c < 3, 0 < c →
    recPos (passRec (Int.ofNat c) ||| PG_PERMANENT) = 0 ∧
    recColor (passRec (Int.ofNat c) ||| PG_PERMANENT) = c ∧
    ¬ isCapture (passRec (Int.ofNat c) ||| PG_PERMANENT) ∧
    isPass (passRec (Int.ofNat c) ||| PG_PERMANENT) ∧
    isPermanent (passRec (Int.ofNat c) ||| PG_PERMANENT) ∧
    passRec (Int.ofNat c) ||| PG_PERMANENT = 1024 * c + 4096 + 8192 := by
  decide!

theorem isStone_lt {c : Nat} (h : isStone c) : c < 3 ∧ 0 < c := by
  unfold isStone WHITE BLACK at h; omega

theorem placeRec_facts {p c : Nat} (hp : p < 1024) (hc : isStone c) :
    recPos (placeRec p c) = p ∧ recColor (placeRec p c) = c ∧ ¬ isCapture (placeRec p c) ∧
    ¬ isPass (placeRec p c) ∧ ¬ isPermanent (placeRec p c) ∧ placeRec p c = p + 1024 * c :=
  placeRec_facts_all p hp c (isStone_lt hc).1 (isStone_lt hc).2

theorem captureRec_facts {p c : Nat} (hp : p < 1024) (hc : isStone c) :
    recPos (captureRec p c) = p ∧ recColor (captureRec p c) = c ∧ isCapture (captureRec p c) ∧
    ¬ isPass (captureRec p c) ∧ ¬ isPermanent (captureRec p c) ∧
    captureRec p c = p + 1024 * c + 16384 :=
  captureRec_facts_all p hp c (isStone_lt hc).1 (isStone_lt hc).2

theorem passRec_facts {c : Nat} (hc : isStone c) :
    recPos (passRec (Int.ofNat c)) = 0 ∧ recColor (passRec (Int.ofNat c)) = c ∧
    ¬ isCapture (passRec (Int.ofNat c)) ∧ isPass (passRec (Int.ofNat c)) ∧
    ¬ isPermanent (passRec (Int.ofNat c)) ∧ passRec (Int.ofNat c) = 1024 * c + 4096 :=
  passRec_facts_all c (isStone_lt hc).1 (isStone_lt hc).2

theorem getElem?_append_singleton {α : Type} (l : List α) (a m : α) (i : Nat) :
    (l ++ [a])[i]? = some m ↔ l[i]? = some m ∨ (i = l.length ∧ m = a) := by
  by_cases h : i < l.length
  · rw [List.getElem?_append_left h]
    constructor
    · intro h1; exact Or.inl h1
    · rintro (h1 | ⟨h1, _⟩)
      · exact h1
      · omega
  · rw [List.getElem?_append_right (by omega)]
    have hn : l[i]? = none := List.getElem?_eq_none (by omega)
    rw [hn]
    by_cases h2 : i = l.length
    · subst h2
      simp
      constructor
      · intro e; exact e.symm
      · intro e; exact e.symm
    · have : i - l.length ≠ 0 := by omega
      have h3 : [a][i - l.length]? = none := List.getElem?_eq_none (by simp; omega)
      rw [h3]
      simp [h2]

theorem LogOk.log_of_eq {st r : State} (h : LogOk st) (h1 : r.mv = st.mv)
    (h2 : r.last_change = st.last_change) (h3 : r.board = st.board) (h4 : r.mvlen = st.mvlen) :
    LogOk r := by
  constructor
  · rw [h1, h2]; exact h.lc_ge
  · rw [h1, h2]; exact h.lc_rec
  · rw [h1, h2, h3]; exact h.stone_rec
  · rw [h1, h2, h3]; exact h.rec_stone
  · rw [h1]; exact h.form
  · rw [h1, h4]; exact h.len

/-- Appending an entry for the position `s` and recording its index in `last_change`
keeps the index part of the log invariant. -/
theorem LogOk.append_aux {st : State} (h : LogOk st) {s m0 : Nat} (hs : recPos m0 = s)
    (hnp : ¬ isPass m0) :
    (∀ (i m : Nat), (st.mv ++ [m0])[i]? = some m → ¬ isPass m →
      i ≤ Function.update st.last_change s st.mv.length (recPos m)) ∧
    (∀ (i m : Nat), (st.mv ++ [m0])[i]? = some m → ¬ isPass m →
      ∃ m1 : Nat, (st.mv ++ [m0])[Function.update st.last_change s st.mv.length (recPos m)]?
          = some m1 ∧ ¬ isPass m1 ∧ recPos m1 = recPos m) := by
  constructor
  · intro i m hm hp
    rcases (getElem?_append_singleton _ _ _ _).mp hm with h1 | ⟨h1, h2⟩
    · have hi : i < st.mv.length := by
        by_contra hc
        rw [List.getElem?_eq_none (by omega)] at h1
        cases h1
      by_cases e : recPos m = s
      · rw [e, Function.update_same]; omega
      · rw [Function.update_noteq e]; exact h.lc_ge i m h1 hp
    · subst h2; rw [hs, Function.update_same]; omega
  · intro i m hm hp
    by_cases e : recPos m = s
    · rw [e, Function.update_same]
      exact ⟨m0, (getElem?_append_singleton _ _ _ _).mpr (Or.inr ⟨rfl, rfl⟩), hnp, hs⟩
    · rw [Function.update_noteq e]
      rcases (getElem?_append_singleton _ _ _ _).mp hm with h1 | ⟨h1, h2⟩
      · obtain ⟨m1, a, b, c⟩ := h.lc_rec i m h1 hp
        exact ⟨m1, (getElem?_append_singleton _ _ _ _).mpr (Or.inl a), b, c⟩
      · subst h2; exact absurd hs e

/-- Logging the capture of the stone on `s` keeps the log invariant. -/
theorem LogOk.cap {st : State} (h : LogOk st) {s : Nat} (hs : isStone (st.board s))
    (h33 : 33 ≤ s) (hlt : s < 1024) (hroom : st.mv.length < st.mvlen) : LogOk (st.cap s) := by
  obtain ⟨f1, f2, f3, f4, f5, f6⟩ := captureRec_facts hlt hs
  obtain ⟨a1, a2⟩ := h.append_aux f1 f4
  refine ⟨a1, a2, ?_, ?_, ?_, ?_⟩
  · intro p hp
    rw [cap_board] at hp
    by_cases e : p = s
    · rw [e, Function.update_same] at hp; exact absurd hp not_isStone_empty
    · rw [Function.update_noteq e] at hp
      rw [cap_board, cap_lc, cap_mv, Function.update_noteq e, Function.update_noteq e]
      exact (getElem?_append_singleton _ _ _ _).mpr (Or.inl (h.stone_rec p hp))
  · intro i m hm hp hc hl
    rw [cap_mv] at hm
    rw [cap_lc] at hl
    rw [cap_board]
    rcases (getElem?_append_singleton _ _ _ _).mp hm with h1 | ⟨h1, h2⟩
    · have hi : i < st.mv.length := by
        by_contra hc
        rw [List.getElem?_eq_none (by omega)] at h1
        cases h1
      by_cases e : recPos m = s
      · rw [e, Function.update_same] at hl; omega
      · rw [Function.update_noteq e] at hl ⊢
        exact h.rec_stone i m h1 hp hc hl
    · subst h2; exact absurd f3 hc
  · intro m hm
    rw [cap_mv] at hm
    rcases List.mem_append.mp hm with h1 | h1
    · exact h.form m h1
    · rw [List.mem_singleton] at h1
      exact Or.inr ⟨s, st.board s, h33, hlt, hs, Or.inr h1⟩
  · rw [cap_mv, cap_mvlen, List.length_append, List.length_singleton]; omega

theorem LogOk.foldl_cap (l : List Nat) : ∀ {st : State}, LogOk st → l.Nodup →
    (∀ s ∈ l, isStone (st.board s) ∧ 33 ≤ s ∧ s < 1024) →
    st.mv.length + l.length ≤ st.mvlen → LogOk (l.foldl State.cap st) := by
  induction l with
  | nil => intro st h _ _ _; exact h
  | cons s l ih =>
    intro st h hn hs hroom
    have hn' := List.nodup_cons.mp hn
    obtain ⟨a, b, c⟩ := hs s (List.mem_cons_self _ _)
    rw [List.length_cons] at hroom
    rw [List.foldl_cons]
    apply ih (h.cap a b c (by omega)) hn'.2
    · intro s1 hs1
      obtain ⟨a1, b1, c1⟩ := hs s1 (List.mem_cons_of_mem _ hs1)
      have : s1 ≠ s := fun e => hn'.1 (e ▸ hs1)
      rw [cap_board, Function.update_noteq this]
      exact ⟨a1, b1, c1⟩
    · rw [cap_mv, cap_mvlen, List.length_append, List.length_singleton]; omega

/-- Putting a stone on `xy` and logging it keeps the log invariant. -/
theorem LogOk.log_placed {st : State} (h : LogOk st) {col xy : Nat} (hcol : isStone col)
    (h33 : 33 ≤ xy) (hlt : xy < 1024) (hroom : st.mv.length < st.mvlen) :
    LogOk (st.placed col xy) := by
  obtain ⟨f1, f2, f3, f4, f5, f6⟩ := placeRec_facts hlt hcol
  obtain ⟨a1, a2⟩ := h.append_aux f1 f4
  refine ⟨a1, a2, ?_, ?_, ?_, ?_⟩
  · intro p hp
    rw [placed_board, placed_lc, placed_mv]
    by_cases e : p = xy
    · rw [e, Function.update_same, Function.update_same]
      exact (getElem?_append_singleton _ _ _ _).mpr (Or.inr ⟨rfl, rfl⟩)
    · rw [placed_board, Function.update_noteq e] at hp
      rw [Function.update_noteq e, Function.update_noteq e]
      exact (getElem?_append_singleton _ _ _ _).mpr (Or.inl (h.stone_rec p hp))
  · intro i m hm hp hc hl
    rw [placed_mv] at hm
    rw [placed_lc] at hl
    rw [placed_board]
    rcases (getElem?_append_singleton _ _ _ _).mp hm with h1 | ⟨h1, h2⟩
    · have hi : i < st.mv.length := by
        by_contra hc
        rw [List.getElem?_eq_none (by omega)] at h1
        cases h1
      by_cases e : recPos m = xy
      · rw [e, Function.update_same] at hl; omega
      · rw [Function.update_noteq e] at hl ⊢
        exact h.rec_stone i m h1 hp hc hl
    · subst h2
      rw [f1, Function.update_same, f2]
  · intro m hm
    rw [placed_mv] at hm
    rcases List.mem_append.mp hm with h1 | h1
    · exact h.form m h1
    · rw [List.mem_singleton] at h1
      exact Or.inr ⟨xy, col, h33, hlt, hcol, Or.inl h1⟩
  · rw [placed_mv, placed_mvlen, List.length_append, List.length_singleton]; omega

theorem Scan.effect_log {st r : State} {xy t0 : Nat} {movenr : Int}
    (hs : Scan xy movenr t0 st r) :
    (r = st.captured t0 ∧ isStone (st.board t0) ∧
      ¬ (st.mv.length ≤ st.mvlen ∧ st.mvlen < st.mv.length + (chainAt st t0).length)) ∨
    (r.board = st.board ∧ r.mv = st.mv ∧ r.mvlen = st.mvlen ∧
      r.last_change = st.last_change) := by
  cases hs with
  | empty h0 => right; rw [addLib_eq_bump]; exact ⟨rfl, rfl, rfl, rfl⟩
  | border h0 h1 => right; exact ⟨rfl, rfl, rfl, rfl⟩
  | opp h1 h2 h3 h4 => right; rw [addLib_eq_bump]; exact ⟨rfl, rfl, rfl, rfl⟩
  | capture h1 h2 h3 h4 h5 => left; exact ⟨rfl, h1, h4⟩
  | merge h1 h2 =>
    right
    refine ⟨by rw [merged_board, addLib_eq_bump]; rfl, by rw [merged_mv, addLib_eq_bump]; rfl,
      by rw [merged_mvlen, addLib_eq_bump]; rfl, by rw [merged_lc, addLib_eq_bump]; rfl⟩
  | same h1 h2 => right; rw [addLib_eq_bump]; exact ⟨rfl, rfl, rfl, rfl⟩

/-- The log invariant passes through an iteration of the neighbour loop. -/
theorem LogOk.log_scan {st r : State} {xy t0 : Nat} {pending : List Nat} {movenr : Int}
    (h : LogOk st) (hw : Wf st xy pending) (hs : Scan xy movenr t0 st r) : LogOk r := by
  rcases hs.effect_log with ⟨e, h1, h2⟩ | ⟨a, b, c, d⟩
  · subst e
    have h0 : LogOk (st.addLib (st.current_chain t0) (-1)) := by
      rw [addLib_eq_bump]; exact h.log_of_eq rfl rfl rfl rfl
    have hl := h.len
    have h3 : LogOk ((chainAt st t0).foldl State.cap (st.addLib (st.current_chain t0) (-1))) := by
      apply LogOk.foldl_cap _ h0 (hw.chain.nodup t0 h1)
      · intro s hs1
        have hst := hw.chain.stone h1 hs1
        have hon := hw.board.stone_on s hst
        have := onBoard_le hon hw.board.sz_le
        rw [addLib_eq_bump, bump_board]
        exact ⟨hst, onBoard_ge hon, by omega⟩
      · rw [addLib_eq_bump, bump_mv, bump_mvlen]; omega
    unfold State.captured
    exact h3.log_of_eq rfl rfl rfl rfl
  · exact h.log_of_eq b d a c

/-- A stone put on an empty point of the board by `do_move` without error keeps the
log invariant. -/
theorem do_place_log {st r : State} (h : Inv st) (hl : LogOk st) {color : Int}
    (hcol : color = 1 ∨ color = 2) {xy : Nat} (hon : onBoard st.sz xy)
    (he : st.board xy = EMPTY) {movenr : Int}
    (hr : do_place st color xy movenr = .ok r) : LogOk r := by
  rw [do_place_eq] at hr
  split at hr
  · cases hr
  rename_i hroom
  split at hr
  · cases hr
  obtain ⟨hs, hc⟩ := isStone_toNat hcol
  cases hf : dirs.foldlM (do_move_nbr color xy movenr)
      (st.placed (color % 256).toNat xy, st.chainct) with
  | error e => rw [hf] at hr; cases hr
  | ok a =>
    rw [hf] at hr
    rw [hc] at hs hf
    have hch : st.chainct = (st.placed color.toNat xy).current_chain xy := by
      rw [placed_cc, Function.update_same]
    rw [hch] at hf
    have hstart := h.loop_start hs hon he
    have h627 := onBoard_le hon h.wf.board.sz_le
    have hlen := hl.len
    have hl0 : LogOk (st.placed color.toNat xy) :=
      hl.log_placed hs (onBoard_ge hon) (by omega) (by omega)
    have key := @scan_fold color hcol xy movenr
      (fun s pend => LoopOk st color.toNat xy s pend ∧ s.board xy = color.toNat ∧ LogOk s)
      (fun s pend h => ⟨h.1.wf, h.1.onb, h.2.1⟩)
      (by
        intro s t0 rest r1 ⟨h1, h2, h3⟩ hsc
        refine ⟨h1.loop_scan h hs he hsc, ?_, h3.log_scan h1.wf hsc⟩
        rw [(h1.wf.wf_scan (by rw [h2]; exact hs) hsc).2, h2])
      dirs (fun d hd => hd) _ ⟨hstart, by rw [placed_board, Function.update_same], hl0⟩ a hf
    change (if (a.1.chains a.2).liberties = 0 then _ else _) = _ at hr
    split at hr
    · split at hr <;> cases hr
    · injection hr with hr
      subst hr
      exact key.1.2.2

theorem add_pass_log {st r : State} (hl : LogOk st) {color : Int}
    (hcol : color = 1 ∨ color = 2) (hr : add_pass st color = .ok r) : LogOk r := by
  obtain ⟨hroom, e⟩ := add_pass_ok hr
  subst e
  have hs : isStone color.toNat := (isStone_toNat hcol).2 ▸ (isStone_toNat hcol).1
  have hce : color = Int.ofNat color.toNat := by
    rcases hcol with h | h <;> subst h <;> rfl
  have hrec : ((color * 1024) % 65536).toNat ||| PG_PASS = passRec (Int.ofNat color.toNat) := by
    rw [← hce]; rfl
  obtain ⟨f1, f2, f3, f4, f5, f6⟩ := passRec_facts hs
  have hlen := hl.len
  constructor
  · intro i m hm hp
    rcases (getElem?_append_singleton _ _ _ _).mp hm with h1 | ⟨_, h2⟩
    · exact hl.lc_ge i m h1 hp
    · rw [h2, hrec] at hp; exact absurd f4 hp
  · intro i m hm hp
    rcases (getElem?_append_singleton _ _ _ _).mp hm with h1 | ⟨_, h2⟩
    · obtain ⟨m1, a, b, c⟩ := hl.lc_rec i m h1 hp
      exact ⟨m1, (getElem?_append_singleton _ _ _ _).mpr (Or.inl a), b, c⟩
    · rw [h2, hrec] at hp; exact absurd f4 hp
  · intro p hp
    exact (getElem?_append_singleton _ _ _ _).mpr (Or.inl (hl.stone_rec p hp))
  · intro i m hm hp hc hlc
    rcases (getElem?_append_singleton _ _ _ _).mp hm with h1 | ⟨_, h2⟩
    · exact hl.rec_stone i m h1 hp hc hlc
    · rw [h2, hrec] at hp; exact absurd f4 hp
  · intro m hm
    rcases List.mem_append.mp hm with h1 | h1
    · exact hl.form m h1
    · rw [List.mem_singleton] at h1
      exact Or.inl ⟨color.toNat, hs, by rw [h1, hrec]⟩
  · show (st.mv ++ [_]).length ≤ st.mvlen
    rw [List.length_append, List.length_singleton]; omega

theorem do_move_log {st r : State} (h : Inv st) (hl : LogOk st) {color : Int}
    (hcol : color = 1 ∨ color = 2) {x y movenr : Int}
    (hr : do_move st color x y movenr = .ok r) : LogOk r := by
  unfold do_move at hr
  split at hr
  · exact add_pass_log hl hcol hr
  split at hr
  · exact add_pass_log hl hcol hr
  split at hr
  · cases hr
  rename_i hxy
  simp only at hr
  split at hr
  · cases hr
  rename_i he
  have hb := onBoard_POS (n := st.sz) (x := x) (y := y) (by omega) (by omega) (by omega)
    (by omega) h.wf.board.sz_le
  exact do_place_log h hl hcol hb.1 (by simpa using he) hr

theorem init_log {g st : State} {size : Int} (h : init g size = .ok st) : LogOk st := by
  unfold init at h
  split at h
  · cases h
  injection h with h
  subst h
  constructor
  · intro i m hm; simp at hm
  · intro i m hm; simp at hm
  · intro p hp; exact absurd hp (init_board_not_stone _ _)
  · intro i m hm; simp at hm
  · intro m hm; simp at hm
  · simp

theorem play_moves_good {initct : Int} {moves : List Int} (hc : ColoursOk moves) :
    ∀ {st r : State} {i : Nat}, Inv st → LogOk st → play_moves initct st i moves = .ok r →
      Inv r ∧ LogOk r := by
  induction moves with
  | nil =>
    intro st r i h hl hr
    injection hr with hr
    subst hr
    exact ⟨h, hl⟩
  | cons m ms ih =>
    intro st r i h hl hr
    unfold play_moves at hr
    cases h1 : do_move st (move_color m) (move_x m) (move_y m)
        (if (i : Int) ≥ initct then (i : Int) - initct + 1 else 0) with
    | error e => rw [h1] at hr; cases hr
    | ok a =>
      rw [h1] at hr
      have hm := hc m (List.mem_cons_self _ _)
      exact ih (fun m1 hm1 => hc m1 (List.mem_cons_of_mem _ hm1))
        (do_move_inv h hm h1) (do_move_log h hl hm h1) hr

/-- The invariants hold in every state that the first loop of `playgogame` reaches. -/
theorem run_good {g st : State} {size initct : Int} {moves : List Int}
    (hc : ColoursOk moves) (h : run g size moves initct = .ok st) : Inv st ∧ LogOk st := by
  unfold run at h
  cases h0 : init g size with
  | error e => rw [h0] at h; cases h
  | ok st0 =>
    rw [h0] at h
    exact play_moves_good hc (init_inv h0) (init_log h0) h

theorem ok_stateOf {r : Except Err State} (d : State) (h : isOk r = true) :
    r = .ok (stateOf r d) := by
  cases r with
  | ok s => rfl
  | error e => cases h

/-- A move on a point of the board is not a pass: `do_move` puts the stone. -/
theorem do_move_on_board {st : State} (hb : BoardOk st) {color x y movenr : Int}
    (hx : 1 ≤ x ∧ x ≤ st.sz) (hy : 1 ≤ y ∧ y ≤ st.sz) :
    do_move st color x y movenr =
      if st.board (POS x y).toNat ≠ EMPTY then .error (.play_on_nonempty_position movenr)
      else do_place st color (POS x y).toNat movenr := by
  have h1 := hb.sz1_eq
  have h2 := hb.sz_le
  unfold do_move
  rw [if_neg (by omega), if_neg (by omega), if_neg (by omega)]

/-- What a stone put on the board by `do_move` without error has done, in terms of the
state before the move. -/
theorem do_place_spec {s0 r : State} (hi : Inv s0) {color : Int} (hcol : color = 1 ∨ color = 2)
    {xy : Nat} (hon : onBoard s0.sz xy) (he : s0.board xy = EMPTY) {movenr : Int}
    (hr : do_place s0 color xy movenr = .ok r) :
    LoopOk s0 color.toNat xy r [] := by
  rw [do_place_eq] at hr
  split at hr
  · cases hr
  split at hr
  · cases hr
  cases hf : dirs.foldlM (do_move_nbr color xy movenr)
      (s0.placed (color % 256).toNat xy, s0.chainct) with
  | error e => rw [hf] at hr; cases hr
  | ok a =>
    rw [hf] at hr
    obtain ⟨h1, _⟩ := loop_ok hi hcol hon he hf
    change (if (a.1.chains a.2).liberties = 0 then _ else _) = _ at hr
    split at hr
    · split at hr <;> cases hr
    · injection hr with hr
      subst hr
      exact h1

theorem playgogame_eq (g : State) (size initct : Int) (moves : List Int) :
    playgogame g size moves initct = (run g size moves initct).map mark_permanent := by
  unfold playgogame run
  cases init g size with
  | error e => rfl
  | ok st0 =>
    show (play_moves initct st0 0 moves).map mark_permanent = _
    rfl

theorem playgogame_ok {g r : State} {size initct : Int} {moves : List Int}
    (h : playgogame g size moves initct = .ok r) :
    ∃ st, run g size moves initct = .ok st ∧ r = mark_permanent st := by
  rw [playgogame_eq] at h
  cases hr : run g size moves initct with
  | error e => rw [hr] at h; cases h
  | ok st =>
    rw [hr] at h
    injection h with h
    exact ⟨st, rfl, h.symm⟩

theorem mark_permanent_getElem? (st : State) (i : Nat) :
    (mark_permanent st).mv[i]? = (st.mv[i]?).map (marked st i) := by
  unfold mark_permanent
  simp only [List.getElem?_mapIdx]
  rfl

theorem mark_permanent_some {st : State} {i m : Nat}
    (h : (mark_permanent st).mv[i]? = some m) :
    ∃ m0, st.mv[i]? = some m0 ∧ m = marked st i m0 := by
  rw [mark_permanent_getElem?] at h
  cases h0 : st.mv[i]? with
  | none => rw [h0] at h; cases h
  | some m0 =>
    rw [h0] at h
    injection h with h
    exact ⟨m0, rfl, h.symm⟩

/-- The flag and the fields of an entry after the second loop of `playgogame`. -/
theorem marked_facts {st : State} (hl : LogOk st) {i m0 : Nat} (h : st.mv[i]? = some m0) :
    recPos (marked st i m0) = recPos m0 ∧ recColor (marked st i m0) = recColor m0 ∧
    (isPass (marked st i m0) ↔ isPass m0) ∧ (isCapture (marked st i m0) ↔ isCapture m0) ∧
    (isPermanent (marked st i m0) ↔ st.last_change (recPos m0) = i) := by
  have hmem : m0 ∈ st.mv := List.getElem?_mem h
  unfold marked
  show _ ∧ _ ∧ _ ∧ _ ∧ (_ ↔ st.last_change (m0 &&& 0x3ff) = i)
  rcases hl.form m0 hmem with ⟨c, hc, e⟩ | ⟨p, c, _, hp, hc, e | e⟩
  · subst e
    obtain ⟨f1, f2, f3, f4, f5, _⟩ := passRec_facts hc
    obtain ⟨g1, g2, g3, g4, g5, _⟩ :=
      passRec_permanent_all c (isStone_lt hc).1 (isStone_lt hc).2
    split
    · rename_i hh
      exact ⟨g1.trans f1.symm, g2.trans f2.symm, ⟨fun _ => f4, fun _ => g4⟩,
        ⟨fun x => absurd x g3, fun x => absurd x f3⟩, ⟨fun _ => hh, fun _ => g5⟩⟩
    · rename_i hh
      exact ⟨rfl, rfl, Iff.rfl, Iff.rfl, ⟨fun x => absurd x f5, fun x => absurd x hh⟩⟩
  · subst e
    obtain ⟨f1, f2, f3, f4, f5, _⟩ := placeRec_facts hp hc
    obtain ⟨g1, g2, g3, g4, g5, _⟩ :=
      placeRec_permanent_all p hp c (isStone_lt hc).1 (isStone_lt hc).2
    split
    · rename_i hh
      exact ⟨g1.trans f1.symm, g2.trans f2.symm, ⟨fun x => absurd x g4, fun x => absurd x f4⟩,
        ⟨fun x => absurd x g3, fun x => absurd x f3⟩, ⟨fun _ => hh, fun _ => g5⟩⟩
    · rename_i hh
      exact ⟨rfl, rfl, Iff.rfl, Iff.rfl, ⟨fun x => absurd x f5, fun x => absurd x hh⟩⟩
  · subst e
    obtain ⟨f1, f2, f3, f4, f5, _⟩ := captureRec_facts hp hc
    obtain ⟨g1, g2, g3, g4, g5, _⟩ :=
      captureRec_permanent_all p hp c (isStone_lt hc).1 (isStone_lt hc).2
    split
    · rename_i hh
      exact ⟨g1.trans f1.symm, g2.trans f2.symm, ⟨fun x => absurd x g4, fun x => absurd x f4⟩,
        ⟨fun _ => f3, fun _ => g3⟩, ⟨fun _ => hh, fun _ => g5⟩⟩
    · rename_i hh
      exact ⟨rfl, rfl, Iff.rfl, Iff.rfl, ⟨fun x => absurd x f5, fun x => absurd x hh⟩⟩

end Playgogame
namespace Playgogame


theorem placeRec_eq_all : ∀ p < 1024, ∀ c < 3, 0 < c → placeRec p c = p ||| (c <<< 10) := by
  decide!

theorem passRec_eq (color : Int) (hcol : color = 1 ∨ color = 2) :
    ((color * 1024) % 65536).toNat ||| PG_PASS = (color.toNat <<< 10) ||| PG_PASS ∧
    ((color * 1024) % 65536).toNat ||| PG_PASS = passRec (Int.ofNat color.toNat) := by
  rcases hcol with h | h <;> subst h <;> exact ⟨by decide, by decide⟩

/-- What an accepted move appends to the log: its entry, then CAPTURE entries only. -/
theorem do_move_block {st r : State} (hi : Inv st) {m : Int}
    (hc : move_color m = 1 ∨ move_color m = 2) {movenr : Int}
    (hr : do_move st (move_color m) (move_x m) (move_y m) movenr = .ok r) :
    ∃ caps : List Nat, r.mv = st.mv ++ encodeMove st.sz m :: caps ∧
      (∀ c ∈ caps, isCapture c) ∧ ¬ isCapture (encodeMove st.sz m) := by
  have hs1 := hi.wf.board.sz1_eq
  by_cases hp : isPassXY st.sz (move_x m) (move_y m)
  · have hpass : do_move st (move_color m) (move_x m) (move_y m) movenr
        = add_pass st (move_color m) := by
      unfold do_move
      unfold isPassXY at hp
      rcases hp with h | h
      · rw [if_pos (by rw [hs1]; exact h)]
      · by_cases h2 : move_x m = st.sz1 ∧ move_y m = st.sz1
        · rw [if_pos h2]
        · rw [if_neg h2, if_pos (by rw [hs1]; exact h)]
    rw [hpass] at hr
    obtain ⟨_, e⟩ := add_pass_ok hr
    subst e
    have hs : isStone (move_color m).toNat := (isStone_toNat hc).2 ▸ (isStone_toNat hc).1
    have he : encodeMove st.sz m = passRec (Int.ofNat (move_color m).toNat) := by
      unfold encodeMove
      rw [if_pos hp, ← (passRec_eq _ hc).1, (passRec_eq _ hc).2]
    refine ⟨[], ?_, ?_, ?_⟩
    · show st.mv ++ [_] = _
      rw [he, ← (passRec_eq _ hc).2]
    · intro c hc; cases hc
    · rw [he]; exact (passRec_facts hs).2.2.1
  · have hnp := hp
    unfold isPassXY at hp
    have hne : ¬ (move_x m = st.sz1 ∧ move_y m = st.sz1) := by
      rw [hs1]; exact fun h => hp (Or.inl h)
    have hne2 : ¬ (move_x m = 20 ∧ move_y m = 20 ∧ st.sz1 < 20) := by
      rw [hs1]; exact fun h => hp (Or.inr h)
    unfold do_move at hr
    rw [if_neg hne, if_neg hne2] at hr
    split at hr
    · cases hr
    rename_i hxy
    simp only at hr
    split at hr
    · cases hr
    rename_i he
    have hb := onBoard_POS (n := st.sz) (x := move_x m) (y := move_y m) (by omega) (by omega)
      (by omega) (by omega) hi.wf.board.sz_le
    have hl := do_place_spec hi hc hb.1 (by simpa using he) hr
    obtain ⟨caps, hk⟩ := hl.cap
    have hs : isStone (move_color m).toNat := (isStone_toNat hc).2 ▸ (isStone_toNat hc).1
    have h627 := onBoard_le hb.1 hi.wf.board.sz_le
    have he : encodeMove st.sz m = placeRec (POS (move_x m) (move_y m)).toNat
        (move_color m).toNat := by
      unfold encodeMove
      rw [if_neg hnp, placeRec_eq_all _ (by omega) _ (isStone_lt hs).1 (isStone_lt hs).2]
      congr 1
      have := hb.2
      omega
    refine ⟨caps.map fun p => captureRec p (st.board p), ?_, ?_, ?_⟩
    · rw [hk.mv, he]
    swap
    · rw [he]; exact (placeRec_facts (by omega) hs).2.2.1
    · intro c hcm
      obtain ⟨p, hp1, e⟩ := List.mem_map.mp hcm
      subst e
      obtain ⟨⟨a, _, _, _⟩, _⟩ := (hk.cap p).mp hp1
      have hpo := hi.wf.board.stone_on p a
      have := onBoard_le hpo hi.wf.board.sz_le
      exact (captureRec_facts (by omega) a).2.2.1

theorem blocksLog_nil (size : Int) : blocksLog size [] [] = [] := rfl

theorem blocksLog_cons (size : Int) (m : Int) (ms : List Int) (b : List Nat)
    (bs : List (List Nat)) :
    blocksLog size (m :: ms) (b :: bs) = encodeMove size m :: b ++ blocksLog size ms bs := by
  simp [blocksLog]

theorem Scan.sz {st r : State} {xy t0 : Nat} {movenr : Int} (hs : Scan xy movenr t0 st r) :
    r.sz = st.sz := by
  cases hs <;> simp [addLib_eq_bump]

theorem do_place_sz {s0 r : State} (hi : Inv s0) {color : Int} (hcol : color = 1 ∨ color = 2)
    {xy : Nat} (hon : onBoard s0.sz xy) (he : s0.board xy = EMPTY) {movenr : Int}
    (hr : do_place s0 color xy movenr = .ok r) : r.sz = s0.sz := by
  rw [do_place_eq] at hr
  split at hr
  · cases hr
  split at hr
  · cases hr
  cases hf : dirs.foldlM (do_move_nbr color xy movenr)
      (s0.placed (color % 256).toNat xy, s0.chainct) with
  | error e => rw [hf] at hr; cases hr
  | ok a =>
    rw [hf] at hr
    change (if (a.1.chains a.2).liberties = 0 then _ else _) = _ at hr
    split at hr
    · split at hr <;> cases hr
    injection hr with hr
    subst hr
    obtain ⟨hs, hc⟩ := isStone_toNat hcol
    rw [hc] at hs hf
    have hch : s0.chainct = (s0.placed color.toNat xy).current_chain xy := by
      rw [placed_cc, Function.update_same]
    rw [hch] at hf
    have hstart := hi.loop_start hs hon he
    exact (@scan_fold color hcol xy movenr
      (fun s pend => (LoopOk s0 color.toNat xy s pend ∧ s.board xy = color.toNat) ∧
        s.sz = s0.sz)
      (fun s pend h => ⟨h.1.1.wf, h.1.1.onb, h.1.2⟩)
      (by
        intro s t0 rest r1 ⟨⟨h1, h2⟩, h4⟩ hsc
        have h3 := h1.loop_scan hi hs he hsc
        refine ⟨⟨h3, ?_⟩, by rw [hsc.sz, h4]⟩
        rw [(h1.wf.wf_scan (by rw [h2]; exact hs) hsc).2, h2])
      dirs (fun d hd => hd) _ ⟨⟨hstart, by rw [placed_board, Function.update_same]⟩, rfl⟩
      a hf).1.2

theorem do_move_sz {st r : State} {color x y movenr : Int} (hi : Inv st)
    (hcol : color = 1 ∨ color = 2) (h : do_move st color x y movenr = .ok r) : r.sz = st.sz := by
  unfold do_move at h
  split at h
  · obtain ⟨_, e⟩ := add_pass_ok h; subst e; rfl
  split at h
  · obtain ⟨_, e⟩ := add_pass_ok h; subst e; rfl
  split at h
  · cases h
  rename_i hxy
  simp only at h
  split at h
  · cases h
  rename_i he
  have hb := onBoard_POS (n := st.sz) (x := x) (y := y) (by omega) (by omega) (by omega)
    (by omega) hi.wf.board.sz_le
  exact do_place_sz hi hcol hb.1 (by simpa using he) h

/-- The log after a list of moves: the log before, then a block for each move. -/
theorem play_moves_blocks {initct : Int} :
    ∀ (moves : List Int) (st r : State) (i : Nat), Inv st → ColoursOk moves →
      play_moves initct st i moves = .ok r →
      ∃ blocks : List (List Nat), blocks.length = moves.length ∧
        (∀ b ∈ blocks, ∀ c ∈ b, isCapture c) ∧
        (∀ m ∈ moves, ¬ isCapture (encodeMove st.sz m)) ∧
        ∀ k, ∃ s, play_moves initct st i (moves.take k) = .ok s ∧
          s.mv = st.mv ++ blocksLog st.sz (moves.take k) (blocks.take k) := by
  intro moves
  induction moves with
  | nil =>
    intro st r i _ _ h
    refine ⟨[], rfl, ?_, ?_, fun k => ⟨st, ?_, ?_⟩⟩
    · intro b hb; cases hb
    · intro b hb; cases hb
    · simp [play_moves]
    · simp [blocksLog]
  | cons m ms ih =>
    intro st r i hi hc h
    have hcm : move_color m = 1 ∨ move_color m = 2 := hc m (List.mem_cons_self _ _)
    have hcs : ColoursOk ms := fun a ha => hc a (List.mem_cons_of_mem _ ha)
    unfold play_moves at h
    cases h1 : do_move st (move_color m) (move_x m) (move_y m)
        (if (i : Int) ≥ initct then (i : Int) - initct + 1 else 0) with
    | error e => rw [h1] at h; cases h
    | ok s1 =>
      rw [h1] at h
      change play_moves initct s1 (i + 1) ms = .ok r at h
      have hi1 := do_move_inv hi hcm h1
      have hsz := do_move_sz hi hcm h1
      obtain ⟨caps, hm, hcap, hnc⟩ := do_move_block hi hcm h1
      obtain ⟨bs, hlen, hall, hne, hk⟩ := ih s1 r (i + 1) hi1 hcs h
      refine ⟨caps :: bs, by simp [hlen], ?_, ?_, ?_⟩
      · intro b hb
        rcases List.mem_cons.mp hb with e | hb
        · subst e; exact hcap
        · exact hall b hb
      · intro a ha
        rcases List.mem_cons.mp ha with e | ha
        · subst e; exact hnc
        · rw [← hsz]; exact hne a ha
      · intro k
        cases k with
        | zero => exact ⟨st, by simp [play_moves], by simp [blocksLog]⟩
        | succ k =>
          obtain ⟨s, hs1, hs2⟩ := hk k
          refine ⟨s, ?_, ?_⟩
          · rw [List.take_succ_cons]
            unfold play_moves
            rw [h1]
            exact hs1
          · rw [hs2, hm, hsz, List.take_succ_cons, List.take_succ_cons, blocksLog_cons]
            simp

theorem play_moves_take_all {initct : Int} (moves : List Int) (st : State) (i : Nat) :
    play_moves initct st i (moves.take moves.length) = play_moves initct st i moves := by
  rw [List.take_length]

theorem init_sz {g st : State} {size : Int} (h : init g size = .ok st) : st.sz = size := by
  unfold init at h
  split at h
  · cases h
  · injection h with h; subst h; rfl

theorem init_mv {g st : State} {size : Int} (h : init g size = .ok st) : st.mv = [] := by
  unfold init at h
  split at h
  · cases h
  · injection h with h; subst h; rfl

/-- The log when the first loop of `playgogame` ends, and after each of its prefixes. -/
theorem run_blocks {g st : State} {size initct : Int} {moves : List Int}
    (hc : ColoursOk moves) (h : run g size moves initct = .ok st) :
    ∃ blocks : List (List Nat), blocks.length = moves.length ∧
      (∀ b ∈ blocks, ∀ c ∈ b, isCapture c) ∧
      (∀ m ∈ moves, ¬ isCapture (encodeMove size m)) ∧
      ∀ k, ∃ s, run g size (moves.take k) initct = .ok s ∧
        s.mv = blocksLog size (moves.take k) (blocks.take k) := by
  unfold run at h
  cases h0 : init g size with
  | error e => rw [h0] at h; cases h
  | ok st0 =>
    rw [h0] at h
    change play_moves initct st0 0 moves = .ok st at h
    obtain ⟨bs, h1, h2, h4, h3⟩ := play_moves_blocks moves st0 st 0 (init_inv h0) hc h
    refine ⟨bs, h1, h2, by rw [← init_sz h0]; exact h4, fun k => ?_⟩
    obtain ⟨s, hs1, hs2⟩ := h3 k
    refine ⟨s, ?_, ?_⟩
    · unfold run
      rw [h0]
      exact hs1
    · rw [hs2, init_mv h0, init_sz h0, List.nil_append]

/-- The entries of a log of blocks that are not CAPTURE entries are the entries of
the moves, in order. -/
theorem blocksLog_filter (size : Int) :
    ∀ (moves : List Int) (blocks : List (List Nat)), blocks.length = moves.length →
      (∀ b ∈ blocks, ∀ c ∈ b, isCapture c) →
      (∀ m ∈ moves, ¬ isCapture (encodeMove size m)) →
      (blocksLog size moves blocks).filter (fun e => decide (¬ isCapture e))
        = moves.map (encodeMove size) := by
  intro moves
  induction moves with
  | nil =>
    intro blocks h _ _
    cases blocks with
    | nil => rfl
    | cons b bs => simp at h
  | cons m ms ih =>
    intro blocks h h1 h2
    cases blocks with
    | nil => simp at h
    | cons b bs =>
      rw [blocksLog_cons, List.map_cons, List.cons_append, List.filter_cons,
        if_pos (by simpa using h2 m (List.mem_cons_self _ _)), List.filter_append,
        ih bs (by simpa using h) (fun b1 hb1 => h1 b1 (List.mem_cons_of_mem _ hb1))
          (fun a ha => h2 a (List.mem_cons_of_mem _ ha))]
      have hb : b.filter (fun e => decide (¬ isCapture e)) = [] := by
        rw [List.filter_eq_nil_iff]
        intro a ha
        simpa using h1 b (List.mem_cons_self _ _) a ha
      rw [hb, List.nil_append]

/-- The shape of an entry of the final log: fifteen bits, made of the position, the
colour and the three flags, each in its own bits. -/
theorem marked_shape {st : State} (hl : LogOk st) {i m0 : Nat} (h : st.mv[i]? = some m0) :
    clearPermanent (marked st i m0) = m0 ∧ marked st i m0 < 32768 ∧
    (recColor (marked st i m0) = 1 ∨ recColor (marked st i m0) = 2) ∧
    marked st i m0 = recPos (marked st i m0) + 1024 * recColor (marked st i m0)
      + (if isPass (marked st i m0) then 4096 else 0)
      + (if isPermanent (marked st i m0) then 8192 else 0)
      + (if isCapture (marked st i m0) then 16384 else 0) := by
  have hmem := List.getElem?_mem h
  unfold marked clearPermanent
  rcases hl.form m0 hmem with ⟨c, hc, e⟩ | ⟨p, c, hp1, hp2, hc, e | e⟩
  · subst e
    obtain ⟨f1, f2, f3, f4, f5, f6⟩ := passRec_facts hc
    obtain ⟨g1, g2, g3, g4, g5, g6⟩ := passRec_permanent_all c (isStone_lt hc).1 (isStone_lt hc).2
    have hcc : c = 1 ∨ c = 2 := by have := isStone_lt hc; omega
    split
    · rw [g1, g2, g6]
      unfold PG_PERMANENT
      refine ⟨by omega, by omega, hcc, by omega⟩
    · rw [f1, f2]
      refine ⟨rfl, by omega, hcc, by omega⟩
  · subst e
    obtain ⟨f1, f2, f3, f4, f5, f6⟩ := placeRec_facts hp2 hc
    obtain ⟨g1, g2, g3, g4, g5, g6⟩ :=
      placeRec_permanent_all p hp2 c (isStone_lt hc).1 (isStone_lt hc).2
    have hcc : c = 1 ∨ c = 2 := by have := isStone_lt hc; omega
    split
    · rw [g1, g2, g6]
      unfold PG_PERMANENT
      refine ⟨by omega, by omega, hcc, by omega⟩
    · rw [f1, f2]
      refine ⟨rfl, by omega, hcc, by omega⟩
  · subst e
    obtain ⟨f1, f2, f3, f4, f5, f6⟩ := captureRec_facts hp2 hc
    obtain ⟨g1, g2, g3, g4, g5, g6⟩ :=
      captureRec_permanent_all p hp2 c (isStone_lt hc).1 (isStone_lt hc).2
    have hcc : c = 1 ∨ c = 2 := by have := isStone_lt hc; omega
    split
    · rw [g1, g2, g6]
      unfold PG_PERMANENT
      refine ⟨by omega, by omega, hcc, by omega⟩
    · rw [f1, f2]
      refine ⟨rfl, by omega, hcc, by omega⟩

/-- The final log without the PERMANENT flags is the log of the first loop. -/
theorem mark_permanent_clear {st : State} (hl : LogOk st) :
    (mark_permanent st).mv.map clearPermanent = st.mv := by
  apply List.ext_getElem?
  intro i
  rw [List.getElem?_map, mark_permanent_getElem?]
  cases h : st.mv[i]? with
  | none => rfl
  | some m0 =>
    show some (clearPermanent (marked st i m0)) = some m0
    rw [(marked_shape hl h).1]

end Playgogame

namespace Playgogame


theorem foldlM_error {α β : Type} (P : Err → Prop) (f : α → β → Except Err α)
    (hf : ∀ a b e, f a b = .error e → P e) :
    ∀ (l : List β) (a : α) (e : Err), l.foldlM f a = .error e → P e := by
  intro l
  induction l with
  | nil => intro a e h; cases h
  | cons b l ih =>
    intro a e h
    rw [List.foldlM_cons] at h
    cases h1 : f a b with
    | error e1 =>
      rw [h1] at h
      injection h with h
      subst h
      exact hf a b e1 h1
    | ok a1 =>
      rw [h1] at h
      exact ih a1 e h

theorem add_mv_late {st : State} {m : Nat} {e : Err} (h : add_mv st m = .error e) : e.late := by
  unfold add_mv at h
  split at h
  · injection h with h; subst h; trivial
  · cases h

theorem add_pass_late {st : State} {color : Int} {e : Err} (h : add_pass st color = .error e) :
    e.late := add_mv_late h

theorem remove_stone_late {st : State} {s : Nat} {e : Err} (h : remove_stone st s = .error e) :
    e.late := by
  unfold remove_stone at h
  cases h1 : add_antimove st s with
  | error e1 =>
    rw [h1] at h
    injection h with h
    subst h
    exact add_mv_late h1
  | ok a => rw [h1] at h; cases h

theorem remove_chain_late {st : State} {ch : Nat} {e : Err} (h : remove_chain st ch = .error e) :
    e.late :=
  foldlM_error Err.late _ (fun _ _ _ h1 => remove_stone_late h1) _ _ _ h

theorem check_retake_in_ko_late {st : State} {movenr : Int} {e : Err}
    (h : check_retake_in_ko st movenr = .error e) : e.late := by
  unfold check_retake_in_ko at h
  split at h
  · cases h
  simp only at h
  split at h
  · cases h
  split at h
  · injection h with h; subst h; trivial
  · cases h

theorem do_move_nbr_late {color : Int} {xy : Nat} {movenr : Int} {a : State × Nat} {d : Int}
    {e : Err} (h : do_move_nbr color xy movenr a d = .error e) : e.late := by
  unfold do_move_nbr at h
  simp only at h
  split at h
  · cases h
  split at h
  · split at h
    · split at h
      · cases h1 : remove_chain (a.1.addLib (a.1.current_chain (nbr xy d)) (-1))
            (a.1.current_chain (nbr xy d)) with
        | error e1 =>
          rw [h1] at h
          injection h with h
          subst h
          exact remove_chain_late h1
        | ok s2 =>
          rw [h1] at h
          change (check_retake_in_ko s2 movenr).map _ = _ at h
          cases h2 : check_retake_in_ko s2 movenr with
          | error e1 =>
            rw [h2] at h
            injection h with h
            subst h
            exact check_retake_in_ko_late h2
          | ok u => rw [h2] at h; cases h
      · change (check_retake_in_ko _ movenr).map _ = _ at h
        cases h2 : check_retake_in_ko (a.1.addLib (a.1.current_chain (nbr xy d)) (-1)) movenr with
        | error e1 =>
          rw [h2] at h
          injection h with h
          subst h
          exact check_retake_in_ko_late h2
        | ok u => rw [h2] at h; cases h
    · split at h <;> cases h
  · cases h

theorem do_place_late {st : State} {color : Int} {xy : Nat} {movenr : Int} {e : Err}
    (h : do_place st color xy movenr = .error e) : e.late := by
  rw [do_place_eq] at h
  split at h
  · injection h with h; subst h; trivial
  split at h
  · injection h with h; subst h; trivial
  cases hf : dirs.foldlM (do_move_nbr color xy movenr)
      (st.placed (color % 256).toNat xy, st.chainct) with
  | error e1 =>
    rw [hf] at h
    injection h with h
    subst h
    exact foldlM_error Err.late _ (fun _ _ _ h1 => do_move_nbr_late h1) _ _ _ hf
  | ok a =>
    rw [hf] at h
    change (if (a.1.chains a.2).liberties = 0 then _ else _) = _ at h
    split at h
    · split at h <;> (injection h with h; subst h; trivial)
    · cases h

/-- The order of the tests of `do_move` on a board of size at most 19, with the pass
condition `x = y = s+1 or x = y = 20`. -/
theorem do_move_cases (st : State) (color x y movenr : Int) (hs1 : st.sz1 = st.sz + 1)
    (hs : st.sz ≤ 19) :
    do_move st color x y movenr =
      if passCoords st.sz x y then add_pass st color
      else if offBoard st.sz x y then .error (.bad_move_coordinates movenr x y)
      else if st.board (POS x y).toNat ≠ EMPTY then .error (.play_on_nonempty_position movenr)
      else do_place st color (POS x y).toNat movenr := by
  unfold do_move passCoords offBoard
  by_cases h1 : x = st.sz1 ∧ y = st.sz1
  · rw [if_pos h1, if_pos (Or.inl (by rw [← hs1]; exact h1))]
  · rw [if_neg h1]
    by_cases h2 : x = 20 ∧ y = 20 ∧ st.sz1 < 20
    · rw [if_pos h2, if_pos (Or.inr ⟨h2.1, h2.2.1⟩)]
    · have hp : ¬ (x = st.sz + 1 ∧ y = st.sz + 1 ∨ x = 20 ∧ y = 20) := by
        rintro (h3 | ⟨h3, h4⟩)
        · exact h1 (by rw [hs1]; exact h3)
        · by_cases h5 : st.sz1 < 20
          · exact h2 ⟨h3, h4, h5⟩
          · exact h1 ⟨by omega, by omega⟩
      rw [if_neg h2, if_neg hp]


theorem play_moves_cons (initct : Int) (st : State) (i : Nat) (m : Int) (ms : List Int) :
    play_moves initct st i (m :: ms)
      = (do_move st (move_color m) (move_x m) (move_y m)
          (if (i : Int) ≥ initct then (i : Int) - initct + 1 else 0)).bind
        fun st1 => play_moves initct st1 (i + 1) ms := rfl

theorem play_moves_append {initct : Int} :
    ∀ (a b : List Int) (st : State) (i : Nat),
      play_moves initct st i (a ++ b)
        = (play_moves initct st i a).bind fun s => play_moves initct s (i + a.length) b := by
  intro a
  induction a with
  | nil => intro b st i; rfl
  | cons m ms ih =>
    intro b st i
    rw [List.cons_append, play_moves_cons, play_moves_cons]
    cases h : do_move st (move_color m) (move_x m) (move_y m)
        (if (i : Int) ≥ initct then (i : Int) - initct + 1 else 0) with
    | error e => rfl
    | ok s1 =>
      show play_moves initct s1 (i + 1) (ms ++ b) = _
      rw [ih b s1 (i + 1)]
      show _ = (play_moves initct s1 (i + 1) ms).bind _
      rw [List.length_cons, show i + 1 + ms.length = i + (ms.length + 1) by omega]

theorem play_moves_sz {initct : Int} {moves : List Int} (hc : ColoursOk moves) :
    ∀ {st r : State} {i : Nat}, Inv st → play_moves initct st i moves = .ok r →
      r.sz = st.sz := by
  induction moves with
  | nil =>
    intro st r i _ h
    injection h with h
    rw [h]
  | cons m ms ih =>
    intro st r i hi h
    have hcm : move_color m = 1 ∨ move_color m = 2 := hc m (List.mem_cons_self _ _)
    have hcs : ColoursOk ms := fun a ha => hc a (List.mem_cons_of_mem _ ha)
    unfold play_moves at h
    cases h1 : do_move st (move_color m) (move_x m) (move_y m)
        (if (i : Int) ≥ initct then (i : Int) - initct + 1 else 0) with
    | error e => rw [h1] at h; cases h
    | ok s1 =>
      rw [h1] at h
      change play_moves initct s1 (i + 1) ms = .ok r at h
      rw [ih hcs (do_move_inv hi hcm h1) h, do_move_sz hi hcm h1]

theorem run_sz {g st : State} {size initct : Int} {moves : List Int}
    (hc : ColoursOk moves) (h : run g size moves initct = .ok st) : st.sz = size := by
  unfold run at h
  cases h0 : init g size with
  | error e => rw [h0] at h; cases h
  | ok st0 =>
    rw [h0] at h
    change play_moves initct st0 0 moves = .ok st at h
    rw [play_moves_sz hc (init_inv h0) h, init_sz h0]

/-- The replay of a list of moves followed by one more move. -/
theorem run_snoc (g : State) (size initct : Int) (ms : List Int) (m : Int) :
    run g size (ms ++ [m]) initct
      = (run g size ms initct).bind fun st =>
          do_move st (move_color m) (move_x m) (move_y m)
            (if (ms.length : Int) ≥ initct then (ms.length : Int) - initct + 1 else 0) := by
  unfold run
  cases h0 : init g size with
  | error e => rfl
  | ok st0 =>
    show play_moves initct st0 0 (ms ++ [m]) = (play_moves initct st0 0 ms).bind _
    rw [play_moves_append]
    cases h1 : play_moves initct st0 0 ms with
    | error e => rfl
    | ok s =>
      show play_moves initct s (0 + ms.length) [m] = do_move s (move_color m) (move_x m)
        (move_y m) (if (ms.length : Int) ≥ initct then (ms.length : Int) - initct + 1 else 0)
      rw [play_moves_cons, Nat.zero_add]
      cases h2 : do_move s (move_color m) (move_x m) (move_y m)
          (if (ms.length : Int) ≥ initct then (ms.length : Int) - initct + 1 else 0) with
      | error e => rfl
      | ok s2 => rfl

theorem put_move1_pass (v : List Nat) (mask : Int) (moves : List Int)
    (hv : v = [] ∨ v = [116, 116]) (hlen : moves.length ≠ Sgffileinput.MAXMOVES) :
    Sgffileinput.put_move1 (some v) mask moves
      = .ok (moves ++ [Int.lor Sgffileinput.PASS mask]) := by
  have h : Sgffileinput.put_move1 (some v) mask moves
      = Sgffileinput.put_code moves (Int.lor Sgffileinput.PASS mask) := by
    rcases hv with e | e <;> subst e <;> rfl
  rw [h]
  unfold Sgffileinput.put_code
  rw [if_neg hlen]

theorem pass_code_facts (mask : Int)
    (hm : mask = Sgffileinput.BLACK_MASK ∨ mask = Sgffileinput.WHITE_MASK) :
    (mask / 65536 = 1 ∨ mask / 65536 = 2) ∧
    move_color (Int.lor Sgffileinput.PASS mask) = mask / 65536 ∧
    move_x (Int.lor Sgffileinput.PASS mask) = 20 ∧
    move_y (Int.lor Sgffileinput.PASS mask) = 20 ∧
    isPass (passRec (mask / 65536)) ∧ ¬ isCapture (passRec (mask / 65536)) ∧
    recColor (passRec (mask / 65536)) = (mask / 65536).toNat ∧
    recPos (passRec (mask / 65536)) = 0 := by
  rcases hm with e | e <;> subst e <;> decide

end Playgogame

namespace Playgogame


theorem snoc_inj {α : Type} {l1 l2 : List α} {a b : α} (h : l1 ++ [a] = l2 ++ [b]) :
    l1 = l2 ∧ a = b := by
  have h1 := List.append_inj' h rfl
  exact ⟨h1.1, by injection h1.2⟩

/-- A log that ends with a non-CAPTURE entry and a CAPTURE entry, read as a block: the
block is those two entries. -/
theorem block_tail2 {P : Nat → Prop} {xs base cs : List Nat} {x y e : Nat}
    (h : xs ++ [x, y] = base ++ e :: cs) (hx : ¬ P x) (hy : P y) (he : ¬ P e)
    (hcs : ∀ c ∈ cs, P c) : cs = [y] ∧ e = x ∧ base = xs := by
  rcases cs.eq_nil_or_concat with e1 | ⟨cs1, c, e1⟩
  · subst e1
    have h1 : (xs ++ [x]) ++ [y] = base ++ [e] := by simpa using h
    exact absurd ((snoc_inj h1).2 ▸ hy) he
  · subst e1
    have h1 : (xs ++ [x]) ++ [y] = (base ++ e :: cs1) ++ [c] := by simpa using h
    obtain ⟨h2, h3⟩ := snoc_inj h1
    subst h3
    rcases cs1.eq_nil_or_concat with e2 | ⟨cs2, c2, e2⟩
    · subst e2
      have h4 : xs ++ [x] = base ++ [e] := by simpa using h2
      obtain ⟨h5, h6⟩ := snoc_inj h4
      exact ⟨by simp, h6.symm, h5.symm⟩
    · subst e2
      have h4 : xs ++ [x] = (base ++ e :: cs2) ++ [c2] := by simpa using h2
      have h5 := (snoc_inj h4).2
      exact absurd (h5 ▸ hcs c2 (by simp)) hx

theorem list_tail4 {α : Type} (l : List α) (h : 4 ≤ l.length) :
    ∃ pre h0 h1 h2 h3, l = pre ++ [h0, h1, h2, h3] := by
  rcases l.eq_nil_or_concat with e | ⟨l1, h3, e⟩
  · subst e; simp at h
  subst e
  rcases l1.eq_nil_or_concat with e | ⟨l2, h2, e⟩
  · subst e; simp at h
  subst e
  rcases l2.eq_nil_or_concat with e | ⟨l3, h1, e⟩
  · subst e; simp at h
  subst e
  rcases l3.eq_nil_or_concat with e | ⟨l4, h0, e⟩
  · subst e; simp at h
  subst e
  exact ⟨l4, h0, h1, h2, h3, by simp⟩

theorem getD_append_add (pre l : List Nat) (k : Nat) :
    (pre ++ l).getD (pre.length + k) 0 = l.getD k 0 := by
  induction pre with
  | nil => simp
  | cons a pre ih =>
    rw [List.cons_append, List.length_cons, show pre.length + 1 + k = (pre.length + k) + 1 by omega,
      List.getD_cons_succ]
    exact ih

/-- The test of `check_retake_in_ko` in terms of the last four entries of the log. -/
theorem check_retake_in_ko_tail {st : State} {pre : List Nat} {h0 h1 h2 h3 : Nat}
    (h : st.mv = pre ++ [h0, h1, h2, h3]) (movenr : Int) :
    check_retake_in_ko st movenr = .error (.illegal_ko_recapture movenr) ↔
      (¬ isCapture h0 ∧ isCapture h1 ∧ ¬ isCapture h2 ∧ isCapture h3 ∧
        recPos h0 = recPos h3 ∧ recPos h1 = recPos h2) := by
  have hl : st.mv.length = pre.length + 4 := by rw [h]; simp
  have e0 : st.mv.getD (st.mv.length - 4 + 0) 0 = h0 := by
    rw [hl, h, show pre.length + 4 - 4 + 0 = pre.length + 0 by omega, getD_append_add]; rfl
  have e1 : st.mv.getD (st.mv.length - 4 + 1) 0 = h1 := by
    rw [hl, h, show pre.length + 4 - 4 + 1 = pre.length + 1 by omega, getD_append_add]; rfl
  have e2 : st.mv.getD (st.mv.length - 4 + 2) 0 = h2 := by
    rw [hl, h, show pre.length + 4 - 4 + 2 = pre.length + 2 by omega, getD_append_add]; rfl
  have e3 : st.mv.getD (st.mv.length - 4 + 3) 0 = h3 := by
    rw [hl, h, show pre.length + 4 - 4 + 3 = pre.length + 3 by omega, getD_append_add]; rfl
  unfold check_retake_in_ko
  rw [if_neg (by omega)]
  simp only [e0, e1, e2, e3]
  unfold isCapture recPos
  constructor
  · intro hh
    split at hh
    · cases hh
    rename_i hc
    split at hh
    · rename_i hp
      push_neg at hc
      exact ⟨by simpa using hc.1, hc.2.2.1, by simpa using hc.2.1, hc.2.2.2, hp.1, hp.2⟩
    · cases hh
  · rintro ⟨a, b, c, d, p, q⟩
    rw [if_neg, if_pos ⟨p, q⟩]
    push_neg
    exact ⟨by simpa using a, by simpa using c, b, d⟩

theorem check_retake_in_ko_length {st : State} {movenr : Int} {e : Err}
    (h : check_retake_in_ko st movenr = .error e) : 4 ≤ st.mv.length := by
  unfold check_retake_in_ko at h
  split at h
  · cases h
  · omega

theorem check_retake_in_ko_congr (st r : State) (h : r.mv = st.mv) (movenr : Int) :
    check_retake_in_ko r movenr = check_retake_in_ko st movenr := by
  unfold check_retake_in_ko
  rw [h]

theorem add_mv_error {st : State} {m : Nat} {e : Err} (h : add_mv st m = .error e) :
    e = .played_game_array_overflow := by
  unfold add_mv at h
  split at h
  · injection h with h; exact h.symm
  · cases h

/-- A failing neighbour loop fails at a neighbour that is an opposing stone, in a state
in which the loop invariant holds. -/
theorem loop_error {s0 : State} (hi : Inv s0) {color : Int} (hcol : color = 1 ∨ color = 2)
    {xy : Nat} (hon : onBoard s0.sz xy) (he : s0.board xy = EMPTY) {movenr : Int} {e : Err}
    (hf : dirs.foldlM (do_move_nbr color xy movenr)
      (s0.placed (color % 256).toNat xy, s0.chainct) = .error e) :
    ∃ st t0 rest, LoopOk s0 color.toNat xy st (t0 :: rest) ∧ ScanErr xy movenr t0 st e := by
  obtain ⟨hs, hc⟩ := isStone_toNat hcol
  rw [hc] at hs hf
  have hch : s0.chainct = (s0.placed color.toNat xy).current_chain xy := by
    rw [placed_cc, Function.update_same]
  rw [hch] at hf
  have hstart := hi.loop_start hs hon he
  obtain ⟨st, t0, rest, h1, h2⟩ := @scan_fold_error color hcol xy movenr
    (fun s pend => LoopOk s0 color.toNat xy s pend ∧ s.board xy = color.toNat)
    (fun s pend h => ⟨h.1.wf, h.1.onb, h.2⟩)
    (by
      intro s t0 rest r1 ⟨h1, h2⟩ hsc
      have h3 := h1.loop_scan hi hs he hsc
      refine ⟨h3, ?_⟩
      rw [(h1.wf.wf_scan (by rw [h2]; exact hs) hsc).2, h2])
    dirs (fun d hd => hd) _ ⟨hstart, by rw [placed_board, Function.update_same]⟩ e hf
  exact ⟨st, t0, rest, h1.1, h2⟩

/-- A placement rejected as a ko recapture: the ko test has failed on a log made of the
log before the move, the entry of the move and the CAPTURE entries of the stones taken
so far. -/
theorem do_place_ko {s1 : State} (hi : Inv s1) {color : Int} (hcol : color = 1 ∨ color = 2)
    {xy : Nat} (hon : onBoard s1.sz xy) (he : s1.board xy = EMPTY) {movenr n : Int}
    (h : do_place s1 color xy movenr = .error (.illegal_ko_recapture n)) :
    n = movenr ∧ ∃ st pend caps, CapOk s1 color.toNat xy st pend caps ∧
      check_retake_in_ko st movenr = .error (.illegal_ko_recapture movenr) := by
  rw [do_place_eq] at h
  split at h
  · cases h
  split at h
  · cases h
  cases hf : dirs.foldlM (do_move_nbr color xy movenr)
      (s1.placed (color % 256).toNat xy, s1.chainct) with
  | ok a =>
    rw [hf] at h
    change (if (a.1.chains a.2).liberties = 0 then _ else _) = _ at h
    split at h
    · split at h <;> cases h
    · cases h
  | error e =>
    rw [hf] at h
    injection h with h
    subst h
    obtain ⟨st, t0, rest, hl, hs⟩ := loop_error hi hcol hon he hf
    obtain ⟨caps, hk⟩ := hl.cap
    have hbx : st.board xy = color.toNat := hk.cap_board_xy
    cases hs with
    | ko_opp a b c d =>
      refine ⟨rfl, st, _, caps, hk, ?_⟩
      rw [← d]
      exact (check_retake_in_ko_congr _ _ (by rw [addLib_eq_bump]; rfl) movenr).symm
    | ko_capture a b c d e1 =>
      obtain ⟨hk2, _⟩ := hk.cap_step_capture hi he hl.wf a b c
      exact ⟨rfl, _, _, _, hk2, e1⟩

theorem map_eq_singleton {α β : Type} {f : α → β} {l : List α} {b : β} (h : l.map f = [b]) :
    ∃ a, l = [a] ∧ f a = b := by
  cases l with
  | nil => cases h
  | cons a l =>
    cases l with
    | nil => exact ⟨a, rfl, by injection h⟩
    | cons a1 l => simp at h

/-- An accepted move is a pass, which appends its entry and leaves the board, or a
placement on an empty point of the board. -/
theorem do_move_ok_cases {st r : State} {color x y movenr : Int} (hs1 : st.sz1 = st.sz + 1)
    (hs : st.sz ≤ 19) (h : do_move st color x y movenr = .ok r) :
    (passCoords st.sz x y ∧ r.mv = st.mv ++ [passRec color] ∧ r.board = st.board) ∨
    (¬ passCoords st.sz x y ∧ ¬ offBoard st.sz x y ∧ st.board (POS x y).toNat = EMPTY ∧
      do_place st color (POS x y).toNat movenr = .ok r) := by
  rw [do_move_cases st color x y movenr hs1 hs] at h
  split at h
  · rename_i hp
    obtain ⟨_, e⟩ := add_pass_ok h
    subst e
    exact Or.inl ⟨hp, rfl, rfl⟩
  rename_i hp
  split at h
  · cases h
  rename_i ho
  split at h
  · cases h
  rename_i he
  exact Or.inr ⟨hp, ho, by simpa using he, h⟩

/-- The log on which the ko test fails during a placement on `xy`: the log before the
move ends with a non-CAPTURE entry for a point `a` and a CAPTURE entry for `xy`, and
the move has so far taken the stone `a` and nothing else. -/
theorem ko_log_shape {s1 st : State} {col xy : Nat} {pend caps : List Nat} {movenr : Int}
    (hi : Inv s1) (hcol : isStone col) (hon : onBoard s1.sz xy)
    (hk : CapOk s1 col xy st pend caps)
    (hc : check_retake_in_ko st movenr = .error (.illegal_ko_recapture movenr)) :
    ∃ pre h0 h1 a, s1.mv = pre ++ [h0, h1] ∧ ¬ isCapture h0 ∧ isCapture h1 ∧
      recPos h1 = xy ∧ recPos h0 = a ∧ caps = [a] := by
  obtain ⟨pre, h0, h1, h2, h3, hm⟩ := list_tail4 st.mv (check_retake_in_ko_length hc)
  obtain ⟨a0, a1, a2, a3, p03, p12⟩ := (check_retake_in_ko_tail hm movenr).mp hc
  have hxy : xy < 1024 := by have := onBoard_le hon hi.wf.board.sz_le; omega
  obtain ⟨f1, _, f3, _⟩ := placeRec_facts hxy hcol
  have hcaps : ∀ p ∈ caps, isStone (s1.board p) ∧ p < 1024 := by
    intro p hp
    have hs := ((hk.cap p).mp hp).1.1
    have := onBoard_le (hi.wf.board.stone_on p hs) hi.wf.board.sz_le
    exact ⟨hs, by omega⟩
  have hall : ∀ c ∈ caps.map (fun p => captureRec p (s1.board p)), isCapture c := by
    intro c hcm
    obtain ⟨p, hp, e⟩ := List.mem_map.mp hcm
    subst e
    exact (captureRec_facts (hcaps p hp).2 (hcaps p hp).1).2.2.1
  have heq : (pre ++ [h0, h1]) ++ [h2, h3]
      = s1.mv ++ placeRec xy col :: caps.map fun p => captureRec p (s1.board p) := by
    rw [← hk.mv, hm]; simp
  obtain ⟨e1, e2, e3⟩ := block_tail2 heq a2 a3 f3 hall
  obtain ⟨a, ha1, ha2⟩ := map_eq_singleton e1
  subst ha1
  have hg := (captureRec_facts (hcaps a (by simp)).2 (hcaps a (by simp)).1).1
  refine ⟨pre, h0, h1, a, e3, a0, a1, ?_, ?_, rfl⟩
  · rw [p12, ← e2, f1]
  · rw [p03, ← ha2, hg]

/-- A move that leaves a log ending with a non-CAPTURE entry and a CAPTURE entry has
put a stone on a point `a` and taken exactly one stone `b`; the two entries are those
of `a` and `b`. -/
theorem ko_prev {s0 s1 : State} (hi : Inv s0) {m : Int}
    (hc : move_color m = 1 ∨ move_color m = 2) {movenr : Int}
    (hr : do_move s0 (move_color m) (move_x m) (move_y m) movenr = .ok s1)
    {pre : List Nat} {h0 h1 : Nat} (hm : s1.mv = pre ++ [h0, h1]) (hn0 : ¬ isCapture h0)
    (hc1 : isCapture h1) :
    ∃ a b, playedAt s0.sz m a ∧ s0.board a = EMPTY ∧ onBoard s0.sz a ∧
      LoopOk s0 (move_color m).toNat a s1 [] ∧
      CapOk s0 (move_color m).toNat a s1 [] [b] ∧ recPos h0 = a ∧ recPos h1 = b := by
  have hb0 := hi.wf.board
  rcases do_move_ok_cases hb0.sz1_eq hb0.sz_le hr with ⟨hp, e1, _⟩ | ⟨hp, ho, he, hd⟩
  · rw [hm] at e1
    have hps : isStone (move_color m).toNat := (isStone_toNat hc).2 ▸ (isStone_toNat hc).1
    have hpe : passRec (move_color m) = passRec (Int.ofNat (move_color m).toNat) := by
      rcases hc with h | h <;> rw [h] <;> rfl
    have := (@block_tail2 isCapture _ _ [] _ _ _ e1 hn0 hc1
      (by rw [hpe]; exact (passRec_facts hps).2.2.1) (fun c hc => by cases hc)).1
    cases this
  · unfold offBoard at ho
    have hb := onBoard_POS (n := s0.sz) (x := move_x m) (y := move_y m) (by omega) (by omega)
      (by omega) (by omega) hb0.sz_le
    have hl := do_place_spec hi hc hb.1 he hd
    obtain ⟨caps, hk⟩ := hl.cap
    have hps : isStone (move_color m).toNat := (isStone_toNat hc).2 ▸ (isStone_toNat hc).1
    have h627 := onBoard_le hb.1 hb0.sz_le
    obtain ⟨f1, _, f3, _⟩ := placeRec_facts (p := (POS (move_x m) (move_y m)).toNat)
      (by omega) hps
    have hcaps : ∀ p ∈ caps, isStone (s0.board p) ∧ p < 1024 := by
      intro p hp
      have hs := ((hk.cap p).mp hp).1.1
      have := onBoard_le (hi.wf.board.stone_on p hs) hi.wf.board.sz_le
      exact ⟨hs, by omega⟩
    have hall : ∀ c ∈ caps.map (fun p => captureRec p (s0.board p)), isCapture c := by
      intro c hcm
      obtain ⟨p, hp, e⟩ := List.mem_map.mp hcm
      subst e
      exact (captureRec_facts (hcaps p hp).2 (hcaps p hp).1).2.2.1
    have hmv := hk.mv
    rw [hm] at hmv
    obtain ⟨e1, e2, e3⟩ := block_tail2 hmv hn0 hc1 f3 hall
    obtain ⟨b, hb1, hb2⟩ := map_eq_singleton e1
    subst hb1
    have hg := (captureRec_facts (hcaps b (by simp)).2 (hcaps b (by simp)).1).1
    exact ⟨_, b, ⟨by omega, by omega, by omega, by omega, rfl⟩, he, hb.1, hl, hk,
      by rw [← e2, f1], by rw [← hb2, hg]⟩

/-- After a move that put a lone stone on `a` and took the stone `b`, a stone put on
`b` takes no stone other than `a`: any other chain of the colour of `a` had a liberty
before that move, which was neither `a` nor `b` and is still free. -/
theorem ko_only_one {s0 s1 : State} (hi0 : Inv s0) (hi1 : Inv s1) {c1 col a b : Nat}
    (hc1 : isStone c1) (hcol : isStone col) (he : s0.board a = EMPTY) (hona : onBoard s0.sz a)
    (hg : GrpOk s0 c1 a s1 []) (hk : CapOk s0 c1 a s1 [] [b])
    (hcap : capturedBy s1 col b a) (hch : chainAt s1 a = [a]) :
    ∀ p, capturedBy s1 col b p → p = a := by
  intro p hp
  by_contra hne
  have hba : s1.board a = c1 := by rw [hk.board, if_pos rfl]
  have hsa : isStone (s1.board a) := hcap.1
  have hpc : s1.board p = c1 := by
    rw [← hba]
    exact isStone_eq_of_ne hp.1 hsa hcol hp.2.1 hcap.2.1
  have hpb : p ≠ b := by
    intro e
    have h1 := hk.board p
    rw [if_neg hne, if_pos (by rw [e]; exact List.mem_singleton_self b)] at h1
    exact isStone_ne_empty hp.1 h1
  have hp0 : s0.board p = c1 := by
    have h1 := hk.board p
    rw [if_neg hne, if_neg (by simpa using hpb)] at h1
    rw [← h1, hpc]
  have hs0 : isStone (s0.board p) := by rw [hp0]; exact hc1
  have hcc : s1.current_chain p ≠ s1.current_chain a := by
    intro e
    have := (hi1.wf.chain.mem_iff hsa hp.1).mpr e
    rw [hch] at this
    exact hne (List.mem_singleton.mp this)
  have hsame := (hg.own p hp0 hcc).2
  have hlib := hi0.wf.lib_nil hs0
  have hpos := hi0.pos p hs0
  have hnz : libs s0.board (chainAt s0 p) ≠ 0 := by
    intro e
    rw [e] at hlib
    omega
  rw [Ne, libs_eq_zero_iff] at hnz
  push_neg at hnz
  obtain ⟨q, hq, u, hu, hue⟩ := hnz
  have hub : u ≠ b := by
    intro e
    have := ((hk.cap b).mp (List.mem_singleton_self b)).1.1
    rw [← e, hue] at this
    exact not_isStone_empty this
  have hq0 : s0.board q = c1 := by rw [(hi0.wf.chain.own p hs0 q hq).1, hp0]
  have hua : u ≠ a := by
    intro e
    subst e
    have hqs : isStone (s0.board q) := by rw [hq0]; exact hc1
    have hin : q ∈ chainAt s1 u :=
      (hg.grp q).mpr (Or.inr ⟨hq0, q, (mem_nbrs_symm (hi0.wf.board.ge hqs) (onBoard_ge hona)).mp hu,
        List.not_mem_nil _,
        hi0.wf.chain.mem q hqs⟩)
    rw [hch] at hin
    rw [List.mem_singleton.mp hin, he] at hq0
    rw [← hq0] at hc1
    exact not_isStone_empty hc1
  have hu1 : s1.board u = EMPTY := by
    rw [hk.board, if_neg hua, if_neg (by simpa using hub), hue]
  exact hp.2.2.2 q (by rw [hsame]; exact hq) u hu hub hu1

theorem nodup_all_eq_length {l : List Nat} {a : Nat} (hn : l.Nodup) (h : ∀ q ∈ l, q = a) :
    l.length ≤ 1 := by
  cases l with
  | nil => simp
  | cons x l =>
    cases l with
    | nil => simp
    | cons y l =>
      have h1 := h x (by simp)
      have h2 := h y (by simp)
      rw [h1, h2] at hn
      simp at hn

theorem eq_singleton_of_forall {l : List Nat} {a : Nat} (hn : l.Nodup) (ha : a ∈ l)
    (h : ∀ q ∈ l, q = a) : l = [a] := by
  have hl := nodup_all_eq_length hn h
  cases l with
  | nil => cases ha
  | cons x l =>
    cases l with
    | nil => rw [h x (by simp)]
    | cons y l => simp at hl

theorem run_nil_mv {g s : State} {size initct : Int} (h : run g size [] initct = .ok s) :
    s.mv = [] := by
  unfold run at h
  cases h0 : init g size with
  | error e => rw [h0] at h; cases h
  | ok st0 =>
    rw [h0] at h
    injection h with h
    rw [← h]
    exact init_mv h0

theorem run_snoc_ok {g s1 : State} {size initct : Int} {ms : List Int} {m : Int}
    (h : run g size (ms ++ [m]) initct = .ok s1) :
    ∃ s0, run g size ms initct = .ok s0 ∧
      do_move s0 (move_color m) (move_x m) (move_y m) (movenrOf initct ms.length) = .ok s1 := by
  rw [run_snoc] at h
  cases h0 : run g size ms initct with
  | error e => rw [h0] at h; cases h
  | ok s0 =>
    rw [h0] at h
    exact ⟨s0, rfl, h⟩

/-- A move rejected as a ko recapture: the move before it put a stone on `a` and took
exactly one stone, `b`; the rejected move is on `b` and takes exactly the stone `a`. -/
theorem ko_forward {g s1 : State} {size initct : Int} {moves : List Int} {m : Int} {n : Int}
    (hcol : ColoursOk (moves ++ [m])) (hrun : run g size moves initct = .ok s1)
    (h : run g size (moves ++ [m]) initct = .error (.illegal_ko_recapture n)) :
    n = movenrOf initct moves.length ∧
    ∃ ms m1 s0 a b, moves = ms ++ [m1] ∧ run g size ms initct = .ok s0 ∧
      playedAt size m1 a ∧ (∀ p, capturedBy s0 (move_color m1).toNat a p ↔ p = b) ∧
      playedAt size m b ∧ (∀ p, capturedBy s1 (move_color m).toNat b p ↔ p = a) := by
  have hcm : move_color m = 1 ∨ move_color m = 2 := hcol m (by simp)
  have hcs : ColoursOk moves := fun x hx => hcol x (List.mem_append_left _ hx)
  obtain ⟨hi1, _⟩ := run_good hcs hrun
  have hsz1 := run_sz hcs hrun
  have hb1 := hi1.wf.board
  rw [run_snoc, hrun] at h
  change do_move s1 _ _ _ (movenrOf initct moves.length) = _ at h
  rw [do_move_cases s1 _ _ _ _ hb1.sz1_eq hb1.sz_le] at h
  split at h
  · have := add_mv_error h
    cases this
  split at h
  · cases h
  rename_i ho
  split at h
  · cases h
  rename_i he
  have he1 : s1.board (POS (move_x m) (move_y m)).toNat = EMPTY := by simpa using he
  unfold offBoard at ho
  have hb := onBoard_POS (n := s1.sz) (x := move_x m) (y := move_y m) (by omega) (by omega)
    (by omega) (by omega) hb1.sz_le
  obtain ⟨hn, st, pend, caps, hk, hc⟩ := do_place_ko hi1 hcm hb.1 he1 h
  have hps : isStone (move_color m).toNat := (isStone_toNat hcm).2 ▸ (isStone_toNat hcm).1
  obtain ⟨pre, h0, h1, a, hm, hn0, hc1, hp1, hp0, hcaps⟩ := ko_log_shape hi1 hps hb.1 hk hc
  subst hcaps
  refine ⟨hn, ?_⟩
  rcases moves.eq_nil_or_concat with e | ⟨ms, m1, e⟩
  · subst e
    rw [run_nil_mv hrun] at hm
    simp at hm
  rw [List.concat_eq_append] at e
  subst e
  have hcm1 : move_color m1 = 1 ∨ move_color m1 = 2 := hcs m1 (by simp)
  have hcs0 : ColoursOk ms := fun x hx => hcs x (List.mem_append_left _ hx)
  obtain ⟨s0, hrun0, hdo⟩ := run_snoc_ok hrun
  obtain ⟨hi0, _⟩ := run_good hcs0 hrun0
  have hsz0 := run_sz hcs0 hrun0
  obtain ⟨a1, b1, hpl, hea, hona, hl, hk0, q0, q1⟩ := ko_prev hi0 hcm1 hdo hm hn0 hc1
  rw [hp0] at q0
  rw [hp1] at q1
  subst q0
  subst q1
  have hps1 : isStone (move_color m1).toNat := (isStone_toNat hcm1).2 ▸ (isStone_toNat hcm1).1
  have hcapa : capturedBy s1 (move_color m).toNat (POS (move_x m) (move_y m)).toNat a :=
    ((hk.cap a).mp (List.mem_singleton_self a)).1
  have hch : chainAt s1 a = [a] := by
    apply eq_singleton_of_forall (hi1.wf.chain.nodup a hcapa.1) (hi1.wf.chain.mem a hcapa.1)
    intro q hq
    have h2 := capturedBy_of_mem hi1 hcapa hq
    have h3 : q ∈ [a] := (hk.cap q).mpr ⟨h2, by
      rw [hi1.wf.chain.chainAt_eq hcapa.1 hq]
      exact ((hk.cap a).mp (List.mem_singleton_self a)).2⟩
    exact List.mem_singleton.mp h3
  refine ⟨ms, m1, s0, a, _, rfl, hrun0, by rw [← hsz0]; exact hpl, ?_,
    ⟨by omega, by omega, by omega, by omega, rfl⟩, ?_⟩
  · intro p
    rw [← List.mem_singleton, hk0.cap p]
    simp
  · intro p
    constructor
    · exact ko_only_one hi0 hi1 hps1 hps hea hona hl.grp hk0 hcapa hch p
    · intro e; rw [e]; exact hcapa

/-- When the neighbour loop ends without error and has taken a stone, the last ko test
it ran was on the final log and passed. -/
theorem loop_ok_checked {s0 : State} (hi : Inv s0) {color : Int} (hcol : color = 1 ∨ color = 2)
    {xy : Nat} (hon : onBoard s0.sz xy) (he : s0.board xy = EMPTY) {movenr : Int}
    {a : State × Nat}
    (hf : dirs.foldlM (do_move_nbr color xy movenr)
      (s0.placed (color % 256).toNat xy, s0.chainct) = .ok a) :
    LoopOk s0 color.toNat xy a.1 [] ∧
      (a.1.mv ≠ s0.mv ++ [placeRec xy color.toNat] →
        check_retake_in_ko a.1 movenr = .ok ()) := by
  obtain ⟨hs, hc⟩ := isStone_toNat hcol
  rw [hc] at hs hf
  have hch : s0.chainct = (s0.placed color.toNat xy).current_chain xy := by
    rw [placed_cc, Function.update_same]
  rw [hch] at hf
  have hstart := hi.loop_start hs hon he
  have key := @scan_fold color hcol xy movenr
    (fun s pend => (LoopOk s0 color.toNat xy s pend ∧ s.board xy = color.toNat) ∧
      (s.mv ≠ s0.mv ++ [placeRec xy color.toNat] → check_retake_in_ko s movenr = .ok ()))
    (fun s pend h => ⟨h.1.1.wf, h.1.1.onb, h.1.2⟩)
    (by
      intro s t0 rest r1 ⟨⟨h1, h2⟩, h4⟩ hsc
      have h3 := h1.loop_scan hi hs he hsc
      refine ⟨⟨h3, ?_⟩, ?_⟩
      · rw [(h1.wf.wf_scan (by rw [h2]; exact hs) hsc).2, h2]
      · cases hsc with
        | empty _ =>
          intro hne
          rw [check_retake_in_ko_congr s _ (by rw [addLib_eq_bump]; rfl)]
          exact h4 (by rw [addLib_eq_bump] at hne; exact hne)
        | border _ _ => exact h4
        | opp _ _ _ k => exact fun _ => k
        | capture _ _ _ _ k => exact fun _ => k
        | merge _ _ =>
          intro hne
          rw [merged_mv, addLib_eq_bump] at hne
          rw [check_retake_in_ko_congr s _ (by rw [merged_mv, addLib_eq_bump]; rfl)]
          exact h4 hne
        | same _ _ =>
          intro hne
          rw [check_retake_in_ko_congr s _ (by rw [addLib_eq_bump]; rfl)]
          exact h4 (by rw [addLib_eq_bump] at hne; exact hne))
    dirs (fun d hd => hd) _
    ⟨⟨hstart, by rw [placed_board, Function.update_same]⟩,
      fun hne => absurd (placed_mv _ _ _) hne⟩ a hf
  exact ⟨key.1.1.1, key.1.2⟩

/-- With room in the log and in the chain table, a stone put on `b` right after a move
that put a stone on `a` and took exactly the stone `b`, and that takes exactly the
stone `a`, is rejected as a ko recapture. -/
theorem ko_backward {g s0 s1 : State} {size initct : Int} {ms : List Int} {m1 m : Int}
    {a b : Nat} (hcol : ColoursOk ((ms ++ [m1]) ++ [m]))
    (hrun0 : run g size ms initct = .ok s0) (hrun : run g size (ms ++ [m1]) initct = .ok s1)
    (hchain : s1.chainct ≠ CHAINMAX) (hroom : s1.mv.length + 2 ≤ s1.mvlen)
    (hpa : playedAt size m1 a) (hca : ∀ p, capturedBy s0 (move_color m1).toNat a p ↔ p = b)
    (hpb : playedAt size m b) (hcb : ∀ p, capturedBy s1 (move_color m).toNat b p ↔ p = a) :
    run g size ((ms ++ [m1]) ++ [m]) initct
      = .error (.illegal_ko_recapture (movenrOf initct (ms ++ [m1]).length)) := by
  have hcm : move_color m = 1 ∨ move_color m = 2 := hcol m (by simp)
  have hcs : ColoursOk (ms ++ [m1]) := fun x hx => hcol x (List.mem_append_left _ hx)
  have hcm1 : move_color m1 = 1 ∨ move_color m1 = 2 := hcs m1 (by simp)
  have hcs0 : ColoursOk ms := fun x hx => hcs x (List.mem_append_left _ hx)
  obtain ⟨hi1, _⟩ := run_good hcs hrun
  obtain ⟨hi0, _⟩ := run_good hcs0 hrun0
  have hsz1 := run_sz hcs hrun
  have hsz0 := run_sz hcs0 hrun0
  have hps : isStone (move_color m).toNat := (isStone_toNat hcm).2 ▸ (isStone_toNat hcm).1
  have hps1 : isStone (move_color m1).toNat := (isStone_toNat hcm1).2 ▸ (isStone_toNat hcm1).1
  -- the move before
  obtain ⟨s0x, hrx, hdo⟩ := run_snoc_ok hrun
  rw [hrun0] at hrx
  injection hrx with hrx
  subst hrx
  obtain ⟨x1, x2, y1, y2, ea⟩ := hpa
  rw [← hsz0] at x2 y2
  have hba := onBoard_POS x1 x2 y1 y2 hi0.wf.board.sz_le
  rw [← ea] at hba
  rw [do_move_on_board hi0.wf.board ⟨x1, x2⟩ ⟨y1, y2⟩, ← ea] at hdo
  split at hdo
  · cases hdo
  rename_i hea
  have hea1 : s0.board a = EMPTY := by simpa using hea
  have hl0 := do_place_spec hi0 hcm1 hba.1 hea1 hdo
  obtain ⟨caps0, hk0⟩ := hl0.cap
  have hcaps0 : caps0 = [b] := by
    apply eq_singleton_of_forall hk0.nodup
    · exact (hk0.cap b).mpr ⟨(hca b).mpr rfl, fun t ht => by cases ht⟩
    · intro q hq
      exact (hca q).mp ((hk0.cap q).mp hq).1
  subst hcaps0
  have hsb : isStone (s0.board b) := ((hca b).mpr rfl).1
  have hab : b ≠ a := by
    intro e
    rw [e, hea1] at hsb
    exact not_isStone_empty hsb
  have heb : s1.board b = EMPTY := by
    rw [hk0.board, if_neg hab, if_pos (List.mem_singleton_self b)]
  have hsa1 : s1.board a = (move_color m1).toNat := by rw [hk0.board, if_pos rfl]
  have hmv1 : s1.mv = s0.mv ++ [placeRec a (move_color m1).toNat, captureRec b (s0.board b)] :=
    hk0.mv
  -- the move on `b`
  obtain ⟨u1, u2, v1, v2, eb⟩ := hpb
  rw [← hsz1] at u2 v2
  have hbb := onBoard_POS u1 u2 v1 v2 hi1.wf.board.sz_le
  rw [← eb] at hbb
  have ha1024 : a < 1024 := by have := onBoard_le hba.1 hi0.wf.board.sz_le; omega
  have hb1024 : b < 1024 := by have := onBoard_le hbb.1 hi1.wf.board.sz_le; omega
  obtain ⟨fa1, _, fa3, _⟩ := placeRec_facts ha1024 hps1
  obtain ⟨fb1, _, fb3, _⟩ := placeRec_facts hb1024 hps
  obtain ⟨gb1, _, gb3, _⟩ := captureRec_facts hb1024 hsb
  have hsa : isStone (s1.board a) := by rw [hsa1]; exact hps1
  obtain ⟨ga1, _, ga3, _⟩ := captureRec_facts ha1024 hsa
  rw [run_snoc, hrun]
  change do_move s1 _ _ _ (movenrOf initct (ms ++ [m1]).length) = _
  rw [do_move_on_board hi1.wf.board ⟨u1, u2⟩ ⟨v1, v2⟩, ← eb, if_neg (not_not.mpr heb),
    do_place_eq, if_neg (by omega), if_neg hchain]
  cases hf : dirs.foldlM (do_move_nbr (move_color m) b (movenrOf initct (ms ++ [m1]).length))
      (s1.placed (move_color m % 256).toNat b, s1.chainct) with
  | ok r =>
    exfalso
    obtain ⟨hl, hck⟩ := loop_ok_checked hi1 hcm hbb.1 heb hf
    obtain ⟨caps, hk⟩ := hl.cap
    have hcaps : caps = [a] := by
      apply eq_singleton_of_forall hk.nodup
      · exact (hk.cap a).mpr ⟨(hcb a).mpr rfl, fun t ht => by cases ht⟩
      · intro q hq
        exact (hcb q).mp ((hk.cap q).mp hq).1
    subst hcaps
    have hmv : r.1.mv = s0.mv ++ [placeRec a (move_color m1).toNat, captureRec b (s0.board b),
        placeRec b (move_color m).toNat, captureRec a (s1.board a)] := by
      rw [hk.mv, hmv1]; simp
    have hne : r.1.mv ≠ s1.mv ++ [placeRec b (move_color m).toNat] := by
      rw [hk.mv]; simp
    have hko := (check_retake_in_ko_tail hmv (movenrOf initct (ms ++ [m1]).length)).mpr
      ⟨fa3, gb3, fb3, ga3, by rw [fa1, ga1], by rw [gb1, fb1]⟩
    rw [hck hne] at hko
    cases hko
  | error e =>
    obtain ⟨st, t0, rest, hl, hs⟩ := loop_error hi1 hcm hbb.1 heb hf
    cases hs with
    | ko_opp _ _ _ _ => rfl
    | ko_capture _ _ _ _ _ => rfl
    | overflow k1 k2 k3 k4 =>
      exfalso
      obtain ⟨caps, hk⟩ := hl.cap
      obtain ⟨hk2, hce⟩ := hk.cap_step_capture hi1 heb hl.wf k1 k2 k3
      have hlen := nodup_all_eq_length hk2.nodup
        (fun q hq => (hcb q).mp ((hk2.cap q).mp hq).1)
      have h1 := congrArg List.length hk.mv
      have h2 := hk.mvlen
      rw [hce] at k4
      simp at h1 hlen
      omega

/-- A statement about the stones that a move takes needs checking on the cells of the
board array only: no other cell holds a stone. -/
theorem capturedBy_bounded {st : State} (hi : Inv st) {col xy a : Nat} (ha : a < 1024)
    (h : ∀ p < 1024, capturedBy st col xy p ↔ p = a) :
    ∀ p, capturedBy st col xy p ↔ p = a := by
  intro p
  by_cases hp : p < 1024
  · exact h p hp
  · constructor
    · intro hc
      have := onBoard_le (hi.wf.board.stone_on p hc.1) hi.wf.board.sz_le
      omega
    · intro e; omega

theorem playgogame_error_iff (g : State) (size initct : Int) (moves : List Int) (e : Err) :
    playgogame g size moves initct = .error e ↔ run g size moves initct = .error e := by
  rw [playgogame_eq]
  cases run g size moves initct with
  | error e1 => exact Iff.rfl
  | ok s => constructor <;> intro h <;> cases h

end Playgogame

namespace Playgogame


theorem chainAt_length (st : State) (p : Nat) :
    (chainAt st p).length = (st.chains (st.current_chain p)).sz := by
  unfold chainAt stonesOf
  simp

/-- The outcome of a placement on an empty point of the board that is refused neither
for lack of room nor as a ko recapture: the neighbour loop ends in a state in which
the loop invariant holds with nothing pending, and the outcome is that of the suicide
test on the chain of the new stone. -/
theorem do_place_outcome {s0 : State} (hi : Inv s0) {color : Int} (hcol : color = 1 ∨ color = 2)
    {xy : Nat} (hon : onBoard s0.sz xy) (he : s0.board xy = EMPTY) {movenr : Int}
    (h1 : do_place s0 color xy movenr ≠ .error .played_game_array_overflow)
    (h2 : do_place s0 color xy movenr ≠ .error .chainmax_overflow)
    (h3 : do_place s0 color xy movenr ≠ .error (.illegal_ko_recapture movenr)) :
    ∃ r, LoopOk s0 color.toNat xy r [] ∧
      do_place s0 color xy movenr =
        if (r.chains (r.current_chain xy)).liberties = 0 then
          if (r.chains (r.current_chain xy)).sz = 1 then .error (.suicide movenr)
          else .error (.mass_suicide movenr)
        else .ok r := by
  rw [do_place_eq] at h1 h2 h3 ⊢
  by_cases c1 : s0.mv.length = s0.mvlen
  · rw [if_pos c1] at h1; exact absurd rfl h1
  rw [if_neg c1] at h1 h2 h3 ⊢
  by_cases c2 : s0.chainct = CHAINMAX
  · rw [if_pos c2] at h2; exact absurd rfl h2
  rw [if_neg c2] at h1 h2 h3 ⊢
  cases hf : dirs.foldlM (do_move_nbr color xy movenr)
      (s0.placed (color % 256).toNat xy, s0.chainct) with
  | error e =>
    exfalso
    rw [hf] at h1 h3
    obtain ⟨st, t0, rest, hl, hs⟩ := loop_error hi hcol hon he hf
    cases hs with
    | ko_opp _ _ _ _ => exact h3 rfl
    | ko_capture _ _ _ _ _ => exact h3 rfl
    | overflow _ _ _ _ => exact h1 rfl
  | ok a =>
    obtain ⟨hl, ha⟩ := loop_ok hi hcol hon he hf
    refine ⟨a.1, hl, ?_⟩
    rw [← ha]
    rfl

/-- The suicide test of `do_move` in the words of the specification. -/
theorem suicide_test {s0 r : State} {col xy : Nat} (hcol : isStone col)
    (hl : LoopOk s0 col xy r []) :
    ((r.chains (r.current_chain xy)).liberties = 0 ↔ noLiberty s0 col xy) ∧
    ((r.chains (r.current_chain xy)).sz = 1 ↔ alone s0 col xy) := by
  obtain ⟨caps, hk⟩ := hl.cap
  have hbx : r.board xy = col := by rw [hk.board, if_pos rfl]
  have hsx : isStone (r.board xy) := by rw [hbx]; exact hcol
  have hgrp : ∀ q, q ∈ chainAt r xy ↔ inNewChain s0 col xy q := by
    intro q
    rw [hl.grp.grp q]
    unfold inNewChain
    simp
  have hbd : ∀ u, r.board u = afterCaptures s0 col xy u := by
    intro u
    rw [hk.board u]
    unfold afterCaptures
    by_cases hu : u = xy
    · rw [if_pos hu, if_pos hu]
    · rw [if_neg hu, if_neg hu]
      have : u ∈ caps ↔ capturedBy s0 col xy u := by
        rw [hk.cap u]; simp
      by_cases hc : capturedBy s0 col xy u
      · rw [if_pos (this.mpr hc), if_pos hc]
      · rw [if_neg (fun x => hc (this.mp x)), if_neg hc]
  constructor
  · rw [hl.wf.lib_nil hsx, Int.natCast_eq_zero, libs_eq_zero_iff]
    unfold noLiberty
    constructor
    · intro h q hq u hu
      rw [← hbd u]
      exact h q ((hgrp q).mpr hq) u hu
    · intro h q hq u hu
      rw [hbd u]
      exact h q ((hgrp q).mp hq) u hu
  · rw [← chainAt_length]
    unfold alone
    constructor
    · intro h q hq
      have hq1 := (hgrp q).mpr hq
      have hx1 := hl.wf.chain.mem xy hsx
      match hc : chainAt r xy, h, hq1, hx1 with
      | [z], _, hq1, hx1 =>
        rw [List.mem_singleton.mp hq1, List.mem_singleton.mp hx1]
    · intro h
      rw [eq_singleton_of_forall (hl.wf.chain.nodup xy hsx) (hl.wf.chain.mem xy hsx)
        (fun q hq => h q ((hgrp q).mp hq))]
      rfl

theorem errOf_eq_some {r : Except Err State} {e : Err} : errOf r = some e ↔ r = .error e := by
  cases r with
  | ok s => constructor <;> intro h <;> cases h
  | error e1 =>
    constructor
    · intro h; injection h with h; rw [h]
    · intro h; injection h with h; rw [h]; rfl

end Playgogame

namespace Playgogame


theorem getElem?_lt_length {α : Type} {l : List α} {i : Nat} {a : α} (h : l[i]? = some a) :
    i < l.length := by
  by_contra hc
  rw [List.getElem?_eq_none (by omega)] at h
  cases h

theorem AltLog.alt_nil : AltLog [] := by
  intro i mi h
  simp at h

/-- A log grows by a PASS entry. -/
theorem AltLog.snoc_pass {l : List Nat} (h : AltLog l) {m : Nat} (hm : isPass m) :
    AltLog (l ++ [m]) := by
  intro i mi hi hnp
  rcases (getElem?_append_singleton _ _ _ _).mp hi with h1 | ⟨_, h2⟩
  · have hlt := getElem?_lt_length h1
    obtain ⟨a, b⟩ := h i mi h1 hnp
    constructor
    · intro hc
      obtain ⟨j, mj, c1, c2, c3, c4⟩ := a hc
      exact ⟨j, mj, c1, by rw [List.getElem?_append_left (by omega)]; exact c2, c3, c4⟩
    · intro j mj hj hmj hnpj hpos hbetween
      have hmj0 : l[j]? = some mj := by
        rw [List.getElem?_append_left (by omega)] at hmj; exact hmj
      exact b j mj hj hmj0 hnpj hpos (fun k mk h1 h2 h3 h4 =>
        hbetween k mk h1 h2 (by rw [List.getElem?_append_left (by omega)]; exact h3) h4)
  · rw [h2] at hnp
    exact absurd hm hnp

/-- A log grows by the entries of one move: the placement on the empty point `xy`, then
CAPTURE entries for stones on the board, no two entries for one position. -/
theorem AltLog.block {st : State} (hl : LogOk st) (h : AltLog st.mv) {xy col : Nat}
    (hcol : isStone col) (hxy : xy < 1024) (he : st.board xy = EMPTY) {B : List Nat}
    (hB1 : ∀ (k m : Nat), B[k]? = some m → (k = 0 ∧ m = placeRec xy col) ∨
      (∃ q, isStone (st.board q) ∧ q < 1024 ∧ m = captureRec q (st.board q)))
    (hB2 : ∀ (k k1 m m1 : Nat), B[k]? = some m → B[k1]? = some m1 → recPos m = recPos m1 → k = k1) :
    AltLog (st.mv ++ B) := by
  have hold : ∀ i, i < st.mv.length → (st.mv ++ B)[i]? = st.mv[i]? := fun i hi =>
    List.getElem?_append_left hi
  have hnew : ∀ i, st.mv.length ≤ i → (st.mv ++ B)[i]? = B[i - st.mv.length]? := fun i hi =>
    List.getElem?_append_right hi
  have hBnp : ∀ (k m : Nat), B[k]? = some m → ¬ isPass m := by
    intro k m hk
    rcases hB1 k m hk with ⟨_, e⟩ | ⟨q, hq, hq2, e⟩
    · rw [e]; exact (placeRec_facts hxy hcol).2.2.2.1
    · rw [e]; exact (captureRec_facts hq2 hq).2.2.2.1
  -- the nearest earlier entry of an entry of the block is the last entry of the old log
  have key : ∀ i mi, st.mv.length ≤ i → (st.mv ++ B)[i]? = some mi →
      ∀ j mj, j < i → (st.mv ++ B)[j]? = some mj → ¬ isPass mj → recPos mj = recPos mi →
      (∀ (k mk : Nat), j < k → k < i → (st.mv ++ B)[k]? = some mk → ¬ isPass mk →
        recPos mk ≠ recPos mi) →
      j < st.mv.length ∧ st.mv[j]? = some mj ∧ j = st.last_change (recPos mi) := by
    intro i mi hi hmi j mj hj hmj hnpj hpos hbetween
    have hjlt : j < st.mv.length := by
      by_contra hc
      rw [hnew i hi] at hmi
      rw [hnew j (by omega)] at hmj
      have := hB2 _ _ _ _ hmj hmi hpos
      omega
    have hmj0 : st.mv[j]? = some mj := by rw [hold j hjlt] at hmj; exact hmj
    refine ⟨hjlt, hmj0, ?_⟩
    have h1 := hl.lc_ge j mj hmj0 hnpj
    obtain ⟨m1, h2, h3, h4⟩ := hl.lc_rec j mj hmj0 hnpj
    have h5 := getElem?_lt_length h2
    rw [hpos] at h1 h2 h4 h5
    by_contra hne
    exact hbetween (st.last_change (recPos mi)) m1 (by omega) (by omega)
      (by rw [hold _ h5]; exact h2) h3 h4
  intro i mi hi hnp
  by_cases hlt : i < st.mv.length
  · have hi0 : st.mv[i]? = some mi := by rw [hold i hlt] at hi; exact hi
    obtain ⟨a, b⟩ := h i mi hi0 hnp
    constructor
    · intro hc
      obtain ⟨j, mj, c1, c2, c3, c4⟩ := a hc
      exact ⟨j, mj, c1, by rw [hold j (by omega)]; exact c2, c3, c4⟩
    · intro j mj hj hmj hnpj hpos hbetween
      have hmj0 : st.mv[j]? = some mj := by rw [hold j (by omega)] at hmj; exact hmj
      exact b j mj hj hmj0 hnpj hpos (fun k mk h1 h2 h3 h4 =>
        hbetween k mk h1 h2 (by rw [hold k (by omega)]; exact h3) h4)
  · have hge : st.mv.length ≤ i := by omega
    have hiB : B[i - st.mv.length]? = some mi := by rw [hnew i hge] at hi; exact hi
    rcases hB1 _ _ hiB with ⟨_, e⟩ | ⟨q, hq, hq2, e⟩
    · -- the placement
      obtain ⟨f1, f2, f3, f4, _⟩ := placeRec_facts hxy hcol
      constructor
      · intro hc
        rw [e] at hc
        exact absurd hc f3
      · intro j mj hj hmj hnpj hpos hbetween
        obtain ⟨g1, g2, g3⟩ := key i mi hge hi j mj hj hmj hnpj hpos hbetween
        have hcap : isCapture mj := by
          by_contra hnc
          have h6 := hl.rec_stone j mj g2 hnpj hnc (by rw [hpos]; exact g3.symm)
          rw [hpos, e, f1, he] at h6
          rcases hl.form mj (List.getElem?_mem g2) with ⟨c, hc, e2⟩ | ⟨p, c, _, hp, hc, e2 | e2⟩
          · rw [e2] at hnpj
            exact hnpj (passRec_facts hc).2.2.2.1
          · rw [e2, (placeRec_facts hp hc).2.1] at h6
            exact isStone_ne_empty hc h6.symm
          · rw [e2] at hnc
            exact hnc (captureRec_facts hp hc).2.2.1
        rw [e]
        exact ⟨⟨fun x => absurd x f3, fun x => absurd hcap x⟩, fun x => absurd x f3⟩
    · -- a capture
      obtain ⟨f1, f2, f3, f4, _⟩ := captureRec_facts hq2 hq
      obtain ⟨p1, p2, p3, p4, _⟩ := placeRec_facts hq2 hq
      have hs := hl.stone_rec q hq
      have hs2 := getElem?_lt_length hs
      constructor
      · intro _
        refine ⟨st.last_change q, placeRec q (st.board q), by omega, ?_, p4, ?_⟩
        · rw [hold _ hs2]; exact hs
        · rw [p1, e, f1]
      · intro j mj hj hmj hnpj hpos hbetween
        obtain ⟨g1, g2, g3⟩ := key i mi hge hi j mj hj hmj hnpj hpos hbetween
        rw [e, f1] at g3
        rw [g3, hs] at g2
        injection g2 with g2
        rw [← g2, e]
        exact ⟨⟨fun _ => p3, fun _ => f3⟩, fun _ => by rw [f2, p2]⟩

/-- Every accepted move keeps the order of the entries of the log. -/
theorem do_move_alt {st r : State} (hi : Inv st) (hl : LogOk st) (h : AltLog st.mv)
    {color : Int} (hcol : color = 1 ∨ color = 2) {x y movenr : Int}
    (hr : do_move st color x y movenr = .ok r) : AltLog r.mv := by
  have hb0 := hi.wf.board
  have hps : isStone color.toNat := (isStone_toNat hcol).2 ▸ (isStone_toNat hcol).1
  rcases do_move_ok_cases hb0.sz1_eq hb0.sz_le hr with ⟨_, e1, _⟩ | ⟨_, ho, he, hd⟩
  · rw [e1]
    have hpe : passRec color = passRec (Int.ofNat color.toNat) := by
      rcases hcol with h | h <;> rw [h] <;> rfl
    exact h.snoc_pass (by rw [hpe]; exact (passRec_facts hps).2.2.2.1)
  · unfold offBoard at ho
    have hb := onBoard_POS (n := st.sz) (x := x) (y := y) (by omega) (by omega)
      (by omega) (by omega) hb0.sz_le
    have hlo := do_place_spec hi hcol hb.1 he hd
    obtain ⟨caps, hk⟩ := hlo.cap
    have h627 := onBoard_le hb.1 hb0.sz_le
    have hcaps : ∀ p ∈ caps, isStone (st.board p) ∧ p < 1024 := by
      intro p hp
      have hs := ((hk.cap p).mp hp).1.1
      have := onBoard_le (hi.wf.board.stone_on p hs) hi.wf.board.sz_le
      exact ⟨hs, by omega⟩
    have hxn : (POS x y).toNat ∉ caps := by
      intro hc
      have := (hcaps _ hc).1
      rw [he] at this
      exact isStone_ne_empty this rfl
    have hnd : ((POS x y).toNat :: caps).Nodup := List.nodup_cons.mpr ⟨hxn, hk.nodup⟩
    have hpos : (placeRec (POS x y).toNat color.toNat ::
          caps.map fun p => captureRec p (st.board p)).map recPos
        = (POS x y).toNat :: caps := by
      rw [List.map_cons, (placeRec_facts (by omega) hps).1, List.map_map]
      congr 1
      conv_rhs => rw [← List.map_id caps]
      apply List.map_congr_left
      intro p hp
      exact (captureRec_facts (hcaps p hp).2 (hcaps p hp).1).1
    rw [hk.mv]
    refine AltLog.block hl h hps (by omega) he ?_ ?_
    · intro k m hk1
      cases k with
      | zero =>
        left
        simp at hk1
        exact ⟨rfl, hk1.symm⟩
      | succ k =>
        right
        rw [List.getElem?_cons_succ, List.getElem?_map] at hk1
        cases hq : caps[k]? with
        | none => rw [hq] at hk1; cases hk1
        | some q =>
          rw [hq] at hk1
          injection hk1 with hk1
          have hm := List.getElem?_mem hq
          exact ⟨q, (hcaps q hm).1, (hcaps q hm).2, hk1.symm⟩
    · intro k k1 m m1 h1 h2 h3
      have g1 : ((POS x y).toNat :: caps)[k]? = some (recPos m) := by
        rw [← hpos, List.getElem?_map, h1]; rfl
      have g2 : ((POS x y).toNat :: caps)[k1]? = some (recPos m1) := by
        rw [← hpos, List.getElem?_map, h2]; rfl
      have hk0 := getElem?_lt_length g1
      exact (List.getElem?_inj hk0 hnd (by rw [g1, g2, h3]))

theorem play_moves_alt {initct : Int} {moves : List Int} (hc : ColoursOk moves) :
    ∀ {st r : State} {i : Nat}, Inv st → LogOk st → AltLog st.mv →
      play_moves initct st i moves = .ok r → AltLog r.mv := by
  induction moves with
  | nil =>
    intro st r i _ _ h hr
    injection hr with hr
    subst hr
    exact h
  | cons m ms ih =>
    intro st r i hi hl h hr
    unfold play_moves at hr
    cases h1 : do_move st (move_color m) (move_x m) (move_y m)
        (if (i : Int) ≥ initct then (i : Int) - initct + 1 else 0) with
    | error e => rw [h1] at hr; cases hr
    | ok st1 =>
      rw [h1] at hr
      have hcm := hc m (List.mem_cons_self _ _)
      exact ih (fun x hx => hc x (List.mem_cons_of_mem _ hx)) (do_move_inv hi hcm h1)
        (do_move_log hi hl hcm h1) (do_move_alt hi hl h hcm h1) hr

theorem run_alt {g st : State} {size initct : Int} {moves : List Int}
    (hc : ColoursOk moves) (h : run g size moves initct = .ok st) : AltLog st.mv := by
  unfold run at h
  cases h0 : init g size with
  | error e => rw [h0] at h; cases h
  | ok st0 =>
    rw [h0] at h
    have e : st0.mv = [] := by
      unfold init at h0
      split at h0
      · cases h0
      injection h0 with h0
      rw [← h0]
    exact play_moves_alt hc (init_inv h0) (init_log h0) (by rw [e]; exact AltLog.alt_nil) h

theorem exists_nearest (P : Nat → Prop) :
    ∀ (i : Nat), (∃ j, j < i ∧ P j) → ∃ j, j < i ∧ P j ∧ ∀ k, j < k → k < i → ¬ P k := by
  intro i
  induction i with
  | zero =>
    rintro ⟨j, hj, _⟩
    omega
  | succ n ih =>
    rintro ⟨j, hj, hp⟩
    by_cases hn : P n
    · exact ⟨n, by omega, hn, fun k h1 h2 => by omega⟩
    · have hjn : j < n := by
        by_contra hc
        have : j = n := by omega
        rw [this] at hp
        exact hn hp
      obtain ⟨j1, h1, h2, h3⟩ := ih ⟨j, hjn, hp⟩
      refine ⟨j1, by omega, h2, fun k h4 h5 => ?_⟩
      by_cases hk : k = n
      · rw [hk]; exact hn
      · exact h3 k h4 (by omega)

/-- The second loop of `playgogame` keeps the order of the entries. -/
theorem AltLog.marked {st : State} (hl : LogOk st) (h : AltLog st.mv) :
    AltLog (mark_permanent st).mv := by
  have back : ∀ (i m : Nat), (mark_permanent st).mv[i]? = some m →
      ∃ m0, st.mv[i]? = some m0 ∧ recPos m = recPos m0 ∧ recColor m = recColor m0 ∧
        (isPass m ↔ isPass m0) ∧ (isCapture m ↔ isCapture m0) := by
    intro i m hm
    obtain ⟨m0, h0, e⟩ := mark_permanent_some hm
    obtain ⟨f1, f2, f3, f4, _⟩ := marked_facts hl h0
    rw [e]
    exact ⟨m0, h0, f1, f2, f3, f4⟩
  have forth : ∀ (i m0 : Nat), st.mv[i]? = some m0 →
      (mark_permanent st).mv[i]? = some (Playgogame.marked st i m0) := by
    intro i m0 h0
    rw [mark_permanent_getElem?, h0]
    rfl
  intro i mi hi hnp
  obtain ⟨m0, h0, f1, f2, f3, f4⟩ := back i mi hi
  obtain ⟨a, b⟩ := h i m0 h0 (fun x => hnp (f3.mpr x))
  constructor
  · intro hc
    obtain ⟨j, mj, c1, c2, c3, c4⟩ := a (f4.mp hc)
    obtain ⟨g1, g2, g3, g4, _⟩ := marked_facts hl c2
    exact ⟨j, _, c1, forth j mj c2, fun x => c3 (g3.mp x), by rw [g1, c4, f1]⟩
  · intro j mj hj hmj hnpj hpos hbetween
    obtain ⟨mj0, j0, g1, g2, g3, g4⟩ := back j mj hmj
    have := b j mj0 hj j0 (fun x => hnpj (g3.mpr x)) (by rw [← g1, hpos, f1])
      (fun k mk h1 h2 h3 h4 h5 => by
        obtain ⟨k1, _, k3, _, _⟩ := marked_facts hl h3
        exact hbetween k _ h1 h2 (forth k mk h3) (fun x => h4 (k3.mp x)) (by rw [k1, h5, f1]))
    rw [f4, g4, f2, g2]
    exact this

theorem JoinedIn.mem_left {l : List Nat} {p q : Nat} (h : JoinedIn l p q) : p ∈ l := by
  induction h with
  | refl hp => exact hp
  | step q r _ _ _ ih => exact ih

theorem JoinedIn.mem_right {l : List Nat} {p q : Nat} (h : JoinedIn l p q) : q ∈ l := by
  cases h with
  | refl hp => exact hp
  | step q r _ hr _ => exact hr

theorem JoinedIn.joined_mono {l l1 : List Nat} {p q : Nat} (h : JoinedIn l p q)
    (hl : ∀ x ∈ l, x ∈ l1) : JoinedIn l1 p q := by
  induction h with
  | refl hp => exact JoinedIn.refl (hl _ hp)
  | step q r _ hr hn ih => exact JoinedIn.step q r ih (hl r hr) hn

theorem JoinedIn.joined_trans {l : List Nat} {p q r : Nat} (h1 : JoinedIn l p q)
    (h2 : JoinedIn l q r) : JoinedIn l p r := by
  induction h2 with
  | refl _ => exact h1
  | step s t _ ht hn ih => exact JoinedIn.step s t ih ht hn

theorem JoinedIn.joined_symm {l : List Nat} (hl : ∀ x ∈ l, 33 ≤ x) {p q : Nat}
    (h : JoinedIn l p q) : JoinedIn l q p := by
  induction h with
  | refl hp => exact JoinedIn.refl hp
  | step q r hpq hr hn ih =>
    have hq := hpq.mem_right
    have h1 : JoinedIn l r q :=
      JoinedIn.step r q (JoinedIn.refl hr) hq
        ((mem_nbrs_symm (hl q hq) (hl r hr)).mp hn)
    exact h1.joined_trans ih

/-- A path inside a list of stones of one colour is a path of stones of that colour. -/
theorem JoinedIn.to_board {l : List Nat} {b : Nat → Nat} {c : Nat} (hc : isStone c)
    (hl : ∀ x ∈ l, b x = c) {p q : Nat} (h : JoinedIn l p q) : Joined b p q := by
  induction h with
  | refl hp => exact Joined.refl (by rw [hl _ hp]; exact hc)
  | step q r hpq hr hn ih =>
    exact Joined.step q r ih hn (by rw [hl r hr, hl q hpq.mem_right])

/-- The stones of a path of adjacent stones of one colour are owned by one chain. -/
theorem Joined.same_chain {st : State} {xy : Nat} (hw : Wf st xy []) {p q : Nat}
    (h : Joined st.board p q) :
    isStone (st.board q) ∧ st.board q = st.board p ∧
      st.current_chain q = st.current_chain p := by
  induction h with
  | refl hp => exact ⟨hp, rfl, rfl⟩
  | step q r _ hn hb ih =>
    obtain ⟨h1, h2, h3⟩ := ih
    exact ⟨by rw [hb]; exact h1, by rw [hb, h2], by rw [hw.adj_nil h1 hn hb, h3]⟩

theorem ConnOk.conn_of_eq {st r : State} (h : ConnOk st) (h1 : r.board = st.board)
    (h2 : r.current_chain = st.current_chain) (h3 : r.chains = st.chains) : ConnOk r := by
  intro p hp q hq
  have e : chainAt r p = chainAt st p := by unfold chainAt; rw [h2, h3]
  rw [e] at hq ⊢
  rw [h1] at hp
  exact h p hp q hq

/-- A stone put on an empty point keeps every chain connected. -/
theorem ConnOk.conn_place {s0 r : State} (hc : ConnOk s0) (hi : Inv s0) (hr : Inv r)
    {col xy : Nat} (hl : LoopOk s0 col xy r []) :
    ConnOk r := by
  obtain ⟨caps, hk⟩ := hl.cap
  have hg := hl.grp
  have hxyb : r.board xy = col := by rw [hk.board, if_pos rfl]
  have c0 := hi.wf.chain
  have cr := hr.wf.chain
  intro p hp q hq
  by_cases hcc : r.current_chain p = r.current_chain xy
  · have e : chainAt r p = chainAt r xy := by unfold chainAt; rw [hcc]
    rw [e] at hq ⊢
    have hge : ∀ x ∈ chainAt r xy, 33 ≤ x := by
      intro x hx
      rw [← e] at hx
      exact hr.wf.board.ge (cr.stone hp hx)
    have hxy : xy ∈ chainAt r xy := (hg.grp xy).mpr (Or.inl rfl)
    have S : ∀ u ∈ chainAt r xy, JoinedIn (chainAt r xy) xy u := by
      intro u hu
      rcases (hg.grp u).mp hu with e1 | ⟨hb, t, ht, _, htu⟩
      · rw [e1]; exact JoinedIn.refl hxy
      · have hcolS : isStone col := by
          have := cr.stone hp (by rw [e]; exact hxy)
          rw [hxyb] at this
          exact this
        have hus : isStone (s0.board u) := by rw [hb]; exact hcolS
        have hts : isStone (s0.board t) := c0.stone hus htu
        have htb : s0.board t = col := by rw [(c0.own u hus t htu).1, hb]
        have hca : chainAt s0 t = chainAt s0 u := c0.chainAt_eq hus htu
        have hin : ∀ x ∈ chainAt s0 t, x ∈ chainAt r xy := by
          intro x hx
          have hxb : s0.board x = col := by rw [(c0.own t hts x hx).1, htb]
          have hxs : isStone (s0.board x) := by rw [hxb]; exact hcolS
          refine (hg.grp x).mpr (Or.inr ⟨hxb, t, ht, by simp, ?_⟩)
          rw [c0.chainAt_eq hts hx]
          exact c0.mem t hts
        have h1 : JoinedIn (chainAt r xy) t u :=
          (hc t hts u (by rw [hca]; exact c0.mem u hus)).joined_mono hin
        have h2 : JoinedIn (chainAt r xy) xy t :=
          JoinedIn.step xy t (JoinedIn.refl hxy) (hin t (c0.mem t hts)) ht
        exact h2.joined_trans h1
    have hpm : p ∈ chainAt r xy := by rw [← e]; exact cr.mem p hp
    exact ((S p hpm).joined_symm hge).joined_trans (S q hq)
  · have hne : p ≠ xy := fun e => hcc (by rw [e])
    have hb := hk.board p
    rw [if_neg hne] at hb
    have hpc : p ∉ caps := by
      intro h1
      rw [if_pos h1] at hb
      rw [hb] at hp
      exact isStone_ne_empty hp rfl
    rw [if_neg hpc] at hb
    have hp0 : isStone (s0.board p) := by rw [← hb]; exact hp
    have e : chainAt r p = chainAt s0 p := by
      by_cases h1 : s0.board p = col
      · exact (hg.own p h1 hcc).2
      · exact (hk.opp p hp0 h1 hpc).2
    rw [e] at hq ⊢
    exact hc p hp0 q hq

/-- Every accepted move keeps every chain connected. -/
theorem do_move_conn {st r : State} (hi : Inv st) (hc : ConnOk st)
    {color : Int} (hcol : color = 1 ∨ color = 2) {x y movenr : Int}
    (hr : do_move st color x y movenr = .ok r) : ConnOk r := by
  have hb0 := hi.wf.board
  have hir := do_move_inv hi hcol hr
  unfold do_move at hr
  split at hr
  · obtain ⟨_, e⟩ := add_pass_ok hr
    subst e
    exact hc.conn_of_eq rfl rfl rfl
  split at hr
  · obtain ⟨_, e⟩ := add_pass_ok hr
    subst e
    exact hc.conn_of_eq rfl rfl rfl
  split at hr
  · cases hr
  rename_i ho
  simp only at hr
  split at hr
  · cases hr
  rename_i he
  have hb := onBoard_POS (n := st.sz) (x := x) (y := y) (by omega) (by omega)
    (by omega) (by omega) hb0.sz_le
  exact hc.conn_place hi hir (do_place_spec hi hcol hb.1 (by simpa using he) hr)

theorem play_moves_conn {initct : Int} {moves : List Int} (hc : ColoursOk moves) :
    ∀ {st r : State} {i : Nat}, Inv st → ConnOk st →
      play_moves initct st i moves = .ok r → ConnOk r := by
  induction moves with
  | nil =>
    intro st r i _ h hr
    injection hr with hr
    subst hr
    exact h
  | cons m ms ih =>
    intro st r i hi h hr
    unfold play_moves at hr
    cases h1 : do_move st (move_color m) (move_x m) (move_y m)
        (if (i : Int) ≥ initct then (i : Int) - initct + 1 else 0) with
    | error e => rw [h1] at hr; cases hr
    | ok st1 =>
      rw [h1] at hr
      have hcm := hc m (List.mem_cons_self _ _)
      exact ih (fun x hx => hc x (List.mem_cons_of_mem _ hx)) (do_move_inv hi hcm h1)
        (do_move_conn hi h hcm h1) hr

theorem run_conn {g st : State} {size initct : Int} {moves : List Int}
    (hc : ColoursOk moves) (h : run g size moves initct = .ok st) : ConnOk st := by
  unfold run at h
  cases h0 : init g size with
  | error e => rw [h0] at h; cases h
  | ok st0 =>
    rw [h0] at h
    have hns : ∀ p, ¬ isStone (st0.board p) := by
      unfold init at h0
      split at h0
      · cases h0
      injection h0 with h0
      rw [← h0]
      exact init_board_not_stone _
    exact play_moves_conn hc (init_inv h0) (fun p hp => absurd hp (hns p)) h

/-- In a state reached by the replay, two stones are owned by one chain exactly when they
are joined by a path of adjacent stones of one colour. -/
theorem chain_iff_joined {g st : State} {size initct : Int} {moves : List Int}
    (hcol : ColoursOk moves) (hrun : run g size moves initct = .ok st) {p q : Nat}
    (hp : isStone (st.board p)) (hq : isStone (st.board q)) :
    st.current_chain p = st.current_chain q ↔ Joined st.board p q := by
  obtain ⟨hi, _⟩ := run_good hcol hrun
  have hc := run_conn hcol hrun
  constructor
  · intro e
    have hm : q ∈ chainAt st p := (hi.wf.chain.mem_iff hp hq).mpr e.symm
    exact (hc p hp q hm).to_board hp (fun x hx => (hi.wf.chain.own p hp x hx).1)
  · intro h
    exact (h.same_chain hi.wf).2.2.symm

/-- With stones of one colour only on the board, an accepted move of that colour takes
nothing: the board changes at the point played, if any. -/
theorem do_move_mono {st r : State} (hi : Inv st) {color : Int} (hcol : color = 1 ∨ color = 2)
    (hone : ∀ p, isStone (st.board p) → st.board p = color.toNat) {m : Int} {movenr : Int}
    (hr : do_move st color (move_x m) (move_y m) movenr = .ok r) :
    ∀ p, r.board p = if playedAt st.sz m p then color.toNat else st.board p := by
  have hb0 := hi.wf.board
  have hps : isStone color.toNat := (isStone_toNat hcol).2 ▸ (isStone_toNat hcol).1
  rcases do_move_ok_cases hb0.sz1_eq hb0.sz_le hr with ⟨hp, _, e2⟩ | ⟨_, ho, he, hd⟩
  · intro p
    have hsz := hb0.sz_le
    rw [e2, if_neg]
    unfold playedAt
    unfold passCoords at hp
    omega
  · unfold offBoard at ho
    have hb := onBoard_POS (n := st.sz) (x := move_x m) (y := move_y m) (by omega) (by omega)
      (by omega) (by omega) hb0.sz_le
    have hlo := do_place_spec hi hcol hb.1 he hd
    obtain ⟨caps, hk⟩ := hlo.cap
    have hnc : ∀ p, p ∉ caps := by
      intro p hp
      obtain ⟨⟨h1, h2, _⟩, _⟩ := (hk.cap p).mp hp
      exact h2 (hone p h1)
    intro p
    rw [hk.board p]
    by_cases e : p = (POS (move_x m) (move_y m)).toNat
    · rw [if_pos e, if_pos]
      unfold playedAt
      exact ⟨by omega, by omega, by omega, by omega, e⟩
    · rw [if_neg e, if_neg (hnc p), if_neg]
      unfold playedAt
      intro h
      exact e h.2.2.2.2

theorem play_moves_mono {initct : Int} {color : Int} (hcol : color = 1 ∨ color = 2)
    {moves : List Int} (hc : ∀ m ∈ moves, move_color m = color) :
    ∀ {st r : State} {i : Nat}, Inv st →
      (∀ p, isStone (st.board p) → st.board p = color.toNat) →
      play_moves initct st i moves = .ok r →
      ∀ p, r.board p = if ∃ m ∈ moves, playedAt st.sz m p then color.toNat else st.board p := by
  have hps : isStone color.toNat := (isStone_toNat hcol).2 ▸ (isStone_toNat hcol).1
  induction moves with
  | nil =>
    intro st r i _ _ hr p
    injection hr with hr
    subst hr
    rw [if_neg (by simp)]
  | cons m ms ih =>
    intro st r i hi hone hr p
    unfold play_moves at hr
    have hm := hc m (List.mem_cons_self _ _)
    rw [hm] at hr
    cases h1 : do_move st color (move_x m) (move_y m)
        (if (i : Int) ≥ initct then (i : Int) - initct + 1 else 0) with
    | error e => rw [h1] at hr; cases hr
    | ok st1 =>
      rw [h1] at hr
      have hb1 := do_move_mono hi hcol hone h1
      have hsz := do_move_sz hi hcol h1
      have hone1 : ∀ q, isStone (st1.board q) → st1.board q = color.toNat := by
        intro q hq
        rw [hb1 q] at hq ⊢
        split
        · rfl
        · rename_i hn
          rw [if_neg hn] at hq
          exact hone q hq
      have := ih (fun x hx => hc x (List.mem_cons_of_mem _ hx)) (do_move_inv hi hcol h1)
        hone1 hr p
      rw [this, hsz, hb1 p]
      by_cases h2 : ∃ m1 ∈ ms, playedAt st.sz m1 p
      · obtain ⟨m1, hm1, hp1⟩ := h2
        rw [if_pos ⟨m1, hm1, hp1⟩, if_pos ⟨m1, List.mem_cons_of_mem _ hm1, hp1⟩]
      · rw [if_neg h2]
        by_cases h3 : playedAt st.sz m p
        · rw [if_pos h3, if_pos ⟨m, List.mem_cons_self _ _, h3⟩]
        · rw [if_neg h3, if_neg]
          rintro ⟨m1, hm1, hp1⟩
          rcases List.mem_cons.mp hm1 with e | e
          · rw [e] at hp1; exact h3 hp1
          · exact h2 ⟨m1, e, hp1⟩

/-- The board after a replay of moves of one colour: the stones are on the points
played. -/
theorem run_mono {g st : State} {size initct color : Int} (hcol : color = 1 ∨ color = 2)
    {moves : List Int} (hc : ∀ m ∈ moves, move_color m = color)
    (h : run g size moves initct = .ok st) :
    ∀ p, st.board p =
      if ∃ m ∈ moves, playedAt size m p then color.toNat else init_board (size + 1) p := by
  unfold run at h
  cases h0 : init g size with
  | error e => rw [h0] at h; cases h
  | ok st0 =>
    rw [h0] at h
    have hsz := init_sz h0
    have hb : st0.board = init_board (size + 1) := by
      unfold init at h0
      split at h0
      · cases h0
      injection h0 with h0
      rw [← h0]
    have := play_moves_mono hcol hc (init_inv h0)
      (fun p hp => absurd hp (by rw [hb]; exact init_board_not_stone _ _)) h
    intro p
    rw [this p, hsz, hb]

theorem libs_perm (b : Nat → Nat) {l1 l2 : List Nat} (h : l1.Perm l2) :
    libs b l1 = libs b l2 := by
  unfold libs
  exact (h.map _).sum_eq

theorem SimR.bind {α β : Type} {R : α → α → Prop} {S : β → β → Prop}
    {x y : Except Err α} {f g : α → Except Err β} (h : SimR R x y)
    (hfg : ∀ a b, R a b → SimR S (f a) (g b)) : SimR S (x.bind f) (y.bind g) := by
  match x, y, h with
  | .ok a, .ok b, h => exact hfg a b h
  | .error e1, .error e2, h => exact h

theorem SimR.map {α β : Type} {R : α → α → Prop} {S : β → β → Prop}
    {x y : Except Err α} {f g : α → β} (h : SimR R x y)
    (hfg : ∀ a b, R a b → S (f a) (g b)) : SimR S (x.map f) (y.map g) := by
  match x, y, h with
  | .ok a, .ok b, h => exact hfg a b h
  | .error e1, .error e2, h => exact h

theorem Sim.stonesOf_eq {a b : State} (h : Sim a b) {c : Nat} (hc : c < a.chainct) :
    stonesOf (a.chains c) = stonesOf (b.chains c) := by
  unfold stonesOf
  rw [← h.csz c hc]
  apply List.map_congr_left
  intro j hj
  exact h.stones c hc j (List.mem_range.mp hj)

theorem Sim.cap_sim {a b : State} (h : Sim a b) (s : Nat) : Sim (a.cap s) (b.cap s) := by
  refine ⟨h.sz, h.sz1, ?_, ?_, h.chainct, ?_, ?_, h.mvlen, ?_, h.lib, h.csz, h.stones⟩
  · simp only [cap_board, h.board]
  · simp only [cap_lc, h.lc, h.mv]
  · simp only [cap_counts, h.counts, h.board]
  · simp only [cap_mv, h.mv, h.board]
  · intro p hp1 hp2
    rw [cap_board] at hp1 hp2
    by_cases hps : p = s
    · subst hps; rw [Function.update_same] at hp1; exact absurd rfl hp1
    · rw [Function.update_noteq hps] at hp1 hp2
      exact h.cc p hp1 hp2

theorem Sim.foldl_cap_sim {a b : State} (h : Sim a b) (l : List Nat) :
    Sim (l.foldl State.cap a) (l.foldl State.cap b) := by
  induction l generalizing a b with
  | nil => exact h
  | cons s l ih => exact ih (h.cap_sim s)

theorem Sim.bump {a b : State} (h : Sim a b) {f g : Nat → Int}
    (hfg : ∀ c, c < a.chainct → f c = g c) : Sim (a.bump f) (b.bump g) := by
  refine ⟨h.sz, h.sz1, h.board, h.lc, h.chainct, h.counts, h.mv, h.mvlen, h.cc, ?_, h.csz,
    h.stones⟩
  intro c hc
  simp only [bump_chain_lib]
  rw [h.lib c hc, hfg c hc]

theorem Sim.addLib {a b : State} (h : Sim a b) (c : Nat) (k : Int) :
    Sim (a.addLib c k) (b.addLib c k) := by
  rw [addLib_eq_bump, addLib_eq_bump]
  exact h.bump fun _ _ => rfl

theorem Sim.remF_sim {a b : State} (h : Sim a b) (l : List Nat) (c : Nat) :
    remF a l c = remF b l c := by
  induction l generalizing a b with
  | nil => rfl
  | cons s l ih =>
    rw [remF, remF, ih (h.cap_sim s)]
    congr 2
    apply List.countP_congr
    intro t _
    have hb : (a.cap s).board = (b.cap s).board := (h.cap_sim s).board
    simp only [decide_eq_true_eq]
    rw [← hb]
    constructor
    · rintro ⟨h1, h2⟩
      refine ⟨h1, ?_⟩
      have hc := ((h.cap_sim s).cc t (by rcases h1 with h1 | h1 <;> rw [h1] <;> decide)
        (by rcases h1 with h1 | h1 <;> rw [h1] <;> decide)).1
      rw [cap_cc, cap_cc] at hc
      rw [← hc]; exact h2
    · rintro ⟨h1, h2⟩
      refine ⟨h1, ?_⟩
      have hc := ((h.cap_sim s).cc t (by rcases h1 with h1 | h1 <;> rw [h1] <;> decide)
        (by rcases h1 with h1 | h1 <;> rw [h1] <;> decide)).1
      rw [cap_cc, cap_cc] at hc
      rw [hc]; exact h2

theorem Sim.remove_chain {a b : State} (h : Sim a b) {ch : Nat} (hch : ch < a.chainct) :
    SimR Sim (remove_chain a ch) (remove_chain b ch) := by
  rw [remove_chain_eq_ite, remove_chain_eq_ite, ← h.mv, ← h.mvlen, ← h.csz ch hch,
    ← h.stonesOf_eq hch]
  split
  · rfl
  · exact (h.foldl_cap_sim _).bump fun c _ => h.remF_sim _ c

theorem Sim.merged {a b : State} (h : Sim a b) {ch ch1 : Nat} (hch : ch < a.chainct)
    (hch1 : ch1 < a.chainct) : Sim (a.merged ch ch1) (b.merged ch ch1) := by
  refine ⟨h.sz, h.sz1, h.board, h.lc, h.chainct, h.counts, h.mv, h.mvlen, ?_, ?_, ?_, ?_⟩
  · intro p hp1 hp2
    rw [merged_board] at hp1 hp2
    rw [merged_cc, merged_cc, merged_chainct, h.stonesOf_eq hch1]
    split
    · exact ⟨rfl, hch⟩
    · exact h.cc p hp1 hp2
  · intro c hc
    rw [merged_chainct] at hc
    by_cases hcc : c = ch
    · subst hcc
      rw [merged_chain_lib, merged_chain_lib, h.lib c hc, h.lib ch1 hch1]
    · rw [merged_chain_ne _ hcc, merged_chain_ne _ hcc]; exact h.lib c hc
  · intro c hc
    rw [merged_chainct] at hc
    by_cases hcc : c = ch
    · subst hcc
      rw [merged_chain_sz, merged_chain_sz, h.csz c hc, h.csz ch1 hch1]
    · rw [merged_chain_ne _ hcc, merged_chain_ne _ hcc]; exact h.csz c hc
  · intro c hc j hj
    rw [merged_chainct] at hc
    by_cases hcc : c = ch
    · subst hcc
      rw [merged_chain_sz] at hj
      simp only [State.merged, Function.update_same]
      rw [← h.csz c hc, ← h.csz ch1 hch1]
      split
      · rename_i hx
        exact h.stones ch1 hch1 _ (by omega)
      · rename_i hx
        exact h.stones c hc _ (by omega)
    · rw [merged_chain_ne _ hcc] at hj ⊢
      rw [merged_chain_ne _ hcc]
      exact h.stones c hc j hj

theorem Sim.placed {a b : State} (h : Sim a b) (col xy : Nat) :
    Sim (a.placed col xy) (b.placed col xy) := by
  refine ⟨h.sz, h.sz1, ?_, ?_, ?_, ?_, ?_, h.mvlen, ?_, ?_, ?_, ?_⟩
  · simp only [placed_board, h.board]
  · simp only [placed_lc, h.lc, h.mv]
  · simp only [placed_chainct, h.chainct]
  · simp only [State.placed, h.counts]
  · simp only [placed_mv, h.mv]
  · intro p hp1 hp2
    rw [placed_board] at hp1 hp2
    rw [placed_cc, placed_cc, placed_chainct, ← h.chainct]
    by_cases hp : p = xy
    · subst hp
      rw [Function.update_same, Function.update_same]
      exact ⟨rfl, Nat.lt_succ_self _⟩
    · rw [Function.update_noteq hp] at hp1 hp2
      rw [Function.update_noteq hp, Function.update_noteq hp]
      exact ⟨(h.cc p hp1 hp2).1, Nat.lt_succ_of_lt (h.cc p hp1 hp2).2⟩
  · intro c hc
    rw [placed_chainct] at hc
    by_cases hcc : c = a.chainct
    · subst hcc
      rw [placed_chain_new]
      nth_rewrite 2 [h.chainct]
      rw [placed_chain_new]
    · rw [placed_chain_old _ _ _ hcc, placed_chain_old _ _ _ (by rw [← h.chainct]; exact hcc)]
      exact h.lib c (by omega)
  · intro c hc
    rw [placed_chainct] at hc
    by_cases hcc : c = a.chainct
    · subst hcc
      rw [placed_chain_new]
      nth_rewrite 2 [h.chainct]
      rw [placed_chain_new]
    · rw [placed_chain_old _ _ _ hcc, placed_chain_old _ _ _ (by rw [← h.chainct]; exact hcc)]
      exact h.csz c (by omega)
  · intro c hc j hj
    rw [placed_chainct] at hc
    by_cases hcc : c = a.chainct
    · subst hcc
      rw [placed_chain_new] at hj ⊢
      nth_rewrite 2 [h.chainct]
      rw [placed_chain_new]
      simp only at hj ⊢
      have : j = 0 := by omega
      subst this
      rw [Function.update_same, Function.update_same]
    · rw [placed_chain_old _ _ _ hcc] at hj ⊢
      rw [placed_chain_old _ _ _ (by rw [← h.chainct]; exact hcc)]
      exact h.stones c (by omega) j hj

theorem SimR.cases {α : Type} {R : α → α → Prop} {x y : Except Err α} (h : SimR R x y) :
    (∃ e1 e2, x = .error e1 ∧ y = .error e2 ∧ e1.untag = e2.untag) ∨
      ∃ r1 r2, x = .ok r1 ∧ y = .ok r2 ∧ R r1 r2 := by
  match x, y, h with
  | .ok a, .ok b, h => exact Or.inr ⟨a, b, rfl, rfl, h⟩
  | .error e1, .error e2, h => exact Or.inl ⟨e1, e2, rfl, rfl, h⟩

theorem moveCount_append (l : List Nat) (m : Nat) :
    moveCount (l ++ [m]) = moveCount l + if isCapture m then 0 else 1 := by
  unfold moveCount
  rw [List.countP_append, List.countP_cons, List.countP_nil]
  by_cases h : isCapture m <;> simp [h]

theorem captureCount_append (c : Nat) (l : List Nat) (m : Nat) :
    captureCount c (l ++ [m])
      = captureCount c l + if isCapture m ∧ recColor m = c then 1 else 0 := by
  unfold captureCount
  rw [List.countP_append, List.countP_cons, List.countP_nil]
  by_cases h : isCapture m ∧ recColor m = c <;> simp [h]

theorem CntOk.cnt_of_eq {st r : State} (h : CntOk st) (h1 : r.mv = st.mv)
    (h2 : r.counts = st.counts) : CntOk r :=
  ⟨by rw [h1, h2]; exact h.moves, by rw [h1, h2]; exact h.black, by rw [h1, h2]; exact h.white⟩

theorem CntOk.cnt_cap {st : State} (h : CntOk st) {s : Nat} (hs : isStone (st.board s))
    (hlt : s < 1024) : CntOk (st.cap s) := by
  obtain ⟨_, f2, f3, _, _, _⟩ := captureRec_facts hlt hs
  have hc := isStone_lt hs
  refine ⟨?_, ?_, ?_⟩
  · rw [cap_counts, cap_mv, moveCount_append, if_pos f3, Nat.add_zero,
      Function.update_noteq (by omega)]
    exact h.moves
  · rw [cap_counts, cap_mv, captureCount_append, f2]
    by_cases e : st.board s = 1
    · rw [e, Function.update_same, if_pos ⟨by rw [← e]; exact f3, rfl⟩, h.black]
    · rw [Function.update_noteq (Ne.symm e), if_neg (fun x => e x.2), Nat.add_zero]
      exact h.black
  · rw [cap_counts, cap_mv, captureCount_append, f2]
    by_cases e : st.board s = 2
    · rw [e, Function.update_same, if_pos ⟨by rw [← e]; exact f3, rfl⟩, h.white]
    · rw [Function.update_noteq (Ne.symm e), if_neg (fun x => e x.2), Nat.add_zero]
      exact h.white

theorem CntOk.cnt_foldl_cap (l : List Nat) : ∀ {st : State}, CntOk st → l.Nodup →
    (∀ s ∈ l, isStone (st.board s) ∧ s < 1024) → CntOk (l.foldl State.cap st) := by
  induction l with
  | nil => intro st h _ _; exact h
  | cons s l ih =>
    intro st h hn hs
    have hn2 := List.nodup_cons.mp hn
    obtain ⟨a, c⟩ := hs s (List.mem_cons_self _ _)
    rw [List.foldl_cons]
    apply ih (h.cnt_cap a c) hn2.2
    intro s1 hs1
    obtain ⟨a1, c1⟩ := hs s1 (List.mem_cons_of_mem _ hs1)
    have : s1 ≠ s := fun e => hn2.1 (e ▸ hs1)
    rw [cap_board, Function.update_noteq this]
    exact ⟨a1, c1⟩

theorem CntOk.cnt_placed {st : State} (h : CntOk st) {col xy : Nat} (hcol : isStone col)
    (hlt : xy < 1024) : CntOk (st.placed col xy) := by
  obtain ⟨_, _, f3, _, _, _⟩ := placeRec_facts hlt hcol
  refine ⟨?_, ?_, ?_⟩
  · show Function.update st.counts 0 (st.counts 0 + 1) 0 = moveCount (st.mv ++ [placeRec xy col])
    rw [Function.update_same, moveCount_append, if_neg f3, h.moves]
  · show Function.update st.counts 0 (st.counts 0 + 1) 1
      = captureCount 1 (st.mv ++ [placeRec xy col])
    rw [Function.update_noteq (by decide), captureCount_append, if_neg (fun x => f3 x.1),
      Nat.add_zero]
    exact h.black
  · show Function.update st.counts 0 (st.counts 0 + 1) 2
      = captureCount 2 (st.mv ++ [placeRec xy col])
    rw [Function.update_noteq (by decide), captureCount_append, if_neg (fun x => f3 x.1),
      Nat.add_zero]
    exact h.white

theorem Scan.effect_cnt {st r : State} {xy t0 : Nat} {movenr : Int}
    (hs : Scan xy movenr t0 st r) :
    (r = st.captured t0 ∧ isStone (st.board t0)) ∨ (r.mv = st.mv ∧ r.counts = st.counts) := by
  cases hs with
  | empty h0 => right; rw [addLib_eq_bump]; exact ⟨rfl, rfl⟩
  | border h0 h1 => right; exact ⟨rfl, rfl⟩
  | opp h1 h2 h3 h4 => right; rw [addLib_eq_bump]; exact ⟨rfl, rfl⟩
  | capture h1 h2 h3 h4 h5 => left; exact ⟨rfl, h1⟩
  | merge h1 h2 =>
    right
    exact ⟨by rw [merged_mv, addLib_eq_bump]; rfl, by rw [merged_counts, addLib_eq_bump]; rfl⟩
  | same h1 h2 => right; rw [addLib_eq_bump]; exact ⟨rfl, rfl⟩

/-- The counters stay true to the log through an iteration of the neighbour loop. -/
theorem CntOk.cnt_scan {st r : State} {xy t0 : Nat} {pending : List Nat} {movenr : Int}
    (h : CntOk st) (hw : Wf st xy pending) (hs : Scan xy movenr t0 st r) : CntOk r := by
  rcases hs.effect_cnt with ⟨e, h1⟩ | ⟨a, b⟩
  · subst e
    have h0 : CntOk (st.addLib (st.current_chain t0) (-1)) := by
      rw [addLib_eq_bump]; exact h.cnt_of_eq rfl rfl
    have h3 : CntOk ((chainAt st t0).foldl State.cap (st.addLib (st.current_chain t0) (-1))) := by
      apply CntOk.cnt_foldl_cap _ h0 (hw.chain.nodup t0 h1)
      intro s hs1
      have hst := hw.chain.stone h1 hs1
      have hon := hw.board.stone_on s hst
      have := onBoard_le hon hw.board.sz_le
      rw [addLib_eq_bump, bump_board]
      exact ⟨hst, by omega⟩
    unfold State.captured
    exact h3.cnt_of_eq rfl rfl
  · exact h.cnt_of_eq a b

theorem do_place_cnt {st r : State} (h : Inv st) (hl : CntOk st) {color : Int}
    (hcol : color = 1 ∨ color = 2) {xy : Nat} (hon : onBoard st.sz xy)
    (he : st.board xy = EMPTY) {movenr : Int}
    (hr : do_place st color xy movenr = .ok r) : CntOk r := by
  rw [do_place_eq] at hr
  split at hr
  · cases hr
  rename_i hroom
  split at hr
  · cases hr
  obtain ⟨hs, hc⟩ := isStone_toNat hcol
  cases hf : dirs.foldlM (do_move_nbr color xy movenr)
      (st.placed (color % 256).toNat xy, st.chainct) with
  | error e => rw [hf] at hr; cases hr
  | ok a =>
    rw [hf] at hr
    rw [hc] at hs hf
    have hch : st.chainct = (st.placed color.toNat xy).current_chain xy := by
      rw [placed_cc, Function.update_same]
    rw [hch] at hf
    have hstart := h.loop_start hs hon he
    have h627 := onBoard_le hon h.wf.board.sz_le
    have hl0 : CntOk (st.placed color.toNat xy) := hl.cnt_placed hs (by omega)
    have key := @scan_fold color hcol xy movenr
      (fun s pend => LoopOk st color.toNat xy s pend ∧ s.board xy = color.toNat ∧ CntOk s)
      (fun s pend h => ⟨h.1.wf, h.1.onb, h.2.1⟩)
      (by
        intro s t0 rest r1 ⟨h1, h2, h3⟩ hsc
        refine ⟨h1.loop_scan h hs he hsc, ?_, h3.cnt_scan h1.wf hsc⟩
        rw [(h1.wf.wf_scan (by rw [h2]; exact hs) hsc).2, h2])
      dirs (fun d hd => hd) _ ⟨hstart, by rw [placed_board, Function.update_same], hl0⟩ a hf
    change (if (a.1.chains a.2).liberties = 0 then _ else _) = _ at hr
    split at hr
    · split at hr <;> cases hr
    · injection hr with hr
      subst hr
      exact key.1.2.2

theorem add_pass_cnt {st r : State} (hl : CntOk st) {color : Int}
    (hcol : color = 1 ∨ color = 2) (hr : add_pass st color = .ok r) : CntOk r := by
  obtain ⟨hroom, e⟩ := add_pass_ok hr
  subst e
  have hs : isStone color.toNat := (isStone_toNat hcol).2 ▸ (isStone_toNat hcol).1
  have hce : color = Int.ofNat color.toNat := by
    rcases hcol with h | h <;> subst h <;> rfl
  have hrec : ((color * 1024) % 65536).toNat ||| PG_PASS = passRec (Int.ofNat color.toNat) := by
    rw [← hce]; rfl
  obtain ⟨_, _, f3, _, _, _⟩ := passRec_facts hs
  rw [← hrec] at f3
  refine ⟨?_, ?_, ?_⟩
  · show Function.update st.counts 0 (st.counts 0 + 1) 0 = moveCount (st.mv ++ [_])
    rw [Function.update_same, moveCount_append, if_neg f3, hl.moves]
  · show Function.update st.counts 0 (st.counts 0 + 1) 1 = captureCount 1 (st.mv ++ [_])
    rw [Function.update_noteq (by decide), captureCount_append, if_neg (fun x => f3 x.1),
      Nat.add_zero]
    exact hl.black
  · show Function.update st.counts 0 (st.counts 0 + 1) 2 = captureCount 2 (st.mv ++ [_])
    rw [Function.update_noteq (by decide), captureCount_append, if_neg (fun x => f3 x.1),
      Nat.add_zero]
    exact hl.white

theorem do_move_cnt {st r : State} (h : Inv st) (hl : CntOk st) {color : Int}
    (hcol : color = 1 ∨ color = 2) {x y movenr : Int}
    (hr : do_move st color x y movenr = .ok r) : CntOk r := by
  unfold do_move at hr
  split at hr
  · exact add_pass_cnt hl hcol hr
  split at hr
  · exact add_pass_cnt hl hcol hr
  split at hr
  · cases hr
  rename_i hxy
  simp only at hr
  split at hr
  · cases hr
  rename_i he
  have hb := onBoard_POS (n := st.sz) (x := x) (y := y) (by omega) (by omega) (by omega)
    (by omega) h.wf.board.sz_le
  exact do_place_cnt h hl hcol hb.1 (by simpa using he) hr

theorem init_cnt {g st : State} {size : Int} (h : init g size = .ok st) : CntOk st := by
  unfold init at h
  split at h
  · cases h
  injection h with h
  subst h
  exact ⟨rfl, rfl, rfl⟩

theorem play_moves_cnt {initct : Int} {moves : List Int} (hc : ColoursOk moves) :
    ∀ {st r : State} {i : Nat}, Inv st → CntOk st → play_moves initct st i moves = .ok r →
      CntOk r := by
  induction moves with
  | nil =>
    intro st r i h hl hr
    injection hr with hr
    subst hr
    exact hl
  | cons m ms ih =>
    intro st r i h hl hr
    unfold play_moves at hr
    cases h1 : do_move st (move_color m) (move_x m) (move_y m)
        (if (i : Int) ≥ initct then (i : Int) - initct + 1 else 0) with
    | error e => rw [h1] at hr; cases hr
    | ok a =>
      rw [h1] at hr
      have hm := hc m (List.mem_cons_self _ _)
      exact ih (fun m1 hm1 => hc m1 (List.mem_cons_of_mem _ hm1))
        (do_move_inv h hm h1) (do_move_cnt h hl hm h1) hr

theorem run_cnt {g st : State} {size initct : Int} {moves : List Int}
    (hc : ColoursOk moves) (h : run g size moves initct = .ok st) : CntOk st := by
  unfold run at h
  cases h0 : init g size with
  | error e => rw [h0] at h; cases h
  | ok st0 =>
    rw [h0] at h
    exact play_moves_cnt hc (init_inv h0) (init_cnt h0) h

/-- A log in which every CAPTURE entry is of Black or of White is as long as the three
counts together. -/
theorem length_eq_counts (l : List Nat)
    (h : ∀ m ∈ l, isCapture m → recColor m = 1 ∨ recColor m = 2) :
    l.length = moveCount l + captureCount 1 l + captureCount 2 l := by
  induction l using List.reverseRecOn with
  | nil => rfl
  | append_singleton l m ih =>
    have ih2 := ih fun x hx => h x (List.mem_append_left _ hx)
    have hm := h m (List.mem_append_right _ (List.mem_singleton_self m))
    rw [List.length_append, List.length_singleton, moveCount_append, captureCount_append,
      captureCount_append, ih2]
    by_cases hc : isCapture m
    · rcases hm hc with e | e
      · rw [if_pos hc, if_pos ⟨hc, e⟩, if_neg (fun x => by rw [e] at x; exact absurd x.2 (by decide))]
        omega
      · rw [if_pos hc, if_neg (fun x => by rw [e] at x; exact absurd x.2 (by decide)),
          if_pos ⟨hc, e⟩]
        omega
    · rw [if_neg hc, if_neg (fun x => hc x.1), if_neg (fun x => hc x.1)]
      omega

/-- The second loop of `playgogame` changes no count of the log. -/
theorem mark_permanent_counts {st : State} (hl : LogOk st) :
    moveCount (mark_permanent st).mv = moveCount st.mv ∧
    ∀ c, captureCount c (mark_permanent st).mv = captureCount c st.mv := by
  have hclear := mark_permanent_clear hl
  have hel : ∀ e ∈ (mark_permanent st).mv,
      (isCapture (clearPermanent e) ↔ isCapture e) ∧ recColor (clearPermanent e) = recColor e := by
    intro e he
    obtain ⟨i, hi1⟩ := List.mem_iff_getElem?.mp he
    obtain ⟨m0, a, b⟩ := mark_permanent_some hi1
    subst b
    have k := marked_facts hl a
    rw [(marked_shape hl a).1]
    exact ⟨k.2.2.2.1.symm, k.2.1.symm⟩
  constructor
  · unfold moveCount
    rw [← hclear, List.countP_map]
    apply List.countP_congr
    intro e he
    simp only [Function.comp, decide_eq_true_eq]
    rw [(hel e he).1]
  · intro c
    unfold captureCount
    rw [← hclear, List.countP_map]
    apply List.countP_congr
    intro e he
    simp only [Function.comp, decide_eq_true_eq]
    rw [(hel e he).1, (hel e he).2]

theorem Scan.chainct_eq {st r : State} {xy t0 : Nat} {movenr : Int}
    (hs : Scan xy movenr t0 st r) : r.chainct = st.chainct := by
  cases hs <;> simp [addLib_eq_bump]

/-- A stone put on the board takes the next chain slot. -/
theorem do_place_chainct {s0 r : State} (hi : Inv s0) {color : Int}
    (hcol : color = 1 ∨ color = 2) {xy : Nat} (hon : onBoard s0.sz xy)
    (he : s0.board xy = EMPTY) {movenr : Int}
    (hr : do_place s0 color xy movenr = .ok r) : r.chainct = s0.chainct + 1 := by
  rw [do_place_eq] at hr
  split at hr
  · cases hr
  split at hr
  · cases hr
  cases hf : dirs.foldlM (do_move_nbr color xy movenr)
      (s0.placed (color % 256).toNat xy, s0.chainct) with
  | error e => rw [hf] at hr; cases hr
  | ok a =>
    rw [hf] at hr
    change (if (a.1.chains a.2).liberties = 0 then _ else _) = _ at hr
    split at hr
    · split at hr <;> cases hr
    injection hr with hr
    subst hr
    obtain ⟨hs, hc⟩ := isStone_toNat hcol
    rw [hc] at hs hf
    have hch : s0.chainct = (s0.placed color.toNat xy).current_chain xy := by
      rw [placed_cc, Function.update_same]
    rw [hch] at hf
    have hstart := hi.loop_start hs hon he
    exact (@scan_fold color hcol xy movenr
      (fun s pend => (LoopOk s0 color.toNat xy s pend ∧ s.board xy = color.toNat) ∧
        s.chainct = s0.chainct + 1)
      (fun s pend h => ⟨h.1.1.wf, h.1.1.onb, h.1.2⟩)
      (by
        intro s t0 rest r1 ⟨⟨h1, h2⟩, h4⟩ hsc
        have h3 := h1.loop_scan hi hs he hsc
        refine ⟨⟨h3, ?_⟩, by rw [hsc.chainct_eq, h4]⟩
        rw [(h1.wf.wf_scan (by rw [h2]; exact hs) hsc).2, h2])
      dirs (fun d hd => hd) _ ⟨⟨hstart, by rw [placed_board, Function.update_same]⟩, rfl⟩
      a hf).1.2

theorem do_move_chainct {st r : State} (hi : Inv st) {color : Int}
    (hcol : color = 1 ∨ color = 2) {x y movenr : Int}
    (h : do_move st color x y movenr = .ok r) :
    r.chainct = st.chainct + if passCoords st.sz x y then 0 else 1 := by
  rw [do_move_cases st color x y movenr hi.wf.board.sz1_eq hi.wf.board.sz_le] at h
  split at h
  · rename_i hp
    obtain ⟨_, e⟩ := add_pass_ok h
    subst e
    rw [if_pos hp]
    rfl
  rename_i hp
  rw [if_neg hp]
  split at h
  · cases h
  rename_i ho
  split at h
  · cases h
  rename_i he
  unfold offBoard at ho
  have hb := onBoard_POS (n := st.sz) (x := x) (y := y) (by omega) (by omega) (by omega)
    (by omega) hi.wf.board.sz_le
  exact do_place_chainct hi hcol hb.1 (by simpa using he) h

theorem placements_snoc (size : Int) (ms : List Int) (m : Int) :
    placements size (ms ++ [m])
      = placements size ms + if passCoords size (move_x m) (move_y m) then 0 else 1 := by
  unfold placements
  rw [List.countP_append, List.countP_cons, List.countP_nil]
  by_cases h : passCoords size (move_x m) (move_y m) <;> simp [isPlacement, h]

theorem placements_le_append (size : Int) (a b : List Int) :
    placements size a ≤ placements size (a ++ b) := by
  unfold placements
  rw [List.countP_append]
  exact Nat.le_add_right _ _

/-- The chain counter after accepted moves is the number of stone placements. -/
theorem run_chainct {g : State} {size initct : Int} (moves : List Int) :
    ∀ {st : State}, ColoursOk moves → run g size moves initct = .ok st →
      st.chainct = placements size moves := by
  induction moves using List.reverseRecOn with
  | nil =>
    intro st _ h
    unfold run at h
    cases h0 : init g size with
    | error e => rw [h0] at h; cases h
    | ok st0 =>
      rw [h0] at h
      injection h with h
      subst h
      unfold init at h0
      split at h0
      · cases h0
      injection h0 with h0
      subst h0
      rfl
  | append_singleton ms m ih =>
    intro st hc h
    obtain ⟨s0, h0, h1⟩ := run_snoc_ok h
    have hc0 : ColoursOk ms := fun a ha => hc a (List.mem_append_left _ ha)
    have hm := hc m (List.mem_append_right _ (List.mem_singleton_self m))
    obtain ⟨hi, _⟩ := run_good hc0 h0
    rw [do_move_chainct hi hm h1, ih hc0 h0, run_sz hc0 h0, placements_snoc]

theorem do_move_nbr_not_chainmax {color : Int} {xy : Nat} {movenr : Int} {a : State × Nat}
    {d : Int} {e : Err} (h : do_move_nbr color xy movenr a d = .error e) :
    e ≠ .chainmax_overflow := by
  unfold do_move_nbr at h
  simp only at h
  split at h
  · cases h
  split at h
  · split at h
    · split at h
      · cases h1 : remove_chain (a.1.addLib (a.1.current_chain (nbr xy d)) (-1))
            (a.1.current_chain (nbr xy d)) with
        | error e1 =>
          rw [h1] at h
          injection h with h
          subst h
          rw [remove_chain_eq_ite] at h1
          split at h1
          · injection h1 with h1; subst h1; intro x; cases x
          · cases h1
        | ok s2 =>
          rw [h1] at h
          change (check_retake_in_ko s2 movenr).map _ = _ at h
          cases h2 : check_retake_in_ko s2 movenr with
          | error e1 =>
            rw [h2] at h
            injection h with h
            subst h
            rw [check_retake_in_ko_error h2]; intro x; cases x
          | ok u => rw [h2] at h; cases h
      · change (check_retake_in_ko _ movenr).map _ = _ at h
        cases h2 : check_retake_in_ko (a.1.addLib (a.1.current_chain (nbr xy d)) (-1)) movenr with
        | error e1 =>
          rw [h2] at h
          injection h with h
          subst h
          rw [check_retake_in_ko_error h2]; intro x; cases x
        | ok u => rw [h2] at h; cases h
    · split at h <;> cases h
  · cases h

/-- The error `CHAINMAX overflow` arises only when all chain slots have been used; and
with the log not full, it arises then. -/
theorem do_place_chainmax (st : State) (color : Int) (xy : Nat) (movenr : Int) :
    (do_place st color xy movenr = .error .chainmax_overflow → st.chainct = CHAINMAX) ∧
    (st.chainct = CHAINMAX → st.mv.length ≠ st.mvlen →
      do_place st color xy movenr = .error .chainmax_overflow) := by
  rw [do_place_eq]
  constructor
  · intro h
    split at h
    · cases h
    split at h
    · rename_i hc; exact hc
    cases hf : dirs.foldlM (do_move_nbr color xy movenr)
        (st.placed (color % 256).toNat xy, st.chainct) with
    | error e1 =>
      rw [hf] at h
      injection h with h
      subst h
      exact absurd rfl
        (foldlM_error (fun e => e ≠ .chainmax_overflow) _
          (fun _ _ _ h1 => do_move_nbr_not_chainmax h1) _ _ _ hf)
    | ok a =>
      rw [hf] at h
      change (if (a.1.chains a.2).liberties = 0 then _ else _) = _ at h
      split at h
      · split at h <;> cases h
      · cases h
  · intro hc hroom
    rw [if_neg hroom, if_pos hc]

/-- A failed replay failed at one of its moves, after the moves before it were
accepted; or the size of the board was not supported. -/
theorem run_error_split {g : State} {size initct : Int} {e : Err} (moves : List Int) :
    run g size moves initct = .error e →
      init g size = .error e ∨
      ∃ ms m rest s, moves = ms ++ m :: rest ∧ run g size ms initct = .ok s ∧
        do_move s (move_color m) (move_x m) (move_y m) (movenrOf initct ms.length)
          = .error e := by
  induction moves using List.reverseRecOn with
  | nil =>
    intro h
    unfold run at h
    cases h0 : init g size with
    | error e1 => rw [h0] at h; exact Or.inl h
    | ok st0 => rw [h0] at h; cases h
  | append_singleton l m ih =>
    intro h
    rw [run_snoc] at h
    cases h0 : run g size l initct with
    | error e1 =>
      rw [h0] at h
      rcases ih (by rw [h0]; exact h) with h1 | ⟨ms, m1, rest, s, h1, h2, h3⟩
      · exact Or.inl h1
      · exact Or.inr ⟨ms, m1, rest ++ [m], s, by rw [h1]; simp, h2, h3⟩
    | ok s =>
      rw [h0] at h
      exact Or.inr ⟨l, m, [], s, rfl, h0, h⟩

theorem run_append (g : State) (size initct : Int) (a b : List Int) :
    run g size (a ++ b) initct
      = (run g size a initct).bind fun s => play_moves initct s a.length b := by
  unfold run
  cases h0 : init g size with
  | error e => rfl
  | ok st0 =>
    show play_moves initct st0 0 (a ++ b) = (play_moves initct st0 0 a).bind _
    rw [play_moves_append, Nat.zero_add]

theorem bgin_move_place_all : ∀ p < 1024, ∀ c < 3, 0 < c →
    bgin_move (p ||| (c <<< 10)) = c * 65536 + (p / 32 + 96) * 256 + (p % 32 + 96) ∧
    bgin_move ((p ||| (c <<< 10)) ||| PG_PERMANENT)
      = c * 65536 + (p / 32 + 96) * 256 + (p % 32 + 96) := by
  decide!

theorem bgin_move_pass_all : ∀ c < 3, 0 < c →
    bgin_move ((c <<< 10) ||| PG_PASS) = c * 65536 + 116 * 256 + 116 ∧
    bgin_move (((c <<< 10) ||| PG_PASS) ||| PG_PERMANENT) = c * 65536 + 116 * 256 + 116 := by
  decide!

theorem bgin_move_permanent_place : ∀ p < 1024, ∀ c < 3, 0 < c →
    bgin_move (placeRec p c ||| PG_PERMANENT) = bgin_move (placeRec p c) := by
  decide!

theorem bgin_move_permanent_pass : ∀ c < 3, 0 < c →
    bgin_move (passRec (Int.ofNat c) ||| PG_PERMANENT) = bgin_move (passRec (Int.ofNat c)) := by
  decide!

/-- The PERMANENT flag that the second loop of `playgogame` sets does not change what
`do_bgin` decodes from an entry that is not a CAPTURE entry. -/
theorem bgin_move_marked {st : State} (hl : LogOk st) {i m0 : Nat} (h : st.mv[i]? = some m0)
    (hc : ¬ isCapture m0) : bgin_move (marked st i m0) = bgin_move m0 := by
  have hmem := List.getElem?_mem h
  unfold marked
  split
  · rcases hl.form m0 hmem with ⟨c, hs, e⟩ | ⟨p, c, _, hp, hs, e | e⟩
    · subst e
      exact bgin_move_permanent_pass c (isStone_lt hs).1 (isStone_lt hs).2
    · subst e
      exact bgin_move_permanent_place p hp c (isStone_lt hs).1 (isStone_lt hs).2
    · subst e
      exact absurd (captureRec_facts hp hs).2.2.1 hc
  · rfl

/-- Every move of an accepted game is a pass or lies on the board, whose size is at
most 19. -/
theorem run_moves_valid {g : State} {size initct : Int} (moves : List Int) :
    ∀ {st : State}, ColoursOk moves → run g size moves initct = .ok st →
      ∀ m ∈ moves, size ≤ 19 ∧
        (passCoords size (move_x m) (move_y m) ∨ ¬ offBoard size (move_x m) (move_y m)) := by
  induction moves using List.reverseRecOn with
  | nil => intro st _ _ m hm; cases hm
  | append_singleton ms a ih =>
    intro st hc h m hm
    obtain ⟨s0, h0, h1⟩ := run_snoc_ok h
    have hc0 : ColoursOk ms := fun a ha => hc a (List.mem_append_left _ ha)
    rcases List.mem_append.mp hm with hm | hm
    · exact ih hc0 h0 m hm
    · rw [List.mem_singleton] at hm
      subst hm
      obtain ⟨hi, _⟩ := run_good hc0 h0
      have hsz := run_sz hc0 h0
      have hle := hi.wf.board.sz_le
      rw [hsz] at hle
      refine ⟨hle, ?_⟩
      rcases do_move_ok_cases hi.wf.board.sz1_eq hi.wf.board.sz_le h1 with ⟨hp, _⟩ | ⟨_, ho, _⟩
      · rw [hsz] at hp; exact Or.inl hp
      · rw [hsz] at ho; exact Or.inr ho

/-- The decoding of `do_bgin` undoes the encoding of a move that is a C int with colour
1 or 2, and that is written `tt` when it is a pass. -/
theorem bgin_move_encode {size m : Int} (hs : size ≤ 19)
    (hcol : move_color m = 1 ∨ move_color m = 2)
    (hint : -2147483648 ≤ m ∧ m < 2147483648)
    (htt : passCoords size (move_x m) (move_y m) → (m / 256) % 256 = 116 ∧ m % 256 = 116)
    (hv : passCoords size (move_x m) (move_y m) ∨ ¬ offBoard size (move_x m) (move_y m)) :
    ((bgin_move (encodeMove size m) : Nat) : Int) = m := by
  obtain ⟨c, hc3, hc0, hce⟩ : ∃ c : Nat, c < 3 ∧ 0 < c ∧ move_color m = (c : Int) := by
    rcases hcol with h | h
    · exact ⟨1, by decide, by decide, by rw [h]; rfl⟩
    · exact ⟨2, by decide, by decide, by rw [h]; rfl⟩
  have hq : m / 65536 = (c : Int) := by
    unfold move_color at hce
    omega
  have hdec : m = (m / 65536) * 65536 + ((m / 256) % 256) * 256 + m % 256 := by omega
  unfold encodeMove
  by_cases hp : isPassXY size (move_x m) (move_y m)
  · rw [if_pos hp]
    have hpc : passCoords size (move_x m) (move_y m) := by
      unfold isPassXY at hp
      unfold passCoords
      omega
    obtain ⟨t1, t0⟩ := htt hpc
    rw [hce, Int.toNat_ofNat, (bgin_move_pass_all c hc3 hc0).1]
    push_cast
    omega
  · rw [if_neg hp]
    have hno : ¬ passCoords size (move_x m) (move_y m) := by
      unfold isPassXY at hp
      unfold passCoords
      omega
    have ho := hv.resolve_left hno
    unfold offBoard at ho
    obtain ⟨x, hx⟩ : ∃ x : Nat, move_x m = (x : Int) := ⟨(move_x m).toNat, by omega⟩
    obtain ⟨y, hy⟩ : ∃ y : Nat, move_y m = (y : Int) := ⟨(move_y m).toNat, by omega⟩
    rw [hx, hy] at ho
    rw [hce, hx, hy, Int.toNat_ofNat, Int.toNat_ofNat, Int.toNat_ofNat,
      (bgin_move_place_all (32 * x + y) (by omega) c hc3 hc0).1]
    unfold move_x at hx
    unfold move_y at hy
    push_cast
    omega

theorem cycle_eval :
    playgogame (blank 100) 19 cycleGame 0 = .ok cycleFinal ∧
    check_for_cycles cycleFinal.mv = .cycle 14 8 ∧
    cycleFinal.mv.length = 16 := by
  refine ⟨ok_stateOf (blank 0) (by decide!), by decide!, by decide!⟩

theorem key_eq (m : Nat) : m &&& 0xfff = recPos m + 1024 * recColor m := by
  unfold recPos recColor
  have h1 : m &&& 0xfff = m % 4096 := Nat.and_pow_two_sub_one_eq_mod m 12
  have h2 : m &&& 0x3ff = m % 1024 := Nat.and_pow_two_sub_one_eq_mod m 10
  have h3 : (m >>> 10) &&& 3 = (m >>> 10) % 4 := Nat.and_pow_two_sub_one_eq_mod (m >>> 10) 2
  rw [h1, h2, h3, Nat.shiftRight_eq_div_pow]
  omega

theorem recPos_lt (m : Nat) : recPos m < 1024 := by
  unfold recPos
  have h2 : m &&& 0x3ff = m % 1024 := Nat.and_pow_two_sub_one_eq_mod m 10
  rw [h2]
  omega

theorem recColor_lt (m : Nat) : recColor m < 4 := by
  unfold recColor
  have h3 : (m >>> 10) &&& 3 = (m >>> 10) % 4 := Nat.and_pow_two_sub_one_eq_mod (m >>> 10) 2
  rw [h3]
  omega

theorem key_iff (m p c : Nat) (hp : p < 1024) :
    m &&& 0xfff = p + 1024 * c ↔ recPos m = p ∧ recColor m = c := by
  rw [key_eq]
  have := recPos_lt m
  constructor
  · intro h; constructor <;> omega
  · rintro ⟨h1, h2⟩; rw [h1, h2]

theorem replay_snoc (l : List Nat) (m : Nat) : replay (l ++ [m]) = applyRec (replay l) m := by
  unfold replay
  rw [List.foldl_append]
  rfl

theorem applyRec_other (b : Nat → Nat) (m p : Nat) (h : isPass m ∨ recPos m ≠ p) :
    applyRec b m p = b p := by
  unfold applyRec
  split
  · rfl
  · rename_i hp
    have hne : p ≠ recPos m := fun e => (h.resolve_left hp) e.symm
    split
    · exact Function.update_noteq hne _ _
    · exact Function.update_noteq hne _ _

theorem applyRec_same (b : Nat → Nat) (m : Nat) (h : ¬ isPass m) :
    applyRec b m (recPos m) = if isCapture m then EMPTY else recColor m := by
  unfold applyRec
  rw [if_neg h]
  split
  · exact Function.update_same _ _ _
  · exact Function.update_same _ _ _

theorem oddKey_snoc (w : List Nat) (m x : Nat) :
    oddKey (w ++ [m]) x ↔ (oddKey w x ↔ m &&& 0xfff ≠ x) := by
  unfold oddKey
  rw [List.countP_append]
  by_cases h : m &&& 0xfff = x
  · simp only [List.countP_cons, List.countP_nil, h, decide_True, if_true, ne_eq,
      not_true_eq_false, iff_false]
    omega
  · simp only [List.countP_cons, List.countP_nil, h, decide_False, ne_eq,
      not_false_eq_true, iff_true]
    simp

theorem LegalLog.legal_init {l : List Nat} {m : Nat} (h : LegalLog (l ++ [m])) : LegalLog l := by
  intro a x b e
  exact h a x (b ++ [m]) (by rw [e]; simp)

theorem LegalLog.legal_last {l : List Nat} {m : Nat} (h : LegalLog (l ++ [m])) :
    LegalRec (replay l) m :=
  h l m [] rfl

/-- The cells of the replay of a legal log are empty or hold a stone. -/
theorem replay_values : ∀ (l : List Nat), LegalLog l → ∀ p,
    replay l p = 0 ∨ replay l p = 1 ∨ replay l p = 2 := by
  intro l
  induction l using List.reverseRecOn with
  | nil => intro _ p; left; rfl
  | append_singleton l m ih =>
    intro h p
    rw [replay_snoc]
    have hl := h.legal_last
    by_cases hp : isPass m ∨ recPos m ≠ p
    · rw [applyRec_other _ _ _ hp]
      exact ih h.legal_init p
    · push_neg at hp
      obtain ⟨h1, h2⟩ := hp
      subst h2
      rw [applyRec_same _ _ h1]
      split
      · left; rfl
      · right; exact hl.col h1

/-- The cells for which the log has no entry are empty in the replay. -/
theorem replay_untouched : ∀ (l : List Nat) (p : Nat),
    (∀ m ∈ l, ¬ isPass m → recPos m ≠ p) → replay l p = EMPTY := by
  intro l
  induction l using List.reverseRecOn with
  | nil => intro p _; rfl
  | append_singleton l m ih =>
    intro p h
    rw [replay_snoc]
    have hm : isPass m ∨ recPos m ≠ p := by
      by_cases hp : isPass m
      · exact Or.inl hp
      · exact Or.inr (h m (List.mem_append_right _ (List.mem_singleton_self m)) hp)
    rw [applyRec_other _ _ _ hm]
    exact ih p fun x hx => h x (List.mem_append_left _ hx)

theorem parity_same {A B B1 K : Prop} (h : B1 ↔ B) (hk : ¬ K) :
    ((¬ (A ↔ B)) ↔ ¬ K) ↔ ¬ (A ↔ B1) := by
  tauto

theorem parity_flip {A B B1 K : Prop} (h : B1 ↔ ¬ B) (hk : K) :
    ((¬ (A ↔ B)) ↔ ¬ K) ↔ ¬ (A ↔ B1) := by
  tauto

/-- The entries `w` after the legal log `a`, cell by cell: a colour occurs an odd number
of times for a cell exactly when the cell holds that colour before `w` or after it, but
not both. -/
theorem parity_of_window (a : List Nat) : ∀ (w : List Nat), LegalLog (a ++ w) →
    ∀ p c, 0 < p → p < 1024 → (c = 1 ∨ c = 2) →
      (oddKey w (p + 1024 * c) ↔ ¬ (replay a p = c ↔ replay (a ++ w) p = c)) := by
  intro w
  induction w using List.reverseRecOn with
  | nil =>
    intro _ p c _ _ _
    rw [List.append_nil]
    unfold oddKey
    simp
  | append_singleton w m ih =>
    intro h p c hp0 hp hc
    rw [← List.append_assoc] at h
    have hl := h.legal_last
    have hi := ih h.legal_init p c hp0 hp hc
    have hc0 : c ≠ 0 := by omega
    rw [← List.append_assoc, replay_snoc, oddKey_snoc, hi, ne_eq, key_iff m p c hp]
    by_cases hpass : isPass m
    · have h0 := hl.pass hpass
      rw [applyRec_other _ _ _ (Or.inl hpass)]
      exact parity_same Iff.rfl fun e => hp0.ne' (e.1.symm.trans h0)
    · by_cases hq : recPos m = p
      · subst hq
        rw [applyRec_same _ _ hpass]
        by_cases hcap : isCapture m
        · have hb := hl.cap hpass hcap
          rw [if_pos hcap, hb]
          by_cases hd : recColor m = c
          · exact parity_flip ⟨fun e => absurd e.symm hc0, fun e => absurd hd e⟩ ⟨rfl, hd⟩
          · exact parity_same ⟨fun e => absurd e.symm hc0, fun e => absurd e hd⟩ fun e => hd e.2
        · have hb := hl.put hpass hcap
          rw [if_neg hcap, hb]
          by_cases hd : recColor m = c
          · exact parity_flip ⟨fun _ e => absurd e.symm hc0, fun _ => hd⟩ ⟨rfl, hd⟩
          · exact parity_same ⟨fun e => absurd e hd, fun e => absurd e.symm hc0⟩ fun e => hd e.2
      · rw [applyRec_other _ _ _ (Or.inr hq)]
        exact parity_same Iff.rfl fun e => hq e.1

theorem replay_append_untouched (a : List Nat) : ∀ (w : List Nat) (p : Nat),
    (∀ m ∈ w, ¬ isPass m → recPos m ≠ p) → replay (a ++ w) p = replay a p := by
  intro w
  induction w using List.reverseRecOn with
  | nil => intro p _; rw [List.append_nil]
  | append_singleton w m ih =>
    intro p h
    rw [← List.append_assoc, replay_snoc]
    have hm : isPass m ∨ recPos m ≠ p := by
      by_cases hp : isPass m
      · exact Or.inl hp
      · exact Or.inr (h m (List.mem_append_right _ (List.mem_singleton_self m)) hp)
    rw [applyRec_other _ _ _ hm]
    exact ih p fun x hx => h x (List.mem_append_left _ hx)

theorem replay_after (a1 a2 : List Nat) (mj p : Nat) (hnp : ¬ isPass mj) (hp : recPos mj = p)
    (h2 : ∀ m ∈ a2, ¬ isPass m → recPos m ≠ p) :
    replay (a1 ++ mj :: a2) p = if isCapture mj then EMPTY else recColor mj := by
  have e : a1 ++ mj :: a2 = (a1 ++ [mj]) ++ a2 := by simp
  rw [e, replay_append_untouched _ _ _ h2, replay_snoc]
  subst hp
  exact applyRec_same _ _ hnp

theorem split_at {a : List Nat} {j mj : Nat} (h : a[j]? = some mj) :
    a = a.take j ++ mj :: a.drop (j + 1) := by
  have hlt : j < a.length := getElem?_lt_length h
  have e : a[j] = mj := by
    rw [List.getElem?_eq_getElem hlt] at h
    injection h
  rw [← e, ← List.drop_eq_getElem_cons hlt, List.take_append_drop]

theorem mem_drop_index {a : List Nat} {j x : Nat} (h : x ∈ a.drop (j + 1)) :
    ∃ k, j < k ∧ a[k]? = some x := by
  obtain ⟨k, hk⟩ := List.mem_iff_getElem?.mp h
  rw [List.getElem?_drop] at hk
  exact ⟨j + 1 + k, by omega, hk⟩

/-- The replay of the entries before an entry, on the cell of the nearest earlier entry
for a position. -/
theorem replay_nearest {a : List Nat} {j mj p : Nat} (h : a[j]? = some mj)
    (hnp : ¬ isPass mj) (hp : recPos mj = p)
    (hnear : ∀ (k mk : Nat), j < k → a[k]? = some mk → ¬ isPass mk → recPos mk ≠ p) :
    replay a p = if isCapture mj then EMPTY else recColor mj := by
  have e := split_at h
  rw [e]
  refine replay_after _ _ _ _ hnp hp fun x hx hx1 => ?_
  obtain ⟨k, hk, hk1⟩ := mem_drop_index hx
  exact hnear k x hk hk1 hx1

theorem getElem?_before (a : List Nat) (m : Nat) (b : List Nat) {k : Nat} (hk : k < a.length) :
    (a ++ m :: b)[k]? = a[k]? :=
  List.getElem?_append_left hk

theorem getElem?_middle (a : List Nat) (m : Nat) (b : List Nat) :
    (a ++ m :: b)[a.length]? = some m := by
  rw [List.getElem?_append_right (Nat.le_refl _), Nat.sub_self]
  exact List.getElem?_cons_zero

/-- A log with the order of `AltLog` and well-formed entries is legal: every entry fits
the board that the entries before it give. -/
theorem legal_of_alt {l : List Nat} (halt : AltLog l) (hform : FormOk l) : LegalLog l := by
  intro a m b e
  subst e
  have hi := getElem?_middle a m b
  have hf := hform m (by simp)
  have near : ∀ (j mj : Nat), j < a.length → (a ++ m :: b)[j]? = some mj → ¬ isPass mj →
      recPos mj = recPos m →
      ∃ j1 mj1, j1 < a.length ∧ a[j1]? = some mj1 ∧ ¬ isPass mj1 ∧ recPos mj1 = recPos m ∧
        (∀ (k mk : Nat), j1 < k → a[k]? = some mk → ¬ isPass mk → recPos mk ≠ recPos m) ∧
        (∀ (k mk : Nat), j1 < k → k < a.length → (a ++ m :: b)[k]? = some mk → ¬ isPass mk →
          recPos mk ≠ recPos m) := by
    intro j mj hj hmj hnpj hpos
    obtain ⟨j1, hj1, ⟨mj1, g1, g2, g3⟩, hnear⟩ :=
      exists_nearest (fun j => ∃ mj, (a ++ m :: b)[j]? = some mj ∧ ¬ isPass mj ∧
        recPos mj = recPos m) a.length ⟨j, hj, mj, hmj, hnpj, hpos⟩
    rw [getElem?_before a m b hj1] at g1
    refine ⟨j1, mj1, hj1, g1, g2, g3, fun k mk h1 h2 h3 h4 => ?_, fun k mk h1 h2 h3 h4 h5 => ?_⟩
    · have hk : k < a.length := getElem?_lt_length h2
      exact hnear k h1 hk ⟨mk, by rw [getElem?_before a m b hk]; exact h2, h3, h4⟩
    · exact hnear k h1 h2 ⟨mk, h3, h4, h5⟩
  refine ⟨hf.1, fun h => (hf.2 h).1, fun h => (hf.2 h).2, fun hnp hcap => ?_, fun hnp hcap => ?_⟩
  · obtain ⟨ha, hb⟩ := halt a.length m hi hnp
    obtain ⟨j, mj, hj, hmj, hnpj, hposj⟩ := ha hcap
    obtain ⟨j1, mj1, hj1, g1, g2, g3, g4, g5⟩ := near j mj hj hmj hnpj hposj
    have hb1 := hb j1 mj1 hj1 (by rw [getElem?_before a m b hj1]; exact g1) g2 g3 g5
    rw [replay_nearest g1 g2 g3 g4, if_neg (hb1.1.mp hcap), hb1.2 hcap]
  · obtain ⟨_, hb⟩ := halt a.length m hi hnp
    by_cases hex : ∃ j mj, j < a.length ∧ (a ++ m :: b)[j]? = some mj ∧ ¬ isPass mj ∧
        recPos mj = recPos m
    · obtain ⟨j, mj, hj, hmj, hnpj, hposj⟩ := hex
      obtain ⟨j1, mj1, hj1, g1, g2, g3, g4, g5⟩ := near j mj hj hmj hnpj hposj
      have hb1 := hb j1 mj1 hj1 (by rw [getElem?_before a m b hj1]; exact g1) g2 g3 g5
      have hc1 : isCapture mj1 := by
        by_contra hn
        exact hcap (hb1.1.mpr hn)
      rw [replay_nearest g1 g2 g3 g4, if_pos hc1]
    · refine replay_untouched a _ fun x hx hx1 hx2 => hex ?_
      obtain ⟨k, hk⟩ := List.mem_iff_getElem?.mp hx
      have hkl : k < a.length := getElem?_lt_length hk
      exact ⟨k, x, hkl, by rw [getElem?_before a m b hkl]; exact hk, hx1, hx2⟩

/-- The entries of the log that `playgogame` returns are well formed. -/
theorem marked_form {st : State} (hl : LogOk st) : FormOk (mark_permanent st).mv := by
  intro m hm
  obtain ⟨i, hi⟩ := List.mem_iff_getElem?.mp hm
  obtain ⟨m0, h0, e⟩ := mark_permanent_some hi
  obtain ⟨f1, f2, f3, _, _⟩ := marked_facts hl h0
  rw [e, f1, f2, f3]
  rcases hl.form m0 (List.getElem?_mem h0) with ⟨c, hc, e1⟩ | ⟨p, c, hp33, hp, hc, e1 | e1⟩
  · subst e1
    obtain ⟨g1, g2, _, g4, _⟩ := passRec_facts hc
    exact ⟨fun _ => g1, fun h => absurd g4 h⟩
  · subst e1
    obtain ⟨g1, g2, _, g4, _⟩ := placeRec_facts hp hc
    have := isStone_lt hc
    exact ⟨fun h => absurd h g4, fun _ => ⟨by rw [g1]; omega, by rw [g2]; omega⟩⟩
  · subst e1
    obtain ⟨g1, g2, _, g4, _⟩ := captureRec_facts hp hc
    have := isStone_lt hc
    exact ⟨fun h => absurd h g4, fun _ => ⟨by rw [g1]; omega, by rw [g2]; omega⟩⟩

/-- The log that `playgogame` returns is legal. -/
theorem playgogame_legal {g r : State} {size initct : Int} {moves : List Int}
    (hc : ColoursOk moves) (h : playgogame g size moves initct = .ok r) : LegalLog r.mv := by
  obtain ⟨st, hrun, e⟩ := playgogame_ok h
  subst e
  have hl : LogOk st := (run_good hc hrun).2
  exact legal_of_alt ((run_alt hc hrun).marked hl) (marked_form hl)

theorem find_diff_none : ∀ (diff : List Nat) (m : Nat), find_diff diff m = none →
    ∀ d ∈ diff, recKey d ≠ recKey m := by
  intro diff
  induction diff with
  | nil => intro m _ d hd; exact absurd hd (List.not_mem_nil d)
  | cons d0 ds ih =>
    intro m h d hd
    rw [find_diff] at h
    split at h
    · cases h
    · rename_i hne
      rcases List.mem_cons.mp hd with e | e
      · rw [e]; exact hne
      · cases h1 : find_diff ds m with
        | none => exact ih m h1 d e
        | some k => rw [h1] at h; cases h

theorem find_diff_some : ∀ (diff : List Nat) (m k : Nat), find_diff diff m = some k →
    ∃ l1 d l2, diff = l1 ++ d :: l2 ∧ l1.length = k ∧ recKey d = recKey m := by
  intro diff
  induction diff with
  | nil => intro m k h; cases h
  | cons d0 ds ih =>
    intro m k h
    rw [find_diff] at h
    split at h
    · rename_i he
      injection h with h
      exact ⟨[], d0, ds, rfl, h, he⟩
    · cases h1 : find_diff ds m with
      | none => rw [h1] at h; cases h
      | some k1 =>
        rw [h1] at h
        injection h with h
        obtain ⟨l1, d, l2, e1, e2, e3⟩ := ih m k1 h1
        exact ⟨d0 :: l1, d, l2, by rw [e1]; rfl, by rw [← h, ← e2]; rfl, e3⟩

/-- The assignment `diff[k] = diff[--diffct]` removes entry `k`, up to the order. -/
theorem remove_diff_perm (l1 : List Nat) (d : Nat) (l2 : List Nat) :
    (remove_diff (l1 ++ d :: l2) l1.length).Perm (l1 ++ l2) := by
  unfold remove_diff
  rcases List.eq_nil_or_concat l2 with e | ⟨l3, z, e⟩
  · subst e
    have h1 : (l1 ++ [d]).getLast? = some d := List.getLast?_concat l1
    rw [h1]
    have h2 : (l1 ++ [d]).set l1.length d = l1 ++ [d] := by simp
    show ((l1 ++ [d]).set l1.length d).dropLast.Perm (l1 ++ [])
    rw [h2, List.dropLast_concat, List.append_nil]
  · rw [List.concat_eq_append] at e
    subst e
    have e0 : l1 ++ d :: (l3 ++ [z]) = (l1 ++ d :: l3) ++ [z] := by simp
    have h1 : (l1 ++ d :: (l3 ++ [z])).getLast? = some z := by
      rw [e0]
      exact List.getLast?_concat _
    rw [h1]
    have h2 : (l1 ++ d :: (l3 ++ [z])).set l1.length z = (l1 ++ z :: l3) ++ [z] := by simp
    show ((l1 ++ d :: (l3 ++ [z])).set l1.length z).dropLast.Perm (l1 ++ (l3 ++ [z]))
    rw [h2, List.dropLast_concat]
    refine List.Perm.append_left l1 ?_
    exact (List.perm_append_singleton z l3).symm

theorem DiffInv.inv_nil : DiffInv [] [] := by
  refine ⟨List.nodup_nil, fun x => ?_⟩
  unfold oddKey
  simp

theorem DiffInv.inv_perm {d1 d2 w : List Nat} (h : DiffInv d1 w) (hp : d2.Perm d1) :
    DiffInv d2 w :=
  ⟨((hp.map recKey).nodup_iff).mpr h.1, fun x => ((hp.map recKey).mem_iff).trans (h.2 x)⟩

theorem DiffInv.inv_add {diff w : List Nat} {m : Nat} (h : DiffInv diff w)
    (hf : find_diff diff m = none) : DiffInv (diff ++ [m]) (w ++ [m]) := by
  have hn := find_diff_none diff m hf
  have hnm : recKey m ∉ diff.map recKey := by
    intro hx
    obtain ⟨d, hd, e⟩ := List.mem_map.mp hx
    exact hn d hd e
  constructor
  · rw [List.map_append, List.map_singleton]
    exact List.Nodup.append h.1 (List.nodup_singleton _)
      (List.disjoint_singleton.mpr hnm)
  · intro x
    rw [List.map_append, List.map_singleton, List.mem_append, List.mem_singleton, oddKey_snoc,
      ← h.2 x]
    by_cases e : x = recKey m
    · subst e
      exact ⟨fun _ => ⟨fun hx => absurd hx hnm, fun hx => absurd rfl hx⟩, fun _ => Or.inr rfl⟩
    · have e1 : m &&& 0xfff ≠ x := fun e2 => e e2.symm
      exact ⟨fun hx => ⟨fun _ => e1, fun _ => hx.resolve_right e⟩, fun hx => Or.inl (hx.mpr e1)⟩

theorem DiffInv.inv_remove {diff w : List Nat} {m k : Nat} (h : DiffInv diff w)
    (hf : find_diff diff m = some k) : DiffInv (remove_diff diff k) (w ++ [m]) := by
  obtain ⟨l1, d, l2, e1, e2, e3⟩ := find_diff_some diff m k hf
  subst e1
  subst e2
  refine DiffInv.inv_perm ?_ (remove_diff_perm l1 d l2)
  obtain ⟨hnd, hmem⟩ := h
  rw [List.map_append, List.map_cons] at hnd hmem
  have hnd1 : (l1.map recKey ++ l2.map recKey).Nodup := by
    have := List.nodup_middle.mp hnd
    exact (List.nodup_cons.mp this).2
  have hd : recKey d ∉ l1.map recKey ++ l2.map recKey := by
    have := List.nodup_middle.mp hnd
    exact (List.nodup_cons.mp this).1
  constructor
  · rw [List.map_append]
    exact hnd1
  · intro x
    rw [List.map_append, oddKey_snoc, ← hmem x]
    by_cases e : x = recKey m
    · subst e
      rw [← e3]
      constructor
      · intro hx; exact absurd hx hd
      · intro hx
        have h1 : recKey d ∈ l1.map recKey ++ recKey d :: l2.map recKey := by simp
        exact absurd (e3.symm ▸ rfl) (hx.mp h1)
    · have e1 : m &&& 0xfff ≠ x := fun e2 => e e2.symm
      have e4 : x ≠ recKey d := by rw [e3]; exact e
      constructor
      · intro hx
        refine ⟨fun _ => e1, fun _ => ?_⟩
        rcases List.mem_append.mp hx with g | g
        · exact List.mem_append_left _ g
        · exact List.mem_append_right _ (List.mem_cons_of_mem _ g)
      · intro hx
        rcases List.mem_append.mp (hx.mpr e1) with g | g
        · exact List.mem_append_left _ g
        · rcases List.mem_cons.mp g with g1 | g1
          · exact absurd g1 e4
          · exact List.mem_append_right _ g1

theorem DiffInv.inv_empty {w : List Nat} (h : DiffInv [] w) : ∀ x, ¬ oddKey w x := by
  intro x hx
  exact absurd ((h.2 x).mpr hx) (List.not_mem_nil x)

theorem moveCount_cons (m : Nat) (l : List Nat) :
    moveCount (m :: l) = moveCount l + if isCapture m then 0 else 1 := by
  unfold moveCount
  rw [List.countP_cons]
  by_cases h : isCapture m <;> simp [h]

theorem moveCount_concat (a b : List Nat) : moveCount (a ++ b) = moveCount a + moveCount b := by
  unfold moveCount
  exact List.countP_append _ a b

theorem nrj_step (m nrj : Nat) (w : List Nat) :
    (if m &&& PG_CAPTURE = 0 then nrj + 1 else nrj) + moveCount w = nrj + moveCount (m :: w) := by
  rw [moveCount_cons]
  by_cases h : m &&& PG_CAPTURE = 0
  · have hc : ¬ isCapture m := fun x => x h
    rw [if_pos h, if_neg hc]
    omega
  · have hc : isCapture m := h
    rw [if_neg h, if_pos hc]
    omega

/-- The entries after which `check_for_cycles` writes its warning: the loop over `j` has
read the entries `W1`, all positions and colours occur an even number of times in the
entries read since entry `i`, and the next entry is no CAPTURE. -/
theorem cycle_from_spec : ∀ (rest diff : List Nat) (nrj : Nat) (W0 : List Nat) (n : Nat),
    DiffInv diff W0 → cycle_from rest diff nrj = .warning n →
    ∃ W1 R, rest = W1 ++ R ∧ W1 ≠ [] ∧ (∀ x, ¬ oddKey (W0 ++ W1) x) ∧
      (∀ m1 ∈ R.head?, ¬ isCapture m1) ∧ n = nrj + moveCount W1 := by
  intro rest
  induction rest with
  | nil => intro diff nrj W0 n _ h; cases h
  | cons m rest ih =>
    intro diff nrj W0 n hinv h
    have step : ∀ d1, DiffInv d1 (W0 ++ [m]) →
        cycle_from rest d1 (if m &&& PG_CAPTURE = 0 then nrj + 1 else nrj) = .warning n →
        ∃ W1 R, m :: rest = W1 ++ R ∧ W1 ≠ [] ∧ (∀ x, ¬ oddKey (W0 ++ W1) x) ∧
          (∀ m1 ∈ R.head?, ¬ isCapture m1) ∧ n = nrj + moveCount W1 := by
      intro d1 hd1 h1
      obtain ⟨W1, R, e1, _, e3, e4, e5⟩ := ih d1 _ (W0 ++ [m]) n hd1 h1
      refine ⟨m :: W1, R, by rw [e1]; rfl, List.cons_ne_nil _ _, ?_, e4, ?_⟩
      · intro x
        have := e3 x
        rw [List.append_assoc] at this
        exact this
      · rw [e5, nrj_step]
    rw [cycle_from] at h
    cases hf : find_diff diff m with
    | some k =>
      rw [hf] at h
      have hinv1 := hinv.inv_remove hf
      change (if remove_diff diff k ≠ [] then _ else _) = _ at h
      split at h
      · exact step _ hinv1 h
      · rename_i hnil
        split at h
        · exact step _ hinv1 h
        · rename_i hnext
          injection h with h
          have hnil1 : remove_diff diff k = [] := by
            by_contra hc
            exact hnil hc
          rw [hnil1] at hinv1
          refine ⟨[m], rest, rfl, List.cons_ne_nil _ _, hinv1.inv_empty, ?_, ?_⟩
          · intro m1 hm1
            cases rest with
            | nil => cases hm1
            | cons r0 rs =>
              have : m1 = r0 := by
                simp only [List.head?_cons, Option.mem_def, Option.some.injEq] at hm1
                exact hm1.symm
              subst this
              intro hc
              apply hnext
              show decide (m1 &&& PG_CAPTURE ≠ 0) = true
              exact decide_eq_true hc
          · rw [← h, ← nrj_step m nrj []]
            rfl
    | none =>
      rw [hf] at h
      change (if m &&& PG_PERMANENT ≠ 0 then _ else _) = _ at h
      split at h
      · cases h
      · split at h
        · cases h
        · exact step _ (hinv.inv_add hf) h

/-- The report of `check_for_cycles`: the log splits into the entries before entry `i`,
the entries read by the loop over `j`, and the rest. -/
theorem cycles_loop_spec : ∀ (rest : List Nat) (nri : Nat) (a : List Nat) (n m1 : Nat),
    nri = moveCount a → cycles_loop rest nri = .cycle n m1 →
    ∃ a1 w R, a ++ rest = a1 ++ w ++ R ∧ m1 = moveCount a1 ∧ n = m1 + moveCount w ∧
      (∃ m0 w1, w = m0 :: w1 ∧ ¬ isCapture m0) ∧ (∀ x, ¬ oddKey w x) ∧
      (∀ r ∈ R.head?, ¬ isCapture r) := by
  intro rest
  induction rest with
  | nil => intro nri a n m1 _ h; cases h
  | cons m rest ih =>
    intro nri a n m1 hn h
    rw [cycles_loop] at h
    split at h
    · rename_i hc
      have hc1 : isCapture m := hc
      obtain ⟨a1, w, R, e1, e2⟩ := ih nri (a ++ [m]) n m1
        (by rw [moveCount_append, if_pos hc1]; exact hn) h
      exact ⟨a1, w, R, by rw [← e1]; simp, e2⟩
    · rename_i hc
      have hc1 : ¬ isCapture m := hc
      cases hcf : cycle_from (m :: rest) [] nri with
      | warning nrj =>
        rw [hcf] at h
        injection h with h1 h2
        obtain ⟨W1, R, e1, e2, e3, e4, e5⟩ := cycle_from_spec _ _ _ [] nrj DiffInv.inv_nil hcf
        cases W1 with
        | nil => exact absurd rfl e2
        | cons m0 w1 =>
          have em : m = m0 := by
            injection e1
          refine ⟨a, m0 :: w1, R, by rw [e1, List.append_assoc], ?_, ?_,
            ⟨m0, w1, rfl, em ▸ hc1⟩, e3, e4⟩
          · rw [← h2, hn]
          · rw [← h1, ← h2, e5]
      | nothing =>
        rw [hcf] at h
        obtain ⟨a1, w, R, e1, e2⟩ := ih (nri + 1) (a ++ [m]) n m1
          (by rw [moveCount_append, if_neg hc1, hn]) h
        exact ⟨a1, w, R, by rw [← e1]; simp, e2⟩
      | diff_overflow =>
        rw [hcf] at h
        cases h

theorem takeMoves_capture (n m : Nat) (rest : List Nat) (h : isCapture m) :
    takeMoves n (m :: rest) = m :: takeMoves n rest := by
  cases n <;> simp [takeMoves, h]

theorem takeMoves_move (k m : Nat) (rest : List Nat) (h : ¬ isCapture m) :
    takeMoves (k + 1) (m :: rest) = m :: takeMoves k rest := by
  simp [takeMoves, h]

theorem takeMoves_zero (m : Nat) (rest : List Nat) (h : ¬ isCapture m) :
    takeMoves 0 (m :: rest) = [] := by
  simp [takeMoves, h]

theorem takeMoves_prefix : ∀ (a R : List Nat), (∀ r ∈ R.head?, ¬ isCapture r) →
    takeMoves (moveCount a) (a ++ R) = a := by
  intro a
  induction a with
  | nil =>
    intro R h
    cases R with
    | nil => rfl
    | cons r rs => exact takeMoves_zero r rs (h r rfl)
  | cons m a ih =>
    intro R h
    rw [moveCount_cons]
    show takeMoves _ (m :: (a ++ R)) = _
    by_cases hc : isCapture m
    · rw [if_pos hc, Nat.add_zero, takeMoves_capture _ _ _ hc, ih R h]
    · rw [if_neg hc, takeMoves_move _ _ _ hc, ih R h]

theorem LegalLog.legal_prefix {a w : List Nat} (h : LegalLog (a ++ w)) : LegalLog a := by
  intro x m b e
  exact h x m (b ++ w) (by rw [e]; simp)

theorem LegalLog.legal_mem {l : List Nat} (h : LegalLog l) {m : Nat} (hm : m ∈ l) :
    (isPass m → recPos m = 0) ∧ (¬ isPass m → recPos m ≠ 0) := by
  obtain ⟨a, b, e⟩ := List.append_of_mem hm
  have := h a m b e
  exact ⟨this.pass, this.pos⟩

theorem replay_outside {l : List Nat} (h : LegalLog l) {p : Nat} (hp : p = 0 ∨ 1024 ≤ p) :
    replay l p = EMPTY := by
  refine replay_untouched l p fun m hm hnp e => ?_
  rcases hp with hp | hp
  · exact (h.legal_mem hm).2 hnp (e.trans hp)
  · have := recPos_lt m
    omega

/-- After entries in which every position and colour occurs an even number of times the
board is the board before them. -/
theorem balanced_board {a w : List Nat} (h : LegalLog (a ++ w)) (hb : ∀ x, ¬ oddKey w x)
    (p : Nat) : replay (a ++ w) p = replay a p := by
  by_cases hp : p = 0 ∨ 1024 ≤ p
  · rw [replay_outside h hp, replay_outside h.legal_prefix hp]
  · have hp0 : 0 < p := by omega
    have hp1 : p < 1024 := by omega
    have h1 := parity_of_window a w h p 1 hp0 hp1 (Or.inl rfl)
    have h2 := parity_of_window a w h p 2 hp0 hp1 (Or.inr rfl)
    have g1 : replay a p = 1 ↔ replay (a ++ w) p = 1 := by
      by_contra hc
      exact hb _ (h1.mpr hc)
    have g2 : replay a p = 2 ↔ replay (a ++ w) p = 2 := by
      by_contra hc
      exact hb _ (h2.mpr hc)
    have v1 := replay_values a h.legal_prefix p
    have v2 := replay_values (a ++ w) h p
    generalize replay a p = x at g1 g2 v1
    generalize replay (a ++ w) p = y at g1 g2 v2
    omega

/-- The report of `check_for_cycles` on a legal log names two moves with the same
board. -/
theorem cycles_sound {mv : List Nat} (hl : LegalLog mv) {n m : Nat}
    (h : check_for_cycles mv = .cycle n m) :
    m < n ∧ ∀ p, boardAfter mv n p = boardAfter mv m p := by
  unfold check_for_cycles at h
  obtain ⟨a1, w, R, e1, e2, e3, ⟨m0, w1, e4, hm0⟩, hb, hR⟩ :=
    cycles_loop_spec mv 0 [] n m rfl h
  rw [List.nil_append] at e1
  have hw : 0 < moveCount w := by
    rw [e4, moveCount_cons, if_neg hm0]
    omega
  refine ⟨by omega, fun p => ?_⟩
  have hl1 : LegalLog (a1 ++ w) := by
    rw [e1] at hl
    exact hl.legal_prefix
  have t1 : takeMoves n mv = a1 ++ w := by
    rw [e1, e3, e2, ← moveCount_concat]
    exact takeMoves_prefix (a1 ++ w) R hR
  have t2 : takeMoves m mv = a1 := by
    rw [e1, e2, List.append_assoc]
    refine takeMoves_prefix a1 (w ++ R) fun r hr => ?_
    rw [e4] at hr
    have : r = m0 := by
      simp only [List.cons_append, List.head?_cons, Option.mem_def, Option.some.injEq] at hr
      exact hr.symm
    rw [this]
    exact hm0
  unfold boardAfter
  rw [t1, t2]
  exact balanced_board hl1 hb p

theorem Joined.joined_stone {b : Nat → Nat} {p q : Nat} (h : Joined b p q) :
    isStone (b q) ∧ b q = b p := by
  induction h with
  | refl hp => exact ⟨hp, rfl⟩
  | step q r _ _ hb ih => exact ⟨by rw [hb]; exact ih.1, by rw [hb]; exact ih.2⟩

/-- In a state with consistent tables and connected chains the chain of a stone lists
the stones joined to it on the board. -/
theorem mem_chainAt_iff_joined {st : State} (hi : Inv st) (hc : ConnOk st) {p q : Nat}
    (hp : isStone (st.board p)) : q ∈ chainAt st p ↔ Joined st.board p q := by
  constructor
  · intro hm
    exact (hc p hp q hm).to_board hp (fun x hx => (hi.wf.chain.own p hp x hx).1)
  · intro h
    obtain ⟨h1, _, h3⟩ := h.same_chain hi.wf
    exact (hi.wf.chain.mem_iff hp h1).mpr h3

/-- The chains are given by the board. -/
theorem chainAt_transfer {s1 s2 : State} (hi1 : Inv s1) (hc1 : ConnOk s1) (hi2 : Inv s2)
    (hc2 : ConnOk s2) (hb : s1.board = s2.board) {p q : Nat} (hp : isStone (s1.board p)) :
    q ∈ chainAt s1 p ↔ q ∈ chainAt s2 p := by
  rw [mem_chainAt_iff_joined hi1 hc1 hp, mem_chainAt_iff_joined hi2 hc2 (hb ▸ hp), hb]

theorem capturedBy_of_board {s1 s2 : State} (hi1 : Inv s1) (hc1 : ConnOk s1) (hi2 : Inv s2)
    (hc2 : ConnOk s2) (hb : s1.board = s2.board) {col xy p : Nat}
    (h : capturedBy s1 col xy p) : capturedBy s2 col xy p := by
  obtain ⟨h1, h2, ⟨t, ht, ht1⟩, h4⟩ := h
  refine ⟨hb ▸ h1, hb ▸ h2, ⟨t, ht, (chainAt_transfer hi1 hc1 hi2 hc2 hb h1).mp ht1⟩, ?_⟩
  intro q hq u hu hne
  rw [← hb]
  exact h4 q ((chainAt_transfer hi1 hc1 hi2 hc2 hb h1).mpr hq) u hu hne

theorem capturedBy_transfer {s1 s2 : State} (hi1 : Inv s1) (hc1 : ConnOk s1) (hi2 : Inv s2)
    (hc2 : ConnOk s2) (hb : s1.board = s2.board) (col xy p : Nat) :
    capturedBy s1 col xy p ↔ capturedBy s2 col xy p :=
  ⟨capturedBy_of_board hi1 hc1 hi2 hc2 hb, capturedBy_of_board hi2 hc2 hi1 hc1 hb.symm⟩

theorem afterCaptures_transfer {s1 s2 : State} (hi1 : Inv s1) (hc1 : ConnOk s1) (hi2 : Inv s2)
    (hc2 : ConnOk s2) (hb : s1.board = s2.board) (col xy p : Nat) :
    afterCaptures s1 col xy p = afterCaptures s2 col xy p := by
  unfold afterCaptures
  by_cases h1 : p = xy
  · rw [if_pos h1, if_pos h1]
  · rw [if_neg h1, if_neg h1]
    by_cases h2 : capturedBy s1 col xy p
    · rw [if_pos h2, if_pos ((capturedBy_transfer hi1 hc1 hi2 hc2 hb col xy p).mp h2)]
    · rw [if_neg h2, if_neg (fun x => h2 ((capturedBy_transfer hi1 hc1 hi2 hc2 hb col xy p).mpr x)),
        hb]

theorem noLiberty_of_board {s1 s2 : State} (hi1 : Inv s1) (hc1 : ConnOk s1) (hi2 : Inv s2)
    (hc2 : ConnOk s2) (hb : s1.board = s2.board) {col xy : Nat} (hcol : isStone col)
    (h : noLiberty s1 col xy) : noLiberty s2 col xy := by
  intro q hq u hu
  rw [← afterCaptures_transfer hi1 hc1 hi2 hc2 hb col xy u]
  refine h q ?_ u hu
  rcases hq with hq | ⟨hq1, t, ht, ht1⟩
  · exact Or.inl hq
  · have hs : isStone (s1.board q) := by rw [hb, hq1]; exact hcol
    exact Or.inr ⟨by rw [hb]; exact hq1, t, ht, (chainAt_transfer hi1 hc1 hi2 hc2 hb hs).mpr ht1⟩

/-- The stones taken by a stone put on `xy`, as lists: two lists without repetition
that hold exactly these stones have the same length, and a list without repetition of
such stones is no longer. -/
theorem caps_length_le {s : State} {col xy : Nat} {l caps : List Nat} (hn : l.Nodup)
    (hl : ∀ p ∈ l, capturedBy s col xy p) (hc : ∀ p, p ∈ caps ↔ capturedBy s col xy p) :
    l.length ≤ caps.length :=
  (hn.subperm fun p hp => (hc p).mpr (hl p hp)).length_le

/-- A placement accepted in one state is accepted in every state with the same board
that has room in the log and in the chain table and whose log does not end with a
CAPTURE entry; the board after it is the same, and the log grows by the same number of
entries. -/
theorem do_place_transfer {s1 s2 r2 : State} (hi1 : Inv s1) (hc1 : ConnOk s1) (hi2 : Inv s2)
    (hc2 : ConnOk s2) (hb : s1.board = s2.board) (hsz : s1.sz = s2.sz) {color : Int}
    (hcol : color = 1 ∨ color = 2) {xy : Nat} (hon : onBoard s1.sz xy)
    (he : s1.board xy = EMPTY) {n1 n2 : Int} (h2 : do_place s2 color xy n2 = .ok r2)
    (hroom : s1.mv.length + (r2.mv.length - s2.mv.length) ≤ s1.mvlen)
    (hchain : s1.chainct ≠ CHAINMAX)
    (hko : ∀ pre h0 h1, s1.mv = pre ++ [h0, h1] → ¬ isCapture h1) :
    ∃ r1, do_place s1 color xy n1 = .ok r1 ∧ r1.board = r2.board ∧
      r1.mv.length = s1.mv.length + (r2.mv.length - s2.mv.length) ∧
      r1.mvlen = s1.mvlen := by
  have hps : isStone color.toNat := (isStone_toNat hcol).2 ▸ (isStone_toNat hcol).1
  have hon2 : onBoard s2.sz xy := hsz ▸ hon
  have he2 : s2.board xy = EMPTY := hb ▸ he
  -- the placement in the second state
  have hl2 := do_place_spec hi2 hcol hon2 he2 h2
  obtain ⟨caps2, hk2⟩ := hl2.cap
  have hcap2 : ∀ p, p ∈ caps2 ↔ capturedBy s2 color.toNat xy p := by
    intro p
    rw [hk2.cap p]
    exact ⟨fun h => h.1, fun h => ⟨h, fun t ht => absurd ht (List.not_mem_nil t)⟩⟩
  have hlen2 : r2.mv.length = s2.mv.length + 1 + caps2.length := by
    have := congrArg List.length hk2.mv
    simp at this
    omega
  have hnl2 : ¬ noLiberty s2 color.toNat xy := by
    intro hn
    obtain ⟨r, hl, hd⟩ := @do_place_outcome s2 hi2 color hcol xy hon2 he2 n2
      (by rw [h2]; intro x; cases x) (by rw [h2]; intro x; cases x)
      (by rw [h2]; intro x; cases x)
    rw [if_pos ((suicide_test hps hl).1.mpr hn), h2] at hd
    split at hd <;> cases hd
  have hcapt : ∀ p, capturedBy s1 color.toNat xy p ↔ p ∈ caps2 := fun p =>
    (capturedBy_transfer hi1 hc1 hi2 hc2 hb color.toNat xy p).trans (hcap2 p).symm
  -- no capacity error and no ko error in the first state
  have hroom1 : s1.mv.length ≠ s1.mvlen := by omega
  have g2 : do_place s1 color xy n1 ≠ .error .chainmax_overflow := fun h =>
    hchain ((do_place_chainmax s1 color xy n1).1 h)
  have g3 : do_place s1 color xy n1 ≠ .error (.illegal_ko_recapture n1) := by
    intro h
    obtain ⟨_, st, pend, caps, hk, hck⟩ := do_place_ko hi1 hcol hon he h
    obtain ⟨pre, h0, h1, a, e, _, hcap1, _⟩ := ko_log_shape hi1 hps hon hk hck
    exact hko pre h0 h1 e hcap1
  have g1 : do_place s1 color xy n1 ≠ .error .played_game_array_overflow := by
    intro h
    rw [do_place_eq, if_neg hroom1, if_neg hchain] at h
    cases hf : dirs.foldlM (do_move_nbr color xy n1)
        (s1.placed (color % 256).toNat xy, s1.chainct) with
    | ok a =>
      rw [hf] at h
      change (if (a.1.chains a.2).liberties = 0 then _ else _) = _ at h
      split at h
      · split at h <;> cases h
      · cases h
    | error e =>
      rw [hf] at h
      have he1 : e = .played_game_array_overflow := by
        injection h
      subst he1
      obtain ⟨st, t0, rest, hl, hs⟩ := loop_error hi1 hcol hon he hf
      cases hs with
      | overflow k1 k2 k3 k4 =>
        obtain ⟨caps, hk⟩ := hl.cap
        obtain ⟨hk3, hce⟩ := hk.cap_step_capture hi1 he hl.wf k1 k2 k3
        have hle := caps_length_le hk3.nodup (fun p hp => ((hk3.cap p).mp hp).1)
          (fun p => (hcapt p).symm)
        have h5 := congrArg List.length hk.mv
        have h6 := hk.mvlen
        rw [hce] at k4
        simp at h5 hle
        omega
  obtain ⟨r1, hl1, hd⟩ := do_place_outcome hi1 hcol hon he g1 g2 g3
  have hnl1 : ¬ noLiberty s1 color.toNat xy := fun hn =>
    hnl2 (noLiberty_of_board hi1 hc1 hi2 hc2 hb hps hn)
  rw [if_neg (fun x => hnl1 ((suicide_test hps hl1).1.mp x))] at hd
  obtain ⟨caps1, hk1⟩ := hl1.cap
  have hcap1 : ∀ p, p ∈ caps1 ↔ p ∈ caps2 := by
    intro p
    rw [hk1.cap p, ← hcapt p]
    exact ⟨fun h => h.1, fun h => ⟨h, fun t ht => absurd ht (List.not_mem_nil t)⟩⟩
  have hperm : caps1.Perm caps2 := (List.perm_ext_iff_of_nodup hk1.nodup hk2.nodup).mpr hcap1
  refine ⟨r1, hd, ?_, ?_, hk1.mvlen⟩
  · funext u
    rw [hk1.board u, hk2.board u, hb]
    by_cases hu : u = xy
    · rw [if_pos hu, if_pos hu]
    · rw [if_neg hu, if_neg hu]
      by_cases hm : u ∈ caps1
      · rw [if_pos hm, if_pos ((hcap1 u).mp hm)]
      · rw [if_neg hm, if_neg (fun x => hm ((hcap1 u).mpr x))]
  · have h7 := congrArg List.length hk1.mv
    have h8 := hperm.length_eq
    simp at h7
    omega

/-- The cells that are no points of the board keep the value that `init` gave them. -/
theorem run_frame {g : State} {size initct : Int} (moves : List Int) :
    ∀ {st : State}, ColoursOk moves → run g size moves initct = .ok st →
      ∀ p, ¬ onBoard size p → st.board p = init_board (size + 1) p := by
  induction moves using List.reverseRecOn with
  | nil =>
    intro st _ h p _
    unfold run at h
    cases h0 : init g size with
    | error e => rw [h0] at h; cases h
    | ok st0 =>
      rw [h0] at h
      injection h with h
      subst h
      unfold init at h0
      split at h0
      · cases h0
      injection h0 with h0
      subst h0
      rfl
  | append_singleton ms m ih =>
    intro st hc h p hp
    obtain ⟨s0, h0, h1⟩ := run_snoc_ok h
    have hc0 : ColoursOk ms := fun a ha => hc a (List.mem_append_left _ ha)
    have hm := hc m (List.mem_append_right _ (List.mem_singleton_self m))
    obtain ⟨hi, _⟩ := run_good hc0 h0
    have hsz := run_sz hc0 h0
    have hb0 := hi.wf.board
    rcases do_move_ok_cases hb0.sz1_eq hb0.sz_le h1 with ⟨_, _, e⟩ | ⟨_, ho, he, hd⟩
    · rw [e]; exact ih hc0 h0 p hp
    · have hxy : onBoard s0.sz (POS (move_x m) (move_y m)).toNat := by
        unfold offBoard at ho
        exact (onBoard_POS (by omega) (by omega) (by omega) (by omega) hb0.sz_le).1
      obtain ⟨caps, hk⟩ := (do_place_spec hi hm hxy he hd).cap
      have hne : p ≠ (POS (move_x m) (move_y m)).toNat := by
        intro e
        rw [e, ← hsz] at hp
        exact hp hxy
      have hnm : p ∉ caps := by
        intro hmem
        rw [← hsz] at hp
        exact hp (hb0.stone_on p ((hk.cap p).mp hmem).1.1)
      rw [hk.board p, if_neg hne, if_neg hnm, ih hc0 h0 p hp]

/-- Two states reached by the replay on boards of one size have the same board when
they agree on the cells of the board array. -/
theorem board_eq_of_lt {g1 g2 s1 s2 : State} {size i1 i2 : Int} {ms1 ms2 : List Int}
    (hc1 : ColoursOk ms1) (hc2 : ColoursOk ms2) (h1 : run g1 size ms1 i1 = .ok s1)
    (h2 : run g2 size ms2 i2 = .ok s2) (h : ∀ p < 1024, s1.board p = s2.board p) :
    s1.board = s2.board := by
  funext p
  by_cases hp : p < 1024
  · exact h p hp
  · have hs : size ≤ 19 := by
      have := (run_good hc1 h1).1.wf.board.sz_le
      rw [run_sz hc1 h1] at this
      exact this
    have hn : ¬ onBoard size p := fun ho => by
      have := onBoard_le ho hs
      omega
    rw [run_frame ms1 hc1 h1 p hn, run_frame ms2 hc2 h2 p hn]

/-- A pass written `tt` after accepted moves, with room in the log: it is accepted,
appends its entry and leaves the board and the chain counter. -/
theorem pass_step {g st : State} {size initct : Int} {ms : List Int} {m : Int}
    (hc : ColoursOk ms) (h : run g size ms initct = .ok st) (hx : move_x m = 20)
    (hy : move_y m = 20) (hroom : st.mv.length < st.mvlen) :
    ∃ r, run g size (ms ++ [m]) initct = .ok r ∧ r.board = st.board ∧
      r.mv = st.mv ++ [passRec (move_color m)] ∧ r.mvlen = st.mvlen ∧
      r.chainct = st.chainct := by
  obtain ⟨hi, _⟩ := run_good hc h
  have hb0 := hi.wf.board
  rw [run_snoc, h]
  change ∃ r, do_move st (move_color m) (move_x m) (move_y m) _ = .ok r ∧ _
  have hpc : passCoords st.sz (move_x m) (move_y m) := Or.inr ⟨hx, hy⟩
  rw [do_move_cases st _ _ _ _ hb0.sz1_eq hb0.sz_le, if_pos hpc]
  unfold add_pass add_mv
  simp only
  rw [if_neg (by omega)]
  exact ⟨_, rfl, rfl, rfl, rfl, rfl⟩

/-- A placement accepted after the moves `ms2` is accepted after the moves `ms1` when
the two replays have reached the same board and the first has room in the log and in
the chain table and a log that does not end with a CAPTURE entry; the boards after it
are the same, and the logs grow by the same number of entries. -/
theorem place_step {g1 g2 s1 s2 r2 : State} {size i1 i2 : Int} {ms1 ms2 : List Int} {m : Int}
    (hc1 : ColoursOk (ms1 ++ [m])) (hc2 : ColoursOk (ms2 ++ [m]))
    (h1 : run g1 size ms1 i1 = .ok s1) (h2 : run g2 size ms2 i2 = .ok s2)
    (hb : s1.board = s2.board) (hnp : ¬ passCoords size (move_x m) (move_y m))
    (hr2 : run g2 size (ms2 ++ [m]) i2 = .ok r2)
    (hroom : s1.mv.length + (r2.mv.length - s2.mv.length) ≤ s1.mvlen)
    (hchain : s1.chainct ≠ CHAINMAX)
    (hko : ∀ pre h0 h1, s1.mv = pre ++ [h0, h1] → ¬ isCapture h1) :
    ∃ r1, run g1 size (ms1 ++ [m]) i1 = .ok r1 ∧ r1.board = r2.board ∧
      r1.mv.length = s1.mv.length + (r2.mv.length - s2.mv.length) ∧
      r1.mvlen = s1.mvlen := by
  have hm := hc1 m (List.mem_append_right _ (List.mem_singleton_self m))
  have hcs1 : ColoursOk ms1 := fun a ha => hc1 a (List.mem_append_left _ ha)
  have hcs2 : ColoursOk ms2 := fun a ha => hc2 a (List.mem_append_left _ ha)
  obtain ⟨hi1, _⟩ := run_good hcs1 h1
  obtain ⟨hi2, _⟩ := run_good hcs2 h2
  have hcn1 := run_conn hcs1 h1
  have hcn2 := run_conn hcs2 h2
  have hsz1 := run_sz hcs1 h1
  have hsz2 := run_sz hcs2 h2
  have hb1 := hi1.wf.board
  have hb2 := hi2.wf.board
  obtain ⟨s2x, hx, hdo⟩ := run_snoc_ok hr2
  rw [h2] at hx
  injection hx with hx
  subst hx
  rcases do_move_ok_cases hb2.sz1_eq hb2.sz_le hdo with ⟨hp, _⟩ | ⟨_, ho, he, hd⟩
  · rw [hsz2] at hp
    exact absurd hp hnp
  · unfold offBoard at ho
    rw [hsz2] at ho
    have hxy : onBoard s1.sz (POS (move_x m) (move_y m)).toNat := by
      rw [hsz1]
      have hs : size ≤ 19 := by rw [← hsz1]; exact hb1.sz_le
      exact (onBoard_POS (by omega) (by omega) (by omega) (by omega) hs).1
    have he1 : s1.board (POS (move_x m) (move_y m)).toNat = EMPTY := by rw [hb]; exact he
    obtain ⟨r1, e1, e2, e3, e4⟩ := @do_place_transfer s1 s2 r2 hi1 hcn1 hi2 hcn2 hb
      (hsz1.trans hsz2.symm) (move_color m) hm _ hxy he1 (movenrOf i1 ms1.length) _ hd hroom
      hchain hko
    refine ⟨r1, ?_, e2, e3, e4⟩
    rw [run_snoc, h1]
    change do_move s1 _ _ _ (movenrOf i1 ms1.length) = _
    rw [do_move_on_board hb1 (by rw [hsz1]; omega) (by rw [hsz1]; omega),
      if_neg (not_not.mpr he1)]
    exact e1

theorem coloursOk_append {a b : List Int} (ha : ColoursOk a) (hb : ColoursOk b) :
    ColoursOk (a ++ b) := by
  intro m hm
  rcases List.mem_append.mp hm with h | h
  · exact ha m h
  · exact hb m h

theorem coloursOk_koRounds : ∀ k, ColoursOk (koRounds k) := by
  intro k
  induction k with
  | zero => exact by decide
  | succ k ih => exact coloursOk_append ih (by decide)

theorem coloursOk_replicate (n : Nat) {m : Int} (h : move_color m = 1 ∨ move_color m = 2) :
    ColoursOk (List.replicate n m) := by
  intro x hx
  rw [(List.mem_replicate.mp hx).2]
  exact h

theorem koRounds_succ (k : Nat) :
    koRounds (k + 1) = (((koRounds k ++ [mkMove 2 20 20]) ++ [mkMove 2 2 2])
      ++ [mkMove 1 20 20]) ++ [mkMove 1 2 3] := by
  show koRounds k ++ koRound = _
  unfold koRound
  simp

theorem placements_koRounds : ∀ k, placements 19 (koRounds k) = 9 + 2 * k := by
  intro k
  induction k with
  | zero => exact by decide
  | succ k ih =>
    rw [koRounds_succ, placements_snoc, placements_snoc, placements_snoc, placements_snoc, ih,
      if_pos (by decide), if_neg (by decide), if_pos (by decide), if_neg (by decide)]
    omega

theorem last_of_snoc {l pre : List Nat} {e h0 h1 : Nat} (h : l ++ [e] = pre ++ [h0, h1]) :
    h1 = e := by
  have e1 : pre ++ [h0, h1] = (pre ++ [h0]) ++ [h1] := by simp
  rw [e1] at h
  exact (List.append_inj' h rfl).2 |> fun x => by injection x with x; exact x.symm

/-- The reference replays: `koGame`, then a pass, White on (2,2), a pass, Black on
(2,3), with a log of 100 entries. -/
theorem koRef_runs :
    run (blank 100) 19 koGame 0 = .ok (koRef koGame) ∧
    run (blank 100) 19 (koGame ++ [mkMove 2 20 20]) 0 = .ok (koRef (koGame ++ [mkMove 2 20 20])) ∧
    run (blank 100) 19 ((koGame ++ [mkMove 2 20 20]) ++ [mkMove 2 2 2]) 0
      = .ok (koRef ((koGame ++ [mkMove 2 20 20]) ++ [mkMove 2 2 2])) ∧
    run (blank 100) 19 (((koGame ++ [mkMove 2 20 20]) ++ [mkMove 2 2 2]) ++ [mkMove 1 20 20]) 0
      = .ok (koRef (((koGame ++ [mkMove 2 20 20]) ++ [mkMove 2 2 2]) ++ [mkMove 1 20 20])) ∧
    run (blank 100) 19 (koRounds 1) 0 = .ok (koRef (koRounds 1)) :=
  ⟨ok_stateOf (blank 0) (by decide!), ok_stateOf (blank 0) (by decide!),
    ok_stateOf (blank 0) (by decide!), ok_stateOf (blank 0) (by decide!),
    ok_stateOf (blank 0) (by decide!)⟩

theorem koRef_facts :
    (∀ p < 1024, (koRef (koGame ++ [mkMove 2 20 20])).board p = (koRef koGame).board p) ∧
    (∀ p < 1024, (koRef (((koGame ++ [mkMove 2 20 20]) ++ [mkMove 2 2 2])
        ++ [mkMove 1 20 20])).board p
      = (koRef ((koGame ++ [mkMove 2 20 20]) ++ [mkMove 2 2 2])).board p) ∧
    (∀ p < 1024, (koRef (koRounds 1)).board p = (koRef koGame).board p) ∧
    (koRef ((koGame ++ [mkMove 2 20 20]) ++ [mkMove 2 2 2])).mv.length
      = (koRef (koGame ++ [mkMove 2 20 20])).mv.length + 2 ∧
    (koRef (koRounds 1)).mv.length
      = (koRef (((koGame ++ [mkMove 2 20 20]) ++ [mkMove 2 2 2])
          ++ [mkMove 1 20 20])).mv.length + 2 ∧
    (koRef ((koGame ++ [mkMove 2 20 20]) ++ [mkMove 2 2 2])).board 330 = EMPTY :=
  ⟨by decide!, by decide!, by decide!, by decide!, by decide!, by decide!⟩

/-- One round of the ko after `k` rounds: with room for its six entries in the log and
for its two stones in the chain table the round is accepted, and the board after it is
the board of the ko again. -/
theorem ko_round {g st : State} {k : Nat} (h : run g 19 (koRounds k) 0 = .ok st)
    (hb : st.board = (koRef koGame).board) (hroom : st.mv.length + 6 ≤ st.mvlen)
    (hk : 2 * k + 10 < 500) :
    ∃ r, run g 19 (koRounds (k + 1)) 0 = .ok r ∧ r.board = (koRef koGame).board ∧
      r.mv.length = st.mv.length + 6 ∧ r.mvlen = st.mvlen := by
  obtain ⟨f0, f1, f2, f3, f4⟩ := koRef_runs
  obtain ⟨b01, b23, b40, l12, l34, _⟩ := koRef_facts
  have c0 := coloursOk_koRounds k
  have c1 : ColoursOk (koRounds k ++ [mkMove 2 20 20]) := coloursOk_append c0 (by decide)
  have c2 : ColoursOk ((koRounds k ++ [mkMove 2 20 20]) ++ [mkMove 2 2 2]) :=
    coloursOk_append c1 (by decide)
  have c3 : ColoursOk (((koRounds k ++ [mkMove 2 20 20]) ++ [mkMove 2 2 2])
      ++ [mkMove 1 20 20]) := coloursOk_append c2 (by decide)
  have c4 : ColoursOk ((((koRounds k ++ [mkMove 2 20 20]) ++ [mkMove 2 2 2])
      ++ [mkMove 1 20 20]) ++ [mkMove 1 2 3]) := coloursOk_append c3 (by decide)
  have d0 : ColoursOk koGame := by decide
  have d1 : ColoursOk (koGame ++ [mkMove 2 20 20]) := coloursOk_append d0 (by decide)
  have d2 : ColoursOk ((koGame ++ [mkMove 2 20 20]) ++ [mkMove 2 2 2]) :=
    coloursOk_append d1 (by decide)
  have d3 : ColoursOk (((koGame ++ [mkMove 2 20 20]) ++ [mkMove 2 2 2]) ++ [mkMove 1 20 20]) :=
    coloursOk_append d2 (by decide)
  have d4 : ColoursOk ((((koGame ++ [mkMove 2 20 20]) ++ [mkMove 2 2 2]) ++ [mkMove 1 20 20])
      ++ [mkMove 1 2 3]) := coloursOk_append d3 (by decide)
  have f4x : run (blank 100) 19 ((((koGame ++ [mkMove 2 20 20]) ++ [mkMove 2 2 2])
      ++ [mkMove 1 20 20]) ++ [mkMove 1 2 3]) 0 = .ok (koRef (koRounds 1)) := by
    have e : koRounds 1 = (((koGame ++ [mkMove 2 20 20]) ++ [mkMove 2 2 2])
        ++ [mkMove 1 20 20]) ++ [mkMove 1 2 3] := koRounds_succ 0
    rw [← e]
    exact f4
  -- White passes
  obtain ⟨s1, r1, e1, m1, v1, _⟩ := pass_step c0 h (m := mkMove 2 20 20) (by decide) (by decide)
    (by omega)
  have hb1 : s1.board = (koRef (koGame ++ [mkMove 2 20 20])).board := by
    rw [e1, hb]
    exact (board_eq_of_lt d1 d0 f1 f0 b01).symm
  -- White takes
  have hch1 : s1.chainct ≠ CHAINMAX := by
    rw [run_chainct _ c1 r1, placements_snoc, placements_koRounds, if_pos (by decide)]
    unfold CHAINMAX
    omega
  have hl1 : s1.mv.length = st.mv.length + 1 := by rw [m1]; simp
  obtain ⟨s2, r2, e2, m2, v2⟩ := place_step c2 d2 r1 f1 hb1 (by decide) f2
    (by rw [l12]; omega) hch1
    (fun pre h0 h1 e => by
      rw [m1] at e
      rw [last_of_snoc e]
      decide)
  -- Black passes
  obtain ⟨s3, r3, e3, m3, v3, _⟩ := pass_step c2 r2 (m := mkMove 1 20 20) (by decide) (by decide)
    (by rw [l12] at m2; omega)
  have hb3 : s3.board = (koRef (((koGame ++ [mkMove 2 20 20]) ++ [mkMove 2 2 2])
      ++ [mkMove 1 20 20])).board := by
    rw [e3, e2]
    exact (board_eq_of_lt d3 d2 f3 f2 b23).symm
  -- Black takes
  have hch3 : s3.chainct ≠ CHAINMAX := by
    rw [run_chainct _ c3 r3, placements_snoc, placements_snoc, placements_snoc,
      placements_koRounds, if_pos (by decide), if_neg (by decide), if_pos (by decide)]
    unfold CHAINMAX
    omega
  have hl3 : s3.mv.length = s2.mv.length + 1 := by rw [m3]; simp
  obtain ⟨s4, r4, e4, m4, v4⟩ := place_step c4 d4 r3 f3 hb3 (by decide) f4x
    (by rw [l34, l12] at *; omega) hch3
    (fun pre h0 h1 e => by
      rw [m3] at e
      rw [last_of_snoc e]
      decide)
  refine ⟨s4, by rw [koRounds_succ]; exact r4, ?_, ?_, ?_⟩
  · rw [e4]
    have := board_eq_of_lt d4 d0 f4x f0 b40
    exact this
  · rw [l34, l12] at *
    omega
  · rw [v4, v3, v2, v1]

/-- The replay accepts `k` rounds of the ko when the log has room for them. -/
theorem ko_rounds_ok {g s0 : State} (h0 : run g 19 koGame 0 = .ok s0)
    (hb0 : s0.board = (koRef koGame).board) :
    ∀ k, 2 * k + 8 < 500 → s0.mv.length + 6 * k ≤ s0.mvlen →
      ∃ st, run g 19 (koRounds k) 0 = .ok st ∧ st.board = (koRef koGame).board ∧
        st.mv.length = s0.mv.length + 6 * k ∧ st.mvlen = s0.mvlen := by
  intro k
  induction k with
  | zero => intro _ _; exact ⟨s0, h0, hb0, rfl, rfl⟩
  | succ k ih =>
    intro hk hroom
    obtain ⟨st, h1, h2, h3, h4⟩ := ih (by omega) (by omega)
    obtain ⟨r, g1, g2, g3, g4⟩ := ko_round h1 h2 (by omega) (by omega)
    exact ⟨r, g1, g2, by omega, by omega⟩

/-- Passes after accepted moves, with room in the log: they are accepted. -/
theorem pass_run {g : State} {size initct : Int} {m : Int} (hm : move_color m = 1 ∨ move_color m = 2)
    (hx : move_x m = 20) (hy : move_y m = 20) :
    ∀ (n : Nat) (ms : List Int) (st : State), ColoursOk ms → run g size ms initct = .ok st →
      st.mv.length + n ≤ st.mvlen →
      ∃ r, run g size (ms ++ List.replicate n m) initct = .ok r ∧ r.board = st.board ∧
        r.mv.length = st.mv.length + n ∧ r.mvlen = st.mvlen ∧ r.chainct = st.chainct := by
  intro n
  induction n with
  | zero =>
    intro ms st _ h _
    exact ⟨st, by simpa using h, rfl, rfl, rfl, rfl⟩
  | succ n ih =>
    intro ms st hc h hroom
    obtain ⟨s1, r1, e1, m1, v1, k1⟩ := pass_step hc h hx hy (by omega)
    have hc1 : ColoursOk (ms ++ [m]) :=
      coloursOk_append hc (fun x hx1 => by rw [List.mem_singleton.mp hx1]; exact hm)
    have hl1 : s1.mv.length = st.mv.length + 1 := by rw [m1]; simp
    obtain ⟨r, g1, g2, g3, g4, g5⟩ := ih (ms ++ [m]) s1 hc1 r1 (by omega)
    refine ⟨r, ?_, by rw [g2, e1], by omega, by rw [g4, v1], by rw [g5, k1]⟩
    rw [List.replicate_succ]
    have e : ms ++ m :: List.replicate n m = (ms ++ [m]) ++ List.replicate n m := by simp
    rw [e]
    exact g1

theorem coloursOk_fullLogGame : ColoursOk fullLogGame :=
  coloursOk_append (coloursOk_append (coloursOk_koRounds 245) (by decide))
    (coloursOk_replicate 8517 (by decide))

theorem placements_fullLogGame : placements 19 fullLogGame = 500 := by
  unfold fullLogGame placements
  rw [List.countP_append, List.countP_append, List.countP_replicate]
  have h := placements_koRounds 245
  unfold placements at h
  rw [h, if_neg (by decide)]
  decide

/-- The state after `fullLogGame`, for a log with room for 10000 entries: 500 chain
slots are in use, the log holds 10000 entries and the point (10,10) is empty. -/
theorem fullLogGame_state {g s0 : State} (h0 : run g 19 koGame 0 = .ok s0)
    (hb0 : s0.board = (koRef koGame).board) (hl0 : s0.mv.length = 10)
    (hv0 : 10000 ≤ s0.mvlen) :
    ∃ st, run g 19 fullLogGame 0 = .ok st ∧ st.chainct = CHAINMAX ∧ st.mv.length = 10000 ∧
      st.mvlen = s0.mvlen ∧ st.board 330 = EMPTY := by
  obtain ⟨f0, f1, f2, f3, f4⟩ := koRef_runs
  obtain ⟨b01, b23, b40, l12, l34, bq⟩ := koRef_facts
  have d0 : ColoursOk koGame := by decide
  have d1 : ColoursOk (koGame ++ [mkMove 2 20 20]) := coloursOk_append d0 (by decide)
  have d2 : ColoursOk ((koGame ++ [mkMove 2 20 20]) ++ [mkMove 2 2 2]) :=
    coloursOk_append d1 (by decide)
  obtain ⟨st, h1, h2, h3, h4⟩ := ko_rounds_ok h0 hb0 245 (by omega) (by omega)
  have c0 := coloursOk_koRounds 245
  have c1 : ColoursOk (koRounds 245 ++ [mkMove 2 20 20]) := coloursOk_append c0 (by decide)
  have c2 : ColoursOk ((koRounds 245 ++ [mkMove 2 20 20]) ++ [mkMove 2 2 2]) :=
    coloursOk_append c1 (by decide)
  obtain ⟨s1, r1, e1, m1, v1, _⟩ := pass_step c0 h1 (m := mkMove 2 20 20) (by decide)
    (by decide) (by omega)
  have hb1 : s1.board = (koRef (koGame ++ [mkMove 2 20 20])).board := by
    rw [e1, h2]
    exact (board_eq_of_lt d1 d0 f1 f0 b01).symm
  have hch1 : s1.chainct ≠ CHAINMAX := by
    rw [run_chainct _ c1 r1, placements_snoc, placements_koRounds, if_pos (by decide)]
    unfold CHAINMAX
    omega
  have hl1 : s1.mv.length = st.mv.length + 1 := by rw [m1]; simp
  obtain ⟨s2, r2, e2, m2, v2⟩ := place_step c2 d2 r1 f1 hb1 (by decide) f2
    (by rw [l12]; omega) hch1
    (fun pre h0 h1 e => by
      rw [m1] at e
      rw [last_of_snoc e]
      decide)
  rw [l12] at m2
  have hch2 : s2.chainct = CHAINMAX := by
    rw [run_chainct _ c2 r2, placements_snoc, placements_snoc, placements_koRounds,
      if_pos (by decide), if_neg (by decide)]
    rfl
  obtain ⟨r, g1, g2, g3, g4, g5⟩ := pass_run (m := mkMove 2 20 20) (by decide) (by decide)
    (by decide) 8517 _ s2 c2 r2 (by omega)
  refine ⟨r, ?_, by rw [g5, hch2], by omega, by rw [g4, v2, v1, h4], by rw [g2, e2]; exact bq⟩
  have e : fullLogGame = ((koRounds 245 ++ [mkMove 2 20 20]) ++ [mkMove 2 2 2])
      ++ List.replicate 8517 (mkMove 2 20 20) := by
    unfold fullLogGame
    rw [List.append_assoc (koRounds 245) [mkMove 2 20 20] [mkMove 2 2 2]]
    rfl
  rw [e]
  exact g1

theorem koRounds_length : ∀ k, (koRounds k).length = 9 + 4 * k := by
  intro k
  induction k with
  | zero => rfl
  | succ k ih =>
    show (koRounds k ++ koRound).length = _
    rw [List.length_append, ih]
    show 9 + 4 * k + 4 = _
    omega

theorem fullLogGame_length : fullLogGame.length = 9508 := by
  unfold fullLogGame
  rw [List.length_append, List.length_append, koRounds_length, List.length_replicate]
  rfl

/-- The start of the replay of `fullLogGame` for a log with room for `n` entries, given
the outcome of `koGame`. -/
theorem fullLogGame_from {n : Nat} (h : isOk (run (blank n) 19 koGame 0) = true)
    (hb : ∀ p < 1024, (koState n).board p = (koRef koGame).board p)
    (hl : (koState n).mv.length = 10) (hv : (koState n).mvlen = n) (hn : 10000 ≤ n) :
    ∃ st, run (blank n) 19 fullLogGame 0 = .ok st ∧ st.chainct = CHAINMAX ∧
      st.mv.length = 10000 ∧ st.mvlen = n ∧ st.board 330 = EMPTY := by
  have h0 : run (blank n) 19 koGame 0 = .ok (koState n) := ok_stateOf (blank 0) h
  have hb0 := board_eq_of_lt (by decide) (by decide) h0 koRef_runs.1 hb
  obtain ⟨st, g1, g2, g3, g4, g5⟩ := fullLogGame_state h0 hb0 hl (by rw [hv]; exact hn)
  exact ⟨st, g1, g2, g3, by rw [g4, hv], g5⟩

/-- The move on (10,10) after `fullLogGame`: what `do_move` does with it. -/
theorem fullLogGame_next {g st : State} (h : run g 19 fullLogGame 0 = .ok st)
    (he : st.board 330 = EMPTY) :
    run g 19 (fullLogGame ++ [mkMove 1 10 10]) 0
      = do_place st 1 330 (movenrOf 0 fullLogGame.length) := by
  have hc := coloursOk_fullLogGame
  obtain ⟨hi, _⟩ := run_good hc h
  have hsz := run_sz hc h
  rw [run_snoc, h]
  change do_move st (move_color (mkMove 1 10 10)) (move_x (mkMove 1 10 10))
    (move_y (mkMove 1 10 10)) (movenrOf 0 fullLogGame.length) = _
  have e1 : move_color (mkMove 1 10 10) = 1 := by decide
  have e2 : move_x (mkMove 1 10 10) = 10 := by decide
  have e3 : move_y (mkMove 1 10 10) = 10 := by decide
  have e4 : (POS 10 10).toNat = 330 := by decide
  rw [e1, e2, e3, do_move_on_board hi.wf.board (by rw [hsz]; omega) (by rw [hsz]; omega), e4,
    if_neg (not_not.mpr he)]

end Playgogame

/-! ## The reader on strict FF[4] text, and on text with unescaped `]` -/

namespace Readsgf

theorem bind_ok {α β : Type} (a : α) (f : α → Except ReadErr β) :
    (Except.ok a : Except ReadErr α).bind f = f a := rfl

theorem Ws.nil : Ws [] := fun _ h => by cases h

theorem Ws.cons {c : Nat} {w : List Nat} (hc : iswhitespace c = true) (hw : Ws w) :
    Ws (c :: w) := by
  intro x hx
  rcases List.mem_cons.mp hx with e | e
  · rw [e]; exact hc
  · exact hw x e

theorem Ws.head {c : Nat} {w : List Nat} (h : Ws (c :: w)) : iswhitespace c = true :=
  h c (List.mem_cons_self _ _)

theorem Ws.tail {c : Nat} {w : List Nat} (h : Ws (c :: w)) : Ws w :=
  fun x hx => h x (List.mem_cons_of_mem _ hx)

/-- The first symbol of a text, white space skipped, is determined by the text. -/
theorem first_symbol_unique :
    ∀ {w w1 : List Nat} {c c1 : Nat} {r r1 : List Nat}, Ws w → Ws w1 →
      iswhitespace c = false → iswhitespace c1 = false → w ++ c :: r = w1 ++ c1 :: r1 →
      w = w1 ∧ c = c1 ∧ r = r1 := by
  intro w
  induction w with
  | nil =>
    intro w1 c c1 r r1 _ hw1 hc _ h
    cases w1 with
    | nil =>
      injection h with h1 h2
      exact ⟨rfl, h1, h2⟩
    | cons x w1 =>
      injection h with h1 h2
      rw [h1, hw1.head] at hc
      cases hc
  | cons y w ih =>
    intro w1 c c1 r r1 hw hw1 hc hc1 h
    cases w1 with
    | nil =>
      injection h with h1 h2
      rw [← h1, hw.head] at hc1
      cases hc1
    | cons x w1 =>
      injection h with h1 h2
      obtain ⟨a, b, c⟩ := ih hw.tail hw1.tail hc hc1 h2
      exact ⟨by rw [h1, a], b, c⟩

theorem skip_whitespace_next {w : List Nat} (hw : Ws w) {c : Nat}
    (hc : iswhitespace c = false) (r : List Nat) (k : Nat) :
    skip_whitespace false k (w ++ c :: r)
      = .ok (c, { buf := r, peekc := 0, eof := false, warned := k }) := by
  induction w with
  | nil =>
    show skip_whitespace false k (c :: r) = _
    unfold skip_whitespace
    simp [hc]
  | cons x w ih =>
    show skip_whitespace false k (x :: (w ++ c :: r)) = _
    unfold skip_whitespace
    simp only [hw.head, if_true]
    exact ih hw.tail

theorem skip_whitespace_end {w : List Nat} (hw : Ws w) (k : Nat) :
    skip_whitespace false k w = .ok (0, { buf := [], peekc := 0, eof := true, warned := k }) := by
  induction w with
  | nil => rfl
  | cons x w ih =>
    unfold skip_whitespace
    simp only [hw.head, if_true]
    exact ih hw.tail

/-- The next symbol of the text before which the input stands. -/
theorem mygetsym_next {inp : Input} {w : List Nat} {c : Nat} {r : List Nat}
    (h : Rep inp (w ++ c :: r)) (hw : Ws w) (hc : iswhitespace c = false) :
    mygetsym inp = .ok (c, { buf := r, peekc := 0, eof := false, warned := inp.warned }) := by
  obtain ⟨buf, peekc, eof, k⟩ := inp
  obtain ⟨h1, h2⟩ := h
  simp only at h1 h2
  subst h1
  rcases h2 with ⟨h3, h4⟩ | ⟨h3, h4, w1, hw1, h5⟩
  · subst h3
    subst h4
    unfold mygetsym mygetchar
    cases w with
    | nil =>
      simp [bind_ok, hc, Except.bind]
    | cons x w =>
      simp [hw.head, Except.bind]
      exact skip_whitespace_next hw.tail hc r k
  · obtain ⟨a, b, c1⟩ := first_symbol_unique hw hw1 hc h4 h5
    subst b
    subst c1
    unfold mygetsym mygetchar
    simp [h3, hc, Except.bind]

/-- At the end of the file, white space skipped, `mygetsym` returns 0 and sets
`eof`. -/
theorem mygetsym_end {inp : Input} {w : List Nat} (h : Rep inp w) (hw : Ws w) :
    mygetsym inp = .ok (0, { buf := [], peekc := 0, eof := true, warned := inp.warned }) := by
  obtain ⟨buf, peekc, eof, k⟩ := inp
  obtain ⟨h1, h2⟩ := h
  simp only at h1 h2
  subst h1
  rcases h2 with ⟨h3, h4⟩ | ⟨h3, h4, w1, hw1, h5⟩
  · subst h3
    subst h4
    unfold mygetsym mygetchar
    cases buf with
    | nil => simp [Except.bind, iswhitespace]
    | cons x w =>
      simp [hw.head, Except.bind]
      exact skip_whitespace_end hw.tail k
  · exfalso
    have := hw peekc (by rw [h5]; simp)
    rw [this] at h4
    cases h4

theorem After.rep {inp : Input} {rest : List Nat} {P : Nat → Prop} (h : After inp rest)
    (hs : Starts rest P) : Rep inp rest := by
  obtain ⟨w1, d1, r1, hw1, hd1, hz1, _, e1⟩ := hs
  rcases h with ⟨w, d, r, hw, hd, hz, e, hb, hp, he⟩ | ⟨hw, _⟩
  · exact ⟨he, Or.inr ⟨by rw [hp]; exact hz, by rw [hp]; exact hd, w, hw, by rw [hp, hb]; exact e⟩⟩
  · exfalso
    have := hw d1 (by rw [e1]; simp)
    rw [this] at hd1
    cases hd1

theorem After.of_peek {w : List Nat} {d : Nat} (r : List Nat) (hw : Ws w)
    (hd : iswhitespace d = false) (hz : d ≠ 0) (k : Nat) :
    After { buf := r, peekc := d, eof := false, warned := k } (w ++ d :: r) :=
  Or.inl ⟨w, d, r, hw, hd, hz, rfl, rfl, rfl, rfl⟩

theorem Rep.of_buf (t : List Nat) (k : Nat) :
    Rep { buf := t, peekc := 0, eof := false, warned := k } t :=
  ⟨rfl, Or.inl ⟨rfl, rfl⟩⟩

theorem Rep.rep_of_peek {w : List Nat} {d : Nat} (r : List Nat) (hw : Ws w)
    (hd : iswhitespace d = false) (hz : d ≠ 0) (k : Nat) :
    Rep { buf := r, peekc := d, eof := false, warned := k } (w ++ d :: r) :=
  ⟨rfl, Or.inr ⟨hz, hd, w, hw, rfl⟩⟩

theorem cstring_of_nonzero {l : List Nat} (h : ∀ c ∈ l, c ≠ 0) : cstring l = l := by
  unfold cstring
  rw [List.takeWhile_eq_self_iff]
  intro c hc
  simpa using h c hc

theorem ValBody.nonzero {b : List Nat} (h : ValBody b) : ∀ c ∈ b, c ≠ 0 := by
  induction h with
  | nil => intro c hc; cases hc
  | plain c b _ _ h0 _ ih =>
    intro x hx
    rcases List.mem_cons.mp hx with e | e
    · rw [e]; exact h0
    · exact ih x e
  | esc c b h0 _ ih =>
    intro x hx
    rcases List.mem_cons.mp hx with e | e
    · rw [e]; decide
    · rcases List.mem_cons.mp e with e | e
      · rw [e]; exact h0
      · exact ih x e

theorem LooseBody.value_nonzero {t s v : List Nat} {k : Nat} (h : LooseBody t s v k) :
    ∀ c ∈ v, c ≠ 0 := by
  induction h with
  | nil => intro c hc; cases hc
  | plain c t s v k _ _ h0 _ ih =>
    intro x hx
    rcases List.mem_cons.mp hx with e | e
    · rw [e]; exact h0
    · exact ih x e
  | esc c t s v k h0 _ ih =>
    intro x hx
    rcases List.mem_cons.mp hx with e | e
    · rw [e]; decide
    · rcases List.mem_cons.mp e with e | e
      · rw [e]; exact h0
      · exact ih x e
  | loose w d t s v k _ _ _ _ _ ih =>
    intro x hx
    rcases List.mem_cons.mp hx with e | e
    · rw [e]; decide
    · exact ih x e
  | loose_end w _ =>
    intro x hx
    rw [List.mem_singleton.mp hx]
    decide

theorem mygetchar_buf (c : Nat) (r : List Nat) (k : Nat) :
    mygetchar { buf := c :: r, peekc := 0, eof := false, warned := k }
      = .ok (c, { buf := r, peekc := 0, eof := false, warned := k }) := rfl

theorem mygetchar_peek (d : Nat) (r : List Nat) (k : Nat) (hz : d ≠ 0) :
    mygetchar { buf := r, peekc := d, eof := false, warned := k }
      = .ok (d, { buf := r, peekc := 0, eof := false, warned := k }) := by
  unfold mygetchar
  rw [if_pos hz]

/-- A symbol pending in `peekc` is read by the value reader like the next byte of the
buffer. -/
theorem read_value_peek (fuel : Nat) (acc : List Nat) (d : Nat) (r : List Nat) (k : Nat)
    (hz : d ≠ 0) :
    read_propvalue_following_sq fuel acc { buf := r, peekc := d, eof := false, warned := k }
      = read_propvalue_following_sq fuel acc
          { buf := d :: r, peekc := 0, eof := false, warned := k } := by
  cases fuel with
  | zero => rfl
  | succ n =>
    unfold read_propvalue_following_sq
    rw [mygetchar_peek d r k hz, mygetchar_buf]

theorem append_nonzero {acc l : List Nat} (h1 : ∀ c ∈ acc, c ≠ 0) (h2 : ∀ c ∈ l, c ≠ 0) :
    ∀ c ∈ acc ++ l, c ≠ 0 := by
  intro x hx
  rcases List.mem_append.mp hx with e | e
  · exact h1 x e
  · exact h2 x e

/-- A value is read up to its closing bracket; the symbol that follows is left in
`peekc`.  Every unescaped `]` inside counts one warning and is kept, the white space
behind it is dropped. -/
theorem read_value_ok {t s v : List Nat} {k : Nat} (hb : LooseBody t s v k) :
    ∀ (fuel : Nat) (acc w : List Nat) (d : Nat) (r : List Nat) (k0 : Nat), Ws w →
      iswhitespace d = false → ends_value d = true → (∀ c ∈ acc, c ≠ 0) → t.length < fuel →
      read_propvalue_following_sq fuel acc
          { buf := t ++ 93 :: (w ++ d :: r), peekc := 0, eof := false, warned := k0 }
        = .ok (acc ++ v, { buf := r, peekc := d, eof := false, warned := k0 + k }) := by
  induction hb with
  | nil =>
    intro fuel acc w d r k0 hw hd he hacc hf
    cases fuel with
    | zero => omega
    | succ n =>
      have h1 := mygetsym_next (Rep.of_buf (w ++ d :: r) k0) hw hd
      unfold read_propvalue_following_sq
      rw [List.nil_append, mygetchar_buf, bind_ok]
      simp only [if_true]
      rw [h1, bind_ok]
      simp only [he, if_true, List.append_nil, cstring_of_nonzero hacc, Nat.add_zero]
  | plain c t s v k h93 h92 h0 _ ih =>
    intro fuel acc w d r k0 hw hd he hacc hf
    cases fuel with
    | zero => omega
    | succ n =>
      unfold read_propvalue_following_sq
      rw [List.cons_append, mygetchar_buf, bind_ok]
      simp only [h93, h92, if_false]
      rw [ih n (acc ++ [c]) w d r k0 hw hd he (append_nonzero hacc (by
        intro x hx
        rw [List.mem_singleton.mp hx]; exact h0)) (by simp at hf; omega)]
      simp
  | esc c t s v k h0 _ ih =>
    intro fuel acc w d r k0 hw hd he hacc hf
    cases fuel with
    | zero => omega
    | succ n =>
      unfold read_propvalue_following_sq
      rw [List.cons_append, mygetchar_buf, bind_ok]
      simp only [show ¬ ((92 : Nat) = 93) by decide, if_false, if_true]
      rw [List.cons_append, mygetchar_buf, bind_ok]
      rw [ih n (acc ++ [92, c]) w d r k0 hw hd he (append_nonzero hacc (by
        intro x hx
        rcases List.mem_cons.mp hx with e | e
        · rw [e]; decide
        · rw [List.mem_singleton.mp e]; exact h0)) (by simp at hf; omega)]
      simp
  | loose w1 d1 t s v k hw1 hd1 he1 hz1 _ ih =>
    intro fuel acc w d r k0 hw hd he hacc hf
    cases fuel with
    | zero => omega
    | succ n =>
      have e1 : (93 :: (w1 ++ d1 :: t)) ++ 93 :: (w ++ d :: r)
          = 93 :: (w1 ++ d1 :: (t ++ 93 :: (w ++ d :: r))) := by simp
      have h1 := mygetsym_next (Rep.of_buf (w1 ++ d1 :: (t ++ 93 :: (w ++ d :: r))) k0) hw1 hd1
      unfold read_propvalue_following_sq
      rw [e1, mygetchar_buf, bind_ok]
      simp only [if_true]
      rw [h1, bind_ok]
      simp only [he1, Bool.false_eq_true, if_false]
      rw [read_value_peek _ _ _ _ _ hz1]
      have h2 := ih n (acc ++ [93]) w d r (k0 + 1) hw hd he (append_nonzero hacc (by
        intro x hx
        rw [List.mem_singleton.mp hx]; decide)) (by simp at hf ⊢; omega)
      rw [List.cons_append] at h2
      rw [h2]
      simp
      omega
  | loose_end w1 hw1 =>
    intro fuel acc w d r k0 hw hd he hacc hf
    cases fuel with
    | zero => omega
    | succ n =>
      cases n with
      | zero => simp at hf
      | succ m =>
        have e1 : (93 :: w1) ++ 93 :: (w ++ d :: r) = 93 :: (w1 ++ 93 :: (w ++ d :: r)) := by
          simp
        have h1 := mygetsym_next (Rep.of_buf (w1 ++ 93 :: (w ++ d :: r)) k0) hw1
          (by decide : iswhitespace 93 = false)
        have h2 := mygetsym_next (Rep.of_buf (w ++ d :: r) (k0 + 1)) hw hd
        unfold read_propvalue_following_sq
        rw [e1, mygetchar_buf, bind_ok]
        simp only [if_true]
        rw [h1, bind_ok]
        simp only [show ends_value 93 = false by decide, Bool.false_eq_true, if_false]
        unfold read_propvalue_following_sq
        rw [mygetchar_peek 93 _ _ (by decide), bind_ok]
        simp only [if_true]
        rw [h2, bind_ok]
        simp only [he, if_true]
        rw [cstring_of_nonzero (append_nonzero hacc (by
          intro x hx
          rw [List.mem_singleton.mp hx]; decide))]

theorem Starts.starts_mono {t : List Nat} {P Q : Nat → Prop} (h : Starts t P) (hpq : ∀ d, P d → Q d) :
    Starts t Q := by
  obtain ⟨w, d, r, a, b, c, e, f⟩ := h
  exact ⟨w, d, r, a, b, c, hpq d e, f⟩

theorem Starts.append {t : List Nat} {P : Nat → Prop} (h : Starts t P) (rest : List Nat) :
    Starts (t ++ rest) P := by
  obtain ⟨w, d, r, a, b, c, e, f⟩ := h
  exact ⟨w, d, r ++ rest, a, b, c, e, by rw [f]; simp⟩

/-- The symbol that `mygetsym` returns when the input stands before a text of which
the first symbol is known to satisfy `P`. -/
theorem mygetsym_starts {inp : Input} {t : List Nat} {P : Nat → Prop} (h : Rep inp t)
    (hs : Starts t P) :
    ∃ w d r, Ws w ∧ iswhitespace d = false ∧ d ≠ 0 ∧ P d ∧ t = w ++ d :: r ∧
      mygetsym inp = .ok (d, { buf := r, peekc := 0, eof := false, warned := inp.warned }) := by
  obtain ⟨w, d, r, a, b, c, e, f⟩ := hs
  subst f
  exact ⟨w, d, r, a, b, c, e, rfl, mygetsym_next h a b⟩

theorem mygetsym_peek (r : List Nat) {d : Nat} (hd : iswhitespace d = false) (hz : d ≠ 0)
    (k : Nat) :
    mygetsym { buf := r, peekc := d, eof := false, warned := k }
      = .ok (d, { buf := r, peekc := 0, eof := false, warned := k }) :=
  mygetsym_next (w := []) (Rep.rep_of_peek r Ws.nil hd hz k) Ws.nil hd

theorem ValuesLoose.values_starts {vt st : List Nat} {vs ss : List (List Nat)} {k : Nat}
    (h : ValuesLoose vt st vs ss k) : Starts vt (fun d => d = 91) := by
  cases h with
  | one w t s v k hw _ => exact ⟨w, 91, t ++ [93], hw, by decide, by decide, rfl, by simp⟩
  | cons w t s v rt rs vs ss k k2 hw _ _ =>
    exact ⟨w, 91, t ++ 93 :: rt, hw, by decide, by decide, rfl, rfl⟩

theorem ValuesLoose.values_ne_nil {vt st : List Nat} {vs ss : List (List Nat)} {k : Nat}
    (h : ValuesLoose vt st vs ss k) : vs ≠ [] := by
  cases h <;> simp

/-- The values of a property are read in order; the symbol that follows is left in
`peekc`. -/
theorem read_values_ok {vt st : List Nat} {vs ss : List (List Nat)} {k : Nat}
    (h : ValuesLoose vt st vs ss k) :
    ∀ (fuel : Nat) (inp : Input) (rest : List Nat), Rep inp (vt ++ rest) →
      Starts rest (fun d => ends_value d = true ∧ d ≠ 91) → vt.length < fuel →
      ∃ inp1, read_propvalue_sequence fuel inp = .ok (vs, inp1) ∧ After inp1 rest ∧
        inp1.warned = inp.warned + k := by
  induction h with
  | one w t s v k hw hb =>
    intro fuel inp rest hrep hs hf
    obtain ⟨w1, d, r, hw1, hd, hz, ⟨he, h91⟩, e⟩ := hs
    subst e
    have e1 : (w ++ 91 :: (t ++ [93])) ++ (w1 ++ d :: r)
        = w ++ 91 :: (t ++ 93 :: (w1 ++ d :: r)) := by
      simp
    rw [e1] at hrep
    have h1 := mygetsym_next hrep hw (by decide)
    cases fuel with
    | zero => omega
    | succ n =>
      cases n with
      | zero => simp at hf
      | succ m =>
        have h2 := read_value_ok hb (m + 1 + 1) [] w1 d r inp.warned hw1 hd he
          (fun c hc => by cases hc) (by simp at hf; omega)
        have h3 := mygetsym_peek r hd hz (inp.warned + k)
        refine ⟨_, ?_, After.of_peek r hw1 hd hz (inp.warned + k), rfl⟩
        unfold read_propvalue_sequence
        rw [h1, bind_ok]
        simp only [if_true]
        rw [h2, bind_ok]
        unfold read_propvalue_sequence
        simp only [List.nil_append]
        rw [h3, bind_ok]
        simp only [h91, if_false]
        rfl
  | cons w t s v rt rs vs ss k k2 hw hb ht ih =>
    intro fuel inp rest hrep hs hf
    obtain ⟨w1, d, r, hw1, hd, hz, hd91, e⟩ := ht.values_starts
    have e1 : (w ++ 91 :: (t ++ 93 :: rt)) ++ rest
        = w ++ 91 :: (t ++ 93 :: (w1 ++ d :: (r ++ rest))) := by
      rw [e]; simp
    have e2 : rt ++ rest = w1 ++ d :: (r ++ rest) := by rw [e]; simp
    rw [e1] at hrep
    have h1 := mygetsym_next hrep hw (by decide)
    cases fuel with
    | zero => omega
    | succ n =>
      have h2 := read_value_ok hb (n + 1) [] w1 d (r ++ rest) inp.warned hw1 hd
        (by rw [hd91]; decide) (fun c hc => by cases hc) (by simp at hf; omega)
      have hrep2 : Rep { buf := r ++ rest, peekc := d, eof := false, warned := inp.warned + k }
          (rt ++ rest) := by
        rw [e2]
        exact Rep.rep_of_peek _ hw1 hd hz _
      obtain ⟨inp1, h3, h4, h5⟩ := ih n _ rest hrep2 hs (by simp at hf; omega)
      refine ⟨inp1, ?_, h4, by rw [h5]; simp only; omega⟩
      unfold read_propvalue_sequence
      rw [h1, bind_ok]
      simp only [if_true]
      rw [h2, bind_ok]
      simp only [List.nil_append]
      rw [h3, bind_ok]

theorem upper_facts {c : Nat} (h : is_upper_case c = true) :
    iswhitespace c = false ∧ c ≠ 0 ∧ ends_value c = true ∧ c ≠ 91 ∧
      (is_upper_case c || is_lower_case c) = true := by
  unfold is_upper_case at h
  simp at h
  have h1 : c = 65 ∨ c = 66 ∨ c = 67 ∨ c = 68 ∨ c = 69 ∨ c = 70 ∨ c = 71 ∨ c = 72 ∨ c = 73 ∨
      c = 74 ∨ c = 75 ∨ c = 76 ∨ c = 77 ∨ c = 78 ∨ c = 79 ∨ c = 80 ∨ c = 81 ∨ c = 82 ∨ c = 83 ∨
      c = 84 ∨ c = 85 ∨ c = 86 ∨ c = 87 ∨ c = 88 ∨ c = 89 ∨ c = 90 := by omega
  rcases h1 with e | e | e | e | e | e | e | e | e | e | e | e | e | e | e | e | e | e | e | e |
    e | e | e | e | e | e <;> subst e <;> decide

/-- An identifier of upper-case letters is read unchanged; the symbol that follows is
left in `peekc`. -/
theorem read_propid_ok (fullprop : Bool) :
    ∀ (l : List Nat), (∀ c ∈ l, is_upper_case c = true) →
      ∀ (fuel : Nat) (p q : List Nat) (inp : Input) (rest : List Nat), (∀ c ∈ p, c ≠ 0) →
        p.length + l.length ≤ 103 → p ++ l ≠ [] → Rep inp (l ++ rest) →
        Starts rest (fun d => (is_upper_case d || is_lower_case d) = false) →
        l.length < fuel →
        ∃ inp1, read_propid fullprop fuel p q inp = .ok (p ++ l, inp1) ∧ After inp1 rest ∧
          inp1.warned = inp.warned := by
  intro l
  induction l with
  | nil =>
    intro _ fuel p q inp rest hp hlen hne hrep hs hf
    obtain ⟨w, d, r, hw, hd, hz, hl, e⟩ := hs
    subst e
    have h1 := mygetsym_next hrep hw hd
    cases fuel with
    | zero => omega
    | succ n =>
      refine ⟨_, ?_, After.of_peek r hw hd hz inp.warned, rfl⟩
      unfold read_propid
      rw [h1, bind_ok]
      simp only [hl]
      rw [if_pos (by simp), if_neg (by simpa using hne), if_neg (by simp at hlen ⊢; omega),
        cstring_of_nonzero hp, List.append_nil]
  | cons c l ih =>
    intro hup fuel p q inp rest hp hlen hne hrep hs hf
    have hc := upper_facts (hup c (List.mem_cons_self _ _))
    have h1 : mygetsym inp
        = .ok (c, { buf := l ++ rest, peekc := 0, eof := false, warned := inp.warned }) :=
      mygetsym_next (w := []) hrep Ws.nil hc.1
    cases fuel with
    | zero => omega
    | succ n =>
      obtain ⟨inp1, h2, h3, h4⟩ := ih (fun x hx => hup x (List.mem_cons_of_mem _ hx)) n
        (p ++ [c]) (if q.length < 103 then q ++ [c] else q) _ rest
        (append_nonzero hp (by
          intro x hx
          rw [List.mem_singleton.mp hx]; exact hc.2.1))
        (by simp at hlen ⊢; omega) (by simp) (Rep.of_buf (l ++ rest) inp.warned) hs
        (by simp at hf; omega)
      refine ⟨inp1, ?_, h3, h4⟩
      unfold read_propid
      rw [h1, bind_ok]
      simp only [hc.2.2.2.2]
      rw [if_neg (by simp), if_pos ⟨by simp at hlen; omega,
        Or.inl (hup c (List.mem_cons_self _ _))⟩, h2]
      simp

theorem PropsLoose.props_starts {pt st : List Nat} {ps pss : List property} {k : Nat}
    (h : PropsLoose pt st ps pss k) {rest : List Nat} {P : Nat → Prop} (hs : Starts rest P) :
    Starts (pt ++ rest) (fun d => is_upper_case d = true ∨ P d) := by
  cases h with
  | nil => exact hs.starts_mono fun d hd => Or.inr hd
  | cons w id vt vst t ts vs vss ps pss k k2 hw hid _ _ =>
    obtain ⟨h1, _, h3⟩ := hid
    cases id with
    | nil => simp at h1
    | cons c id =>
      have hc := upper_facts (h3 c (List.mem_cons_self _ _))
      exact ⟨w, c, id ++ (vt ++ t) ++ rest, hw, hc.1, hc.2.1,
        Or.inl (h3 c (List.mem_cons_self _ _)), by simp⟩

/-- The properties of a node are read in order; the symbol that follows is left in
`peekc`. -/
theorem read_properties_ok (fullprop : Bool) {pt st : List Nat} {ps pss : List property}
    {k : Nat} (h : PropsLoose pt st ps pss k) :
    ∀ (fuel : Nat) (inp : Input) (rest : List Nat), Rep inp (pt ++ rest) →
      Starts rest (fun d => d = 59 ∨ d = 40 ∨ d = 41) → pt.length < fuel →
      ∃ inp1, read_properties fullprop fuel inp = .ok (ps, inp1) ∧ After inp1 rest ∧
        inp1.warned = inp.warned + k := by
  induction h with
  | nil =>
    intro fuel inp rest hrep hs hf
    obtain ⟨w, d, r, hw, hd, hz, hp, e⟩ := hs
    subst e
    have h1 := mygetsym_next hrep hw hd
    have hl : (is_upper_case d || is_lower_case d) = false := by
      rcases hp with e | e | e <;> subst e <;> decide
    cases fuel with
    | zero => omega
    | succ n =>
      refine ⟨_, ?_, After.of_peek r hw hd hz inp.warned, rfl⟩
      unfold read_properties
      rw [h1, bind_ok]
      simp only [hl]
      rw [if_pos (by simp)]
  | cons w id vt vst t ts vs vss ps pss k k2 hw hid hvt ht ih =>
    intro fuel inp rest hrep hs hf
    obtain ⟨hi1, hi2, hi3⟩ := hid
    cases id with
    | nil => simp at hi1
    | cons c id =>
      have hc := upper_facts (hi3 c (List.mem_cons_self _ _))
      have e1 : (w ++ (c :: id ++ (vt ++ t))) ++ rest = w ++ c :: (id ++ (vt ++ (t ++ rest))) := by
        simp
      rw [e1] at hrep
      have h1 := mygetsym_next hrep hw hc.1
      cases fuel with
      | zero => omega
      | succ n =>
        have hrep1 := Rep.rep_of_peek (w := []) (id ++ (vt ++ (t ++ rest))) Ws.nil hc.1 hc.2.1
          inp.warned
        obtain ⟨i1, h2, h3, h3w⟩ := read_propid_ok fullprop (c :: id) hi3 (n + 1) [] [] _
          (vt ++ (t ++ rest)) (fun x hx => by cases hx) (by simpa using hi2) (by simp) hrep1
          ((hvt.values_starts.append _).starts_mono fun d hd => by rw [hd]; decide)
          (by simp at hf ⊢; omega)
        have hst := ht.props_starts hs
        obtain ⟨i2, h4, h5, h5w⟩ := read_values_ok hvt (n + 1) i1 (t ++ rest)
          (h3.rep (hvt.values_starts.append _))
          (hst.starts_mono fun d hd => by
            rcases hd with e | e | e | e
            · exact ⟨(upper_facts e).2.2.1, (upper_facts e).2.2.2.1⟩
            · subst e; decide
            · subst e; decide
            · subst e; decide)
          (by simp at hf ⊢; omega)
        obtain ⟨i3, h6, h7, h7w⟩ := ih n i2 rest (h5.rep hst) hs (by simp at hf ⊢; omega)
        refine ⟨i3, ?_, h7, by rw [h7w, h5w, h3w]; simp only; omega⟩
        unfold read_properties
        rw [h1, bind_ok]
        simp only [hc.2.2.2.2]
        rw [if_neg (by simp)]
        unfold read_property
        rw [List.nil_append] at h2
        rw [h2, bind_ok]
        simp only
        rw [h4, bind_ok]
        simp only [hvt.values_ne_nil, if_false]
        rw [bind_ok]
        simp only
        rw [h6, bind_ok]

theorem NodesLoose.nodes_starts {nt st : List Nat} {ns nss : List node} {k : Nat}
    (h : NodesLoose nt st ns nss k) : Starts nt (fun d => d = 59) := by
  cases h with
  | one w pt pst ps pss k hw _ => exact ⟨w, 59, pt, hw, by decide, by decide, rfl, rfl⟩
  | cons w pt pst t ts ps pss ns nss k k2 hw _ _ =>
    exact ⟨w, 59, pt ++ t, hw, by decide, by decide, rfl, rfl⟩

theorem NodesLoose.nodes_ne_nil {nt st : List Nat} {ns nss : List node} {k : Nat}
    (h : NodesLoose nt st ns nss k) : ns ≠ [] := by
  cases h <;> simp

/-- The nodes of a sequence are read in order; the symbol that follows is left in
`peekc`. -/
theorem read_nodes_ok (fullprop : Bool) {nt st : List Nat} {ns nss : List node} {k : Nat}
    (h : NodesLoose nt st ns nss k) :
    ∀ (fuel : Nat) (inp : Input) (rest : List Nat), Rep inp (nt ++ rest) →
      Starts rest (fun d => d = 40 ∨ d = 41) → nt.length < fuel →
      ∃ inp1, read_node_sequence fullprop fuel inp = .ok (ns, inp1) ∧ After inp1 rest ∧
        inp1.warned = inp.warned + k := by
  induction h with
  | one w pt pst ps pss k hw hpt =>
    intro fuel inp rest hrep hs hf
    have e1 : (w ++ 59 :: pt) ++ rest = w ++ 59 :: (pt ++ rest) := by simp
    rw [e1] at hrep
    have h1 := mygetsym_next hrep hw (by decide)
    cases fuel with
    | zero => omega
    | succ n =>
      cases n with
      | zero => simp at hf
      | succ m =>
        obtain ⟨i1, h2, h3, h3w⟩ := read_properties_ok fullprop hpt (m + 1 + 1) _ rest
          (Rep.of_buf _ inp.warned) (hs.starts_mono fun d hd => Or.inr hd)
          (by simp at hf ⊢; omega)
        obtain ⟨w1, d, r, hw1, hd, hz, hp, e, h4⟩ := mygetsym_starts (h3.rep hs) hs
        subst e
        have hd59 : d ≠ 59 := by rcases hp with e | e <;> subst e <;> decide
        refine ⟨_, ?_, After.of_peek r hw1 hd hz i1.warned, h3w⟩
        unfold read_node_sequence
        rw [h1, bind_ok]
        simp only [if_true]
        unfold read_property_sequence
        rw [h2, bind_ok, bind_ok]
        unfold read_node_sequence
        simp only
        rw [h4, bind_ok]
        simp only [hd59, if_false]
        rfl
  | cons w pt pst t ts ps pss ns nss k k2 hw hpt ht ih =>
    intro fuel inp rest hrep hs hf
    have e1 : (w ++ 59 :: (pt ++ t)) ++ rest = w ++ 59 :: (pt ++ (t ++ rest)) := by simp
    rw [e1] at hrep
    have h1 := mygetsym_next hrep hw (by decide)
    cases fuel with
    | zero => omega
    | succ n =>
      have hst : Starts (t ++ rest) (fun d => d = 59) := ht.nodes_starts.append rest
      obtain ⟨i1, h2, h3, h3w⟩ := read_properties_ok fullprop hpt (n + 1) _ (t ++ rest)
        (Rep.of_buf _ inp.warned) (hst.starts_mono fun d hd => Or.inl hd)
        (by simp at hf ⊢; omega)
      obtain ⟨i2, h4, h5, h5w⟩ := ih n i1 rest (h3.rep hst) hs (by simp at hf ⊢; omega)
      refine ⟨i2, ?_, h5, by rw [h5w, h3w]; simp only; omega⟩
      unfold read_node_sequence
      rw [h1, bind_ok]
      simp only [if_true]
      unfold read_property_sequence
      rw [h2, bind_ok, bind_ok]
      simp only
      rw [h4, bind_ok]

theorem TreesLoose.trees_starts {tt st : List Nat} {g gs : gametree} {k : Nat}
    (h : TreesLoose tt st g gs k) {rest : List Nat} {P : Nat → Prop} (hs : Starts rest P) :
    Starts (tt ++ rest) (fun d => d = 40 ∨ P d) := by
  cases h with
  | nil => exact hs.starts_mono fun d hd => Or.inr hd
  | cons w nt nst ct cst w2 rt rst nodes nodes2 children children2 sibs sibs2 k k2 k3 hw _ _ _ _ =>
    exact ⟨w, 40, nt ++ (ct ++ (w2 ++ 41 :: rt)) ++ rest, hw, by decide, by decide,
      Or.inl rfl, by simp⟩

theorem link_tree (nodes : List node) (children sibs : gametree) :
    link (.tree nodes children .null) sibs = .tree nodes children sibs := by
  cases sibs <;> rfl

/-- A sequence of game trees is read as the chain of its trees, each with its nodes
and the chain of its children; the symbol that follows is left in `peekc`, or the file
has ended. -/
theorem read_trees_ok (fullprop : Bool) {tt st : List Nat} {g gs : gametree} {k : Nat}
    (h : TreesLoose tt st g gs k) :
    ∀ (fuel : Nat) (inp : Input) (rest : List Nat), Rep inp (tt ++ rest) →
      (Starts rest (fun d => d ≠ 40) ∨ Ws rest) → tt.length < fuel →
      ∃ inp1, read_gametree_sequence fullprop fuel inp = .ok (g, inp1) ∧ After inp1 rest ∧
        inp1.warned = inp.warned + k := by
  induction h with
  | nil =>
    intro fuel inp rest hrep hs hf
    rw [List.nil_append] at hrep
    cases fuel with
    | zero => omega
    | succ n =>
      rcases hs with hs | hs
      · obtain ⟨w, d, r, hw, hd, hz, hp, e, h1⟩ := mygetsym_starts hrep hs
        subst e
        refine ⟨_, ?_, After.of_peek r hw hd hz inp.warned, rfl⟩
        unfold read_gametree_sequence
        rw [h1, bind_ok]
        simp only [hp, if_false]
      · have h1 := mygetsym_end hrep hs
        refine ⟨{ buf := [], peekc := 0, eof := true, warned := inp.warned }, ?_,
          Or.inr ⟨hs, rfl, rfl, rfl⟩, rfl⟩
        unfold read_gametree_sequence
        rw [h1, bind_ok]
        simp only [show ¬ ((0 : Nat) = 40) by decide, if_false]
  | cons w nt nst ct cst w2 rt rst nodes nodes2 children children2 sibs sibs2 k k2 k3
      hw hnt hct hw2 hrt ihc ihr =>
    intro fuel inp rest hrep hs hf
    have e1 : (w ++ 40 :: (nt ++ (ct ++ (w2 ++ 41 :: rt)))) ++ rest
        = w ++ 40 :: (nt ++ (ct ++ (w2 ++ 41 :: (rt ++ rest)))) := by simp
    rw [e1] at hrep
    have h1 := mygetsym_next hrep hw (by decide)
    cases fuel with
    | zero => omega
    | succ n =>
      have hY41 : Starts (w2 ++ 41 :: (rt ++ rest)) (fun d => d = 41) :=
        ⟨w2, 41, rt ++ rest, hw2, by decide, by decide, rfl, rfl⟩
      have hY : Starts (ct ++ (w2 ++ 41 :: (rt ++ rest))) (fun d => d = 40 ∨ d = 41) :=
        hct.trees_starts hY41
      obtain ⟨w1, d1, r1, hw1, hd1, hz1, hp1, e2, h2⟩ :=
        mygetsym_starts (Rep.of_buf (nt ++ (ct ++ (w2 ++ 41 :: (rt ++ rest)))) inp.warned)
          (hnt.nodes_starts.append _)
      subst hp1
      have hrep1 : Rep { buf := r1, peekc := 59, eof := false, warned := inp.warned }
          (nt ++ (ct ++ (w2 ++ 41 :: (rt ++ rest)))) := by
        rw [e2]
        exact Rep.rep_of_peek _ hw1 hd1 hz1 _
      obtain ⟨i1, h3, h4, h4w⟩ := read_nodes_ok fullprop hnt (n + 1) _ _ hrep1 hY
        (by simp at hf ⊢; omega)
      obtain ⟨i2, h5, h6, h6w⟩ := ihc n i1 (w2 ++ 41 :: (rt ++ rest)) (h4.rep hY)
        (Or.inl (hY41.starts_mono fun d hd => by rw [hd]; decide)) (by simp at hf ⊢; omega)
      have h7 := mygetsym_next (h6.rep hY41) hw2 (by decide)
      have h8 := mygetsym_peek (rt ++ rest) (d := 41) (by decide) (by decide) i2.warned
      obtain ⟨i3, h9, h10, h10w⟩ := ihr n _ rest (Rep.of_buf (rt ++ rest) i2.warned) hs
        (by simp at hf ⊢; omega)
      refine ⟨i3, ?_, h10, by rw [h10w, h6w, h4w]; simp only; omega⟩
      unfold read_gametree_sequence
      rw [h1, bind_ok]
      simp only [if_true]
      unfold read_baretree_sequence
      rw [h2, bind_ok]
      simp only
      rw [if_neg (by simp)]
      unfold read_baretree read_sequence
      rw [h3, bind_ok]
      simp only [hnt.nodes_ne_nil, if_false]
      rw [bind_ok]
      simp only
      rw [h5, bind_ok, bind_ok]
      simp only
      rw [h7, bind_ok]
      simp only
      rw [if_neg (by decide), bind_ok]
      simp only
      rw [h8, bind_ok]
      simp only
      rw [if_neg (by simp), h9, bind_ok, link_tree]

theorem NodesLoose.normal {nt st : List Nat} {ns nss : List node} {k : Nat}
    (h : NodesLoose nt st ns nss k) :
    ∃ w r rs, Ws w ∧ nt = w ++ 59 :: r ∧ st = w ++ 59 :: rs ∧
      NodesLoose (59 :: r) (59 :: rs) ns nss k := by
  cases h with
  | one w pt pst ps pss k hw hpt =>
    exact ⟨w, pt, pst, hw, rfl, rfl, NodesLoose.one [] pt pst ps pss k Ws.nil hpt⟩
  | cons w pt pst t ts ps pss ns nss k k2 hw hpt ht =>
    exact ⟨w, pt ++ t, pst ++ ts, hw, rfl, rfl,
      NodesLoose.cons [] pt pst t ts ps pss ns nss k k2 Ws.nil hpt ht⟩

theorem After.eof {inp : Input} {w : List Nat} (h : After inp w) (hw : Ws w) :
    inp.buf = [] ∧ inp.peekc = 0 ∧ inp.eof = true := by
  rcases h with ⟨w1, d, r, _, hd, _, e, _⟩ | ⟨_, h⟩
  · exfalso
    have := hw d (by rw [e]; simp)
    rw [this] at hd
    cases hd
  · exact h

theorem ValBody.of_plain : ∀ (b : List Nat), (∀ c ∈ b, c ≠ 93 ∧ c ≠ 92 ∧ c ≠ 0) → ValBody b
  | [], _ => ValBody.nil
  | c :: b, h =>
    ValBody.plain c b (h c (List.mem_cons_self _ _)).1 (h c (List.mem_cons_self _ _)).2.1
      (h c (List.mem_cons_self _ _)).2.2
      (ValBody.of_plain b fun x hx => h x (List.mem_cons_of_mem _ hx))

/-- The derivation of `exampleText`: one tree of three nodes. -/
theorem exampleText_derives : CollectionText exampleText exampleTree := by
  have v4 : ValuesText [91, 52, 93] [[52]] :=
    ValuesText.one [] [52] Ws.nil (ValBody.of_plain _ (by decide))
  have v1 : ValuesText [91, 49, 93] [[49]] :=
    ValuesText.one [] [49] Ws.nil (ValBody.of_plain _ (by decide))
  have v19 : ValuesText [91, 49, 57, 93] [[49, 57]] :=
    ValuesText.one [] [49, 57] Ws.nil (ValBody.of_plain _ (by decide))
  have vpd : ValuesText [91, 112, 100, 93] [[112, 100]] :=
    ValuesText.one [] [112, 100] Ws.nil (ValBody.of_plain _ (by decide))
  have vdp : ValuesText [91, 100, 112, 93] [[100, 112]] :=
    ValuesText.one [] [100, 112] Ws.nil (ValBody.of_plain _ (by decide))
  have p3 : PropsText [83, 90, 91, 49, 57, 93] [{ id := [83, 90], val := [[49, 57]] }] :=
    PropsText.cons [] [83, 90] _ [] _ [] Ws.nil ⟨by decide, by decide, by decide⟩ v19
      PropsText.nil
  have p2 : PropsText [71, 77, 91, 49, 93, 83, 90, 91, 49, 57, 93]
      [{ id := [71, 77], val := [[49]] }, { id := [83, 90], val := [[49, 57]] }] :=
    PropsText.cons [] [71, 77] _ _ _ _ Ws.nil ⟨by decide, by decide, by decide⟩ v1 p3
  have p1 : PropsText [70, 70, 91, 52, 93, 71, 77, 91, 49, 93, 83, 90, 91, 49, 57, 93]
      [{ id := [70, 70], val := [[52]] }, { id := [71, 77], val := [[49]] },
        { id := [83, 90], val := [[49, 57]] }] :=
    PropsText.cons [] [70, 70] _ _ _ _ Ws.nil ⟨by decide, by decide, by decide⟩ v4 p2
  have pb : PropsText [66, 91, 112, 100, 93] [{ id := [66], val := [[112, 100]] }] :=
    PropsText.cons [] [66] _ [] _ [] Ws.nil ⟨by decide, by decide, by decide⟩ vpd
      PropsText.nil
  have pw : PropsText [87, 91, 100, 112, 93] [{ id := [87], val := [[100, 112]] }] :=
    PropsText.cons [] [87] _ [] _ [] Ws.nil ⟨by decide, by decide, by decide⟩ vdp
      PropsText.nil
  have n3 : NodesText [59, 87, 91, 100, 112, 93]
      [{ p := [{ id := [87], val := [[100, 112]] }] }] :=
    NodesText.one [] _ _ Ws.nil pw
  have n2 : NodesText [59, 66, 91, 112, 100, 93, 59, 87, 91, 100, 112, 93]
      [{ p := [{ id := [66], val := [[112, 100]] }] },
        { p := [{ id := [87], val := [[100, 112]] }] }] :=
    NodesText.cons [] _ _ _ _ Ws.nil pb n3
  have n1 : NodesText [59, 70, 70, 91, 52, 93, 71, 77, 91, 49, 93, 83, 90, 91, 49, 57, 93,
      59, 66, 91, 112, 100, 93, 59, 87, 91, 100, 112, 93]
      [{ p := [{ id := [70, 70], val := [[52]] }, { id := [71, 77], val := [[49]] },
          { id := [83, 90], val := [[49, 57]] }] },
        { p := [{ id := [66], val := [[112, 100]] }] },
        { p := [{ id := [87], val := [[100, 112]] }] }] :=
    NodesText.cons [] _ _ _ _ Ws.nil p1 n2
  have t1 : TreesText exampleText exampleTree :=
    TreesText.cons [] _ [] [] [] _ .null .null Ws.nil n1 TreesText.nil Ws.nil TreesText.nil
  exact ⟨exampleText, [], t1, by decide, Ws.nil, by decide⟩

theorem ValBody.body_loose {b : List Nat} (h : ValBody b) : LooseBody b b b 0 := by
  induction h with
  | nil => exact LooseBody.nil
  | plain c b h1 h2 h3 _ ih => exact LooseBody.plain c b b b 0 h1 h2 h3 ih
  | esc c b h0 _ ih => exact LooseBody.esc c b b b 0 h0 ih

theorem ValuesText.values_loose {vt : List Nat} {vs : List (List Nat)} (h : ValuesText vt vs) :
    ValuesLoose vt vt vs vs 0 := by
  induction h with
  | one w b hw hb => exact ValuesLoose.one w b b b 0 hw hb.body_loose
  | cons w b t vs hw hb _ ih => exact ValuesLoose.cons w b b b t t vs vs 0 0 hw hb.body_loose ih

theorem PropsText.props_loose {pt : List Nat} {ps : List property} (h : PropsText pt ps) :
    PropsLoose pt pt ps ps 0 := by
  induction h with
  | nil => exact PropsLoose.nil
  | cons w id vt t vs ps hw hid hvt _ ih =>
    exact PropsLoose.cons w id vt vt t t vs vs ps ps 0 0 hw hid hvt.values_loose ih

theorem NodesText.nodes_loose {nt : List Nat} {ns : List node} (h : NodesText nt ns) :
    NodesLoose nt nt ns ns 0 := by
  induction h with
  | one w pt ps hw hpt => exact NodesLoose.one w pt pt ps ps 0 hw hpt.props_loose
  | cons w pt t ps ns hw hpt _ ih =>
    exact NodesLoose.cons w pt pt t t ps ps ns ns 0 0 hw hpt.props_loose ih

theorem TreesText.trees_loose {tt : List Nat} {g : gametree} (h : TreesText tt g) :
    TreesLoose tt tt g g 0 := by
  induction h with
  | nil => exact TreesLoose.nil
  | cons w nt ct w2 rt nodes children sibs hw hnt _ hw2 _ ihc ihr =>
    exact TreesLoose.cons w nt nt ct ct w2 rt rt nodes nodes children children sibs sibs 0 0 0
      hw hnt.nodes_loose ihc hw2 ihr

theorem CollectionText.collection_loose {text : List Nat} {g : gametree} (h : CollectionText text g) :
    CollectionLoose text text g g 0 := by
  obtain ⟨tt, w, ht, hne, hw, e⟩ := h
  exact ⟨tt, tt, w, ht.trees_loose, hne, hw, e, e⟩

theorem Ws.plain {w : List Nat} (hw : Ws w) {b : List Nat} (hb : ValBody b) :
    ValBody (w ++ b) := by
  induction w with
  | nil => exact hb
  | cons c w ih =>
    have hc := hw.head
    refine ValBody.plain c _ ?_ ?_ ?_ (ih hw.tail)
    · intro e; rw [e] at hc; cases hc
    · intro e; rw [e] at hc; cases hc
    · intro e; rw [e] at hc; cases hc

/-- The text with the `]` escaped is a strict value body. -/
theorem LooseBody.body_escaped {t s v : List Nat} {k : Nat} (h : LooseBody t s v k) : ValBody s := by
  induction h with
  | nil => exact ValBody.nil
  | plain c t s v k h1 h2 h3 _ ih => exact ValBody.plain c s h1 h2 h3 ih
  | esc c t s v k h0 _ ih => exact ValBody.esc c s h0 ih
  | loose w d t s v k hw _ _ _ _ ih => exact ValBody.esc 93 _ (by decide) (hw.plain ih)
  | loose_end w hw =>
    have := hw.plain ValBody.nil
    rw [List.append_nil] at this
    exact ValBody.esc 93 _ (by decide) this

theorem ValuesLoose.values_escaped {vt st : List Nat} {vs ss : List (List Nat)} {k : Nat}
    (h : ValuesLoose vt st vs ss k) : ValuesText st ss := by
  induction h with
  | one w t s v k hw hb => exact ValuesText.one w s hw hb.body_escaped
  | cons w t s v rt rs vs ss k k2 hw hb _ ih => exact ValuesText.cons w s rs ss hw hb.body_escaped ih

theorem PropsLoose.props_escaped {pt st : List Nat} {ps pss : List property} {k : Nat}
    (h : PropsLoose pt st ps pss k) : PropsText st pss := by
  induction h with
  | nil => exact PropsText.nil
  | cons w id vt vst t ts vs vss ps pss k k2 hw hid hvt _ ih =>
    exact PropsText.cons w id vst ts vss pss hw hid hvt.values_escaped ih

theorem NodesLoose.nodes_escaped {nt st : List Nat} {ns nss : List node} {k : Nat}
    (h : NodesLoose nt st ns nss k) : NodesText st nss := by
  induction h with
  | one w pt pst ps pss k hw hpt => exact NodesText.one w pst pss hw hpt.props_escaped
  | cons w pt pst t ts ps pss ns nss k k2 hw hpt _ ih =>
    exact NodesText.cons w pst ts pss nss hw hpt.props_escaped ih

theorem TreesLoose.trees_escaped {tt st : List Nat} {g gs : gametree} {k : Nat}
    (h : TreesLoose tt st g gs k) : TreesText st gs := by
  induction h with
  | nil => exact TreesText.nil
  | cons w nt nst ct cst w2 rt rst nodes nodes2 children children2 sibs sibs2 k k2 k3
      hw hnt _ hw2 _ ihc ihr =>
    exact TreesText.cons w nst cst w2 rst nodes2 children2 sibs2 hw hnt.nodes_escaped ihc hw2 ihr

theorem CollectionLoose.collection_escaped {text stext : List Nat} {g gs : gametree} {k : Nat}
    (h : CollectionLoose text stext g gs k) : CollectionText stext gs := by
  obtain ⟨tt, st, w, ht, hne, hw, _, e⟩ := h
  refine ⟨st, w, ht.trees_escaped, ?_, hw, e⟩
  cases ht with
  | nil => exact absurd rfl hne
  | cons => intro e; cases e

/-- A body without an unescaped `]` is read as it stands. -/
theorem LooseBody.strict_eq {t s v : List Nat} {k : Nat} (h : LooseBody t s v k) (hk : k = 0) :
    s = t ∧ v = t := by
  induction h with
  | nil => exact ⟨rfl, rfl⟩
  | plain c t s v k _ _ _ _ ih =>
    obtain ⟨a, b⟩ := ih hk
    exact ⟨by rw [a], by rw [b]⟩
  | esc c t s v k _ _ ih =>
    obtain ⟨a, b⟩ := ih hk
    exact ⟨by rw [a], by rw [b]⟩
  | loose w d t s v k _ _ _ _ _ _ => omega
  | loose_end w _ => omega

/-- The reader on a collection that is strict but for unescaped `]` in its values: it
returns the forest, and has written one warning for each of these `]`. -/
theorem readsgf_collection (multiin fullprop : Bool) (fuel : Nat) (text stext : List Nat)
    (g gs : gametree) (k : Nat) (h : CollectionLoose text stext g gs k)
    (hf : text.length < fuel) :
    readsgf multiin fullprop fuel text = .ok g ∧
      readsgf_warnings multiin fullprop fuel text = .ok k := by
  obtain ⟨tt, st, w, ht, hne, hw, e, _⟩ := h
  subst e
  cases ht with
  | nil => exact absurd rfl hne
  | cons w0 nt nst ct cst w2 rt rst nodes nodes2 children children2 sibs sibs2 k1 k2 k3
      hw0 hnt hct hw2 hrt =>
    obtain ⟨w1, r, rs, hw1, e, _, hnt1⟩ := hnt.normal
    subst e
    have e1 : (w0 ++ 40 :: ((w1 ++ 59 :: r) ++ (ct ++ (w2 ++ 41 :: rt)))) ++ w
        = w0 ++ 40 :: (w1 ++ 59 :: (r ++ (ct ++ (w2 ++ 41 :: rt)) ++ w)) := by simp
    have h1 := mygetsym_next (Rep.of_buf _ 0) hw0 (by decide :
      iswhitespace 40 = false) (r := w1 ++ 59 :: (r ++ (ct ++ (w2 ++ 41 :: rt)) ++ w))
    have h2 := mygetsym_next (w := []) (Rep.of_buf _ 0) Ws.nil (by decide :
      iswhitespace 40 = false) (r := w1 ++ 59 :: (r ++ (ct ++ (w2 ++ 41 :: rt)) ++ w))
    rw [List.nil_append] at h2
    have h3 := mygetsym_next (Rep.of_buf _ 0) hw1 (by decide :
      iswhitespace 59 = false) (r := r ++ (ct ++ (w2 ++ 41 :: rt)) ++ w)
    have ht1 : TreesLoose ([] ++ 40 :: ((59 :: r) ++ (ct ++ (w2 ++ 41 :: rt))))
        ([] ++ 40 :: ((59 :: rs) ++ (cst ++ (w2 ++ 41 :: rst))))
        (.tree nodes children sibs) (.tree nodes2 children2 sibs2) (k1 + (k2 + k3)) :=
      TreesLoose.cons [] _ _ ct cst w2 rt rst nodes nodes2 children children2 sibs sibs2
        k1 k2 k3 Ws.nil hnt1 hct hw2 hrt
    have e2 : 40 :: 59 :: (r ++ (ct ++ (w2 ++ 41 :: rt)) ++ w)
        = ([] ++ 40 :: ((59 :: r) ++ (ct ++ (w2 ++ 41 :: rt)))) ++ w := by simp
    cases fuel with
    | zero => omega
    | succ n =>
      obtain ⟨i1, h4, h5, h5w⟩ := read_trees_ok fullprop ht1 (n + 1)
        { buf := 40 :: 59 :: (r ++ (ct ++ (w2 ++ 41 :: rt)) ++ w), peekc := 0, eof := false,
          warned := 0 } w
        (by rw [← e2]; exact Rep.of_buf _ 0) (Or.inr hw) (by simp at hf ⊢; omega)
      have h6 := h5.eof hw
      have h7 : skip_initial_garbage (n + 1) i1 = .ok i1 := by
        unfold skip_initial_garbage
        rw [if_pos h6.2.2]
      simp only [Nat.zero_add] at h5w
      have h8 : read_collection multiin fullprop (n + 1)
          { buf := 40 :: 59 :: (r ++ (ct ++ (w2 ++ 41 :: rt)) ++ w), peekc := 0, eof := false,
            warned := 0 } = .ok (.tree nodes children sibs, i1) := by
        unfold read_collection
        rw [h4, bind_ok]
        simp only
        rw [if_neg (by simp)]
        cases multiin with
        | false => rfl
        | true =>
          simp only [if_true]
          unfold read_more
          rw [h7, bind_ok]
          simp only [h6.2.2, if_true]
      constructor
      · unfold readsgf skip_initial_BOM
        rw [e1]
        simp only [Bool.false_eq_true, if_false]
        rw [h1, bind_ok]
        simp only
        rw [if_pos (Or.inl (by decide)), bind_ok]
        unfold skip_initial_garbage my_pushback
        simp only [Bool.false_eq_true, if_false]
        rw [h2, bind_ok]
        simp only [if_true]
        rw [h3, bind_ok]
        simp only [if_true]
        rw [bind_ok]
        simp only [Bool.false_eq_true, if_false]
        rw [h8, bind_ok]
      · unfold readsgf_warnings skip_initial_BOM
        rw [e1]
        simp only [Bool.false_eq_true, if_false]
        rw [h1, bind_ok]
        simp only
        rw [if_pos (Or.inl (by decide)), bind_ok]
        unfold skip_initial_garbage my_pushback
        simp only [Bool.false_eq_true, if_false]
        rw [h2, bind_ok]
        simp only [if_true]
        rw [h3, bind_ok]
        simp only [if_true]
        rw [bind_ok]
        simp only [Bool.false_eq_true, if_false]
        rw [h8, bind_ok, h5w]

/-- The derivation of `bracketText` and `bracketEscaped`: one unescaped `]`. -/
theorem bracketText_derives :
    CollectionLoose bracketText bracketEscaped bracketTree bracketEscapedTree 1 := by
  have b1 : LooseBody [49] [49] [49] 0 :=
    LooseBody.plain 49 [] [] [] 0 (by decide) (by decide) (by decide) LooseBody.nil
  have b2 : LooseBody [97, 93, 49] [97, 92, 93, 49] [97, 93, 49] 1 :=
    LooseBody.plain 97 _ _ _ 1 (by decide) (by decide) (by decide)
      (LooseBody.loose [] 49 [] [49] [49] 0 Ws.nil (by decide) (by decide) (by decide) b1)
  have vc : ValuesLoose [91, 97, 93, 49, 93] [91, 97, 92, 93, 49, 93] [[97, 93, 49]]
      [[97, 92, 93, 49]] 1 :=
    ValuesLoose.one [] _ _ _ 1 Ws.nil b2
  have vb : ValuesLoose [91, 97, 97, 93] [91, 97, 97, 93] [[97, 97]] [[97, 97]] 0 :=
    (ValuesText.one [] [97, 97] Ws.nil (ValBody.of_plain _ (by decide))).values_loose
  have pc : PropsLoose [67, 91, 97, 93, 49, 93] [67, 91, 97, 92, 93, 49, 93]
      [{ id := [67], val := [[97, 93, 49]] }] [{ id := [67], val := [[97, 92, 93, 49]] }] 1 :=
    PropsLoose.cons [] [67] _ _ [] [] _ _ [] [] 1 0 Ws.nil ⟨by decide, by decide, by decide⟩ vc
      PropsLoose.nil
  have pb : PropsLoose [66, 91, 97, 97, 93] [66, 91, 97, 97, 93]
      [{ id := [66], val := [[97, 97]] }] [{ id := [66], val := [[97, 97]] }] 0 :=
    PropsLoose.cons [] [66] _ _ [] [] _ _ [] [] 0 0 Ws.nil ⟨by decide, by decide, by decide⟩ vb
      PropsLoose.nil
  have n2 : NodesLoose [59, 66, 91, 97, 97, 93] [59, 66, 91, 97, 97, 93]
      [{ p := [{ id := [66], val := [[97, 97]] }] }]
      [{ p := [{ id := [66], val := [[97, 97]] }] }] 0 :=
    NodesLoose.one [] _ _ _ _ 0 Ws.nil pb
  have n1 : NodesLoose [59, 67, 91, 97, 93, 49, 93, 59, 66, 91, 97, 97, 93]
      [59, 67, 91, 97, 92, 93, 49, 93, 59, 66, 91, 97, 97, 93]
      [{ p := [{ id := [67], val := [[97, 93, 49]] }] },
        { p := [{ id := [66], val := [[97, 97]] }] }]
      [{ p := [{ id := [67], val := [[97, 92, 93, 49]] }] },
        { p := [{ id := [66], val := [[97, 97]] }] }] 1 :=
    NodesLoose.cons [] _ _ _ _ _ _ _ _ 1 0 Ws.nil pc n2
  have t1 : TreesLoose bracketText bracketEscaped bracketTree bracketEscapedTree 1 :=
    TreesLoose.cons [] _ _ [] [] [] [] [] _ _ .null .null .null .null 1 0 0 Ws.nil n1
      TreesLoose.nil Ws.nil TreesLoose.nil
  exact ⟨bracketText, bracketEscaped, [], t1, by decide, Ws.nil, by decide, by decide⟩

end Readsgf

namespace Sgffileinput

theorem put_codes {α : Type} (f : α → Int) (l : List α) (moves : List Int)
    (h : moves.length + l.length ≤ MAXMOVES) :
    l.foldlM (fun mv j => put_code mv (f j)) moves = .ok (moves ++ l.map f) := by
  induction l generalizing moves with
  | nil => simp [pure, Except.pure]
  | cons x xs ih =>
    simp only [List.length_cons] at h
    rw [List.foldlM_cons]
    have h1 : put_code moves (f x) = .ok (moves ++ [f x]) := by
      unfold put_code
      rw [if_neg (by omega)]
    rw [h1]
    show List.foldlM _ (moves ++ [f x]) xs = _
    rw [ih _ (by simp; omega)]
    simp

theorem put_codes_full {α : Type} (f : α → Int) (l : List α) (moves : List Int)
    (h : MAXMOVES < moves.length + l.length) (h1 : moves.length ≤ MAXMOVES) :
    l.foldlM (fun mv j => put_code mv (f j)) moves = .error .too_many_moves := by
  induction l generalizing moves with
  | nil => simp at h; omega
  | cons x xs ih =>
    simp only [List.length_cons] at h
    rw [List.foldlM_cons]
    by_cases h2 : moves.length = MAXMOVES
    · have h3 : put_code moves (f x) = .error .too_many_moves := by
        unfold put_code
        rw [if_pos h2]
      rw [h3]
      rfl
    · have h3 : put_code moves (f x) = .ok (moves ++ [f x]) := by
        unfold put_code
        rw [if_neg h2]
      rw [h3]
      show List.foldlM _ (moves ++ [f x]) xs = _
      exact ih _ (by simp; omega) (by simp; omega)


theorem put_rows {α β : Type} (g : α → β → Int) (rows : List α) (cols : List β)
    (moves : List Int) (h : moves.length + rows.length * cols.length ≤ MAXMOVES) :
    rows.foldlM (fun mv i => cols.foldlM (fun mv1 j => put_code mv1 (g i j)) mv) moves
      = .ok (moves ++ rows.flatMap fun i => cols.map (g i)) := by
  induction rows generalizing moves with
  | nil => simp [pure, Except.pure]
  | cons x xs ih =>
    simp only [List.length_cons, Nat.add_mul, Nat.one_mul] at h
    rw [List.foldlM_cons, put_codes (g x) cols moves (by omega)]
    show List.foldlM _ (moves ++ cols.map (g x)) xs = _
    rw [ih _ (by simp; omega)]
    simp

theorem put_rows_full {α β : Type} (g : α → β → Int) (rows : List α) (cols : List β)
    (moves : List Int) (h : MAXMOVES < moves.length + rows.length * cols.length)
    (h1 : moves.length ≤ MAXMOVES) :
    rows.foldlM (fun mv i => cols.foldlM (fun mv1 j => put_code mv1 (g i j)) mv) moves
      = .error .too_many_moves := by
  induction rows generalizing moves with
  | nil => simp at h; omega
  | cons x xs ih =>
    simp only [List.length_cons, Nat.add_mul, Nat.one_mul] at h
    rw [List.foldlM_cons]
    by_cases h2 : moves.length + cols.length ≤ MAXMOVES
    · rw [put_codes (g x) cols moves h2]
      show List.foldlM _ (moves ++ cols.map (g x)) xs = _
      exact ih _ (by simp; omega) (by simp; omega)
    · rw [put_codes_full (g x) cols moves (by omega) h1]
      rfl

theorem intRange_length (lo hi : Int) : (intRange lo hi).length = (hi - lo + 1).toNat := by
  simp [intRange]

theorem mem_intRange (lo hi x : Int) : x ∈ intRange lo hi ↔ lo ≤ x ∧ x ≤ hi := by
  unfold intRange
  simp only [List.mem_map, List.mem_range]
  constructor
  · rintro ⟨k, hk, rfl⟩
    omega
  · intro h
    exact ⟨(x - lo).toNat, by omega, by omega⟩

theorem intRange_sorted (lo hi : Int) : (intRange lo hi).Pairwise (· < ·) := by
  unfold intRange
  rw [List.pairwise_map]
  exact (List.pairwise_lt_range _).imp (by intro a b h; omega)

theorem rectPoints_length (a b c d : Int) (h1 : a ≤ c) (h2 : b ≤ d) :
    (rectPoints a b c d).length = ((c - a + 1) * (d - b + 1)).toNat := by
  have e : (rectPoints a b c d).length = (intRange a c).length * (intRange b d).length := by
    unfold rectPoints
    generalize intRange a c = rows
    induction rows with
    | nil => simp
    | cons x xs ih => simp [List.flatMap_cons, ih, Nat.add_mul, Nat.add_comm]
  rw [e, intRange_length, intRange_length]
  obtain ⟨m, hm⟩ := Int.eq_ofNat_of_zero_le (by omega : 0 ≤ c - a + 1)
  obtain ⟨n, hn⟩ := Int.eq_ofNat_of_zero_le (by omega : 0 ≤ d - b + 1)
  rw [hm, hn, ← Nat.cast_mul, Int.toNat_ofNat, Int.toNat_ofNat, Int.toNat_ofNat]

theorem mem_rectPoints (a b c d x y : Int) :
    (x, y) ∈ rectPoints a b c d ↔ (a ≤ x ∧ x ≤ c) ∧ (b ≤ y ∧ y ≤ d) := by
  unfold rectPoints
  simp only [List.mem_flatMap, List.mem_map, Prod.mk.injEq]
  constructor
  · rintro ⟨i, hi, j, hj, rfl, rfl⟩
    exact ⟨(mem_intRange _ _ _).1 hi, (mem_intRange _ _ _).1 hj⟩
  · rintro ⟨hx, hy⟩
    exact ⟨x, (mem_intRange _ _ _).2 hx, y, (mem_intRange _ _ _).2 hy, rfl, rfl⟩

theorem rectPoints_sorted (a b c d : Int) : (rectPoints a b c d).Pairwise rowMajor := by
  unfold rectPoints
  have h := intRange_sorted a c
  generalize intRange a c = rows at h
  induction rows with
  | nil => simp
  | cons x xs ih =>
    rw [List.pairwise_cons] at h
    rw [List.flatMap_cons, List.pairwise_append]
    refine ⟨?_, ih h.2, ?_⟩
    · rw [List.pairwise_map]
      exact (intRange_sorted b d).imp (by intro i j hij; exact Or.inr ⟨rfl, hij⟩)
    · intro p hp q hq
      simp only [List.mem_map] at hp
      simp only [List.mem_flatMap, List.mem_map] at hq
      obtain ⟨j, _, rfl⟩ := hp
      obtain ⟨i, hi, j2, _, rfl⟩ := hq
      exact Or.inl (h.1 i hi)

theorem rectPoints_nodup (a b c d : Int) : (rectPoints a b c d).Nodup :=
  (rectPoints_sorted a b c d).imp (by
    intro p q h e
    subst e
    rcases h with h | ⟨_, h⟩ <;> omega)

theorem or_add (x y k : Nat) (h : y < 2 ^ k) :
    Int.lor ((x * 2 ^ k : Nat) : Int) (y : Nat) = ((x * 2 ^ k + y : Nat) : Int) := by
  show ((x * 2 ^ k ||| y : Nat) : Int) = _
  rw [Nat.mul_comm x, Nat.mul_add_lt_is_or h]

theorem pointCode_ascii (mask i j : Int) (hm : mask = BLACK_MASK ∨ mask = WHITE_MASK)
    (hi : 0 ≤ i ∧ i < 256) (hj : 0 ≤ j ∧ j < 256) :
    pointCode mask (i, j) = mask + (i * 256 + j) := by
  obtain ⟨x, rfl⟩ := Int.eq_ofNat_of_zero_le hi.1
  obtain ⟨y, rfl⟩ := Int.eq_ofNat_of_zero_le hj.1
  have hx : x < 256 := by omega
  have hy : y < 256 := by omega
  unfold pointCode
  have e1 : Int.lor ((x : Int) * 256) (y : Int) = ((x * 2 ^ 8 + y : Nat) : Int) := by
    rw [← or_add x y 8 (by omega)]
    norm_num
  simp only
  rw [e1]
  have e2 : ∀ (m z : Nat), z < 2 ^ 16 →
      Int.lor (z : Int) ((m * 2 ^ 16 : Nat) : Int) = ((m * 2 ^ 16 + z : Nat) : Int) := by
    intro m z hz
    rw [← or_add m z 16 hz]
    show ((z ||| m * 2 ^ 16 : Nat) : Int) = ((m * 2 ^ 16 ||| z : Nat) : Int)
    rw [Nat.lor_comm]
  rcases hm with e | e <;> subst e
  · have := e2 1 (x * 2 ^ 8 + y) (by omega)
    simp only [BLACK_MASK]
    norm_num at this ⊢
    exact this
  · have := e2 2 (x * 2 ^ 8 + y) (by omega)
    simp only [WHITE_MASK]
    norm_num at this ⊢
    exact this


theorem rect_ok (v : List Nat) (mask : Int) (moves : List Int) (a b c d : Nat)
    (hs : strip (cstring v) = [a, b, 58, c, d])
    (h : ¬ (schar a > schar c ∨ schar b > schar d)) :
    put_move1 (some v) mask moves =
      (intRange (schar a) (schar c)).foldlM
        (fun mv i => (intRange (schar b) (schar d)).foldlM
          (fun mv1 j => put_code mv1 (pointCode mask (i, j))) mv) moves := by
  unfold put_move1
  simp only [hs]
  rw [if_neg h]
  rfl

theorem put_move_eq (id : List Nat) (v : List Nat) (rest : List (List Nat))
    (moves : List Int) (movect : Nat) (mask : Int)
    (hid : (id.head? = some 66 ∧ mask = BLACK_MASK) ∨ (id.head? = some 87 ∧ mask = WHITE_MASK)) :
    put_move id (v :: rest) (moves, movect)
      = (put_move1 (some v) mask moves).map fun mv => (mv, movect + 1) := by
  unfold put_move
  rcases hid with ⟨h, rfl⟩ | ⟨h, rfl⟩
  · simp only [h, if_true]
    rfl
  · simp only [h]
    rfl

theorem put_move1_cases (v : List Nat) (mask : Int) (moves : List Int) :
    (strip (cstring v) = [] → put_move1 (some v) mask moves = put_code moves (Int.lor PASS mask)) ∧
    (strip (cstring v) = passText →
      put_move1 (some v) mask moves = put_code moves (Int.lor PASS mask)) ∧
    (∀ a b, strip (cstring v) = [a, b] →
      put_move1 (some v) mask moves = put_code moves (pointCode mask (schar a, schar b))) ∧
    (¬ oneEntry (strip (cstring v)) → (¬ ∃ a b c d, strip (cstring v) = [a, b, 58, c, d]) →
      put_move1 (some v) mask moves = .error (.unexpected_move (strip (cstring v)))) := by
  refine ⟨?_, ?_, ?_, ?_⟩
  · intro h
    unfold put_move1
    simp only [h]
  · intro h
    unfold put_move1
    simp only [h]
    rfl
  · intro a b h
    unfold put_move1
    simp only [h]
    rfl
  · intro h1 h2
    unfold put_move1
    simp only
    generalize strip (cstring v) = s at h1 h2 ⊢
    unfold oneEntry at h1
    split
    · exact absurd (Or.inl rfl) h1
    · exact absurd (Or.inr (Or.inl rfl)) h1
    · exact absurd ⟨_, _, _, _, rfl⟩ h2
    · exact if_neg (fun e => h1 (Or.inr (Or.inr e)))

end Sgffileinput

namespace Sgffileinput

open Readsgf (property node gametree)

theorem ebind_ok {ε α β : Type} (a : α) (f : α → Except ε β) :
    (Except.ok a : Except ε α).bind f = f a := rfl

theorem put_code_ok (moves : List Int) (m : Int) (h : moves.length < MAXMOVES) :
    put_code moves m = .ok (moves ++ [m]) := by
  unfold put_code
  rw [if_neg (by omega)]

theorem put_code_full (moves : List Int) (m : Int) (h : moves.length = MAXMOVES) :
    put_code moves m = .error .too_many_moves := by
  unfold put_code
  rw [if_pos h]

theorem valueCodes_cases (v : List Nat) (mask : Int) :
    (strip (cstring v) = [] → valueCodes mask v = .ok [Int.lor PASS mask]) ∧
    (strip (cstring v) = passText → valueCodes mask v = .ok [Int.lor PASS mask]) ∧
    (∀ a b, strip (cstring v) = [a, b] →
      valueCodes mask v = .ok [pointCode mask (schar a, schar b)]) ∧
    (∀ a b c d, strip (cstring v) = [a, b, 58, c, d] →
      valueCodes mask v =
        if schar a > schar c ∨ schar b > schar d then .error (.unexpected_range [a, b, 58, c, d])
        else .ok ((rectPoints (schar a) (schar b) (schar c) (schar d)).map (pointCode mask))) ∧
    (¬ oneEntry (strip (cstring v)) → (¬ ∃ a b c d, strip (cstring v) = [a, b, 58, c, d]) →
      valueCodes mask v = .error (.unexpected_move (strip (cstring v)))) := by
  refine ⟨?_, ?_, ?_, ?_, ?_⟩
  · intro h
    unfold valueCodes
    simp only [h]
  · intro h
    unfold valueCodes
    simp only [h]
    rfl
  · intro a b h
    unfold valueCodes
    simp only [h]
  · intro a b c d h
    unfold valueCodes
    simp only [h]
  · intro h1 h2
    unfold valueCodes
    generalize strip (cstring v) = s at h1 h2 ⊢
    unfold oneEntry at h1
    split
    · exact absurd (Or.inl rfl) h1
    · exact absurd (Or.inr (Or.inl rfl)) h1
    · exact absurd ⟨_, _, _, _, rfl⟩ h2
    · exact if_neg (fun e => h1 (Or.inr (Or.inr e)))

/-- The entries that `put_move1` adds are those of the value, when there is room for all
of them. -/
theorem put_move1_spec (v : List Nat) (mask : Int) (moves : List Int)
    (hlen : moves.length ≤ MAXMOVES) :
    put_move1 (some v) mask moves = (valueCodes mask v).bind fun cs =>
      if moves.length + cs.length ≤ MAXMOVES then .ok (moves ++ cs)
      else .error .too_many_moves := by
  have one : ∀ m, put_code moves m = (Except.ok [m] : Except MoveErr (List Int)).bind fun cs =>
      if moves.length + cs.length ≤ MAXMOVES then .ok (moves ++ cs)
      else .error .too_many_moves := by
    intro m
    rw [ebind_ok]
    by_cases h : moves.length = MAXMOVES
    · rw [put_code_full moves m h, if_neg (by simp; omega)]
    · rw [put_code_ok moves m (by omega), if_pos (by simp; omega)]
  have hp := put_move1_cases v mask moves
  have hv := valueCodes_cases v mask
  by_cases h0 : strip (cstring v) = []
  · rw [hp.1 h0, hv.1 h0]
    exact one _
  by_cases h1 : strip (cstring v) = passText
  · rw [hp.2.1 h1, hv.2.1 h1]
    exact one _
  by_cases h2 : (strip (cstring v)).length = 2
  · obtain ⟨a, b, e⟩ := List.length_eq_two.mp h2
    rw [hp.2.2.1 a b e, hv.2.2.1 a b e]
    exact one _
  by_cases h5 : ∃ a b c d, strip (cstring v) = [a, b, 58, c, d]
  · obtain ⟨a, b, c, d, e⟩ := h5
    rw [hv.2.2.2.1 a b c d e]
    by_cases hr : schar a > schar c ∨ schar b > schar d
    · rw [if_pos hr]
      unfold put_move1
      simp only [e]
      rw [if_pos hr]
      rfl
    · rw [if_neg hr, ebind_ok, rect_ok v mask moves a b c d e hr]
      have hl := rectPoints_length (schar a) (schar b) (schar c) (schar d) (by omega) (by omega)
      have hrows : (intRange (schar a) (schar c)).length * (intRange (schar b) (schar d)).length
          = (rectPoints (schar a) (schar b) (schar c) (schar d)).length := by
        rw [hl, intRange_length, intRange_length]
        obtain ⟨m, hm⟩ := Int.eq_ofNat_of_zero_le (by omega : 0 ≤ schar c - schar a + 1)
        obtain ⟨n, hn⟩ := Int.eq_ofNat_of_zero_le (by omega : 0 ≤ schar d - schar b + 1)
        rw [hm, hn, ← Nat.cast_mul, Int.toNat_ofNat, Int.toNat_ofNat, Int.toNat_ofNat]
      by_cases hroom : moves.length +
          (rectPoints (schar a) (schar b) (schar c) (schar d)).length ≤ MAXMOVES
      · rw [if_pos (by simpa using hroom),
          put_rows _ _ _ _ (by rw [hrows]; exact hroom)]
        unfold rectPoints
        simp only [List.map_flatMap, List.map_map]
        rfl
      · rw [if_neg (by simpa using hroom),
          put_rows_full _ _ _ _ (by rw [hrows]; omega) hlen]
  · have hn : ¬ oneEntry (strip (cstring v)) := by
      unfold oneEntry
      rintro (h | h | h)
      · exact h0 h
      · exact h2 h
      · exact h1 h
    rw [hp.2.2.2 hn h5, hv.2.2.2.2 hn h5]
    rfl

theorem put_values_nil (moves : List Int) : put_values [] moves = .ok moves := rfl

theorem put_values_cons (x : Int × List Nat) (xs : List (Int × List Nat)) (moves : List Int) :
    put_values (x :: xs) moves = (put_move1 (some x.2) x.1 moves).bind (put_values xs) := by
  unfold put_values
  rw [List.foldlM_cons]
  rfl

theorem put_values_append (l1 l2 : List (Int × List Nat)) (moves : List Int) :
    put_values (l1 ++ l2) moves = (put_values l1 moves).bind (put_values l2) := by
  unfold put_values
  rw [List.foldlM_append]
  rfl

theorem put_setup_values_eq (mask : Int) (vals : List (List Nat)) (moves : List Int) :
    put_setup_values mask vals moves = put_values (vals.map fun v => (mask, v)) moves := by
  unfold put_setup_values put_values
  induction vals generalizing moves with
  | nil => rfl
  | cons v vs ih =>
    rw [List.map_cons, List.foldlM_cons, List.foldlM_cons]
    show (put_move1 (some v) mask moves).bind _ = (put_move1 (some v) mask moves).bind _
    cases put_move1 (some v) mask moves with
    | error e => rfl
    | ok mv => exact ih mv

/-- The loop succeeds exactly when every value is well formed and the array has room
for all the entries; it appends them in order. -/
theorem put_values_ok_iff (l : List (Int × List Nat)) :
    ∀ (moves r : List Int), moves.length ≤ MAXMOVES →
      (put_values l moves = .ok r ↔
        ∃ cs, allCodes l = some cs ∧ moves.length + cs.length ≤ MAXMOVES ∧ r = moves ++ cs) := by
  induction l with
  | nil =>
    intro moves r _
    rw [put_values_nil]
    constructor
    · intro h
      injection h with h
      exact ⟨[], rfl, by simpa, by simp [h]⟩
    · rintro ⟨cs, h1, _, h3⟩
      injection h1 with h1
      rw [h3, ← h1, List.append_nil]
  | cons x xs ih =>
    intro moves r hlen
    rw [put_values_cons, put_move1_spec x.2 x.1 moves hlen]
    unfold allCodes
    cases hv : valueCodes x.1 x.2 with
    | error e =>
      constructor
      · intro h
        cases h
      · rintro ⟨cs, h1, _, _⟩
        cases h1
    | ok c =>
      rw [ebind_ok]
      by_cases hroom : moves.length + c.length ≤ MAXMOVES
      · rw [if_pos hroom, ebind_ok, ih (moves ++ c) r (by simpa using hroom)]
        constructor
        · rintro ⟨cs, h1, h2, h3⟩
          refine ⟨c ++ cs, ?_, ?_, ?_⟩
          · rw [h1]
          · simp at h2 ⊢
            omega
          · rw [h3, List.append_assoc]
        · rintro ⟨cs, h1, h2, h3⟩
          cases ha : allCodes xs with
          | none =>
            rw [ha] at h1
            cases h1
          | some cs1 =>
            rw [ha] at h1
            injection h1 with h1
            subst h1
            refine ⟨cs1, rfl, ?_, ?_⟩
            · simp at h2 ⊢
              omega
            · rw [h3, List.append_assoc]
      · rw [if_neg hroom]
        constructor
        · intro h
          cases h
        · rintro ⟨cs, h1, h2, _⟩
          exfalso
          cases ha : allCodes xs with
          | none =>
            rw [ha] at h1
            cases h1
          | some cs1 =>
            rw [ha] at h1
            injection h1 with h1
            subst h1
            simp at h2
            omega

/-- The entries of a reordered list of values are the same entries, reordered. -/
theorem allCodes_perm {l1 l2 : List (Int × List Nat)} (h : l1.Perm l2) :
    ∀ c1, allCodes l1 = some c1 → ∃ c2, allCodes l2 = some c2 ∧ c1.Perm c2 := by
  induction h with
  | nil =>
    intro c1 h
    exact ⟨c1, h, List.Perm.refl _⟩
  | cons x _ ih =>
    intro c1 h
    unfold allCodes at h ⊢
    cases hv : valueCodes x.1 x.2 with
    | error e =>
      rw [hv] at h
      cases h
    | ok c =>
      rw [hv] at h
      rename_i la lb _
      cases ha : allCodes la with
      | none =>
        rw [ha] at h
        cases h
      | some cs =>
        rw [ha] at h
        injection h with h
        obtain ⟨c2, h2, h3⟩ := ih cs ha
        rw [h2]
        exact ⟨c ++ c2, rfl, by rw [← h]; exact List.Perm.append_left c h3⟩
  | swap x y l =>
    intro c1 h
    unfold allCodes at h ⊢
    unfold allCodes at h ⊢
    cases hx : valueCodes x.1 x.2 with
    | error e =>
      rw [hx] at h
      cases hy : valueCodes y.1 y.2 <;> rw [hy] at h <;> cases hl : allCodes l <;>
        rw [hl] at h <;> cases h
    | ok cx =>
      rw [hx] at h
      cases hy : valueCodes y.1 y.2 with
      | error e =>
        rw [hy] at h
        cases h
      | ok cy =>
        rw [hy] at h
        cases hl : allCodes l with
        | none =>
          rw [hl] at h
          cases h
        | some cs =>
          rw [hl] at h
          injection h with h
          refine ⟨cx ++ (cy ++ cs), rfl, ?_⟩
          rw [← h, ← List.append_assoc, ← List.append_assoc]
          exact List.Perm.append_right cs List.perm_append_comm
  | trans _ _ ih1 ih2 =>
    intro c1 h
    obtain ⟨c2, h2, h3⟩ := ih1 c1 h
    obtain ⟨c3, h4, h5⟩ := ih2 c2 h2
    exact ⟨c3, h4, h3.trans h5⟩

theorem compar_le : (fun a b : Int => compar_int a b ≤ 0) = (fun a b => a ≤ b) := by
  funext a b
  unfold compar_int
  exact propext (by omega)

theorem sort_sorted (m : List Int) : (sort_initial_stones m).Sorted (· ≤ ·) := by
  unfold sort_initial_stones
  have h := List.sorted_insertionSort (fun a b : Int => a ≤ b) m
  convert h using 2
  exact compar_le

theorem sort_perm (m : List Int) : (sort_initial_stones m).Perm m :=
  List.perm_insertionSort _ m

theorem sort_eq_of_perm {m1 m2 : List Int} (h : m1.Perm m2) :
    sort_initial_stones m1 = sort_initial_stones m2 :=
  List.eq_of_perm_of_sorted ((sort_perm m1).trans (h.trans (sort_perm m2).symm))
    (sort_sorted m1) (sort_sorted m2)

theorem sort_length (m : List Int) : (sort_initial_stones m).length = m.length :=
  (sort_perm m).length_eq

theorem maskCount_append (mask : Int) (l1 l2 : List (Int × List Nat)) :
    maskCount mask (l1 ++ l2) = maskCount mask l1 + maskCount mask l2 := by
  unfold maskCount
  rw [List.filter_append, List.length_append]

theorem maskCount_map_same (mask : Int) (vals : List (List Nat)) :
    maskCount mask (vals.map fun v => (mask, v)) = vals.length := by
  unfold maskCount
  induction vals with
  | nil => rfl
  | cons v vs ih => simp [List.filter_cons, ih]

theorem maskCount_map_other (mask m2 : Int) (h : m2 ≠ mask) (vals : List (List Nat)) :
    maskCount mask (vals.map fun v => (m2, v)) = 0 := by
  unfold maskCount
  induction vals with
  | nil => rfl
  | cons v vs ih => simp [List.filter_cons, h]

theorem maskCount_perm (mask : Int) {l1 l2 : List (Int × List Nat)} (h : l1.Perm l2) :
    maskCount mask l1 = maskCount mask l2 :=
  (h.filter _).length_eq

theorem ebind_assoc {ε α β γ : Type} (x : Except ε α) (f : α → Except ε β)
    (g : β → Except ε γ) : (x.bind f).bind g = x.bind fun a => (f a).bind g := by
  cases x <;> rfl

/-- The loop of `get_setup_stones` is the loop of `put_move1` over the setup values of
the node; `abct` and `awct` count the values of each colour. -/
theorem get_setup_stones_eq (ps : List property) :
    ∀ (moves : List Int) (a b : Nat),
      get_setup_stones ps (moves, a, b) = (put_values (setup_values ps) moves).bind fun mv =>
        .ok (mv, a + maskCount BLACK_MASK (setup_values ps),
          b + maskCount WHITE_MASK (setup_values ps)) := by
  induction ps with
  | nil =>
    intro moves a b
    rfl
  | cons p ps ih =>
    intro moves a b
    unfold get_setup_stones setup_values
    by_cases h1 : cstring p.id = [65, 66]
    · rw [if_pos h1, if_pos h1, put_setup_values_eq, put_values_append, ebind_assoc]
      congr 1
      funext mv
      rw [ih, maskCount_append, maskCount_append, maskCount_map_same,
        maskCount_map_other WHITE_MASK BLACK_MASK (by decide), Nat.add_assoc, Nat.zero_add]
    · rw [if_neg h1, if_neg h1]
      by_cases h2 : cstring p.id = [65, 87]
      · rw [if_pos h2, if_pos h2, put_setup_values_eq, put_values_append, ebind_assoc]
        congr 1
        funext mv
        rw [ih, maskCount_append, maskCount_append, maskCount_map_same,
          maskCount_map_other BLACK_MASK WHITE_MASK (by decide), Nat.add_assoc, Nat.zero_add]
      · rw [if_neg h2, if_neg h2]
        exact ih moves a b

/-- The result of `get_initial_stones`: it succeeds exactly when the setup values are
well formed and the array has room for their entries, and leaves them sorted. -/
theorem get_initial_stones_iff (root : node) (st s : Extract) (hlen : st.moves.length ≤ MAXMOVES) :
    get_initial_stones root st = .ok s ↔
      ∃ cs, allCodes (setup_values root.p) = some cs ∧
        st.moves.length + cs.length ≤ MAXMOVES ∧
        s = { st with
          moves := sort_initial_stones (st.moves ++ cs)
          initct := (st.moves ++ cs).length
          handct := handicap (setup_values root.p) } := by
  unfold get_initial_stones
  rw [get_setup_stones_eq]
  constructor
  · intro h
    cases hp : put_values (setup_values root.p) st.moves with
    | error e =>
      rw [hp] at h
      cases h
    | ok mv =>
      rw [hp] at h
      obtain ⟨cs, h1, h2, h3⟩ := (put_values_ok_iff _ _ _ hlen).1 hp
      refine ⟨cs, h1, h2, ?_⟩
      simp only [ebind_ok, liftMove] at h
      injection h with h
      rw [← h, h3]
      simp [handicap]
  · rintro ⟨cs, h1, h2, h3⟩
    have hp := (put_values_ok_iff _ _ _ hlen).2 ⟨cs, h1, h2, rfl⟩
    rw [hp, h3]
    simp [ebind_ok, liftMove, handicap]

theorem tag_mono {a b : Int} (h : a ≤ b) : tag a ≤ tag b := by
  unfold tag
  exact Int.ediv_le_ediv (by decide) h

theorem valueCodes_one (mask : Int) (v : List Nat) (h : oneEntry (strip (cstring v))) :
    valueCodes mask v = .ok [valueCode mask v] := by
  have hv := valueCodes_cases v mask
  rcases h with h | h | h
  · rw [hv.1 h]
    unfold valueCode
    rw [h]
  · obtain ⟨a, b, e⟩ := List.length_eq_two.mp h
    rw [hv.2.2.1 a b e]
    unfold valueCode
    rw [e]
  · rw [hv.2.1 h]
    unfold valueCode
    rw [h]
    rfl

theorem allCodes_one (l : List (Int × List Nat))
    (h : ∀ x ∈ l, oneEntry (strip (cstring x.2))) : allCodes l = some (codes l) := by
  induction l with
  | nil => rfl
  | cons x xs ih =>
    unfold allCodes
    rw [valueCodes_one x.1 x.2 (h x (List.mem_cons_self _ _)),
      ih fun y hy => h y (List.mem_cons_of_mem _ hy)]
    rfl

theorem put_move1_one (mask : Int) (v : List Nat) (moves : List Int)
    (h : oneEntry (strip (cstring v))) (hlen : moves.length < MAXMOVES) :
    put_move1 (some v) mask moves = .ok (moves ++ [valueCode mask v]) := by
  rw [put_move1_spec v mask moves (by omega), valueCodes_one mask v h, ebind_ok,
    if_pos (by simp; omega)]

theorem head_of_cstring {l : List Nat} {c : Nat} (h : cstring l = [c]) : l.head? = some c := by
  unfold cstring at h
  cases l with
  | nil => cases h
  | cons x xs =>
    rw [List.takeWhile_cons] at h
    split at h
    · injection h with h1 _
      rw [h1]
      rfl
    · cases h

/-- The properties of a node: every `B` or `W` with a single value adds its entry. -/
theorem put_properties_ok (ps : List property) :
    ∀ (st : Extract), (∀ p ∈ ps, p.val ≠ []) →
      (∀ x ∈ move_values ps, oneEntry (strip (cstring x.2))) →
      st.moves.length + (move_values ps).length ≤ MAXMOVES →
      put_properties ps st = .ok { st with
        moves := st.moves ++ codes (move_values ps)
        movect := st.movect + (move_values ps).length } := by
  induction ps with
  | nil =>
    intro st _ _ _
    unfold put_properties move_values codes
    simp
  | cons p ps ih =>
    intro st hval hone hroom
    have hv := hval p (List.mem_cons_self _ _)
    have hval2 : ∀ q ∈ ps, q.val ≠ [] := fun q hq => hval q (List.mem_cons_of_mem _ hq)
    unfold put_properties
    cases hpv : p.val with
    | nil => exact absurd hpv hv
    | cons v vs =>
      cases vs with
      | nil =>
        have hm : ∀ (mask : Int), (p.id.head? = some 66 ∧ mask = BLACK_MASK) ∨
            (p.id.head? = some 87 ∧ mask = WHITE_MASK) →
            (cstring p.id = [66] ∨ cstring p.id = [87]) →
            move_values (p :: ps) = (mask, v) :: move_values ps →
            (is_move p).bind (fun b =>
              if b = true then
                (liftMove (put_move p.id [v] (st.moves, st.movect))).bind fun r =>
                  put_properties ps { st with moves := r.1, movect := r.2 }
              else put_properties ps st) = .ok { st with
                moves := st.moves ++ codes (move_values (p :: ps))
                movect := st.movect + (move_values (p :: ps)).length } := by
          intro mask hid hc hmv
          rw [hmv] at hone hroom ⊢
          have h1 := hone (mask, v) (List.mem_cons_self _ _)
          simp only [List.length_cons] at hroom
          have hb : is_move p = .ok true := by
            unfold is_move
            rw [hpv]
            rcases hc with e1 | e1 <;> simp [e1]
          rw [hb, ebind_ok]
          simp only [if_true]
          rw [put_move_eq p.id v [] st.moves st.movect mask hid,
            put_move1_one mask v st.moves h1 (by omega)]
          simp only [Except.map, liftMove, ebind_ok]
          rw [ih _ hval2 (fun x hx => hone x (List.mem_cons_of_mem _ hx))
            (by simp; omega)]
          simp [codes, Nat.add_assoc, Nat.add_comm]
        by_cases hB : cstring p.id = [66]
        · refine hm BLACK_MASK (Or.inl ⟨head_of_cstring hB, rfl⟩) (Or.inl hB) ?_
          conv_lhs => unfold move_values
          rw [hpv]
          simp only [hB, if_true]
        · by_cases hW : cstring p.id = [87]
          · refine hm WHITE_MASK (Or.inr ⟨head_of_cstring hW, rfl⟩) (Or.inr hW) ?_
            conv_lhs => unfold move_values
            rw [hpv]
            simp only [hB, hW, if_true, if_false]
            rw [if_neg (by decide)]
          · have hmv : move_values (p :: ps) = move_values ps := by
              conv_lhs => unfold move_values
              rw [hpv]
              simp only [hB, hW, if_false]
            have hb : is_move p = .ok false := by
              unfold is_move
              rw [hpv]
              simp [hB, hW]
            rw [hb, ebind_ok, hmv]
            rw [hmv] at hone hroom
            simp only [Bool.false_eq_true, if_false]
            exact ih st hval2 hone hroom
      | cons v2 vs2 =>
        have hmv : move_values (p :: ps) = move_values ps := by
          conv_lhs => unfold move_values
          rw [hpv]
        have hb : is_move p = .ok false := by
          unfold is_move
          rw [hpv]
        rw [hb, ebind_ok, hmv]
        rw [hmv] at hone hroom
        simp only [Bool.false_eq_true, if_false]
        exact ih st hval2 hone hroom

theorem line_moves_cons (n : node) (ns : List node) :
    line_moves (n :: ns) = move_values n.p ++ line_moves ns := by
  unfold line_moves
  rw [List.flatMap_cons]

theorem line_moves_append (a b : List node) :
    line_moves (a ++ b) = line_moves a ++ line_moves b := by
  unfold line_moves
  rw [List.flatMap_append]

/-- The nodes of a sequence: every single-valued `B` or `W` adds its entry, in order. -/
theorem put_nodesequence_ok (ns : List node) :
    ∀ (st : Extract), (∀ n ∈ ns, ∀ p ∈ n.p, p.val ≠ []) →
      (∀ x ∈ line_moves ns, oneEntry (strip (cstring x.2))) →
      st.moves.length + (line_moves ns).length ≤ MAXMOVES →
      put_nodesequence ns st = .ok { st with
        moves := st.moves ++ codes (line_moves ns)
        movect := st.movect + (line_moves ns).length } := by
  induction ns with
  | nil =>
    intro st _ _ _
    unfold put_nodesequence line_moves codes
    simp
  | cons n ns ih =>
    intro st hval hone hroom
    rw [line_moves_cons] at hone hroom ⊢
    rw [List.length_append] at hroom
    unfold put_nodesequence
    rw [put_properties_ok n.p st (hval n (List.mem_cons_self _ _))
      (fun x hx => hone x (List.mem_append_left _ hx)) (by omega), ebind_ok,
      ih _ (fun m hm => hval m (List.mem_cons_of_mem _ hm))
        (fun x hx => hone x (List.mem_append_right _ hx)) (by simp [codes]; omega)]
    simp [codes, Nat.add_assoc]

/-- While `skipping` is set, `put_gametree_sequence` does nothing. -/
theorem put_gametree_sequence_skip (g : gametree) :
    ∀ (st : Extract), st.skipping = true → put_gametree_sequence g st = .ok st := by
  induction g with
  | null =>
    intro st _
    rfl
  | tree ns fc sib _ ih =>
    intro st h
    unfold put_gametree_sequence
    rw [if_pos h, ebind_ok]
    exact ih st h

/-- Below the top level, the walk over the children of a tree takes the first child,
then its first child, and so on, and skips every other child. -/
theorem walk_children (fc : gametree) :
    ∀ (st : Extract), st.skipping = false → 1 ≤ st.gtlevel →
      (∀ n ∈ mainline fc, ∀ p ∈ n.p, p.val ≠ []) →
      (∀ x ∈ line_moves (mainline fc), oneEntry (strip (cstring x.2))) →
      st.moves.length + (line_moves (mainline fc)).length ≤ MAXMOVES →
      put_gametree_sequence fc st = .ok { st with
        moves := st.moves ++ codes (line_moves (mainline fc))
        movect := st.movect + (line_moves (mainline fc)).length
        skipping := decide (fc ≠ .null) } := by
  induction fc with
  | null =>
    intro st hs _ _ _ _
    unfold put_gametree_sequence mainline line_moves codes
    obtain ⟨a, b, c, d, e, f, g, h, i⟩ := st
    simp only at hs
    simp [hs]
  | tree ns fc sib ihc _ =>
    intro st hs hl hval hone hroom
    have hm : mainline (.tree ns fc sib) = ns ++ mainline fc := rfl
    rw [hm, line_moves_append] at hone hroom ⊢
    rw [List.length_append] at hroom
    have hval1 : ∀ n ∈ ns, ∀ p ∈ n.p, p.val ≠ [] := fun n hn =>
      hval n (by rw [hm]; exact List.mem_append_left _ hn)
    have hval2 : ∀ n ∈ mainline fc, ∀ p ∈ n.p, p.val ≠ [] := fun n hn =>
      hval n (by rw [hm]; exact List.mem_append_right _ hn)
    have hinit : init_if_top ns { st with gtlevel := st.gtlevel + 1 }
        = .ok { st with gtlevel := st.gtlevel + 1 } := by
      unfold init_if_top
      cases ns with
      | nil => rfl
      | cons root rest =>
        simp only
        rw [if_neg (by omega)]
    have e1 : put_nodesequence ns { st with gtlevel := st.gtlevel + 1 }
        = .ok { st with
            gtlevel := st.gtlevel + 1
            moves := st.moves ++ codes (line_moves ns)
            movect := st.movect + (line_moves ns).length } :=
      put_nodesequence_ok ns _ hval1 (fun x hx => hone x (List.mem_append_left _ hx))
        (by simp only; omega)
    have e2 : put_gametree_sequence fc { st with
            gtlevel := st.gtlevel + 1
            moves := st.moves ++ codes (line_moves ns)
            movect := st.movect + (line_moves ns).length }
        = .ok { st with
            gtlevel := st.gtlevel + 1
            moves := (st.moves ++ codes (line_moves ns)) ++ codes (line_moves (mainline fc))
            movect := st.movect + (line_moves ns).length + (line_moves (mainline fc)).length
            skipping := decide (fc ≠ .null) } :=
      ihc _ hs (by simp only; omega) hval2 (fun x hx => hone x (List.mem_append_right _ hx))
        (by simp [codes]; omega)
    unfold put_gametree_sequence
    rw [if_neg (by rw [hs]; decide)]
    unfold put_gametree_with
    rw [hinit, ebind_ok, e1, ebind_ok, e2, ebind_ok]
    simp only
    rw [if_neg (by omega), ebind_ok, put_gametree_sequence_skip sib _ (by
      simp only [decide_eq_true_eq]
      omega)]
    simp [codes, Nat.add_assoc]
    omega

theorem codes_length (l : List (Int × List Nat)) : (codes l).length = l.length := by
  unfold codes
  rw [List.length_map]

theorem schar_ascii {b : Nat} (h : b < 128) : schar b = (b : Int) := by
  unfold schar
  have e : b % 256 = b := Nat.mod_eq_of_lt (by omega)
  rw [e, if_pos h]

theorem strip_subset (l : List Nat) : ∀ b ∈ strip (cstring l), b ∈ l := by
  intro b hb
  unfold strip at hb
  rw [List.mem_reverse] at hb
  have h1 := (List.dropWhile_sublist isBlank).subset hb
  rw [List.mem_reverse] at h1
  have h2 := (List.dropWhile_sublist isBlank).subset h1
  unfold cstring at h2
  exact (List.takeWhile_sublist _).subset h2

theorem pass_code (mask : Int) (hm : mask = BLACK_MASK ∨ mask = WHITE_MASK) :
    mask ≤ Int.lor PASS mask ∧ Int.lor PASS mask < mask + 65536 := by
  rcases hm with e | e <;> subst e <;> decide

/-- The entries of a value whose bytes are below 128 hold the mask: they lie between
the mask and the mask plus 65535. -/
theorem valueCodes_bound (mask : Int) (hm : mask = BLACK_MASK ∨ mask = WHITE_MASK)
    (v : List Nat) (hv : ∀ b ∈ v, b < 128) (c : List Int) (h : valueCodes mask v = .ok c) :
    ∀ m ∈ c, mask ≤ m ∧ m < mask + 65536 := by
  have hs := strip_subset v
  unfold valueCodes at h
  generalize strip (cstring v) = s at h hs
  have point : ∀ i j : Int, 0 ≤ i ∧ i < 128 → 0 ≤ j ∧ j < 128 →
      mask ≤ pointCode mask (i, j) ∧ pointCode mask (i, j) < mask + 65536 := by
    intro i j hi hj
    rw [pointCode_ascii mask i j hm ⟨hi.1, by omega⟩ ⟨hj.1, by omega⟩]
    omega
  have sc : ∀ b ∈ s, 0 ≤ schar b ∧ schar b < 128 := by
    intro b hb
    have := hv b (hs b hb)
    rw [schar_ascii this]
    omega
  split at h
  · injection h with h
    subst h
    intro m hm1
    rw [List.mem_singleton] at hm1
    subst hm1
    exact pass_code mask hm
  · injection h with h
    subst h
    intro m hm1
    rw [List.mem_singleton] at hm1
    subst hm1
    exact point _ _ (sc _ (by simp)) (sc _ (by simp))
  · split at h
    · cases h
    · injection h with h
      subst h
      intro m hm1
      rw [List.mem_map] at hm1
      obtain ⟨⟨i, j⟩, hp, rfl⟩ := hm1
      rw [mem_rectPoints] at hp
      have ha := sc _ (show _ ∈ _ from List.mem_cons_self _ _)
      have hb := sc _ (show _ ∈ _ from List.mem_cons_of_mem _ (List.mem_cons_self _ _))
      rename_i a b c d _
      have hc := sc c (by simp)
      have hd := sc d (by simp)
      exact point i j ⟨by omega, by omega⟩ ⟨by omega, by omega⟩
  · split at h
    · injection h with h
      subst h
      intro m hm1
      rw [List.mem_singleton] at hm1
      subst hm1
      exact pass_code mask hm
    · cases h

theorem allCodes_cons_some {x : Int × List Nat} {xs : List (Int × List Nat)} {cs : List Int}
    (h : allCodes (x :: xs) = some cs) :
    ∃ c c1, valueCodes x.1 x.2 = .ok c ∧ allCodes xs = some c1 ∧ cs = c ++ c1 := by
  unfold allCodes at h
  split at h
  · rename_i c c1 e1 e2
    injection h with h
    exact ⟨c, c1, e1, e2, h.symm⟩
  · cases h

theorem allCodes_cons_of {x : Int × List Nat} {xs : List (Int × List Nat)} {c c1 : List Int}
    (h1 : valueCodes x.1 x.2 = .ok c) (h2 : allCodes xs = some c1) :
    allCodes (x :: xs) = some (c ++ c1) := by
  unfold allCodes
  rw [h1, h2]

/-- The entries of a list of values with one mask, all with bytes below 128. -/
theorem allCodes_bound (mask : Int) (hm : mask = BLACK_MASK ∨ mask = WHITE_MASK) :
    ∀ (l : List (Int × List Nat)) (cs : List Int), allCodes l = some cs →
      (∀ x ∈ l, x.1 = mask ∧ ∀ b ∈ x.2, b < 128) → ∀ m ∈ cs, mask ≤ m ∧ m < mask + 65536 := by
  intro l
  induction l with
  | nil =>
    intro cs h _ m hm1
    injection h with h
    subst h
    cases hm1
  | cons x xs ih =>
    intro cs h hl m hm1
    obtain ⟨c, c1, e1, e2, rfl⟩ := allCodes_cons_some h
    rw [List.mem_append] at hm1
    rcases hm1 with k | k
    · have hx := hl x (List.mem_cons_self _ _)
      rw [hx.1] at e1
      exact valueCodes_bound mask hm x.2 hx.2 c e1 m k
    · exact ih c1 e2 (fun y hy => hl y (List.mem_cons_of_mem _ hy)) m k

/-- The entries of a list of values are those of its Black values and those of its White
values. -/
theorem allCodes_colours : ∀ (l : List (Int × List Nat)) (cs : List Int),
    allCodes l = some cs → (∀ x ∈ l, x.1 = BLACK_MASK ∨ x.1 = WHITE_MASK) →
    ∃ cb cw, allCodes (blackValues l) = some cb ∧ allCodes (whiteValues l) = some cw ∧
      cs.Perm (cb ++ cw) := by
  intro l
  induction l with
  | nil =>
    intro cs h _
    injection h with h
    subst h
    exact ⟨[], [], rfl, rfl, List.Perm.refl _⟩
  | cons x xs ih =>
    intro cs h hl
    obtain ⟨c, c1, e1, e2, rfl⟩ := allCodes_cons_some h
    obtain ⟨cb, cw, f1, f2, f3⟩ := ih c1 e2 (fun y hy => hl y (List.mem_cons_of_mem _ hy))
    rcases hl x (List.mem_cons_self _ _) with hx | hx
    · refine ⟨c ++ cb, cw, ?_, ?_, ?_⟩
      · unfold blackValues
        rw [List.filter_cons_of_pos (by simpa using hx)]
        exact allCodes_cons_of e1 f1
      · unfold whiteValues
        rw [List.filter_cons_of_neg (by rw [hx]; decide)]
        exact f2
      · rw [List.append_assoc]
        exact List.Perm.append_left c f3
    · refine ⟨cb, c ++ cw, ?_, ?_, ?_⟩
      · unfold blackValues
        rw [List.filter_cons_of_neg (by rw [hx]; decide)]
        exact f1
      · unfold whiteValues
        rw [List.filter_cons_of_pos (by simpa using hx)]
        exact allCodes_cons_of e1 f2
      · exact (List.Perm.append_left c f3).trans (List.perm_append_comm_assoc c cb cw)

theorem setup_values_masks (ps : List property) :
    ∀ x ∈ setup_values ps, x.1 = BLACK_MASK ∨ x.1 = WHITE_MASK := by
  induction ps with
  | nil => intro x hx; cases hx
  | cons p ps ih =>
    intro x hx
    unfold setup_values at hx
    split at hx
    · rw [List.mem_append] at hx
      rcases hx with k | k
      · rw [List.mem_map] at k
        obtain ⟨v, _, rfl⟩ := k
        exact Or.inl rfl
      · exact ih x k
    · split at hx
      · rw [List.mem_append] at hx
        rcases hx with k | k
        · rw [List.mem_map] at k
          obtain ⟨v, _, rfl⟩ := k
          exact Or.inr rfl
        · exact ih x k
      · exact ih x hx

/-- Sorting a list all of whose entries are below those of a second list, followed by
the second list, sorts the two parts. -/
theorem sort_append (cb cw : List Int) (h : ∀ a ∈ cb, ∀ b ∈ cw, a ≤ b) :
    sort_initial_stones (cb ++ cw) = sort_initial_stones cb ++ sort_initial_stones cw := by
  refine List.eq_of_perm_of_sorted ?_ (sort_sorted _) ?_
  · exact (sort_perm _).trans (((sort_perm cb).append (sort_perm cw)).symm)
  · unfold List.Sorted
    rw [List.pairwise_append]
    refine ⟨sort_sorted cb, sort_sorted cw, ?_⟩
    intro a ha b hb
    exact h a ((sort_perm cb).subset ha) b ((sort_perm cw).subset hb)

end Sgffileinput

namespace Readsgf


theorem nextSym_none {t : List Nat} (h : nextSym t = none) : Ws t := by
  induction t with
  | nil => exact Ws.nil
  | cons c t ih =>
    unfold nextSym at h
    by_cases hc : iswhitespace c = true
    · rw [if_pos hc] at h
      exact Ws.cons hc (ih h)
    · rw [if_neg hc] at h
      cases h

theorem nextSym_some {t : List Nat} {c : Nat} {r : List Nat} (h : nextSym t = some (c, r)) :
    ∃ w, Ws w ∧ iswhitespace c = false ∧ t = w ++ c :: r := by
  induction t with
  | nil => cases h
  | cons x t ih =>
    unfold nextSym at h
    by_cases hc : iswhitespace x = true
    · rw [if_pos hc] at h
      obtain ⟨w, hw, h1, h2⟩ := ih h
      exact ⟨x :: w, Ws.cons hc hw, h1, by rw [h2]; rfl⟩
    · rw [if_neg hc] at h
      injection h with h
      injection h with h1 h2
      subst h1; subst h2
      exact ⟨[], Ws.nil, by simpa using hc, rfl⟩

theorem nextSym_ws {w : List Nat} (hw : Ws w) (t : List Nat) : nextSym (w ++ t) = nextSym t := by
  induction w with
  | nil => rfl
  | cons c w ih =>
    rw [List.cons_append, nextSym, if_pos hw.head, ih hw.tail]

theorem nextSym_length {t : List Nat} {c : Nat} {r : List Nat} (h : nextSym t = some (c, r)) :
    r.length < t.length := by
  obtain ⟨w, _, _, e⟩ := nextSym_some h
  rw [e]; simp; omega

/-- The reader's `mygetsym` at a state with nothing pending takes the first symbol. -/
theorem mygetsym_fresh (t : List Nat) (k : Nat) :
    mygetsym (fresh t k) =
      .ok (match nextSym t with
        | some (c, r) => (c, fresh r k)
        | none => (0, ended k)) := by
  cases h : nextSym t with
  | none =>
    exact mygetsym_end (Rep.of_buf t k) (nextSym_none h)
  | some a =>
    obtain ⟨c, r⟩ := a
    obtain ⟨w, hw, hc, e⟩ := nextSym_some h
    subst e
    exact mygetsym_next (Rep.of_buf _ k) hw hc

theorem gameStart_ws {w : List Nat} (hw : Ws w) (t : List Nat) :
    gameStart (w ++ t) = gameStart t := by
  induction w with
  | nil => rfl
  | cons c w ih =>
    have hc : c ≠ 40 := by
      intro e
      have := hw.head
      rw [e] at this
      exact absurd this (by decide)
    rw [List.cons_append, gameStart, if_neg hc, ih hw.tail]

theorem gameStart_none_of_ws {t : List Nat} (hw : Ws t) : gameStart t = none := by
  have := gameStart_ws hw []
  rw [List.append_nil] at this
  rw [this]; rfl

theorem gameStart_skip {c : Nat} (hc : c ≠ 40) (t : List Nat) :
    gameStart (c :: t) = gameStart t := by
  rw [gameStart, if_neg hc]

/-- After a symbol has been put into `peekc` the garbage loop goes on as if the symbol
were still in the buffer. -/
theorem skip_initial_garbage_peek (n : Nat) (d : Nat) (r : List Nat) (k : Nat)
    (hd : iswhitespace d = false) (hz : d ≠ 0) :
    skip_initial_garbage n { buf := r, peekc := d, eof := false, warned := k }
      = skip_initial_garbage n (fresh (d :: r) k) := by
  cases n with
  | zero => rfl
  | succ n =>
    unfold skip_initial_garbage
    have h1 := mygetsym_peek r hd hz k
    have h2 := mygetsym_next (w := []) (Rep.of_buf (d :: r) k) Ws.nil hd
    simp only [List.nil_append] at h2
    simp only [fresh, Bool.false_eq_true, if_false]
    rw [h1, h2]

theorem skip_initial_garbage_ended (n : Nat) (k : Nat) :
    skip_initial_garbage (n + 1) (ended k) = .ok (ended k) := by
  unfold skip_initial_garbage
  simp [ended]

/-- The garbage loop leaves the input at the text that `gameStart` gives, or at the end
of the file. -/
theorem skip_initial_garbage_eq (n : Nat) :
    ∀ (t : List Nat) (k : Nat), t.length + 1 < n →
      skip_initial_garbage n (fresh t k) =
        .ok (match gameStart t with
          | some s => fresh s k
          | none => ended k) := by
  induction n with
  | zero => intro t k h; omega
  | succ n ih =>
    intro t k hlen
    unfold skip_initial_garbage
    rw [if_neg (by simp [fresh]), mygetsym_fresh]
    cases h : nextSym t with
    | none =>
      rw [bind_ok]
      simp only
      rw [if_neg (by decide), gameStart_none_of_ws (nextSym_none h)]
      cases n with
      | zero => omega
      | succ m => exact skip_initial_garbage_ended m k
    | some a =>
      obtain ⟨c, r⟩ := a
      obtain ⟨w, hw, hc, e⟩ := nextSym_some h
      have hr := nextSym_length h
      rw [bind_ok]
      simp only
      by_cases h40 : c = 40
      · subst h40
        rw [if_pos rfl, mygetsym_fresh]
        have eg : gameStart t = gameStart (40 :: r) := by rw [e, gameStart_ws hw]
        cases h2 : nextSym r with
        | none =>
          rw [bind_ok]
          simp only
          rw [if_neg (by decide), if_neg (by decide), eg, gameStart, if_pos rfl, h2]
          cases n with
          | zero => omega
          | succ m => exact skip_initial_garbage_ended m k
        | some b =>
          obtain ⟨d, r2⟩ := b
          obtain ⟨w2, hw2, hd, e2⟩ := nextSym_some h2
          have hr2 := nextSym_length h2
          rw [bind_ok]
          simp only
          rw [eg, gameStart, if_pos rfl, h2]
          simp only
          by_cases h59 : d = 59
          · rw [if_pos h59, if_pos h59]; rfl
          rw [if_neg h59, if_neg h59]
          by_cases h84 : d = 84
          · rw [if_pos h84, if_pos h84]; rfl
          rw [if_neg h84, if_neg h84]
          by_cases hz : d = 0
          · subst hz
            have e3 : ({ fresh r2 k with peekc := 0 } : Input) = fresh r2 k := rfl
            rw [e3, ih r2 k (by omega), e2, gameStart_ws hw2, gameStart_skip (by decide)]
          · have e3 : ({ fresh r2 k with peekc := d } : Input)
                = { buf := r2, peekc := d, eof := false, warned := k } := rfl
            rw [e3, skip_initial_garbage_peek n d r2 k hd hz, ih (d :: r2) k (by simp; omega),
              e2, gameStart_ws hw2]
      · rw [if_neg h40, ih r k (by omega), e, gameStart_ws hw, gameStart_skip h40]

theorem skip_initial_garbage_eof (n : Nat) (i : Input) (h : i.eof = true) :
    skip_initial_garbage (n + 1) i = .ok i := by
  unfold skip_initial_garbage
  rw [if_pos h]

/-- The two skipping steps of `readsgf` together: the input is left at the text that
`gameStart` gives, or at the end of the file. -/
theorem skip_initial_eq (text : List Nat) (fuel : Nat) (hf : text.length + 1 < fuel) :
    ∃ i2, (skip_initial_BOM (fresh text 0)).bind (skip_initial_garbage fuel) = .ok i2 ∧
      ((i2.eof = true ∧ gameStart text = none) ∨
        ∃ s, gameStart text = some s ∧ i2 = fresh s 0) := by
  have key : ∀ (t : List Nat), t.length ≤ text.length → gameStart t = gameStart text →
      ∃ i2, skip_initial_garbage fuel (fresh t 0) = .ok i2 ∧
        ((i2.eof = true ∧ gameStart text = none) ∨
          ∃ s, gameStart text = some s ∧ i2 = fresh s 0) := by
    intro t ht hg
    rw [skip_initial_garbage_eq fuel t 0 (by omega), hg]
    cases h : gameStart text with
    | none => exact ⟨_, rfl, Or.inl ⟨rfl, rfl⟩⟩
    | some s => exact ⟨_, rfl, Or.inr ⟨s, rfl, rfl⟩⟩
  have keof : ∀ (i : Input), i.eof = true → gameStart text = none →
      ∃ i2, skip_initial_garbage fuel i = .ok i2 ∧
        ((i2.eof = true ∧ gameStart text = none) ∨
          ∃ s, gameStart text = some s ∧ i2 = fresh s 0) := by
    intro i hi hg
    cases fuel with
    | zero => omega
    | succ n => exact ⟨i, skip_initial_garbage_eof n i hi, Or.inl ⟨hi, hg⟩⟩
  unfold skip_initial_BOM
  rw [if_neg (by simp [fresh]), mygetsym_fresh]
  cases h : nextSym text with
  | none =>
    rw [bind_ok]
    simp only
    rw [if_pos (Or.inl (by decide)), bind_ok]
    exact keof _ rfl (gameStart_none_of_ws (nextSym_none h))
  | some a =>
    obtain ⟨c, r⟩ := a
    obtain ⟨w, hw, hc, e⟩ := nextSym_some h
    have hr := nextSym_length h
    rw [bind_ok]
    simp only
    by_cases hef : c = 0xef
    · subst hef
      rw [if_neg (by simp [fresh]), mygetsym_fresh]
      have eg : gameStart text = gameStart r := by
        rw [e, gameStart_ws hw, gameStart_skip (by decide)]
      cases h2 : nextSym r with
      | none =>
        rw [bind_ok]
        simp only
        rw [if_pos (Or.inl (by decide)), bind_ok]
        exact keof _ rfl (by rw [eg]; exact gameStart_none_of_ws (nextSym_none h2))
      | some b =>
        obtain ⟨c2, r2⟩ := b
        obtain ⟨w2, hw2, hc2, e2⟩ := nextSym_some h2
        have hr2 := nextSym_length h2
        rw [bind_ok]
        simp only
        by_cases hbb : c2 = 0xbb
        · subst hbb
          rw [if_neg (by simp [fresh]), mygetsym_fresh]
          have eg2 : gameStart text = gameStart r2 := by
            rw [eg, e2, gameStart_ws hw2, gameStart_skip (by decide)]
          cases h3 : nextSym r2 with
          | none =>
            rw [bind_ok]
            simp only
            rw [if_pos (by decide), bind_ok]
            exact keof _ rfl (by rw [eg2]; exact gameStart_none_of_ws (nextSym_none h3))
          | some b3 =>
            obtain ⟨c3, r3⟩ := b3
            obtain ⟨w3, hw3, hc3, e3⟩ := nextSym_some h3
            have hr3 := nextSym_length h3
            rw [bind_ok]
            simp only
            by_cases hbf : c3 = 0xbf
            · subst hbf
              rw [if_neg (by simp), bind_ok]
              exact key r3 (by omega)
                (by rw [eg2, e3, gameStart_ws hw3, gameStart_skip (by decide)])
            · rw [if_pos hbf, bind_ok]
              exact key (0xef :: 0xbb :: c3 :: r3) (by simp; omega)
                (by rw [gameStart_skip (by decide), gameStart_skip (by decide), eg2, e3,
                  gameStart_ws hw3])
        · rw [if_pos (Or.inl hbb), bind_ok]
          exact key (0xef :: c2 :: r2) (by simp; omega)
            (by rw [gameStart_skip (by decide), eg, e2, gameStart_ws hw2])
    · rw [if_pos (Or.inl hef), bind_ok]
      exact key (c :: r) (by simp; omega) (by rw [e, gameStart_ws hw])

/-- The reader on a whole file: the collection is parsed from the text that `gameStart`
gives. -/
theorem readsgf_eq_start (multiin fullprop : Bool) (fuel : Nat) (text : List Nat)
    (hf : text.length + 1 < fuel) :
    readsgf multiin fullprop fuel text = parseFrom multiin fullprop fuel (gameStart text) := by
  obtain ⟨i2, h1, h2⟩ := skip_initial_eq text fuel hf
  have e : readsgf multiin fullprop fuel text
      = ((skip_initial_BOM (fresh text 0)).bind (skip_initial_garbage fuel)).bind fun i2 =>
          if i2.eof then .error .no_game_found
          else (read_collection multiin fullprop fuel i2).bind fun g => .ok g.1 := by
    unfold readsgf fresh
    cases skip_initial_BOM { buf := text, peekc := 0, eof := false, warned := 0 } <;> rfl
  rw [e, h1, bind_ok]
  rcases h2 with ⟨h3, h4⟩ | ⟨s, h3, h4⟩
  · rw [if_pos h3, h4]; rfl
  · rw [h3, h4, if_neg (by simp [fresh])]; rfl

theorem Post.post_bind {α β : Type} {Q : α → Prop} {R : β → Prop} {x : Except ReadErr α}
    {f : α → Except ReadErr β} (hx : Post Q x) (hf : ∀ a, Q a → Post R (f a)) :
    Post R (x.bind f) := by
  cases x with
  | error e =>
    have he : e ≠ .out_of_fuel := fun h => hx.1 (by rw [h])
    constructor
    · intro h
      simp only [Except.bind] at h
      exact he (Except.error.inj h)
    · intro a h; cases h
  | ok a => exact hf a (hx.2 a rfl)

theorem Post.post_ok {α : Type} {Q : α → Prop} {a : α} (h : Q a) :
    Post Q (Except.ok a : Except ReadErr α) := by
  constructor
  · intro h1; cases h1
  · intro b hb; cases hb; exact h

theorem Post.post_error {α : Type} {Q : α → Prop} {e : ReadErr} (h : e ≠ .out_of_fuel) :
    Post Q (Except.error e : Except ReadErr α) := by
  constructor
  · intro h1; cases h1; exact h rfl
  · intro b hb; cases hb

theorem Post.post_mono {α : Type} {Q R : α → Prop} {x : Except ReadErr α} (hx : Post Q x)
    (h : ∀ a, Q a → R a) : Post R x :=
  ⟨hx.1, fun a ha => h a (hx.2 a ha)⟩

theorem size_peek (i : Input) (c k : Nat) (h : i.peekc = 0) :
    (Input.mk i.buf c i.eof k).size ≤ i.size + 1 := by
  unfold Input.size
  simp only [h, if_true]
  split <;> omega

theorem size_pushback (c : Nat) (i : Input) : (my_pushback c i).size = i.size + 1 := by
  unfold Input.size my_pushback
  simp only [List.length_cons]
  omega

theorem mygetchar_post (inp : Input) :
    Post (fun a => a.2.size + 1 = inp.size ∧ a.2.peekc = 0) (mygetchar inp) := by
  unfold mygetchar
  by_cases hp : inp.peekc ≠ 0
  · rw [if_pos hp]
    refine Post.post_ok ⟨?_, rfl⟩
    unfold Input.size
    simp only [if_true]
    rw [if_neg hp]
    omega
  · rw [if_neg hp]
    have hp0 : inp.peekc = 0 := by simpa using hp
    by_cases he : inp.eof = true
    · rw [if_pos he]
      exact Post.post_error (by decide)
    · rw [if_neg he]
      cases hb : inp.buf with
      | nil =>
        refine Post.post_ok ⟨?_, hp0⟩
        unfold Input.size
        simp [hb, hp0, he]
      | cons c r =>
        refine Post.post_ok ⟨?_, hp0⟩
        unfold Input.size
        simp [hb, hp0, he]

theorem skip_whitespace_post (eof : Bool) (k : Nat) (l : List Nat) :
    Post (fun a => a.2.size ≤ l.length ∧ a.2.peekc = 0) (skip_whitespace eof k l) := by
  induction l with
  | nil =>
    unfold skip_whitespace
    split
    · exact Post.post_error (by decide)
    · exact Post.post_ok ⟨by simp [Input.size], rfl⟩
  | cons c r ih =>
    unfold skip_whitespace
    split
    · exact Post.post_error (by decide)
    · rename_i he
      split
      · exact ih.post_mono fun a ha => ⟨by simp only [List.length_cons]; omega, ha.2⟩
      · refine Post.post_ok ⟨?_, rfl⟩
        simp [Input.size, he]

theorem mygetsym_post (inp : Input) :
    Post (fun a => a.2.size + 1 ≤ inp.size ∧ a.2.peekc = 0) (mygetsym inp) := by
  unfold mygetsym
  refine (mygetchar_post inp).post_bind ?_
  intro a ha
  split
  · refine (skip_whitespace_post a.2.eof a.2.warned a.2.buf).post_mono ?_
    intro b hb
    refine ⟨?_, hb.2⟩
    have : a.2.buf.length ≤ a.2.size := by unfold Input.size; omega
    omega
  · exact Post.post_ok ⟨by omega, ha.2⟩

theorem read_value_post (n : Nat) :
    ∀ (acc : List Nat) (inp : Input), inp.size < n →
      Post (fun a => a.2.size + 1 ≤ inp.size) (read_propvalue_following_sq n acc inp) := by
  induction n with
  | zero => intro acc inp h; omega
  | succ n ih =>
    intro acc inp hn
    unfold read_propvalue_following_sq
    refine (mygetchar_post inp).post_bind ?_
    intro a ha
    split
    · refine (mygetsym_post a.2).post_bind ?_
      intro d hd
      have hs := size_peek d.2 d.1 d.2.warned hd.2
      have hs1 := size_peek d.2 d.1 (d.2.warned + 1) hd.2
      split
      · exact Post.post_ok (by (try dsimp only at *); omega)
      · refine (ih _ _ (by (try dsimp only at *); omega)).post_mono ?_
        intro b hb
        dsimp only at hb
        omega
    · split
      · refine (mygetchar_post a.2).post_bind ?_
        intro b hb
        exact (ih _ _ (by omega)).post_mono fun c hc => by omega
      · exact (ih _ _ (by omega)).post_mono fun c hc => by omega

theorem read_values_post (n : Nat) :
    ∀ (inp : Input), inp.size < n →
      Post (fun a => a.2.size ≤ inp.size) (read_propvalue_sequence n inp) := by
  induction n with
  | zero => intro inp h; omega
  | succ n ih =>
    intro inp hn
    unfold read_propvalue_sequence
    refine (mygetsym_post inp).post_bind ?_
    intro a ha
    split
    · refine (read_value_post (n + 1) [] a.2 (by omega)).post_bind ?_
      intro v hv
      refine (ih v.2 (by omega)).post_bind ?_
      intro vs hvs
      exact Post.post_ok (by (try dsimp only at *); omega)
    · have hs := size_peek a.2 a.1 a.2.warned ha.2
      exact Post.post_ok (by (try dsimp only at *); omega)

theorem read_propid_post (fullprop : Bool) (n : Nat) :
    ∀ (p q : List Nat) (inp : Input), inp.size < n →
      Post (fun a => a.2.size ≤ inp.size ∧ (p = [] → a.2.size + 1 ≤ inp.size))
        (read_propid fullprop n p q inp) := by
  induction n with
  | zero => intro p q inp h; omega
  | succ n ih =>
    intro p q inp hn
    unfold read_propid
    refine (mygetsym_post inp).post_bind ?_
    intro a ha
    split
    · split
      · exact Post.post_error (by simp)
      · rename_i hp
        split
        · exact Post.post_error (by decide)
        · have hs := size_peek a.2 a.1 a.2.warned ha.2
          exact Post.post_ok ⟨by (try dsimp only at *); omega, fun h => absurd h hp⟩
    · exact (ih _ _ a.2 (by omega)).post_mono fun b hb => ⟨by omega, fun _ => by omega⟩

theorem read_property_post (fullprop : Bool) (n : Nat) (inp : Input) (hn : inp.size < n) :
    Post (fun a => a.2.size + 1 ≤ inp.size) (read_property fullprop n inp) := by
  unfold read_property
  refine (read_propid_post fullprop n [] [] inp hn).post_bind ?_
  intro i hi
  have h1 := hi.2 rfl
  refine (read_values_post n i.2 (by omega)).post_bind ?_
  intro v hv
  split
  · exact Post.post_error (by simp)
  · exact Post.post_ok (by (try dsimp only at *); omega)

theorem read_properties_post (fullprop : Bool) (n : Nat) :
    ∀ (inp : Input), inp.size < n →
      Post (fun a => a.2.size ≤ inp.size ∧ (a.1 ≠ [] → a.2.size + 1 ≤ inp.size))
        (read_properties fullprop n inp) := by
  induction n with
  | zero => intro inp h; omega
  | succ n ih =>
    intro inp hn
    unfold read_properties
    refine (mygetsym_post inp).post_bind ?_
    intro a ha
    have hs := size_peek a.2 a.1 a.2.warned ha.2
    split
    · exact Post.post_ok ⟨by (try dsimp only at *); omega, fun h => absurd rfl h⟩
    · refine (read_property_post fullprop (n + 1) _ (by (try dsimp only at *); omega)).post_bind ?_
      intro p hp
      refine (ih p.2 (by (try dsimp only at *); omega)).post_bind ?_
      intro ps hps
      exact Post.post_ok ⟨by (try dsimp only at *); omega, fun _ => by (try dsimp only at *); omega⟩

theorem read_property_sequence_post (fullprop : Bool) (n : Nat) (inp : Input)
    (hn : inp.size < n) :
    Post (fun a => a.2.size ≤ inp.size ∧ (a.1.p ≠ [] → a.2.size + 1 ≤ inp.size))
      (read_property_sequence fullprop n inp) := by
  unfold read_property_sequence
  refine (read_properties_post fullprop n inp hn).post_bind ?_
  intro ps hps
  exact Post.post_ok hps

theorem read_nodes_post (fullprop : Bool) (n : Nat) :
    ∀ (inp : Input), inp.size < n →
      Post (fun a => a.2.size ≤ inp.size ∧ (a.1 ≠ [] → a.2.size + 1 ≤ inp.size))
        (read_node_sequence fullprop n inp) := by
  induction n with
  | zero => intro inp h; omega
  | succ n ih =>
    intro inp hn
    unfold read_node_sequence
    refine (mygetsym_post inp).post_bind ?_
    intro a ha
    split
    · refine (read_property_sequence_post fullprop (n + 1) a.2 (by omega)).post_bind ?_
      intro nd hnd
      refine (ih nd.2 (by omega)).post_bind ?_
      intro nds hnds
      exact Post.post_ok ⟨by (try dsimp only at *); omega, fun _ => by (try dsimp only at *); omega⟩
    · have hs := size_peek a.2 a.1 a.2.warned ha.2
      exact Post.post_ok ⟨by (try dsimp only at *); omega, fun h => absurd rfl h⟩

theorem read_korean_post (fullprop : Bool) (n : Nat) (inp : Input) (hn : inp.size < n) :
    Post (fun a => a.2.size + 1 ≤ inp.size) (read_korean_node_sequence fullprop n inp) := by
  unfold read_korean_node_sequence
  refine (read_property_sequence_post fullprop n inp hn).post_bind ?_
  intro nd hnd
  split
  · exact Post.post_error (by decide)
  · rename_i p ps hp
    have h1 := hnd.2 (by rw [hp]; simp)
    split
    · exact Post.post_error (by decide)
    · refine (read_nodes_post fullprop n nd.2 (by omega)).post_bind ?_
      intro ns hns
      exact Post.post_ok (by (try dsimp only at *); omega)

theorem read_sequence_post (fullprop : Bool) (n : Nat) (inp : Input) (hn : inp.size < n) :
    Post (fun a => a.2.size + 1 ≤ inp.size) (read_sequence fullprop n inp) := by
  unfold read_sequence
  refine (read_nodes_post fullprop n inp hn).post_bind ?_
  intro ns hns
  split
  · split
    · refine (read_korean_post fullprop n ns.2 (by omega)).post_bind ?_
      intro k hk
      exact Post.post_ok (by (try dsimp only at *); omega)
    · exact Post.post_error (by decide)
  · rename_i hne
    exact Post.post_ok (hns.2 hne)

theorem read_baretree_post (fullprop : Bool) (n M : Nat)
    (rgs : Input → Except ReadErr (gametree × Input))
    (hrgs : ∀ inp, inp.size < M → Post (fun a => a.2.size ≤ inp.size) (rgs inp))
    (inp : Input) (hn : inp.size < n) (hM : inp.size ≤ M) :
    Post (fun a => a.2.size + 1 ≤ inp.size) (read_baretree fullprop n rgs inp) := by
  unfold read_baretree
  refine (read_sequence_post fullprop n inp hn).post_bind ?_
  intro s hs
  refine (hrgs s.2 (by omega)).post_bind ?_
  intro g hg
  exact Post.post_ok (by (try dsimp only at *); omega)

theorem read_baretree_sequence_post (fullprop : Bool) (M : Nat)
    (rgs : Input → Except ReadErr (gametree × Input))
    (hrgs : ∀ inp, inp.size < M → Post (fun a => a.2.size ≤ inp.size) (rgs inp)) (n : Nat) :
    ∀ (inp : Input), inp.size < n → inp.size ≤ M →
      Post (fun a => a.2.size ≤ inp.size) (read_baretree_sequence fullprop rgs n inp) := by
  induction n with
  | zero => intro inp h; omega
  | succ n ih =>
    intro inp hn hM
    unfold read_baretree_sequence
    refine (mygetsym_post inp).post_bind ?_
    intro a ha
    have hs := size_peek a.2 a.1 a.2.warned ha.2
    split
    · exact Post.post_ok (by (try dsimp only at *); omega)
    · refine (read_baretree_post fullprop (n + 1) M rgs hrgs _ (by (try dsimp only at *); omega)
        (by (try dsimp only at *); omega)).post_bind ?_
      intro gh hgh
      refine (mygetsym_post gh.2).post_bind ?_
      intro c hc
      have hs2 := size_peek c.2 c.1 c.2.warned hc.2
      split
      · refine (ih _ (by (try dsimp only at *); omega) (by (try dsimp only at *); omega)).post_bind ?_
        intro g hg
        dsimp only at hg hgh
        split
        · exact Post.post_ok (by (try dsimp only at *); omega)
        · exact Post.post_error (by decide)
      · exact Post.post_ok (by (try dsimp only at *); omega)

theorem read_gametree_sequence_post (fullprop : Bool) (n : Nat) :
    ∀ (inp : Input), inp.size < n →
      Post (fun a => a.2.size ≤ inp.size ∧ (a.1 ≠ .null → a.2.size + 2 ≤ inp.size))
        (read_gametree_sequence fullprop n inp) := by
  induction n with
  | zero => intro inp h; omega
  | succ n ih =>
    intro inp hn
    unfold read_gametree_sequence
    refine (mygetsym_post inp).post_bind ?_
    intro a ha
    split
    · refine (read_baretree_sequence_post fullprop n (read_gametree_sequence fullprop n)
        (fun i hi => (ih i hi).post_mono fun b hb => hb.1) (n + 1) a.2 (by omega) (by omega)).post_bind ?_
      intro g hg
      refine (mygetsym_post g.2).post_bind ?_
      intro c hc
      split
      · exact Post.post_error (by simp)
      · refine (ih c.2 (by omega)).post_bind ?_
        intro rest hrest
        exact Post.post_ok ⟨by (try dsimp only at *); omega, fun _ => by (try dsimp only at *); omega⟩
    · have hs := size_peek a.2 a.1 a.2.warned ha.2
      exact Post.post_ok ⟨by (try dsimp only at *); omega, fun h => absurd rfl h⟩

theorem skip_initial_garbage_post (n : Nat) :
    ∀ (inp : Input), inp.size < n →
      Post (fun i => i.size ≤ inp.size + 1) (skip_initial_garbage n inp) := by
  induction n with
  | zero => intro inp h; omega
  | succ n ih =>
    intro inp hn
    unfold skip_initial_garbage
    split
    · exact Post.post_ok (by omega)
    · refine (mygetsym_post inp).post_bind ?_
      intro a ha
      split
      · refine (mygetsym_post a.2).post_bind ?_
        intro b hb
        have hs := size_peek b.2 b.1 b.2.warned hb.2
        split
        · exact Post.post_ok (by rw [size_pushback, size_pushback]; omega)
        · split
          · exact Post.post_ok (by rw [size_pushback, size_pushback, size_pushback]; omega)
          · exact (ih _ (by (try dsimp only at *); omega)).post_mono fun i hi => by (try dsimp only at *); omega
      · exact (ih _ (by omega)).post_mono fun i hi => by omega

theorem read_more_post (fullprop : Bool) (n : Nat) :
    ∀ (g : gametree) (inp : Input), inp.size + 1 < n →
      Post (fun _ => True) (read_more fullprop n g inp) := by
  induction n with
  | zero => intro g inp h; omega
  | succ n ih =>
    intro g inp hn
    cases g with
    | null => unfold read_more; exact Post.post_ok trivial
    | tree ns fc sib =>
      unfold read_more
      refine (skip_initial_garbage_post (n + 1) inp (by omega)).post_bind ?_
      intro i hi
      split
      · exact Post.post_ok trivial
      · refine (read_gametree_sequence_post fullprop (n + 1) i (by omega)).post_bind ?_
        intro gn hgn
        by_cases hnull : gn.1 = .null
        · rw [hnull]
          cases n with
          | zero => omega
          | succ m =>
            unfold read_more
            exact Post.post_ok trivial
        · have := hgn.2 hnull
          refine (ih gn.1 gn.2 (by omega)).post_bind ?_
          intro r _
          exact Post.post_ok trivial

theorem read_collection_post (multiin fullprop : Bool) (n : Nat) (inp : Input)
    (hn : inp.size < n) : Post (fun _ => True) (read_collection multiin fullprop n inp) := by
  unfold read_collection
  refine (read_gametree_sequence_post fullprop n inp hn).post_bind ?_
  intro g hg
  split
  · exact Post.post_error (by decide)
  · rename_i hnull
    split
    · exact read_more_post fullprop n g.1 g.2 (by have := hg.2 hnull; omega)
    · exact Post.post_ok trivial

theorem skip_initial_BOM_post (inp : Input) :
    Post (fun i => i.size ≤ inp.size) (skip_initial_BOM inp) := by
  unfold skip_initial_BOM
  split
  · exact Post.post_ok (Nat.le_refl _)
  · refine (mygetsym_post inp).post_bind ?_
    intro a ha
    split
    · exact Post.post_ok (by rw [size_pushback]; omega)
    · refine (mygetsym_post a.2).post_bind ?_
      intro b hb
      split
      · exact Post.post_ok (by rw [size_pushback, size_pushback]; omega)
      · refine (mygetsym_post b.2).post_bind ?_
        intro c hc
        split
        · exact Post.post_ok (by rw [size_pushback, size_pushback, size_pushback]; omega)
        · exact Post.post_ok (by omega)

/-- With more fuel than the text has bytes (and three to spare) `readsgf` never stops
for lack of fuel: it returns a forest or fails with one of the errors of the program. -/
theorem readsgf_fuel (multiin fullprop : Bool) (fuel : Nat) (text : List Nat)
    (hf : text.length + 2 < fuel) :
    readsgf multiin fullprop fuel text ≠ .error .out_of_fuel := by
  have hsz : (fresh text 0).size = text.length + 1 := by simp [Input.size, fresh]
  have h : Post (fun _ => True) (readsgf multiin fullprop fuel text) := by
    unfold readsgf
    refine (skip_initial_BOM_post (fresh text 0)).post_bind ?_
    intro i1 h1
    refine (skip_initial_garbage_post fuel i1 (by omega)).post_bind ?_
    intro i2 h2
    split
    · exact Post.post_error (by decide)
    · refine (read_collection_post multiin fullprop fuel i2 (by omega)).post_bind ?_
      intro g _
      exact Post.post_ok trivial
  exact h.1

theorem nextSym_append {t : List Nat} {c : Nat} {r : List Nat} (h : nextSym t = some (c, r))
    (x : List Nat) : nextSym (t ++ x) = some (c, r ++ x) := by
  obtain ⟨w, hw, hc, e⟩ := nextSym_some h
  subst e
  rw [List.append_assoc, nextSym_ws hw, List.cons_append, nextSym, if_neg (by simp [hc])]

/-- Text without a start of the collection is left out in front of a `(`. -/
theorem gameStart_garbage :
    ∀ (pre : List Nat), gameStart pre = none → ∀ (y : List Nat),
      gameStart (pre ++ 40 :: y) = gameStart (40 :: y) := by
  intro pre
  induction pre with
  | nil => intro _ y; rfl
  | cons c pre ih =>
    intro h y
    by_cases hc : c = 40
    · subst hc
      rw [gameStart, if_pos rfl] at h
      rw [List.cons_append, gameStart, if_pos rfl]
      cases h2 : nextSym pre with
      | none =>
        have hw := nextSym_none h2
        rw [nextSym_ws hw, nextSym, if_neg (by decide)]
        simp only
        rw [if_neg (by decide), if_neg (by decide)]
        exact ih (gameStart_none_of_ws hw) y
      | some a =>
        obtain ⟨d, r⟩ := a
        rw [h2] at h
        simp only at h
        rw [nextSym_append h2]
        simp only
        by_cases h59 : d = 59
        · rw [if_pos h59] at h; cases h
        rw [if_neg h59] at h ⊢
        by_cases h84 : d = 84
        · rw [if_pos h84] at h; cases h
        rw [if_neg h84] at h ⊢
        exact ih h y
    · rw [gameStart_skip hc] at h
      rw [List.cons_append, gameStart_skip hc]
      exact ih h y

theorem letter_facts {c : Nat} (h : (is_upper_case c || is_lower_case c) = true) :
    iswhitespace c = false ∧ c ≠ 0 := by
  unfold is_upper_case is_lower_case at h
  unfold iswhitespace
  simp at h ⊢
  omega

theorem NodesText.normal_text {nt : List Nat} {ns : List node} (h : NodesText nt ns) :
    ∃ w r, Ws w ∧ nt = w ++ 59 :: r ∧ NodesText (59 :: r) ns := by
  cases h with
  | one w pt ps hw hpt => exact ⟨w, pt, hw, rfl, NodesText.one [] pt ps Ws.nil hpt⟩
  | cons w pt t ps ns hw hpt ht =>
    exact ⟨w, pt ++ t, hw, rfl, NodesText.cons [] pt t ps ns Ws.nil hpt ht⟩

theorem TreesK.k_starts {tt : List Nat} {g : gametree} (h : TreesK tt g) {rest : List Nat}
    {P : Nat → Prop} (hs : Starts rest P) : Starts (tt ++ rest) (fun d => d = 40 ∨ P d) := by
  cases h with
  | nil => exact hs.starts_mono fun d hd => Or.inr hd
  | cons w nt ct w2 rt nodes children sibs hw _ _ _ _ =>
    exact ⟨w, 40, nt ++ (ct ++ (w2 ++ 41 :: rt)) ++ rest, hw, by decide, by decide,
      Or.inl rfl, by simp⟩
  | korean w pt nt ct w2 rt p ps nodes children sibs hw _ _ _ _ _ _ =>
    exact ⟨w, 40, pt ++ (nt ++ (ct ++ (w2 ++ 41 :: rt))) ++ rest, hw, by decide, by decide,
      Or.inl rfl, by simp⟩
  | empty w w2 rt sibs hw _ _ =>
    exact ⟨w, 40, (w2 ++ 41 :: rt) ++ rest, hw, by decide, by decide, Or.inl rfl, by simp⟩

/-- Before `(` or `)` the node loop reads no node and leaves the symbol pending. -/
theorem read_nodes_none (fullprop : Bool) (n : Nat) {inp : Input} {rest : List Nat}
    (hrep : Rep inp rest) (hs : Starts rest (fun d => d = 40 ∨ d = 41)) :
    ∃ inp1, read_node_sequence fullprop (n + 1) inp = .ok ([], inp1) ∧ After inp1 rest ∧
      inp1.warned = inp.warned := by
  obtain ⟨w, d, r, hw, hd, hz, hp, e, h1⟩ := mygetsym_starts hrep hs
  subst e
  have hd59 : d ≠ 59 := by rcases hp with e | e <;> subst e <;> decide
  refine ⟨_, ?_, After.of_peek r hw hd hz inp.warned, rfl⟩
  unfold read_node_sequence
  rw [h1, bind_ok]
  simp only [hd59, if_false]

theorem read_nodes_opt (fullprop : Bool) {nt : List Nat} {ns : List node} (h : NodesOpt nt ns)
    (fuel : Nat) (inp : Input) (rest : List Nat) (hrep : Rep inp (nt ++ rest))
    (hs : Starts rest (fun d => d = 40 ∨ d = 41)) (hf : nt.length < fuel) :
    ∃ inp1, read_node_sequence fullprop fuel inp = .ok (ns, inp1) ∧ After inp1 rest := by
  cases h with
  | none =>
    cases fuel with
    | zero => omega
    | succ n =>
      obtain ⟨i, h1, h2, _⟩ := read_nodes_none fullprop n hrep hs
      exact ⟨i, h1, h2⟩
  | some nt ns hnt =>
    obtain ⟨i, h1, h2, _⟩ := read_nodes_ok fullprop hnt.nodes_loose fuel inp rest hrep hs hf
    exact ⟨i, h1, h2⟩

theorem NodesOpt.opt_starts {nt : List Nat} {ns : List node} (h : NodesOpt nt ns)
    {rest : List Nat} {P : Nat → Prop} (hs : Starts rest P) :
    Starts (nt ++ rest) (fun d => d = 59 ∨ P d) := by
  cases h with
  | none => exact hs.starts_mono fun d hd => Or.inr hd
  | some nt ns hnt =>
    exact (hnt.nodes_loose.nodes_starts.append rest).starts_mono fun d hd => Or.inl hd

theorem bareAllowed_first {id : List Nat} (h : bareAllowed id) :
    ∃ c r, id = c :: r ∧ (c = 82 ∨ c = 78 ∨ c = 67) := by
  rcases h with e | e | e | e <;> subst e
  · exact ⟨82, [78], rfl, Or.inl rfl⟩
  · exact ⟨82, [70], rfl, Or.inl rfl⟩
  · exact ⟨78, [], rfl, Or.inr (Or.inl rfl)⟩
  · exact ⟨67, [], rfl, Or.inr (Or.inr rfl)⟩

/-- The first symbol of the text of a non-empty list of properties is the first letter of
the first identifier. -/
theorem PropsText.first_letter {pt : List Nat} {p : property} {ps : List property}
    (h : PropsText pt (p :: ps)) :
    ∃ w c idr r, Ws w ∧ p.id = c :: idr ∧ is_upper_case c = true ∧ pt = w ++ c :: r := by
  cases h with
  | cons w id vt t vs ps hw hid hvt ht =>
    obtain ⟨h1, _, h3⟩ := hid
    cases id with
    | nil => simp at h1
    | cons c id =>
      exact ⟨w, c, id, id ++ (vt ++ t), hw, rfl, h3 c (List.mem_cons_self _ _), by simp⟩

/-- The path of `read_sequence` for a tree without `;`: the first node and the nodes
after it are read and dropped. -/
theorem read_sequence_korean (fullprop : Bool) {pt nt : List Nat} {p : property}
    {ps : List property} {nodes : List node} (hpt : PropsText pt (p :: ps))
    (hid : bareAllowed p.id) (hnt : NodesOpt nt nodes) (n : Nat) (inp : Input)
    (rest : List Nat) (hrep : Rep inp (pt ++ (nt ++ rest)))
    (hs : Starts rest (fun d => d = 40 ∨ d = 41)) (hf : pt.length + nt.length < n) :
    ∃ inp1, read_sequence fullprop (n + 1) inp = .ok ([], inp1) ∧ After inp1 rest := by
  obtain ⟨w, c, idr, r, hw, e1, hup, e2⟩ := hpt.first_letter
  obtain ⟨c0, r0, e3, hc0⟩ := bareAllowed_first hid
  have ec : c0 = c := by rw [e1] at e3; injection e3 with h1 _; exact h1.symm
  subst ec
  have hc := upper_facts hup
  have e4 : pt ++ (nt ++ rest) = w ++ c0 :: (r ++ (nt ++ rest)) := by rw [e2]; simp
  have hrep0 := hrep
  rw [e4] at hrep
  have h1 := mygetsym_next hrep hw hc.1
  have hc59 : c0 ≠ 59 := by rcases hc0 with e | e | e <;> subst e <;> decide
  have hrep1 : Rep { buf := r ++ (nt ++ rest), peekc := c0, eof := false, warned := inp.warned }
      (pt ++ (nt ++ rest)) := by
    rw [e4]
    exact Rep.rep_of_peek _ hw hc.1 hc.2.1 _
  have hst : Starts (nt ++ rest) (fun d => d = 59 ∨ d = 40 ∨ d = 41) := hnt.opt_starts hs
  obtain ⟨i1, h2, h3, _⟩ := read_properties_ok fullprop hpt.props_loose (n + 1) _ (nt ++ rest)
    hrep1 hst (by omega)
  obtain ⟨i2, h4, h5⟩ := read_nodes_opt fullprop hnt (n + 1) i1 rest (h3.rep hst) hs (by omega)
  refine ⟨i2, ?_, h5⟩
  unfold read_sequence
  unfold read_node_sequence
  rw [h1, bind_ok]
  simp only [hc59, if_false]
  rw [bind_ok]
  simp only [if_true]
  rw [if_pos (by
    rcases hc0 with e | e | e
    · exact Or.inl e
    · exact Or.inr (Or.inl e)
    · exact Or.inr (Or.inr e))]
  unfold read_korean_node_sequence read_property_sequence
  rw [h2, bind_ok, bind_ok]
  simp only
  rw [if_neg (by
    unfold bareAllowed at hid
    intro hh
    rcases hid with e | e | e | e
    · exact hh.1 e
    · exact hh.2.1 e
    · exact hh.2.2.1 e
    · exact hh.2.2.2 e), h4, bind_ok, bind_ok]

theorem Rep.of_fresh (t : List Nat) (k : Nat) : Rep (fresh t k) t := Rep.of_buf t k

/-- One strict tree at the head of a sequence: the loop of `read_gametree_sequence` reads
it and goes on behind its `)`. -/
theorem unit_cons (fullprop : Bool) {w nt ct w2 : List Nat} {nodes : List node}
    {children : gametree} (hw : Ws w) (hnt : NodesText nt nodes)
    (hct : SeqOk fullprop ct children) (hcs : ∀ (rest : List Nat) (P : Nat → Prop),
      Starts rest P → Starts (ct ++ rest) (fun d => d = 40 ∨ P d)) (hw2 : Ws w2)
    (n : Nat) (inp : Input) (x : List Nat)
    (hrep : Rep inp (w ++ 40 :: (nt ++ (ct ++ (w2 ++ 41 :: x)))))
    (hf : nt.length + ct.length + 1 < n + 1) :
    ∃ k, read_gametree_sequence fullprop (n + 1) inp
      = (read_gametree_sequence fullprop n (fresh x k)).bind fun r =>
          .ok (link (.tree nodes children .null) r.1, r.2) := by
  have hnt := hnt.nodes_loose
  have h1 := mygetsym_next hrep hw (by decide)
  have hY41 : Starts (w2 ++ 41 :: x) (fun d => d = 41) :=
    ⟨w2, 41, x, hw2, by decide, by decide, rfl, rfl⟩
  have hY : Starts (ct ++ (w2 ++ 41 :: x)) (fun d => d = 40 ∨ d = 41) := hcs _ _ hY41
  obtain ⟨w1, d1, r1, hw1, hd1, hz1, hp1, e2, h2⟩ :=
    mygetsym_starts (Rep.of_buf (nt ++ (ct ++ (w2 ++ 41 :: x))) inp.warned)
      (hnt.nodes_starts.append _)
  subst hp1
  have hrep1 : Rep (peeked 59 r1 inp.warned) (nt ++ (ct ++ (w2 ++ 41 :: x))) := by
    rw [e2]
    exact Rep.rep_of_peek _ hw1 hd1 hz1 _
  obtain ⟨i1, h3, h4, _⟩ := read_nodes_ok fullprop hnt (n + 1) _ _ hrep1 hY (by omega)
  simp only [peeked] at h3
  obtain ⟨i2, h5, h6⟩ := hct n i1 (w2 ++ 41 :: x) (h4.rep hY)
    (Or.inl (hY41.starts_mono fun d hd => by rw [hd]; decide)) (by omega)
  have h7 := mygetsym_next (h6.rep hY41) hw2 (by decide)
  have h8 := mygetsym_peek x (d := 41) (by decide) (by decide) i2.warned
  refine ⟨i2.warned, ?_⟩
  conv_lhs => unfold read_gametree_sequence
  rw [h1, bind_ok]
  simp only [if_true]
  unfold read_baretree_sequence
  rw [h2, bind_ok]
  simp only
  rw [if_neg (by simp)]
  unfold read_baretree read_sequence
  rw [h3, bind_ok]
  simp only [hnt.nodes_ne_nil, if_false]
  rw [bind_ok]
  simp only
  rw [h5, bind_ok, bind_ok]
  simp only
  rw [h7, bind_ok]
  simp only
  rw [if_neg (by decide), bind_ok]
  simp only
  rw [h8, bind_ok]
  simp only
  rw [if_neg (by simp)]
  rfl

/-- One tree without `;` at the head of a sequence. -/
theorem unit_korean (fullprop : Bool) {w pt nt ct w2 : List Nat} {p : property}
    {ps : List property} {nodes : List node} {children : gametree} (hw : Ws w)
    (hpt : PropsText pt (p :: ps)) (hid : bareAllowed p.id) (hnt : NodesOpt nt nodes)
    (hct : SeqOk fullprop ct children) (hcs : ∀ (rest : List Nat) (P : Nat → Prop),
      Starts rest P → Starts (ct ++ rest) (fun d => d = 40 ∨ P d)) (hw2 : Ws w2)
    (n : Nat) (inp : Input) (x : List Nat)
    (hrep : Rep inp (w ++ 40 :: (pt ++ (nt ++ (ct ++ (w2 ++ 41 :: x))))))
    (hf : pt.length + nt.length + ct.length + 2 < n + 1) :
    ∃ k, read_gametree_sequence fullprop (n + 1) inp
      = (read_gametree_sequence fullprop n (fresh x k)).bind fun r =>
          .ok (link (.tree [] children .null) r.1, r.2) := by
  have h1 := mygetsym_next hrep hw (by decide)
  have hY41 : Starts (w2 ++ 41 :: x) (fun d => d = 41) :=
    ⟨w2, 41, x, hw2, by decide, by decide, rfl, rfl⟩
  have hY : Starts (ct ++ (w2 ++ 41 :: x)) (fun d => d = 40 ∨ d = 41) := hcs _ _ hY41
  obtain ⟨wp, c, idr, r, hwp, e3, hup, e4⟩ := hpt.first_letter
  obtain ⟨c0, r0, e5, hc0⟩ := bareAllowed_first hid
  have ec : c0 = c := by rw [e3] at e5; injection e5 with h1 _; exact h1.symm
  subst ec
  have hc := upper_facts hup
  have e6 : pt ++ (nt ++ (ct ++ (w2 ++ 41 :: x)))
      = wp ++ c0 :: (r ++ (nt ++ (ct ++ (w2 ++ 41 :: x)))) := by rw [e4]; simp
  have hrepS : Rep (fresh (pt ++ (nt ++ (ct ++ (w2 ++ 41 :: x)))) inp.warned)
      (wp ++ c0 :: (r ++ (nt ++ (ct ++ (w2 ++ 41 :: x))))) := by
    rw [← e6]
    exact Rep.of_buf _ _
  have h2 := mygetsym_next hrepS hwp hc.1
  simp only [fresh] at h2
  have hrep1 : Rep (peeked c0 (r ++ (nt ++ (ct ++ (w2 ++ 41 :: x)))) inp.warned)
      (pt ++ (nt ++ (ct ++ (w2 ++ 41 :: x)))) := by
    rw [e6]
    exact Rep.rep_of_peek _ hwp hc.1 hc.2.1 _
  cases n with
  | zero => omega
  | succ m =>
    obtain ⟨i1, h3, h4⟩ := read_sequence_korean fullprop hpt hid hnt (m + 1) _
      (ct ++ (w2 ++ 41 :: x)) hrep1 hY (by omega)
    simp only [peeked] at h3
    obtain ⟨i2, h5, h6⟩ := hct (m + 1) i1 (w2 ++ 41 :: x) (h4.rep hY)
      (Or.inl (hY41.starts_mono fun d hd => by rw [hd]; decide)) (by omega)
    have h7 := mygetsym_next (h6.rep hY41) hw2 (by decide)
    have h8 := mygetsym_peek x (d := 41) (by decide) (by decide) i2.warned
    refine ⟨i2.warned, ?_⟩
    conv_lhs => unfold read_gametree_sequence
    rw [h1, bind_ok]
    simp only [if_true]
    unfold read_baretree_sequence
    rw [h2, bind_ok]
    simp only
    rw [if_neg (by
      intro hh
      rcases hc0 with e | e | e
      · exact hh.2.1 e
      · exact hh.2.2.1 e
      · exact hh.2.2.2 e)]
    unfold read_baretree
    rw [h3, bind_ok]
    simp only
    rw [h5, bind_ok, bind_ok]
    simp only
    rw [h7, bind_ok]
    simp only
    rw [if_neg (by decide), bind_ok]
    simp only
    rw [h8, bind_ok]
    simp only
    rw [if_neg (by simp)]
    rfl

/-- An empty pair `()` at the head of a sequence adds no tree. -/
theorem unit_empty (fullprop : Bool) {w w2 : List Nat} (hw : Ws w) (hw2 : Ws w2) (n : Nat)
    (inp : Input) (x : List Nat) (hrep : Rep inp (w ++ 40 :: (w2 ++ 41 :: x))) :
    read_gametree_sequence fullprop (n + 1) inp
      = (read_gametree_sequence fullprop n (fresh x inp.warned)).bind fun r =>
          .ok (link .null r.1, r.2) := by
  have h1 := mygetsym_next hrep hw (by decide)
  have h2 := mygetsym_next (Rep.of_buf (w2 ++ 41 :: x) inp.warned) hw2
    (by decide : iswhitespace 41 = false)
  have h3 := mygetsym_peek x (d := 41) (by decide) (by decide) inp.warned
  conv_lhs => unfold read_gametree_sequence
  rw [h1, bind_ok]
  simp only [if_true]
  unfold read_baretree_sequence
  rw [h2, bind_ok]
  simp only
  rw [if_pos (by decide), bind_ok]
  simp only
  rw [h3, bind_ok]
  simp only
  rw [if_neg (by simp)]
  rfl

/-- A sequence of game trees as in `TreesK` is read as its chain of trees. -/
theorem read_trees_k (fullprop : Bool) {tt : List Nat} {g : gametree} (h : TreesK tt g) :
    SeqOk fullprop tt g := by
  induction h with
  | nil =>
    intro fuel inp rest hrep hs hf
    obtain ⟨i, h1, h2, _⟩ := read_trees_ok fullprop TreesLoose.nil fuel inp rest hrep hs hf
    exact ⟨i, h1, h2⟩
  | cons w nt ct w2 rt nodes children sibs hw hnt hct hw2 hrt ihc ihr =>
    intro fuel inp rest hrep hs hf
    have e1 : (w ++ 40 :: (nt ++ (ct ++ (w2 ++ 41 :: rt)))) ++ rest
        = w ++ 40 :: (nt ++ (ct ++ (w2 ++ 41 :: (rt ++ rest)))) := by simp
    rw [e1] at hrep
    cases fuel with
    | zero => omega
    | succ n =>
      obtain ⟨k, h1⟩ := unit_cons fullprop hw hnt ihc (fun _ _ hs => hct.k_starts hs) hw2 n inp
        (rt ++ rest) hrep (by simp at hf ⊢; omega)
      obtain ⟨i3, h9, h10⟩ := ihr n _ rest (Rep.of_buf (rt ++ rest) k) hs
        (by simp at hf ⊢; omega)
      refine ⟨i3, ?_, h10⟩
      simp only [fresh] at h1
      rw [h1, h9, bind_ok, link_tree]
  | korean w pt nt ct w2 rt p ps nodes children sibs hw hpt hid hnt hct hw2 hrt ihc ihr =>
    intro fuel inp rest hrep hs hf
    have e1 : (w ++ 40 :: (pt ++ (nt ++ (ct ++ (w2 ++ 41 :: rt))))) ++ rest
        = w ++ 40 :: (pt ++ (nt ++ (ct ++ (w2 ++ 41 :: (rt ++ rest))))) := by simp
    rw [e1] at hrep
    cases fuel with
    | zero => omega
    | succ n =>
      obtain ⟨k, h1⟩ := unit_korean fullprop hw hpt hid hnt ihc (fun _ _ hs => hct.k_starts hs)
        hw2 n inp (rt ++ rest) hrep (by simp at hf ⊢; omega)
      obtain ⟨i3, h9, h10⟩ := ihr n _ rest (Rep.of_buf (rt ++ rest) k) hs
        (by simp at hf ⊢; omega)
      refine ⟨i3, ?_, h10⟩
      simp only [fresh] at h1
      rw [h1, h9, bind_ok, link_tree]
  | empty w w2 rt sibs hw hw2 hrt ih =>
    intro fuel inp rest hrep hs hf
    have e1 : (w ++ 40 :: (w2 ++ 41 :: rt)) ++ rest = w ++ 40 :: (w2 ++ 41 :: (rt ++ rest)) := by
      simp
    rw [e1] at hrep
    cases fuel with
    | zero => omega
    | succ n =>
      have h1 := unit_empty fullprop hw hw2 n inp (rt ++ rest) hrep
      obtain ⟨i3, h9, h10⟩ := ih n _ rest (Rep.of_buf (rt ++ rest) inp.warned) hs
        (by simp at hf ⊢; omega)
      refine ⟨i3, ?_, h10⟩
      simp only [fresh] at h1
      rw [h1, h9, bind_ok]
      rfl

/-- When the loop of `read_gametree_sequence` fails on a text `x` that starts with `(`,
it fails in the same way on `x` behind any sequence of trees. -/
theorem read_trees_fail (fullprop : Bool) (e : ReadErr) {tt : List Nat} {g : gametree}
    (h : TreesK tt g) (x : List Nat)
    (hx : ∀ (fuel : Nat) (inp : Input), Rep inp x → x.length + 1 < fuel →
      read_gametree_sequence fullprop fuel inp = .error e) :
    ∀ (fuel : Nat) (inp : Input), Rep inp (tt ++ x) → (tt ++ x).length + 1 < fuel →
      read_gametree_sequence fullprop fuel inp = .error e := by
  induction h with
  | nil =>
    intro fuel inp hrep hf
    exact hx fuel inp hrep hf
  | cons w nt ct w2 rt nodes children sibs hw hnt hct hw2 hrt _ ihr =>
    intro fuel inp hrep hf
    have e1 : (w ++ 40 :: (nt ++ (ct ++ (w2 ++ 41 :: rt)))) ++ x
        = w ++ 40 :: (nt ++ (ct ++ (w2 ++ 41 :: (rt ++ x)))) := by simp
    rw [e1] at hrep
    cases fuel with
    | zero => omega
    | succ n =>
      obtain ⟨k, h1⟩ := unit_cons fullprop hw hnt (read_trees_k fullprop hct)
        (fun _ _ hs => hct.k_starts hs) hw2 n inp (rt ++ x) hrep (by simp at hf ⊢; omega)
      rw [h1, ihr n _ (Rep.of_fresh (rt ++ x) k) (by simp at hf ⊢; omega)]
      rfl
  | korean w pt nt ct w2 rt p ps nodes children sibs hw hpt hid hnt hct hw2 hrt _ ihr =>
    intro fuel inp hrep hf
    have e1 : (w ++ 40 :: (pt ++ (nt ++ (ct ++ (w2 ++ 41 :: rt))))) ++ x
        = w ++ 40 :: (pt ++ (nt ++ (ct ++ (w2 ++ 41 :: (rt ++ x))))) := by simp
    rw [e1] at hrep
    cases fuel with
    | zero => omega
    | succ n =>
      obtain ⟨k, h1⟩ := unit_korean fullprop hw hpt hid hnt (read_trees_k fullprop hct)
        (fun _ _ hs => hct.k_starts hs) hw2 n inp (rt ++ x) hrep (by simp at hf ⊢; omega)
      rw [h1, ihr n _ (Rep.of_fresh (rt ++ x) k) (by simp at hf ⊢; omega)]
      rfl
  | empty w w2 rt sibs hw hw2 hrt ih =>
    intro fuel inp hrep hf
    have e1 : (w ++ 40 :: (w2 ++ 41 :: rt)) ++ x = w ++ 40 :: (w2 ++ 41 :: (rt ++ x)) := by
      simp
    rw [e1] at hrep
    cases fuel with
    | zero => omega
    | succ n =>
      have h1 := unit_empty fullprop hw hw2 n inp (rt ++ x) hrep
      rw [h1, ih n _ (Rep.of_fresh (rt ++ x) inp.warned) (by simp at hf ⊢; omega)]
      rfl

theorem bad_paren_fails (fullprop : Bool) {d : Nat} {x : List Nat} (h : BadParen d x) :
    Starts x (fun c => c = 40) ∧ GtsFails fullprop (.gametree_does_not_end d) x := by
  obtain ⟨w, w3, r, hw, hw3, hd, hz, h59, h41, h82, h78, h67, e⟩ := h
  subst e
  refine ⟨⟨w, 40, _, hw, by decide, by decide, rfl, rfl⟩, ?_⟩
  intro fuel inp hrep hf
  have h1 := mygetsym_next hrep hw (by decide)
  have h2 := mygetsym_next (Rep.of_buf (w3 ++ d :: r) inp.warned) hw3 hd
  have h3 := mygetsym_peek r hd hz inp.warned
  cases fuel with
  | zero => omega
  | succ n =>
    unfold read_gametree_sequence
    rw [h1, bind_ok]
    simp only [if_true]
    unfold read_baretree_sequence
    rw [h2, bind_ok]
    simp only
    rw [if_pos ⟨h59, h82, h78, h67⟩, bind_ok]
    simp only
    rw [h3, bind_ok]
    simp only
    rw [if_pos h41]

theorem bad_bare_fails (fullprop : Bool) {x : List Nat} (h : BadBare x) :
    Starts x (fun c => c = 40) ∧ GtsFails fullprop .empty_node_sequence_korean x := by
  obtain ⟨w, pt, y, p, ps, hw, hpt, hbad, ⟨c0, r0, e5, hc0⟩, hs, e⟩ := h
  subst e
  refine ⟨⟨w, 40, _, hw, by decide, by decide, rfl, rfl⟩, ?_⟩
  intro fuel inp hrep hf
  have h1 := mygetsym_next hrep hw (by decide)
  obtain ⟨wp, c, idr, r, hwp, e3, hup, e4⟩ := hpt.first_letter
  have ec : c0 = c := by rw [e3] at e5; injection e5 with h1 _; exact h1.symm
  subst ec
  have hc := upper_facts hup
  have e6 : pt ++ y = wp ++ c0 :: (r ++ y) := by rw [e4]; simp
  have hrepS : Rep (fresh (pt ++ y) inp.warned) (wp ++ c0 :: (r ++ y)) := by
    rw [← e6]
    exact Rep.of_buf _ _
  have h2 := mygetsym_next hrepS hwp hc.1
  simp only [fresh] at h2
  have hrep1 : Rep (peeked c0 (r ++ y) inp.warned) (pt ++ y) := by
    rw [e6]
    exact Rep.rep_of_peek _ hwp hc.1 hc.2.1 _
  have h2p := mygetsym_peek (r ++ y) hc.1 hc.2.1 inp.warned
  have hc59 : c0 ≠ 59 := by rcases hc0 with e | e | e <;> subst e <;> decide
  cases fuel with
  | zero => omega
  | succ n =>
    obtain ⟨i1, h3, h4, _⟩ := read_properties_ok fullprop hpt.props_loose (n + 1) _ y
      hrep1 hs (by simp at hf ⊢; omega)
    simp only [peeked] at h3
    unfold read_gametree_sequence
    rw [h1, bind_ok]
    simp only [if_true]
    unfold read_baretree_sequence
    rw [h2, bind_ok]
    simp only
    rw [if_neg (by
      intro hh
      rcases hc0 with e | e | e
      · exact hh.2.1 e
      · exact hh.2.2.1 e
      · exact hh.2.2.2 e)]
    unfold read_baretree read_sequence
    unfold read_node_sequence
    rw [h2p, bind_ok]
    simp only [hc59, if_false]
    rw [bind_ok]
    simp only [if_true]
    rw [if_pos (by
      rcases hc0 with e | e | e
      · exact Or.inl e
      · exact Or.inr (Or.inl e)
      · exact Or.inr (Or.inr e))]
    unfold read_korean_node_sequence read_property_sequence
    rw [h3, bind_ok, bind_ok]
    simp only
    rw [if_pos (by
      unfold bareAllowed at hbad
      refine ⟨fun e => hbad (Or.inl e), fun e => hbad (Or.inr (Or.inl e)),
        fun e => hbad (Or.inr (Or.inr (Or.inl e))), fun e => hbad (Or.inr (Or.inr (Or.inr e)))⟩)]
    rfl

/-- A failure of the tree loop on `y` is a failure on an open tree that holds `y` behind
its nodes. -/
theorem inside_fails (fullprop : Bool) (e : ReadErr) {w nt : List Nat} {nodes : List node}
    {y : List Nat} (hw : Ws w) (hnt : NodesText nt nodes) (hs : Starts y (fun c => c = 40))
    (hy : GtsFails fullprop e y) : GtsFails fullprop e (w ++ 40 :: (nt ++ y)) := by
  intro fuel inp hrep hf
  have hnt := hnt.nodes_loose
  have h1 := mygetsym_next hrep hw (by decide)
  have hY : Starts y (fun d => d = 40 ∨ d = 41) := hs.starts_mono fun d hd => Or.inl hd
  obtain ⟨w1, d1, r1, hw1, hd1, hz1, hp1, e2, h2⟩ :=
    mygetsym_starts (Rep.of_buf (nt ++ y) inp.warned) (hnt.nodes_starts.append _)
  subst hp1
  have hrep1 : Rep (peeked 59 r1 inp.warned) (nt ++ y) := by
    rw [e2]
    exact Rep.rep_of_peek _ hw1 hd1 hz1 _
  cases fuel with
  | zero => omega
  | succ n =>
    obtain ⟨i1, h3, h4, _⟩ := read_nodes_ok fullprop hnt (n + 1) _ _ hrep1 hY
      (by simp at hf ⊢; omega)
    simp only [peeked] at h3
    have h5 := hy n i1 (h4.rep hY) (by simp at hf ⊢; omega)
    unfold read_gametree_sequence
    rw [h1, bind_ok]
    simp only [if_true]
    unfold read_baretree_sequence
    rw [h2, bind_ok]
    simp only
    rw [if_neg (by simp)]
    unfold read_baretree read_sequence
    rw [h3, bind_ok]
    simp only [hnt.nodes_ne_nil, if_false]
    rw [bind_ok]
    simp only
    rw [h5]
    rfl

/-- Every text of the family `Fails B` makes the tree loop fail as its part `B` does. -/
theorem fails_gts (fullprop : Bool) (e : ReadErr) {B : List Nat → Prop}
    (hB : ∀ x, B x → Starts x (fun c => c = 40) ∧ GtsFails fullprop e x) {x : List Nat}
    (h : Fails B x) : Starts x (fun c => c = 40) ∧ GtsFails fullprop e x := by
  induction h with
  | base x hx => exact hB x hx
  | after tt g x htt _ ih =>
    refine ⟨(htt.k_starts ih.1).starts_mono fun d hd => by rcases hd with e | e <;> exact e, ?_⟩
    exact read_trees_fail fullprop e htt x ih.2
  | inside w nt nodes y hw hnt _ ih =>
    exact ⟨⟨w, 40, _, hw, by decide, by decide, rfl, rfl⟩,
      inside_fails fullprop e hw hnt ih.1 ih.2⟩

theorem parseFrom_some (multiin fullprop : Bool) (fuel : Nat) (s : List Nat) :
    parseFrom multiin fullprop fuel (some s)
      = (read_collection multiin fullprop fuel (fresh s 0)).bind fun g => .ok g.1 := rfl

/-- A file that starts with `(;` and on which the tree loop fails makes `readsgf` fail in
the same way. -/
theorem readsgf_fails (multiin fullprop : Bool) (e : ReadErr) (fuel : Nat) (w w1 r : List Nat)
    (hw : Ws w) (hw1 : Ws w1) (hx : GtsFails fullprop e (40 :: 59 :: r))
    (hf : (w ++ 40 :: (w1 ++ 59 :: r)).length + 1 < fuel) :
    readsgf multiin fullprop fuel (w ++ 40 :: (w1 ++ 59 :: r)) = .error e := by
  rw [readsgf_eq_start _ _ _ _ hf, gameStart_ws hw, gameStart, if_pos rfl, nextSym_ws hw1,
    nextSym, if_neg (by decide)]
  simp only [if_true]
  rw [parseFrom_some]
  unfold read_collection
  rw [hx fuel _ (Rep.of_fresh _ 0) (by simp at hf ⊢; omega)]
  rfl

/-- The same for a failure inside the first tree, behind its nodes. -/
theorem readsgf_fails_inside (multiin fullprop : Bool) (e : ReadErr) {B : List Nat → Prop}
    (hB : ∀ x, B x → Starts x (fun c => c = 40) ∧ GtsFails fullprop e x) (fuel : Nat)
    (w nt y : List Nat) (nodes : List node) (hw : Ws w) (hnt : NodesText nt nodes)
    (hy : Fails B y) (hf : (w ++ 40 :: (nt ++ y)).length + 1 < fuel) :
    readsgf multiin fullprop fuel (w ++ 40 :: (nt ++ y)) = .error e := by
  obtain ⟨w1, r, hw1, e1, hnt1⟩ := hnt.normal_text
  subst e1
  have h1 := fails_gts fullprop e hB hy
  have h2 := inside_fails fullprop e Ws.nil hnt1 h1.1 h1.2
  have e2 : w ++ 40 :: ((w1 ++ 59 :: r) ++ y) = w ++ 40 :: (w1 ++ 59 :: (r ++ y)) := by simp
  rw [e2] at hf ⊢
  exact readsgf_fails multiin fullprop e fuel w w1 (r ++ y) hw hw1 h2 hf

/-- The reader on a collection as in `CollectionK`. -/
theorem readsgf_k (multiin fullprop : Bool) (fuel : Nat) (text : List Nat) (g : gametree)
    (h : CollectionK text g) (hf : text.length + 1 < fuel) :
    readsgf multiin fullprop fuel text = .ok g := by
  obtain ⟨w, nt, ct, w2, rt, wend, nodes, children, sibs, hw, hnt, hct, hw2, hrt, hwend, e, eg⟩ := h
  subst e; subst eg
  obtain ⟨w1, r, hw1, e1, hnt1⟩ := hnt.normal_text
  subst e1
  have e2 : w ++ 40 :: ((w1 ++ 59 :: r) ++ (ct ++ (w2 ++ 41 :: rt))) ++ wend
      = w ++ 40 :: (w1 ++ 59 :: (r ++ (ct ++ (w2 ++ 41 :: rt)) ++ wend)) := by simp
  rw [e2] at hf ⊢
  rw [readsgf_eq_start _ _ _ _ hf, gameStart_ws hw, gameStart, if_pos rfl, nextSym_ws hw1,
    nextSym, if_neg (by decide)]
  simp only [if_true]
  have ht : TreesK ([] ++ 40 :: ((59 :: r) ++ (ct ++ (w2 ++ 41 :: rt))))
      (.tree nodes children sibs) :=
    TreesK.cons [] _ ct w2 rt nodes children sibs Ws.nil hnt1 hct hw2 hrt
  have e3 : 40 :: 59 :: (r ++ (ct ++ (w2 ++ 41 :: rt)) ++ wend)
      = ([] ++ 40 :: ((59 :: r) ++ (ct ++ (w2 ++ 41 :: rt)))) ++ wend := by simp
  obtain ⟨i1, h4, h5⟩ := read_trees_k fullprop ht fuel
    (fresh (40 :: 59 :: (r ++ (ct ++ (w2 ++ 41 :: rt)) ++ wend)) 0) wend
    (by rw [e3]; exact Rep.of_fresh _ 0) (Or.inr hwend) (by simp at hf ⊢; omega)
  have h6 := h5.eof hwend
  rw [parseFrom_some]
  unfold read_collection
  rw [h4, bind_ok]
  simp only
  rw [if_neg (by simp)]
  cases multiin with
  | false => rfl
  | true =>
    simp only [if_true]
    cases fuel with
    | zero => omega
    | succ n =>
      unfold read_more
      rw [skip_initial_garbage_eof n i1 h6.2.2, bind_ok]
      simp only [h6.2.2, if_true]
      rfl

theorem props_one {id b : List Nat} (hid : IdText id) (hb : ValBody b) :
    PropsText (id ++ 91 :: (b ++ [93])) [{ id := id, val := [b] }] := by
  have hv : ValuesText ([] ++ 91 :: (b ++ [93])) [b] := ValuesText.one [] b Ws.nil hb
  have hp := PropsText.cons [] id _ [] [b] [] Ws.nil hid hv PropsText.nil
  simpa using hp

theorem nodes_one {id b : List Nat} (hid : IdText id) (hb : ValBody b) :
    NodesText (59 :: (id ++ 91 :: (b ++ [93]))) [{ p := [{ id := id, val := [b] }] }] :=
  NodesText.one [] _ _ Ws.nil (props_one hid hb)

theorem idText_one {c : Nat} (h : is_upper_case c = true) : IdText [c] :=
  ⟨by simp, by simp, fun x hx => by rw [List.mem_singleton.mp hx]; exact h⟩

theorem pointNodes : NodesText [59, 66, 91, 97, 97, 93]
    [{ p := [{ id := [66], val := [[97, 97]] }] }] :=
  @nodes_one [66] [97, 97] (idText_one (by decide)) (ValBody.of_plain _ (by decide))

theorem Holds.holds_bind {α β : Type} {Q : α → Prop} {R : β → Prop} {x : Except ReadErr α}
    {f : α → Except ReadErr β} (hx : Holds Q x) (hf : ∀ a, Q a → Holds R (f a)) :
    Holds R (x.bind f) := by
  cases x with
  | error e => intro a h; cases h
  | ok a => exact hf a (hx a rfl)

theorem Holds.holds_ok {α : Type} {Q : α → Prop} {a : α} (h : Q a) :
    Holds Q (Except.ok a : Except ReadErr α) := by
  intro b hb; cases hb; exact h

theorem Holds.holds_error {α : Type} {Q : α → Prop} {e : ReadErr} :
    Holds Q (Except.error e : Except ReadErr α) := by
  intro b hb; cases hb

theorem Holds.any {α : Type} (x : Except ReadErr α) : Holds (fun _ => True) x :=
  fun _ _ => trivial

theorem ForestOk.null : ForestOk .null := fun p hp => by cases hp

theorem ForestOk.tree {ns : List node} {fc sib : gametree}
    (hns : ∀ nd ∈ ns, ∀ p ∈ nd.p, p.id ≠ [] ∧ p.val ≠ []) (hfc : ForestOk fc)
    (hsib : ForestOk sib) : ForestOk (.tree ns fc sib) := by
  intro p hp
  unfold propsOf at hp
  rcases List.mem_append.mp hp with h | h
  · obtain ⟨nd, h1, h2⟩ := List.mem_flatMap.mp h
    exact hns nd h1 p h2
  · rcases List.mem_append.mp h with h | h
    · exact hfc p h
    · exact hsib p h

theorem ForestOk.parts {ns : List node} {fc sib : gametree} (h : ForestOk (.tree ns fc sib)) :
    (∀ nd ∈ ns, ∀ p ∈ nd.p, p.id ≠ [] ∧ p.val ≠ []) ∧ ForestOk fc ∧ ForestOk sib := by
  refine ⟨?_, ?_, ?_⟩
  · intro nd h1 p h2
    exact h p (by
      unfold propsOf
      exact List.mem_append_left _ (List.mem_flatMap.mpr ⟨nd, h1, h2⟩))
  · intro p hp
    exact h p (by
      unfold propsOf
      exact List.mem_append_right _ (List.mem_append_left _ hp))
  · intro p hp
    exact h p (by
      unfold propsOf
      exact List.mem_append_right _ (List.mem_append_right _ hp))

theorem ForestOk.link {g rest : gametree} (hg : ForestOk g) (hr : ForestOk rest) :
    ForestOk (link g rest) := by
  cases g with
  | null => exact hr
  | tree ns fc sib =>
    obtain ⟨h1, h2, h3⟩ := hg.parts
    cases rest with
    | null => exact ForestOk.tree h1 h2 h3
    | tree a b c => exact ForestOk.tree h1 h2 hr

theorem bareChild_derives : CollectionK bareChildText bareChildTree :=
  ⟨[], [59, 66, 91, 97, 97, 93], [40, 67, 91, 120, 93, 41], [], [], [], _, _, .null, Ws.nil,
    pointNodes,
    TreesK.korean [] [67, 91, 120, 93] [] [] [] [] { id := [67], val := [[120]] } [] [] .null
      .null Ws.nil
      (@props_one [67] [120] (idText_one (by decide))
        (ValBody.of_plain _ (by decide)))
      (by decide) NodesOpt.none TreesK.nil Ws.nil TreesK.nil,
    Ws.nil, TreesK.nil, Ws.nil, rfl, rfl⟩

end Readsgf

namespace Readsgf


theorem RelE.rel_ok {α : Type} {R : α → α → Prop} {a b : α} (h : R a b) :
    RelE R (.ok a) (.ok b) := h

theorem RelE.rel_error {α : Type} {R : α → α → Prop} (e : ReadErr) :
    RelE R (.error e) (.error e) := rfl

theorem RelE.rel_bind {α β : Type} {R : α → α → Prop} {S : β → β → Prop}
    {x y : Except ReadErr α} {f g : α → Except ReadErr β} (h : RelE R x y)
    (hf : ∀ a b, R a b → RelE S (f a) (g b)) : RelE S (x.bind f) (y.bind g) := by
  cases x with
  | error e =>
    cases y with
    | error e2 =>
      have : e = e2 := h
      subst this
      exact RelE.rel_error e
    | ok b => exact h.elim
  | ok a =>
    cases y with
    | error e2 => exact h.elim
    | ok b => exact hf a b h

theorem RelE.rel_bind2 {α β : Type} {Q : α → Input → Input → Prop} {S : β → β → Prop}
    {x y : Except ReadErr (α × Input)} {f g : α × Input → Except ReadErr β}
    (h : RelE (fun a b => a.1 = b.1 ∧ Q a.1 a.2 b.2) x y)
    (hf : ∀ v a b, Q v a b → RelE S (f (v, a)) (g (v, b))) : RelE S (x.bind f) (y.bind g) := by
  refine RelE.rel_bind h ?_
  rintro ⟨v, a⟩ ⟨w, b⟩ ⟨h1, h2⟩
  simp only at h1 h2
  subst h1
  exact hf v a b h2

theorem RelE.rel_eq {α : Type} {x y : Except ReadErr α} (h : RelE Eq x y) : x = y := by
  cases x with
  | error e =>
    cases y with
    | error e2 =>
      have : e = e2 := h
      rw [this]
    | ok b => exact h.elim
  | ok a =>
    cases y with
    | error e2 => exact h.elim
    | ok b =>
      have : a = b := h
      rw [this]

theorem Ins.body_nil {u : List Nat} (h : Ins .body [] u) : u = [] := by
  cases h; rfl

theorem Ins.body_cons {c : Nat} {r u : List Nat} (h : Ins .body (c :: r) u) :
    ∃ s, u = c :: s ∧ Next c r s := by
  cases h with
  | plain h1 h2 h3 => exact ⟨_, rfl, Or.inl ⟨h1, h2, h3⟩⟩
  | bslash h1 => exact ⟨_, rfl, Or.inr (Or.inl ⟨rfl, h1⟩)⟩
  | close h1 h2 => exact ⟨_, rfl, Or.inr (Or.inr (Or.inl ⟨rfl, h1, h2⟩))⟩
  | unesc h1 h2 => exact ⟨_, rfl, Or.inr (Or.inr (Or.inr ⟨rfl, h1, h2⟩))⟩

theorem Ins.esc_nil {u : List Nat} (h : Ins .esc [] u) : u = [] := by
  cases h; rfl

theorem Ins.esc_cons {c : Nat} {r u : List Nat} (h : Ins .esc (c :: r) u) :
    ∃ s, u = c :: s ∧ Ins .body r s := by
  cases h with
  | escaped h1 => exact ⟨_, rfl, h1⟩

theorem Ins.sym_cons {c : Nat} {r s : List Nat} (h : Ins .sym (c :: r) (c :: s))
    (hw : iswhitespace c = false) (hc : c ≠ 91) : Ins .sym r s := by
  cases h with
  | ws h1 _ => rw [hw] at h1; cases h1
  | sym _ h2 => exact h2
  | opens _ => exact absurd rfl hc

/-- A byte that is no bracket and no backslash can stand before related texts. -/
theorem Ins.push {m : Lex} {r s : List Nat} (h : Ins m r s) (hm : m ≠ .esc) {c : Nat}
    (h1 : c ≠ 91) (h2 : c ≠ 92) (h3 : c ≠ 93) : Ins m (c :: r) (c :: s) := by
  cases m with
  | sym => exact Ins.sym h1 h
  | body => exact Ins.plain h3 h2 h
  | esc => exact absurd rfl hm

theorem ws_not_bracket {c : Nat} (h : iswhitespace c = true) : c ≠ 91 ∧ c ≠ 92 ∧ c ≠ 93 := by
  refine ⟨?_, ?_, ?_⟩ <;> (intro e; subst e; revert h; decide)

/-- Related texts have the same next symbol, and the rests are related. -/
theorem Ins.next {m : Lex} {t u : List Nat} (h : Ins m t u) : NextRel t u := by
  induction h with
  | done m => exact Or.inl ⟨rfl, rfl⟩
  | @ws c t u hc _ ih =>
    unfold NextRel
    rw [nextSym.eq_2 c u, if_pos hc]
    exact ih
  | @sym c t u hc h ih =>
    unfold NextRel
    rw [nextSym.eq_2 c t, nextSym.eq_2 c u]
    by_cases hw : iswhitespace c = true
    · rw [if_pos hw, if_pos hw]; exact ih
    · rw [if_neg hw, if_neg hw]
      exact Or.inr ⟨c, t, u, rfl, rfl, .sym, h, fun e => absurd e hc, fun e => by cases e⟩
  | @opens t u h _ =>
    unfold NextRel
    rw [nextSym.eq_2 91 t, nextSym.eq_2 91 u, if_neg (by decide), if_neg (by decide)]
    exact Or.inr ⟨91, t, u, rfl, rfl, .body, h, fun _ => rfl, fun e => by cases e⟩
  | @plain c t u h1 h2 h ih =>
    unfold NextRel
    rw [nextSym.eq_2 c t, nextSym.eq_2 c u]
    by_cases hw : iswhitespace c = true
    · rw [if_pos hw, if_pos hw]; exact ih
    · rw [if_neg hw, if_neg hw]
      exact Or.inr ⟨c, t, u, rfl, rfl, .body, h, fun _ => rfl, fun e => by cases e⟩
  | @bslash t u h _ =>
    unfold NextRel
    rw [nextSym.eq_2 92 t, nextSym.eq_2 92 u, if_neg (by decide), if_neg (by decide)]
    exact Or.inr ⟨92, t, u, rfl, rfl, .esc, h, fun e => absurd e (by decide), fun _ => rfl⟩
  | @escaped c t u h ih =>
    unfold NextRel
    rw [nextSym.eq_2 c t, nextSym.eq_2 c u]
    by_cases hw : iswhitespace c = true
    · rw [if_pos hw, if_pos hw]; exact ih
    · rw [if_neg hw, if_neg hw]
      exact Or.inr ⟨c, t, u, rfl, rfl, .body, h, fun _ => rfl, fun e => by cases e⟩
  | @close t u _ h _ =>
    unfold NextRel
    rw [nextSym.eq_2 93 t, nextSym.eq_2 93 u, if_neg (by decide), if_neg (by decide)]
    exact Or.inr ⟨93, t, u, rfl, rfl, .sym, h, fun e => absurd e (by decide), fun e => by cases e⟩
  | @unesc t u _ h _ =>
    unfold NextRel
    rw [nextSym.eq_2 93 t, nextSym.eq_2 93 u, if_neg (by decide), if_neg (by decide)]
    exact Or.inr ⟨93, t, u, rfl, rfl, .body, h, fun e => absurd e (by decide), fun e => by cases e⟩

/-- Inside a value body the next symbol is the same, and the texts from that symbol on
are related as texts of the body. -/
theorem Ins.body_next : ∀ {t u : List Nat}, Ins .body t u → ∀ {d : Nat} {r : List Nat},
    nextSym t = some (d, r) → ∃ s, nextSym u = some (d, s) ∧ Ins .body (d :: r) (d :: s) := by
  intro t
  induction t with
  | nil => intro u _ d r h; cases h
  | cons c t ih =>
    intro u h d r hn
    obtain ⟨s, e, hx⟩ := h.body_cons
    subst e
    rw [nextSym.eq_2] at hn ⊢
    by_cases hw : iswhitespace c = true
    · rw [if_pos hw] at hn ⊢
      obtain ⟨_, w2, w3⟩ := ws_not_bracket hw
      rcases hx with ⟨_, _, h3⟩ | ⟨e, _⟩ | ⟨e, _⟩ | ⟨e, _⟩
      · exact ih h3 hn
      · exact absurd e w2
      · exact absurd e w3
      · exact absurd e w3
    · rw [if_neg hw] at hn ⊢
      injection hn with hn
      injection hn with e1 e2
      subst e1; subst e2
      exact ⟨s, rfl, h⟩

/-- Outside the value bodies the next symbol is the same, and the texts from that
symbol on are related. -/
theorem Ins.sym_next {t u : List Nat} (h : Ins .sym t u) :
    (nextSym t = none ∧ nextSym u = none) ∨
      ∃ c r s, nextSym t = some (c, r) ∧ nextSym u = some (c, s) ∧
        Ins .sym (c :: r) (c :: s) := by
  generalize hm : Lex.sym = m at h
  induction h with
  | done m => exact Or.inl ⟨rfl, rfl⟩
  | @ws c t u hc _ ih =>
    rw [nextSym.eq_2 c u, if_pos hc]
    exact ih hm
  | @sym c t u hc h ih =>
    rw [nextSym.eq_2 c t, nextSym.eq_2 c u]
    by_cases hw : iswhitespace c = true
    · rw [if_pos hw, if_pos hw]; exact ih hm
    · rw [if_neg hw, if_neg hw]
      exact Or.inr ⟨c, t, u, rfl, rfl, Ins.sym hc h⟩
  | @opens t u h _ =>
    rw [nextSym.eq_2 91 t, nextSym.eq_2 91 u, if_neg (by decide), if_neg (by decide)]
    exact Or.inr ⟨91, t, u, rfl, rfl, Ins.opens h⟩
  | plain _ _ _ _ => cases hm
  | bslash _ _ => cases hm
  | escaped _ _ => cases hm
  | close _ _ _ => cases hm
  | unesc _ _ _ => cases hm

theorem Input.eq_fresh (i : Input) (hp : i.peekc = 0) (he : i.eof = false) :
    i = fresh i.buf i.warned := by
  cases i
  simp only at hp he
  subst hp; subst he
  rfl

theorem skip_whitespace_fresh (k : Nat) (t : List Nat) :
    skip_whitespace false k t = mygetsym (fresh t k) := by
  cases t with
  | nil => rfl
  | cons c r =>
    unfold skip_whitespace mygetsym mygetchar
    simp only [fresh, Bool.false_eq_true, if_false, ne_eq, not_true_eq_false, bind_ok]

theorem skip_whitespace_eof (k : Nat) (t : List Nat) :
    skip_whitespace true k t = .error .mygetchar_called_after_eof := by
  cases t <;> simp [skip_whitespace]

theorem SymRel.rel {Q : Nat → Input → Input → Prop} {x y : Except ReadErr (Nat × Input)}
    (h : SymRel Q x y) : RelE (fun a b => a.1 = b.1 ∧ Q a.1 a.2 b.2) x y := by
  rcases h with ⟨e, h1, h2⟩ | ⟨c, a, b, h1, h2, h3⟩
  · rw [h1, h2]; exact RelE.rel_error e
  · rw [h1, h2]; exact RelE.rel_ok ⟨rfl, h3⟩

theorem SymRel.sym_bind {β : Type} {Q : Nat → Input → Input → Prop} {S : β → β → Prop}
    {x y : Except ReadErr (Nat × Input)} {f g : Nat × Input → Except ReadErr β}
    (h : SymRel Q x y)
    (hf : ∀ c a b, Q c a b → RelE S (f (c, a)) (g (c, b))) : RelE S (x.bind f) (y.bind g) :=
  RelE.rel_bind2 h.rel hf

theorem RelP.rel_bindp {α β : Type} {Q : Input → Input → Prop} {S : β → β → Prop}
    {x y : Except ReadErr (α × Input)} {f g : α × Input → Except ReadErr β}
    (h : RelP Q x y)
    (hf : ∀ v a b, Q a b → RelE S (f (v, a)) (g (v, b))) : RelE S (x.bind f) (y.bind g) :=
  RelE.rel_bind2 (Q := fun _ a b => Q a b) h hf

theorem RelP.rel_okp {α : Type} {Q : Input → Input → Prop} {v : α} {a b : Input}
    (h : Q a b) : RelP Q (.ok (v, a)) (.ok (v, b)) := RelE.rel_ok ⟨rfl, h⟩

theorem RelP.rel_errorp {α : Type} {Q : Input → Input → Prop} (e : ReadErr) :
    @RelP α Q (.error e) (.error e) := RelE.rel_error e

theorem mygetsym_of_peek (i : Input) (h : i.peekc ≠ 0) :
    mygetsym i = if iswhitespace i.peekc then skip_whitespace i.eof i.warned i.buf
      else .ok (i.peekc, { i with peekc := 0 }) := by
  unfold mygetsym mygetchar
  rw [if_pos h]
  rfl

theorem mygetsym_of_eof (i : Input) (h0 : i.peekc = 0) (he : i.eof = true) :
    mygetsym i = .error .mygetchar_called_after_eof := by
  unfold mygetsym mygetchar
  rw [if_neg (by simpa using h0), if_pos he]
  rfl

theorem mygetsym_fresh_rel {m : Lex} {t u : List Nat} (h : Ins m t u) (k : Nat) :
    SymRel Out (mygetsym (fresh t k)) (mygetsym (fresh u k)) := by
  rw [mygetsym_fresh, mygetsym_fresh]
  rcases h.next with ⟨h1, h2⟩ | ⟨c, r, s, h1, h2, m2, hm, ha, hb⟩
  · rw [h1, h2]
    exact Or.inr ⟨0, ended k, ended k, rfl, rfl, rfl, rfl, rfl, rfl, .sym, Ins.done _,
      fun e => absurd e (by decide), fun e => by cases e⟩
  · rw [h1, h2]
    exact Or.inr ⟨c, fresh r k, fresh s k, rfl, rfl, rfl, rfl, rfl, rfl, m2, hm, ha, hb⟩

/-- From related states `mygetsym` returns the same symbol. -/
theorem mygetsym_rel {i j : Input} (h : SRel i j) : SymRel Out (mygetsym i) (mygetsym j) := by
  obtain ⟨hp, he, hk, m, hm, ha, hb⟩ := h
  by_cases h0 : i.peekc = 0
  · have h0j : j.peekc = 0 := by rw [← hp]; exact h0
    cases hE : i.eof with
    | false =>
      have e1 := i.eq_fresh h0 hE
      have e2 := j.eq_fresh h0j (by rw [← he]; exact hE)
      rw [e1, e2, ← hk]
      exact mygetsym_fresh_rel hm _
    | true =>
      exact Or.inl ⟨_, mygetsym_of_eof i h0 hE, mygetsym_of_eof j h0j (by rw [← he]; exact hE)⟩
  · have h0j : j.peekc ≠ 0 := by rw [← hp]; exact h0
    rw [mygetsym_of_peek i h0, mygetsym_of_peek j h0j, ← hp, ← he, ← hk]
    by_cases hw : iswhitespace i.peekc = true
    · rw [if_pos hw, if_pos hw]
      cases hE : i.eof with
      | false =>
        rw [skip_whitespace_fresh, skip_whitespace_fresh]
        exact mygetsym_fresh_rel hm _
      | true =>
        exact Or.inl ⟨_, skip_whitespace_eof _ _, skip_whitespace_eof _ _⟩
    · rw [if_neg hw, if_neg hw]
      exact Or.inr ⟨_, _, _, rfl, rfl, rfl, rfl, rfl, rfl, m, hm, ha,
        fun e => (hb e).resolve_right h0⟩

theorem Out.peek {c : Nat} {a b : Input} (h : Out c a b) :
    SRel { a with peekc := c } { b with peekc := c } := by
  obtain ⟨_, _, he, hk, m, hm, ha, hb⟩ := h
  exact ⟨rfl, he, hk, m, hm, ha, fun e => Or.inl (hb e)⟩

theorem Out.srel {c : Nat} {a b : Input} (h : Out c a b) : SRel a b := by
  obtain ⟨h1, h2, he, hk, m, hm, _, _⟩ := h
  exact ⟨h1.trans h2.symm, he, hk, m, hm, fun e => absurd (h1.symm.trans e) (by decide),
    fun _ => Or.inr h1⟩

theorem Out.vrel {a b : Input} (h : Out 91 a b) : VRel a b := by
  obtain ⟨h1, h2, he, hk, m, hm, ha, _⟩ := h
  refine ⟨h1.trans h2.symm, he, hk, ?_⟩
  unfold unpeek
  rw [if_pos h1, if_pos h2, ← ha rfl]
  exact hm

/-- After `mygetsym` has returned a symbol that is no bracket and no backslash, the
symbol can be pushed back, and `(` and `;` before it. -/
theorem Out.push_back {c : Nat} {a b : Input} (h : Out c a b) (h1 : c ≠ 91) (h2 : c ≠ 92)
    (h3 : c ≠ 93) (l : List Nat) (hl : ∀ x ∈ l, x ≠ 91 ∧ x ≠ 92 ∧ x ≠ 93) :
    SRel { a with buf := l ++ c :: a.buf } { b with buf := l ++ c :: b.buf } := by
  obtain ⟨p1, p2, he, hk, m, hm, _, hb⟩ := h
  have hne : m ≠ .esc := fun e => h2 (hb e)
  refine ⟨p1.trans p2.symm, he, hk, m, ?_, fun e => absurd (p1.symm.trans e) (by decide),
    fun e => absurd e hne⟩
  induction l with
  | nil => exact hm.push hne h1 h2 h3
  | cons x l ih =>
    obtain ⟨x1, x2, x3⟩ := hl x (List.mem_cons_self _ _)
    exact (ih fun y hy => hl y (List.mem_cons_of_mem _ hy)).push hne x1 x2 x3

/-- From related states inside a value body `mygetchar` returns the same byte. -/
theorem mygetchar_body {i j : Input} (h : VRel i j) :
    SymRel Nx (mygetchar i) (mygetchar j) := by
  obtain ⟨bi, p, e, k⟩ := i
  obtain ⟨bj, pj, ej, kj⟩ := j
  obtain ⟨hp, he, hk, hI⟩ := h
  simp only at hp he hk
  subst hp; subst he; subst hk
  unfold unpeek at hI
  simp only at hI
  unfold mygetchar
  by_cases h0 : p = 0
  · subst h0
    simp only [ne_eq, not_true_eq_false, if_false, if_true] at hI ⊢
    cases e with
    | true => exact Or.inl ⟨_, rfl, rfl⟩
    | false =>
      simp only [Bool.false_eq_true, if_false]
      cases bi with
      | nil =>
        have := hI.body_nil
        subst this
        exact Or.inr ⟨0, _, _, rfl, rfl, rfl, rfl, rfl, rfl,
          Or.inl ⟨by decide, by decide, Ins.done _⟩⟩
      | cons c r =>
        obtain ⟨s, e1, hx⟩ := hI.body_cons
        subst e1
        exact Or.inr ⟨c, _, _, rfl, rfl, rfl, rfl, rfl, rfl, hx⟩
  · rw [if_neg h0, if_neg h0] at hI
    obtain ⟨s, e1, hx⟩ := hI.body_cons
    injection e1 with _ e1
    subst e1
    simp only [ne_eq, h0, not_false_eq_true, if_true]
    exact Or.inr ⟨p, _, _, rfl, rfl, rfl, rfl, rfl, rfl, hx⟩

/-- After a backslash `mygetchar` returns the same byte, and the value goes on. -/
theorem mygetchar_esc {a b : Input} (hp : a.peekc = 0) (hq : b.peekc = 0) (he : a.eof = b.eof)
    (hk : a.warned = b.warned) (hI : Ins .esc a.buf b.buf) :
    RelP VRel (mygetchar a) (mygetchar b) := by
  obtain ⟨bi, p, e, k⟩ := a
  obtain ⟨bj, pj, ej, kj⟩ := b
  simp only at hp hq he hk hI
  subst hp; subst hq; subst he; subst hk
  unfold mygetchar
  simp only [ne_eq, not_true_eq_false, if_false]
  cases e with
  | true => exact RelE.rel_error _
  | false =>
    simp only [Bool.false_eq_true, if_false]
    cases bi with
    | nil =>
      have := hI.esc_nil
      subst this
      exact RelE.rel_ok ⟨rfl, rfl, rfl, rfl, Ins.done _⟩
    | cons c r =>
      obtain ⟨s, e1, hx⟩ := hI.esc_cons
      subst e1
      exact RelE.rel_ok ⟨rfl, rfl, rfl, rfl, hx⟩

theorem mygetsym_closes {a a2 : Input} {d : Nat} (h : mygetsym a = .ok (d, a2))
    (hp : a.peekc = 0) (hc : closes a.buf = true) : ends_value d = true := by
  cases hE : a.eof with
  | true =>
    rw [mygetsym_of_eof a hp hE] at h
    cases h
  | false =>
    rw [a.eq_fresh hp hE, mygetsym_fresh] at h
    unfold closes at hc
    cases hn : nextSym a.buf with
    | none => rw [hn] at hc; cases hc
    | some x =>
      rw [hn] at hc h
      injection h with h
      injection h with h1 h2
      rw [← h1]
      exact hc

/-- The symbol after a `]` that does not end the value: the same on both sides, and the
value goes on from it. -/
theorem mygetsym_body {a b : Input} (hp : a.peekc = 0) (hq : b.peekc = 0) (he : a.eof = b.eof)
    (hk : a.warned = b.warned) (hI : Ins .body a.buf b.buf) (hc : closes a.buf = false) :
    SymRel (fun d a2 b2 => ends_value d = false ∧
        VRel { a2 with peekc := d, warned := a2.warned + 1 }
          { b2 with peekc := d, warned := b2.warned + 1 })
      (mygetsym a) (mygetsym b) := by
  cases hE : a.eof with
  | true =>
    exact Or.inl ⟨_, mygetsym_of_eof a hp hE, mygetsym_of_eof b hq (by rw [← he]; exact hE)⟩
  | false =>
    rw [a.eq_fresh hp hE, b.eq_fresh hq (by rw [← he]; exact hE), ← hk, mygetsym_fresh,
      mygetsym_fresh]
    unfold closes at hc
    cases hn : nextSym a.buf with
    | none =>
      have hn2 : nextSym b.buf = none := by
        rcases hI.next with ⟨_, h2⟩ | ⟨c, r, s, h1, _⟩
        · exact h2
        · rw [hn] at h1; cases h1
      rw [hn2]
      exact Or.inr ⟨0, _, _, rfl, rfl, by decide, rfl, rfl, rfl, Ins.done _⟩
    | some x =>
      obtain ⟨d, r⟩ := x
      obtain ⟨s, hn2, hds⟩ := hI.body_next hn
      rw [hn] at hc
      rw [hn2]
      refine Or.inr ⟨d, _, _, rfl, rfl, hc, rfl, rfl, rfl, ?_⟩
      unfold unpeek
      simp only [fresh]
      by_cases hd : d = 0
      · rw [if_pos hd, if_pos hd]
        obtain ⟨s2, e2, hx⟩ := hds.body_cons
        injection e2 with _ e2
        subst e2
        rcases hx with ⟨_, _, h3⟩ | ⟨e, _⟩ | ⟨e, _⟩ | ⟨e, _⟩
        · exact h3
        · rw [hd] at e; cases e
        · rw [hd] at e; cases e
        · rw [hd] at e; cases e
      · rw [if_neg hd, if_neg hd]
        exact hds

/-- The value reader gives the same value from related states. -/
theorem read_value_rel (n : Nat) : ∀ (acc : List Nat) (i j : Input), VRel i j →
    RelP SRel (read_propvalue_following_sq n acc i) (read_propvalue_following_sq n acc j) := by
  induction n with
  | zero => intro acc i j _; exact RelE.rel_error _
  | succ n ih =>
    intro acc i j h
    unfold read_propvalue_following_sq
    refine (mygetchar_body h).sym_bind ?_
    intro c a b hn
    obtain ⟨hp, hq, he, hk, hx⟩ := hn
    simp only
    by_cases h93 : c = 93
    · rw [if_pos h93, if_pos h93]
      rcases hx with ⟨e, _⟩ | ⟨e, _⟩ | ⟨_, hc, hI⟩ | ⟨_, hc, hI⟩
      · exact absurd h93 e
      · rw [h93] at e; cases e
      · have hs : SRel a b :=
          ⟨hp.trans hq.symm, he, hk, .sym, hI, fun e => absurd (hp.symm.trans e) (by decide),
            fun e => Lex.noConfusion e⟩
        rcases mygetsym_rel hs with ⟨e, h1, h2⟩ | ⟨d, a2, b2, h1, h2, ho⟩
        · rw [h1, h2]; exact RelE.rel_error e
        · rw [h1, h2, bind_ok, bind_ok]
          simp only
          have hd := mygetsym_closes h1 hp hc
          rw [if_pos hd, if_pos hd]
          exact RelP.rel_okp ho.peek
      · refine (mygetsym_body hp hq he hk hI hc).sym_bind ?_
        intro d a2 b2 hd
        simp only
        rw [if_neg (by rw [hd.1]; decide), if_neg (by rw [hd.1]; decide)]
        exact ih _ _ _ hd.2
    · rw [if_neg h93, if_neg h93]
      by_cases h92 : c = 92
      · rw [if_pos h92, if_pos h92]
        rcases hx with ⟨_, e, _⟩ | ⟨_, hI⟩ | ⟨e, _⟩ | ⟨e, _⟩
        · exact absurd h92 e
        · refine RelP.rel_bindp (mygetchar_esc hp hq he hk hI) ?_
          intro v a2 b2 hv
          exact ih _ _ _ hv
        · exact absurd e h93
        · exact absurd e h93
      · rw [if_neg h92, if_neg h92]
        rcases hx with ⟨_, _, hI⟩ | ⟨e, _⟩ | ⟨e, _⟩ | ⟨e, _⟩
        · refine ih _ _ _ ⟨hp.trans hq.symm, he, hk, ?_⟩
          unfold unpeek
          rw [if_pos hp, if_pos hq]
          exact hI
        · exact absurd e h92
        · exact absurd e h93
        · exact absurd e h93

theorem read_values_rel (n : Nat) : ∀ (i j : Input), SRel i j →
    RelP SRel (read_propvalue_sequence n i) (read_propvalue_sequence n j) := by
  induction n with
  | zero => intro i j _; exact RelE.rel_error _
  | succ n ih =>
    intro i j h
    unfold read_propvalue_sequence
    refine (mygetsym_rel h).sym_bind ?_
    intro c a b ho
    simp only
    by_cases hc : c = 91
    · subst hc
      simp only [if_true]
      refine RelP.rel_bindp (read_value_rel (n + 1) [] a b ho.vrel) ?_
      intro v a2 b2 h2
      refine RelP.rel_bindp (ih a2 b2 h2) ?_
      intro vs a3 b3 h3
      exact RelP.rel_okp h3
    · simp only [if_neg hc]
      exact RelP.rel_okp ho.peek

theorem read_propid_rel (fullprop : Bool) (n : Nat) : ∀ (p q : List Nat) (i j : Input),
    SRel i j → RelP SRel (read_propid fullprop n p q i) (read_propid fullprop n p q j) := by
  induction n with
  | zero => intro p q i j _; exact RelE.rel_error _
  | succ n ih =>
    intro p q i j h
    unfold read_propid
    refine (mygetsym_rel h).sym_bind ?_
    intro c a b ho
    simp only
    by_cases hl : ¬ (is_upper_case c || is_lower_case c) = true
    · simp only [if_pos hl]
      by_cases hp : p = []
      · simp only [if_pos hp]
        exact RelE.rel_error _
      · simp only [if_neg hp]
        by_cases hlen : p.length ≥ 104
        · simp only [if_pos hlen]
          exact RelE.rel_error _
        · simp only [if_neg hlen]
          exact RelP.rel_okp ho.peek
    · simp only [if_neg hl]
      exact ih _ _ a b ho.srel

theorem read_property_rel (fullprop : Bool) (fuel : Nat) (i j : Input) (h : SRel i j) :
    RelP SRel (read_property fullprop fuel i) (read_property fullprop fuel j) := by
  unfold read_property
  refine RelP.rel_bindp (read_propid_rel fullprop fuel [] [] i j h) ?_
  intro id a b h1
  simp only
  refine RelP.rel_bindp (read_values_rel fuel a b h1) ?_
  intro v a2 b2 h2
  simp only
  by_cases hv : v = []
  · simp only [if_pos hv]
    exact RelE.rel_error _
  · simp only [if_neg hv]
    exact RelP.rel_okp h2

theorem read_properties_rel (fullprop : Bool) (n : Nat) : ∀ (i j : Input), SRel i j →
    RelP SRel (read_properties fullprop n i) (read_properties fullprop n j) := by
  induction n with
  | zero => intro i j _; exact RelE.rel_error _
  | succ n ih =>
    intro i j h
    unfold read_properties
    refine (mygetsym_rel h).sym_bind ?_
    intro c a b ho
    simp only
    by_cases hl : ¬ (is_upper_case c || is_lower_case c) = true
    · simp only [if_pos hl]
      exact RelP.rel_okp ho.peek
    · simp only [if_neg hl]
      refine RelP.rel_bindp (read_property_rel fullprop (n + 1) _ _ ho.peek) ?_
      intro p a2 b2 h2
      refine RelP.rel_bindp (ih a2 b2 h2) ?_
      intro ps a3 b3 h3
      exact RelP.rel_okp h3

theorem read_property_sequence_rel (fullprop : Bool) (fuel : Nat) (i j : Input)
    (h : SRel i j) :
    RelP SRel (read_property_sequence fullprop fuel i)
      (read_property_sequence fullprop fuel j) := by
  unfold read_property_sequence
  refine RelP.rel_bindp (read_properties_rel fullprop fuel i j h) ?_
  intro ps a b h1
  exact RelP.rel_okp h1

theorem read_nodes_rel (fullprop : Bool) (n : Nat) : ∀ (i j : Input), SRel i j →
    RelP SRel (read_node_sequence fullprop n i) (read_node_sequence fullprop n j) := by
  induction n with
  | zero => intro i j _; exact RelE.rel_error _
  | succ n ih =>
    intro i j h
    unfold read_node_sequence
    refine (mygetsym_rel h).sym_bind ?_
    intro c a b ho
    simp only
    by_cases hc : c = 59
    · simp only [if_pos hc]
      refine RelP.rel_bindp (read_property_sequence_rel fullprop (n + 1) a b ho.srel) ?_
      intro nd a2 b2 h2
      refine RelP.rel_bindp (ih a2 b2 h2) ?_
      intro nds a3 b3 h3
      exact RelP.rel_okp h3
    · simp only [if_neg hc]
      exact RelP.rel_okp ho.peek

theorem read_korean_rel (fullprop : Bool) (fuel : Nat) (i j : Input) (h : SRel i j) :
    RelP SRel (read_korean_node_sequence fullprop fuel i)
      (read_korean_node_sequence fullprop fuel j) := by
  unfold read_korean_node_sequence
  refine RelP.rel_bindp (read_property_sequence_rel fullprop fuel i j h) ?_
  intro nd a b h1
  simp only
  cases hp : nd.p with
  | nil => exact RelE.rel_error _
  | cons p ps =>
    simp only
    by_cases hid : p.id ≠ [82, 78] ∧ p.id ≠ [82, 70] ∧ p.id ≠ [78] ∧ p.id ≠ [67]
    · simp only [if_pos hid]
      exact RelE.rel_error _
    · simp only [if_neg hid]
      refine RelP.rel_bindp (read_nodes_rel fullprop fuel a b h1) ?_
      intro ns a2 b2 h2
      exact RelP.rel_okp h2

theorem read_sequence_rel (fullprop : Bool) (fuel : Nat) (i j : Input) (h : SRel i j) :
    RelP SRel (read_sequence fullprop fuel i) (read_sequence fullprop fuel j) := by
  unfold read_sequence
  refine RelP.rel_bindp (read_nodes_rel fullprop fuel i j h) ?_
  intro ns a b h1
  simp only
  by_cases hn : ns = []
  · simp only [if_pos hn]
    rw [← h1.1]
    by_cases hk : a.peekc = 82 ∨ a.peekc = 78 ∨ a.peekc = 67
    · simp only [if_pos hk]
      refine RelP.rel_bindp (read_korean_rel fullprop fuel a b h1) ?_
      intro k a2 b2 h2
      exact RelP.rel_okp h2
    · simp only [if_neg hk]
      exact RelE.rel_error _
  · simp only [if_neg hn]
    exact RelP.rel_okp h1

theorem read_baretree_rel (fullprop : Bool) (fuel : Nat)
    (rgs : Input → Except ReadErr (gametree × Input))
    (hr : ∀ i j, SRel i j → RelP SRel (rgs i) (rgs j)) (i j : Input) (h : SRel i j) :
    RelP SRel (read_baretree fullprop fuel rgs i) (read_baretree fullprop fuel rgs j) := by
  unfold read_baretree
  refine RelP.rel_bindp (read_sequence_rel fullprop fuel i j h) ?_
  intro s a b h1
  refine RelP.rel_bindp (hr a b h1) ?_
  intro g a2 b2 h2
  exact RelP.rel_okp h2

theorem read_baretree_sequence_rel (fullprop : Bool)
    (rgs : Input → Except ReadErr (gametree × Input))
    (hr : ∀ i j, SRel i j → RelP SRel (rgs i) (rgs j)) (n : Nat) :
    ∀ (i j : Input), SRel i j →
      RelP SRel (read_baretree_sequence fullprop rgs n i)
        (read_baretree_sequence fullprop rgs n j) := by
  induction n with
  | zero => intro i j _; exact RelE.rel_error _
  | succ n ih =>
    intro i j h
    unfold read_baretree_sequence
    refine (mygetsym_rel h).sym_bind ?_
    intro c a b ho
    simp only
    by_cases hc : c ≠ 59 ∧ c ≠ 82 ∧ c ≠ 78 ∧ c ≠ 67
    · simp only [if_pos hc]
      exact RelP.rel_okp ho.peek
    · simp only [if_neg hc]
      refine RelP.rel_bindp (read_baretree_rel fullprop (n + 1) rgs hr _ _ ho.peek) ?_
      intro gh a2 b2 h2
      refine (mygetsym_rel h2).sym_bind ?_
      intro d a3 b3 ho3
      simp only
      by_cases hd : d = 59 ∨ d = 67 ∨ d = 82
      · simp only [if_pos hd]
        refine RelP.rel_bindp (ih _ _ ho3.peek) ?_
        intro g a4 b4 h4
        simp only
        cases g with
        | null => exact RelE.rel_error _
        | tree ns fc sib =>
          cases gh with
          | null => exact RelE.rel_error _
          | tree ns0 fc0 sib0 => exact RelP.rel_okp h4
      · simp only [if_neg hd]
        exact RelP.rel_okp ho3.peek

theorem read_gametree_sequence_rel (fullprop : Bool) (n : Nat) : ∀ (i j : Input), SRel i j →
    RelP SRel (read_gametree_sequence fullprop n i) (read_gametree_sequence fullprop n j) := by
  induction n with
  | zero => intro i j _; exact RelE.rel_error _
  | succ n ih =>
    intro i j h
    unfold read_gametree_sequence
    refine (mygetsym_rel h).sym_bind ?_
    intro c a b ho
    simp only
    by_cases hc : c = 40
    · simp only [if_pos hc]
      refine RelP.rel_bindp
        (read_baretree_sequence_rel fullprop _ ih (n + 1) a b ho.srel) ?_
      intro g a2 b2 h2
      refine (mygetsym_rel h2).sym_bind ?_
      intro d a3 b3 ho3
      simp only
      by_cases hd : d ≠ 41
      · simp only [if_pos hd]
        exact RelE.rel_error _
      · simp only [if_neg hd]
        refine RelP.rel_bindp (ih a3 b3 ho3.srel) ?_
        intro rest a4 b4 h4
        exact RelP.rel_okp h4
    · simp only [if_neg hc]
      exact RelP.rel_okp ho.peek

theorem skip_initial_garbage_rel (n : Nat) : ∀ (i j : Input), SRel i j →
    RelE SRel (skip_initial_garbage n i) (skip_initial_garbage n j) := by
  induction n with
  | zero => intro i j _; exact RelE.rel_error _
  | succ n ih =>
    intro i j h
    unfold skip_initial_garbage
    rw [← h.2.1]
    by_cases he : i.eof = true
    · simp only [if_pos he]
      exact RelE.rel_ok h
    · simp only [if_neg he]
      refine (mygetsym_rel h).sym_bind ?_
      intro c a b ho
      simp only
      by_cases hc : c = 40
      · simp only [if_pos hc]
        refine (mygetsym_rel ho.srel).sym_bind ?_
        intro d a2 b2 ho2
        simp only
        by_cases h59 : d = 59
        · subst h59
          simp only [if_true]
          exact RelE.rel_ok
            (ho2.push_back (by decide) (by decide) (by decide) [40] (by decide))
        · simp only [if_neg h59]
          by_cases h84 : d = 84
          · subst h84
            simp only [if_true]
            exact RelE.rel_ok
              (ho2.push_back (by decide) (by decide) (by decide) [40, 59] (by decide))
          · simp only [if_neg h84]
            exact ih _ _ ho2.peek
      · simp only [if_neg hc]
        exact ih a b ho.srel

theorem read_more_rel (fullprop : Bool) (n : Nat) : ∀ (g : gametree) (i j : Input), SRel i j →
    RelP SRel (read_more fullprop n g i) (read_more fullprop n g j) := by
  induction n with
  | zero => intro g i j _; exact RelE.rel_error _
  | succ n ih =>
    intro g i j h
    cases g with
    | null =>
      unfold read_more
      exact RelP.rel_okp h
    | tree ns fc sib =>
      unfold read_more
      refine RelE.rel_bind (skip_initial_garbage_rel (n + 1) i j h) ?_
      intro a b h1
      rw [← h1.2.1]
      by_cases he : a.eof = true
      · simp only [if_pos he]
        exact RelP.rel_okp h1
      · simp only [if_neg he]
        refine RelP.rel_bindp (read_gametree_sequence_rel fullprop (n + 1) a b h1) ?_
        intro gn a2 b2 h2
        refine RelP.rel_bindp (ih gn a2 b2 h2) ?_
        intro r a3 b3 h3
        exact RelP.rel_okp h3

theorem read_collection_rel (multiin fullprop : Bool) (fuel : Nat) (i j : Input)
    (h : SRel i j) :
    RelP SRel (read_collection multiin fullprop fuel i)
      (read_collection multiin fullprop fuel j) := by
  unfold read_collection
  refine RelP.rel_bindp (read_gametree_sequence_rel fullprop fuel i j h) ?_
  intro g a b h1
  simp only
  by_cases hg : g = .null
  · simp only [if_pos hg]
    exact RelE.rel_error _
  · simp only [if_neg hg]
    cases multiin with
    | true =>
      rw [if_pos rfl, if_pos rfl]
      exact read_more_rel fullprop fuel g a b h1
    | false =>
      rw [if_neg (by decide), if_neg (by decide)]
      exact RelP.rel_okp h1

theorem SRel.of_sym {t u : List Nat} (h : Ins .sym t u) (e : Bool) (k : Nat) :
    SRel { buf := t, peekc := 0, eof := e, warned := k }
      { buf := u, peekc := 0, eof := e, warned := k } :=
  ⟨rfl, rfl, rfl, .sym, h, fun x => absurd (show (0 : Nat) = 91 from x) (by decide),
    fun x => Lex.noConfusion x⟩

theorem nextSym_not_ws {t r : List Nat} {c : Nat} (h : nextSym t = some (c, r)) :
    iswhitespace c = false := by
  obtain ⟨_, _, hc, _⟩ := nextSym_some h
  exact hc

/-- One symbol of the test for the byte order mark: the same symbol on both sides, and
the texts from the symbol on and after the symbol are related. -/
theorem bom_step {t u : List Nat} (h : Ins .sym t u) (x : Nat) (hx : x ≠ 91) (k : Nat) :
    (mygetsym (fresh t k) = .ok (0, ended k) ∧ mygetsym (fresh u k) = .ok (0, ended k)) ∨
      ∃ c r s, mygetsym (fresh t k) = .ok (c, fresh r k) ∧
        mygetsym (fresh u k) = .ok (c, fresh s k) ∧ Ins .sym (c :: r) (c :: s) ∧
        (c = x → Ins .sym r s) := by
  rw [mygetsym_fresh, mygetsym_fresh]
  rcases h.sym_next with ⟨h1, h2⟩ | ⟨c, r, s, h1, h2, hI⟩
  · rw [h1, h2]
    exact Or.inl ⟨rfl, rfl⟩
  · rw [h1, h2]
    exact Or.inr ⟨c, r, s, rfl, rfl, hI,
      fun e => hI.sym_cons (nextSym_not_ws h1) (by rw [e]; exact hx)⟩

theorem skip_initial_BOM_rel {t u : List Nat} (h : Ins .sym t u) (k : Nat) :
    RelE SRel (skip_initial_BOM (fresh t k)) (skip_initial_BOM (fresh u k)) := by
  unfold skip_initial_BOM
  rw [if_neg (by simp [fresh]), if_neg (by simp [fresh])]
  rcases bom_step h 0xef (by decide) k with ⟨h1, h2⟩ | ⟨c, r, s, h1, h2, hI, hn⟩
  · rw [h1, h2]
    simp only [bind_ok]
    exact RelE.rel_ok (SRel.of_sym (Ins.sym (by decide) (Ins.done _)) true k)
  rw [h1, h2]
  simp only [bind_ok]
  by_cases hc : c = 0xef
  swap
  · rw [if_pos (Or.inl hc), if_pos (Or.inl hc)]
    exact RelE.rel_ok (SRel.of_sym hI false k)
  rw [if_neg (by simp [hc, fresh]), if_neg (by simp [hc, fresh])]
  rcases bom_step (hn hc) 0xbb (by decide) k with ⟨h1, h2⟩ | ⟨c2, r2, s2, h1, h2, hI2, hn2⟩
  · rw [h1, h2]
    simp only [bind_ok]
    exact RelE.rel_ok
      (SRel.of_sym (Ins.sym (by decide) (Ins.sym (by decide) (Ins.done _))) true k)
  rw [h1, h2]
  simp only [bind_ok]
  by_cases hc2 : c2 = 0xbb
  swap
  · rw [if_pos (Or.inl hc2), if_pos (Or.inl hc2)]
    exact RelE.rel_ok (SRel.of_sym (Ins.sym (by decide) hI2) false k)
  rw [if_neg (by simp [hc2, fresh]), if_neg (by simp [hc2, fresh])]
  rcases bom_step (hn2 hc2) 0xbf (by decide) k with ⟨h1, h2⟩ | ⟨c3, r3, s3, h1, h2, hI3, hn3⟩
  · rw [h1, h2]
    simp only [bind_ok]
    exact RelE.rel_ok
      (SRel.of_sym
        (Ins.sym (by decide) (Ins.sym (by decide) (Ins.sym (by decide) (Ins.done _)))) true k)
  rw [h1, h2]
  simp only [bind_ok]
  by_cases hc3 : c3 = 0xbf
  · rw [if_neg (by simp [hc3]), if_neg (by simp [hc3])]
    exact RelE.rel_ok (SRel.of_sym (hn3 hc3) false k)
  · rw [if_pos hc3, if_pos hc3]
    exact RelE.rel_ok
      (SRel.of_sym (Ins.sym (by decide) (Ins.sym (by decide) hI3)) false k)

theorem Ins.length_le {m : Lex} {t u : List Nat} (h : Ins m t u) : t.length ≤ u.length := by
  induction h with
  | done m => exact Nat.le_refl _
  | ws _ _ ih => exact Nat.le_succ_of_le ih
  | sym _ _ ih => exact Nat.succ_le_succ ih
  | opens _ ih => exact Nat.succ_le_succ ih
  | plain _ _ _ ih => exact Nat.succ_le_succ ih
  | bslash _ ih => exact Nat.succ_le_succ ih
  | escaped _ ih => exact Nat.succ_le_succ ih
  | close _ _ ih => exact Nat.succ_le_succ ih
  | unesc _ _ ih => exact Nat.succ_le_succ ih

theorem readsgf_rel (multiin fullprop : Bool) (fuel : Nat) {t u : List Nat}
    (h : Ins .sym t u) :
    readsgf multiin fullprop fuel u = readsgf multiin fullprop fuel t := by
  symm
  apply RelE.rel_eq
  unfold readsgf
  refine RelE.rel_bind (skip_initial_BOM_rel h 0) ?_
  intro i1 j1 h1
  refine RelE.rel_bind (skip_initial_garbage_rel fuel i1 j1 h1) ?_
  intro i2 j2 h2
  rw [← h2.2.1]
  by_cases he : i2.eof = true
  · simp only [if_pos he]
    exact RelE.rel_error _
  · simp only [if_neg he]
    refine RelP.rel_bindp (read_collection_rel multiin fullprop fuel i2 j2 h2) ?_
    intro g a b _
    exact RelE.rel_ok rfl

theorem mygetchar_clean {inp i : Input} {c : Nat} (h : mygetchar inp = .ok (c, i))
    (hc : Clean inp) :
    Clean i ∧ i.peekc = 0 ∧ (inp.peekc ≠ 0 → c = inp.peekc) ∧ (c = 0 → i.eof = true) := by
  unfold mygetchar at h
  split at h
  · rename_i hp
    injection h with h
    injection h with h1 h2
    subst h1 h2
    exact ⟨hc, rfl, fun _ => rfl, fun e => absurd e hp⟩
  · rename_i hp
    have hp0 : inp.peekc = 0 := by simpa using hp
    split at h
    · cases h
    · split at h
      · rename_i hb
        injection h with h
        injection h with h1 h2
        subst h1 h2
        exact ⟨hc, hp0, fun e => absurd hp0 e, fun _ => rfl⟩
      · rename_i x r hb
        injection h with h
        injection h with h1 h2
        subst h1 h2
        have hx : x ≠ 0 := hc x (by rw [hb]; exact List.mem_cons_self _ _)
        refine ⟨fun d hd => hc d (by rw [hb]; exact List.mem_cons_of_mem _ hd), hp0,
          fun e => absurd hp0 e, fun e => absurd e hx⟩

theorem skip_whitespace_clean (eof : Bool) (k : Nat) (l : List Nat) {i : Input} {c : Nat}
    (h : skip_whitespace eof k l = .ok (c, i)) (hl : ∀ d ∈ l, d ≠ 0) :
    Clean i ∧ i.peekc = 0 ∧ iswhitespace c = false ∧ (c = 0 → i.eof = true) := by
  induction l with
  | nil =>
    unfold skip_whitespace at h
    split at h
    · cases h
    · injection h with h
      injection h with h1 h2
      subst h1 h2
      exact ⟨fun d hd => absurd hd (List.not_mem_nil d), rfl, by decide, fun _ => rfl⟩
  | cons x r ih =>
    unfold skip_whitespace at h
    split at h
    · cases h
    · split at h
      · exact ih h (fun d hd => hl d (List.mem_cons_of_mem _ hd))
      · rename_i hw
        injection h with h
        injection h with h1 h2
        subst h1 h2
        exact ⟨fun d hd => hl d (List.mem_cons_of_mem _ hd), rfl, by simpa using hw,
          fun e => absurd e (hl _ (List.mem_cons_self _ _))⟩

theorem mygetsym_clean {inp i : Input} {c : Nat} (h : mygetsym inp = .ok (c, i))
    (hc : Clean inp) :
    Clean i ∧ i.peekc = 0 ∧ iswhitespace c = false ∧ (c = 0 → i.eof = true) := by
  unfold mygetsym at h
  cases ha : mygetchar inp with
  | error e => rw [ha] at h; cases h
  | ok a =>
    rw [ha] at h
    obtain ⟨h1, h2, _, h4⟩ := @mygetchar_clean inp a.2 a.1 ha hc
    change (if _ then _ else _) = _ at h
    split at h
    · exact skip_whitespace_clean _ _ _ h h1
    · rename_i hw
      injection h with h
      have e1 : a.1 = c := congrArg Prod.fst h
      have e2 : a.2 = i := congrArg Prod.snd h
      subst e1 e2
      exact ⟨h1, h2, by simpa using hw, h4⟩

theorem mygetchar_doomed {inp : Input} (he : inp.eof = true) (hp : inp.peekc = 0) :
    mygetchar inp = .error .mygetchar_called_after_eof := by
  unfold mygetchar
  rw [if_neg (by simp [hp]), if_pos he]

theorem read_value_doomed (n : Nat) (acc : List Nat) {inp : Input} (he : inp.eof = true)
    (hp : inp.peekc = 0) (a : List Nat × Input) :
    read_propvalue_following_sq n acc inp ≠ .ok a := by
  cases n with
  | zero => intro h; cases h
  | succ n =>
    unfold read_propvalue_following_sq
    rw [mygetchar_doomed he hp]
    intro h
    cases h

/-- The value that the reader returns from an input without NUL bytes: the bytes `b` it
has added to `acc` are a stored value. -/
theorem read_value_stored (n : Nat) : ∀ (acc : List Nat) (inp : Input) (v : List Nat)
    (i : Input), read_propvalue_following_sq n acc inp = .ok (v, i) → Clean inp →
    ∃ b, v = cstring (acc ++ b) ∧ Stored b ∧
      (inp.peekc ≠ 0 → b = [] ∨ ∃ t, b = inp.peekc :: t) ∧ Clean i := by
  induction n with
  | zero => intro acc inp v i h; cases h
  | succ n ih =>
    intro acc inp v i h hc
    unfold read_propvalue_following_sq at h
    cases ha : mygetchar inp with
    | error e => rw [ha] at h; cases h
    | ok a =>
      rw [ha] at h
      obtain ⟨c1, c2, c3, c4⟩ := @mygetchar_clean inp a.2 a.1 ha hc
      change (if _ then _ else _) = _ at h
      split at h
      · rename_i h93
        cases hd : mygetsym a.2 with
        | error e => rw [hd] at h; cases h
        | ok d =>
          rw [hd] at h
          obtain ⟨d1, d2, d3, d4⟩ := @mygetsym_clean a.2 d.2 d.1 hd c1
          change (if _ then _ else _) = _ at h
          split at h
          · injection h with h
            injection h with h1 h2
            subst h1 h2
            exact ⟨[], by rw [List.append_nil], ⟨[], 0, LooseBody.nil⟩, fun _ => Or.inl rfl, d1⟩
          · rename_i hend
            have hend : ends_value d.1 = false := by simpa using hend
            by_cases hz : d.1 = 0
            · exfalso
              exact @read_value_doomed n _ { d.2 with peekc := d.1, warned := d.2.warned + 1 }
                (d4 hz) hz _ h
            · obtain ⟨b, e1, ⟨s, k, hb⟩, e3, e4⟩ := ih _ _ v i h d1
              refine ⟨93 :: b, by rw [e1, List.append_assoc]; rfl, ?_, ?_, e4⟩
              · rcases e3 hz with e | ⟨t, e⟩
                · subst e
                  exact ⟨_, _, LooseBody.loose_end [] Ws.nil⟩
                · subst e
                  exact ⟨_, _, LooseBody.loose [] d.1 t s _ k Ws.nil d3 hend hz hb⟩
              · intro hp
                right
                exact ⟨b, by rw [← c3 hp, h93]⟩
      · rename_i h93
        split at h
        · rename_i h92
          cases hb : mygetchar a.2 with
          | error e => rw [hb] at h; cases h
          | ok b =>
            rw [hb] at h
            obtain ⟨b1, b2, _, b4⟩ := @mygetchar_clean a.2 b.2 b.1 hb c1
            change read_propvalue_following_sq n _ b.2 = _ at h
            by_cases hz : b.1 = 0
            · exfalso
              exact read_value_doomed n _ (b4 hz) b2 _ h
            · obtain ⟨r, e1, ⟨s, k, hr⟩, _, e4⟩ := ih _ _ v i h b1
              refine ⟨92 :: b.1 :: r, by rw [e1, List.append_assoc]; rfl,
                ⟨_, _, LooseBody.esc b.1 r s r k hz hr⟩, ?_, e4⟩
              intro hp
              right
              exact ⟨b.1 :: r, by rw [← c3 hp, h92]⟩
        · rename_i h92
          by_cases hz : a.1 = 0
          · exfalso
            exact read_value_doomed n _ (c4 hz) c2 _ h
          · obtain ⟨r, e1, ⟨s, k, hr⟩, _, e4⟩ := ih _ _ v i h c1
            refine ⟨a.1 :: r, by rw [e1, List.append_assoc]; rfl,
              ⟨_, _, LooseBody.plain a.1 r s r k h93 h92 hz hr⟩, ?_, e4⟩
            intro hp
            right
            exact ⟨r, by rw [← c3 hp]⟩

theorem Stored.stored_nonzero {v : List Nat} (h : Stored v) : ∀ c ∈ v, c ≠ 0 := by
  obtain ⟨s, k, hb⟩ := h
  exact hb.value_nonzero

theorem mygetsym_good (inp : Input) (hc : Clean inp) :
    Holds (fun a => Clean a.2) (mygetsym inp) := by
  intro a h
  exact (@mygetsym_clean inp a.2 a.1 h hc).1

theorem read_values_good (n : Nat) : ∀ (inp : Input), Clean inp →
    Holds (fun a => (∀ v ∈ a.1, Stored v) ∧ Clean a.2) (read_propvalue_sequence n inp) := by
  induction n with
  | zero => intro inp _; exact Holds.holds_error
  | succ n ih =>
    intro inp hc
    unfold read_propvalue_sequence
    refine (mygetsym_good inp hc).holds_bind ?_
    intro a ha
    split
    · have hv : Holds (fun v => Stored v.1 ∧ Clean v.2)
          (read_propvalue_following_sq (n + 1) [] a.2) := by
        intro v h
        obtain ⟨b, e1, e2, _, e4⟩ := read_value_stored (n + 1) [] a.2 v.1 v.2 h ha
        rw [List.nil_append, cstring_of_nonzero e2.stored_nonzero] at e1
        rw [e1]
        exact ⟨e2, e4⟩
      refine hv.holds_bind ?_
      intro v hv
      refine (ih v.2 hv.2).holds_bind ?_
      intro vs hvs
      refine Holds.holds_ok ⟨?_, hvs.2⟩
      intro x hx
      rcases List.mem_cons.mp hx with e | e
      · rw [e]; exact hv.1
      · exact hvs.1 x e
    · exact Holds.holds_ok ⟨fun v hv => absurd hv (List.not_mem_nil v), ha⟩

theorem upper_nonzero {c : Nat} (h : is_upper_case c = true) : c ≠ 0 := by
  intro e
  rw [e] at h
  exact absurd h (by decide)

theorem read_propid_good (n : Nat) : ∀ (p q : List Nat) (inp : Input),
    (∀ c ∈ p, is_upper_case c = true) → p.length ≤ 103 → Clean inp →
    Holds (fun a => IdText a.1 ∧ Clean a.2) (read_propid false n p q inp) := by
  induction n with
  | zero => intro p q inp _ _ _; exact Holds.holds_error
  | succ n ih =>
    intro p q inp hp hl hc
    unfold read_propid
    refine (mygetsym_good inp hc).holds_bind ?_
    intro a ha
    split
    · split
      · exact Holds.holds_error
      · rename_i hne
        split
        · exact Holds.holds_error
        · refine Holds.holds_ok ⟨?_, ha⟩
          rw [cstring_of_nonzero fun c h => upper_nonzero (hp c h)]
          refine ⟨?_, hl, hp⟩
          cases p with
          | nil => exact absurd rfl hne
          | cons x r => simp
    · refine ih _ _ a.2 ?_ ?_ ha
      · split
        · rename_i h
          intro c hcm
          rcases List.mem_append.mp hcm with e | e
          · exact hp c e
          · rw [List.mem_singleton.mp e]
            rcases h.2 with h1 | h1
            · exact h1
            · cases h1
        · exact hp
      · split
        · rename_i h
          rw [List.length_append, List.length_singleton]
          omega
        · exact hl

theorem read_property_good (n : Nat) (inp : Input) (hc : Clean inp) :
    Holds (fun a => GoodProp a.1 ∧ Clean a.2) (read_property false n inp) := by
  unfold read_property
  refine (read_propid_good n [] [] inp (fun c h => absurd h (List.not_mem_nil c))
    (Nat.zero_le _) hc).holds_bind ?_
  intro i hi
  refine (read_values_good n i.2 hi.2).holds_bind ?_
  intro v hv
  split
  · exact Holds.holds_error
  · rename_i hne
    exact Holds.holds_ok ⟨⟨hi.1, hne, hv.1⟩, hv.2⟩

theorem read_properties_good (n : Nat) : ∀ (inp : Input), Clean inp →
    Holds (fun a => (∀ p ∈ a.1, GoodProp p) ∧ Clean a.2) (read_properties false n inp) := by
  induction n with
  | zero => intro inp _; exact Holds.holds_error
  | succ n ih =>
    intro inp hc
    unfold read_properties
    refine (mygetsym_good inp hc).holds_bind ?_
    intro a ha
    split
    · exact Holds.holds_ok ⟨fun p hp => absurd hp (List.not_mem_nil p), ha⟩
    · refine (read_property_good (n + 1) { a.2 with peekc := a.1 } ha).holds_bind ?_
      intro p hp
      refine (ih p.2 hp.2).holds_bind ?_
      intro ps hps
      refine Holds.holds_ok ⟨?_, hps.2⟩
      intro x hx
      rcases List.mem_cons.mp hx with e | e
      · rw [e]; exact hp.1
      · exact hps.1 x e

theorem read_nodes_good (n : Nat) : ∀ (inp : Input), Clean inp →
    Holds (fun a => (∀ nd ∈ a.1, ∀ p ∈ nd.p, GoodProp p) ∧ Clean a.2)
      (read_node_sequence false n inp) := by
  induction n with
  | zero => intro inp _; exact Holds.holds_error
  | succ n ih =>
    intro inp hc
    unfold read_node_sequence
    refine (mygetsym_good inp hc).holds_bind ?_
    intro a ha
    split
    · unfold read_property_sequence
      have hps : Holds (fun (a : node × Input) => (∀ p ∈ a.1.p, GoodProp p) ∧ Clean a.2)
          ((read_properties false (n + 1) a.2).bind fun ps => .ok ({ p := ps.1 }, ps.2)) := by
        refine (read_properties_good (n + 1) a.2 ha).holds_bind ?_
        intro ps hps
        exact Holds.holds_ok hps
      refine hps.holds_bind ?_
      intro nd hnd
      refine (ih nd.2 hnd.2).holds_bind ?_
      intro nds hnds
      refine Holds.holds_ok ⟨?_, hnds.2⟩
      intro x hx
      rcases List.mem_cons.mp hx with e | e
      · rw [e]; exact hnd.1
      · exact hnds.1 x e
    · exact Holds.holds_ok ⟨fun nd h => absurd h (List.not_mem_nil nd), ha⟩

theorem read_korean_good (n : Nat) (inp : Input) (hc : Clean inp) :
    Holds (fun a => Clean a.2) (read_korean_node_sequence false n inp) := by
  unfold read_korean_node_sequence read_property_sequence
  have hps : Holds (fun (a : node × Input) => Clean a.2)
      ((read_properties false n inp).bind fun ps => .ok ({ p := ps.1 }, ps.2)) := by
    refine (read_properties_good n inp hc).holds_bind ?_
    intro ps hps
    exact Holds.holds_ok hps.2
  refine hps.holds_bind ?_
  intro nd hnd
  split
  · exact Holds.holds_error
  · split
    · exact Holds.holds_error
    · refine (read_nodes_good n nd.2 hnd).holds_bind ?_
      intro ns hns
      exact Holds.holds_ok hns.2

theorem read_sequence_good (n : Nat) (inp : Input) (hc : Clean inp) :
    Holds (fun a => (∀ nd ∈ a.1, ∀ p ∈ nd.p, GoodProp p) ∧ Clean a.2)
      (read_sequence false n inp) := by
  unfold read_sequence
  refine (read_nodes_good n inp hc).holds_bind ?_
  intro ns hns
  split
  · split
    · refine (read_korean_good n ns.2 hns.2).holds_bind ?_
      intro k hk
      exact Holds.holds_ok ⟨fun nd h => absurd h (List.not_mem_nil nd), hk⟩
    · exact Holds.holds_error
  · exact Holds.holds_ok hns

theorem GoodForest.good_null : GoodForest .null := fun p hp => absurd hp (List.not_mem_nil p)

theorem GoodForest.good_tree {ns : List node} {fc sib : gametree}
    (hns : ∀ nd ∈ ns, ∀ p ∈ nd.p, GoodProp p) (hfc : GoodForest fc)
    (hsib : GoodForest sib) : GoodForest (.tree ns fc sib) := by
  intro p hp
  unfold propsOf at hp
  rcases List.mem_append.mp hp with h | h
  · obtain ⟨nd, h1, h2⟩ := List.mem_flatMap.mp h
    exact hns nd h1 p h2
  · rcases List.mem_append.mp h with h | h
    · exact hfc p h
    · exact hsib p h

theorem GoodForest.good_parts {ns : List node} {fc sib : gametree}
    (h : GoodForest (.tree ns fc sib)) :
    (∀ nd ∈ ns, ∀ p ∈ nd.p, GoodProp p) ∧ GoodForest fc ∧ GoodForest sib := by
  refine ⟨?_, ?_, ?_⟩
  · intro nd h1 p h2
    exact h p (by
      unfold propsOf
      exact List.mem_append_left _ (List.mem_flatMap.mpr ⟨nd, h1, h2⟩))
  · intro p hp
    exact h p (by
      unfold propsOf
      exact List.mem_append_right _ (List.mem_append_left _ hp))
  · intro p hp
    exact h p (by
      unfold propsOf
      exact List.mem_append_right _ (List.mem_append_right _ hp))

theorem GoodForest.good_link {g rest : gametree} (hg : GoodForest g) (hr : GoodForest rest) :
    GoodForest (link g rest) := by
  cases g with
  | null => exact hr
  | tree ns fc sib =>
    obtain ⟨h1, h2, h3⟩ := hg.good_parts
    cases rest with
    | null => exact GoodForest.good_tree h1 h2 h3
    | tree a b c => exact GoodForest.good_tree h1 h2 hr

theorem read_baretree_sequence_good
    (rgs : Input → Except ReadErr (gametree × Input))
    (hrgs : ∀ inp, Clean inp → Holds (fun a => GoodForest a.1 ∧ Clean a.2) (rgs inp))
    (n : Nat) : ∀ (inp : Input), Clean inp →
      Holds (fun a => GoodForest a.1 ∧ Clean a.2) (read_baretree_sequence false rgs n inp) := by
  induction n with
  | zero => intro inp _; exact Holds.holds_error
  | succ n ih =>
    intro inp hc
    unfold read_baretree_sequence
    refine (mygetsym_good inp hc).holds_bind ?_
    intro a ha
    split
    · exact Holds.holds_ok ⟨GoodForest.good_null, ha⟩
    · unfold read_baretree
      have hbt : Holds (fun (a : gametree × Input) => GoodForest a.1 ∧ Clean a.2)
          ((read_sequence false (n + 1) { a.2 with peekc := a.1 }).bind fun s =>
            (rgs s.2).bind fun g => .ok (.tree s.1 g.1 .null, g.2)) := by
        refine (read_sequence_good (n + 1) { a.2 with peekc := a.1 } ha).holds_bind ?_
        intro s hs
        refine (hrgs s.2 hs.2).holds_bind ?_
        intro g hg
        exact Holds.holds_ok ⟨GoodForest.good_tree hs.1 hg.1 GoodForest.good_null, hg.2⟩
      refine hbt.holds_bind ?_
      intro gh hgh
      refine (mygetsym_good gh.2 hgh.2).holds_bind ?_
      intro c hcc
      split
      · refine (ih { c.2 with peekc := c.1 } hcc).holds_bind ?_
        intro g hg
        split
        · rename_i ns fc sib ns0 fc0 sib0 e1 e2
          have hg1 := hg.1
          have hgh1 := hgh.1
          rw [e1] at hg1
          rw [e2] at hgh1
          obtain ⟨a1, a2, _⟩ := hg1.good_parts
          obtain ⟨b1, b2, b3⟩ := hgh1.good_parts
          exact Holds.holds_ok
            ⟨GoodForest.good_tree b1 (GoodForest.good_tree a1 a2 b2) b3, hg.2⟩
        · exact Holds.holds_error
      · exact Holds.holds_ok ⟨hgh.1, hcc⟩

theorem read_gametree_sequence_good (n : Nat) : ∀ (inp : Input), Clean inp →
    Holds (fun a => GoodForest a.1 ∧ Clean a.2) (read_gametree_sequence false n inp) := by
  induction n with
  | zero => intro inp _; exact Holds.holds_error
  | succ n ih =>
    intro inp hc
    unfold read_gametree_sequence
    refine (mygetsym_good inp hc).holds_bind ?_
    intro a ha
    split
    · refine (read_baretree_sequence_good _ ih (n + 1) a.2 ha).holds_bind ?_
      intro g hg
      refine (mygetsym_good g.2 hg.2).holds_bind ?_
      intro c hcc
      split
      · exact Holds.holds_error
      · refine (ih c.2 hcc).holds_bind ?_
        intro rest hrest
        exact Holds.holds_ok ⟨hg.1.good_link hrest.1, hrest.2⟩
    · exact Holds.holds_ok ⟨GoodForest.good_null, ha⟩

theorem gameStart_nonzero : ∀ (t : List Nat) (s : List Nat), gameStart t = some s →
    (∀ c ∈ t, c ≠ 0) → ∀ c ∈ s, c ≠ 0 := by
  intro t
  induction t with
  | nil => intro s h; cases h
  | cons x r ih =>
    intro s h hz
    have hr : ∀ c ∈ r, c ≠ 0 := fun c hc => hz c (List.mem_cons_of_mem _ hc)
    unfold gameStart at h
    split at h
    · cases hn : nextSym r with
      | none => rw [hn] at h; cases h
      | some a =>
        obtain ⟨d, r2⟩ := a
        rw [hn] at h
        obtain ⟨w, _, _, e⟩ := nextSym_some hn
        have hr2 : ∀ c ∈ r2, c ≠ 0 := fun c hc => hr c (by
          rw [e]
          exact List.mem_append_right _ (List.mem_cons_of_mem _ hc))
        change (if _ then _ else _) = _ at h
        split at h
        · injection h with h
          subst h
          intro c hc
          rcases List.mem_cons.mp hc with e1 | e1
          · rw [e1]; decide
          · rcases List.mem_cons.mp e1 with e2 | e2
            · rw [e2]; decide
            · exact hr2 c e2
        · split at h
          · injection h with h
            subst h
            intro c hc
            rcases List.mem_cons.mp hc with e1 | e1
            · rw [e1]; decide
            · rcases List.mem_cons.mp e1 with e2 | e2
              · rw [e2]; decide
              · rcases List.mem_cons.mp e2 with e3 | e3
                · rw [e3]; decide
                · exact hr2 c e3
          · exact ih s h hr
    · exact ih s h hr

/-- The forest that `readsgf` returns, with its default options, for a text without NUL
bytes: it is not empty, and every property has an identifier of upper-case letters and
one or more stored values. -/
theorem readsgf_good (fuel : Nat) (text : List Nat) (g : gametree)
    (hf : text.length + 1 < fuel) (hz : ∀ c ∈ text, c ≠ 0)
    (h : readsgf false false fuel text = .ok g) : g ≠ .null ∧ GoodForest g := by
  rw [readsgf_eq_start false false fuel text hf] at h
  cases hs : gameStart text with
  | none => rw [hs] at h; cases h
  | some s =>
    rw [hs] at h
    change (read_collection false false fuel (fresh s 0)).bind (fun g => .ok g.1) = .ok g at h
    unfold read_collection at h
    have hc : Clean (fresh s 0) := gameStart_nonzero text s hs hz
    cases hr : read_gametree_sequence false fuel (fresh s 0) with
    | error e => rw [hr] at h; cases h
    | ok a =>
      have hg := read_gametree_sequence_good fuel (fresh s 0) hc a hr
      rw [hr] at h
      simp only [bind_ok] at h
      split at h
      · cases h
      · rename_i hn
        simp only [Bool.false_eq_true, if_false, bind_ok] at h
        injection h with h
        subst h
        exact ⟨hn, hg.1⟩

theorem forget_bind_in {α : Type} (x : Except ReadErr α)
    (f : α → Except ReadErr (mtree × Input)) (g : α → Except ReadErr (gametree × Input))
    (h : ∀ a, x = .ok a → forget (f a) = g a) : forget (x.bind f) = x.bind g := by
  cases x with
  | error e => rfl
  | ok a => exact h a rfl

theorem forget_bind {x : Except ReadErr (mtree × Input)}
    {y : Except ReadErr (gametree × Input)} (hxy : forget x = y)
    (f : mtree × Input → Except ReadErr (mtree × Input))
    (g : gametree × Input → Except ReadErr (gametree × Input))
    (h : ∀ a, x = .ok a → forget (f a) = g (erase a.1, a.2)) :
    forget (x.bind f) = y.bind g := by
  subst hxy
  cases x with
  | error e => rfl
  | ok a => exact h a rfl

theorem read_baretree_at_forget (fullprop : Bool) (fuel : Nat)
    (rgsm : Input → Except ReadErr (mtree × Input))
    (rgs : Input → Except ReadErr (gametree × Input)) (hrgs : ∀ i, forget (rgsm i) = rgs i)
    (paren : Bool) (origin inp : Input) :
    forget (read_baretree_at fullprop fuel rgsm paren origin inp)
      = read_baretree fullprop fuel rgs inp := by
  unfold read_baretree_at read_baretree
  refine forget_bind_in _ _ _ (fun s _ => ?_)
  exact forget_bind (hrgs s.2) _ _ (fun g _ => rfl)

theorem read_baretree_sequence_at_forget (fullprop : Bool)
    (rgsm : Input → Except ReadErr (mtree × Input))
    (rgs : Input → Except ReadErr (gametree × Input)) (hrgs : ∀ i, forget (rgsm i) = rgs i)
    (n : Nat) : ∀ (paren : Bool) (origin inp : Input),
      forget (read_baretree_sequence_at fullprop rgsm n paren origin inp)
        = read_baretree_sequence fullprop rgs n inp := by
  induction n with
  | zero => intro paren origin inp; rfl
  | succ n ih =>
    intro paren origin inp
    unfold read_baretree_sequence_at read_baretree_sequence
    refine forget_bind_in _ _ _ (fun a _ => ?_)
    by_cases hc : a.1 ≠ 59 ∧ a.1 ≠ 82 ∧ a.1 ≠ 78 ∧ a.1 ≠ 67
    · rw [if_pos hc, if_pos hc]
      rfl
    · rw [if_neg hc, if_neg hc]
      refine forget_bind
        (read_baretree_at_forget fullprop (n + 1) rgsm rgs hrgs paren origin _) _ _
        (fun gh _ => ?_)
      refine forget_bind_in _ _ _ (fun c _ => ?_)
      by_cases hd : c.1 = 59 ∨ c.1 = 67 ∨ c.1 = 82
      · rw [if_pos hd, if_pos hd]
        refine forget_bind (ih false gh.2 _) _ _ (fun g _ => ?_)
        obtain ⟨g1, g2⟩ := g
        obtain ⟨gh1, gh2⟩ := gh
        cases g1 <;> cases gh1 <;> rfl
      · rw [if_neg hd, if_neg hd]
        rfl

theorem erase_link (g rest : mtree) : erase (link_at g rest) = link (erase g) (erase rest) := by
  cases g with
  | null => rfl
  | tree p o s ns fc sib =>
    cases rest <;> rfl

theorem read_gametree_sequence_at_forget (fullprop : Bool) (n : Nat) :
    ∀ (inp : Input), forget (read_gametree_sequence_at fullprop n inp)
      = read_gametree_sequence fullprop n inp := by
  induction n with
  | zero => intro inp; rfl
  | succ n ih =>
    intro inp
    unfold read_gametree_sequence_at read_gametree_sequence
    refine forget_bind_in _ _ _ (fun a _ => ?_)
    by_cases hc : a.1 = 40
    · rw [if_pos hc, if_pos hc]
      refine forget_bind (read_baretree_sequence_at_forget fullprop _ _ ih (n + 1) true inp a.2)
        _ _ (fun g _ => ?_)
      refine forget_bind_in _ _ _ (fun c _ => ?_)
      by_cases hd : c.1 ≠ 41
      · rw [if_pos hd, if_pos hd]
        rfl
      · rw [if_neg hd, if_neg hd]
        refine forget_bind (ih c.2) _ _ (fun rest _ => ?_)
        show Except.ok (erase (link_at g.1 rest.1), rest.2) = _
        rw [erase_link]
    · rw [if_neg hc, if_neg hc]
      rfl

theorem read_more_at_forget (fullprop : Bool) (n : Nat) :
    ∀ (m : mtree) (inp : Input), forget (read_more_at fullprop n m inp)
      = read_more fullprop n (erase m) inp := by
  induction n with
  | zero => intro m inp; cases m <;> rfl
  | succ n ih =>
    intro m inp
    cases m with
    | null => rfl
    | tree p o s ns fc sib =>
      unfold read_more_at
      simp only [erase]
      unfold read_more
      refine forget_bind_in _ _ _ (fun i _ => ?_)
      by_cases hc : i.eof = true
      · rw [if_pos hc, if_pos hc]
        rfl
      · rw [if_neg hc, if_neg hc]
        refine forget_bind (read_gametree_sequence_at_forget fullprop (n + 1) i) _ _
          (fun gn _ => ?_)
        exact forget_bind (ih gn.1 gn.2) _ _ (fun r _ => rfl)

theorem erase_eq_null {m : mtree} : erase m = .null ↔ m = .null := by
  cases m with
  | null => exact ⟨fun _ => rfl, fun _ => rfl⟩
  | tree p o s ns fc sib => exact ⟨fun h => (by cases h), fun h => (by cases h)⟩

theorem read_collection_at_forget (multiin fullprop : Bool) (fuel : Nat) (inp : Input) :
    forget (read_collection_at multiin fullprop fuel inp)
      = read_collection multiin fullprop fuel inp := by
  unfold read_collection_at read_collection
  refine forget_bind (read_gametree_sequence_at_forget fullprop fuel inp) _ _ (fun g _ => ?_)
  by_cases hc : g.1 = .null
  · rw [if_pos hc, if_pos (show (erase g.1, g.2).1 = gametree.null from erase_eq_null.2 hc)]
    rfl
  · rw [if_neg hc,
      if_neg (show ¬ (erase g.1, g.2).1 = gametree.null from fun h => hc (erase_eq_null.1 h))]
    cases multiin with
    | true =>
      simp only [if_true]
      exact read_more_at_forget fullprop fuel g.1 g.2
    | false => rfl

/-- The reader with the places returns the forest of `readsgf` with a place at every
tree, and fails as `readsgf` does. -/
theorem readsgf_at_forget (multiin fullprop : Bool) (fuel : Nat) (text : List Nat) :
    (match readsgf_at multiin fullprop fuel text with
      | .ok m => .ok (erase m)
      | .error e => .error e) = readsgf multiin fullprop fuel text := by
  unfold readsgf_at readsgf
  cases skip_initial_BOM { buf := text, peekc := 0, eof := false, warned := 0 } with
  | error e => rfl
  | ok i1 =>
    simp only [bind_ok]
    cases skip_initial_garbage fuel i1 with
    | error e => rfl
    | ok i2 =>
      simp only [bind_ok]
      by_cases hc : i2.eof = true
      · rw [if_pos hc, if_pos hc]
      · rw [if_neg hc, if_neg hc]
        have h := read_collection_at_forget multiin fullprop fuel i2
        cases h1 : read_collection_at multiin fullprop fuel i2 with
        | error e =>
          rw [h1] at h
          rw [← h]
          rfl
        | ok a =>
          rw [h1] at h
          rw [← h]
          rfl

theorem Holds.of_bind {α β : Type} {R : β → Prop} {x : Except ReadErr α}
    {f : α → Except ReadErr β} (hf : ∀ a, x = .ok a → Holds R (f a)) : Holds R (x.bind f) := by
  cases x with
  | error e => intro a h; cases h
  | ok a => exact hf a rfl

/-- A symbol pending in `peekc` is the next symbol. -/
theorem mygetsym_pending_state (b : Input) (c : Nat) (hc : c ≠ 0)
    (hw : iswhitespace c = false) :
    mygetsym { b with peekc := c } = .ok (c, { b with peekc := 0 }) := by
  unfold mygetsym mygetchar
  simp only [ne_eq, hc, not_false_eq_true, if_true, bind_ok, hw, Bool.false_eq_true, if_false]

theorem start_symbol {c : Nat} (h : c = 59 ∨ c = 82 ∨ c = 78 ∨ c = 67) :
    c ≠ 0 ∧ iswhitespace c = false := by
  rcases h with e | e | e | e <;> subst e <;> decide

/-- The node sequence that `read_sequence` returns for a tree, by the first symbol of
the tree. -/
theorem read_sequence_place (fullprop : Bool) (n : Nat) (st a : Input)
    (hsym : mygetsym st = .ok (st.peekc, a)) (hst : { a with peekc := st.peekc } = st)
    (ns : List node) (j : Input) (h : read_sequence fullprop n st = .ok (ns, j)) :
    (ns = [] ↔ st.peekc ≠ 59) ∧
    (st.peekc = 59 → read_node_sequence fullprop n st = .ok (ns, j)) ∧
    (st.peekc ≠ 59 → ∃ k nd rest p ps,
      read_korean_node_sequence fullprop n st = .ok (k, j) ∧ k = nd :: rest ∧
        nd.p = p :: ps ∧ bareAllowed p.id) := by
  unfold read_sequence at h
  cases hrn : read_node_sequence fullprop n st with
  | error e => rw [hrn] at h; cases h
  | ok r =>
    rw [hrn, bind_ok] at h
    have hrn0 := hrn
    cases n with
    | zero => cases hrn
    | succ m =>
      unfold read_node_sequence at hrn
      rw [hsym, bind_ok] at hrn
      simp only at hrn
      by_cases hc : st.peekc = 59
      · rw [if_pos hc] at hrn
        have hne : r.1 ≠ [] := by
          cases h1 : read_property_sequence fullprop (m + 1) a with
          | error e => rw [h1] at hrn; cases hrn
          | ok nd =>
            rw [h1, bind_ok] at hrn
            cases h2 : read_node_sequence fullprop m nd.2 with
            | error e => rw [h2] at hrn; cases hrn
            | ok nds =>
              rw [h2, bind_ok] at hrn
              injection hrn with hrn
              rw [← hrn]
              simp
        rw [if_neg hne] at h
        injection h with h
        subst h
        exact ⟨⟨fun e => absurd e hne, fun e => absurd hc e⟩, fun _ => rfl, fun e => absurd hc e⟩
      · rw [if_neg hc, hst] at hrn
        injection hrn with hrn
        subst hrn
        simp only [if_true] at h
        by_cases hp : st.peekc = 82 ∨ st.peekc = 78 ∨ st.peekc = 67
        · rw [if_pos hp] at h
          cases hk : read_korean_node_sequence fullprop (m + 1) st with
          | error e => rw [hk] at h; cases h
          | ok k =>
            rw [hk, bind_ok] at h
            injection h with h
            injection h with e1 e2
            refine ⟨⟨fun _ => hc, fun _ => e1.symm⟩, fun e => absurd e hc, fun _ => ?_⟩
            have hk0 := hk
            unfold read_korean_node_sequence at hk
            cases h1 : read_property_sequence fullprop (m + 1) st with
            | error e => rw [h1] at hk; cases hk
            | ok nd =>
              rw [h1, bind_ok] at hk
              cases hnp : nd.1.p with
              | nil => simp only [hnp] at hk; cases hk
              | cons p ps =>
                simp only [hnp] at hk
                by_cases hid : p.id ≠ [82, 78] ∧ p.id ≠ [82, 70] ∧ p.id ≠ [78] ∧ p.id ≠ [67]
                · rw [if_pos hid] at hk; cases hk
                · rw [if_neg hid] at hk
                  cases h2 : read_node_sequence fullprop (m + 1) nd.2 with
                  | error e => rw [h2] at hk; cases hk
                  | ok nds =>
                    rw [h2, bind_ok] at hk
                    injection hk with hk
                    have hb : bareAllowed p.id := by
                      unfold bareAllowed
                      by_contra hn
                      exact hid ⟨fun e => hn (Or.inl e), fun e => hn (Or.inr (Or.inl e)),
                        fun e => hn (Or.inr (Or.inr (Or.inl e))),
                        fun e => hn (Or.inr (Or.inr (Or.inr e)))⟩
                    refine ⟨k.1, nd.1, nds.1, p, ps, ?_, ?_, hnp, hb⟩
                    · rw [← e2]
                    · rw [← hk]
        · rw [if_neg hp] at h
          cases h

theorem Placed.placed_null (fullprop : Bool) : Placed fullprop .null := fun x hx => by cases hx

theorem Placed.placed_tree {fullprop : Bool} {p : Bool} {o s : Input} {ns : List node}
    {fc sib : mtree} (h1 : TreePlace fullprop (p, o, s, ns)) (h2 : Placed fullprop fc)
    (h3 : Placed fullprop sib) : Placed fullprop (.tree p o s ns fc sib) := by
  intro x hx
  simp only [marks, List.mem_cons, List.mem_append] at hx
  rcases hx with e | e | e
  · rw [e]; exact h1
  · exact h2 x e
  · exact h3 x e

theorem Placed.placed_parts {fullprop : Bool} {p : Bool} {o s : Input} {ns : List node}
    {fc sib : mtree} (h : Placed fullprop (.tree p o s ns fc sib)) :
    TreePlace fullprop (p, o, s, ns) ∧ Placed fullprop fc ∧ Placed fullprop sib := by
  refine ⟨h _ (by simp [marks]), fun x hx => h x ?_, fun x hx => h x ?_⟩
  · simp only [marks, List.mem_cons, List.mem_append]
    exact Or.inr (Or.inl hx)
  · simp only [marks, List.mem_cons, List.mem_append]
    exact Or.inr (Or.inr hx)

theorem Placed.placed_link {fullprop : Bool} {g rest : mtree} (hg : Placed fullprop g)
    (hr : Placed fullprop rest) : Placed fullprop (link_at g rest) := by
  cases g with
  | null => exact hr
  | tree p o s ns fc sib =>
    obtain ⟨h1, h2, h3⟩ := hg.placed_parts
    cases rest with
    | null => exact Placed.placed_tree h1 h2 h3
    | tree p1 o1 s1 ns1 fc1 sib1 => exact Placed.placed_tree h1 h2 hr

theorem AtStart.pending {paren : Bool} {origin st : Input} (h : AtStart paren origin st) :
    ∃ a, mygetsym st = .ok (st.peekc, a) ∧ { a with peekc := st.peekc } = st := by
  obtain ⟨h1, h2⟩ := h
  obtain ⟨hz, hw⟩ := start_symbol h2
  have key : ∀ b : Input, st = { b with peekc := st.peekc } →
      ∃ a, mygetsym st = .ok (st.peekc, a) ∧ { a with peekc := st.peekc } = st := by
    intro b hb
    refine ⟨{ b with peekc := 0 }, ?_, ?_⟩
    · have := mygetsym_pending_state b st.peekc hz hw
      rw [← hb] at this
      exact this
    · exact hb.symm
  by_cases hp : paren = true
  · rw [if_pos hp] at h1
    obtain ⟨a, b, _, _, hb⟩ := h1
    exact key b hb
  · rw [if_neg hp] at h1
    obtain ⟨b, _, hb, _⟩ := h1
    exact key b hb

theorem read_baretree_at_holds (fullprop : Bool) (fuel : Nat)
    (rgsm : Input → Except ReadErr (mtree × Input))
    (hrgs : ∀ i, Holds (fun a => Placed fullprop a.1) (rgsm i))
    (paren : Bool) (origin st : Input) (hat : AtStart paren origin st) :
    Holds (fun a => Placed fullprop a.1)
      (read_baretree_at fullprop fuel rgsm paren origin st) := by
  unfold read_baretree_at
  refine Holds.of_bind fun s hs => ?_
  refine (hrgs s.2).holds_bind fun g hg => ?_
  refine Holds.holds_ok (Placed.placed_tree ?_ hg (Placed.placed_null fullprop))
  obtain ⟨a, ha1, ha2⟩ := hat.pending
  obtain ⟨k1, k2, k3⟩ := read_sequence_place fullprop fuel st a ha1 ha2 s.1 s.2 hs
  exact ⟨hat.1, hat.2, k1, fun e => ⟨fuel, s.2, k2 e⟩, fun e => by
    obtain ⟨k, nd, rest, p, ps, q1, q2, q3, q4⟩ := k3 e
    exact ⟨fuel, k, s.2, nd, rest, p, ps, q1, q2, q3, q4⟩⟩

theorem AtCall.at_start {paren : Bool} {origin inp : Input} (h : AtCall paren origin inp)
    {a : Nat × Input} (ha : mygetsym inp = .ok a)
    (hc : ¬ (a.1 ≠ 59 ∧ a.1 ≠ 82 ∧ a.1 ≠ 78 ∧ a.1 ≠ 67)) :
    AtStart paren origin { a.2 with peekc := a.1 } := by
  have hsym : a.1 = 59 ∨ a.1 = 82 ∨ a.1 = 78 ∨ a.1 = 67 := by omega
  refine ⟨?_, hsym⟩
  by_cases hp : paren = true
  · rw [if_pos hp]
    exact ⟨inp, a.2, h.1 hp, ha, rfl⟩
  · rw [if_neg hp]
    have hp2 : paren = false := by cases paren <;> simp at hp ⊢
    obtain ⟨c, b, h1, h2, h3⟩ := h.2 hp2
    have hz : c ≠ 0 ∧ iswhitespace c = false := by
      rcases h3 with e | e | e <;> subst e <;> decide
    have h4 := mygetsym_pending_state b c hz.1 hz.2
    rw [← h2, ha] at h4
    injection h4 with h4
    subst h4
    refine ⟨b, h1, by cases b; rfl, h3⟩

theorem read_baretree_sequence_at_holds (fullprop : Bool)
    (rgsm : Input → Except ReadErr (mtree × Input))
    (hrgs : ∀ i, Holds (fun a => Placed fullprop a.1) (rgsm i)) (n : Nat) :
    ∀ (paren : Bool) (origin inp : Input), AtCall paren origin inp →
      Holds (fun a => Placed fullprop a.1)
        (read_baretree_sequence_at fullprop rgsm n paren origin inp) := by
  induction n with
  | zero => intro paren origin inp _; exact Holds.holds_error
  | succ n ih =>
    intro paren origin inp hcall
    unfold read_baretree_sequence_at
    refine Holds.of_bind fun a ha => ?_
    by_cases hc : a.1 ≠ 59 ∧ a.1 ≠ 82 ∧ a.1 ≠ 78 ∧ a.1 ≠ 67
    · rw [if_pos hc]
      exact Holds.holds_ok (Placed.placed_null fullprop)
    · rw [if_neg hc]
      refine (read_baretree_at_holds fullprop (n + 1) rgsm hrgs paren origin _
        (hcall.at_start ha hc)).holds_bind fun gh hgh => ?_
      refine Holds.of_bind fun c hcs => ?_
      by_cases hd : c.1 = 59 ∨ c.1 = 67 ∨ c.1 = 82
      · rw [if_pos hd]
        refine (ih false gh.2 _ ⟨fun e => (by cases e), fun _ => ⟨c.1, c.2, hcs, rfl, hd⟩⟩).holds_bind
          fun g hg => ?_
        split
        · rename_i p o s ns fc sib p0 o0 s0 ns0 fc0 sib0 e1 e2
          rw [e1] at hg
          rw [e2] at hgh
          obtain ⟨a1, a2, _⟩ := hg.placed_parts
          obtain ⟨b1, b2, b3⟩ := hgh.placed_parts
          exact Holds.holds_ok (Placed.placed_tree b1 (Placed.placed_tree a1 a2 b2) b3)
        · exact Holds.holds_error
      · rw [if_neg hd]
        exact Holds.holds_ok hgh

theorem read_gametree_sequence_at_holds (fullprop : Bool) (n : Nat) :
    ∀ (inp : Input),
      Holds (fun a => Placed fullprop a.1) (read_gametree_sequence_at fullprop n inp) := by
  induction n with
  | zero => intro inp; exact Holds.holds_error
  | succ n ih =>
    intro inp
    unfold read_gametree_sequence_at
    refine Holds.of_bind fun a ha => ?_
    by_cases hc : a.1 = 40
    · rw [if_pos hc]
      refine (read_baretree_sequence_at_holds fullprop _ ih (n + 1) true inp a.2
        ⟨fun _ => (by rw [ha, ← hc]), fun e => (by cases e)⟩).holds_bind fun g hg => ?_
      refine (Holds.any _).holds_bind fun c _ => ?_
      by_cases hd : c.1 ≠ 41
      · rw [if_pos hd]
        exact Holds.holds_error
      · rw [if_neg hd]
        exact (ih c.2).holds_bind fun rest hrest => Holds.holds_ok (hg.placed_link hrest)
    · rw [if_neg hc]
      exact Holds.holds_ok (Placed.placed_null fullprop)

theorem read_more_at_holds (fullprop : Bool) (n : Nat) :
    ∀ (m : mtree) (inp : Input), Placed fullprop m →
      Holds (fun a => Placed fullprop a.1) (read_more_at fullprop n m inp) := by
  induction n with
  | zero => intro m inp _; cases m <;> exact Holds.holds_error
  | succ n ih =>
    intro m inp hm
    cases m with
    | null => unfold read_more_at; exact Holds.holds_ok (Placed.placed_null fullprop)
    | tree p o s ns fc sib =>
      unfold read_more_at
      obtain ⟨h1, h2, h3⟩ := hm.placed_parts
      refine (Holds.any _).holds_bind fun i _ => ?_
      by_cases hc : i.eof = true
      · rw [if_pos hc]
        exact Holds.holds_ok hm
      · rw [if_neg hc]
        refine (read_gametree_sequence_at_holds fullprop (n + 1) i).holds_bind fun gn hgn => ?_
        exact (ih gn.1 gn.2 hgn).holds_bind fun r hr => Holds.holds_ok (Placed.placed_tree h1 h2 hr)

/-- Every tree of the forest that the reader returns is at its place. -/
theorem readsgf_at_holds (multiin fullprop : Bool) (fuel : Nat) (text : List Nat) :
    Holds (Placed fullprop) (readsgf_at multiin fullprop fuel text) := by
  unfold readsgf_at
  refine (Holds.any _).holds_bind fun i1 _ => ?_
  refine (Holds.any _).holds_bind fun i2 _ => ?_
  by_cases hc : i2.eof = true
  · rw [if_pos hc]
    exact Holds.holds_error
  · rw [if_neg hc]
    unfold read_collection_at
    refine ((read_gametree_sequence_at_holds fullprop fuel i2).holds_bind
      (R := fun a => Placed fullprop a.1) ?_).holds_bind fun g hg => Holds.holds_ok hg
    intro g hg
    by_cases hn : g.1 = .null
    · rw [if_pos hn]
      exact Holds.holds_error
    · rw [if_neg hn]
      cases multiin with
      | true =>
        simp only [if_true]
        exact read_more_at_holds fullprop fuel g.1 g.2 hg
      | false => exact Holds.holds_ok hg

end Readsgf

namespace Sgfcheck

open Readsgf


theorem find_duplicate_iff (id : List Nat) (qs : List property) :
    find_duplicate id qs = true ↔ ∃ q ∈ qs, cstring id = cstring q.id := by
  induction qs with
  | nil => simp [find_duplicate]
  | cons q qs ih =>
    unfold find_duplicate
    by_cases h : cstring id = cstring q.id
    · rw [if_pos h]
      exact ⟨fun _ => ⟨q, List.mem_cons_self _ _, h⟩, fun _ => rfl⟩
    · rw [if_neg h, ih]
      constructor
      · rintro ⟨a, ha, e⟩
        exact ⟨a, List.mem_cons_of_mem _ ha, e⟩
      · rintro ⟨a, ha, e⟩
        rcases List.mem_cons.mp ha with rfl | ha
        · exact absurd e h
        · exact ⟨a, ha, e⟩

theorem get_prop_type_values (s : List Nat) :
    get_prop_type s = 1 ∨ get_prop_type s = 2 ∨ get_prop_type s = 4 ∨ get_prop_type s = 8 ∨
      get_prop_type s = 16 := by
  unfold get_prop_type PT_MOVE PT_SETUP PT_ROOT PT_GAMEINFO PT_OTHER
  split
  · exact Or.inl rfl
  split
  · exact Or.inl rfl
  split
  · exact Or.inr (Or.inl rfl)
  split
  · exact Or.inr (Or.inr (Or.inl rfl))
  split
  · exact Or.inr (Or.inr (Or.inr (Or.inl rfl)))
  · exact Or.inr (Or.inr (Or.inr (Or.inr rfl)))

/-- The bit `b` of `types_seen` after one more property. -/
theorem or_and_ne_zero (a t b : Nat) : (a ||| t) &&& b ≠ 0 ↔ a &&& b ≠ 0 ∨ t &&& b ≠ 0 := by
  rw [Nat.and_distrib_right]
  constructor
  · intro h
    by_contra hn
    push_neg at hn
    rw [hn.1, hn.2] at h
    exact h rfl
  · intro h e
    have e1 : a &&& b = 0 := by
      apply Nat.eq_of_testBit_eq
      intro i
      have := congrArg (fun n => n.testBit i) e
      simp only [Nat.testBit_or, Nat.zero_testBit, Bool.or_eq_false_iff] at this
      rw [this.1, Nat.zero_testBit]
    have e2 : t &&& b = 0 := by
      apply Nat.eq_of_testBit_eq
      intro i
      have := congrArg (fun n => n.testBit i) e
      simp only [Nat.testBit_or, Nat.zero_testBit, Bool.or_eq_false_iff] at this
      rw [this.2, Nat.zero_testBit]
    rcases h with h | h
    · exact h e1
    · exact h e2

theorem type_and_move (s : List Nat) :
    get_prop_type s &&& PT_MOVE ≠ 0 ↔ get_prop_type s = PT_MOVE := by
  unfold PT_MOVE
  rcases get_prop_type_values s with h | h | h | h | h <;> rw [h] <;> decide

theorem type_and_setup (s : List Nat) :
    get_prop_type s &&& PT_SETUP ≠ 0 ↔ get_prop_type s = PT_SETUP := by
  unfold PT_SETUP
  rcases get_prop_type_values s with h | h | h | h | h <;> rw [h] <;> decide

/-- The loop over the properties fails exactly on a repeated identifier, and otherwise
returns the union of the types. -/
theorem check_properties_spec (ps : List property) :
    ∀ (ts : Nat) (mp : Option (List Nat)),
      (DistinctIds ps → ∃ r, check_properties ps ts mp = .ok r ∧
        (∀ b, r.1 &&& b ≠ 0 ↔ ts &&& b ≠ 0 ∨ ∃ p ∈ ps, get_prop_type p.id &&& b ≠ 0)) ∧
      (¬ DistinctIds ps → ∃ id, check_properties ps ts mp = .error (.duplicated_tag id) ∧
        ∃ p ∈ ps, p.id = id) := by
  induction ps with
  | nil =>
    intro ts mp
    refine ⟨fun _ => ⟨(ts, mp), rfl, fun b => by simp⟩, fun h => absurd List.Pairwise.nil h⟩
  | cons p rest ih =>
    intro ts mp
    unfold check_properties
    simp only
    unfold DistinctIds
    rw [List.pairwise_cons]
    by_cases hd : find_duplicate p.id rest = true
    · rw [if_pos hd]
      obtain ⟨q, hq, e⟩ := (find_duplicate_iff p.id rest).mp hd
      refine ⟨fun h => absurd e (h.1 q hq), fun _ => ⟨p.id, rfl, p, List.mem_cons_self _ _, rfl⟩⟩
    · rw [if_neg hd]
      have hnd : ∀ q ∈ rest, cstring p.id ≠ cstring q.id := fun q hq e =>
        hd ((find_duplicate_iff p.id rest).mpr ⟨q, hq, e⟩)
      obtain ⟨i1, i2⟩ := ih (ts ||| get_prop_type p.id)
        (if get_prop_type p.id &&& PT_MOVE ≠ 0 ∧ mp = none then some p.id else mp)
      constructor
      · intro h
        obtain ⟨r, hr, hb⟩ := i1 h.2
        refine ⟨r, hr, fun b => ?_⟩
        rw [hb b, or_and_ne_zero]
        constructor
        · rintro ((h1 | h1) | ⟨q, hq, h1⟩)
          · exact Or.inl h1
          · exact Or.inr ⟨p, List.mem_cons_self _ _, h1⟩
          · exact Or.inr ⟨q, List.mem_cons_of_mem _ hq, h1⟩
        · rintro (h1 | ⟨q, hq, h1⟩)
          · exact Or.inl (Or.inl h1)
          · rcases List.mem_cons.mp hq with rfl | hq
            · exact Or.inl (Or.inr h1)
            · exact Or.inr ⟨q, hq, h1⟩
      · intro h
        have h2 : ¬ DistinctIds rest := fun k => h ⟨hnd, k⟩
        obtain ⟨id, hr, q, hq, e⟩ := i2 h2
        exact ⟨id, hr, q, List.mem_cons_of_mem _ hq, e⟩

/-- A node with fewer than two properties has no repeated identifier and not both a
move-type and a setup-type property. -/
theorem short_node_ok {ps : List property} (h : ps.length < 2) :
    DistinctIds ps ∧ ¬ MoveAndSetup ps := by
  match ps, h with
  | [], _ =>
    exact ⟨List.Pairwise.nil, fun ⟨⟨p, hp, _⟩, _⟩ => by cases hp⟩
  | [a], _ =>
    refine ⟨List.pairwise_singleton _ _, ?_⟩
    rintro ⟨⟨p, hp, e1⟩, ⟨q, hq, e2⟩⟩
    rw [List.mem_singleton] at hp hq
    subst hp
    subst hq
    rw [e1] at e2
    exact absurd e2 (by decide)

/-- The test of one node: it fails exactly when the node has a repeated identifier or
both a move-type and a setup-type property. -/
theorem check_node_spec (nd : node) (s : CheckState) :
    (DistinctIds nd.p ∧ ¬ MoveAndSetup nd.p → ∃ s1, check_node nd s = .ok s1 ∧
      s1.nodenr = s.nodenr + 1) ∧
    (¬ DistinctIds nd.p → ∃ id, check_node nd s = .error (.duplicated_tag id) ∧
      ∃ p ∈ nd.p, p.id = id) ∧
    (DistinctIds nd.p → MoveAndSetup nd.p →
      check_node nd s = .error .move_and_setup_properties_in_the_same_node) := by
  unfold check_node
  simp only
  by_cases hlen : nd.p.length < 2
  · rw [if_pos hlen]
    obtain ⟨a, b⟩ := short_node_ok hlen
    exact ⟨fun _ => ⟨_, rfl, rfl⟩, fun h => absurd a h, fun _ h => absurd h b⟩
  · rw [if_neg hlen]
    obtain ⟨i1, i2⟩ := check_properties_spec nd.p 0 s.moveprop
    have key : ∀ r, (∀ b, r &&& b ≠ 0 ↔
          0 &&& b ≠ 0 ∨ ∃ p ∈ nd.p, get_prop_type p.id &&& b ≠ 0) →
        ((r &&& PT_MOVE ≠ 0 ∧ r &&& PT_SETUP ≠ 0) ↔ MoveAndSetup nd.p) := by
      intro r hb
      unfold MoveAndSetup
      rw [hb PT_MOVE, hb PT_SETUP]
      simp only [Nat.zero_and, ne_eq, not_true_eq_false, false_or]
      constructor
      · rintro ⟨⟨p, hp, h1⟩, ⟨q, hq, h2⟩⟩
        exact ⟨⟨p, hp, (type_and_move p.id).mp h1⟩, ⟨q, hq, (type_and_setup q.id).mp h2⟩⟩
      · rintro ⟨⟨p, hp, h1⟩, ⟨q, hq, h2⟩⟩
        exact ⟨⟨p, hp, (type_and_move p.id).mpr h1⟩, ⟨q, hq, (type_and_setup q.id).mpr h2⟩⟩
    refine ⟨?_, ?_, ?_⟩
    · rintro ⟨hd, hm⟩
      obtain ⟨r, hr, hb⟩ := i1 hd
      simp only [hr, bind, Except.bind]
      rw [if_neg (fun h => hm ((key r.1 hb).mp h))]
      split
      · exact ⟨_, rfl, rfl⟩
      · exact ⟨_, rfl, rfl⟩
    · intro hd
      obtain ⟨id, hr, hp⟩ := i2 hd
      simp only [hr, bind, Except.bind]
      exact ⟨id, rfl, hp⟩
    · intro hd hm
      obtain ⟨r, hr, hb⟩ := i1 hd
      simp only [hr, bind, Except.bind]
      rw [if_pos ((key r.1 hb).mpr hm)]

/-- The loop over the nodes: it ends without error exactly when no node is bad. -/
theorem check_nodes_spec (nodes : List node) :
    ∀ s : CheckState,
      ((∀ nd ∈ nodes, DistinctIds nd.p ∧ ¬ MoveAndSetup nd.p) →
        ∃ s1, check_nodes nodes s = .ok s1 ∧ s1.nodenr = s.nodenr + nodes.length) ∧
      ((∃ nd ∈ nodes, ¬ (DistinctIds nd.p ∧ ¬ MoveAndSetup nd.p)) →
        (∃ id, check_nodes nodes s = .error (.duplicated_tag id) ∧
          ∃ nd ∈ nodes, ∃ p ∈ nd.p, p.id = id ∧ ¬ DistinctIds nd.p) ∨
        (check_nodes nodes s = .error .move_and_setup_properties_in_the_same_node ∧
          ∃ nd ∈ nodes, MoveAndSetup nd.p)) := by
  induction nodes with
  | nil =>
    intro s
    exact ⟨fun _ => ⟨s, rfl, by simp⟩, fun ⟨nd, h, _⟩ => by cases h⟩
  | cons nd rest ih =>
    intro s
    obtain ⟨c1, c2, c3⟩ := check_node_spec nd s
    unfold check_nodes
    by_cases hok : DistinctIds nd.p ∧ ¬ MoveAndSetup nd.p
    · obtain ⟨s1, hs1, hn⟩ := c1 hok
      rw [hs1]
      obtain ⟨j1, j2⟩ := ih s1
      constructor
      · intro h
        obtain ⟨s2, hs2, hn2⟩ := j1 fun a ha => h a (List.mem_cons_of_mem _ ha)
        refine ⟨s2, hs2, ?_⟩
        rw [hn2, hn, List.length_cons]
        push_cast
        omega
      · rintro ⟨a, ha, hbad⟩
        rcases List.mem_cons.mp ha with rfl | ha
        · exact absurd hok hbad
        · rcases j2 ⟨a, ha, hbad⟩ with ⟨id, e, b, hb, k⟩ | ⟨e, b, hb, k⟩
          · exact Or.inl ⟨id, e, b, List.mem_cons_of_mem _ hb, k⟩
          · exact Or.inr ⟨e, b, List.mem_cons_of_mem _ hb, k⟩
    · refine ⟨fun h => absurd (h nd (List.mem_cons_self _ _)) hok, fun _ => ?_⟩
      by_cases hd : DistinctIds nd.p
      · have hm : MoveAndSetup nd.p := by
          by_contra hm
          exact hok ⟨hd, hm⟩
        rw [c3 hd hm]
        exact Or.inr ⟨rfl, nd, List.mem_cons_self _ _, hm⟩
      · obtain ⟨id, e, p, hp, k⟩ := c2 hd
        rw [e]
        exact Or.inl ⟨id, rfl, nd, List.mem_cons_self _ _, p, hp, k, hd⟩

/-- The setup-type identifiers are AB, AW, AE and PL. -/
theorem setup_type_iff (s : List Nat) :
    get_prop_type s = PT_SETUP ↔ cstring s ∈ setup_props := by
  unfold get_prop_type
  constructor
  · intro h
    split at h
    · exact absurd h (by decide)
    split at h
    · exact absurd h (by decide)
    split at h
    · assumption
    split at h
    · exact absurd h (by decide)
    split at h
    · exact absurd h (by decide)
    · exact absurd h (by decide)
  · intro h
    have h1 : ∀ t ∈ setup_props, ¬ (t = [66] ∨ t = [87]) ∧ t ∉ move_props := by decide
    obtain ⟨a, b⟩ := h1 _ h
    rw [if_neg a, if_neg b, if_pos h]

/-- The move-type identifiers are B, W and BL BM DO IT KO OB OW TE WL. -/
theorem move_type_iff (s : List Nat) :
    get_prop_type s = PT_MOVE ↔ cstring s ∈ [66] :: [87] :: move_props := by
  unfold get_prop_type
  rw [List.mem_cons, List.mem_cons]
  constructor
  · intro h
    split at h
    · rename_i k
      rcases k with k | k
      · exact Or.inl k
      · exact Or.inr (Or.inl k)
    split at h
    · rename_i k
      exact Or.inr (Or.inr k)
    split at h
    · exact absurd h (by decide)
    split at h
    · exact absurd h (by decide)
    split at h
    · exact absurd h (by decide)
    · exact absurd h (by decide)
  · rintro (h | h | h)
    · rw [if_pos (Or.inl h)]
    · rw [if_pos (Or.inr h)]
    · split
      · rfl
      · rfl

/-- A game tree of one node, `(;` properties `)`, is read as that node with all the
properties of the text, in order. -/
theorem read_one_node (fullprop : Bool) (fuel : Nat) (pt : List Nat) (ps : List property)
    (h : PropsText pt ps) (hf : pt.length + 3 < fuel) :
    readsgf false fullprop fuel (40 :: 59 :: (pt ++ [41]))
      = .ok (.tree [{ p := ps }] .null .null) := by
  have hn : NodesText ([] ++ 59 :: pt) [{ p := ps }] := NodesText.one [] pt ps Ws.nil h
  have ht := TreesText.cons [] ([] ++ 59 :: pt) [] [] [] [{ p := ps }] .null .null Ws.nil hn
    TreesText.nil Ws.nil TreesText.nil
  have hc : CollectionText (40 :: 59 :: (pt ++ [41])) (.tree [{ p := ps }] .null .null) :=
    ⟨_, [], ht, gametree.noConfusion, Ws.nil, by simp⟩
  exact (readsgf_collection false fullprop fuel _ _ _ _ 0 hc.collection_loose
    (by simp only [List.length_cons, List.length_append, List.length_nil]; omega)).1

/-- The parser keeps every property of a node, identifiers repeating or not: a
game tree `(;` properties `)` is read as one node with all the properties of the text
in order, and `(;B[aa]B[bb]AB[cc])` gives a node with the three properties.
`check_node_seq` of sgfcheck fails if and only if some node of the sequence has two
properties with the same identifier or has both a move-type property and a setup-type
property; the error is `duplicated .. tag` only if some node has a repeated identifier
and `move and setup properties in the same node` only if some node has both types; on
a sequence without such a node it returns, with `nodenr` advanced by the number of
nodes.  The setup-type identifiers are AB, AW, AE and PL; the move-type identifiers are
those for which `get_prop_type` gives `PT_MOVE`: B, W, BL, BM, DO, IT, KO, OB, OW, TE,
WL. -/
theorem check_node_seq_spec (nodenr : Int) (warned : Nat) (nodes : List node) :
    (∀ (fullprop : Bool) (fuel : Nat) (pt : List Nat) (ps : List property),
      PropsText pt ps → pt.length + 3 < fuel →
      readsgf false fullprop fuel (40 :: 59 :: (pt ++ [41]))
        = .ok (.tree [{ p := ps }] .null .null)) ∧
    nodesOf (readsgf false false 40 repeatedText)
      = [{ p := [{ id := [66], val := [[97, 97]] }, { id := [66], val := [[98, 98]] },
                 { id := [65, 66], val := [[99, 99]] }] }] ∧
    check_node_seq (-1) 0 (nodesOf (readsgf false false 40 repeatedText))
      = .error (.duplicated_tag [66]) ∧
    check_node_seq (-1) 0 (nodesOf (readsgf false false 40 mixedText))
      = .error .move_and_setup_properties_in_the_same_node ∧
    ((∃ e, check_node_seq nodenr warned nodes = .error e) ↔
      ∃ nd ∈ nodes, ¬ DistinctIds nd.p ∨ MoveAndSetup nd.p) ∧
    (∀ id, check_node_seq nodenr warned nodes = .error (.duplicated_tag id) →
      ∃ nd ∈ nodes, ¬ DistinctIds nd.p ∧ ∃ p ∈ nd.p, p.id = id) ∧
    (check_node_seq nodenr warned nodes = .error .move_and_setup_properties_in_the_same_node →
      ∃ nd ∈ nodes, MoveAndSetup nd.p) ∧
    ((∀ nd ∈ nodes, DistinctIds nd.p ∧ ¬ MoveAndSetup nd.p) →
      ∃ s, check_node_seq nodenr warned nodes = .ok s ∧ s.nodenr = nodenr + nodes.length) ∧
    (∀ s, get_prop_type s = PT_SETUP ↔
      cstring s ∈ [[65, 66], [65, 87], [65, 69], [80, 76]]) ∧
    (∀ s, get_prop_type s = PT_MOVE ↔
      cstring s ∈ [[66], [87], [66, 76], [66, 77], [68, 79], [73, 84], [75, 79], [79, 66],
        [79, 87], [84, 69], [87, 76]]) := by
  obtain ⟨k1, k2⟩ := check_nodes_spec nodes { nodenr := nodenr, moveprop := none, warned := warned }
  have hbad : (∃ nd ∈ nodes, ¬ DistinctIds nd.p ∨ MoveAndSetup nd.p) →
      ∃ nd ∈ nodes, ¬ (DistinctIds nd.p ∧ ¬ MoveAndSetup nd.p) := by
    rintro ⟨nd, hnd, h⟩
    refine ⟨nd, hnd, fun k => ?_⟩
    rcases h with h | h
    · exact h k.1
    · exact k.2 h
  have hgood : (¬ ∃ nd ∈ nodes, ¬ DistinctIds nd.p ∨ MoveAndSetup nd.p) →
      ∀ nd ∈ nodes, DistinctIds nd.p ∧ ¬ MoveAndSetup nd.p := by
    intro h nd hnd
    constructor
    · by_contra k
      exact h ⟨nd, hnd, Or.inl k⟩
    · intro k
      exact h ⟨nd, hnd, Or.inr k⟩
  refine ⟨read_one_node, by decide, by rfl, by rfl, ⟨?_, ?_⟩, ?_, ?_, ?_,
    setup_type_iff, move_type_iff⟩
  · rintro ⟨e, he⟩
    by_contra h
    obtain ⟨s, hs, _⟩ := k1 (hgood h)
    unfold check_node_seq at he
    rw [hs] at he
    cases he
  · intro h
    unfold check_node_seq
    rcases k2 (hbad h) with ⟨id, e, _⟩ | ⟨e, _⟩
    · exact ⟨_, e⟩
    · exact ⟨_, e⟩
  · intro id he
    unfold check_node_seq at he
    by_cases h : ∃ nd ∈ nodes, ¬ DistinctIds nd.p ∨ MoveAndSetup nd.p
    · rcases k2 (hbad h) with ⟨id2, e, nd, hnd, p, hp, e2, hd⟩ | ⟨e, _⟩
      · rw [e] at he
        injection he with he
        injection he with he
        subst he
        exact ⟨nd, hnd, hd, p, hp, e2⟩
      · rw [e] at he
        injection he with he
        cases he
    · obtain ⟨s, hs, _⟩ := k1 (hgood h)
      rw [hs] at he
      cases he
  · intro he
    unfold check_node_seq at he
    by_cases h : ∃ nd ∈ nodes, ¬ DistinctIds nd.p ∨ MoveAndSetup nd.p
    · rcases k2 (hbad h) with ⟨id2, e, _⟩ | ⟨_, k⟩
      · rw [e] at he
        injection he with he
        cases he
      · exact k
    · obtain ⟨s, hs, _⟩ := k1 (hgood h)
      rw [hs] at he
      cases he
  · intro h
    exact k1 h

end Sgfcheck

namespace Sgfdbinput


theorem rd_uchar_ok {file : List Nat} {off : Nat} (h : off < file.length) :
    ∃ b, rd_uchar file off = .ok b := by
  unfold rd_uchar
  rw [List.getElem?_eq_getElem h]
  exact ⟨_, rfl⟩

theorem rd_short_ok {file : List Nat} {off : Nat} (h : off + 1 < file.length) :
    ∃ v, rd_short file off = .ok v := by
  obtain ⟨a, ha⟩ := @rd_uchar_ok file off (by omega)
  obtain ⟨b, hb⟩ := @rd_uchar_ok file (off + 1) h
  unfold rd_short
  simp only [ha, hb, bind, Except.bind]
  split
  · exact ⟨_, rfl⟩
  · exact ⟨_, rfl⟩

theorem read_entries_ok (file : List Nat) (bgm : Nat) :
    ∀ (n i : Nat), bgm + 2 * (i + n) ≤ file.length →
      ∃ l, read_entries file bgm n i = .ok l := by
  intro n
  induction n with
  | zero => intro i _; exact ⟨[], rfl⟩
  | succ n ih =>
    intro i h
    obtain ⟨v, hv⟩ := @rd_short_ok file (bgm + 2 * i) (by omega)
    obtain ⟨l, hl⟩ := ih (i + 1) (by omega)
    unfold read_entries
    simp only [hv, hl, bind, Except.bind]
    exact ⟨_, rfl⟩

/-- A record that passes the test of `do_dbin`: its size is at least that of the
header, the record with its moves and file name lies within the file. -/
theorem check_record_ok {file : List Nat} {bg : Nat} {sz : Int}
    (h : check_record file bg = .ok sz) :
    (SIZEOF_BINGAME : Int) ≤ sz ∧ (bg : Int) + sz ≤ file.length ∧
    ∃ mvct filenamelen, rd_short file (bg + 12) = .ok mvct ∧
      rd_short file (bg + 14) = .ok filenamelen ∧ 0 ≤ mvct ∧ 0 ≤ filenamelen ∧
      (SIZEOF_BINGAME : Int) + 2 * mvct + filenamelen ≤ sz := by
  unfold check_record at h
  cases h1 : rd_short file bg with
  | error e => simp only [h1, bind, Except.bind] at h; cases h
  | ok v1 =>
    simp only [h1, bind, Except.bind] at h
    split at h
    · cases h
    rename_i c1
    cases h2 : rd_short file (bg + 12) with
    | error e => simp only [h2] at h; cases h
    | ok v2 =>
      simp only [h2] at h
      split at h
      · cases h
      rename_i c2
      cases h3 : rd_short file (bg + 14) with
      | error e => simp only [h3] at h; cases h
      | ok v3 =>
        simp only [h3] at h
        split at h
        · cases h
        rename_i c3
        injection h with h
        subst h
        unfold SIZEOF_BINGAME at c3 ⊢
        refine ⟨by omega, by omega, v2, v3, rfl, rfl, by omega, by omega, by omega⟩

/-- On a record that passes the test, `do_bgin` reads within the file. -/
theorem do_bgin_ok {file : List Nat} {bg : Nat} {sz : Int}
    (h : check_record file bg = .ok sz) : ∃ g, do_bgin file bg = .ok g := by
  obtain ⟨a, b, mvct, fl, h12, _, m0, f0, hs⟩ := check_record_ok h
  unfold SIZEOF_BINGAME at a hs
  obtain ⟨v1, e1⟩ := @rd_short_ok file (bg + 2) (by omega)
  obtain ⟨v2, e2⟩ := @rd_uchar_ok file (bg + 6) (by omega)
  obtain ⟨v3, e3⟩ := @rd_short_ok file (bg + 4) (by omega)
  obtain ⟨v4, e4⟩ := @rd_uchar_ok file (bg + 7) (by omega)
  obtain ⟨v5, e5⟩ := @rd_uchar_ok file (bg + 8) (by omega)
  obtain ⟨v6, e6⟩ := @rd_uchar_ok file (bg + 9) (by omega)
  obtain ⟨v7, e7⟩ := @rd_uchar_ok file (bg + 10) (by omega)
  obtain ⟨l, hl⟩ := read_entries_ok file (bg + SIZEOF_BINGAME) mvct.toNat 0
    (by unfold SIZEOF_BINGAME; omega)
  unfold do_bgin
  simp only [e1, e2, e3, e4, e5, e6, e7, h12, hl, bind, Except.bind]
  exact ⟨_, rfl⟩

/-- When the sixteen bytes of the record header lie in the file, the test reads within
the file: the record passes or `do_dbin` fails with `bad database`. -/
theorem check_record_in_file {file : List Nat} {bg : Nat}
    (h : bg + SIZEOF_BINGAME ≤ file.length) :
    (∃ sz, check_record file bg = .ok sz) ∨ check_record file bg = .error .bad_database := by
  unfold SIZEOF_BINGAME at h
  obtain ⟨v1, e1⟩ := @rd_short_ok file bg (by omega)
  obtain ⟨v2, e2⟩ := @rd_short_ok file (bg + 12) (by omega)
  obtain ⟨v3, e3⟩ := @rd_short_ok file (bg + 14) (by omega)
  unfold check_record
  simp only [e1, e2, e3, bind, Except.bind]
  split
  · exact Or.inr rfl
  split
  · exact Or.inr rfl
  split
  · exact Or.inr rfl
  · exact Or.inl ⟨_, rfl⟩

end Sgfdbinput

namespace Readsgf0

open Readsgf (property node gametree iswhitespace is_upper_case is_lower_case cstring
  ends_value link Input ReadErr fresh nextSym gameStart)


theorem Sim.sim_ok {α : Type} {C : Input0 → Prop} {w : Nat} {v : α} {s : Input0}
    (h : w ≤ s.warned) : Sim C w (.ok (v, s)) (.ok (v, proj s)) := by
  intro v1 s1 e
  injection e with e
  injection e with e1 e2
  subst e1 e2
  exact ⟨h, fun _ _ => rfl⟩

theorem Sim.sim_of_eq {α : Type} {C : Input0 → Prop} {w : Nat} {v : α} {s : Input0}
    {y : Except ReadErr (α × Input)} (h : w ≤ s.warned) (e : y = .ok (v, proj s)) :
    Sim C w (.ok (v, s)) y := by
  rw [e]
  exact Sim.sim_ok h

theorem Sim.sim_error {α : Type} {C : Input0 → Prop} {w : Nat} {e : Err0}
    {y : Except ReadErr (α × Input)} : Sim C w (.error e) y := by
  intro v1 s1 h
  cases h

theorem Sim.sim_bind {α β : Type} {C : Input0 → Prop} {w : Nat}
    {x : Except Err0 (α × Input0)} {y : Except ReadErr (α × Input)}
    {f : α × Input0 → Except Err0 (β × Input0)} {g : α × Input → Except ReadErr (β × Input)}
    (hx : Sim (fun _ => True) w x y)
    (hf : ∀ a, x = .ok a → Sim C a.2.warned (f a) (g (a.1, proj a.2))) :
    Sim C w (x.bind f) (y.bind g) := by
  intro u s2 e
  cases hxa : x with
  | error e1 => rw [hxa] at e; cases e
  | ok a =>
    rw [hxa] at e
    obtain ⟨h1, h2⟩ := hx a.1 a.2 hxa
    obtain ⟨h3, h4⟩ := hf a hxa u s2 e
    refine ⟨by omega, fun hw hc => ?_⟩
    have hy := h2 (by omega) trivial
    rw [hy]
    exact h4 (by omega) hc

/-- A call related from a state with more warnings than `w`. -/
theorem Sim.sim_warned {α : Type} {C : Input0 → Prop} {w w1 : Nat}
    {x : Except Err0 (α × Input0)} {y y1 : Except ReadErr (α × Input)}
    (h : Sim C w1 x y1) (hw : w < w1) : Sim C w x y := by
  intro v s e
  obtain ⟨h1, _⟩ := h v s e
  exact ⟨by omega, fun h2 _ => by omega⟩

theorem Sim.sim_weaken {α : Type} {C : Input0 → Prop} {w : Nat}
    {x : Except Err0 (α × Input0)} {y : Except ReadErr (α × Input)}
    (h : Sim (fun _ => True) w x y) : Sim C w x y := by
  intro v s e
  obtain ⟨h1, h2⟩ := h v s e
  exact ⟨h1, fun h3 _ => h2 h3 trivial⟩

theorem mygetchar_sim (s : Input0) :
    Sim (fun _ => True) s.warned (mygetchar s) (Readsgf.mygetchar (proj s)) := by
  unfold mygetchar Readsgf.mygetchar
  show Sim _ _ (if s.peekc ≠ 0 then _ else _) (if s.peekc ≠ 0 then _ else _)
  split
  · exact Sim.sim_ok (Nat.le_refl _)
  · show Sim _ _ (if s.eof = true then _ else _) (if s.eof = true then _ else _)
    split
    · exact Sim.sim_error
    · show Sim _ _ (match s.buf with | [] => _ | c :: r => _)
        (match (proj s).buf with | [] => _ | c :: r => _)
      have e : (proj s).buf = s.buf := rfl
      rw [e]
      cases hb : s.buf with
      | nil =>
        refine Sim.sim_of_eq (Nat.le_refl _) ?_
        simp only [proj, hb]
      | cons c r =>
        refine Sim.sim_of_eq (Nat.le_refl _) ?_
        simp only [proj]

theorem skip_whitespace_sim (s : Input0) (l : List Nat) :
    Sim (fun _ => True) s.warned (skip_whitespace s l)
      (Readsgf.skip_whitespace s.eof s.warned l) := by
  induction l with
  | nil =>
    unfold skip_whitespace Readsgf.skip_whitespace
    split
    · exact Sim.sim_error
    · exact Sim.sim_of_eq (Nat.le_refl _) rfl
  | cons c r ih =>
    unfold skip_whitespace Readsgf.skip_whitespace
    split
    · exact Sim.sim_error
    · split
      · exact ih
      · rename_i he _
        have : s.eof = false := by simpa using he
        exact Sim.sim_of_eq (Nat.le_refl _) rfl

theorem mygetsym_sim (s : Input0) :
    Sim (fun _ => True) s.warned (mygetsym s) (Readsgf.mygetsym (proj s)) := by
  unfold mygetsym Readsgf.mygetsym
  refine Sim.sim_bind (mygetchar_sim s) ?_
  intro a _
  dsimp only
  split
  · exact skip_whitespace_sim a.2 a.2.buf
  · exact Sim.sim_ok (Nat.le_refl _)

theorem read_value_sim (n : Nat) : ∀ (acc : List Nat) (s : Input0),
    Sim (fun _ => True) s.warned (read_propvalue_following_sq n acc s)
      (Readsgf.read_propvalue_following_sq n acc (proj s)) := by
  induction n with
  | zero => intro acc s; exact Sim.sim_error
  | succ n ih =>
    intro acc s
    unfold read_propvalue_following_sq Readsgf.read_propvalue_following_sq
    refine Sim.sim_bind (mygetchar_sim s) ?_
    intro a _
    dsimp only
    split
    · refine Sim.sim_bind (mygetsym_sim a.2) ?_
      intro d _
      dsimp only
      split
      · exact Sim.sim_error
      · split
        · exact Sim.sim_of_eq (Nat.le_refl _) rfl
        · exact (ih (acc ++ [93]) { d.2 with peekc := d.1, warned := d.2.warned + 1 }).sim_warned
            (Nat.lt_succ_self _)
    · split
      · exact Sim.sim_error
      · split
        · refine Sim.sim_bind (mygetchar_sim a.2) ?_
          intro b _
          dsimp only
          split
          · exact Sim.sim_error
          · exact ih _ b.2
        · exact ih _ a.2

theorem read_values_sim (n : Nat) : ∀ (s : Input0),
    Sim (fun _ => True) s.warned (read_propvalue_sequence n s)
      (Readsgf.read_propvalue_sequence n (proj s)) := by
  induction n with
  | zero => intro s; exact Sim.sim_error
  | succ n ih =>
    intro s
    unfold read_propvalue_sequence Readsgf.read_propvalue_sequence
    refine Sim.sim_bind (mygetsym_sim s) ?_
    intro a _
    dsimp only
    split
    · refine Sim.sim_bind (read_value_sim (n + 1) [] a.2) ?_
      intro v _
      refine Sim.sim_bind (ih v.2) ?_
      intro vs _
      exact Sim.sim_of_eq (Nat.le_refl _) rfl
    · exact Sim.sim_of_eq (Nat.le_refl _) rfl

/-- An identifier that has filled the buffer of the strict reader is not accepted. -/
theorem read_propid_full (n : Nat) : ∀ (p : List Nat) (s : Input0), 80 ≤ p.length →
    ∀ v s1, read_propid n p s ≠ .ok (v, s1) := by
  induction n with
  | zero => intro p s _ v s1 h; cases h
  | succ n ih =>
    intro p s hp v s1 h
    unfold read_propid at h
    cases ha : mygetsym s with
    | error e => rw [ha] at h; cases h
    | ok a =>
      rw [ha] at h
      change (if _ then _ else _) = _ at h
      split at h
      · split at h
        · cases h
        · cases h
      · rw [if_neg (by omega)] at h
        exact ih p a.2 hp v s1 h

theorem read_propid_sim (n : Nat) : ∀ (p q : List Nat) (s : Input0), p.length < 80 →
    Sim (fun _ => True) s.warned (read_propid n p s)
      (Readsgf.read_propid false n p q (proj s)) := by
  induction n with
  | zero => intro p q s _; exact Sim.sim_error
  | succ n ih =>
    intro p q s hp
    unfold read_propid Readsgf.read_propid
    refine Sim.sim_bind (mygetsym_sim s) ?_
    intro a _
    dsimp only
    split
    · split
      · exact Sim.sim_error
      · rw [if_neg (by omega), if_neg (by omega)]
        exact Sim.sim_of_eq (Nat.le_refl _) rfl
    · by_cases hu : is_upper_case a.1 = true
      · rw [if_pos ⟨hu, hp⟩, if_pos ⟨by omega, Or.inl hu⟩]
        by_cases hl : (p ++ [a.1]).length < 80
        · exact ih _ _ a.2 hl
        · intro v s1 h
          exact absurd h (read_propid_full n _ a.2 (by omega) v s1)
      · rw [if_neg (fun h => hu h.1), if_neg (fun h => by
          rcases h.2 with h1 | h1
          · exact hu h1
          · cases h1)]
        exact ih _ _ a.2 hp

theorem read_property_sim (n : Nat) (s : Input0) :
    Sim (fun _ => True) s.warned (read_property n s)
      (Readsgf.read_property false n (proj s)) := by
  unfold read_property Readsgf.read_property
  refine Sim.sim_bind (read_propid_sim n [] [] s (by decide)) ?_
  intro i _
  refine Sim.sim_bind (read_values_sim n i.2) ?_
  intro v _
  dsimp only
  split
  · exact Sim.sim_error
  · exact Sim.sim_of_eq (Nat.le_refl _) rfl

theorem lower_case_warning_cases (c : Nat) (s : Input0) :
    (proj (lower_case_warning c s) = proj s ∧ (lower_case_warning c s).warned = s.warned) ∨
      s.warned < (lower_case_warning c s).warned := by
  unfold lower_case_warning
  split
  · split
    · exact Or.inr (Nat.lt_succ_self _)
    · exact Or.inl ⟨rfl, rfl⟩
  · exact Or.inl ⟨rfl, rfl⟩

theorem read_properties_sim (n : Nat) : ∀ (s : Input0),
    Sim (fun _ => True) s.warned (read_properties n s)
      (Readsgf.read_properties false n (proj s)) := by
  induction n with
  | zero => intro s; exact Sim.sim_error
  | succ n ih =>
    intro s
    unfold read_properties Readsgf.read_properties
    refine Sim.sim_bind (mygetsym_sim s) ?_
    intro a _
    dsimp only
    split
    · exact Sim.sim_of_eq (Nat.le_refl _) rfl
    · have hstep : Sim (fun _ => True) (lower_case_warning a.1 { a.2 with peekc := a.1 }).warned
          ((read_property (n + 1) (lower_case_warning a.1 { a.2 with peekc := a.1 })).bind
            fun p => (read_properties n p.2).bind fun ps => .ok (p.1 :: ps.1, ps.2))
          ((Readsgf.read_property false (n + 1)
              (proj (lower_case_warning a.1 { a.2 with peekc := a.1 }))).bind
            fun p => (Readsgf.read_properties false n p.2).bind
              fun ps => .ok (p.1 :: ps.1, ps.2)) := by
        refine Sim.sim_bind (read_property_sim (n + 1) _) ?_
        intro p _
        refine Sim.sim_bind (ih p.2) ?_
        intro ps _
        exact Sim.sim_of_eq (Nat.le_refl _) rfl
      rcases lower_case_warning_cases a.1 { a.2 with peekc := a.1 } with ⟨e1, e2⟩ | hlt
      · rw [e1, e2] at hstep
        exact hstep
      · exact hstep.sim_warned hlt

theorem read_property_sequence_sim (n : Nat) (s : Input0) :
    Sim (fun _ => True) s.warned (read_property_sequence n s)
      (Readsgf.read_property_sequence false n (proj s)) := by
  unfold read_property_sequence Readsgf.read_property_sequence
  refine Sim.sim_bind (read_properties_sim n s) ?_
  intro ps _
  exact Sim.sim_of_eq (Nat.le_refl _) rfl

theorem read_nodes_sim (n : Nat) : ∀ (s : Input0),
    Sim (fun _ => True) s.warned (read_node_sequence n s)
      (Readsgf.read_node_sequence false n (proj s)) := by
  induction n with
  | zero => intro s; exact Sim.sim_error
  | succ n ih =>
    intro s
    unfold read_node_sequence Readsgf.read_node_sequence
    refine Sim.sim_bind (mygetsym_sim s) ?_
    intro a _
    dsimp only
    split
    · refine Sim.sim_bind (read_property_sequence_sim (n + 1) a.2) ?_
      intro nd _
      refine Sim.sim_bind (ih nd.2) ?_
      intro nds _
      exact Sim.sim_of_eq (Nat.le_refl _) rfl
    · exact Sim.sim_of_eq (Nat.le_refl _) rfl

theorem read_sequence_sim (n : Nat) (s : Input0) :
    Sim (fun _ => True) s.warned (read_sequence n s)
      (Readsgf.read_sequence false n (proj s)) := by
  unfold read_sequence Readsgf.read_sequence
  refine Sim.sim_bind (read_nodes_sim n s) ?_
  intro ns _
  dsimp only
  split
  · exact Sim.sim_error
  · exact Sim.sim_of_eq (Nat.le_refl _) rfl

theorem read_baretree_sim (n : Nat) (rgs0 : Input0 → Except Err0 (gametree × Input0))
    (rgs : Input → Except ReadErr (gametree × Input))
    (hr : ∀ s, Sim (fun _ => True) s.warned (rgs0 s) (rgs (proj s))) (s : Input0) :
    Sim (fun _ => True) s.warned (read_baretree n rgs0 s)
      (Readsgf.read_baretree false n rgs (proj s)) := by
  unfold read_baretree Readsgf.read_baretree
  refine Sim.sim_bind (read_sequence_sim n s) ?_
  intro sq _
  refine Sim.sim_bind (hr sq.2) ?_
  intro g _
  exact Sim.sim_of_eq (Nat.le_refl _) rfl

theorem mygetchar_warned {s s1 : Input0} {c : Nat} (h : mygetchar s = .ok (c, s1)) :
    s1.warned = s.warned := by
  unfold mygetchar at h
  split at h
  · injection h with h; injection h with _ h; subst h; rfl
  · split at h
    · cases h
    · split at h
      · injection h with h; injection h with _ h; subst h; rfl
      · injection h with h; injection h with _ h; subst h; rfl

theorem skip_whitespace_warned (s : Input0) (l : List Nat) {s1 : Input0} {c : Nat}
    (h : skip_whitespace s l = .ok (c, s1)) : s1.warned = s.warned := by
  induction l with
  | nil =>
    unfold skip_whitespace at h
    split at h
    · cases h
    · injection h with h; injection h with _ h; subst h; rfl
  | cons x r ih =>
    unfold skip_whitespace at h
    split at h
    · cases h
    · split at h
      · exact ih h
      · injection h with h; injection h with _ h; subst h; rfl

theorem mygetsym_warned {s s1 : Input0} {c : Nat} (h : mygetsym s = .ok (c, s1)) :
    s1.warned = s.warned := by
  unfold mygetsym at h
  cases ha : mygetchar s with
  | error e => rw [ha] at h; cases h
  | ok a =>
    rw [ha] at h
    change (if _ then _ else _) = _ at h
    have h1 := @mygetchar_warned s a.2 a.1 ha
    split at h
    · rw [skip_whitespace_warned a.2 a.2.buf h, h1]
    · injection h with h
      rw [← h1, h]

theorem symSame_proj (s : Input0) : SymSame s (proj s) := by
  intro c s1 h
  exact ((mygetsym_sim s) c s1 h).2 (mygetsym_warned h) trivial

theorem SymSame.sym_sim {s : Input0} {t : Input} (h : SymSame s t) :
    Sim (fun _ => True) s.warned (mygetsym s) (Readsgf.mygetsym t) := by
  intro c s1 e
  exact ⟨by rw [mygetsym_warned e], fun _ _ => h c s1 e⟩

/-- A pending symbol that is no white space is the next symbol. -/
theorem mygetsym_peek0 {s : Input0} (h0 : s.peekc ≠ 0) (hw : iswhitespace s.peekc = false) :
    mygetsym s = .ok (s.peekc, { s with peekc := 0 }) := by
  unfold mygetsym mygetchar
  rw [if_pos h0]
  show (if iswhitespace s.peekc = true then _ else _) = _
  rw [if_neg (by rw [hw]; decide)]

theorem nonff4_warning_cases (s : Input0) :
    (proj (nonff4_warning s) = proj s ∧ (nonff4_warning s).warned = s.warned) ∨
      s.warned < (nonff4_warning s).warned := by
  unfold nonff4_warning
  split
  · exact Or.inr (Nat.lt_succ_self _)
  · exact Or.inl ⟨rfl, rfl⟩

theorem read_baretree_sequence_sim (rgs0 : Input0 → Except Err0 (gametree × Input0))
    (rgs : Input → Except ReadErr (gametree × Input))
    (hr : ∀ s, Sim (fun _ => True) s.warned (rgs0 s) (rgs (proj s))) (n : Nat) :
    ∀ (s : Input0) (t : Input), SymSame s t →
      Sim NotBare s.warned (read_baretree_sequence rgs0 n s)
        (Readsgf.read_baretree_sequence false rgs n t) := by
  induction n with
  | zero => intro s t _; exact Sim.sim_error
  | succ n ih =>
    intro s t hst
    unfold read_baretree_sequence Readsgf.read_baretree_sequence
    refine Sim.sim_bind hst.sym_sim ?_
    intro a _
    dsimp only
    split
    · rename_i h59
      intro v s1 e
      injection e with e
      injection e with e1 e2
      subst e1 e2
      refine ⟨Nat.le_refl _, fun _ hc => ?_⟩
      have hc1 : a.1 ≠ 67 := hc.1
      have hc2 : a.1 ≠ 82 := hc.2.1
      have hc3 : a.1 ≠ 78 := hc.2.2
      rw [if_pos ⟨h59, hc2, hc3, hc1⟩]
      rfl
    · rename_i h59
      have h59 : a.1 = 59 := by simpa using h59
      rw [if_neg (fun h => h.1 h59)]
      refine Sim.sim_bind (read_baretree_sim (n + 1) rgs0 rgs hr { a.2 with peekc := a.1 }) ?_
      intro gh _
      refine Sim.sim_bind (mygetsym_sim gh.2) ?_
      intro c _
      dsimp only
      split
      · rename_i hc
        rw [if_pos (Or.inl hc)]
        have hstep : Sim NotBare (nonff4_warning { c.2 with peekc := c.1 }).warned
            ((read_baretree_sequence rgs0 n (nonff4_warning { c.2 with peekc := c.1 })).bind
              fun g =>
                match g.1, gh.1 with
                | .tree ns fc _, .tree ns0 fc0 sib0 =>
                  (Except.ok (.tree ns0 (.tree ns fc fc0) sib0, g.2) :
                    Except Err0 (gametree × Input0))
                | _, _ => .error .null_dereference)
            ((Readsgf.read_baretree_sequence false rgs n
                (proj (nonff4_warning { c.2 with peekc := c.1 }))).bind
              fun g =>
                match g.1, gh.1 with
                | .tree ns fc _, .tree ns0 fc0 sib0 =>
                  (Except.ok (.tree ns0 (.tree ns fc fc0) sib0, g.2) :
                    Except ReadErr (gametree × Input))
                | _, _ => .error .null_dereference) := by
          intro v s2 e
          cases hg : read_baretree_sequence rgs0 n (nonff4_warning { c.2 with peekc := c.1 }) with
          | error e1 => rw [hg] at e; cases e
          | ok g =>
            rw [hg] at e
            obtain ⟨h1, h2⟩ := ih _ _ (symSame_proj _) g.1 g.2 hg
            change (match g.1, gh.1 with
              | .tree ns fc _, .tree ns0 fc0 sib0 =>
                (Except.ok (.tree ns0 (.tree ns fc fc0) sib0, g.2) :
                  Except Err0 (gametree × Input0))
              | _, _ => .error .null_dereference) = _ at e
            split at e
            · rename_i ns fc sb ns0 fc0 sib0 e1 e2
              injection e with e
              injection e with e3 e4
              subst e4
              refine ⟨h1, fun hw hc => ?_⟩
              rw [h2 hw hc]
              show (match g.1, gh.1 with
                | .tree ns fc _, .tree ns0 fc0 sib0 =>
                  (Except.ok (.tree ns0 (.tree ns fc fc0) sib0, proj g.2) :
                    Except ReadErr (gametree × Input))
                | _, _ => .error .null_dereference) = _
              rw [e1, e2, ← e3]
            · cases e
        rcases nonff4_warning_cases { c.2 with peekc := c.1 } with ⟨e1, e2⟩ | hlt
        · rw [e1, e2] at hstep
          exact hstep
        · exact hstep.sim_warned hlt
      · rename_i hc
        intro v s1 e
        injection e with e
        injection e with e1 e2
        subst e1 e2
        refine ⟨Nat.le_refl _, fun _ hb => ?_⟩
        have hb1 : c.1 ≠ 67 := hb.1
        have hb2 : c.1 ≠ 82 := hb.2.1
        rw [if_neg (fun h => by
          rcases h with h | h | h
          · exact hc h
          · exact hb1 h
          · exact hb2 h)]
        rfl

theorem Sim.sim_bind_cond {α β : Type} {C1 C : Input0 → Prop} {w : Nat}
    {x : Except Err0 (α × Input0)} {y : Except ReadErr (α × Input)}
    {f : α × Input0 → Except Err0 (β × Input0)} {g : α × Input → Except ReadErr (β × Input)}
    (hx : Sim C1 w x y)
    (hf : ∀ a, x = .ok a → Sim C a.2.warned (f a) (g (a.1, proj a.2)))
    (hc : ∀ a v s, x = .ok a → f a = .ok (v, s) → s.warned = a.2.warned → C1 a.2) :
    Sim C w (x.bind f) (y.bind g) := by
  intro u s2 e
  cases hxa : x with
  | error e1 => rw [hxa] at e; cases e
  | ok a =>
    rw [hxa] at e
    obtain ⟨h1, h2⟩ := hx a.1 a.2 hxa
    obtain ⟨h3, h4⟩ := hf a hxa u s2 e
    refine ⟨by omega, fun hw hc2 => ?_⟩
    have hy := h2 (by omega) (hc a u s2 hxa e (by omega))
    rw [hy]
    exact h4 (by omega) hc2

theorem closing_sim (n : Nat)
    (ih : ∀ s, Sim (fun _ => True) s.warned (read_gametree_sequence n s)
      (Readsgf.read_gametree_sequence false n (proj s)))
    (g : gametree) (s : Input0) :
    Sim (fun _ => True) s.warned
      ((mygetsym s).bind fun c =>
        if c.1 ≠ 41 then .error (.gametree_does_not_end c.1)
        else
          (read_gametree_sequence n c.2).bind fun rest =>
            .ok (link g rest.1, rest.2))
      ((Readsgf.mygetsym (proj s)).bind fun c =>
        if c.1 ≠ 41 then .error (.gametree_does_not_end c.1)
        else
          (Readsgf.read_gametree_sequence false n c.2).bind fun rest =>
            .ok (link g rest.1, rest.2)) := by
  refine Sim.sim_bind (mygetsym_sim s) ?_
  intro c _
  dsimp only
  split
  · exact Sim.sim_error
  · refine Sim.sim_bind (ih c.2) ?_
    intro rest _
    exact Sim.sim_of_eq (Nat.le_refl _) rfl

theorem after_paren_sim (n : Nat)
    (ih : ∀ s, Sim (fun _ => True) s.warned (read_gametree_sequence n s)
      (Readsgf.read_gametree_sequence false n (proj s)))
    (s : Input0) (t : Input) (h : SymSame s t) :
    Sim (fun _ => True) s.warned (after_paren n s) (after_paren_tolerant n t) := by
  unfold after_paren after_paren_tolerant
  refine Sim.sim_bind_cond (read_baretree_sequence_sim _ _ ih (n + 1) s t h) ?_ ?_
  · intro a _
    dsimp only
    split
    · exact Sim.sim_error
    · by_cases hn : a.1 = .null
      · rw [if_pos hn]
        exact (closing_sim n ih a.1 { a.2 with warned := a.2.warned + 1 }).sim_warned
          (Nat.lt_succ_self _)
      · rw [if_neg hn]
        exact closing_sim n ih a.1 a.2
  · intro a v s2 _ e hw
    dsimp only at e
    split at e
    · cases e
    · by_cases hn : a.1 = .null
      · rw [if_pos hn] at e
        have := (closing_sim n ih a.1 { a.2 with warned := a.2.warned + 1 } v s2 e).1
        dsimp only at this
        omega
      · rw [if_neg hn] at e
        cases hm : mygetsym a.2 with
        | error e1 => rw [hm] at e; cases e
        | ok c =>
          rw [hm] at e
          change (if _ then _ else _) = _ at e
          split at e
          · cases e
          · rename_i hc
            have hc : c.1 = 41 := by simpa using hc
            have key : ∀ x, x ≠ 0 → iswhitespace x = false → x ≠ 41 → a.2.peekc ≠ x := by
              intro x hx0 hxw hx41 hp
              have := @mygetsym_peek0 a.2 (by rw [hp]; exact hx0) (by rw [hp]; exact hxw)
              rw [hm] at this
              injection this with this
              have h1 := congrArg Prod.fst this
              dsimp only at h1
              rw [hc, hp] at h1
              exact hx41 h1.symm
            exact ⟨key 67 (by decide) (by decide) (by decide),
              key 82 (by decide) (by decide) (by decide),
              key 78 (by decide) (by decide) (by decide)⟩

theorem read_gametree_sequence_succ (n : Nat) (s : Input0) :
    read_gametree_sequence (n + 1) s
      = (mygetsym s).bind fun a =>
          if a.1 = 40 then after_paren n a.2 else .ok (.null, { a.2 with peekc := a.1 }) := rfl

theorem read_gametree_sequence_tolerant_succ (n : Nat) (t : Input) :
    Readsgf.read_gametree_sequence false (n + 1) t
      = (Readsgf.mygetsym t).bind fun a =>
          if a.1 = 40 then after_paren_tolerant n a.2
          else .ok (.null, { a.2 with peekc := a.1 }) := rfl

theorem read_gametree_sequence_sim (n : Nat) : ∀ (s : Input0),
    Sim (fun _ => True) s.warned (read_gametree_sequence n s)
      (Readsgf.read_gametree_sequence false n (proj s)) := by
  induction n with
  | zero => intro s; exact Sim.sim_error
  | succ n ih =>
    intro s
    rw [read_gametree_sequence_succ, read_gametree_sequence_tolerant_succ]
    refine Sim.sim_bind (mygetsym_sim s) ?_
    intro a _
    dsimp only
    split
    · exact after_paren_sim n ih a.2 (proj a.2) (symSame_proj a.2)
    · exact Sim.sim_of_eq (Nat.le_refl _) rfl

theorem check_for_BOM_cases {s s0 : Input0} (h : check_for_BOM s = .ok s0) :
    (∃ a, mygetchar s = .ok a ∧ s0 = { a.2 with peekc := a.1 }) ∨
      s0.warned = s.warned + 1 := by
  unfold check_for_BOM at h
  cases ha : mygetchar s with
  | error e => rw [ha] at h; cases h
  | ok a =>
    rw [ha] at h
    change (if _ then _ else _) = _ at h
    split at h
    · right
      cases hb : mygetchar a.2 with
      | error e => rw [hb] at h; cases h
      | ok b =>
        rw [hb] at h
        change (if _ then _ else _) = _ at h
        split at h
        · cases hc : mygetchar b.2 with
          | error e => rw [hc] at h; cases h
          | ok c =>
            rw [hc] at h
            change (if _ then _ else _) = _ at h
            split at h
            · injection h with h
              rw [← h]
              show c.2.warned + 1 = _
              rw [@mygetchar_warned b.2 c.2 c.1 hc, @mygetchar_warned a.2 b.2 b.1 hb,
                @mygetchar_warned s a.2 a.1 ha]
            · cases h
        · cases h
    · injection h with h
      exact Or.inl ⟨a, rfl, h.symm⟩

/-- The state of the strict reader after `check_for_BOM`, when no warning was written:
the first byte of the text is pending. -/
theorem check_for_BOM_ok {k : Nat} {text : List Nat} {s0 : Input0}
    (h : check_for_BOM (Input0.mk text 0 false 0 k 0) = .ok s0) (hw : s0.warned = 0) :
    (text = [] ∧ s0 = Input0.mk [] 0 true 0 k 0) ∨
      ∃ c t, text = c :: t ∧ s0 = Input0.mk t c false 0 k 0 := by
  rcases check_for_BOM_cases h with ⟨a, ha, e⟩ | h1
  · cases text with
    | nil =>
      left
      have : a = (0, Input0.mk [] 0 true 0 k 0) := by
        have h2 : mygetchar (Input0.mk [] 0 false 0 k 0)
            = .ok (0, Input0.mk [] 0 true 0 k 0) := rfl
        rw [h2] at ha
        injection ha with ha
        exact ha.symm
      subst this
      exact ⟨rfl, e⟩
    | cons c t =>
      right
      have : a = (c, Input0.mk t 0 false 0 k 0) := by
        have h2 : mygetchar (Input0.mk (c :: t) 0 false 0 k 0)
            = .ok (c, Input0.mk t 0 false 0 k 0) := rfl
        rw [h2] at ha
        injection ha with ha
        exact ha.symm
      subst this
      exact ⟨c, t, rfl, e⟩
  · rw [hw] at h1
    cases h1

/-- The next symbol of a state with a pending byte is that of the text with the byte in
front. -/
theorem mygetsym_pending (c : Nat) (t : List Nat) (k : Nat) (hc : c ≠ 0) :
    Readsgf.mygetsym { buf := t, peekc := c, eof := false, warned := k }
      = Readsgf.mygetsym (fresh (c :: t) k) := by
  unfold Readsgf.mygetsym Readsgf.mygetchar fresh
  simp only [ne_eq, hc, not_false_eq_true, if_true, not_true_eq_false, if_false,
    Bool.false_eq_true]

/-- The result of `mygetsym` on a fresh text when it is a symbol other than NUL. -/
theorem mygetsym_fresh_some {t : List Nat} {k c : Nat} {i : Input} (hc : c ≠ 0)
    (h : Readsgf.mygetsym (fresh t k) = .ok (c, i)) :
    ∃ r, nextSym t = some (c, r) ∧ i = fresh r k := by
  rw [Readsgf.mygetsym_fresh] at h
  cases hn : nextSym t with
  | none =>
    rw [hn] at h
    injection h with h
    have := congrArg Prod.fst h
    exact absurd this.symm hc
  | some a =>
    rw [hn] at h
    injection h with h
    obtain ⟨c1, r⟩ := a
    injection h with h1 h2
    subst h1
    exact ⟨r, rfl, h2.symm⟩

/-- A sequence of game trees that the strict reader accepts without a warning, and that
is not empty, starts with `(` and `;`. -/
theorem strict_start {n : Nat} {g : gametree} {s0 s : Input0}
    (h : read_gametree_sequence (n + 1) s0 = .ok (g, s)) (hg : g ≠ .null)
    (hw : s.warned = 0) :
    ∃ s1 s2, mygetsym s0 = .ok (40, s1) ∧ mygetsym s1 = .ok (59, s2) ∧
      after_paren n s1 = .ok (g, s) := by
  rw [read_gametree_sequence_succ] at h
  cases hm : mygetsym s0 with
  | error e => rw [hm] at h; cases h
  | ok a =>
    rw [hm] at h
    change (if _ then _ else _) = _ at h
    split at h
    · rename_i h40
      have hap := h
      unfold after_paren at h
      cases hb : read_baretree_sequence (read_gametree_sequence n) (n + 1) a.2 with
      | error e => rw [hb] at h; cases h
      | ok gb =>
        rw [hb] at h
        change (if _ then _ else _) = _ at h
        have hnn : gb.1 ≠ .null := by
          intro hn
          split at h
          · cases h
          · have := (closing_sim n (read_gametree_sequence_sim n) gb.1
              { gb.2 with warned := gb.2.warned + 1 } g s h).1
            dsimp only at this
            omega
        unfold read_baretree_sequence at hb
        cases hm2 : mygetsym a.2 with
        | error e => rw [hm2] at hb; cases hb
        | ok b =>
          rw [hm2] at hb
          change (if _ then _ else _) = _ at hb
          split at hb
          · injection hb with hb
            exact absurd (congrArg Prod.fst hb).symm hnn
          · rename_i h59
            have h59 : b.1 = 59 := by simpa using h59
            refine ⟨a.2, b.2, ?_, ?_, hap⟩
            · rw [← h40]
            · rw [hm2, ← h59]
    · injection h with h
      exact absurd (congrArg Prod.fst h).symm hg

/-- A text that the strict reader accepts without a warning is accepted by the reader of
readsgf.c with its default options, with the same forest. -/
theorem strict_sim_top (nonff4 fuel : Nat) (text : List Nat) (g : gametree)
    (s : Input0) (hf : text.length + 1 < fuel)
    (h : readsgf nonff4 fuel text = .ok (g, s)) (hw : s.warned = 0) :
    Readsgf.readsgf false false fuel text = .ok g := by
  obtain ⟨n, rfl⟩ : ∃ n, fuel = n + 1 := ⟨fuel - 1, by omega⟩
  unfold readsgf at h
  cases hb : check_for_BOM (Input0.mk text 0 false 0 nonff4 0) with
  | error e => rw [hb] at h; cases h
  | ok s0 =>
    rw [hb] at h
    change read_collection (n + 1) s0 = _ at h
    unfold read_collection at h
    cases hr : read_gametree_sequence (n + 1) s0 with
    | error e => rw [hr] at h; cases h
    | ok gg =>
      rw [hr] at h
      change (if _ then _ else _) = _ at h
      split at h
      · split at h <;> cases h
      rename_i hnull
      injection h with h
      subst h
      have hw0 : s0.warned = 0 := by
        have := (read_gametree_sequence_sim (n + 1) s0 g s hr).1
        omega
      obtain ⟨s1, s2, hm1, hm2, hap⟩ := strict_start hr hnull hw
      have hw1 : s1.warned = 0 := by rw [mygetsym_warned hm1, hw0]
      have ht1 := symSame_proj s0 40 s1 hm1
      have ht2 := symSame_proj s1 59 s2 hm2
      obtain ⟨u, hu, hgs⟩ : ∃ u, Readsgf.mygetsym (proj s0) = Readsgf.mygetsym (fresh u 0) ∧
          gameStart text = gameStart u := by
        rcases check_for_BOM_ok hb hw0 with ⟨e1, e2⟩ | ⟨c, t, e1, e2⟩
        · subst e1 e2
          rw [show mygetsym (Input0.mk [] 0 true 0 nonff4 0) = .error .premature_eof from rfl]
            at hm1
          cases hm1
        · subst e1 e2
          by_cases hc : c = 0
          · subst hc
            exact ⟨t, rfl, by rw [gameStart, if_neg (by decide)]⟩
          · exact ⟨c :: t, mygetsym_pending c t 0 hc, rfl⟩
      rw [hu] at ht1
      obtain ⟨r1, hn1, e1⟩ := mygetsym_fresh_some (by decide) ht1
      rw [e1] at ht2
      obtain ⟨r, hn2, e2⟩ := mygetsym_fresh_some (by decide) ht2
      have hstart : gameStart text = some (40 :: 59 :: r) := by
        obtain ⟨w, hws, _, eu⟩ := Readsgf.nextSym_some hn1
        rw [hgs, eu, Readsgf.gameStart_ws hws, gameStart, if_pos rfl, hn2]
        rfl
      rw [Readsgf.readsgf_eq_start false false (n + 1) text hf, hstart]
      have hsame : SymSame s1 (fresh (59 :: r) 0) := by
        intro c s3 hc
        rw [hm2] at hc
        injection hc with hc
        injection hc with hc1 hc2
        subst hc1 hc2
        rw [e2, Readsgf.mygetsym_fresh]
        rfl
      have hsim := (after_paren_sim n (read_gametree_sequence_sim n) s1 (fresh (59 :: r) 0)
        hsame g s hap).2 (by rw [hw, hw1]) trivial
      have htop : Readsgf.read_gametree_sequence false (n + 1) (fresh (40 :: 59 :: r) 0)
          = .ok (g, proj s) := by
        rw [read_gametree_sequence_tolerant_succ, Readsgf.mygetsym_fresh]
        exact hsim
      unfold Readsgf.parseFrom Readsgf.read_collection
      simp only [htop, Readsgf.bind_ok]
      rw [if_neg hnull]
      rfl

theorem Post0.ends_bind {α β : Type} {Q : α → Prop} {R : β → Prop} {x : Except Err0 α}
    {f : α → Except Err0 β} (hx : Post0 Q x) (hf : ∀ a, Q a → Post0 R (f a)) :
    Post0 R (x.bind f) := by
  cases x with
  | error e =>
    have he : e ≠ .out_of_fuel := fun h => hx.1 (by rw [h])
    constructor
    · intro h
      simp only [Except.bind] at h
      exact he (Except.error.inj h)
    · intro a h; cases h
  | ok a => exact hf a (hx.2 a rfl)

theorem Post0.ends_ok {α : Type} {Q : α → Prop} {a : α} (h : Q a) :
    Post0 Q (Except.ok a : Except Err0 α) := by
  constructor
  · intro h1; cases h1
  · intro b hb; cases hb; exact h

theorem Post0.ends_error {α : Type} {Q : α → Prop} {e : Err0} (h : e ≠ .out_of_fuel) :
    Post0 Q (Except.error e : Except Err0 α) := by
  constructor
  · intro h1; cases h1; exact h rfl
  · intro b hb; cases hb

theorem Post0.ends_mono {α : Type} {Q R : α → Prop} {x : Except Err0 α} (hx : Post0 Q x)
    (h : ∀ a, Q a → R a) : Post0 R x :=
  ⟨hx.1, fun a ha => h a (hx.2 a ha)⟩

theorem size_pending (i : Input0) (c m f k : Nat) (h : i.peekc = 0) :
    (Input0.mk i.buf c i.eof m f k).size ≤ i.size + 1 := by
  unfold Input0.size
  simp only [h, if_true]
  split <;> omega

theorem size_counters (i : Input0) (m f k : Nat) :
    (Input0.mk i.buf i.peekc i.eof m f k).size = i.size := rfl

theorem lower_case_warning_size (c : Nat) (i : Input0) :
    (lower_case_warning c i).size = i.size := by
  unfold lower_case_warning
  split
  · split <;> rfl
  · rfl

theorem nonff4_warning_size (i : Input0) : (nonff4_warning i).size = i.size := by
  unfold nonff4_warning
  split <;> rfl

theorem mygetchar_ends (inp : Input0) :
    Post0 (fun a => a.2.size + 1 = inp.size ∧ a.2.peekc = 0) (mygetchar inp) := by
  unfold mygetchar
  by_cases hp : inp.peekc ≠ 0
  · rw [if_pos hp]
    refine Post0.ends_ok ⟨?_, rfl⟩
    unfold Input0.size
    simp only [if_true]
    rw [if_neg hp]
    omega
  · rw [if_neg hp]
    have hp0 : inp.peekc = 0 := by simpa using hp
    by_cases he : inp.eof = true
    · rw [if_pos he]
      exact Post0.ends_error (by decide)
    · rw [if_neg he]
      cases hb : inp.buf with
      | nil =>
        refine Post0.ends_ok ⟨?_, hp0⟩
        unfold Input0.size
        simp [hb, hp0, he]
      | cons c r =>
        refine Post0.ends_ok ⟨?_, hp0⟩
        unfold Input0.size
        simp [hb, hp0, he]

theorem skip_whitespace_ends (inp : Input0) (l : List Nat) :
    Post0 (fun a => a.2.size ≤ l.length ∧ a.2.peekc = 0) (skip_whitespace inp l) := by
  induction l with
  | nil =>
    unfold skip_whitespace
    split
    · exact Post0.ends_error (by decide)
    · exact Post0.ends_ok ⟨by simp [Input0.size], rfl⟩
  | cons c r ih =>
    unfold skip_whitespace
    split
    · exact Post0.ends_error (by decide)
    · rename_i he
      split
      · exact ih.ends_mono fun a ha => ⟨by simp only [List.length_cons]; omega, ha.2⟩
      · refine Post0.ends_ok ⟨?_, rfl⟩
        simp [Input0.size, he]

theorem mygetsym_ends (inp : Input0) :
    Post0 (fun a => a.2.size + 1 ≤ inp.size ∧ a.2.peekc = 0) (mygetsym inp) := by
  unfold mygetsym
  refine (mygetchar_ends inp).ends_bind ?_
  intro a ha
  split
  · refine (skip_whitespace_ends a.2 a.2.buf).ends_mono ?_
    intro b hb
    refine ⟨?_, hb.2⟩
    have : a.2.buf.length ≤ a.2.size := by unfold Input0.size; omega
    omega
  · exact Post0.ends_ok ⟨by omega, ha.2⟩

theorem read_value_ends (n : Nat) :
    ∀ (acc : List Nat) (inp : Input0), inp.size < n →
      Post0 (fun a => a.2.size + 1 ≤ inp.size) (read_propvalue_following_sq n acc inp) := by
  induction n with
  | zero => intro acc inp h; omega
  | succ n ih =>
    intro acc inp hn
    unfold read_propvalue_following_sq
    refine (mygetchar_ends inp).ends_bind ?_
    intro a ha
    split
    · refine (mygetsym_ends a.2).ends_bind ?_
      intro d hd
      have hs := size_pending d.2 d.1 d.2.mywarnct d.2.nonff4 d.2.warned hd.2
      have hs1 := size_pending d.2 d.1 d.2.mywarnct d.2.nonff4 (d.2.warned + 1) hd.2
      split
      · exact Post0.ends_error (by decide)
      · split
        · exact Post0.ends_ok (by (try dsimp only at *); omega)
        · refine (ih _ _ (by (try dsimp only at *); omega)).ends_mono ?_
          intro b hb
          dsimp only at hb
          omega
    · split
      · exact Post0.ends_error (by decide)
      · split
        · refine (mygetchar_ends a.2).ends_bind ?_
          intro b hb
          split
          · exact Post0.ends_error (by decide)
          · exact (ih _ _ (by omega)).ends_mono fun c hc => by omega
        · exact (ih _ _ (by omega)).ends_mono fun c hc => by omega

theorem read_values_ends (n : Nat) :
    ∀ (inp : Input0), inp.size < n →
      Post0 (fun a => a.2.size ≤ inp.size) (read_propvalue_sequence n inp) := by
  induction n with
  | zero => intro inp h; omega
  | succ n ih =>
    intro inp hn
    unfold read_propvalue_sequence
    refine (mygetsym_ends inp).ends_bind ?_
    intro a ha
    split
    · refine (read_value_ends (n + 1) [] a.2 (by omega)).ends_bind ?_
      intro v hv
      refine (ih v.2 (by omega)).ends_bind ?_
      intro vs hvs
      exact Post0.ends_ok (by (try dsimp only at *); omega)
    · have hs := size_pending a.2 a.1 a.2.mywarnct a.2.nonff4 a.2.warned ha.2
      exact Post0.ends_ok (by (try dsimp only at *); omega)

theorem read_propid_ends (n : Nat) :
    ∀ (p : List Nat) (inp : Input0), inp.size < n →
      Post0 (fun a => a.2.size ≤ inp.size ∧ (p = [] → a.2.size + 1 ≤ inp.size))
        (read_propid n p inp) := by
  induction n with
  | zero => intro p inp h; omega
  | succ n ih =>
    intro p inp hn
    unfold read_propid
    refine (mygetsym_ends inp).ends_bind ?_
    intro a ha
    split
    · split
      · exact Post0.ends_error (by simp)
      · rename_i hp
        split
        · exact Post0.ends_error (by decide)
        · have hs := size_pending a.2 a.1 a.2.mywarnct a.2.nonff4 a.2.warned ha.2
          exact Post0.ends_ok ⟨by (try dsimp only at *); omega, fun h => absurd h hp⟩
    · exact (ih _ a.2 (by omega)).ends_mono fun b hb => ⟨by omega, fun _ => by omega⟩

theorem read_property_ends (n : Nat) (inp : Input0) (hn : inp.size < n) :
    Post0 (fun a => a.2.size + 1 ≤ inp.size) (read_property n inp) := by
  unfold read_property
  refine (read_propid_ends n [] inp hn).ends_bind ?_
  intro i hi
  have h1 := hi.2 rfl
  refine (read_values_ends n i.2 (by omega)).ends_bind ?_
  intro v hv
  split
  · exact Post0.ends_error (by simp)
  · exact Post0.ends_ok (by (try dsimp only at *); omega)

theorem read_properties_ends (n : Nat) :
    ∀ (inp : Input0), inp.size < n →
      Post0 (fun a => a.2.size ≤ inp.size ∧ (a.1 ≠ [] → a.2.size + 1 ≤ inp.size))
        (read_properties n inp) := by
  induction n with
  | zero => intro inp h; omega
  | succ n ih =>
    intro inp hn
    unfold read_properties
    refine (mygetsym_ends inp).ends_bind ?_
    intro a ha
    have hs := size_pending a.2 a.1 a.2.mywarnct a.2.nonff4 a.2.warned ha.2
    split
    · exact Post0.ends_ok ⟨by (try dsimp only at *); omega, fun h => absurd rfl h⟩
    · have hl := lower_case_warning_size a.1 { a.2 with peekc := a.1 }
      refine (read_property_ends (n + 1) _ (by rw [hl]; (try dsimp only at *); omega)).ends_bind ?_
      intro p hp
      rw [hl] at hp
      refine (ih p.2 (by (try dsimp only at *); omega)).ends_bind ?_
      intro ps hps
      exact Post0.ends_ok ⟨by (try dsimp only at *); omega, fun _ => by (try dsimp only at *); omega⟩

theorem read_property_sequence_ends (n : Nat) (inp : Input0) (hn : inp.size < n) :
    Post0 (fun a => a.2.size ≤ inp.size ∧ (a.1.p ≠ [] → a.2.size + 1 ≤ inp.size))
      (read_property_sequence n inp) := by
  unfold read_property_sequence
  refine (read_properties_ends n inp hn).ends_bind ?_
  intro ps hps
  exact Post0.ends_ok hps

theorem read_nodes_ends (n : Nat) :
    ∀ (inp : Input0), inp.size < n →
      Post0 (fun a => a.2.size ≤ inp.size ∧ (a.1 ≠ [] → a.2.size + 1 ≤ inp.size))
        (read_node_sequence n inp) := by
  induction n with
  | zero => intro inp h; omega
  | succ n ih =>
    intro inp hn
    unfold read_node_sequence
    refine (mygetsym_ends inp).ends_bind ?_
    intro a ha
    split
    · refine (read_property_sequence_ends (n + 1) a.2 (by omega)).ends_bind ?_
      intro nd hnd
      refine (ih nd.2 (by omega)).ends_bind ?_
      intro nds hnds
      exact Post0.ends_ok ⟨by (try dsimp only at *); omega, fun _ => by (try dsimp only at *); omega⟩
    · have hs := size_pending a.2 a.1 a.2.mywarnct a.2.nonff4 a.2.warned ha.2
      exact Post0.ends_ok ⟨by (try dsimp only at *); omega, fun h => absurd rfl h⟩

theorem read_sequence_ends (n : Nat) (inp : Input0) (hn : inp.size < n) :
    Post0 (fun a => a.2.size + 1 ≤ inp.size) (read_sequence n inp) := by
  unfold read_sequence
  refine (read_nodes_ends n inp hn).ends_bind ?_
  intro ns hns
  split
  · exact Post0.ends_error (by decide)
  · rename_i hne
    exact Post0.ends_ok (hns.2 hne)

theorem read_baretree_ends (n M : Nat)
    (rgs : Input0 → Except Err0 (gametree × Input0))
    (hrgs : ∀ inp, inp.size < M → Post0 (fun a => a.2.size ≤ inp.size) (rgs inp))
    (inp : Input0) (hn : inp.size < n) (hM : inp.size ≤ M) :
    Post0 (fun a => a.2.size + 1 ≤ inp.size) (read_baretree n rgs inp) := by
  unfold read_baretree
  refine (read_sequence_ends n inp hn).ends_bind ?_
  intro s hs
  refine (hrgs s.2 (by omega)).ends_bind ?_
  intro g hg
  exact Post0.ends_ok (by (try dsimp only at *); omega)

theorem read_baretree_sequence_ends (M : Nat)
    (rgs : Input0 → Except Err0 (gametree × Input0))
    (hrgs : ∀ inp, inp.size < M → Post0 (fun a => a.2.size ≤ inp.size) (rgs inp)) (n : Nat) :
    ∀ (inp : Input0), inp.size < n → inp.size ≤ M →
      Post0 (fun a => a.2.size ≤ inp.size) (read_baretree_sequence rgs n inp) := by
  induction n with
  | zero => intro inp h; omega
  | succ n ih =>
    intro inp hn hM
    unfold read_baretree_sequence
    refine (mygetsym_ends inp).ends_bind ?_
    intro a ha
    have hs := size_pending a.2 a.1 a.2.mywarnct a.2.nonff4 a.2.warned ha.2
    split
    · exact Post0.ends_ok (by (try dsimp only at *); omega)
    · refine (read_baretree_ends (n + 1) M rgs hrgs _ (by (try dsimp only at *); omega)
        (by (try dsimp only at *); omega)).ends_bind ?_
      intro gh hgh
      refine (mygetsym_ends gh.2).ends_bind ?_
      intro c hc
      have hs2 := size_pending c.2 c.1 c.2.mywarnct c.2.nonff4 c.2.warned hc.2
      split
      · have hl := nonff4_warning_size { c.2 with peekc := c.1 }
        refine (ih _ (by rw [hl]; (try dsimp only at *); omega)
          (by rw [hl]; (try dsimp only at *); omega)).ends_bind ?_
        intro g hg
        rw [hl] at hg
        dsimp only at hg hgh
        split
        · exact Post0.ends_ok (by (try dsimp only at *); omega)
        · exact Post0.ends_error (by decide)
      · exact Post0.ends_ok (by (try dsimp only at *); omega)

theorem read_gametree_sequence_ends (n : Nat) :
    ∀ (inp : Input0), inp.size < n →
      Post0 (fun a => a.2.size ≤ inp.size ∧ (a.1 ≠ .null → a.2.size + 2 ≤ inp.size))
        (read_gametree_sequence n inp) := by
  induction n with
  | zero => intro inp h; omega
  | succ n ih =>
    intro inp hn
    unfold read_gametree_sequence
    refine (mygetsym_ends inp).ends_bind ?_
    intro a ha
    split
    · refine (read_baretree_sequence_ends n (read_gametree_sequence n)
        (fun i hi => (ih i hi).ends_mono fun b hb => hb.1) (n + 1) a.2 (by omega) (by omega)).ends_bind ?_
      intro g hg
      split
      · exact Post0.ends_error (by decide)
      · have hsz : (if g.1 = .null then { g.2 with warned := g.2.warned + 1 } else g.2).size
            = g.2.size := by
          split <;> rfl
        refine (mygetsym_ends _).ends_bind ?_
        intro c hc
        rw [hsz] at hc
        split
        · exact Post0.ends_error (by simp)
        · refine (ih c.2 (by omega)).ends_bind ?_
          intro rest hrest
          exact Post0.ends_ok ⟨by (try dsimp only at *); omega, fun _ => by (try dsimp only at *); omega⟩
    · have hs := size_pending a.2 a.1 a.2.mywarnct a.2.nonff4 a.2.warned ha.2
      exact Post0.ends_ok ⟨by (try dsimp only at *); omega, fun h => absurd rfl h⟩

theorem check_for_BOM_ends (inp : Input0) :
    Post0 (fun i => i.size ≤ inp.size) (check_for_BOM inp) := by
  unfold check_for_BOM
  refine (mygetchar_ends inp).ends_bind ?_
  intro a ha
  split
  · refine (mygetchar_ends a.2).ends_bind ?_
    intro b hb
    split
    · refine (mygetchar_ends b.2).ends_bind ?_
      intro c hc
      split
      · have := size_counters c.2 c.2.mywarnct c.2.nonff4 (c.2.warned + 1)
        exact Post0.ends_ok (by (try dsimp only at *); omega)
      · exact Post0.ends_error (by decide)
    · exact Post0.ends_error (by decide)
  · have hs := size_pending a.2 a.1 a.2.mywarnct a.2.nonff4 a.2.warned ha.2
    exact Post0.ends_ok (by (try dsimp only at *); omega)

/-- With more fuel than the text has bytes (and two to spare) the strict reader never
stops for lack of fuel. -/
theorem strict_fuel (nonff4 fuel : Nat) (text : List Nat) (hf : text.length + 1 < fuel) :
    readsgf nonff4 fuel text ≠ .error .out_of_fuel := by
  have hsz : (Input0.mk text 0 false 0 nonff4 0).size = text.length + 1 := by
    simp [Input0.size]
  have h : Post0 (fun _ => True) (readsgf nonff4 fuel text) := by
    unfold readsgf
    refine (check_for_BOM_ends _).ends_bind ?_
    intro i hi
    unfold read_collection
    refine (read_gametree_sequence_ends fuel i (by omega)).ends_bind ?_
    intro g _
    split
    · split
      · exact Post0.ends_error (by decide)
      · exact Post0.ends_error (by simp)
    · exact Post0.ends_ok trivial
  exact h.1

/-- With `propvaluebufsz` or more bytes in the buffer the next write is behind its end:
the value reader does not return a value. -/
theorem read_value_overflow (n : Nat) (acc : List Nat) (inp : Input0)
    (h : propvaluebufsz ≤ acc.length) (v : List Nat) (s : Input0) :
    read_propvalue_following_sq n acc inp ≠ .ok (v, s) := by
  cases n with
  | zero =>
    intro e
    unfold read_propvalue_following_sq at e
    cases e
  | succ n =>
    unfold read_propvalue_following_sq
    cases ha : mygetchar inp with
    | error e => intro k; cases k
    | ok a =>
      show (if a.1 = 93 then _ else _) ≠ _
      split
      · cases hd : mygetsym a.2 with
        | error e => intro k; cases k
        | ok d =>
          intro k
          cases k
      · intro k
        cases k

end Readsgf0

namespace Writesgf

open Readsgf (property node gametree cstring Ws Stored GoodProp GoodForest NodesNonempty
  IdText ValuesLoose PropsLoose NodesLoose TreesLoose CollectionLoose LooseBody)


theorem idText_cstring {id : List Nat} (h : IdText id) : cstring id = id :=
  Readsgf.cstring_of_nonzero fun c hc => Readsgf.upper_nonzero (h.2.2 c hc)

theorem stored_cstring {v : List Nat} (h : Stored v) : cstring v = v :=
  Readsgf.cstring_of_nonzero h.stored_nonzero

theorem ws_newline : Ws [10] := by
  intro c hc
  rw [List.mem_singleton.mp hc]
  rfl

theorem ws_append {a b : List Nat} (ha : Ws a) (hb : Ws b) : Ws (a ++ b) := by
  intro c hc
  rcases List.mem_append.mp hc with h | h
  · exact ha c h
  · exact hb c h

/-- The text written for the values of a property derives these values. -/
theorem values_derive : ∀ (vs : List (List Nat)), vs ≠ [] → (∀ v ∈ vs, Stored v) →
    ∃ st ss k, ValuesLoose (write_propvalues vs) st vs ss k := by
  intro vs
  induction vs with
  | nil => intro h; exact absurd rfl h
  | cons v rest ih =>
    intro _ h
    have hv := h v (List.mem_cons_self _ _)
    obtain ⟨s, k, hb⟩ := hv
    unfold write_propvalues
    rw [stored_cstring ⟨s, k, hb⟩]
    cases rest with
    | nil =>
      exact ⟨_, _, _, ValuesLoose.one [] v s v k Readsgf.Ws.nil hb⟩
    | cons v2 r2 =>
      obtain ⟨st, ss, k2, h2⟩ := ih (by simp) (fun x hx => h x (List.mem_cons_of_mem _ hx))
      exact ⟨_, _, _, ValuesLoose.cons [] v s v _ st _ ss k k2 Readsgf.Ws.nil hb h2⟩

/-- The text written for the properties of a node, after the white space `w0`, is a
text that derives these properties, followed by white space. -/
theorem props_derive : ∀ (ps : List property), (∀ p ∈ ps, GoodProp p) →
    ∀ (did : Bool) (mol : Nat) (w0 : List Nat), Ws w0 →
    ∃ T w T2 ps2 k, w0 ++ (write_property_sequence ps did mol).1 = T ++ w ∧ Ws w ∧
      PropsLoose T T2 ps ps2 k := by
  intro ps
  induction ps with
  | nil =>
    intro _ did mol w0 hw
    exact ⟨[], w0, [], [], 0, by simp [write_property_sequence], hw, PropsLoose.nil⟩
  | cons p ps ih =>
    intro h did mol w0 hw
    obtain ⟨hid, hne, hvs⟩ := h p (List.mem_cons_self _ _)
    have hrest : ∀ q ∈ ps, GoodProp q := fun q hq => h q (List.mem_cons_of_mem _ hq)
    obtain ⟨vst, vss, kv, hval⟩ := values_derive p.val hne hvs
    have hp : p = { id := p.id, val := p.val } := by cases p; rfl
    unfold write_property_sequence
    rw [idText_cstring hid]
    split
    · obtain ⟨T, w, T2, ps2, k, e, hw2, hpl⟩ := ih hrest did movesperline [] Readsgf.Ws.nil
      rw [List.nil_append] at e
      refine ⟨w0 ++ (p.id ++ (write_propvalues p.val ++ T)), w, _, _, _, ?_, hw2,
        by rw [hp]; exact PropsLoose.cons w0 p.id _ vst T T2 p.val vss ps ps2 kv k hw hid hval hpl⟩
      show w0 ++ (p.id ++ (write_propvalues p.val ++ _)) = _
      rw [e]
      simp only [List.append_assoc]
    · obtain ⟨T, w, T2, ps2, k, e, hw2, hpl⟩ := ih hrest true 0 [10] ws_newline
      refine ⟨(w0 ++ (if did = true then [] else [10])) ++
          (p.id ++ (write_propvalues p.val ++ T)), w, _, _, _, ?_, hw2,
        by
          rw [hp]
          exact PropsLoose.cons _ p.id _ vst T T2 p.val vss ps ps2 kv k
            (ws_append hw (by split; exact Readsgf.Ws.nil; exact ws_newline)) hid hval hpl⟩
      show w0 ++ ((if did = true then [] else [10]) ++
        (p.id ++ (write_propvalues p.val ++ 10 :: _))) = _
      have e2 : (10 :: (write_property_sequence ps true 0).1) = T ++ w := e
      rw [e2]
      simp only [List.append_assoc]

theorem ws_root (root : Bool) : Ws (if root = true then [10] else []) := by
  split
  · exact ws_newline
  · exact Readsgf.Ws.nil

/-- The text written for one node: white space, `;`, a text that derives the
properties, white space, and then the text of the nodes that follow. -/
theorem node_derive (n : node) (h : ∀ p ∈ n.p, GoodProp p) (root : Bool) (mol : Nat) :
    ∃ pre pt wt mol1 T2 ps2 k, Ws pre ∧ Ws wt ∧ PropsLoose pt T2 n.p ps2 k ∧
      ∀ ns, write_nodes (n :: ns) root mol
        = (write_nodes ns false mol1).map fun t => (pre ++ 59 :: (pt ++ (wt ++ t.1)), t.2) := by
  cases hnp : n.p with
  | nil =>
    refine ⟨[], [], if root = true then [10] else [], mol, [], [], 0, Readsgf.Ws.nil,
      ws_root root, PropsLoose.nil, ?_⟩
    intro ns
    rw [write_nodes]
    rw [hnp]
    simp only [is_move, write_property_sequence, List.nil_append]
    cases write_nodes ns false mol <;> rfl
  | cons p rest =>
    rw [hnp] at h
    obtain ⟨hid, hne, hvs⟩ := h p (List.mem_cons_self _ _)
    have hrest : ∀ q ∈ rest, GoodProp q := fun q hq => h q (List.mem_cons_of_mem _ hq)
    cases hv : p.val with
    | nil => exact absurd hv hne
    | cons v vs =>
      by_cases hm : vs = [] ∧ (cstring p.id = [66] ∨ cstring p.id = [87])
      · obtain ⟨T, w, T2, ps2, k, e, hw, hpl⟩ := props_derive rest hrest false
          ((if mol = movesperline then 0 else mol) + 1) [] Readsgf.Ws.nil
        rw [List.nil_append] at e
        have hsv : Stored v := hvs v (by rw [hv]; exact List.mem_cons_self _ _)
        obtain ⟨s, kv, hb⟩ := hsv
        have hp : p = { id := p.id, val := [v] } := by
          cases p
          simp only at hv
          rw [hv, hm.1]
        have hpt : PropsLoose ([] ++ (p.id ++ (([] ++ 91 :: (v ++ [93])) ++ T)))
            ([] ++ (p.id ++ (([] ++ 91 :: (s ++ [93])) ++ T2)))
            (p :: rest) ({ id := p.id, val := [s] } :: ps2) (kv + k) := by
          rw [hp]
          exact PropsLoose.cons [] p.id _ _ T T2 [v] _ rest ps2 _ k Readsgf.Ws.nil hid
            (ValuesLoose.one [] v s v kv Readsgf.Ws.nil hb) hpl
        refine ⟨if mol = movesperline then [10] else [], _, w ++ (if root = true then [10] else []),
          (write_property_sequence rest false ((if mol = movesperline then 0 else mol) + 1)).2,
          _, _, _, by split; exact ws_newline; exact Readsgf.Ws.nil,
          ws_append hw (ws_root root), hpt, ?_⟩
        intro ns
        have his : is_move (p :: rest) = some true := by
          show (match p.val with
            | [] => none
            | _ :: vs => some (decide (vs = [] ∧ (cstring p.id = [66] ∨ cstring p.id = [87]))))
              = some true
          rw [hv]
          exact congrArg some (decide_eq_true hm)
        rw [write_nodes, hnp, his]
        simp only [hv]
        rw [idText_cstring hid, stored_cstring ⟨s, kv, hb⟩, e]
        cases write_nodes ns false (write_property_sequence rest false
          ((if mol = movesperline then 0 else mol) + 1)).2 with
        | none => rfl
        | some t =>
          simp only [Option.map_some', List.nil_append, List.append_assoc, List.cons_append,
            List.singleton_append]
      · obtain ⟨T, w, T2, ps2, k, e, hw, hpl⟩ := props_derive (p :: rest) h false mol []
          Readsgf.Ws.nil
        rw [List.nil_append] at e
        refine ⟨[], T, w ++ (if root = true then [10] else []),
          (write_property_sequence (p :: rest) false mol).2, _, _, _, Readsgf.Ws.nil,
          ws_append hw (ws_root root), hpl, ?_⟩
        intro ns
        have his : is_move (p :: rest) = some false := by
          show (match p.val with
            | [] => none
            | _ :: vs => some (decide (vs = [] ∧ (cstring p.id = [66] ∨ cstring p.id = [87]))))
              = some false
          rw [hv]
          exact congrArg some (decide_eq_false hm)
        rw [write_nodes, hnp, his]
        simp only []
        rw [e]
        cases write_nodes ns false (write_property_sequence (p :: rest) false mol).2 with
        | none => rfl
        | some t =>
          simp only [Option.map_some', List.nil_append, List.append_assoc]

/-- The text written for one or more nodes, after the white space `w0`, is a text that
derives these nodes, followed by white space. -/
theorem nodes_derive : ∀ (ns : List node), ns ≠ [] →
    (∀ nd ∈ ns, ∀ p ∈ nd.p, GoodProp p) → ∀ (root : Bool) (mol : Nat) (w0 : List Nat), Ws w0 →
    ∃ out mol2, write_nodes ns root mol = some (out, mol2) ∧
      ∃ T w T2 ns2 k, w0 ++ out = T ++ w ∧ Ws w ∧ NodesLoose T T2 ns ns2 k := by
  intro ns
  induction ns with
  | nil => intro h; exact absurd rfl h
  | cons n rest ih =>
    intro _ h root mol w0 hw0
    obtain ⟨pre, pt, wt, mol1, T2, ps2, k, hpre, hwt, hpl, heq⟩ :=
      node_derive n (h n (List.mem_cons_self _ _)) root mol
    have hn : n = { p := n.p } := by cases n; rfl
    rw [heq rest]
    cases rest with
    | nil =>
      refine ⟨_, _, rfl, (w0 ++ pre) ++ 59 :: pt, wt, (w0 ++ pre) ++ 59 :: T2, [{ p := ps2 }], k,
        by simp only [List.append_assoc, List.cons_append, List.append_nil], hwt, ?_⟩
      rw [hn]
      exact NodesLoose.one _ pt T2 n.p ps2 k (ws_append hw0 hpre) hpl
    | cons n2 r2 =>
      obtain ⟨out2, mol2, e2, T, w, T3, ns3, k3, e3, hw, hnl⟩ :=
        ih (by simp) (fun nd hnd => h nd (List.mem_cons_of_mem _ hnd)) false mol1 wt hwt
      rw [e2]
      refine ⟨_, _, rfl, (w0 ++ pre) ++ 59 :: (pt ++ T), w, (w0 ++ pre) ++ 59 :: (T2 ++ T3),
        { p := ps2 } :: ns3, k + k3, ?_, hw, ?_⟩
      · show w0 ++ (pre ++ 59 :: (pt ++ (wt ++ out2))) = _
        rw [e3]
        simp only [List.append_assoc, List.cons_append]
      · rw [hn]
        exact NodesLoose.cons _ pt T2 T T3 n.p ps2 (n2 :: r2) ns3 k k3 (ws_append hw0 hpre)
          hpl hnl

/-- The text written for a sequence of game trees, after the white space `w0`, is a text
that derives these trees, followed by white space. -/
theorem trees_derive : ∀ (g : gametree), GoodForest g → NodesNonempty g →
    ∀ (level mol : Nat) (w0 : List Nat), Ws w0 →
    ∃ out mol2, write_gametree_sequence g level mol = some (out, mol2) ∧
      ∃ T w T2 g2 k, w0 ++ out = T ++ w ∧ Ws w ∧ TreesLoose T T2 g g2 k := by
  intro g
  induction g with
  | null =>
    intro _ _ level mol w0 hw0
    exact ⟨[], mol, rfl, [], w0, [], .null, 0, by simp, hw0, TreesLoose.nil⟩
  | tree ns fc sib ihf ihs =>
    intro hg hn level mol w0 hw0
    obtain ⟨h1, h2, h3⟩ := hg.good_parts
    obtain ⟨n1, n2, n3⟩ : ns ≠ [] ∧ NodesNonempty fc ∧ NodesNonempty sib := hn
    obtain ⟨out1, m1, e1, Tn, wn, Tn2, ns2, k1, en, hwn, hnl⟩ :=
      nodes_derive ns n1 h1 (decide (level + 1 = 1)) mol [] Readsgf.Ws.nil
    rw [List.nil_append] at en
    obtain ⟨out2, m2, e2, Tc, wc, Tc2, fc2, k2, ec, hwc, hcl⟩ := ihf h2 n2 (level + 1) m1 wn hwn
    obtain ⟨out3, m3, e3, Tr, wr, Tr2, sib2, k3, er, hwr, hrl⟩ := ihs h3 n3 level 0 [10] ws_newline
    have e0 : write_nodesequence ns (decide (level + 1 = 1)) mol = some (out1, m1) := by
      unfold write_nodesequence
      rw [if_neg n1, e1]
    refine ⟨40 :: (out1 ++ (out2 ++ 41 :: 10 :: out3)), m3, ?_,
      w0 ++ 40 :: (Tn ++ (Tc ++ (wc ++ 41 :: Tr))), wr,
      w0 ++ 40 :: (Tn2 ++ (Tc2 ++ (wc ++ 41 :: Tr2))), .tree ns2 fc2 sib2, k1 + (k2 + k3), ?_, hwr,
      TreesLoose.cons w0 Tn Tn2 Tc Tc2 wc Tr Tr2 ns ns2 fc fc2 sib sib2 k1 k2 k3 hw0 hnl hcl hwc
        hrl⟩
    · rw [write_gametree_sequence]
      simp only [e0, e2, e3]
    · have er2 : 10 :: out3 = Tr ++ wr := er
      rw [en, er2]
      have ec2 : wn ++ out2 = Tc ++ wc := ec
      calc w0 ++ 40 :: (Tn ++ wn ++ (out2 ++ 41 :: (Tr ++ wr)))
          = w0 ++ 40 :: (Tn ++ ((wn ++ out2) ++ 41 :: (Tr ++ wr))) := by
            simp only [List.append_assoc]
        _ = w0 ++ 40 :: (Tn ++ (Tc ++ (wc ++ 41 :: Tr))) ++ wr := by
            rw [ec2]
            simp only [List.append_assoc, List.cons_append]

/-- A forest whose properties are as the reader stores them from a text without NUL
bytes, and whose game trees all have a node, is written as a text that `readsgf` reads
as the same forest. -/
theorem written_reads_back (g : gametree) (hg : GoodForest g) (hn : NodesNonempty g)
    (hne : g ≠ .null) :
    ∃ out, writesgf g = some out ∧
      ∀ fuel, out.length < fuel → Readsgf.readsgf false false fuel out = .ok g := by
  obtain ⟨out, m, e, T, w, T2, g2, k, et, hw, ht⟩ := trees_derive g hg hn 0 0 [] Readsgf.Ws.nil
  rw [List.nil_append] at et
  refine ⟨out, by unfold writesgf; rw [e]; rfl, ?_⟩
  intro fuel hf
  exact (Readsgf.readsgf_collection false false fuel out (T2 ++ w) g g2 k
    ⟨T, T2, w, ht, hne, hw, et, rfl⟩ hf).1

end Writesgf


namespace Playgogame

/-! ## The claims about the replay engine -/

/-- C1.  In a state `s0` that `playgogame` has reached, let a Black or White move on
the point `(x, y)` of the board be processed without error.  Then the log grows by the
PLACE record of the new stone followed by CAPTURE records only, one for each stone of
the list `caps`, carrying the position and the colour of that stone; `caps` has no
repetition and holds exactly the stones of the opposing chains that touch the new
stone and have no empty neighbour cell left once it is on the board, so no stone of a
chain that still has an empty neighbour gets a CAPTURE record; the captured cells are
`EMPTY` afterwards, the new stone is on the board, and no other cell changes. -/
theorem capture_records (g : State) (size initct : Int) (moves : List Int) (s0 s1 : State)
    (color x y movenr : Int) (hcol : ColoursOk moves)
    (hrun : run g size moves initct = .ok s0) (hc : color = 1 ∨ color = 2)
    (hx : 1 ≤ x ∧ x ≤ s0.sz) (hy : 1 ≤ y ∧ y ≤ s0.sz)
    (hmove : do_move s0 color x y movenr = .ok s1) :
    ∃ caps : List Nat,
      s1.mv = s0.mv ++ placeRec (POS x y).toNat color.toNat ::
        caps.map (fun p => captureRec p (s0.board p)) ∧
      caps.Nodup ∧
      (∀ p, p ∈ caps ↔ capturedBy s0 color.toNat (POS x y).toNat p) ∧
      (∀ p ∈ caps, s1.board p = EMPTY ∧ isCapture (captureRec p (s0.board p)) ∧
        recPos (captureRec p (s0.board p)) = p ∧
        recColor (captureRec p (s0.board p)) = s0.board p) ∧
      ¬ isCapture (placeRec (POS x y).toNat color.toNat) ∧
      s1.board (POS x y).toNat = color.toNat ∧
      ∀ p, p ≠ (POS x y).toNat → p ∉ caps → s1.board p = s0.board p := by
  obtain ⟨hi, _⟩ := run_good hcol hrun
  obtain ⟨hon, _⟩ := onBoard_POS hx.1 hx.2 hy.1 hy.2 hi.wf.board.sz_le
  rw [do_move_on_board hi.wf.board hx hy] at hmove
  split at hmove
  · cases hmove
  rename_i he
  have he' : s0.board (POS x y).toNat = EMPTY := by simpa using he
  have hl := do_place_spec hi hc hon he' hmove
  obtain ⟨caps, hk⟩ := hl.cap
  have hs : isStone color.toNat := (isStone_toNat hc).2 ▸ (isStone_toNat hc).1
  have h627 := onBoard_le hon hi.wf.board.sz_le
  have hcapd : ∀ p, p ∈ caps → isStone (s0.board p) ∧ p ≠ (POS x y).toNat ∧ p < 1024 := by
    intro p hp
    obtain ⟨⟨a, _, _, _⟩, _⟩ := (hk.cap p).mp hp
    have hpo := hi.wf.board.stone_on p a
    have := onBoard_le hpo hi.wf.board.sz_le
    refine ⟨a, ?_, by omega⟩
    intro e; rw [e, he'] at a; exact not_isStone_empty a
  refine ⟨caps, hk.mv, hk.nodup, ?_, ?_, ?_, ?_, ?_⟩
  · intro p
    rw [hk.cap p]
    constructor
    · intro h; exact h.1
    · intro h; exact ⟨h, fun t ht => by cases ht⟩
  · intro p hp
    obtain ⟨a, b, c⟩ := hcapd p hp
    obtain ⟨f1, f2, f3, _⟩ := captureRec_facts c a
    refine ⟨?_, f3, f1, f2⟩
    rw [hk.board p, if_neg b, if_pos hp]
  · exact (placeRec_facts (by omega) hs).2.2.1
  · rw [hk.board, if_pos rfl]
  · intro p h1 h2
    rw [hk.board p, if_neg h1, if_neg h2]

theorem capture_records_witness :
    (ColoursOk demoMoves ∧ run (blank 100) 19 demoMoves 0 = .ok demoState ∧
      do_move demoState 2 2 3 4 = .ok (stateOf (do_move demoState 2 2 3 4) (blank 0))) ∧
    (∃ caps : List Nat,
      (stateOf (do_move demoState 2 2 3 4) (blank 0)).mv
        = demoState.mv ++ placeRec (POS 2 3).toNat (2 : Int).toNat ::
            caps.map (fun p => captureRec p (demoState.board p)) ∧
      caps.Nodup ∧
      (∀ p, p ∈ caps ↔ capturedBy demoState (2 : Int).toNat (POS 2 3).toNat p) ∧
      (∀ p ∈ caps, (stateOf (do_move demoState 2 2 3 4) (blank 0)).board p = EMPTY ∧
        isCapture (captureRec p (demoState.board p)) ∧
        recPos (captureRec p (demoState.board p)) = p ∧
        recColor (captureRec p (demoState.board p)) = demoState.board p) ∧
      ¬ isCapture (placeRec (POS 2 3).toNat (2 : Int).toNat) ∧
      (stateOf (do_move demoState 2 2 3 4) (blank 0)).board (POS 2 3).toNat = (2 : Int).toNat ∧
      ∀ p, p ≠ (POS 2 3).toNat → p ∉ caps →
        (stateOf (do_move demoState 2 2 3 4) (blank 0)).board p = demoState.board p) ∧
    (stateOf (do_move demoState 2 2 3 4) (blank 0)).mv
      = demoState.mv ++ [placeRec 67 WHITE, captureRec 66 BLACK] ∧
    demoState.board 66 = BLACK ∧
    (stateOf (do_move demoState 2 2 3 4) (blank 0)).board 66 = EMPTY :=
  ⟨⟨by decide!, ok_stateOf (blank 0) (by decide!), ok_stateOf (blank 0) (by decide!)⟩,
    capture_records (blank 100) 19 0 demoMoves demoState _ 2 2 3 4 (by decide!)
      (ok_stateOf (blank 0) (by decide!)) (by decide) (by decide!) (by decide!)
      (ok_stateOf (blank 0) (by decide!)),
    by decide!, by decide!, by decide!⟩

/-- C2.  After every move that `playgogame` processes without error (the state `st`
that the replay loop reaches on any list of Black and White moves), for every stone
`p` on the board the chain that owns it lists exactly the stones it owns, each once;
its liberties field is the sum over these stones of their empty neighbour cells (a
cell counted once for each stone it touches); the field is zero exactly when no stone
of the chain has an empty neighbour; and the field is at least 1. -/
theorem liberties_field_exact (g : State) (size initct : Int) (moves : List Int) (st : State)
    (hcol : ColoursOk moves) (hrun : run g size moves initct = .ok st)
    (p : Nat) (hp : isStone (st.board p)) :
    (∀ q, q ∈ chainAt st p ↔ isStone (st.board q) ∧ st.current_chain q = st.current_chain p) ∧
    (chainAt st p).Nodup ∧
    (st.chains (st.current_chain p)).liberties = (libs st.board (chainAt st p) : Int) ∧
    ((st.chains (st.current_chain p)).liberties = 0 ↔
      ∀ q ∈ chainAt st p, ∀ u ∈ nbrs q, st.board u ≠ EMPTY) ∧
    1 ≤ (st.chains (st.current_chain p)).liberties := by
  obtain ⟨hi, _⟩ := run_good hcol hrun
  have hl := hi.wf.lib_nil hp
  refine ⟨?_, hi.wf.chain.nodup p hp, hl, ?_, hi.pos p hp⟩
  · intro q
    constructor
    · intro hq
      exact ⟨hi.wf.chain.stone hp hq, (hi.wf.chain.own p hp q hq).2⟩
    · intro ⟨h1, h2⟩
      exact (hi.wf.chain.mem_iff hp h1).mpr h2
  · rw [hl, ← libs_eq_zero_iff]
    exact Int.natCast_eq_zero

theorem liberties_field_exact_witness :
    ColoursOk demoMoves ∧ run (blank 100) 19 demoMoves 0 = .ok demoState ∧
    isStone (demoState.board 66) ∧
    1 ≤ (demoState.chains (demoState.current_chain 66)).liberties :=
  ⟨by decide!, ok_stateOf (blank 0) (by decide!), by decide!,
    (liberties_field_exact (blank 100) 19 0 demoMoves demoState (by decide!)
      (ok_stateOf (blank 0) (by decide!)) 66 (by decide!)).2.2.2.2⟩

/-- C8.  In the log that a successful `playgogame` returns (moves Black or White),
an entry that is not a PASS carries the PERMANENT flag if and only if no later PLACE
or CAPTURE entry of the log has the same position field. -/
theorem permanent_iff_last (g : State) (size initct : Int) (moves : List Int) (r : State)
    (i m : Nat) (hcol : ColoursOk moves) (hplay : playgogame g size moves initct = .ok r)
    (hm : r.mv[i]? = some m) (hnp : ¬ isPass m) :
    isPermanent m ↔
      ∀ (j m1 : Nat), i < j → r.mv[j]? = some m1 → ¬ isPass m1 → recPos m1 ≠ recPos m := by
  obtain ⟨st, hrun, e⟩ := playgogame_ok hplay
  subst e
  obtain ⟨_, hl⟩ := run_good hcol hrun
  obtain ⟨m0, h0, e⟩ := mark_permanent_some hm
  subst e
  obtain ⟨f1, _, f3, _, f5⟩ := marked_facts hl h0
  have hnp0 : ¬ isPass m0 := fun x => hnp (f3.mpr x)
  rw [f5, f1]
  constructor
  · intro hlc j m1 hij hj hp1 he
    obtain ⟨m1', h1, e⟩ := mark_permanent_some hj
    subst e
    obtain ⟨k1, _, k3, _, _⟩ := marked_facts hl h1
    have := hl.lc_ge j m1' h1 (fun x => hp1 (k3.mpr x))
    rw [← k1, he, hlc] at this
    omega
  · intro hall
    have hge := hl.lc_ge i m0 h0 hnp0
    obtain ⟨mk, a, b, c⟩ := hl.lc_rec i m0 h0 hnp0
    by_contra hne
    have hlt : i < st.last_change (recPos m0) := by omega
    obtain ⟨k1, _, k3, _, _⟩ := marked_facts hl a
    apply hall (st.last_change (recPos m0)) (marked st (st.last_change (recPos m0)) mk) hlt
    · rw [mark_permanent_getElem?, a]; rfl
    · exact fun x => b (k3.mp x)
    · rw [k1, c]

theorem permanent_iff_last_witness :
    (ColoursOk demoGame ∧ playgogame (blank 100) 19 demoGame 0 = .ok demoFinal ∧
      demoFinal.mv[0]? = some (placeRec 66 BLACK) ∧ ¬ isPass (placeRec 66 BLACK)) ∧
    (isPermanent (placeRec 66 BLACK) ↔
      ∀ (j m1 : Nat), 0 < j → demoFinal.mv[j]? = some m1 → ¬ isPass m1 →
        recPos m1 ≠ recPos (placeRec 66 BLACK)) :=
  ⟨⟨by decide!, ok_stateOf (blank 0) (by decide!), by decide!, by decide!⟩,
    permanent_iff_last (blank 100) 19 0 demoGame demoFinal 0 (placeRec 66 BLACK) (by decide!)
      (ok_stateOf (blank 0) (by decide!)) (by decide!) (by decide!)⟩

/-- C9.  After a successful `playgogame` (moves Black or White) the final board holds
a stone of colour `c` on the cell `p` if and only if the log has an entry with
position `p` and colour `c` that carries the PERMANENT flag and is neither a CAPTURE
nor a PASS. -/
theorem final_board_iff_permanent (g : State) (size initct : Int) (moves : List Int)
    (r : State) (p c : Nat) (hcol : ColoursOk moves)
    (hplay : playgogame g size moves initct = .ok r) (hc : isStone c) :
    r.board p = c ↔
      ∃ (i m : Nat), r.mv[i]? = some m ∧ recPos m = p ∧ recColor m = c ∧ isPermanent m ∧
        ¬ isCapture m ∧ ¬ isPass m := by
  obtain ⟨st, hrun, e⟩ := playgogame_ok hplay
  subst e
  obtain ⟨hi, hl⟩ := run_good hcol hrun
  show st.board p = c ↔ _
  constructor
  · intro hb
    have hs : isStone (st.board p) := by rw [hb]; exact hc
    have h0 := hl.stone_rec p hs
    have hlt : p < 1024 := by
      have := onBoard_le (hi.wf.board.stone_on p hs) hi.wf.board.sz_le
      omega
    obtain ⟨f1, f2, f3, f4, _⟩ := placeRec_facts hlt hs
    obtain ⟨k1, k2, k3, k4, k5⟩ := marked_facts hl h0
    refine ⟨st.last_change p, marked st (st.last_change p) (placeRec p (st.board p)), ?_,
      k1.trans f1, ?_, ?_, fun x => f3 (k4.mp x), fun x => f4 (k3.mp x)⟩
    · rw [mark_permanent_getElem?, h0]; rfl
    · rw [k2, f2, hb]
    · rw [k5, f1]
  · intro ⟨i, m, hm, hp, hcm, hperm, hnc, hnp⟩
    obtain ⟨m0, h0, e⟩ := mark_permanent_some hm
    subst e
    obtain ⟨k1, k2, k3, k4, k5⟩ := marked_facts hl h0
    have := hl.rec_stone i m0 h0 (fun x => hnp (k3.mpr x)) (fun x => hnc (k4.mpr x))
      (k5.mp hperm)
    rw [← k1, hp] at this
    rw [this, ← k2, hcm]

theorem final_board_iff_permanent_witness :
    (ColoursOk demoGame ∧ playgogame (blank 100) 19 demoGame 0 = .ok demoFinal ∧
      isStone WHITE) ∧
    (demoFinal.board 67 = WHITE ↔
      ∃ (i m : Nat), demoFinal.mv[i]? = some m ∧ recPos m = 67 ∧ recColor m = WHITE ∧
        isPermanent m ∧ ¬ isCapture m ∧ ¬ isPass m) :=
  ⟨⟨by decide!, ok_stateOf (blank 0) (by decide!), by decide!⟩,
    final_board_iff_permanent (blank 100) 19 0 demoGame demoFinal 67 WHITE (by decide!)
      (ok_stateOf (blank 0) (by decide!)) (by decide!)⟩

/-- C10.  After a successful `playgogame` on moves whose colour field is 1 or 2 the log
is made of one block for each input move, in order: the entry that encodes the move
(`(colour << 10) | PG_PASS` for a pass, `(32*x + y) | (colour << 10)` otherwise, up to
the PERMANENT flag) followed by CAPTURE entries only, and the log after the first `k`
moves is the first `k` blocks, so that the CAPTURE entries of move `k` lie between the
entries of moves `k` and `k+1`.  The entries that are not CAPTURE entries are those of
the moves.  Every entry is below `2^15` and is the sum of its position, colour and
flag fields, with colour 1 or 2. -/
theorem log_encodes_moves (g : State) (size initct : Int) (moves : List Int) (r : State)
    (hcol : ColoursOk moves) (hplay : playgogame g size moves initct = .ok r) :
    (∃ blocks : List (List Nat), blocks.length = moves.length ∧
      (∀ b ∈ blocks, ∀ c ∈ b, isCapture c) ∧
      r.mv.map clearPermanent = blocksLog size moves blocks ∧
      ∀ k, ∃ s, run g size (moves.take k) initct = .ok s ∧
        s.mv = blocksLog size (moves.take k) (blocks.take k)) ∧
    (r.mv.filter (fun e => decide (¬ isCapture e))).map clearPermanent
      = moves.map (encodeMove size) ∧
    ∀ e ∈ r.mv, e < 32768 ∧ recPos e < 1024 ∧ (recColor e = 1 ∨ recColor e = 2) ∧
      e = recPos e + 1024 * recColor e + (if isPass e then 4096 else 0)
        + (if isPermanent e then 8192 else 0) + (if isCapture e then 16384 else 0) := by
  obtain ⟨st, hrun, e⟩ := playgogame_ok hplay
  subst e
  obtain ⟨hi, hl⟩ := run_good hcol hrun
  obtain ⟨bs, h1, h2, h3, h4⟩ := run_blocks hcol hrun
  have hall : st.mv = blocksLog size moves bs := by
    obtain ⟨s, hs1, hs2⟩ := h4 moves.length
    rw [List.take_length, hrun] at hs1
    injection hs1 with hs1
    subst hs1
    rw [hs2, List.take_length, ← h1, List.take_length]
  have hclear := mark_permanent_clear hl
  have hel : ∀ e ∈ (mark_permanent st).mv, ∃ i m0, st.mv[i]? = some m0 ∧ e = marked st i m0 := by
    intro e he
    obtain ⟨i, hi1⟩ := List.mem_iff_getElem?.mp he
    obtain ⟨m0, a, b⟩ := mark_permanent_some hi1
    exact ⟨i, m0, a, b⟩
  refine ⟨⟨bs, h1, h2, by rw [hclear, hall], h4⟩, ?_, ?_⟩
  · have hf : (mark_permanent st).mv.filter (fun e => decide (¬ isCapture e))
        = (mark_permanent st).mv.filter
            ((fun e => decide (¬ isCapture e)) ∘ clearPermanent) := by
      apply List.filter_congr
      intro e he
      obtain ⟨i, m0, a, b⟩ := hel e he
      subst b
      have k := (marked_facts hl a).2.2.2.1
      show decide _ = decide _
      rw [(marked_shape hl a).1]
      exact decide_eq_decide.mpr (not_congr k)
    rw [hf, ← List.filter_map, hclear, hall]
    exact blocksLog_filter size moves bs h1 h2 h3
  · intro e he
    obtain ⟨i, m0, a, b⟩ := hel e he
    subst b
    obtain ⟨_, s2, s3, s4⟩ := marked_shape hl a
    refine ⟨s2, ?_, s3, s4⟩
    unfold recPos
    exact Nat.lt_succ_of_le Nat.and_le_right

theorem log_encodes_moves_witness :
    (ColoursOk passGame ∧ playgogame (blank 100) 19 passGame 0 = .ok passFinal) ∧
    passFinal.mv = [1090, 10274, 10338, 10305, 10307, 25666, 5120] ∧
    passGame.map (encodeMove 19) = [1090, 2082, 2146, 2113, 2115, 5120] ∧
    ((∃ blocks : List (List Nat), blocks.length = passGame.length ∧
      (∀ b ∈ blocks, ∀ c ∈ b, isCapture c) ∧
      passFinal.mv.map clearPermanent = blocksLog 19 passGame blocks ∧
      ∀ k, ∃ s, run (blank 100) 19 (passGame.take k) 0 = .ok s ∧
        s.mv = blocksLog 19 (passGame.take k) (blocks.take k)) ∧
    (passFinal.mv.filter (fun e => decide (¬ isCapture e))).map clearPermanent
      = passGame.map (encodeMove 19) ∧
    ∀ e ∈ passFinal.mv, e < 32768 ∧ recPos e < 1024 ∧ (recColor e = 1 ∨ recColor e = 2) ∧
      e = recPos e + 1024 * recColor e + (if isPass e then 4096 else 0)
        + (if isPermanent e then 8192 else 0) + (if isCapture e then 16384 else 0)) :=
  ⟨⟨by decide!, ok_stateOf (blank 0) (by decide!)⟩, by decide!, by decide!,
    log_encodes_moves (blank 100) 19 0 passGame passFinal (by decide!)
      (ok_stateOf (blank 0) (by decide!))⟩

/-- C6.  On a board of size `s ≤ 19` (with `sz1 = s + 1`) `do_move` tests in this
order: the move is a pass (handled by `add_pass`) if and only if `x = y = s+1` or
`x = y = 20`; otherwise it fails with "bad move cordinates" if and only if `x` or `y`
is outside `1..s`; otherwise it fails with "play on nonempty position" if and only if
the target cell is not EMPTY; otherwise the stone is placed (`do_place`, which writes
the colour into the cell and logs the move before the later tests).  The two errors
arise in no other way, and a move that is not on the pass coordinates and succeeds has
put its stone on the board. -/
theorem do_move_classification (st : State) (color x y movenr : Int)
    (hs1 : st.sz1 = st.sz + 1) (hs : st.sz ≤ 19) :
    (passCoords st.sz x y → do_move st color x y movenr = add_pass st color) ∧
    (¬ passCoords st.sz x y →
      (do_move st color x y movenr = .error (.bad_move_coordinates movenr x y)
        ↔ offBoard st.sz x y) ∧
      (¬ offBoard st.sz x y →
        (do_move st color x y movenr = .error (.play_on_nonempty_position movenr)
          ↔ st.board (POS x y).toNat ≠ EMPTY) ∧
        (st.board (POS x y).toNat = EMPTY →
          do_move st color x y movenr = do_place st color (POS x y).toNat movenr))) ∧
    (∀ n a b, do_move st color x y movenr = .error (.bad_move_coordinates n a b) →
      ¬ passCoords st.sz x y ∧ offBoard st.sz x y) ∧
    (∀ n, do_move st color x y movenr = .error (.play_on_nonempty_position n) →
      ¬ passCoords st.sz x y ∧ ¬ offBoard st.sz x y ∧ st.board (POS x y).toNat ≠ EMPTY) ∧
    (∀ r, do_move st color x y movenr = .ok r → ¬ passCoords st.sz x y →
      ¬ offBoard st.sz x y ∧ st.board (POS x y).toNat = EMPTY ∧
      do_place st color (POS x y).toNat movenr = .ok r) ∧
    (∀ r, do_move st color x y movenr = .ok r → passCoords st.sz x y →
      r.mv = st.mv ++ [passRec color] ∧ r.board = st.board) ∧
    (Inv st → color = 1 ∨ color = 2 → ∀ r, do_move st color x y movenr = .ok r →
      ¬ passCoords st.sz x y →
      r.board (POS x y).toNat = color.toNat ∧
      ∃ caps, r.mv = st.mv ++ placeRec (POS x y).toNat color.toNat :: caps ∧
        ¬ isPass (placeRec (POS x y).toNat color.toNat)) := by
  have hc := do_move_cases st color x y movenr hs1 hs
  have hok : ∀ r, do_move st color x y movenr = .ok r → ¬ passCoords st.sz x y →
      ¬ offBoard st.sz x y ∧ st.board (POS x y).toNat = EMPTY ∧
      do_place st color (POS x y).toNat movenr = .ok r := by
    intro r h hp
    rw [hc, if_neg hp] at h
    split at h
    · cases h
    rename_i ho
    split at h
    · cases h
    rename_i he
    exact ⟨ho, by simpa using he, h⟩
  refine ⟨fun hp => by rw [hc, if_pos hp], fun hp => ?_, ?_, ?_, hok, ?_, ?_⟩
  · rw [hc, if_neg hp]
    refine ⟨⟨fun h => ?_, fun h => by rw [if_pos h]⟩, fun ho => ?_⟩
    · by_contra ho
      rw [if_neg ho] at h
      split at h
      · cases h
      · exact absurd (do_place_late h) (fun x => x)
    · rw [if_neg ho]
      refine ⟨⟨fun h => ?_, fun h => by rw [if_pos h]⟩, fun he => by rw [if_neg (not_not.mpr he)]⟩
      by_contra he
      rw [if_neg (not_not.mpr he)] at h
      exact absurd (do_place_late h) (fun x => x)
  · intro n a b h
    rw [hc] at h
    split at h
    · exact absurd (add_pass_late h) (fun x => x)
    rename_i hp
    split at h
    · rename_i ho; exact ⟨hp, ho⟩
    split at h
    · cases h
    · exact absurd (do_place_late h) (fun x => x)
  · intro n h
    rw [hc] at h
    split at h
    · exact absurd (add_pass_late h) (fun x => x)
    rename_i hp
    split at h
    · cases h
    rename_i ho
    split at h
    · rename_i he; exact ⟨hp, ho, he⟩
    · exact absurd (do_place_late h) (fun x => x)
  · intro r h hp
    rw [hc, if_pos hp] at h
    obtain ⟨_, e⟩ := add_pass_ok h
    subst e
    exact ⟨rfl, rfl⟩
  · intro hi hcol r h hp
    obtain ⟨ho, he, hd⟩ := hok r h hp
    unfold offBoard at ho
    have hb := onBoard_POS (n := st.sz) (x := x) (y := y) (by omega) (by omega) (by omega)
      (by omega) hs
    have hl := do_place_spec hi hcol hb.1 he hd
    obtain ⟨caps, hk⟩ := hl.cap
    have hst : isStone color.toNat := (isStone_toNat hcol).2 ▸ (isStone_toNat hcol).1
    have h627 := onBoard_le hb.1 hs
    refine ⟨by rw [hk.board, if_pos rfl], _, hk.mv, (placeRec_facts (by omega) hst).2.2.2.1⟩

theorem do_move_classification_witness :
    (demoState.sz1 = demoState.sz + 1 ∧ demoState.sz ≤ 19) ∧
    (stateOf (do_move demoState 1 20 20 5) (blank 0)).mv = demoState.mv ++ [passRec 1] ∧
    errOf (do_move demoState 1 0 3 5) = some (.bad_move_coordinates 5 0 3) ∧
    errOf (do_move demoState 1 2 2 5) = some (.play_on_nonempty_position 5) ∧
    ((passCoords demoState.sz 2 3 → do_move demoState 2 2 3 5 = add_pass demoState 2) ∧
    (¬ passCoords demoState.sz 2 3 →
      (do_move demoState 2 2 3 5 = .error (.bad_move_coordinates 5 2 3)
        ↔ offBoard demoState.sz 2 3) ∧
      (¬ offBoard demoState.sz 2 3 →
        (do_move demoState 2 2 3 5 = .error (.play_on_nonempty_position 5)
          ↔ demoState.board (POS 2 3).toNat ≠ EMPTY) ∧
        (demoState.board (POS 2 3).toNat = EMPTY →
          do_move demoState 2 2 3 5 = do_place demoState 2 (POS 2 3).toNat 5))) ∧
    (∀ n a b, do_move demoState 2 2 3 5 = .error (.bad_move_coordinates n a b) →
      ¬ passCoords demoState.sz 2 3 ∧ offBoard demoState.sz 2 3) ∧
    (∀ n, do_move demoState 2 2 3 5 = .error (.play_on_nonempty_position n) →
      ¬ passCoords demoState.sz 2 3 ∧ ¬ offBoard demoState.sz 2 3 ∧
        demoState.board (POS 2 3).toNat ≠ EMPTY) ∧
    (∀ r, do_move demoState 2 2 3 5 = .ok r → ¬ passCoords demoState.sz 2 3 →
      ¬ offBoard demoState.sz 2 3 ∧ demoState.board (POS 2 3).toNat = EMPTY ∧
      do_place demoState 2 (POS 2 3).toNat 5 = .ok r) ∧
    (∀ r, do_move demoState 2 2 3 5 = .ok r → passCoords demoState.sz 2 3 →
      r.mv = demoState.mv ++ [passRec 2] ∧ r.board = demoState.board) ∧
    (Inv demoState → (2 : Int) = 1 ∨ (2 : Int) = 2 → ∀ r, do_move demoState 2 2 3 5 = .ok r →
      ¬ passCoords demoState.sz 2 3 →
      r.board (POS 2 3).toNat = (2 : Int).toNat ∧
      ∃ caps, r.mv = demoState.mv ++ placeRec (POS 2 3).toNat (2 : Int).toNat :: caps ∧
        ¬ isPass (placeRec (POS 2 3).toNat (2 : Int).toNat))) :=
  ⟨⟨by decide!, by decide!⟩, by decide!, by decide!, by decide!,
    do_move_classification demoState 2 2 3 5 (by decide!) (by decide!)⟩

/-- C7.  For board size 19 a B or W move whose value is empty or "tt" is stored by
`put_move1` (and `put_move`) as the same code `PASS | mask`; replayed after any
accepted moves, with room in the log, it appends exactly one entry, which has the
PASS flag, the colour of the mover and position bits zero, and is no CAPTURE entry;
the board, the chains, `current_chain`, `chainct` and `last_change` are unchanged; and
the entry keeps these fields in the log that `playgogame` returns. -/
theorem pass_value_replay (id v : List Nat) (mask : Int) (moves : List Int) (movect : Nat)
    (g : State) (initct : Int) (ms : List Int) (st : State)
    (hid : (id.head? = some 66 ∧ mask = Sgffileinput.BLACK_MASK) ∨
      (id.head? = some 87 ∧ mask = Sgffileinput.WHITE_MASK))
    (hv : v = [] ∨ v = [116, 116]) (hlen : moves.length ≠ Sgffileinput.MAXMOVES)
    (hcol : ColoursOk ms) (hrun : run g 19 ms initct = .ok st)
    (hroom : st.mv.length ≠ st.mvlen) :
    Sgffileinput.put_move1 (some v) mask moves
      = .ok (moves ++ [Int.lor Sgffileinput.PASS mask]) ∧
    Sgffileinput.put_move id [v] (moves, movect)
      = .ok (moves ++ [Int.lor Sgffileinput.PASS mask], movect + 1) ∧
    ∃ r, run g 19 (ms ++ [Int.lor Sgffileinput.PASS mask]) initct = .ok r ∧
      playgogame g 19 (ms ++ [Int.lor Sgffileinput.PASS mask]) initct
        = .ok (mark_permanent r) ∧
      r.mv = st.mv ++ [passRec (mask / 65536)] ∧
      isPass (passRec (mask / 65536)) ∧ ¬ isCapture (passRec (mask / 65536)) ∧
      recColor (passRec (mask / 65536)) = (mask / 65536).toNat ∧
      recPos (passRec (mask / 65536)) = 0 ∧
      r.board = st.board ∧ r.chains = st.chains ∧ r.current_chain = st.current_chain ∧
      r.chainct = st.chainct ∧ r.last_change = st.last_change ∧
      (mark_permanent r).board = st.board ∧
      (mark_permanent r).mv.length = st.mv.length + 1 ∧
      ∃ e, (mark_permanent r).mv[st.mv.length]? = some e ∧ isPass e ∧ ¬ isCapture e ∧
        recColor e = (mask / 65536).toNat ∧ recPos e = 0 := by
  have hm : mask = Sgffileinput.BLACK_MASK ∨ mask = Sgffileinput.WHITE_MASK :=
    hid.imp (fun h => h.2) (fun h => h.2)
  obtain ⟨c1, c2, c3, c4, c5, c6, c7, c8⟩ := pass_code_facts mask hm
  have hp1 := put_move1_pass v mask moves hv hlen
  have hp2 : Sgffileinput.put_move id [v] (moves, movect)
      = .ok (moves ++ [Int.lor Sgffileinput.PASS mask], movect + 1) := by
    have hk : Sgffileinput.put_move id [v] (moves, movect)
        = (Sgffileinput.put_move1 (some v) mask moves).map fun mv => (mv, movect + 1) := by
      unfold Sgffileinput.put_move
      rcases hid with ⟨h1, h2⟩ | ⟨h1, h2⟩
      · simp only [h1, if_true, h2]; rfl
      · simp only [h1, h2]; rfl
    rw [hk, hp1]; rfl
  obtain ⟨hi, hl⟩ := run_good hcol hrun
  have hsz := run_sz hcol hrun
  have hs1 : st.sz1 = 20 := by rw [hi.wf.board.sz1_eq, hsz]; rfl
  have hdo : ∀ n, do_move st (mask / 65536) 20 20 n = add_pass st (mask / 65536) := by
    intro n
    unfold do_move
    rw [if_pos ⟨hs1.symm, hs1.symm⟩]
  have hadd : add_pass st (mask / 65536) = .ok ({ st with
      counts := Function.update st.counts 0 (st.counts 0 + 1)
      mv := st.mv ++ [passRec (mask / 65536)] }) := by
    unfold add_pass add_mv
    simp only
    rw [if_neg hroom]
    rfl
  have hr := run_snoc g 19 initct ms (Int.lor Sgffileinput.PASS mask)
  rw [hrun, c2, c3, c4] at hr
  change _ = do_move st _ _ _ _ at hr
  rw [hdo, hadd] at hr
  have hcol2 : ColoursOk (ms ++ [Int.lor Sgffileinput.PASS mask]) := by
    intro a ha
    rcases List.mem_append.mp ha with h | h
    · exact hcol a h
    · rw [List.mem_singleton.mp h, c2]; exact c1
  obtain ⟨_, hl2⟩ := run_good hcol2 hr
  have hget : ({ st with
      counts := Function.update st.counts 0 (st.counts 0 + 1)
      mv := st.mv ++ [passRec (mask / 65536)] } : State).mv[st.mv.length]?
        = some (passRec (mask / 65536)) := by
    show (st.mv ++ [passRec (mask / 65536)])[st.mv.length]? = _
    simp
  obtain ⟨k1, k2, k3, k4, _⟩ := marked_facts hl2 hget
  refine ⟨hp1, hp2, _, hr, ?_, rfl, c5, c6, c7, c8, rfl, rfl, rfl, rfl, rfl, rfl, ?_, _, ?_,
    k3.mpr c5, fun x => c6 (k4.mp x), k2.trans c7, k1.trans c8⟩
  · rw [playgogame_eq, hr]; rfl
  · unfold mark_permanent
    simp
  · rw [mark_permanent_getElem?, hget]; rfl

theorem pass_value_replay_witness :
    ((([66] : List Nat).head? = some 66 ∧ Sgffileinput.BLACK_MASK = Sgffileinput.BLACK_MASK) ∨
      (([66] : List Nat).head? = some 87 ∧
        Sgffileinput.BLACK_MASK = Sgffileinput.WHITE_MASK)) ∧
    (([116, 116] : List Nat) = [] ∨ ([116, 116] : List Nat) = [116, 116]) ∧
    ([] : List Int).length ≠ Sgffileinput.MAXMOVES ∧
    ColoursOk demoMoves ∧ run (blank 100) 19 demoMoves 0 = .ok demoState ∧
    demoState.mv.length ≠ demoState.mvlen ∧
    Int.lor Sgffileinput.PASS Sgffileinput.BLACK_MASK = 95348 ∧
    passRec (Sgffileinput.BLACK_MASK / 65536) = 5120 ∧
    (Sgffileinput.put_move1 (some [116, 116]) Sgffileinput.BLACK_MASK []
      = .ok ([] ++ [Int.lor Sgffileinput.PASS Sgffileinput.BLACK_MASK]) ∧
    Sgffileinput.put_move [66] [[116, 116]] ([], 0)
      = .ok ([] ++ [Int.lor Sgffileinput.PASS Sgffileinput.BLACK_MASK], 0 + 1) ∧
    ∃ r, run (blank 100) 19 (demoMoves ++ [Int.lor Sgffileinput.PASS Sgffileinput.BLACK_MASK]) 0
        = .ok r ∧
      playgogame (blank 100) 19
          (demoMoves ++ [Int.lor Sgffileinput.PASS Sgffileinput.BLACK_MASK]) 0
        = .ok (mark_permanent r) ∧
      r.mv = demoState.mv ++ [passRec (Sgffileinput.BLACK_MASK / 65536)] ∧
      isPass (passRec (Sgffileinput.BLACK_MASK / 65536)) ∧
      ¬ isCapture (passRec (Sgffileinput.BLACK_MASK / 65536)) ∧
      recColor (passRec (Sgffileinput.BLACK_MASK / 65536))
        = (Sgffileinput.BLACK_MASK / 65536).toNat ∧
      recPos (passRec (Sgffileinput.BLACK_MASK / 65536)) = 0 ∧
      r.board = demoState.board ∧ r.chains = demoState.chains ∧
      r.current_chain = demoState.current_chain ∧
      r.chainct = demoState.chainct ∧ r.last_change = demoState.last_change ∧
      (mark_permanent r).board = demoState.board ∧
      (mark_permanent r).mv.length = demoState.mv.length + 1 ∧
      ∃ e, (mark_permanent r).mv[demoState.mv.length]? = some e ∧ isPass e ∧ ¬ isCapture e ∧
        recColor e = (Sgffileinput.BLACK_MASK / 65536).toNat ∧ recPos e = 0) :=
  ⟨by decide, by decide, by decide, by decide!, ok_stateOf (blank 0) (by decide!), by decide!,
    by decide, by decide,
    pass_value_replay [66] [116, 116] Sgffileinput.BLACK_MASK [] 0 (blank 100) 0 demoMoves
      demoState (by decide) (by decide) (by decide) (by decide!)
      (ok_stateOf (blank 0) (by decide!)) (by decide!)⟩

/-- C3 as stated fails when the log is full.  In the ko of `koGame` on a log with room
for 11 entries, Black has put a stone on (2,3) and taken exactly the White stone on
(2,2), and White's move on (2,2) takes exactly the Black stone on (2,3), with 9 of the
500 chain slots used; yet the move is rejected with "played_game array overflow", not
as a ko recapture.  With room for 100 entries it is rejected as a ko recapture. -/
theorem ko_capacity_counterexample :
    ColoursOk (koGame ++ [koMove]) ∧
    run (blank 11) 19 (koGame.take 8) 0 = .ok (koBefore 11) ∧
    run (blank 11) 19 koGame 0 = .ok (koState 11) ∧
    (koState 11).chainct < CHAINMAX ∧
    koGame = koGame.take 8 ++ [mkMove 1 2 3] ∧
    playedAt 19 (mkMove 1 2 3) 67 ∧
    (∀ p, capturedBy (koBefore 11) (move_color (mkMove 1 2 3)).toNat 67 p ↔ p = 66) ∧
    playedAt 19 koMove 66 ∧
    (∀ p, capturedBy (koState 11) (move_color koMove).toNat 66 p ↔ p = 67) ∧
    playgogame (blank 11) 19 (koGame ++ [koMove]) 0
      ≠ .error (.illegal_ko_recapture (movenrOf 0 koGame.length)) ∧
    errOf (playgogame (blank 11) 19 (koGame ++ [koMove]) 0)
      = some .played_game_array_overflow ∧
    errOf (playgogame (blank 100) 19 (koGame ++ [koMove]) 0)
      = some (.illegal_ko_recapture 10) := by
  have h0 : run (blank 11) 19 (koGame.take 8) 0 = .ok (koBefore 11) :=
    ok_stateOf (blank 0) (by decide!)
  have h1 : run (blank 11) 19 koGame 0 = .ok (koState 11) := ok_stateOf (blank 0) (by decide!)
  have hi0 := (run_good (by decide!) h0).1
  have hi1 := (run_good (by decide!) h1).1
  have he : errOf (playgogame (blank 11) 19 (koGame ++ [koMove]) 0)
      = some .played_game_array_overflow := by decide!
  refine ⟨by decide!, h0, h1, by decide!, by decide!, by decide!,
    capturedBy_bounded hi0 (by omega) (by decide!), by decide!,
    capturedBy_bounded hi1 (by omega) (by decide!), ?_, he, by decide!⟩
  intro h
  rw [h] at he
  cases he

/-- C3, amended.  When the earlier moves have been accepted, fewer than 500 stones have
been placed and the log has room for two more entries, `playgogame` rejects the next
move as "illegal ko recapture" if and only if the move before it put a stone on a
point `a` and took exactly one stone, on `b`, and the move is on `b` and takes exactly
one stone, the one on `a`.  So a move that takes two or more stones, or that follows
a pass, a move that took nothing or another stone, or no move at all, is never
rejected as a ko recapture; this direction needs no room. -/
theorem ko_rejection_iff (g : State) (size initct : Int) (moves : List Int) (m : Int)
    (s1 : State) (n : Int) (hcol : ColoursOk (moves ++ [m]))
    (hrun : run g size moves initct = .ok s1) (hchain : s1.chainct ≠ CHAINMAX)
    (hroom : s1.mv.length + 2 ≤ s1.mvlen) :
    playgogame g size (moves ++ [m]) initct = .error (.illegal_ko_recapture n) ↔
      n = movenrOf initct moves.length ∧
      ∃ ms m1 s0 a b, moves = ms ++ [m1] ∧ run g size ms initct = .ok s0 ∧
        playedAt size m1 a ∧ (∀ p, capturedBy s0 (move_color m1).toNat a p ↔ p = b) ∧
        playedAt size m b ∧ (∀ p, capturedBy s1 (move_color m).toNat b p ↔ p = a) := by
  rw [playgogame_error_iff]
  constructor
  · exact ko_forward hcol hrun
  · rintro ⟨hn, ms, m1, s0, a, b, e, hrun0, hpa, hca, hpb, hcb⟩
    subst e
    subst hn
    exact ko_backward hcol hrun0 hrun hchain hroom hpa hca hpb hcb

theorem ko_rejection_iff_witness :
    (ColoursOk (koGame ++ [koMove]) ∧ run (blank 100) 19 koGame 0 = .ok (koState 100) ∧
      (koState 100).chainct ≠ CHAINMAX ∧ (koState 100).mv.length + 2 ≤ (koState 100).mvlen) ∧
    errOf (playgogame (blank 100) 19 (koGame ++ [koMove]) 0)
      = some (.illegal_ko_recapture 10) ∧
    (playgogame (blank 100) 19 (koGame ++ [koMove]) 0 = .error (.illegal_ko_recapture 10) ↔
      10 = movenrOf 0 koGame.length ∧
      ∃ ms m1 s0 a b, koGame = ms ++ [m1] ∧ run (blank 100) 19 ms 0 = .ok s0 ∧
        playedAt 19 m1 a ∧ (∀ p, capturedBy s0 (move_color m1).toNat a p ↔ p = b) ∧
        playedAt 19 koMove b ∧
        (∀ p, capturedBy (koState 100) (move_color koMove).toNat b p ↔ p = a)) :=
  ⟨⟨by decide!, ok_stateOf (blank 0) (by decide!), by decide!, by decide!⟩, by decide!,
    ko_rejection_iff (blank 100) 19 0 koGame koMove (koState 100) 10 (by decide!)
      (ok_stateOf (blank 0) (by decide!)) (by decide!) (by decide!)⟩

/-- C4 as stated fails when a capacity guard refuses the move.  After `demoMoves` on a
log with room for four entries, White's move on the empty point (2,3) is no ko
recapture and its stone would have the empty neighbour (2,4), yet `do_move` rejects
it, with "played_game array overflow". -/
theorem suicide_capacity_counterexample :
    ColoursOk demoMoves ∧ run (blank 4) 19 demoMoves 0 = .ok fullState ∧
    fullState.sz = 19 ∧ (POS 2 3).toNat = 67 ∧ fullState.board 67 = EMPTY ∧
    errOf (do_move fullState 2 2 3 5) ≠ some (.illegal_ko_recapture 5) ∧
    (∀ m ∈ fullState.mv, ¬ isCapture m) ∧
    ¬ noLiberty fullState 2 67 ∧
    (∃ e, do_move fullState 2 2 3 5 = .error e) ∧
    errOf (do_move fullState 2 2 3 5) = some .played_game_array_overflow := by
  refine ⟨by decide!, ok_stateOf (blank 0) (by decide!), by decide!, by decide!, by decide!,
    by decide!, by decide!, ?_, ⟨.played_game_array_overflow, errOf_eq_some.mp (by decide!)⟩, by decide!⟩
  intro h
  exact h 67 (Or.inl rfl) 68 (by decide!) (by decide!)

/-- C4, amended.  In a state reached by accepted moves, a stone put on an empty point of
the board by a move that is refused neither for lack of room (log or chain table
full) nor as a ko recapture is rejected if and only if, after the opposing chains it
takes have been removed and the chains of its colour that touch it merged with it,
its chain has no empty neighbouring cell; the error is "suicide" when that chain is
the new stone alone and "mass suicide" otherwise.  In particular a stone whose four
neighbours are opposing stones or border, and that takes nothing, fails with
"suicide". -/
theorem suicide_iff (g : State) (size initct : Int) (moves : List Int) (s0 : State)
    (color x y movenr : Int) (hcol : ColoursOk moves)
    (hrun : run g size moves initct = .ok s0) (hc : color = 1 ∨ color = 2)
    (hx : 1 ≤ x ∧ x ≤ s0.sz) (hy : 1 ≤ y ∧ y ≤ s0.sz)
    (he : s0.board (POS x y).toNat = EMPTY)
    (h1 : errOf (do_move s0 color x y movenr) ≠ some .played_game_array_overflow)
    (h2 : errOf (do_move s0 color x y movenr) ≠ some .chainmax_overflow)
    (h3 : errOf (do_move s0 color x y movenr) ≠ some (.illegal_ko_recapture movenr)) :
    ((∃ e, do_move s0 color x y movenr = .error e)
      ↔ noLiberty s0 color.toNat (POS x y).toNat) ∧
    (do_move s0 color x y movenr = .error (.suicide movenr)
      ↔ noLiberty s0 color.toNat (POS x y).toNat ∧ alone s0 color.toNat (POS x y).toNat) ∧
    (do_move s0 color x y movenr = .error (.mass_suicide movenr)
      ↔ noLiberty s0 color.toNat (POS x y).toNat ∧
        ¬ alone s0 color.toNat (POS x y).toNat) ∧
    ((∀ t ∈ nbrs (POS x y).toNat, s0.board t ≠ EMPTY ∧ s0.board t ≠ color.toNat) →
      (∀ p, ¬ capturedBy s0 color.toNat (POS x y).toNat p) →
      do_move s0 color x y movenr = .error (.suicide movenr)) := by
  obtain ⟨hi, _⟩ := run_good hcol hrun
  have hb := onBoard_POS hx.1 hx.2 hy.1 hy.2 hi.wf.board.sz_le
  have hdo := @do_move_on_board s0 hi.wf.board color x y movenr hx hy
  rw [if_neg (not_not.mpr he)] at hdo
  rw [hdo] at h1 h2 h3 ⊢
  obtain ⟨r, hl, hout⟩ := do_place_outcome hi hc hb.1 he
    (fun h => h1 (errOf_eq_some.mpr h)) (fun h => h2 (errOf_eq_some.mpr h))
    (fun h => h3 (errOf_eq_some.mpr h))
  have hst : isStone color.toNat := (isStone_toNat hc).2 ▸ (isStone_toNat hc).1
  obtain ⟨t1, t2⟩ := suicide_test hst hl
  rw [hout]
  have key : ((∃ e, (if (r.chains (r.current_chain (POS x y).toNat)).liberties = 0 then
          if (r.chains (r.current_chain (POS x y).toNat)).sz = 1 then
            (.error (.suicide movenr) : Except Err State)
          else .error (.mass_suicide movenr)
        else .ok r) = .error e)
        ↔ noLiberty s0 color.toNat (POS x y).toNat) ∧
      ((if (r.chains (r.current_chain (POS x y).toNat)).liberties = 0 then
          if (r.chains (r.current_chain (POS x y).toNat)).sz = 1 then
            (.error (.suicide movenr) : Except Err State)
          else .error (.mass_suicide movenr)
        else .ok r) = .error (.suicide movenr)
        ↔ noLiberty s0 color.toNat (POS x y).toNat ∧ alone s0 color.toNat (POS x y).toNat) ∧
      ((if (r.chains (r.current_chain (POS x y).toNat)).liberties = 0 then
          if (r.chains (r.current_chain (POS x y).toNat)).sz = 1 then
            (.error (.suicide movenr) : Except Err State)
          else .error (.mass_suicide movenr)
        else .ok r) = .error (.mass_suicide movenr)
        ↔ noLiberty s0 color.toNat (POS x y).toNat ∧
          ¬ alone s0 color.toNat (POS x y).toNat) := by
    rw [← t1, ← t2]
    by_cases c1 : (r.chains (r.current_chain (POS x y).toNat)).liberties = 0
    · rw [if_pos c1]
      by_cases c2 : (r.chains (r.current_chain (POS x y).toNat)).sz = 1
      · rw [if_pos c2]
        refine ⟨⟨fun _ => c1, fun _ => ⟨_, rfl⟩⟩, ⟨fun _ => ⟨c1, c2⟩, fun _ => rfl⟩,
          ⟨fun h => ?_, fun h => absurd c2 h.2⟩⟩
        injection h with h
        cases h
      · rw [if_neg c2]
        refine ⟨⟨fun _ => c1, fun _ => ⟨_, rfl⟩⟩, ⟨fun h => ?_, fun h => absurd h.2 c2⟩,
          ⟨fun _ => ⟨c1, c2⟩, fun _ => rfl⟩⟩
        injection h with h
        cases h
    · rw [if_neg c1]
      refine ⟨⟨fun ⟨e, h⟩ => ?_, fun h => absurd h c1⟩, ⟨fun h => ?_, fun h => absurd h.1 c1⟩,
        ⟨fun h => ?_, fun h => absurd h.1 c1⟩⟩ <;> cases h
  refine ⟨key.1, key.2.1, key.2.2, fun hn hnc => key.2.1.mpr ?_⟩
  have hal : alone s0 color.toNat (POS x y).toNat := by
    intro q hq
    rcases hq with e | ⟨hq1, t, ht, hm⟩
    · exact e
    · exfalso
      have hqs : isStone (s0.board q) := by rw [hq1]; exact hst
      exact (hn t ht).2 (by rw [(hi.wf.chain.own q hqs t hm).1, hq1])
  refine ⟨fun q hq u hu => ?_, hal⟩
  rw [hal q hq] at hu
  unfold afterCaptures
  have h33 : 32 ≤ (POS x y).toNat := by have := onBoard_ge hb.1; omega
  have hux : u ≠ (POS x y).toNat := by
    intro e
    rw [e] at hu
    exact not_mem_nbrs_self _ h33 hu
  rw [if_neg hux, if_neg (hnc u)]
  exact (hn u hu).1

theorem suicide_iff_witness :
    (ColoursOk cornerMoves ∧ run (blank 100) 19 cornerMoves 0 = .ok (cornerState 100) ∧
      ((1 : Int) = 1 ∨ (1 : Int) = 2) ∧ (1 ≤ (1 : Int) ∧ (1 : Int) ≤ (cornerState 100).sz) ∧
      (cornerState 100).board (POS 1 1).toNat = EMPTY ∧
      errOf (do_move (cornerState 100) 1 1 1 3) ≠ some .played_game_array_overflow ∧
      errOf (do_move (cornerState 100) 1 1 1 3) ≠ some .chainmax_overflow ∧
      errOf (do_move (cornerState 100) 1 1 1 3) ≠ some (.illegal_ko_recapture 3)) ∧
    errOf (do_move (cornerState 100) 1 1 1 3) = some (.suicide 3) ∧
    (((∃ e, do_move (cornerState 100) 1 1 1 3 = .error e)
      ↔ noLiberty (cornerState 100) (1 : Int).toNat (POS 1 1).toNat) ∧
    (do_move (cornerState 100) 1 1 1 3 = .error (.suicide 3)
      ↔ noLiberty (cornerState 100) (1 : Int).toNat (POS 1 1).toNat ∧
        alone (cornerState 100) (1 : Int).toNat (POS 1 1).toNat) ∧
    (do_move (cornerState 100) 1 1 1 3 = .error (.mass_suicide 3)
      ↔ noLiberty (cornerState 100) (1 : Int).toNat (POS 1 1).toNat ∧
        ¬ alone (cornerState 100) (1 : Int).toNat (POS 1 1).toNat) ∧
    ((∀ t ∈ nbrs (POS 1 1).toNat, (cornerState 100).board t ≠ EMPTY ∧
        (cornerState 100).board t ≠ (1 : Int).toNat) →
      (∀ p, ¬ capturedBy (cornerState 100) (1 : Int).toNat (POS 1 1).toNat p) →
      do_move (cornerState 100) 1 1 1 3 = .error (.suicide 3))) :=
  ⟨⟨by decide!, ok_stateOf (blank 0) (by decide!), by decide, by decide!, by decide!,
      by decide!, by decide!, by decide!⟩, by decide!,
    suicide_iff (blank 100) 19 0 cornerMoves (cornerState 100) 1 1 1 3 (by decide!)
      (ok_stateOf (blank 0) (by decide!)) (by decide) (by decide!) (by decide!) (by decide!)
      (by decide!) (by decide!) (by decide!)⟩

/-- C11.  In the log that a successful `playgogame` returns (moves Black or White), for
every entry `mi` at index `i` that is not a PASS: if it is a CAPTURE, there is a nearest
earlier entry `mj` with the same position (no entry with that position lies between the
two), and it is a placement (no CAPTURE, no PASS) of the same colour; and whenever `mj`
is the nearest earlier entry with the position of `mi`, exactly one of the two is a
CAPTURE: the entries of one position are alternately placements and CAPTUREs. -/
theorem log_alternates (g : State) (size initct : Int) (moves : List Int) (r : State)
    (hcol : ColoursOk moves) (hplay : playgogame g size moves initct = .ok r) :
    ∀ (i mi : Nat), r.mv[i]? = some mi → ¬ isPass mi →
      (isCapture mi → ∃ j mj, j < i ∧ r.mv[j]? = some mj ∧ ¬ isPass mj ∧
        recPos mj = recPos mi ∧
        (∀ (k mk : Nat), j < k → k < i → r.mv[k]? = some mk → ¬ isPass mk →
          recPos mk ≠ recPos mi) ∧
        ¬ isCapture mj ∧ recColor mj = recColor mi) ∧
      (∀ (j mj : Nat), j < i → r.mv[j]? = some mj → ¬ isPass mj → recPos mj = recPos mi →
        (∀ (k mk : Nat), j < k → k < i → r.mv[k]? = some mk → ¬ isPass mk →
          recPos mk ≠ recPos mi) →
        (isCapture mi ↔ ¬ isCapture mj)) := by
  obtain ⟨st, hrun, e⟩ := playgogame_ok hplay
  subst e
  obtain ⟨_, hl⟩ := run_good hcol hrun
  have h := (run_alt hcol hrun).marked hl
  intro i mi hi hnp
  obtain ⟨a, b⟩ := h i mi hi hnp
  constructor
  · intro hc
    obtain ⟨j0, mj0, c1, c2, c3, c4⟩ := a hc
    obtain ⟨j, hj, ⟨mj, d1, d2, d3⟩, hbetween⟩ := exists_nearest
      (fun j => ∃ mj, (mark_permanent st).mv[j]? = some mj ∧ ¬ isPass mj ∧
        recPos mj = recPos mi) i ⟨j0, c1, mj0, c2, c3, c4⟩
    have hb : ∀ (k mk : Nat), j < k → k < i → (mark_permanent st).mv[k]? = some mk →
        ¬ isPass mk → recPos mk ≠ recPos mi :=
      fun k mk h1 h2 h3 h4 h5 => hbetween k h1 h2 ⟨mk, h3, h4, h5⟩
    obtain ⟨e1, e2⟩ := b j mj hj d1 d2 d3 hb
    exact ⟨j, mj, hj, d1, d2, d3, hb, e1.mp hc, (e2 hc).symm⟩
  · intro j mj hj hmj hnpj hpos hbetween
    exact (b j mj hj hmj hnpj hpos hbetween).1

theorem log_alternates_witness :
    (ColoursOk demoGame ∧ playgogame (blank 100) 19 demoGame 0 = .ok demoFinal ∧
      demoFinal.mv[5]? = some (captureRec 66 BLACK ||| PG_PERMANENT) ∧
      ¬ isPass (captureRec 66 BLACK ||| PG_PERMANENT) ∧
      isCapture (captureRec 66 BLACK ||| PG_PERMANENT)) ∧
    ∃ j mj, j < 5 ∧ demoFinal.mv[j]? = some mj ∧ ¬ isPass mj ∧
      recPos mj = recPos (captureRec 66 BLACK ||| PG_PERMANENT) ∧
      (∀ (k mk : Nat), j < k → k < 5 → demoFinal.mv[k]? = some mk → ¬ isPass mk →
        recPos mk ≠ recPos (captureRec 66 BLACK ||| PG_PERMANENT)) ∧
      ¬ isCapture mj ∧ recColor mj = recColor (captureRec 66 BLACK ||| PG_PERMANENT) :=
  ⟨⟨by decide!, ok_stateOf (blank 0) (by decide!), by decide!, by decide!, by decide!⟩,
    (log_alternates (blank 100) 19 0 demoGame demoFinal (by decide!)
      (ok_stateOf (blank 0) (by decide!)) 5 (captureRec 66 BLACK ||| PG_PERMANENT)
      (by decide!) (by decide!)).1 (by decide!)⟩

/-- C13.  After every move that `playgogame` processes without error (the state `st`
that the replay loop reaches on any list of Black and White moves), two stones `p` and
`q` on the board are owned by the same chain (`current_chain`) if and only if they have
the same colour and are joined by a path of orthogonally adjacent stones of that colour;
the stone list of the chain of `p` contains exactly the positions the chain owns, each
once, and its `sz` field is their number. -/
theorem chain_is_component (g : State) (size initct : Int) (moves : List Int) (st : State)
    (hcol : ColoursOk moves) (hrun : run g size moves initct = .ok st)
    (p q : Nat) (hp : isStone (st.board p)) (hq : isStone (st.board q)) :
    (st.current_chain p = st.current_chain q ↔
      st.board p = st.board q ∧ Joined st.board p q) ∧
    (∀ u, u ∈ chainAt st p ↔ isStone (st.board u) ∧ st.current_chain u = st.current_chain p) ∧
    (chainAt st p).Nodup ∧
    (st.chains (st.current_chain p)).sz = (chainAt st p).length := by
  obtain ⟨hi, _⟩ := run_good hcol hrun
  refine ⟨?_, ?_, hi.wf.chain.nodup p hp, ?_⟩
  · rw [chain_iff_joined hcol hrun hp hq]
    constructor
    · intro h
      exact ⟨(h.same_chain hi.wf).2.1.symm, h⟩
    · intro h
      exact h.2
  · intro u
    constructor
    · intro hu
      exact ⟨hi.wf.chain.stone hp hu, (hi.wf.chain.own p hp u hu).2⟩
    · intro ⟨h1, h2⟩
      exact (hi.wf.chain.mem_iff hp h1).mpr h2
  · unfold chainAt stonesOf
    simp

theorem chain_is_component_witness :
    (ColoursOk pairMoves ∧ run (blank 100) 19 pairMoves 0 = .ok pairState ∧
      isStone (pairState.board 66) ∧ isStone (pairState.board 67)) ∧
    pairState.current_chain 66 = pairState.current_chain 67 ∧
    (pairState.current_chain 66 = pairState.current_chain 67 ↔
      pairState.board 66 = pairState.board 67 ∧ Joined pairState.board 66 67) ∧
    (pairState.chains (pairState.current_chain 66)).sz = (chainAt pairState 66).length :=
  ⟨⟨by decide!, ok_stateOf (blank 0) (by decide!), by decide!, by decide!⟩, by decide!,
    (chain_is_component (blank 100) 19 0 pairMoves pairState (by decide!)
      (ok_stateOf (blank 0) (by decide!)) 66 67 (by decide!) (by decide!)).1,
    (chain_is_component (blank 100) 19 0 pairMoves pairState (by decide!)
      (ok_stateOf (blank 0) (by decide!)) 66 67 (by decide!) (by decide!)).2.2.2⟩

/-- C14.  For every list of moves of one colour (Black or White) and every reordering of
it, when both replays succeed (from any prior contents of the tables) the two final
states agree: the boards are equal, and for each stone its chain has the same set of
stones and the same liberties field in both.  The points played are then distinct points
of the board, since a replay fails on an occupied or off-board point. -/
theorem same_colour_order_independent (g1 g2 : State) (size i1 i2 color : Int)
    (moves1 moves2 : List Int) (r1 r2 : State) (hcol : color = 1 ∨ color = 2)
    (hc : ∀ m ∈ moves1, move_color m = color) (hperm : moves1.Perm moves2)
    (h1 : run g1 size moves1 i1 = .ok r1) (h2 : run g2 size moves2 i2 = .ok r2) :
    r1.board = r2.board ∧
    ∀ p, isStone (r1.board p) →
      (∀ q, q ∈ chainAt r1 p ↔ q ∈ chainAt r2 p) ∧
      (r1.chains (r1.current_chain p)).liberties
        = (r2.chains (r2.current_chain p)).liberties := by
  have hc2 : ∀ m ∈ moves2, move_color m = color := fun m hm => hc m (hperm.mem_iff.mpr hm)
  have hco1 : ColoursOk moves1 := fun m hm => by rw [hc m hm]; exact hcol
  have hco2 : ColoursOk moves2 := fun m hm => by rw [hc2 m hm]; exact hcol
  have hb : r1.board = r2.board := by
    funext p
    rw [run_mono hcol hc h1 p, run_mono hcol hc2 h2 p]
    by_cases h : ∃ m ∈ moves1, playedAt size m p
    · obtain ⟨m, hm, hp⟩ := h
      rw [if_pos ⟨m, hm, hp⟩, if_pos ⟨m, hperm.mem_iff.mp hm, hp⟩]
    · rw [if_neg h, if_neg]
      rintro ⟨m, hm, hp⟩
      exact h ⟨m, hperm.mem_iff.mpr hm, hp⟩
  refine ⟨hb, ?_⟩
  intro p hp
  have hp2 : isStone (r2.board p) := by rw [← hb]; exact hp
  obtain ⟨hi1, _⟩ := run_good hco1 h1
  obtain ⟨hi2, _⟩ := run_good hco2 h2
  have hmem : ∀ q, q ∈ chainAt r1 p ↔ q ∈ chainAt r2 p := by
    intro q
    constructor
    · intro hq
      have hqs := hi1.wf.chain.stone hp hq
      have hj := (chain_iff_joined hco1 h1 hp hqs).mp ((hi1.wf.chain.own p hp q hq).2).symm
      rw [hb] at hj hqs
      exact (hi2.wf.chain.mem_iff hp2 hqs).mpr ((chain_iff_joined hco2 h2 hp2 hqs).mpr hj).symm
    · intro hq
      have hqs := hi2.wf.chain.stone hp2 hq
      have hj := (chain_iff_joined hco2 h2 hp2 hqs).mp ((hi2.wf.chain.own p hp2 q hq).2).symm
      rw [← hb] at hj hqs
      exact (hi1.wf.chain.mem_iff hp hqs).mpr ((chain_iff_joined hco1 h1 hp hqs).mpr hj).symm
  refine ⟨hmem, ?_⟩
  rw [hi1.wf.lib_nil hp, hi2.wf.lib_nil hp2, hb]
  have hperm2 : (chainAt r1 p).Perm (chainAt r2 p) :=
    (List.perm_ext_iff_of_nodup (hi1.wf.chain.nodup p hp) (hi2.wf.chain.nodup p hp2)).mpr hmem
  rw [libs_perm r2.board hperm2]

theorem same_colour_order_independent_witness :
    ((∀ m ∈ joinMoves, move_color m = 1) ∧ joinMoves.Perm rowMoves ∧
      run (blank 100) 19 joinMoves 0 = .ok joinState ∧
      run (blank 100) 19 rowMoves 0 = .ok rowState ∧ isStone (joinState.board 66)) ∧
    (joinState.chains (joinState.current_chain 66)).liberties
      = (rowState.chains (rowState.current_chain 66)).liberties ∧
    (rowState.chains (rowState.current_chain 66)).liberties = 8 ∧
    (rowState.chains (rowState.current_chain 66)).sz = 3 ∧
    (joinState.chains (joinState.current_chain 66)).sz = 3 :=
  ⟨⟨by decide!, by decide, ok_stateOf (blank 0) (by decide!), ok_stateOf (blank 0) (by decide!),
      by decide!⟩,
    ((same_colour_order_independent (blank 100) (blank 100) 19 0 0 1 joinMoves rowMoves
      joinState rowState (Or.inl rfl) (by decide!) (by decide)
      (ok_stateOf (blank 0) (by decide!)) (ok_stateOf (blank 0) (by decide!))).2 66
      (by decide!)).2,
    by decide!, by decide!, by decide!⟩

/-- C33.  After a successful `playgogame` on moves whose colour field is 1 or 2:
`counts[0]` is the number of input moves (setup stones and passes included), `counts[1]`
the number of CAPTURE entries of Black stones in the log, `counts[2]` that of White
stones, and the length `mvct` of the log is `counts[0] + counts[1] + counts[2]`. -/
theorem counts_match_log (g : State) (size initct : Int) (moves : List Int) (r : State)
    (hcol : ColoursOk moves) (hplay : playgogame g size moves initct = .ok r) :
    r.counts 0 = moves.length ∧ r.counts 1 = captureCount BLACK r.mv ∧
    r.counts 2 = captureCount WHITE r.mv ∧
    r.mv.length = r.counts 0 + r.counts 1 + r.counts 2 := by
  obtain ⟨st, hrun, e⟩ := playgogame_ok hplay
  subst e
  obtain ⟨hi, hl⟩ := run_good hcol hrun
  have hc := run_cnt hcol hrun
  obtain ⟨bs, h1, h2, h3, h4⟩ := run_blocks hcol hrun
  have hall : st.mv = blocksLog size moves bs := by
    obtain ⟨s, hs1, hs2⟩ := h4 moves.length
    rw [List.take_length, hrun] at hs1
    injection hs1 with hs1
    subst hs1
    rw [hs2, List.take_length, ← h1, List.take_length]
  obtain ⟨m1, m2⟩ := mark_permanent_counts hl
  have h0 : st.counts 0 = moves.length := by
    rw [hc.moves, hall]
    unfold moveCount
    rw [List.countP_eq_length_filter, blocksLog_filter size moves bs h1 h2 h3, List.length_map]
  have hcnt : (mark_permanent st).counts = st.counts := rfl
  have hlen : (mark_permanent st).mv.length
      = moveCount (mark_permanent st).mv + captureCount 1 (mark_permanent st).mv
        + captureCount 2 (mark_permanent st).mv := by
    apply length_eq_counts
    intro e he _
    obtain ⟨i, hi1⟩ := List.mem_iff_getElem?.mp he
    obtain ⟨m0, a, b⟩ := mark_permanent_some hi1
    subst b
    exact (marked_shape hl a).2.2.1
  refine ⟨by rw [hcnt]; exact h0, ?_, ?_, ?_⟩
  · rw [hcnt, hc.black]; exact (m2 1).symm
  · rw [hcnt, hc.white]; exact (m2 2).symm
  · rw [hlen, m1, m2 1, m2 2, hcnt, hc.moves, hc.black, hc.white]

theorem counts_match_log_witness :
    (ColoursOk demoGame ∧ playgogame (blank 100) 19 demoGame 0 = .ok demoFinal) ∧
    demoGame.length = 5 ∧ demoFinal.mv.length = 6 ∧
    (demoFinal.counts 0 = demoGame.length ∧ demoFinal.counts 1 = captureCount BLACK demoFinal.mv ∧
      demoFinal.counts 2 = captureCount WHITE demoFinal.mv ∧
      demoFinal.mv.length = demoFinal.counts 0 + demoFinal.counts 1 + demoFinal.counts 2) :=
  ⟨⟨by decide!, ok_stateOf (blank 0) (by decide!)⟩, by decide!, by decide!,
    counts_match_log (blank 100) 19 0 demoGame demoFinal (by decide!)
      (ok_stateOf (blank 0) (by decide!))⟩

/-- C37 as stated fails when the log is full.  `fullLogGame` has 9508 moves, 500 of them
stone placements (`koGame`, 245 rounds of its ko with passes in between, one more stone
taken, and passes); with the log of 10000 entries that the callers of `playgogame`
give, the replay accepts it and the log is full.  The next move, Black on the empty
point (10,10), is the 501st stone placement; `playgogame` stops with "played_game array
overflow", since `add_move` runs before the test of the chain counter. -/
theorem chainmax_room_counterexample :
    ColoursOk (fullLogGame ++ [mkMove 1 10 10]) ∧ fullLogGame.length = 9508 ∧
    placements 19 fullLogGame = 500 ∧
    placements 19 (fullLogGame ++ [mkMove 1 10 10]) = 501 ∧
    (∃ st, run (blank 10000) 19 fullLogGame 0 = .ok st ∧ st.chainct = 500 ∧
      st.mv.length = 10000 ∧ st.mvlen = 10000 ∧ st.board (POS 10 10).toNat = EMPTY) ∧
    playgogame (blank 10000) 19 (fullLogGame ++ [mkMove 1 10 10]) 0
      = .error .played_game_array_overflow := by
  obtain ⟨st, g1, g2, g3, g4, g5⟩ :=
    @fullLogGame_from 10000 (by decide!) (by decide!) (by decide!) (by decide!) (by omega)
  refine ⟨coloursOk_append coloursOk_fullLogGame (by decide), fullLogGame_length,
    placements_fullLogGame, ?_, ⟨st, g1, g2, g3, g4, g5⟩, ?_⟩
  · rw [placements_snoc, placements_fullLogGame, if_neg (by decide)]
  · rw [playgogame_error_iff, fullLogGame_next g1 g5, do_place_eq, if_pos (by rw [g3, g4])]

/-- C37, amended.  For moves of Black and White, replayed by `playgogame`:
the chain counter after accepted moves is the number of stone placements among them
(setup stones included, passes not), whatever is on the board, since a chain slot is
never given back.  So after accepted moves with 500 placements the next placement (a
move that is no pass, on an empty point of the board, with room in the log for its
entry) stops `playgogame` with `CHAINMAX overflow`, whatever follows; and a game with at
most 500 placements never stops with this error. -/
theorem chainmax_on_501st (g : State) (size initct : Int) (moves : List Int)
    (hcol : ColoursOk moves) :
    (∀ st, run g size moves initct = .ok st → st.chainct = placements size moves) ∧
    (∀ st m rest, run g size moves initct = .ok st → placements size moves = 500 →
      isPlacement size m → ¬ offBoard size (move_x m) (move_y m) →
      st.board (POS (move_x m) (move_y m)).toNat = EMPTY → st.mv.length < st.mvlen →
      playgogame g size (moves ++ m :: rest) initct = .error .chainmax_overflow) ∧
    (placements size moves ≤ 500 →
      playgogame g size moves initct ≠ .error .chainmax_overflow) := by
  refine ⟨fun st h => run_chainct moves hcol h, ?_, ?_⟩
  · intro st m rest hrun h500 hp ho he hroom
    rw [playgogame_error_iff, run_append, hrun]
    show play_moves initct st moves.length (m :: rest) = _
    rw [play_moves_cons]
    obtain ⟨hi, _⟩ := run_good hcol hrun
    have hsz := run_sz hcol hrun
    rw [do_move_cases st _ _ _ _ hi.wf.board.sz1_eq hi.wf.board.sz_le, hsz,
      if_neg hp, if_neg ho, if_neg (by rw [he]; exact fun x => x rfl),
      ((do_place_chainmax st _ _ _).2 (by rw [run_chainct moves hcol hrun, h500]; rfl)
        (by omega))]
    rfl
  · intro hle h
    rw [playgogame_error_iff] at h
    rcases run_error_split moves h with h0 | ⟨ms, m, rest, s, e, hrun, hd⟩
    · unfold init at h0
      split at h0
      · cases h0
      · cases h0
    · have hc0 : ColoursOk ms := fun a ha => hcol a (by rw [e]; exact List.mem_append_left _ ha)
      obtain ⟨hi, _⟩ := run_good hc0 hrun
      have hsz := run_sz hc0 hrun
      rw [do_move_cases s _ _ _ _ hi.wf.board.sz1_eq hi.wf.board.sz_le] at hd
      split at hd
      · have := add_mv_error hd
        cases this
      rename_i hp
      split at hd
      · cases hd
      split at hd
      · cases hd
      have hct := (do_place_chainmax s _ _ _).1 hd
      rw [run_chainct ms hc0 hrun] at hct
      have h1 := placements_snoc size ms m
      rw [hsz] at hp
      rw [if_neg hp, hct] at h1
      have h2 := placements_le_append size (ms ++ [m]) rest
      rw [List.append_assoc, List.singleton_append, ← e, h1] at h2
      unfold CHAINMAX at h2
      omega

theorem chainmax_on_501st_witness :
    ColoursOk fullLogGame ∧ placements 19 fullLogGame = 500 ∧
    (∃ st, run (blank 20000) 19 fullLogGame 0 = .ok st) ∧
    playgogame (blank 20000) 19 (fullLogGame ++ [mkMove 1 10 10]) 0
      = .error .chainmax_overflow ∧
    playgogame (blank 20000) 19 fullLogGame 0 ≠ .error .chainmax_overflow := by
  obtain ⟨st, g1, g2, g3, g4, g5⟩ :=
    @fullLogGame_from 20000 (by decide!) (by decide!) (by decide!) (by decide!) (by omega)
  have hw := chainmax_on_501st (blank 20000) 19 0 fullLogGame coloursOk_fullLogGame
  exact ⟨coloursOk_fullLogGame, placements_fullLogGame, ⟨st, g1⟩,
    hw.2.1 st (mkMove 1 10 10) [] g1 placements_fullLogGame (by decide) (by decide) g5
      (by rw [g3, g4]; omega),
    hw.2.2 (by rw [placements_fullLogGame])⟩

/-- C39.  For a game that `playgogame` replays without error, with moves that are C ints
of colour 1 or 2 and every pass written `tt`, the loop of `do_bgin` over the final log
(which skips the CAPTURE entries, gives `tt` for a PASS entry and otherwise the letters
`'a' - 1 + pos / 32` and `'a' - 1 + pos % 32`, and moves the colour bits from bits 10-11
to bits 16-17) gives back the input move array, entry by entry. -/
theorem bgin_restores_moves (g : State) (size initct : Int) (moves : List Int) (r : State)
    (hcol : ColoursOk moves)
    (hint : ∀ m ∈ moves, -2147483648 ≤ m ∧ m < 2147483648)
    (htt : ∀ m ∈ moves, passCoords size (move_x m) (move_y m) →
      (m / 256) % 256 = 116 ∧ m % 256 = 116)
    (hplay : playgogame g size moves initct = .ok r) :
    (bgin_moves r.mv).map Int.ofNat = moves := by
  obtain ⟨st, hrun, e⟩ := playgogame_ok hplay
  subst e
  obtain ⟨hi, hl⟩ := run_good hcol hrun
  obtain ⟨bs, h1, h2, h3, h4⟩ := run_blocks hcol hrun
  have hall : st.mv = blocksLog size moves bs := by
    obtain ⟨s, hs1, hs2⟩ := h4 moves.length
    rw [List.take_length, hrun] at hs1
    injection hs1 with hs1
    subst hs1
    rw [hs2, List.take_length, ← h1, List.take_length]
  have hclear := mark_permanent_clear hl
  have hel : ∀ e ∈ (mark_permanent st).mv, ∃ i m0, st.mv[i]? = some m0 ∧ e = marked st i m0 := by
    intro e he
    obtain ⟨i, hi1⟩ := List.mem_iff_getElem?.mp he
    obtain ⟨m0, a, b⟩ := mark_permanent_some hi1
    exact ⟨i, m0, a, b⟩
  have hf : (mark_permanent st).mv.filter (fun m => decide (m &&& PG_CAPTURE = 0))
      = (mark_permanent st).mv.filter
          ((fun e => decide (¬ isCapture e)) ∘ clearPermanent) := by
    apply List.filter_congr
    intro e he
    obtain ⟨i, m0, a, b⟩ := hel e he
    subst b
    have k := (marked_facts hl a).2.2.2.1
    show decide _ = decide _
    rw [(marked_shape hl a).1]
    apply decide_eq_decide.mpr
    rw [← k]
    unfold isCapture
    exact not_not.symm
  have hm : ((mark_permanent st).mv.filter
        ((fun e => decide (¬ isCapture e)) ∘ clearPermanent)).map bgin_move
      = ((mark_permanent st).mv.filter
        ((fun e => decide (¬ isCapture e)) ∘ clearPermanent)).map
          (bgin_move ∘ clearPermanent) := by
    apply List.map_congr_left
    intro e he
    obtain ⟨he1, he2⟩ := List.mem_filter.mp he
    obtain ⟨i, m0, a, b⟩ := hel e he1
    subst b
    have hc : ¬ isCapture m0 := by
      have := of_decide_eq_true he2
      rwa [(marked_shape hl a).1] at this
    show bgin_move _ = bgin_move (clearPermanent _)
    rw [(marked_shape hl a).1]
    exact bgin_move_marked hl a hc
  unfold bgin_moves
  rw [hf, hm, ← List.map_map, ← List.filter_map, hclear, hall,
    blocksLog_filter size moves bs h1 h2 h3, List.map_map, List.map_map]
  have hv := run_moves_valid moves hcol hrun
  calc moves.map (Int.ofNat ∘ bgin_move ∘ encodeMove size)
      = moves.map id := by
        apply List.map_congr_left
        intro m hmem
        exact bgin_move_encode (hv m hmem).1 (hcol m hmem) (hint m hmem) (htt m hmem)
          (hv m hmem).2
    _ = moves := List.map_id moves

theorem bgin_restores_moves_witness :
    (ColoursOk passGame ∧ (∀ m ∈ passGame, -2147483648 ≤ m ∧ m < 2147483648) ∧
      (∀ m ∈ passGame, passCoords 19 (move_x m) (move_y m) →
        (m / 256) % 256 = 116 ∧ m % 256 = 116) ∧
      playgogame (blank 100) 19 passGame 0 = .ok passFinal) ∧
    passFinal.mv = [1090, 10274, 10338, 10305, 10307, 25666, 5120] ∧
    bgin_moves passFinal.mv = [90722, 156002, 156514, 156257, 156259, 95348] ∧
    (bgin_moves passFinal.mv).map Int.ofNat = passGame :=
  ⟨⟨by decide!, by decide!, by decide!, ok_stateOf (blank 0) (by decide!)⟩, by decide!,
    by rw [show passFinal.mv = [1090, 10274, 10338, 10305, 10307, 25666, 5120] from by decide!]
       decide,
    bgin_restores_moves (blank 100) 19 0 passGame passFinal (by decide!) (by decide!)
      (by decide!) (ok_stateOf (blank 0) (by decide!))⟩

/-- C36.  When `playgogame` ends with the warning of `check_for_cycles` that the position
after move `n` equals that after move `m` (moves counted as the entries of the log
without the CAPTURE flag), then `m < n`, and the board obtained by applying the first `n`
such entries together with their captures is, cell by cell, the board obtained by
applying the first `m`; and the state that `playgogame` leaves, the log included, is the
state of the replay: the warning neither fails the replay nor alters the log. -/
theorem cycle_report_sound (g : State) (size initct : Int) (moves : List Int) (r : State)
    (n m : Nat) (hcol : ColoursOk moves)
    (h : playgogame_cycles g size moves initct = .ok (r, .cycle n m)) :
    m < n ∧ (∀ p, boardAfter r.mv n p = boardAfter r.mv m p) ∧
      playgogame g size moves initct = .ok r ∧ check_for_cycles r.mv = .cycle n m := by
  unfold playgogame_cycles at h
  cases hp : playgogame g size moves initct with
  | error e => rw [hp] at h; cases h
  | ok r1 =>
    rw [hp] at h
    change Except.ok (r1, check_for_cycles r1.mv) = Except.ok (r, Cycles.cycle n m) at h
    injection h with h
    injection h with h1 h2
    subst h1
    obtain ⟨c1, c2⟩ := cycles_sound (playgogame_legal hcol hp) h2
    exact ⟨c1, c2, rfl, h2⟩

theorem cycle_report_sound_witness :
    ColoursOk cycleGame ∧
    playgogame_cycles (blank 100) 19 cycleGame 0 = .ok (cycleFinal, .cycle 14 8) ∧
    (8 < 14 ∧ (∀ p, boardAfter cycleFinal.mv 14 p = boardAfter cycleFinal.mv 8 p) ∧
      playgogame (blank 100) 19 cycleGame 0 = .ok cycleFinal ∧
      check_for_cycles cycleFinal.mv = .cycle 14 8) :=
  have hc : ColoursOk cycleGame := by decide
  have he : playgogame_cycles (blank 100) 19 cycleGame 0 = .ok (cycleFinal, .cycle 14 8) := by
    unfold playgogame_cycles
    rw [cycle_eval.1]
    show Except.ok (cycleFinal, check_for_cycles cycleFinal.mv) = _
    rw [cycle_eval.2.1]
  ⟨hc, he, cycle_report_sound (blank 100) 19 0 cycleGame cycleFinal 14 8 hc he⟩

end Playgogame

namespace Readsgf

/-- C5.  For every text that is a strict FF[4] collection deriving the forest `g` (one
or more game trees, every `(` followed by a node, identifiers of 1 to 103 upper-case
letters, every property with at least one value, in a value no NUL and every `]` and
backslash escaped, white space allowed before every token and at the end), `readsgf`
with more fuel than the text has bytes returns exactly `g`, whatever the options
`multiin` and `fullprop`: the top-level trees as siblings in input order, for each tree
its nodes, properties and values in input order and the chain of its children,
identifiers unchanged and each value equal to the bytes between its brackets. -/
theorem readsgf_strict (multiin fullprop : Bool) (fuel : Nat) (text : List Nat)
    (g : gametree) (h : CollectionText text g) (hf : text.length < fuel) :
    readsgf multiin fullprop fuel text = .ok g :=
  (readsgf_collection multiin fullprop fuel text text g g 0 h.collection_loose hf).1

theorem readsgf_strict_witness :
    (CollectionText exampleText exampleTree ∧ exampleText.length < 32) ∧
    readsgf false false 32 exampleText = .ok exampleTree :=
  ⟨⟨exampleText_derives, by decide⟩,
    readsgf_strict false false 32 exampleText exampleTree exampleText_derives (by decide)⟩

/-- C20, as stated, fails: in `(;C[a]b];B[aa])` the unescaped `]` is directly followed
by a lower-case letter, which ends the value there; the letter is then read as an
identifier, and `readsgf` fails (`propid is lower case only`, or `missing propvalue`
with `fullprop`), while the text with the `]` escaped is read. -/
theorem bracket_letter_counterexample :
    (∀ multiin, errorOf (readsgf multiin false 100 letterText)
        = some (.propid_is_lower_case_only [98])) ∧
    (∀ multiin, errorOf (readsgf multiin true 100 letterText)
        = some (.missing_propvalue [98])) ∧
    (∀ multiin fullprop, treeOf (readsgf multiin fullprop 100 letterEscaped)
        = .tree [{ p := [{ id := [67], val := [[97, 92, 93, 98]] }] },
            { p := [{ id := [66], val := [[97, 97]] }] }] .null .null) := by
  decide

/-- C22, as stated, fails: in `(GM[1])(;B[aa])` the first `(` is followed by the
upper-case letter `G`, and yet the reader does not start there: `skip_initial_garbage`
leaves out `(GM[1])` and stops at the second `(`, so that the forest is the one of
`(;B[aa])` alone. -/
theorem garbage_upper_counterexample :
    garbageText = [40, 71, 77, 91, 49, 93, 41] ++ pointText ∧ is_upper_case 71 = true ∧
    skip_initial_garbage 20 (fresh garbageText 0) = .ok (fresh pointText 0) ∧
    readsgf false false 20 garbageText = .ok pointTree ∧
    readsgf false false 20 pointText = .ok pointTree :=
  ⟨rfl, rfl, rfl, rfl, rfl⟩

/-- C22, amended: before the first game `readsgf` discards all input up to the first `(`
whose next symbol, white space skipped, is `;` or the letter `T` (no other upper-case
letter counts), and parses the collection from there: as `(;` and what follows the `;`,
and for `T` as `(;T` and what follows the `T`.  The text `pre` before that `(` (text
without such a `(`, for example mail headers or `(GM[1])`) does not reach the tree: the
result is the one of `read_collection` on the text from that `(` on.  A file without such
a `(` gives `no game found`. -/
theorem readsgf_skips_garbage (multiin fullprop : Bool) (fuel : Nat) (pre w r : List Nat)
    (hpre : gameStart pre = none) (hw : Ws w)
    (hf : pre.length + w.length + r.length + 3 < fuel) :
    readsgf multiin fullprop fuel (pre ++ 40 :: (w ++ 59 :: r))
      = (read_collection multiin fullprop fuel (fresh (40 :: 59 :: r) 0)).bind
          (fun g => .ok g.1) ∧
    readsgf multiin fullprop fuel (pre ++ 40 :: (w ++ 84 :: r))
      = (read_collection multiin fullprop fuel (fresh (40 :: 59 :: 84 :: r) 0)).bind
          (fun g => .ok g.1) ∧
    readsgf multiin fullprop fuel pre = .error .no_game_found := by
  refine ⟨?_, ?_, ?_⟩
  · rw [readsgf_eq_start _ _ _ _ (by simp; omega), gameStart_garbage pre hpre, gameStart,
      if_pos rfl, nextSym_ws hw, nextSym, if_neg (by decide)]
    rfl
  · rw [readsgf_eq_start _ _ _ _ (by simp; omega), gameStart_garbage pre hpre, gameStart,
      if_pos rfl, nextSym_ws hw, nextSym, if_neg (by decide)]
    rfl
  · rw [readsgf_eq_start _ _ _ _ (by omega), hpre]
    rfl

theorem readsgf_skips_garbage_witness :
    (gameStart [40, 71, 77, 91, 49, 93, 41] = none ∧ Ws [32] ∧
      [40, 71, 77, 91, 49, 93, 41].length + [32].length + [66, 91, 97, 97, 93, 41].length + 3
        < 20) ∧
    readsgf false false 20 ([40, 71, 77, 91, 49, 93, 41] ++ 40 :: ([32] ++ 59 ::
        [66, 91, 97, 97, 93, 41]))
      = (read_collection false false 20 (fresh (40 :: 59 :: [66, 91, 97, 97, 93, 41]) 0)).bind
          (fun g => .ok g.1) ∧
    readsgf false false 20 ([40, 71, 77, 91, 49, 93, 41] ++ 40 :: ([32] ++ 84 ::
        [66, 91, 97, 97, 93, 41]))
      = (read_collection false false 20
          (fresh (40 :: 59 :: 84 :: [66, 91, 97, 97, 93, 41]) 0)).bind (fun g => .ok g.1) ∧
    readsgf false false 20 [40, 71, 77, 91, 49, 93, 41] = .error .no_game_found :=
  ⟨⟨by decide, Ws.cons (by decide) Ws.nil, by decide⟩,
    readsgf_skips_garbage false false 20 [40, 71, 77, 91, 49, 93, 41] [32]
      [66, 91, 97, 97, 93, 41] (by decide) (Ws.cons (by decide) Ws.nil) (by decide)⟩

/-- C29.  For every text `t` and more fuel than `t` has bytes (and five to spare),
`readsgf` on the bytes `EF BB BF` followed by `t` has the same outcome as `readsgf` on
`t`: the same error or the same forest; and the outcome is not the end of the fuel. -/
theorem readsgf_bom (multiin fullprop : Bool) (fuel : Nat) (t : List Nat)
    (hf : t.length + 4 < fuel) :
    readsgf multiin fullprop fuel (0xef :: 0xbb :: 0xbf :: t) = readsgf multiin fullprop fuel t ∧
      readsgf multiin fullprop fuel t ≠ .error .out_of_fuel := by
  refine ⟨?_, readsgf_fuel multiin fullprop fuel t (by omega)⟩
  rw [readsgf_eq_start _ _ _ _ (by simp; omega), readsgf_eq_start _ _ _ _ (by omega),
    gameStart_skip (by decide), gameStart_skip (by decide), gameStart_skip (by decide)]

theorem readsgf_bom_witness :
    pointText.length + 4 < 20 ∧
    readsgf false false 20 (0xef :: 0xbb :: 0xbf :: pointText) = readsgf false false 20 pointText ∧
      readsgf false false 20 pointText ≠ .error .out_of_fuel :=
  ⟨by decide, readsgf_bom false false 20 pointText (by decide)⟩

/-- C21, amended.  For every value body `b` without NUL in which every `]` and every backslash is
escaped (`ValBody`: bytes other than `]` and backslash, white space included, and pairs
of a backslash and any byte), read from just behind the `[`, with the closing `]`
followed (white space skipped) by one of `; ( ) [` or a letter: the value reader returns
exactly `b`, writes no warning and leaves the symbol after the `]` pending.  So spaces,
tabs and newlines are kept, a backslash and the byte after it are both kept, and a `]`
after an unescaped backslash does not end the value.  And `readsgf` on the one-property
game `(;` id `[` b `])` stores `b` as the value. -/
theorem value_kept_verbatim (multiin fullprop : Bool) (fuel : Nat) (id b w : List Nat) (d : Nat)
    (r : List Nat) (k : Nat) (hb : ValBody b) (hid : IdText id) (hw : Ws w)
    (hd : iswhitespace d = false) (he : ends_value d = true)
    (hf : id.length + b.length + 6 < fuel) :
    read_propvalue_following_sq fuel [] (fresh (b ++ 93 :: (w ++ d :: r)) k)
      = .ok (b, { buf := r, peekc := d, eof := false, warned := k }) ∧
    readsgf multiin fullprop fuel (40 :: 59 :: (id ++ 91 :: (b ++ [93, 41])))
      = .ok (.tree [{ p := [{ id := id, val := [b] }] }] .null .null) := by
  constructor
  · have h := read_value_ok hb.body_loose fuel [] w d r k hw hd he
      (fun c hc => by cases hc) (by omega)
    simpa [fresh] using h
  · have hv : ValuesText ([] ++ 91 :: (b ++ [93])) [b] := ValuesText.one [] b Ws.nil hb
    have hp : PropsText ([] ++ (id ++ (([] ++ 91 :: (b ++ [93])) ++ [])))
        [{ id := id, val := [b] }] :=
      PropsText.cons [] id _ [] [b] [] Ws.nil hid hv PropsText.nil
    have hn : NodesText ([] ++ 59 :: ([] ++ (id ++ (([] ++ 91 :: (b ++ [93])) ++ []))))
        [{ p := [{ id := id, val := [b] }] }] := NodesText.one [] _ _ Ws.nil hp
    have ht := TreesText.cons [] _ [] [] [] _ .null .null Ws.nil hn TreesText.nil Ws.nil
      TreesText.nil
    have hc : CollectionText (40 :: 59 :: (id ++ 91 :: (b ++ [93, 41])))
        (.tree [{ p := [{ id := id, val := [b] }] }] .null .null) :=
      ⟨_, [], ht, by simp, Ws.nil, by simp⟩
    have hlen : (40 :: 59 :: (id ++ 91 :: (b ++ [93, 41]))).length < fuel := by
      simp only [List.length_cons, List.length_append, List.length_nil]
      omega
    exact (readsgf_collection multiin fullprop fuel _ _ _ _ 0 hc.collection_loose hlen).1

theorem value_kept_verbatim_witness :
    (ValBody escapeBody ∧ IdText [67] ∧ Ws [32, 10] ∧ iswhitespace 59 = false ∧
      ends_value 59 = true ∧ [67].length + escapeBody.length + 6 < 20) ∧
    read_propvalue_following_sq 20 [] (fresh (escapeBody ++ 93 :: ([32, 10] ++ 59 :: [66])) 0)
      = .ok (escapeBody, { buf := [66], peekc := 59, eof := false, warned := 0 }) ∧
    readsgf false false 20 (40 :: 59 :: ([67] ++ 91 :: (escapeBody ++ [93, 41])))
      = .ok (.tree [{ p := [{ id := [67], val := [escapeBody] }] }] .null .null) :=
  have hb : ValBody escapeBody :=
    ValBody.plain 97 _ (by decide) (by decide) (by decide)
      (ValBody.plain 32 _ (by decide) (by decide) (by decide)
        (ValBody.esc 93 _ (by decide)
          (ValBody.esc 92 _ (by decide)
            (ValBody.plain 10 _ (by decide) (by decide) (by decide)
              (ValBody.plain 98 _ (by decide) (by decide) (by decide) ValBody.nil)))))
  have hid : IdText [67] := ⟨by decide, by decide, by decide⟩
  have hw : Ws [32, 10] := Ws.cons (by decide) (Ws.cons (by decide) Ws.nil)
  ⟨⟨hb, hid, hw, by decide, by decide, by decide⟩,
    value_kept_verbatim false false 20 [67] escapeBody [32, 10] 59 [66] 0 hb hid hw
      (by decide) (by decide) (by decide)⟩

/-- C23, as stated, fails for the tree with which the file starts: `(C[x];B[aa])` has the
allowed property `C` behind its `(` and is not accepted (the `(` is left out as garbage
and no game is found), and `(TE[x];B[aa])` has another property behind its `(` and is
accepted, as if it were `(;TE[x];B[aa])`. -/
theorem bare_first_counterexample :
    bareAllowed [67] ∧ readsgf false false 20 bareFirstText = .error .no_game_found ∧
    ¬ bareAllowed [84, 69] ∧ readsgf false false 20 sgf2Text = .ok sgf2Tree :=
  ⟨by decide, rfl, by decide, rfl⟩

/-- C23, amended: for a game tree other than the one the file starts with (here: a tree
inside the first tree, behind its nodes), whose `(` is followed by a property instead of
`;`.  When the identifier of that property is `RN`, `RF`, `N` or `C`, the tree is
accepted: the forest holds it with an empty node sequence and its children.  When the
property starts with another letter `d` (any symbol `d` other than `;`, `)`, `R`, `N`,
`C`), the parse fails with `gametree does not end with ')'`; when it starts with `R`,
`N` or `C` and its identifier is none of the four, the parse fails with `empty
node_sequence`.  (At the start of the file a `(` followed by
`T` is read as `(;T`, and a `(` followed by anything else but `;` is left out as
garbage.) -/
theorem bare_property_tree (multiin fullprop : Bool) (fuel : Nat)
    (w nt w3 pt knt kct w4 w2 wend y y2 : List Nat) (nodes knodes : List node) (p : property)
    (ps : List property) (kchildren : gametree) (d : Nat)
    (hw : Ws w) (hnt : NodesText nt nodes) (hw3 : Ws w3) (hpt : PropsText pt (p :: ps))
    (hid : bareAllowed p.id) (hknt : NodesOpt knt knodes) (hkct : TreesK kct kchildren)
    (hw4 : Ws w4) (hw2 : Ws w2) (hwend : Ws wend)
    (hy : Fails (BadParen d) y)
    (hy2 : Fails BadBare y2)
    (hf : (w ++ 40 :: (nt ++ ((w3 ++ 40 :: (pt ++ (knt ++ (kct ++ (w4 ++ 41 :: []))))) ++
      (w2 ++ 41 :: []))) ++ wend).length + 1 < fuel)
    (hf1 : (w ++ 40 :: (nt ++ y)).length + 1 < fuel)
    (hf2 : (w ++ 40 :: (nt ++ y2)).length + 1 < fuel) :
    readsgf multiin fullprop fuel
        (w ++ 40 :: (nt ++ ((w3 ++ 40 :: (pt ++ (knt ++ (kct ++ (w4 ++ 41 :: []))))) ++
          (w2 ++ 41 :: []))) ++ wend)
      = .ok (.tree nodes (.tree [] kchildren .null) .null) ∧
    readsgf multiin fullprop fuel (w ++ 40 :: (nt ++ y)) = .error (.gametree_does_not_end d) ∧
    readsgf multiin fullprop fuel (w ++ 40 :: (nt ++ y2)) = .error .empty_node_sequence_korean := by
  refine ⟨?_, ?_, ?_⟩
  · have hk : TreesK (w3 ++ 40 :: (pt ++ (knt ++ (kct ++ (w4 ++ 41 :: [])))))
        (.tree [] kchildren .null) :=
      TreesK.korean w3 pt knt kct w4 [] p ps knodes kchildren .null hw3 hpt hid hknt hkct hw4
        TreesK.nil
    exact readsgf_k multiin fullprop fuel _ _
      ⟨w, nt, _, w2, [], wend, nodes, _, .null, hw, hnt, hk, hw2, TreesK.nil, hwend, rfl, rfl⟩ hf
  · exact readsgf_fails_inside multiin fullprop _ (fun x hx => bad_paren_fails fullprop hx) fuel
      w nt y nodes hw hnt hy hf1
  · exact readsgf_fails_inside multiin fullprop _ (fun x hx => bad_bare_fails fullprop hx) fuel
      w nt y2 nodes hw hnt hy2 hf2

theorem bare_property_tree_witness :
    readsgf false false 40 bareChildText = .ok bareChildTree ∧
    readsgf false false 40 ([40, 59, 66, 91, 97, 97, 93] ++ [40, 87, 91, 98, 98, 93, 41, 41])
      = .error (.gametree_does_not_end 87) ∧
    readsgf false false 40 ([40, 59, 66, 91, 97, 97, 93] ++ [40, 82, 69, 91, 120, 93, 41, 41])
      = .error .empty_node_sequence_korean :=
  bare_property_tree false false 40 [] [59, 66, 91, 97, 97, 93] [] [67, 91, 120, 93] [] [] [] []
    [] [40, 87, 91, 98, 98, 93, 41, 41] [40, 82, 69, 91, 120, 93, 41, 41]
    [{ p := [{ id := [66], val := [[97, 97]] }] }] [] { id := [67], val := [[120]] } [] .null 87
    Ws.nil pointNodes Ws.nil
    (@props_one [67] [120] (idText_one (by decide)) (ValBody.of_plain _ (by decide)))
    (by decide) NodesOpt.none TreesK.nil Ws.nil Ws.nil Ws.nil
    (Fails.base _ ⟨[], [], [91, 98, 98, 93, 41, 41], Ws.nil, Ws.nil, by decide, by decide,
      by decide, by decide, by decide, by decide, by decide, rfl⟩)
    (Fails.base _ ⟨[], [82, 69, 91, 120, 93], [41, 41], { id := [82, 69], val := [[120]] }, [],
      Ws.nil,
      @props_one [82, 69] [120] ⟨by decide, by decide, by decide⟩
        (ValBody.of_plain _ (by decide)),
      by decide, ⟨82, [69], rfl, Or.inl rfl⟩,
      ⟨[], 41, [41], Ws.nil, by decide, by decide, Or.inr (Or.inr rfl), rfl⟩, rfl⟩)
    (by decide) (by decide) (by decide)

/-- C30: white space inserted outside the value bodies does not change the outcome of
`readsgf`.  When the text `u` is the text `t` with white space characters (space, tab,
newline, carriage return, form feed, vertical tab) inserted at places outside the value
bodies, `readsgf` gives for `u` what it gives for `t`, with every bound on the number of
steps: the same forest, or the same error; and with a bound above the length of `u`
plus 2 neither call stops for lack of steps. -/
theorem whitespace_outside_values (multiin fullprop : Bool) (fuel : Nat) (t u : List Nat)
    (h : Ins .sym t u) :
    readsgf multiin fullprop fuel u = readsgf multiin fullprop fuel t ∧
      (u.length + 2 < fuel →
        readsgf multiin fullprop fuel t ≠ .error .out_of_fuel ∧
        readsgf multiin fullprop fuel u ≠ .error .out_of_fuel) :=
  ⟨readsgf_rel multiin fullprop fuel h, fun hf =>
    ⟨readsgf_fuel multiin fullprop fuel t (by have := h.length_le; omega),
      readsgf_fuel multiin fullprop fuel u hf⟩⟩

theorem whitespace_outside_values_witness :
    Ins .sym spacedText spacedWide ∧
      readsgf false false 40 spacedWide = .ok spacedTree ∧
      readsgf false false 40 spacedText = .ok spacedTree :=
  have h : Ins .sym spacedText spacedWide :=
    Ins.sym (by decide) (Ins.ws (by decide) (Ins.sym (by decide) (Ins.ws (by decide)
      (Ins.sym (by decide) (Ins.ws (by decide) (Ins.opens (Ins.plain (by decide) (by decide)
        (Ins.plain (by decide) (by decide) (Ins.plain (by decide) (by decide)
          (Ins.close (by rfl) (Ins.ws (by decide) (Ins.sym (by decide)
            (Ins.done _)))))))))))))
  ⟨h, (whitespace_outside_values false false 40 spacedText spacedWide h).1.trans (by rfl),
    by rfl⟩

/-- C31, evaluated: with `multiin` set, of the three games of `(;B[aa])(;B[bb])x(;B[cc])`
the second is dropped. `read_collection` hangs the trees read after the junk on the
first tree of the run before it (`gh->nextsibling = gn`), not on its last, so the
forest has the two siblings `B[aa]` and `B[cc]`.  The same three games next to each
other, or each two separated by junk, are all returned. -/
theorem multiin_drops_game :
    readsgf true false 40 threeGamesText = .ok (oneMove [97, 97] (oneMove [99, 99] .null)) ∧
    siblings (oneMove [97, 97] (oneMove [99, 99] .null)) = 2 ∧
    readsgf true false 40 threeAdjacentText
      = .ok (oneMove [97, 97] (oneMove [98, 98] (oneMove [99, 99] .null))) ∧
    readsgf true false 40 threeApartText
      = .ok (oneMove [97, 97] (oneMove [98, 98] (oneMove [99, 99] .null))) :=
  ⟨by rfl, by rfl, by rfl, by rfl⟩

/-- C38.  `readsgf` ends on every input, for both option settings: with more fuel than
the text has bytes (and three to spare) it returns a forest or stops with an error of
the reader, never for lack of fuel.  Every loop of the reader uses up input: a byte
read by `mygetchar` makes what is left (`Input.size`: the bytes of the buffer, the
pending symbol, the end of the file) smaller by one, `mygetsym` by one at least, and
each loop (garbage skipping, value, identifier, values, properties, nodes, trees,
collection), started with more fuel than what is left, does not run out of fuel and
leaves no more input than it found (the garbage loop at most one byte more: it puts back
`(;T` for `(T`). -/
theorem readsgf_terminates (multiin fullprop : Bool) (fuel : Nat) (text : List Nat)
    (hf : text.length + 2 < fuel) :
    readsgf multiin fullprop fuel text ≠ .error .out_of_fuel ∧
    (∀ inp, Post (fun a => a.2.size + 1 = inp.size) (mygetchar inp)) ∧
    (∀ inp, Post (fun a => a.2.size + 1 ≤ inp.size) (mygetsym inp)) ∧
    (∀ n inp, inp.size < n → Post (fun i => i.size ≤ inp.size + 1) (skip_initial_garbage n inp)) ∧
    (∀ n acc inp, inp.size < n →
      Post (fun a => a.2.size + 1 ≤ inp.size) (read_propvalue_following_sq n acc inp)) ∧
    (∀ n p q inp, inp.size < n →
      Post (fun a => a.2.size ≤ inp.size) (read_propid fullprop n p q inp)) ∧
    (∀ n inp, inp.size < n →
      Post (fun a => a.2.size ≤ inp.size) (read_propvalue_sequence n inp)) ∧
    (∀ n inp, inp.size < n →
      Post (fun a => a.2.size ≤ inp.size) (read_properties fullprop n inp)) ∧
    (∀ n inp, inp.size < n →
      Post (fun a => a.2.size ≤ inp.size) (read_node_sequence fullprop n inp)) ∧
    (∀ n inp, inp.size < n →
      Post (fun a => a.2.size ≤ inp.size) (read_gametree_sequence fullprop n inp)) ∧
    (∀ n g inp, inp.size + 1 < n → read_more fullprop n g inp ≠ .error .out_of_fuel) := by
  refine ⟨readsgf_fuel multiin fullprop fuel text hf, ?_, ?_, ?_, ?_, ?_, ?_, ?_, ?_, ?_, ?_⟩
  · exact fun inp => (mygetchar_post inp).post_mono fun a ha => ha.1
  · exact fun inp => (mygetsym_post inp).post_mono fun a ha => ha.1
  · exact fun n inp h => skip_initial_garbage_post n inp h
  · exact fun n acc inp h => read_value_post n acc inp h
  · exact fun n p q inp h => (read_propid_post fullprop n p q inp h).post_mono fun a ha => ha.1
  · exact fun n inp h => read_values_post n inp h
  · exact fun n inp h => (read_properties_post fullprop n inp h).post_mono fun a ha => ha.1
  · exact fun n inp h => (read_nodes_post fullprop n inp h).post_mono fun a ha => ha.1
  · exact fun n inp h =>
      (read_gametree_sequence_post fullprop n inp h).post_mono fun a ha => ha.1
  · exact fun n g inp h => (read_more_post fullprop n g inp h).1

theorem readsgf_terminates_witness :
    pointText.length + 2 < 20 ∧ readsgf false false 20 pointText = .ok pointTree ∧
    readsgf false false 20 pointText ≠ .error .out_of_fuel :=
  ⟨by decide, by rfl, (readsgf_terminates false false 20 pointText (by decide)).1⟩

/-- C21, as stated, fails for a value body with a NUL byte.  The body `a` NUL `b` has no
`]` and no backslash; the reader copies its three bytes into the buffer and stores the
buffer as a C string, so the value of the comment is `a`, cut at the NUL byte. -/
theorem nul_body_counterexample :
    (∀ c ∈ [97, 0, 98], c ≠ 93 ∧ c ≠ 92) ∧
    readsgf false false 20 nulBodyText
      = .ok (.tree [{ p := [{ id := [67], val := [[97]] }] }] .null .null) ∧
    readsgf false true 20 nulBodyText
      = .ok (.tree [{ p := [{ id := [67], val := [[97]] }] }] .null .null) ∧
    ([97] : List Nat) ≠ [97, 0, 98] ∧
    read_propvalue_following_sq 20 [] (fresh [97, 0, 98, 93, 41] 0)
      = .ok ([97], { buf := [], peekc := 41, eof := false, warned := 0 }) :=
  ⟨by decide, by rfl, by rfl, by decide, by rfl⟩

/-- C20, amended: an input that is a strict collection but for unescaped `]` inside
values, each followed (white space skipped) by a symbol that is none of `; ( ) [`, no
letter and no NUL, or by the closing bracket of its value, is read by `readsgf`: one
warning is written for each such `]` (exactly one for a single one), the value keeps the
`]` and the text after it (without the white space right behind the `]`), and the
forest is that of the text with these `]` escaped, identifier by identifier and value by
value, except that there the values with such a `]` hold the escaped text; that text is
read without a warning.  A `]` followed (white space skipped) by a lower-case letter `d`
ends the value there, whatever follows: the value reader returns the value read so far
and writes no warning for this `]`, and `d` is the next symbol, the start of the next
property.  So in `(;C[a]bX[y];B[aa])` the comment is `a` and the letters `bX` are read as
the identifier `X`, without a warning. -/
theorem readsgf_unescaped_bracket (multiin fullprop : Bool) (fuel : Nat)
    (text stext : List Nat) (g gs : gametree) (k : Nat)
    (h : CollectionLoose text stext g gs k) (hf : text.length < fuel)
    (hfs : stext.length < fuel) :
    readsgf multiin fullprop fuel text = .ok g ∧
    readsgf_warnings multiin fullprop fuel text = .ok k ∧
    readsgf multiin fullprop fuel stext = .ok gs ∧
    readsgf_warnings multiin fullprop fuel stext = .ok 0 ∧
    (∀ (t s v : List Nat) (kk : Nat) (w : List Nat) (d : Nat) (r : List Nat) (k0 n : Nat),
      LooseBody t s v kk → Ws w → is_lower_case d = true → t.length < n →
      read_propvalue_following_sq n [] (fresh (t ++ 93 :: (w ++ d :: r)) k0)
        = .ok (v, { buf := r, peekc := d, eof := false, warned := k0 + kk })) ∧
    readsgf false false 40 letterPropText
      = .ok (.tree [{ p := [{ id := [67], val := [[97]] }, { id := [88], val := [[121]] }] },
          { p := [{ id := [66], val := [[97, 97]] }] }] .null .null) ∧
    readsgf_warnings false false 40 letterPropText = .ok 0 :=
  ⟨(readsgf_collection multiin fullprop fuel text stext g gs k h hf).1,
    (readsgf_collection multiin fullprop fuel text stext g gs k h hf).2,
    (readsgf_collection multiin fullprop fuel stext stext gs gs 0
      h.collection_escaped.collection_loose hfs).1,
    (readsgf_collection multiin fullprop fuel stext stext gs gs 0
      h.collection_escaped.collection_loose hfs).2,
    fun t s v kk w d r k0 n hb hw hd hn => by
      have hl := letter_facts (show (is_upper_case d || is_lower_case d) = true by
        rw [hd, Bool.or_true])
      have he : ends_value d = true := by
        unfold ends_value
        rw [hd]
        simp
      have h1 := read_value_ok hb n [] w d r k0 hw hl.1 he (fun c hc => by cases hc) hn
      simpa [fresh] using h1,
    by rfl, by rfl⟩

theorem readsgf_unescaped_bracket_witness :
    (CollectionLoose bracketText bracketEscaped bracketTree bracketEscapedTree 1 ∧
      bracketText.length < 32 ∧ bracketEscaped.length < 32) ∧
    readsgf false false 32 bracketText = .ok bracketTree ∧
    readsgf_warnings false false 32 bracketText = .ok 1 ∧
    readsgf false false 32 bracketEscaped = .ok bracketEscapedTree ∧
    readsgf_warnings false false 32 bracketEscaped = .ok 0 :=
  ⟨⟨bracketText_derives, by decide, by decide⟩,
    (readsgf_unescaped_bracket false false 32 bracketText bracketEscaped bracketTree
      bracketEscapedTree 1 bracketText_derives (by decide) (by decide)).1,
    (readsgf_unescaped_bracket false false 32 bracketText bracketEscaped bracketTree
      bracketEscapedTree 1 bracketText_derives (by decide) (by decide)).2.1,
    (readsgf_unescaped_bracket false false 32 bracketText bracketEscaped bracketTree
      bracketEscapedTree 1 bracketText_derives (by decide) (by decide)).2.2.1,
    (readsgf_unescaped_bracket false false 32 bracketText bracketEscaped bracketTree
      bracketEscapedTree 1 bracketText_derives (by decide) (by decide)).2.2.2.1⟩

/-- C27, as stated, fails in both directions.  For the tree with which the file starts:
in `(TM[1];W[bb])` the `(` is directly followed by a bare property, and the tree of the
forest has a node sequence that is not empty (the reader goes on as if the text were
`(;TM[1];W[bb])`).  And in `(;B[aa](;W[bb])C[x])` both `(` are followed by `;`, and the
forest has a tree with an empty node sequence: the tree without parentheses of its own
that starts with `C[x]` behind the game tree `(;W[bb])`. -/
theorem sgf2_nodes_counterexample :
    timeText = 40 :: 84 :: [77, 91, 49, 93, 59, 87, 91, 98, 98, 93, 41] ∧
    is_upper_case 84 = true ∧ readsgf false false 20 timeText = .ok timeTree ∧
    timeTree = .tree [{ p := [{ id := [84, 77], val := [[49]] }] },
      { p := [{ id := [87], val := [[98, 98]] }] }] .null .null ∧
    bareTailText = [40, 59] ++ [66, 91, 97, 97, 93] ++
      ([40, 59] ++ [87, 91, 98, 98, 93] ++ [41]) ++ [67, 91, 120, 93] ++ [41] ∧
    readsgf false false 40 bareTailText = .ok bareTailTree ∧
    bareTailTree = .tree [{ p := [{ id := [66], val := [[97, 97]] }] }]
      (.tree [] .null (.tree [{ p := [{ id := [87], val := [[98, 98]] }] }] .null .null))
      .null :=
  ⟨rfl, rfl, rfl, rfl, rfl, rfl, rfl⟩

/-- C27, amended.  For every input and both option settings: when `readsgf` returns a
forest, the reader that keeps the place of every tree (`readsgf_at`: the same steps,
and with every tree the state in which `read_baretree` was called for it) returns that
forest, and for every tree of it: the tree was read behind a `(` (in the state `origin`
the next symbol is `(`, and the next symbol behind it is the first symbol of the tree),
or without parentheses of its own behind the game trees of another tree (the next
symbol there is the first symbol of the tree, one of `;`, `C`, `R`); its first symbol
is `;` or one of `R`, `N`, `C`; its node sequence is empty if and only if its first
symbol is not `;`; when it starts with `;` its node sequence is the one that
`read_node_sequence` reads from there, all nodes in the order of the input; when it
starts with `R`, `N` or `C`, `read_korean_node_sequence` has read nodes from there of
which the first starts with a property `RN`, `RF`, `N` or `C`, and they are dropped.
The first tree of the file is read from the text that `gameStart` gives: as `(;T` when
its `(` is followed by `T`.  For a collection as in `CollectionK` the forest is the one
of the derivation.  In `(;B[aa](;W[bb])C[x])` the trees are: behind `(` with `;` and the
node `B[aa]`; without parentheses with `C` and no node; behind `(` with `;` and the
node `W[bb]`. -/
theorem empty_sequence_iff_bare (multiin fullprop : Bool) (fuel : Nat) (text : List Nat)
    (g : gametree) (h : readsgf multiin fullprop fuel text = .ok g) :
    (∃ m, readsgf_at multiin fullprop fuel text = .ok m ∧ erase m = g ∧
      ∀ (paren : Bool) (origin start : Input) (ns : List node),
        (paren, origin, start, ns) ∈ marks m →
        (if paren = true then
            ∃ a b, mygetsym origin = .ok (40, a) ∧ mygetsym a = .ok (start.peekc, b) ∧
              start = { b with peekc := start.peekc }
          else
            ∃ b, mygetsym origin = .ok (start.peekc, b) ∧
              start = { b with peekc := start.peekc } ∧
              (start.peekc = 59 ∨ start.peekc = 67 ∨ start.peekc = 82)) ∧
        (start.peekc = 59 ∨ start.peekc = 82 ∨ start.peekc = 78 ∨ start.peekc = 67) ∧
        (ns = [] ↔ start.peekc ≠ 59) ∧
        (start.peekc = 59 → ∃ n j, read_node_sequence fullprop n start = .ok (ns, j)) ∧
        (start.peekc ≠ 59 →
          ∃ n k j nd rest p ps, read_korean_node_sequence fullprop n start = .ok (k, j) ∧
            k = nd :: rest ∧ nd.p = p :: ps ∧ bareAllowed p.id)) ∧
    (text.length + 1 < fuel →
      readsgf multiin fullprop fuel text = parseFrom multiin fullprop fuel (gameStart text)) ∧
    (∀ (text2 : List Nat) (g2 : gametree), CollectionK text2 g2 → text2.length + 1 < fuel →
      readsgf multiin fullprop fuel text2 = .ok g2) ∧
    placesOf (readsgf_at false false 40 bareTailText)
      = [(true, 59, [{ p := [{ id := [66], val := [[97, 97]] }] }]), (false, 67, []),
          (true, 59, [{ p := [{ id := [87], val := [[98, 98]] }] }])] ∧
    placesOf (readsgf_at false false 40 bareChildText)
      = [(true, 59, [{ p := [{ id := [66], val := [[97, 97]] }] }]), (true, 67, [])] := by
  have hf := readsgf_at_forget multiin fullprop fuel text
  have hp := readsgf_at_holds multiin fullprop fuel text
  refine ⟨?_, fun hl => readsgf_eq_start multiin fullprop fuel text hl,
    fun text2 g2 hk hl => readsgf_k multiin fullprop fuel text2 g2 hk hl, by decide, by decide⟩
  cases hm : readsgf_at multiin fullprop fuel text with
  | error e =>
    rw [hm, h] at hf
    cases hf
  | ok m =>
    rw [hm, h] at hf
    injection hf with hf
    exact ⟨m, rfl, hf, fun paren origin start ns hx => hp m hm _ hx⟩

theorem empty_sequence_iff_bare_witness :
    readsgf false false 40 bareTailText = .ok bareTailTree ∧
    (∃ m, readsgf_at false false 40 bareTailText = .ok m ∧ erase m = bareTailTree ∧
      ∀ (paren : Bool) (origin start : Input) (ns : List node),
        (paren, origin, start, ns) ∈ marks m →
        (if paren = true then
            ∃ a b, mygetsym origin = .ok (40, a) ∧ mygetsym a = .ok (start.peekc, b) ∧
              start = { b with peekc := start.peekc }
          else
            ∃ b, mygetsym origin = .ok (start.peekc, b) ∧
              start = { b with peekc := start.peekc } ∧
              (start.peekc = 59 ∨ start.peekc = 67 ∨ start.peekc = 82)) ∧
        (start.peekc = 59 ∨ start.peekc = 82 ∨ start.peekc = 78 ∨ start.peekc = 67) ∧
        (ns = [] ↔ start.peekc ≠ 59) ∧
        (start.peekc = 59 → ∃ n j, read_node_sequence false n start = .ok (ns, j)) ∧
        (start.peekc ≠ 59 →
          ∃ n k j nd rest p ps, read_korean_node_sequence false n start = .ok (k, j) ∧
            k = nd :: rest ∧ nd.p = p :: ps ∧ bareAllowed p.id)) :=
  ⟨by rfl, (empty_sequence_iff_bare false false 40 bareTailText bareTailTree (by rfl)).1⟩

end Readsgf

namespace Sgffileinput

open Readsgf (property node gametree)

/-- C17, as stated, fails: the value `pass` is neither empty nor two characters long,
yet `put_move` adds a move for it; and the rectangle `aa:bb` adds four entries. -/
theorem put_move_pass_counterexample :
    (strip (cstring passText) ≠ [] ∧ (strip (cstring passText)).length ≠ 2 ∧
      put_move [66] [passText] ([], 0) = .ok ([Int.lor PASS BLACK_MASK], 1)) ∧
    (strip (cstring [97, 97, 58, 98, 98]) ≠ [] ∧
      (strip (cstring [97, 97, 58, 98, 98])).length ≠ 2 ∧
      put_move [87] [[97, 97, 58, 98, 98]] ([], 0)
        = .ok ([156001, 156002, 156257, 156258], 1)) :=
  ⟨⟨by decide, by decide, rfl⟩, by decide, by decide, rfl⟩

/-- C17, amended: with room in the array, `put_move` on a `B` or `W` property adds exactly
one entry when the stripped value is empty, two characters long or the word `pass` (the
pass code, or the code of the point, with the colour mask); a value `ab:cd` is rejected
with the range error when `a > c` or `b > d` and otherwise adds the entries of the whole
rectangle; every other value is rejected with the error `unexpected move`.  In each
accepted case `movect` grows by one. -/
theorem put_move_values (id v : List Nat) (rest : List (List Nat)) (moves : List Int)
    (movect : Nat) (mask : Int)
    (hid : (id.head? = some 66 ∧ mask = BLACK_MASK) ∨ (id.head? = some 87 ∧ mask = WHITE_MASK))
    (hlen : moves.length < MAXMOVES) :
    ((strip (cstring v) = [] ∨ strip (cstring v) = passText) →
      put_move id (v :: rest) (moves, movect)
        = .ok (moves ++ [Int.lor PASS mask], movect + 1)) ∧
    (∀ a b, strip (cstring v) = [a, b] →
      put_move id (v :: rest) (moves, movect)
        = .ok (moves ++ [pointCode mask (schar a, schar b)], movect + 1)) ∧
    (∀ a b c d, strip (cstring v) = [a, b, 58, c, d] →
      ((schar a > schar c ∨ schar b > schar d) →
        put_move id (v :: rest) (moves, movect)
          = .error (.unexpected_range [a, b, 58, c, d])) ∧
      (¬ (schar a > schar c ∨ schar b > schar d) →
        moves.length + ((schar c - schar a + 1) * (schar d - schar b + 1)).toNat ≤ MAXMOVES →
        put_move id (v :: rest) (moves, movect)
          = .ok (moves ++ (rectPoints (schar a) (schar b) (schar c) (schar d)).map
              (pointCode mask), movect + 1))) ∧
    (¬ oneEntry (strip (cstring v)) → (¬ ∃ a b c d, strip (cstring v) = [a, b, 58, c, d]) →
      put_move id (v :: rest) (moves, movect)
        = .error (.unexpected_move (strip (cstring v)))) := by
  have hc := put_move1_cases v mask moves
  have hp : ∀ m, put_code moves m = .ok (moves ++ [m]) := by
    intro m
    unfold put_code
    rw [if_neg (by omega)]
  rw [put_move_eq id v rest moves movect mask hid]
  refine ⟨?_, ?_, ?_, ?_⟩
  · rintro (h | h)
    · rw [hc.1 h, hp]
      rfl
    · rw [hc.2.1 h, hp]
      rfl
  · intro a b h
    rw [hc.2.2.1 a b h, hp]
    rfl
  · intro a b c d h
    constructor
    · intro hr
      unfold put_move1
      simp only [h]
      rw [if_pos hr]
      rfl
    · intro hr hroom
      have hl := rectPoints_length (schar a) (schar b) (schar c) (schar d) (by omega) (by omega)
      rw [rect_ok v mask moves a b c d h hr, put_rows _ _ _ _ (by
        rw [intRange_length, intRange_length]
        obtain ⟨m, hm⟩ := Int.eq_ofNat_of_zero_le (by omega : 0 ≤ schar c - schar a + 1)
        obtain ⟨n, hn⟩ := Int.eq_ofNat_of_zero_le (by omega : 0 ≤ schar d - schar b + 1)
        rw [hm, hn, ← Nat.cast_mul, Int.toNat_ofNat] at hroom
        rw [hm, hn, Int.toNat_ofNat, Int.toNat_ofNat]
        exact hroom)]
      unfold rectPoints
      simp only [List.map_flatMap, List.map_map]
      rfl
  · intro h1 h2
    rw [hc.2.2.2 h1 h2]
    rfl

theorem put_move_values_witness :
    ((([66] : List Nat).head? = some 66 ∧ BLACK_MASK = BLACK_MASK) ∨
      (([66] : List Nat).head? = some 87 ∧ BLACK_MASK = WHITE_MASK)) ∧
    ([] : List Int).length < MAXMOVES ∧
    put_move [66] [[32, 100, 112, 10]] ([], 0)
      = .ok ([] ++ [pointCode BLACK_MASK (schar 100, schar 112)], 0 + 1) ∧
    pointCode BLACK_MASK (schar 100, schar 112) = 65536 + (100 * 256 + 112) :=
  ⟨Or.inl ⟨rfl, rfl⟩, by decide,
    (put_move_values [66] [32, 100, 112, 10] [] [] 0 BLACK_MASK (Or.inl ⟨rfl, rfl⟩)
      (by decide)).2.1 100 112 (by decide), by decide⟩

/-- C18: for a value that reads `ab:cd` once the blanks are stripped, `put_move1` stops
with the range error exactly when `a > c` or `b > d` (as characters); otherwise, when
the array has room for them, it appends the entries of the points of the rectangle,
which are the `(c-a+1)*(d-b+1)` points `(x, y)` with `a ≤ x ≤ c` and `b ≤ y ≤ d`, each
once, row by row, every entry being `(x<<8) | y | mask` (for characters below 128 the
sum of `256 * x + y` and the colour mask); without room it stops with `too many moves`. -/
theorem put_move1_rectangle (v : List Nat) (mask : Int) (moves : List Int) (a b c d : Nat)
    (hs : strip (cstring v) = [a, b, 58, c, d]) (hlen : moves.length ≤ MAXMOVES) :
    ((∃ e, put_move1 (some v) mask moves = .error (.unexpected_range e)) ↔
      (schar a > schar c ∨ schar b > schar d)) ∧
    (¬ (schar a > schar c ∨ schar b > schar d) →
      (rectPoints (schar a) (schar b) (schar c) (schar d)).length
          = ((schar c - schar a + 1) * (schar d - schar b + 1)).toNat ∧
      (∀ x y, (x, y) ∈ rectPoints (schar a) (schar b) (schar c) (schar d) ↔
          (schar a ≤ x ∧ x ≤ schar c) ∧ (schar b ≤ y ∧ y ≤ schar d)) ∧
      (rectPoints (schar a) (schar b) (schar c) (schar d)).Nodup ∧
      (rectPoints (schar a) (schar b) (schar c) (schar d)).Pairwise rowMajor ∧
      ((mask = BLACK_MASK ∨ mask = WHITE_MASK) → 0 ≤ schar a → 0 ≤ schar b →
        ∀ p ∈ rectPoints (schar a) (schar b) (schar c) (schar d),
          pointCode mask p = mask + (256 * p.1 + p.2)) ∧
      (moves.length + ((schar c - schar a + 1) * (schar d - schar b + 1)).toNat ≤ MAXMOVES →
        put_move1 (some v) mask moves = .ok (moves ++
          (rectPoints (schar a) (schar b) (schar c) (schar d)).map (pointCode mask))) ∧
      (MAXMOVES < moves.length + ((schar c - schar a + 1) * (schar d - schar b + 1)).toNat →
        put_move1 (some v) mask moves = .error .too_many_moves)) := by
  have hlen2 := fun (h : ¬ (schar a > schar c ∨ schar b > schar d)) =>
    rectPoints_length (schar a) (schar b) (schar c) (schar d) (by omega) (by omega)
  have hrows : (intRange (schar a) (schar c)).length * (intRange (schar b) (schar d)).length
      = (rectPoints (schar a) (schar b) (schar c) (schar d)).length := by
    unfold rectPoints
    generalize intRange (schar a) (schar c) = rows
    induction rows with
    | nil => simp
    | cons x xs ih => simp [List.flatMap_cons, ← ih, Nat.add_mul, Nat.add_comm]
  constructor
  · constructor
    · rintro ⟨e, he⟩
      by_contra hn
      rw [rect_ok v mask moves a b c d hs hn] at he
      by_cases hr : moves.length + ((schar c - schar a + 1) * (schar d - schar b + 1)).toNat
          ≤ MAXMOVES
      · rw [put_rows _ _ _ _ (by rw [hrows, hlen2 hn]; exact hr)] at he
        cases he
      · rw [put_rows_full _ _ _ _ (by rw [hrows, hlen2 hn]; omega) hlen] at he
        cases he
    · intro h
      refine ⟨[a, b, 58, c, d], ?_⟩
      unfold put_move1
      simp only [hs]
      rw [if_pos h]
  · intro hn
    refine ⟨hlen2 hn, fun x y => mem_rectPoints _ _ _ _ x y, rectPoints_nodup _ _ _ _,
      rectPoints_sorted _ _ _ _, ?_, ?_, ?_⟩
    · intro hm ha hb p hp
      obtain ⟨x, y⟩ := p
      have h1 := (mem_rectPoints _ _ _ _ x y).1 hp
      have hc : schar c < 128 := by unfold schar; split <;> omega
      have hd : schar d < 128 := by unfold schar; split <;> omega
      rw [pointCode_ascii mask x y hm (by omega) (by omega)]
      ring
    · intro hr
      rw [rect_ok v mask moves a b c d hs hn,
        put_rows _ _ _ _ (by rw [hrows, hlen2 hn]; exact hr)]
      unfold rectPoints
      simp only [List.map_flatMap, List.map_map]
      rfl
    · intro hr
      rw [rect_ok v mask moves a b c d hs hn,
        put_rows_full _ _ _ _ (by rw [hrows, hlen2 hn]; omega) hlen]

theorem put_move1_rectangle_witness :
    (strip (cstring [32, 97, 97, 58, 98, 99, 10, 0, 7]) = [97, 97, 58, 98, 99] ∧
      ([] : List Int).length ≤ MAXMOVES) ∧
    (¬ (schar 97 > schar 98 ∨ schar 97 > schar 99) ∧
      put_move1 (some [32, 97, 97, 58, 98, 99, 10, 0, 7]) BLACK_MASK [] = .ok
        ([] ++ (rectPoints (schar 97) (schar 97) (schar 98) (schar 99)).map
          (pointCode BLACK_MASK)) ∧
      (rectPoints (schar 97) (schar 97) (schar 98) (schar 99)).map (pointCode BLACK_MASK)
        = [90465, 90466, 90467, 90721, 90722, 90723]) :=
  ⟨⟨by decide, by decide⟩, by decide,
    ((put_move1_rectangle [32, 97, 97, 58, 98, 99, 10, 0, 7] BLACK_MASK [] 97 97 98 99
      (by decide) (by decide)).2 (by decide)).2.2.2.2.2.1 (by decide), by decide⟩

/-- C15: for a top-level game tree with a root node, in which every property has a
value, the values of `AB` and `AW` in the root node and of the single-valued `B` and `W`
on the main line are points, empty or `pass`, the property `SZ` is accepted and the
array has room, `put_gametree` (entered with `gtlevel = 0` and `skipping` clear, as from
`do_stdin`) ends without error and `report_on_single_game` finds: in `moves` the entries
of the setup values of the root node in ascending order, then one entry for every
single-valued `B` or `W` of the nodes of the main line, in order (the nodes of the tree,
the root node included, then those of its first child, and so on); `initct` is the number
of setup entries and `movect` the number of moves.  The siblings of a first child occur
nowhere in the result. -/
theorem put_gametree_mainline (root : node) (ns : List node) (fc sib : gametree)
    (st : Extract) (sz : Int) (hl : st.gtlevel = 0) (hs : st.skipping = false)
    (hsz : setsize root.p DEFAULTSZ = .ok sz)
    (hval : ∀ n ∈ mainline (.tree (root :: ns) fc sib), ∀ p ∈ n.p, p.val ≠ [])
    (hsetup : ∀ x ∈ setup_values root.p, oneEntry (strip (cstring x.2)))
    (hmoves : ∀ x ∈ line_moves (mainline (.tree (root :: ns) fc sib)),
      oneEntry (strip (cstring x.2)))
    (hroom : (setup_values root.p).length +
      (line_moves (mainline (.tree (root :: ns) fc sib))).length ≤ MAXMOVES) :
    put_gametree (.tree (root :: ns) fc sib) st = .ok { st with
      gamenr := st.gamenr + 1
      size := sz
      moves := sort_initial_stones (codes (setup_values root.p)) ++
        codes (line_moves (mainline (.tree (root :: ns) fc sib)))
      movect := (line_moves (mainline (.tree (root :: ns) fc sib))).length
      initct := (setup_values root.p).length
      handct := handicap (setup_values root.p)
      gtlevel := 0
      skipping := false
      reported := st.reported ++
        [{ gamenr := st.gamenr + 1
           size := sz
           moves := sort_initial_stones (codes (setup_values root.p)) ++
             codes (line_moves (mainline (.tree (root :: ns) fc sib)))
           movect := (line_moves (mainline (.tree (root :: ns) fc sib))).length
           initct := (setup_values root.p).length
           handct := handicap (setup_values root.p) }] } := by
  have hm : mainline (.tree (root :: ns) fc sib) = (root :: ns) ++ mainline fc := rfl
  rw [hm, line_moves_append] at hmoves hroom ⊢
  rw [List.length_append] at hroom ⊢
  have hval1 : ∀ n ∈ root :: ns, ∀ p ∈ n.p, p.val ≠ [] := fun n hn =>
    hval n (by rw [hm]; exact List.mem_append_left _ hn)
  have hval2 : ∀ n ∈ mainline fc, ∀ p ∈ n.p, p.val ≠ [] := fun n hn =>
    hval n (by rw [hm]; exact List.mem_append_right _ hn)
  have e0 : get_initial_stones root { st with
        gtlevel := 1, gamenr := st.gamenr + 1, size := sz, movect := 0, moves := [],
        initct := 0, handct := 0 }
      = .ok { st with
        gtlevel := 1, gamenr := st.gamenr + 1, size := sz, movect := 0
        moves := sort_initial_stones (codes (setup_values root.p))
        initct := (setup_values root.p).length
        handct := handicap (setup_values root.p) } := by
    refine (get_initial_stones_iff root _ _ (by simp)).2
      ⟨codes (setup_values root.p), allCodes_one _ hsetup, ?_, ?_⟩
    · simp only [List.length_nil, Nat.zero_add]
      rw [codes_length]
      omega
    · simp only [List.nil_append]
      rw [codes_length]
  have e1 : init_if_top (root :: ns) { st with gtlevel := st.gtlevel + 1 }
      = .ok { st with
        gtlevel := 1, gamenr := st.gamenr + 1, size := sz, movect := 0
        moves := sort_initial_stones (codes (setup_values root.p))
        initct := (setup_values root.p).length
        handct := handicap (setup_values root.p) } := by
    unfold init_if_top
    simp only
    rw [if_pos (by omega)]
    unfold init_single_game
    rw [hsz, ebind_ok]
    simp only [hl, Int.zero_add]
    exact e0
  have e2 : put_nodesequence (root :: ns) { st with
        gtlevel := 1, gamenr := st.gamenr + 1, size := sz, movect := 0
        moves := sort_initial_stones (codes (setup_values root.p))
        initct := (setup_values root.p).length
        handct := handicap (setup_values root.p) }
      = .ok { st with
        gtlevel := 1, gamenr := st.gamenr + 1, size := sz
        movect := 0 + (line_moves (root :: ns)).length
        moves := sort_initial_stones (codes (setup_values root.p)) ++ codes (line_moves (root :: ns))
        initct := (setup_values root.p).length
        handct := handicap (setup_values root.p) } :=
    put_nodesequence_ok (root :: ns) _ hval1 (fun x hx => hmoves x (List.mem_append_left _ hx))
      (by simp only; rw [sort_length, codes_length]; omega)
  have e3 : put_gametree_sequence fc { st with
        gtlevel := 1, gamenr := st.gamenr + 1, size := sz
        movect := 0 + (line_moves (root :: ns)).length
        moves := sort_initial_stones (codes (setup_values root.p)) ++ codes (line_moves (root :: ns))
        initct := (setup_values root.p).length
        handct := handicap (setup_values root.p) }
      = .ok { st with
        gtlevel := 1, gamenr := st.gamenr + 1, size := sz
        movect := 0 + (line_moves (root :: ns)).length + (line_moves (mainline fc)).length
        moves := (sort_initial_stones (codes (setup_values root.p)) ++
          codes (line_moves (root :: ns))) ++ codes (line_moves (mainline fc))
        initct := (setup_values root.p).length
        handct := handicap (setup_values root.p)
        skipping := decide (fc ≠ .null) } :=
    walk_children fc _ hs (by simp only; omega) hval2
      (fun x hx => hmoves x (List.mem_append_right _ hx))
      (by simp only [List.length_append]; rw [sort_length, codes_length, codes_length]; omega)
  unfold put_gametree
  simp only
  unfold put_gametree_with
  rw [e1, ebind_ok, e2, ebind_ok, e3, ebind_ok]
  simp only [if_true, report_on_single_game]
  simp [codes, Nat.add_assoc]

theorem put_gametree_mainline_witness :
    (start.gtlevel = 0 ∧ start.skipping = false ∧ setsize walkRoot.p DEFAULTSZ = .ok 19) ∧
    put_gametree walkTree start = .ok { start with
      gamenr := 1
      size := 19
      moves := [91236, 159856, 90465, 156258, 90979, 157029]
      movect := 4
      initct := 2
      reported :=
        [{ gamenr := 1
           size := 19
           moves := [91236, 159856, 90465, 156258, 90979, 157029]
           movect := 4
           initct := 2
           handct := 0 }] } :=
  ⟨⟨rfl, rfl, rfl⟩,
    (put_gametree_mainline walkRoot [walkNode] walkChildren .null start 19 rfl rfl rfl
      (by decide) (by decide) (by decide) (by decide)).trans rfl⟩

/-- C16, as stated, fails for values with bytes above 127: `char` is signed, so the
packed value of such a point is negative and the bits of the colour mask are lost in
it.  For the root node `AB[` e4 b8 `]AW[` e4 b7 `]` the Black stone is packed as -72
and the White stone as -73, and the sorted array has the White stone first. -/
theorem high_byte_counterexample :
    setup_values highNode.p = [(BLACK_MASK, [228, 184]), (WHITE_MASK, [228, 183])] ∧
    (valueCodes BLACK_MASK [228, 184]).toOption = some [-72] ∧
    (valueCodes WHITE_MASK [228, 183]).toOption = some [-73] ∧
    (get_initial_stones highNode start).toOption
      = some { start with moves := [-73, -72], initct := 2, handct := 0 } ∧
    [(-73 : Int), -72].Sorted (· ≤ ·) :=
  ⟨by decide, by decide!, by decide!, by decide!, by decide⟩

/-- C16, amended: for two root nodes whose `AB` and `AW` values are the same values with
the same colours in another order, `get_initial_stones` (called on an empty array, as
`init_single_game` does) succeeds for the one exactly when it succeeds for the other, and
then leaves the same state: the same array `moves[0..initct)`, which is the whole array,
in ascending order of the packed values.  When every byte of the values is below 128,
the array is the sorted entries of the Black values followed by the sorted entries of
the White values: every entry of a Black value lies from `BLACK_MASK` up to below
`WHITE_MASK`, every entry of a White value from `WHITE_MASK` on, so all Black setup
stones stand before all White ones. -/
theorem setup_order_independent (n1 n2 : node) (st : Extract) (hst : st.moves = [])
    (hp : (setup_values n1.p).Perm (setup_values n2.p)) :
    ((∃ s1, get_initial_stones n1 st = .ok s1) ↔ (∃ s2, get_initial_stones n2 st = .ok s2)) ∧
    (∀ s1 s2, get_initial_stones n1 st = .ok s1 → get_initial_stones n2 st = .ok s2 →
      s1 = s2 ∧ s1.initct = s1.moves.length ∧ s1.moves.Sorted (· ≤ ·) ∧
        (s1.moves.map tag).Sorted (· ≤ ·)) ∧
    ((∀ x ∈ setup_values n1.p, ∀ b ∈ x.2, b < 128) →
      ∀ s1, get_initial_stones n1 st = .ok s1 →
        ∃ cb cw, allCodes (blackValues (setup_values n1.p)) = some cb ∧
          allCodes (whiteValues (setup_values n1.p)) = some cw ∧
          s1.moves = sort_initial_stones cb ++ sort_initial_stones cw ∧
          (∀ m ∈ cb, BLACK_MASK ≤ m ∧ m < WHITE_MASK) ∧
          (∀ m ∈ cw, WHITE_MASK ≤ m ∧ m < WHITE_MASK + 65536)) := by
  have hlen : st.moves.length ≤ MAXMOVES := by rw [hst]; decide
  have key : ∀ (a b : node), (setup_values a.p).Perm (setup_values b.p) →
      ∀ s1, get_initial_stones a st = .ok s1 → get_initial_stones b st = .ok s1 := by
    intro a b hab s1 h1
    obtain ⟨cs, e1, e2, e3⟩ := (get_initial_stones_iff a st s1 hlen).1 h1
    obtain ⟨c2, f1, f2⟩ := allCodes_perm hab cs e1
    refine (get_initial_stones_iff b st s1 hlen).2 ⟨c2, f1, ?_, ?_⟩
    · rw [← f2.length_eq]
      exact e2
    · rw [e3]
      have g1 : sort_initial_stones (st.moves ++ cs) = sort_initial_stones (st.moves ++ c2) :=
        sort_eq_of_perm (List.Perm.append_left _ f2)
      have g2 : handicap (setup_values a.p) = handicap (setup_values b.p) := by
        unfold handicap
        rw [maskCount_perm WHITE_MASK hab, maskCount_perm BLACK_MASK hab]
      rw [g1, g2, List.length_append, List.length_append, f2.length_eq]
  refine ⟨⟨?_, ?_⟩, ?_, ?_⟩
  · rintro ⟨s1, h1⟩
    exact ⟨s1, key n1 n2 hp s1 h1⟩
  · rintro ⟨s2, h2⟩
    exact ⟨s2, key n2 n1 hp.symm s2 h2⟩
  · intro s1 s2 h1 h2
    have h3 := key n1 n2 hp s1 h1
    rw [h2] at h3
    injection h3 with h3
    obtain ⟨cs, e1, e2, e3⟩ := (get_initial_stones_iff n1 st s1 hlen).1 h1
    have hs : s1.moves.Sorted (· ≤ ·) := by
      rw [e3]
      exact sort_sorted _
    refine ⟨h3.symm, ?_, hs, ?_⟩
    · rw [e3]
      simp only
      rw [sort_length]
    · unfold List.Sorted
      rw [List.pairwise_map]
      exact hs.imp fun h => tag_mono h
  · intro hascii s1 h1
    obtain ⟨cs, e1, e2, e3⟩ := (get_initial_stones_iff n1 st s1 hlen).1 h1
    obtain ⟨cb, cw, f1, f2, f3⟩ := allCodes_colours _ cs e1 (setup_values_masks n1.p)
    have hb := allCodes_bound BLACK_MASK (Or.inl rfl) _ cb f1 (by
      intro x hx
      unfold blackValues at hx
      rw [List.mem_filter] at hx
      exact ⟨by simpa using hx.2, hascii x hx.1⟩)
    have hw := allCodes_bound WHITE_MASK (Or.inr rfl) _ cw f2 (by
      intro x hx
      unfold whiteValues at hx
      rw [List.mem_filter] at hx
      exact ⟨by simpa using hx.2, hascii x hx.1⟩)
    have hB : ∀ m ∈ cb, BLACK_MASK ≤ m ∧ m < WHITE_MASK := by
      intro m hm
      have := hb m hm
      unfold BLACK_MASK WHITE_MASK at *
      omega
    refine ⟨cb, cw, f1, f2, ?_, hB, hw⟩
    rw [e3, hst, List.nil_append]
    show sort_initial_stones cs = _
    rw [sort_eq_of_perm f3]
    refine sort_append cb cw ?_
    intro a ha b hb1
    have h1 := (hB a ha).2
    have h2 := (hw b hb1).1
    omega

theorem setup_order_independent_witness :
    (start.moves = [] ∧ (setup_values setupNode1.p).Perm (setup_values setupNode2.p) ∧
      ∀ x ∈ setup_values setupNode1.p, ∀ b ∈ x.2, b < 128) ∧
    (get_initial_stones setupNode1 start = .ok { start with
        moves := [91236, 94308, 156784], initct := 3, handct := 0 } ∧
      get_initial_stones setupNode2 start = .ok { start with
        moves := [91236, 94308, 156784], initct := 3, handct := 0 }) ∧
    (({ start with moves := [91236, 94308, 156784], initct := 3, handct := 0 } : Extract)
        = { start with moves := [91236, 94308, 156784], initct := 3, handct := 0 } ∧
      3 = [91236, 94308, (156784 : Int)].length ∧
      [91236, 94308, (156784 : Int)].Sorted (· ≤ ·) ∧
      ([91236, 94308, (156784 : Int)].map tag).Sorted (· ≤ ·)) ∧
    (∃ cb cw, allCodes (blackValues (setup_values setupNode1.p)) = some cb ∧
      allCodes (whiteValues (setup_values setupNode1.p)) = some cw ∧
      [91236, 94308, (156784 : Int)] = sort_initial_stones cb ++ sort_initial_stones cw ∧
      (∀ m ∈ cb, BLACK_MASK ≤ m ∧ m < WHITE_MASK) ∧
      (∀ m ∈ cw, WHITE_MASK ≤ m ∧ m < WHITE_MASK + 65536)) :=
  ⟨⟨rfl, by decide, by decide⟩, ⟨rfl, rfl⟩,
    (setup_order_independent setupNode1 setupNode2 start rfl (by decide)).2.1 _ _ rfl rfl,
    (setup_order_independent setupNode1 setupNode2 start rfl (by decide)).2.2 (by decide)
      { start with moves := [91236, 94308, 156784], initct := 3, handct := 0 } rfl⟩

end Sgffileinput

namespace Sgfcheck

open Readsgf

/-- C35, evaluated: the file comment of sgfcheck.c lists MN among the move properties,
but `move_props[]` leaves it out and `gameinfo_props[]` holds it, so `get_prop_type`
gives `PT_GAMEINFO` for MN.  The node of `(;MN[1]AB[aa])` has the move property MN and
the setup property AB, and `check_node_seq` accepts it, without an error and without a
warning.  MN is the only difference: every other identifier of the documented list has
the type `PT_MOVE`, and every identifier of type `PT_MOVE` is in the documented list.
With the types of the tables, `check_node_seq` fails on a node sequence if and only if
some node has two properties with the same identifier or has a property of type
`PT_MOVE` and one of type `PT_SETUP`. -/
theorem mn_with_setup_accepted :
    [77, 78] ∈ documented_move_props ∧
    [77, 78] ∉ move_props ∧ [77, 78] ∈ gameinfo_props ∧
    get_prop_type [77, 78] = PT_GAMEINFO ∧
    get_prop_type [65, 66] = PT_SETUP ∧
    nodesOf (readsgf false false 40 mnText)
      = [{ p := [{ id := [77, 78], val := [[49]] }, { id := [65, 66], val := [[97, 97]] }] }] ∧
    check_node_seq (-1) 0 (nodesOf (readsgf false false 40 mnText))
      = .ok { nodenr := 0, moveprop := none, warned := 0 } ∧
    check_node_seq (-1) 0 (nodesOf (readsgf false false 40 mixedText))
      = .error .move_and_setup_properties_in_the_same_node ∧
    (∀ s ∈ documented_move_props, s ≠ [77, 78] → get_prop_type s = PT_MOVE) ∧
    (∀ s, get_prop_type s = PT_MOVE → cstring s ∈ documented_move_props) ∧
    (∀ (nodenr : Int) (warned : Nat) (nodes : List node),
      (∃ e, check_node_seq nodenr warned nodes = .error e) ↔
        ∃ nd ∈ nodes, ¬ DistinctIds nd.p ∨ MoveAndSetup nd.p) :=
  ⟨by decide, by decide, by decide, by decide, by decide, by decide, by rfl, by rfl,
    by decide,
    fun s h =>
      (by decide : ∀ t ∈ [[66], [87], [66, 76], [66, 77], [68, 79], [73, 84], [75, 79],
        [79, 66], [79, 87], [84, 69], [87, 76]], t ∈ documented_move_props) _
        ((move_type_iff s).1 h),
    fun nodenr warned nodes => (check_node_seq_spec nodenr warned nodes).2.2.2.2.1⟩

end Sgfcheck

namespace Sgfdbinput


/-- C34, evaluated.  `do_dbin` reads header fields at offsets at or beyond the size of
the file.  On the 9 bytes `truncatedDb` (a good header and one byte) the loop is
entered and the test reads `sz` at the offsets 8 and 9; on `cutRecordDb`, whose last
record has 15 bytes, the test reads `filenamelen` at the offsets 42 and 43 of a file
of 43 bytes, after the first record has been reported; on the 5 bytes `shortDb` the
field `magic` is read at the offsets 4 and 5.  The test of `do_dbin` compares
`bg + sz` with the end of the file but not `bg + sizeof(struct bingame)`.  The rest is
as the claim says: a record whose header lies in the file passes the test or gives
`bad database`, and a record that passes lies in the file with its moves and its file
name, and `do_bgin` reads it within the file; `oneGameDb` is read without error. -/
theorem dbin_reads_past_end :
    (truncatedDb.length = 9 ∧ do_dbin truncatedDb = ([], some (.read_outside_file 9))) ∧
    (cutRecordDb.length = 43 ∧ (do_dbin cutRecordDb).2 = some (.read_outside_file 43) ∧
      (do_dbin cutRecordDb).1.length = 1) ∧
    (shortDb.length = 5 ∧ do_dbin shortDb = ([], some (.read_outside_file 5))) ∧
    ((do_dbin oneGameDb).2 = none ∧ (do_dbin oneGameDb).1.map (fun g => g.extmoves) = [[1090]] ∧
      (do_dbin oneGameDb).1.map (fun g => g.moves) = [[90722]]) ∧
    (∀ file bg, bg + SIZEOF_BINGAME ≤ file.length →
      (∃ sz, check_record file bg = .ok sz) ∨ check_record file bg = .error .bad_database) ∧
    (∀ file bg sz, check_record file bg = .ok sz →
      ((SIZEOF_BINGAME : Int) ≤ sz ∧ (bg : Int) + sz ≤ file.length ∧
        ∃ mvct filenamelen, rd_short file (bg + 12) = .ok mvct ∧
          rd_short file (bg + 14) = .ok filenamelen ∧ 0 ≤ mvct ∧ 0 ≤ filenamelen ∧
          (SIZEOF_BINGAME : Int) + 2 * mvct + filenamelen ≤ sz) ∧
      ∃ g, do_bgin file bg = .ok g) :=
  ⟨⟨by decide, by decide⟩, ⟨by decide, by decide, by decide⟩, ⟨by decide, by decide⟩,
    ⟨by decide, by decide, by decide⟩,
    fun _ _ h => check_record_in_file h,
    fun _ _ _ h => ⟨check_record_ok h, do_bgin_ok h⟩⟩

end Sgfdbinput

namespace Readsgf0

open Readsgf (property node gametree iswhitespace is_upper_case is_lower_case cstring
  ends_value link Input ReadErr fresh nextSym gameStart)

/-- C40.  Every text that the strict reader (`readsgf` of readsgf0.c) accepts without a
warning is accepted by the reader of readsgf.c with its default options, and both
return the same forest.  With a bound `fuel` above the length of the text plus 1 the
strict reader does not stop for lack of fuel, for any value `nonff4` of its static of
that name; and when it returns the forest `g` in a state with no warning counted, the
other reader, with `multiin` and `fullprop` unset and the same bound, returns `g`.
The value buffer of the strict reader keeps its first size of `propvaluebufsz` bytes:
a value that does not fit is written behind its end, which is no accepted input (the
result `propvaluebuf_overflow`): with that many bytes in the buffer the value reader
does not return. -/
theorem strict_accepted_is_accepted (nonff4 fuel : Nat) (text : List Nat)
    (hf : text.length + 1 < fuel) :
    readsgf nonff4 fuel text ≠ .error .out_of_fuel ∧
    (∀ (g : gametree) (s : Input0), readsgf nonff4 fuel text = .ok (g, s) → s.warned = 0 →
      Readsgf.readsgf false false fuel text = .ok g) ∧
    propvaluebufsz = 20000 ∧
    ∀ (n : Nat) (acc : List Nat) (inp : Input0) (v : List Nat) (s : Input0),
      propvaluebufsz ≤ acc.length → read_propvalue_following_sq n acc inp ≠ .ok (v, s) :=
  ⟨strict_fuel nonff4 fuel text hf, fun g s h hw => strict_sim_top nonff4 fuel text g s hf h hw,
    rfl, fun n acc inp v s h => read_value_overflow n acc inp h v s⟩

theorem strict_accepted_is_accepted_witness :
    Readsgf.pointText.length + 1 < 20 ∧
    readsgf 0 20 Readsgf.pointText = .ok (Readsgf.pointTree, Input0.mk [] 0 true 0 0 0) ∧
    readsgf 1 40 lateNodeText = .ok (lateNodeTree, Input0.mk [] 0 true 0 2 0) ∧
    readsgf 0 40 lateNodeText = .ok (lateNodeTree, Input0.mk [] 0 true 0 1 1) ∧
    Readsgf.readsgf false false 40 lateNodeText = .ok lateNodeTree ∧
    Readsgf.readsgf false false 20 Readsgf.pointText = .ok Readsgf.pointTree :=
  ⟨by decide, by rfl, by rfl, by rfl,
    (strict_accepted_is_accepted 1 40 lateNodeText (by decide)).2.1 lateNodeTree
      (Input0.mk [] 0 true 0 2 0) (by rfl) rfl,
    (strict_accepted_is_accepted 0 20 Readsgf.pointText (by decide)).2.1 Readsgf.pointTree
      (Input0.mk [] 0 true 0 0 0) (by rfl) rfl⟩

end Readsgf0

namespace Writesgf

open Readsgf (property node gametree cstring Ws Stored GoodProp GoodForest NodesNonempty
  IdText ValuesLoose PropsLoose NodesLoose TreesLoose CollectionLoose LooseBody)


/-- C32, as it holds.  For every text without NUL bytes that `readsgf` reads, with its
default options, as a forest `t` in which every game tree has a node, `writesgf` writes
`t` as a text that `readsgf` reads as `t` again: the same trees, children and siblings,
the same nodes, and the same property identifiers and values in the same order. -/
theorem writesgf_roundtrip (fuel : Nat) (text : List Nat) (t : gametree)
    (hf : text.length + 1 < fuel) (hz : ∀ c ∈ text, c ≠ 0)
    (h : Readsgf.readsgf false false fuel text = .ok t) (hn : NodesNonempty t) :
    ∃ out, writesgf t = some out ∧
      ∀ fuel2, out.length < fuel2 → Readsgf.readsgf false false fuel2 out = .ok t := by
  obtain ⟨hne, hg⟩ := Readsgf.readsgf_good fuel text t hf hz h
  exact written_reads_back t hg hn hne

theorem writesgf_roundtrip_witness :
    (gameText.length + 1 < 60 ∧ (∀ c ∈ gameText, c ≠ 0) ∧
      Readsgf.readsgf false false 60 gameText = .ok gameTree ∧ NodesNonempty gameTree) ∧
    ∃ out, writesgf gameTree = some out ∧
      ∀ fuel2, out.length < fuel2 → Readsgf.readsgf false false fuel2 out = .ok gameTree :=
  have hn : NodesNonempty gameTree :=
    ⟨by decide, ⟨by decide, trivial, ⟨by decide, trivial, trivial⟩⟩, trivial⟩
  ⟨⟨by decide, by decide, by rfl, hn⟩,
    writesgf_roundtrip 60 gameText gameTree (by decide) (by decide) (by rfl) hn⟩

/-- C32 as stated fails on a text with a NUL byte.  `readsgf` reads `(;C[a\` NUL `])` as
a tree with the comment `a\`, since a value is stored up to its first NUL byte;
`writesgf` writes it as `C[a\]`, where the backslash makes the `]` a part of the
value, and `readsgf` fails on that text at the end of the file. -/
theorem nul_value_counterexample :
    Readsgf.readsgf false false 40 nulText = .ok nulTree ∧ NodesNonempty nulTree ∧
    writesgf nulTree = some nulWritten ∧
    Readsgf.readsgf false false 40 nulWritten = .error .mygetchar_called_after_eof :=
  ⟨by rfl, ⟨by decide, trivial, trivial⟩, by rfl, by rfl⟩

end Writesgf

